import Mathlib

/-!
Halide auto-scheduler (`AutoSchedule2.cpp`): a shallow embedding.

The development embeds the parts of `src/AutoSchedule2.cpp` that the checked
properties talk about:

* the `MachineParams` string constructor, `string_to_int` and
  `MachineParams::to_string`;
* the symbolic cost records (`Cost`, `GroupAnalysis`, `GroupConfig`) and
  `Partitioner::estimate_benefit` (both overloads);
* `Partitioner::choose_candidate_grouping` and its recursive sibling;
* `Partitioner::get_grouping_candidate`, `Partitioner::merge_groups` and the
  fixed-point loops `Partitioner::group` / `Partitioner::group_recurse`.

A `std::string` is a `List Char`; a `std::map` is an association list kept in
key order; a `std::set` is a strictly increasing list.  A failed `user_assert`
or `internal_assert` is `Except.error`.
-/

namespace Halide

instance instDecidableEqExcept {ε α : Type} [DecidableEq ε] [DecidableEq α] :
    DecidableEq (Except ε α)
  | Except.ok a, Except.ok b =>
    if h : a = b then isTrue (by rw [h]) else isFalse (fun h2 => h (Except.ok.inj h2))
  | Except.error a, Except.error b =>
    if h : a = b then isTrue (by rw [h]) else isFalse (fun h2 => h (Except.error.inj h2))
  | Except.ok _, Except.error _ => isFalse (fun h => Except.noConfusion h)
  | Except.error _, Except.ok _ => isFalse (fun h => Except.noConfusion h)

/-! ## Characters, streams and integers -/

/-- The C predicate `isspace` in the classic locale: blank, or one of the
control characters 9..13. -/
def isspace (c : Char) : Bool := c.toNat = 32 || (9 ≤ c.toNat && c.toNat ≤ 13)

/-- The C predicate `isdigit`. -/
def isdigit (c : Char) : Bool := 48 ≤ c.toNat && c.toNat ≤ 57

/-- Largest value of the C++ type `int`. -/
def INT_MAX : Int := 2147483647

/-- Smallest value of the C++ type `int`. -/
def INT_MIN : Int := -2147483648

/-- State of a `std::istringstream`: the characters not read yet and the
fail bit. -/
structure istringstream where
  buf : List Char
  failbit : Bool
  deriving DecidableEq, Repr

/-- Leading white space is skipped by formatted input (`skipws` is set by
default). -/
def skip_ws : List Char → List Char
  | [] => []
  | c :: cs => if isspace c then skip_ws cs else c :: cs

/-- Longest prefix of decimal digits, and what follows it. -/
def read_digits : List Char → List Char × List Char
  | [] => ([], [])
  | c :: cs =>
    if isdigit c then ((c :: (read_digits cs).1), (read_digits cs).2) else ([], c :: cs)

/-- Value of a run of decimal digits. -/
def digits_value (ds : List Char) : Nat :=
  ds.foldl (fun acc c => 10 * acc + (c.toNat - 48)) 0

/-- The sign accepted by `operator>>`: the rest of the input after an
optional `-` or `+`. -/
def read_sign : List Char → Bool × List Char
  | [] => (false, [])
  | c :: cs => if c = '-' then (true, cs) else if c = '+' then (false, cs) else (false, c :: cs)

/-- The formatted extraction `iss >> i` for `int i`: skip white space, read an
optional sign and a non-empty run of decimal digits; the fail bit is set when
there is no digit or when the value does not fit in `int` (the value is then
clamped). -/
def istringstream.extract_int (iss : istringstream) : Int × istringstream :=
  if iss.failbit then (0, iss)
  else
    let s := read_sign (skip_ws iss.buf)
    let r := read_digits s.2
    if r.1 = [] then (0, ⟨r.2, true⟩)
    else
      let v : Int := if s.1 then -(digits_value r.1 : Int) else (digits_value r.1 : Int)
      if INT_MAX < v then (INT_MAX, ⟨r.2, true⟩)
      else if v < INT_MIN then (INT_MIN, ⟨r.2, true⟩)
      else (v, ⟨r.2, false⟩)

/-- The member `fail()`. -/
def istringstream.fail (iss : istringstream) : Bool := iss.failbit

/-- The unformatted `get()`: the next character, or `none` for `EOF`. -/
def istringstream.get (iss : istringstream) : Option Char :=
  if iss.failbit then none else iss.buf.head?

/-- `string_to_int` (AutoSchedule2.cpp, lines 58-64). -/
def string_to_int (s : List Char) : Except String Int :=
  let iss : istringstream := ⟨s, false⟩
  let r := iss.extract_int
  if !r.2.fail && r.2.get == none then Except.ok r.1
  else Except.error ("Unable to parse: " ++ String.mk s)

/-- Modelled from the spec: `split_string` (Util.cpp, not among the sources),
called with the one-character delimiter `","`.  The fields are the maximal
runs between delimiters; an input without delimiter is a single field, and a
trailing delimiter is followed by an empty field. -/
def split_string : List Char → Char → List (List Char)
  | [], _ => [[]]
  | c :: cs, d =>
    if c = d then [] :: split_string cs d
    else
      match split_string cs d with
      | [] => [[c]]
      | f :: fs => (c :: f) :: fs

/-- What it means for a field to be read completely as an `int`: the field
is optional white space, an optional sign, and a non-empty run of decimal
digits up to its end, and the signed value fits in `int`. -/
def is_int_literal (field : List Char) (n : Int) : Prop :=
  ∃ ws sign ds : List Char, field = ws ++ (sign ++ ds) ∧
    (∀ c ∈ ws, isspace c = true) ∧ (sign = [] ∨ sign = ['-'] ∨ sign = ['+']) ∧
    ds ≠ [] ∧ (∀ c ∈ ds, isdigit c = true) ∧
    n = (if sign = ['-'] then -(digits_value ds : Int) else (digits_value ds : Int)) ∧
    INT_MIN ≤ n ∧ n ≤ INT_MAX

/-! ## Symbolic expressions -/

/-- The fragment of Halide `Expr` used by the cost model: integer constants,
variables, arithmetic, `min`/`max`, comparisons, division and casts.  Types
(`Int(32)`, `Int(64)`) are not tracked; a cast names its target type. -/
inductive Expr where
  | IntImm (value : Int)
  | Variable (name : String)
  | Add (a b : Expr)
  | Sub (a b : Expr)
  | Mul (a b : Expr)
  | Min (a b : Expr)
  | Max (a b : Expr)
  | LT (a b : Expr)
  | LE (a b : Expr)
  | GT (a b : Expr)
  | GE (a b : Expr)
  | EQ (a b : Expr)
  | Div (a b : Expr)
  | Cast (t : String) (a : Expr)
  deriving DecidableEq, Repr

/-- Value of an expression under a valuation of its variables, read over the
integers: a comparison is 1 when it holds and 0 otherwise, a division is the
quotient that leaves a remainder that is not negative (0 for the divisor 0),
and a cast keeps the value (the rounding of floating-point values is not
modelled). -/
def Expr.eval (env : String → Int) : Expr → Int
  | .IntImm v => v
  | .Variable n => env n
  | .Add a b => a.eval env + b.eval env
  | .Sub a b => a.eval env - b.eval env
  | .Mul a b => a.eval env * b.eval env
  | .Min a b => min (a.eval env) (b.eval env)
  | .Max a b => max (a.eval env) (b.eval env)
  | .LT a b => if a.eval env < b.eval env then 1 else 0
  | .LE a b => if a.eval env ≤ b.eval env then 1 else 0
  | .GT a b => if b.eval env < a.eval env then 1 else 0
  | .GE a b => if b.eval env ≤ a.eval env then 1 else 0
  | .EQ a b => if a.eval env = b.eval env then 1 else 0
  | .Div a b => a.eval env / b.eval env
  | .Cast _ a => a.eval env

/-- `make_zero(Int(64))`. -/
def make_zero : Expr := Expr.IntImm 0

/-- `Int(64).max()`. -/
def Int64_max : Expr := Expr.IntImm 9223372036854775807

/-- Character of a decimal digit. -/
def digit_char (d : Nat) : Char :=
  match d with
  | 0 => '0' | 1 => '1' | 2 => '2' | 3 => '3' | 4 => '4'
  | 5 => '5' | 6 => '6' | 7 => '7' | 8 => '8' | _ => '9'

/-- Decimal digits of a natural number, most significant first; the first
argument bounds the number of digits. -/
def print_nat_fuel : Nat → Nat → List Char
  | 0, _ => []
  | fuel + 1, n =>
    if n < 10 then [digit_char n]
    else print_nat_fuel fuel (n / 10) ++ [digit_char (n % 10)]

/-- Decimal numeral of a natural number. -/
def print_nat (n : Nat) : List Char := print_nat_fuel (n + 1) n

/-- The stream insertion of an integer: a minus sign for a negative value,
then the decimal digits of the magnitude. -/
def print_int (i : Int) : List Char :=
  if i < 0 then '-' :: print_nat i.natAbs else print_nat i.natAbs

/-- Modelled from the spec: the stream insertion `o << e` of an `Expr`
(IRPrinter.cpp, not among the sources).  An `int` constant prints as its
decimal numeral; compound expressions print in infix form. -/
def print_expr : Expr → List Char
  | .IntImm v => print_int v
  | .Variable n => n.toList
  | .Add a b => "(".toList ++ print_expr a ++ " + ".toList ++ print_expr b ++ ")".toList
  | .Sub a b => "(".toList ++ print_expr a ++ " - ".toList ++ print_expr b ++ ")".toList
  | .Mul a b => "(".toList ++ print_expr a ++ "*".toList ++ print_expr b ++ ")".toList
  | .Min a b => "min(".toList ++ print_expr a ++ ", ".toList ++ print_expr b ++ ")".toList
  | .Max a b => "max(".toList ++ print_expr a ++ ", ".toList ++ print_expr b ++ ")".toList
  | .LT a b => "(".toList ++ print_expr a ++ " < ".toList ++ print_expr b ++ ")".toList
  | .LE a b => "(".toList ++ print_expr a ++ " <= ".toList ++ print_expr b ++ ")".toList
  | .GT a b => "(".toList ++ print_expr a ++ " > ".toList ++ print_expr b ++ ")".toList
  | .GE a b => "(".toList ++ print_expr a ++ " >= ".toList ++ print_expr b ++ ")".toList
  | .EQ a b => "(".toList ++ print_expr a ++ " == ".toList ++ print_expr b ++ ")".toList
  | .Div a b => "(".toList ++ print_expr a ++ "/".toList ++ print_expr b ++ ")".toList
  | .Cast t a => t.toList ++ "(".toList ++ print_expr a ++ ")".toList

/-! ## Machine parameters -/

/-- `MachineParams`: the three parameters of the machine model, each an
`Expr`. -/
structure MachineParams where
  parallelism : Expr
  last_level_cache_size : Expr
  balance : Expr
  deriving DecidableEq, Repr

/-- The constructor `MachineParams(int, int, int)`. -/
def MachineParams.of_ints (parallelism last_level_cache_size balance : Int) : MachineParams :=
  ⟨Expr.IntImm parallelism, Expr.IntImm last_level_cache_size, Expr.IntImm balance⟩

/-- `MachineParams::generic()` (lines 4683-4685). -/
def MachineParams.generic : MachineParams :=
  MachineParams.of_ints 16 (16 * 1024 * 1024) 40

/-- `MachineParams::to_string()` (lines 4687-4694). -/
def MachineParams.to_string (p : MachineParams) : List Char :=
  print_expr p.parallelism ++ [','] ++ print_expr p.last_level_cache_size ++ [','] ++
    print_expr p.balance

/-- `MachineParams::MachineParams(const std::string &)` (lines 4696-4702):
the input is split at commas, exactly three fields are required, and each is
read with `string_to_int`. -/
def MachineParams.of_string (s : List Char) : Except String MachineParams :=
  match split_string s ',' with
  | [v0, v1, v2] =>
    match string_to_int v0 with
    | Except.error e => Except.error e
    | Except.ok parallelism =>
      match string_to_int v1 with
      | Except.error e => Except.error e
      | Except.ok last_level_cache_size =>
        match string_to_int v2 with
        | Except.error e => Except.error e
        | Except.ok balance =>
          Except.ok ⟨Expr.IntImm parallelism, Expr.IntImm last_level_cache_size,
            Expr.IntImm balance⟩
  | _ => Except.error ("Unable to parse MachineParams: " ++ String.mk s)

/-! ## Ordered containers -/

/-- Insertion into a `std::set`, held as an increasing list: the element is
dropped when an equivalent one (neither smaller nor larger) is present. -/
def set_insert {α : Type} (lt : α → α → Bool) (x : α) : List α → List α
  | [] => [x]
  | y :: ys =>
    if lt x y then x :: y :: ys
    else if lt y x then y :: set_insert lt x ys
    else y :: ys

/-- Range insertion `s.insert(first, last)`. -/
def set_insert_all {α : Type} (lt : α → α → Bool) (xs : List α) (s : List α) : List α :=
  xs.foldl (fun acc x => set_insert lt x acc) s

/-- Lookup in a `std::map` (`find`): the value stored under the key. -/
def map_find {κ ν : Type} [DecidableEq κ] : List (κ × ν) → κ → Option ν
  | [], _ => none
  | (k1, v) :: rest, k => if k1 = k then some v else map_find rest k

/-- Removal `m.erase(k)`. -/
def map_erase {κ ν : Type} [DecidableEq κ] (m : List (κ × ν)) (k : κ) : List (κ × ν) :=
  m.filter (fun e => !decide (e.1 = k))

/-- Insertion `m.emplace(k, v)`: nothing happens when the key is present. -/
def map_emplace {κ ν : Type} (lt : κ → κ → Bool) (k : κ) (v : ν) : List (κ × ν) → List (κ × ν)
  | [] => [(k, v)]
  | (k1, v1) :: rest =>
    if lt k k1 then (k, v) :: (k1, v1) :: rest
    else if lt k1 k then (k1, v1) :: map_emplace lt k v rest
    else (k1, v1) :: rest

/-- Assignment `m[k] = v`: the value is replaced when the key is present. -/
def map_assign {κ ν : Type} (lt : κ → κ → Bool) (k : κ) (v : ν) : List (κ × ν) → List (κ × ν)
  | [] => [(k, v)]
  | (k1, v1) :: rest =>
    if lt k k1 then (k, v) :: (k1, v1) :: rest
    else if lt k1 k then (k1, v1) :: map_assign lt k v rest
    else (k1, v) :: rest

/-- Lexicographic comparison of character sequences. -/
def chars_lt : List Char → List Char → Bool
  | [], [] => false
  | [], _ :: _ => true
  | _ :: _, [] => false
  | a :: as, b :: bs =>
    decide (a.toNat < b.toNat) || (a.toNat == b.toNat && chars_lt as bs)

/-- The order of `std::string`: lexicographic by character. -/
def string_lt (a b : String) : Bool := chars_lt a.toList b.toList

/-- The lookup `get_element(m, k)`, which asserts that the key is present. -/
def get_element {κ ν : Type} [DecidableEq κ] (m : List (κ × ν)) (k : κ) : Except String ν :=
  match map_find m k with
  | some v => Except.ok v
  | none => Except.error "get_element: key not found"

/-! ## Pipeline data -/

/-- Modelled from the spec: what the partitioner reads of a `Function`
(Function.h, not among the sources): its name, the number of update
definitions (`updates().size()`), and whether it has a pure and an extern
definition. -/
structure Function where
  name : String
  updates : Nat
  has_pure_definition : Bool
  has_extern_definition : Bool
  deriving DecidableEq, Repr

/-- Modelled from the spec: `Function::has_update_definition()`. -/
def Function.has_update_definition (f : Function) : Bool := decide (0 < f.updates)

/-- Modelled from the spec: `Function::is_pure()`, a function with a pure
definition and neither update nor extern definition. -/
def Function.is_pure (f : Function) : Bool :=
  f.has_pure_definition && !f.has_update_definition && !f.has_extern_definition

/-- The environment `dep_analysis.env` (`map<string, Function>`): every
function is stored under its own name, so the map is held as the list of its
functions and searched by name. -/
def env_find : List Function → String → Option Function
  | [], _ => none
  | f :: rest, n => if f.name = n then some f else env_find rest n

/-- The lookup `get_element(dep_analysis.env, name)`. -/
def env_get (env : List Function) (n : String) : Except String Function :=
  match env_find env n with
  | some f => Except.ok f
  | none => Except.error "get_element: function not in the environment"

/-- `FStage` (lines 32-56), a stage of a function.  Stages are compared by
`func.name()` and `stage_num` only (`operator==`, `operator<`), so `func`
holds the name of the function; the function is found in the environment. -/
structure FStage where
  func : String
  stage_num : Nat
  deriving DecidableEq, Repr

/-- `FStage::operator<` (lines 42-46). -/
def FStage.lt (a b : FStage) : Bool :=
  string_lt a.func b.func || (a.func == b.func && decide (a.stage_num < b.stage_num))

/-- `Partitioner::GroupingChoice` (lines 901-919). -/
structure GroupingChoice where
  prod : String
  cons : FStage
  deriving DecidableEq, Repr

/-- `GroupingChoice::operator<` (lines 911-913). -/
def GroupingChoice.lt (a b : GroupingChoice) : Bool :=
  string_lt a.prod b.prod || (a.prod == b.prod && FStage.lt a.cons b.cons)

/-- A map from dimension names to tile sizes, `map<string, Expr>`. -/
abbrev TileSizes := List (String × Expr)

/-- `Partitioner::Group` (lines 969-1018). -/
inductive Group where
  | mk (output : FStage) (members : List FStage) (inlined : List String)
      (tile_sizes : TileSizes) (subgroups : List Group)

/-- Field `output` of a group. -/
def Group.output : Group → FStage
  | .mk o _ _ _ _ => o

/-- Field `members` of a group. -/
def Group.members : Group → List FStage
  | .mk _ m _ _ _ => m

/-- Field `inlined` of a group. -/
def Group.inlined : Group → List String
  | .mk _ _ i _ _ => i

/-- Field `tile_sizes` of a group. -/
def Group.tile_sizes : Group → TileSizes
  | .mk _ _ _ t _ => t

/-- Field `subgroups` of a group. -/
def Group.subgroups : Group → List Group
  | .mk _ _ _ _ s => s

/-- Modelled from the spec: `Cost` (RegionCosts.h, not among the sources):
arithmetic and memory cost, either of which may be an undefined `Expr`. -/
structure Cost where
  arith : Option Expr
  memory : Option Expr
  deriving DecidableEq, Repr

/-- Modelled from the spec: `Cost::defined()`, both components are defined. -/
def Cost.defined (c : Cost) : Bool := c.arith.isSome && c.memory.isSome

/-- Modelled from the spec: `Cost::simplify()`, which simplifies each defined
component. -/
def Cost.simplify (simplify : Expr → Expr) (c : Cost) : Cost :=
  ⟨c.arith.map simplify, c.memory.map simplify⟩

/-- `Partitioner::GroupAnalysis` (lines 1021-1048). -/
structure GroupAnalysis where
  cost : Cost
  parallelism : Option Expr
  deriving DecidableEq, Repr

/-- `GroupAnalysis::defined()` (lines 1031-1033). -/
def GroupAnalysis.defined (a : GroupAnalysis) : Bool := a.cost.defined && a.parallelism.isSome

/-- `GroupAnalysis::simplify()` (lines 1035-1040). -/
def GroupAnalysis.simplify (simplify : Expr → Expr) (a : GroupAnalysis) : GroupAnalysis :=
  ⟨a.cost.simplify simplify, a.parallelism.map simplify⟩

/-- `Partitioner::GroupConfig` (lines 1053-1059). -/
structure GroupConfig where
  tile_sizes : TileSizes
  analysis : GroupAnalysis
  deriving DecidableEq, Repr

/-- `Partitioner::Level` (line 1084). -/
inductive Level where
  | Inline
  | FastMem
  deriving DecidableEq, Repr

/-- The symbolic primitives of Simplify.h, which the scheduler takes from
outside: the simplifier and the prover built on it. -/
structure Primitives where
  simplify : Expr → Expr
  can_prove : Expr → Bool

/-- A simplifier is sound when it keeps the value under every valuation. -/
def Primitives.simplify_sound (P : Primitives) : Prop :=
  ∀ (env : String → Int) (e : Expr), (P.simplify e).eval env = e.eval env

/-- A prover is sound when what it proves holds under every valuation. -/
def Primitives.can_prove_sound (P : Primitives) : Prop :=
  ∀ e : Expr, P.can_prove e = true → ∀ env : String → Int, e.eval env ≠ 0

/-- The state of a `Partitioner` (lines 899-1272) that grouping reads and
writes. -/
structure Partitioner where
  grouping_cache : List (GroupingChoice × GroupConfig)
  groups : List (FStage × Group)
  children : List (FStage × List FStage)
  group_costs : List (FStage × GroupAnalysis)
  arch_params : MachineParams
  env : List Function
  outputs : List Function

/-! ## Benefit of a grouping -/

/-- The sum `a + b` of two `Expr` handles; the operator needs both defined. -/
def opt_add (a b : Option Expr) : Option Expr :=
  match a, b with
  | some x, some y => some (Expr.Add x y)
  | _, _ => none

/-- The minimum `min(a, b)` of two `Expr` handles. -/
def opt_min (a b : Option Expr) : Option Expr :=
  match a, b with
  | some x, some y => some (Expr.Min x y)
  | _, _ => none

/-- The undefined analysis `GroupAnalysis()`. -/
def GroupAnalysis.undefined : GroupAnalysis := ⟨⟨none, none⟩, none⟩

/-- The start value `GroupAnalysis(Cost(0, 0), Int(64).max())` of both sums
in the aggregated `estimate_benefit`. -/
def GroupAnalysis.zero : GroupAnalysis :=
  ⟨⟨some (Expr.IntImm 0), some (Expr.IntImm 0)⟩, some Int64_max⟩

/-- One more defined analysis in a sum (lines 2992-2995 and 3012-3015):
costs are added, parallelism is the minimum. -/
def GroupAnalysis.accumulate (acc a : GroupAnalysis) : GroupAnalysis :=
  ⟨⟨opt_add acc.cost.arith a.cost.arith, opt_add acc.cost.memory a.cost.memory⟩,
    opt_min acc.parallelism a.parallelism⟩

/-- `Partitioner::estimate_benefit(const GroupAnalysis &, const GroupAnalysis &,
bool, bool)` (lines 2949-2971); `none` is the undefined `Expr()`. -/
def estimate_benefit (P : Primitives) (arch_params : MachineParams)
    (old_grouping new_grouping : GroupAnalysis)
    (no_redundant_work ensure_parallelism : Bool) : Option Expr :=
  if ensure_parallelism &&
      (match new_grouping.parallelism with
        | none => true
        | some p => !P.can_prove (Expr.GE p arch_params.parallelism)) then none
  else if !old_grouping.cost.defined || !new_grouping.cost.defined then none
  else
    match old_grouping.cost.arith, new_grouping.cost.arith,
        old_grouping.cost.memory, new_grouping.cost.memory with
    | some old_arith, some new_arith, some old_memory, some new_memory =>
      let arith_benefit := Expr.Sub old_arith new_arith
      if no_redundant_work && !P.can_prove (Expr.GE arith_benefit (Expr.IntImm 0)) then none
      else
        let mem_benefit := Expr.Sub old_memory new_memory
        some (P.simplify (Expr.Add mem_benefit arith_benefit))
    | _, _, _, _ => none

/-- The stages `FStage(prod_f, s)` for `s` below `num_prod_stages`, inserted
into a set of stages (lines 2983-2986). -/
def insert_prod_stages (prod_f : Function) (old_groups : List FStage) : List FStage :=
  (List.range (prod_f.updates + 1)).foldl
    (fun acc s => set_insert FStage.lt ⟨prod_f.name, s⟩ acc) old_groups

/-- First loop of the aggregated `estimate_benefit` (lines 2980-3001): the
set of old groups and the sum over the new groups; the loop stops at the
first undefined analysis. -/
def estimate_benefit_new_groups (env : List Function) :
    List (GroupingChoice × GroupConfig) → List FStage → GroupAnalysis →
      Except String (List FStage × GroupAnalysis)
  | [], old_groups, acc => Except.ok (old_groups, acc)
  | g :: rest, old_groups, acc =>
    match env_get env g.1.prod with
    | Except.error e => Except.error e
    | Except.ok prod_f =>
      let old_groups1 := set_insert FStage.lt g.1.cons (insert_prod_stages prod_f old_groups)
      if g.2.analysis.defined then
        estimate_benefit_new_groups env rest old_groups1 (acc.accumulate g.2.analysis)
      else Except.ok (old_groups1, GroupAnalysis.undefined)

/-- Second loop of the aggregated `estimate_benefit` (lines 3007-3021): the
sum over the old groups, each of which must have an entry in `group_costs`. -/
def estimate_benefit_old_groups (group_costs : List (FStage × GroupAnalysis)) :
    List FStage → GroupAnalysis → Except String GroupAnalysis
  | [], acc => Except.ok acc
  | g :: rest, acc =>
    match map_find group_costs g with
    | none => Except.error "internal_assert: iter != group_costs.end()"
    | some analysisg =>
      if analysisg.defined then
        estimate_benefit_old_groups group_costs rest (acc.accumulate analysisg)
      else Except.ok GroupAnalysis.undefined

/-- `Partitioner::estimate_benefit(const vector<pair<GroupingChoice,
GroupConfig>> &, bool, bool)` (lines 2973-3028). -/
def Partitioner.estimate_benefit (P : Primitives) (part : Partitioner)
    (new_grouping : List (GroupingChoice × GroupConfig))
    (no_redundant_work ensure_parallelism : Bool) : Except String (Option Expr) :=
  match estimate_benefit_new_groups part.env new_grouping [] GroupAnalysis.zero with
  | Except.error e => Except.error e
  | Except.ok (old_groups, new_acc) =>
    let new_group_analysis := new_acc.simplify P.simplify
    match estimate_benefit_old_groups part.group_costs old_groups GroupAnalysis.zero with
    | Except.error e => Except.error e
    | Except.ok old_acc =>
      let old_group_analysis := old_acc.simplify P.simplify
      Except.ok (Halide.estimate_benefit P part.arch_params old_group_analysis new_group_analysis
        no_redundant_work ensure_parallelism)

/-- The stages that the aggregated `estimate_benefit` treats as old groups of
a choice: the consumer stage and every stage of the producer. -/
def GroupingChoice.affects (env : List Function) (choice : GroupingChoice) (k : FStage) : Prop :=
  ∃ prod_f : Function, env_find env choice.prod = some prod_f ∧
    (k = choice.cons ∨ (k.func = prod_f.name ∧ k.stage_num ≤ prod_f.updates))

/-! ## Choice of the best candidate -/

/-- The cost model behind `evaluate_choice` (bounds inference, region costs,
tile search) lies outside this development: the selection is embedded for an
arbitrary evaluator of a grouping choice. -/
abbrev EvaluateChoice := GroupingChoice → Level → TileSizes → Except String GroupConfig

/-- The evaluator behind `evaluate_choice_recurse`: a configuration and the
subgroups of the nested partition. -/
abbrev EvaluateChoiceRecurse := GroupingChoice → Except String (GroupConfig × List Group)

/-- Inner loop of `choose_candidate_grouping` (lines 1524-1539): one choice
per child of the producer, evaluated through the grouping cache. -/
def choose_candidate_grouping_children (ev : EvaluateChoice) (level : Level)
    (tile_bounds : TileSizes) (prod : String) :
    List FStage → List (GroupingChoice × GroupConfig) →
      Except String (List (GroupingChoice × GroupConfig) × List (GroupingChoice × GroupConfig))
  | [], cache => Except.ok ([], cache)
  | c :: rest, cache =>
    let cand_choice : GroupingChoice := ⟨prod, c⟩
    match map_find cache cand_choice with
    | some best_config =>
      match choose_candidate_grouping_children ev level tile_bounds prod rest cache with
      | Except.error e => Except.error e
      | Except.ok (grouping, cache1) => Except.ok ((cand_choice, best_config) :: grouping, cache1)
    | none =>
      match ev cand_choice level tile_bounds with
      | Except.error e => Except.error e
      | Except.ok best_config =>
        match choose_candidate_grouping_children ev level tile_bounds prod rest
            (map_emplace GroupingChoice.lt cand_choice best_config cache) with
        | Except.error e => Except.error e
        | Except.ok (grouping, cache1) =>
          Except.ok ((cand_choice, best_config) :: grouping, cache1)

/-- The running state of `choose_candidate_grouping`: the best grouping, its
benefit and the grouping cache. -/
structure ChooseState where
  best_grouping : List (GroupingChoice × GroupConfig)
  best_benefit : Expr
  grouping_cache : List (GroupingChoice × GroupConfig)

/-- Body of the loop over the candidates in `choose_candidate_grouping`
(lines 1516-1555). -/
def choose_candidate_grouping_body (P : Primitives) (part : Partitioner) (ev : EvaluateChoice)
    (level : Level) (tile_bounds : TileSizes) (st : ChooseState) (p : String × String) :
    Except String ChooseState :=
  match env_get part.env p.1 with
  | Except.error e => Except.error e
  | Except.ok prod_f =>
    let prod : FStage := ⟨prod_f.name, prod_f.updates⟩
    match get_element part.children prod with
    | Except.error e => Except.error e
    | Except.ok cs =>
      match choose_candidate_grouping_children ev level tile_bounds prod_f.name cs
          st.grouping_cache with
      | Except.error e => Except.error e
      | Except.ok (grouping, cache1) =>
        match part.estimate_benefit P grouping false true with
        | Except.error e => Except.error e
        | Except.ok none => Except.ok ⟨st.best_grouping, st.best_benefit, cache1⟩
        | Except.ok (some overall_benefit) =>
          if P.can_prove (Expr.LT st.best_benefit overall_benefit) then
            Except.ok ⟨grouping, overall_benefit, cache1⟩
          else Except.ok ⟨st.best_grouping, st.best_benefit, cache1⟩

/-- The loop over the candidates in `choose_candidate_grouping`. -/
def choose_candidate_grouping_loop (P : Primitives) (part : Partitioner) (ev : EvaluateChoice)
    (level : Level) (tile_bounds : TileSizes) :
    List (String × String) → ChooseState → Except String ChooseState
  | [], st => Except.ok st
  | p :: rest, st =>
    match choose_candidate_grouping_body P part ev level tile_bounds st p with
    | Except.error e => Except.error e
    | Except.ok st1 => choose_candidate_grouping_loop P part ev level tile_bounds rest st1

/-- `Partitioner::choose_candidate_grouping` (lines 1510-1566): the best
grouping, and the grouping cache after the evaluations. -/
def Partitioner.choose_candidate_grouping (P : Primitives) (part : Partitioner)
    (ev : EvaluateChoice) (cands : List (String × String)) (level : Level)
    (tile_bounds : TileSizes) :
    Except String (List (GroupingChoice × GroupConfig) × List (GroupingChoice × GroupConfig)) :=
  match choose_candidate_grouping_loop P part ev level tile_bounds cands
      ⟨[], make_zero, part.grouping_cache⟩ with
  | Except.error e => Except.error e
  | Except.ok st => Except.ok (st.best_grouping, st.grouping_cache)

/-- Inner loop of `choose_candidate_grouping_recurse` (lines 1583-1593). -/
def choose_candidate_grouping_recurse_children (evr : EvaluateChoiceRecurse) (prod : String) :
    List FStage → Except String (List (GroupingChoice × GroupConfig) × List (List Group))
  | [] => Except.ok ([], [])
  | c :: rest =>
    let cand_choice : GroupingChoice := ⟨prod, c⟩
    match evr cand_choice with
    | Except.error e => Except.error e
    | Except.ok (best_config, best_sub) =>
      match choose_candidate_grouping_recurse_children evr prod rest with
      | Except.error e => Except.error e
      | Except.ok (grouping, subgroups) =>
        Except.ok ((cand_choice, best_config) :: grouping, best_sub :: subgroups)

/-- The running state of `choose_candidate_grouping_recurse`. -/
structure ChooseRecurseState where
  best_grouping : List (GroupingChoice × GroupConfig)
  best_subgroups : List (List Group)
  best_benefit : Expr

/-- Body of the loop over the candidates in `choose_candidate_grouping_recurse`
(lines 1573-1610). -/
def choose_candidate_grouping_recurse_body (P : Primitives) (part : Partitioner)
    (evr : EvaluateChoiceRecurse) (st : ChooseRecurseState) (p : String × String) :
    Except String ChooseRecurseState :=
  match env_get part.env p.1 with
  | Except.error e => Except.error e
  | Except.ok prod_f =>
    let prod : FStage := ⟨prod_f.name, prod_f.updates⟩
    match get_element part.children prod with
    | Except.error e => Except.error e
    | Except.ok cs =>
      match choose_candidate_grouping_recurse_children evr prod_f.name cs with
      | Except.error e => Except.error e
      | Except.ok (grouping, subgroups) =>
        match part.estimate_benefit P grouping false true with
        | Except.error e => Except.error e
        | Except.ok none => Except.ok st
        | Except.ok (some overall_benefit) =>
          if P.can_prove (Expr.LT st.best_benefit overall_benefit) then
            Except.ok ⟨grouping, subgroups, overall_benefit⟩
          else Except.ok st

/-- The loop over the candidates in `choose_candidate_grouping_recurse`. -/
def choose_candidate_grouping_recurse_loop (P : Primitives) (part : Partitioner)
    (evr : EvaluateChoiceRecurse) :
    List (String × String) → ChooseRecurseState → Except String ChooseRecurseState
  | [], st => Except.ok st
  | p :: rest, st =>
    match choose_candidate_grouping_recurse_body P part evr st p with
    | Except.error e => Except.error e
    | Except.ok st1 => choose_candidate_grouping_recurse_loop P part evr rest st1

/-- `Partitioner::choose_candidate_grouping_recurse` (lines 1568-1621). -/
def Partitioner.choose_candidate_grouping_recurse (P : Primitives) (part : Partitioner)
    (evr : EvaluateChoiceRecurse) (cands : List (String × String)) :
    Except String (List (GroupingChoice × GroupConfig) × List (List Group)) :=
  match choose_candidate_grouping_recurse_loop P part evr cands ⟨[], [], make_zero⟩ with
  | Except.error e => Except.error e
  | Except.ok st => Except.ok (st.best_grouping, st.best_subgroups)

/-! ## What the selection loop computes for one candidate -/

/-- A benefit that the selection loop can accept: it is provably above the
start value 0, or provably above a benefit accepted before it. -/
inductive AcceptedBenefit (P : Primitives) : Expr → Prop
  | first (b : Expr) : P.can_prove (Expr.LT make_zero b) = true → AcceptedBenefit P b
  | next (a b : Expr) : AcceptedBenefit P a → P.can_prove (Expr.LT a b) = true →
      AcceptedBenefit P b

/-- The configuration of a choice as the loop obtains it: the cached one when
the grouping cache has an entry, the evaluated one otherwise. -/
def lookup_or_evaluate (ev : EvaluateChoice) (level : Level) (tile_bounds : TileSizes)
    (cache : List (GroupingChoice × GroupConfig)) (choice : GroupingChoice) :
    Except String GroupConfig :=
  match map_find cache choice with
  | some cfg => Except.ok cfg
  | none => ev choice level tile_bounds

/-- The grouping of a producer: one choice per child, each with its
configuration. -/
def candidate_grouping (ev : EvaluateChoice) (level : Level) (tile_bounds : TileSizes)
    (cache : List (GroupingChoice × GroupConfig)) (prod : String) :
    List FStage → Except String (List (GroupingChoice × GroupConfig))
  | [] => Except.ok []
  | c :: rest =>
    match lookup_or_evaluate ev level tile_bounds cache ⟨prod, c⟩ with
    | Except.error e => Except.error e
    | Except.ok cfg =>
      match candidate_grouping ev level tile_bounds cache prod rest with
      | Except.error e => Except.error e
      | Except.ok grouping => Except.ok ((⟨prod, c⟩, cfg) :: grouping)

/-- The grouping of a candidate and its aggregated benefit, for a given
grouping cache. -/
def candidate_benefit (P : Primitives) (part : Partitioner) (ev : EvaluateChoice)
    (level : Level) (tile_bounds : TileSizes) (cache : List (GroupingChoice × GroupConfig))
    (p : String × String) :
    Except String (List (GroupingChoice × GroupConfig) × Option Expr) :=
  match env_get part.env p.1 with
  | Except.error e => Except.error e
  | Except.ok prod_f =>
    match get_element part.children (⟨prod_f.name, prod_f.updates⟩ : FStage) with
    | Except.error e => Except.error e
    | Except.ok cs =>
      match candidate_grouping ev level tile_bounds cache prod_f.name cs with
      | Except.error e => Except.error e
      | Except.ok grouping =>
        match part.estimate_benefit P grouping false true with
        | Except.error e => Except.error e
        | Except.ok b => Except.ok (grouping, b)

/-- The state of the selection loop is the start state, or holds a grouping
together with its own defined benefit, which was accepted. -/
def ChooseInvariant (P : Primitives) (part : Partitioner)
    (bg : List (GroupingChoice × GroupConfig)) (bb : Expr) : Prop :=
  (bg = [] ∧ bb = make_zero) ∨
    (part.estimate_benefit P bg false true = Except.ok (some bb) ∧ AcceptedBenefit P bb)

/-! ## Candidates, merging and the fixed point -/

/-- The set `child_groups` of `get_grouping_candidate` (lines 2040-2043): the
names of the functions of the children. -/
def child_group_names (cs : List FStage) : List String :=
  cs.foldl (fun acc s => set_insert string_lt s.func acc) []

/-- `Partitioner::get_grouping_candidate` (lines 2011-2061), a loop over the
groups in key order.  It reads `children` and the environment of the
partitioner. -/
def Partitioner.get_grouping_candidate (part : Partitioner) :
    List (FStage × Group) → List Function → Level → Except String (List (String × String))
  | [], _, _ => Except.ok []
  | g :: rest, outputs, level =>
    let is_output := outputs.any (fun f => g.1.func == f.name)
    match env_get part.env g.1.func with
    | Except.error e => Except.error e
    | Except.ok prod_f =>
      let is_final_stage := g.1.stage_num == prod_f.updates
      if is_output || !is_final_stage then part.get_grouping_candidate rest outputs level
      else
        match map_find part.children g.1 with
        | none => part.get_grouping_candidate rest outputs level
        | some cs =>
          let child_groups := child_group_names cs
          let num_children := child_groups.length
          if num_children == 1 && level == Level.FastMem then
            Except.map (fun cand => (prod_f.name, child_groups.headD "") :: cand)
              (part.get_grouping_candidate rest outputs level)
          else if level == Level.Inline && prod_f.is_pure then
            Except.map (fun cand => (prod_f.name, "") :: cand)
              (part.get_grouping_candidate rest outputs level)
          else part.get_grouping_candidate rest outputs level

/-- The loop over the producer stages in `merge_groups` (lines 2623-2639);
the candidate groups are read from `groups`, the consumer group is built up
in the last argument.  A producer stage is never the consumer stage itself
(the pipeline is acyclic), so the candidate groups are the stored ones. -/
def merge_groups_stages (groups : List (FStage × Group)) (prod_f : Function) (level : Level) :
    List Nat → Group → Except String Group
  | [], child_group => Except.ok child_group
  | s :: rest, child_group =>
    match get_element groups (⟨prod_f.name, s⟩ : FStage) with
    | Except.error e => Except.error e
    | Except.ok cand_group =>
      let members := child_group.members ++ cand_group.members
      let inlined :=
        match level with
        | Level.Inline =>
          cand_group.members.foldl (fun acc stg => set_insert string_lt stg.func acc)
            child_group.inlined
        | Level.FastMem =>
          cand_group.inlined.foldl (fun acc f => set_insert string_lt f acc) child_group.inlined
      merge_groups_stages groups prod_f level rest
        (Group.mk child_group.output members inlined child_group.tile_sizes child_group.subgroups)

/-- `Partitioner::merge_groups(const GroupingChoice &, const GroupConfig &,
Level)` (lines 2615-2647): the groups of the producer stages are appended to
the group of the consumer, which takes the tile sizes and the analysis of the
evaluation. -/
def Partitioner.merge_groups (part : Partitioner) (choice : GroupingChoice) (eval : GroupConfig)
    (level : Level) : Except String Partitioner :=
  match env_get part.env choice.prod with
  | Except.error e => Except.error e
  | Except.ok prod_f =>
    let child := choice.cons
    match get_element part.groups child with
    | Except.error e => Except.error e
    | Except.ok child_group =>
      match merge_groups_stages part.groups prod_f level (List.range (prod_f.updates + 1))
          child_group with
      | Except.error e => Except.error e
      | Except.ok merged =>
        let child_group1 :=
          Group.mk merged.output merged.members merged.inlined eval.tile_sizes merged.subgroups
        Except.ok { part with
          groups := map_assign FStage.lt child child_group1 part.groups
          group_costs := map_assign FStage.lt child eval.analysis part.group_costs }

/-- The keys of the grouping cache made invalid by a merge (lines 2095-2102):
entries whose producer is the function of a child of the producer, or whose
consumer is such a child. -/
def invalid_keys (cache : List (GroupingChoice × GroupConfig))
    (prod_group_children : List FStage) : List GroupingChoice :=
  prod_group_children.foldl
    (fun acc c =>
      cache.foldl
        (fun acc1 entry =>
          if entry.1.prod == c.func || entry.1.cons == c then
            set_insert GroupingChoice.lt entry.1 acc1
          else acc1)
        acc)
    []

/-- The update of the children map for one erased stage (lines 2118-2132). -/
def rewire_children (children : List (FStage × List FStage)) (prod_group : FStage)
    (prod_group_children : List FStage) : List (FStage × List FStage) :=
  (map_erase children prod_group).map
    (fun f =>
      if f.2.contains prod_group then
        (f.1, set_insert_all FStage.lt prod_group_children
          (f.2.filter (fun c => !decide (c = prod_group))))
      else f)

/-- The loop that erases the stages of the merged producer (lines 2112-2133). -/
def erase_producer_stages (prod_f : Function) (prod_group_children : List FStage) :
    List Nat → Partitioner → Partitioner
  | [], part => part
  | s :: rest, part =>
    let prod_group : FStage := ⟨prod_f.name, s⟩
    erase_producer_stages prod_f prod_group_children rest
      { part with
        groups := map_erase part.groups prod_group
        group_costs := map_erase part.group_costs prod_group
        children := rewire_children part.children prod_group prod_group_children }

/-- The loop that applies the merges of the best grouping (lines 2107-2110). -/
def merge_best (prod : String) (level : Level) :
    List (GroupingChoice × GroupConfig) → Partitioner → Except String Partitioner
  | [], part => Except.ok part
  | group :: rest, part =>
    if group.1.prod == prod then
      match part.merge_groups group.1 group.2 level with
      | Except.error e => Except.error e
      | Except.ok part1 => merge_best prod level rest part1
    else Except.error "internal_assert: group.first.prod == prod"

/-- One turn of the loop of `Partitioner::group` (lines 2065-2138): the new
state, and whether the fixed point was reached (no candidate accepted). -/
def Partitioner.group_iteration (P : Primitives) (EV : Partitioner → EvaluateChoice)
    (level : Level) (tile_bounds : TileSizes) (part : Partitioner) :
    Except String (Partitioner × Bool) :=
  match part.get_grouping_candidate part.groups part.outputs level with
  | Except.error e => Except.error e
  | Except.ok cand =>
    match part.choose_candidate_grouping P (EV part) cand level tile_bounds with
    | Except.error e => Except.error e
    | Except.ok (best, cache) =>
      let part1 := { part with grouping_cache := cache }
      match best with
      | [] => Except.ok (part1, true)
      | best0 :: _ =>
        let prod := best0.1.prod
        match env_get part1.env prod with
        | Except.error e => Except.error e
        | Except.ok prod_f =>
          let num_stages := prod_f.updates + 1
          let final_stage : FStage := ⟨prod_f.name, num_stages - 1⟩
          match get_element part1.children final_stage with
          | Except.error e => Except.error e
          | Except.ok prod_group_children =>
            let part2 := { part1 with
              grouping_cache :=
                (invalid_keys part1.grouping_cache prod_group_children).foldl
                  (fun c key => map_erase c key) part1.grouping_cache }
            match merge_best prod level best part2 with
            | Except.error e => Except.error e
            | Except.ok part3 =>
              Except.ok
                (erase_producer_stages prod_f prod_group_children (List.range num_stages) part3,
                  false)

/-- `Partitioner::group` (lines 2063-2139), with a bound on the number of
turns of the loop; `none` when the bound is used up before the fixed point. -/
def Partitioner.group (P : Primitives) (EV : Partitioner → EvaluateChoice)
    (level : Level) (tile_bounds : TileSizes) :
    Nat → Partitioner → Except String (Option Partitioner)
  | 0, _ => Except.ok none
  | fuel + 1, part =>
    match part.group_iteration P EV level tile_bounds with
    | Except.error e => Except.error e
    | Except.ok (part1, true) => Except.ok (some part1)
    | Except.ok (part1, false) => Partitioner.group P EV level tile_bounds fuel part1

/-- The loop of `group_recurse` that applies the merges and stores the
subgroups in the consumer groups (lines 2217-2226). -/
def merge_best_recurse (prod : String) :
    List (GroupingChoice × GroupConfig) → List (List Group) → Partitioner →
      Except String Partitioner
  | [], _, part => Except.ok part
  | _ :: _, [], _ => Except.error "internal_assert: best.size() == best_subgroups.size()"
  | group :: rest, sub :: subs, part =>
    if group.1.prod == prod then
      match part.merge_groups group.1 group.2 Level.FastMem with
      | Except.error e => Except.error e
      | Except.ok part1 =>
        match get_element part1.groups group.1.cons with
        | Except.error e => Except.error e
        | Except.ok child_group =>
          let child_group1 :=
            Group.mk child_group.output child_group.members child_group.inlined
              child_group.tile_sizes sub
          merge_best_recurse prod rest subs
            { part1 with groups := map_assign FStage.lt group.1.cons child_group1 part1.groups }
    else Except.error "internal_assert: group.first.prod == prod"

/-- One turn of the loop of `Partitioner::group_recurse` (lines 2143-2257). -/
def Partitioner.group_recurse_iteration (P : Primitives)
    (EVR : Partitioner → EvaluateChoiceRecurse) (part : Partitioner) :
    Except String (Partitioner × Bool) :=
  match part.get_grouping_candidate part.groups part.outputs Level.FastMem with
  | Except.error e => Except.error e
  | Except.ok cand =>
    match part.choose_candidate_grouping_recurse P (EVR part) cand with
    | Except.error e => Except.error e
    | Except.ok (best, best_subgroups) =>
      if best.length ≠ best_subgroups.length then
        Except.error "internal_assert: best.size() == best_subgroups.size()"
      else
        match best with
        | [] => Except.ok (part, true)
        | best0 :: _ =>
          let prod := best0.1.prod
          match env_get part.env prod with
          | Except.error e => Except.error e
          | Except.ok prod_f =>
            let num_stages := prod_f.updates + 1
            let final_stage : FStage := ⟨prod_f.name, num_stages - 1⟩
            match get_element part.children final_stage with
            | Except.error e => Except.error e
            | Except.ok prod_group_children =>
              let part2 := { part with
                grouping_cache :=
                  (invalid_keys part.grouping_cache prod_group_children).foldl
                    (fun c key => map_erase c key) part.grouping_cache }
              match merge_best_recurse prod best best_subgroups part2 with
              | Except.error e => Except.error e
              | Except.ok part3 =>
                Except.ok
                  (erase_producer_stages prod_f prod_group_children (List.range num_stages)
                    part3, false)

/-- `Partitioner::group_recurse` (lines 2141-2258), with a bound on the
number of turns of the loop. -/
def Partitioner.group_recurse (P : Primitives) (EVR : Partitioner → EvaluateChoiceRecurse) :
    Nat → Partitioner → Except String (Option Partitioner)
  | 0, _ => Except.ok none
  | fuel + 1, part =>
    match part.group_recurse_iteration P EVR with
    | Except.error e => Except.error e
    | Except.ok (part1, true) => Except.ok (some part1)
    | Except.ok (part1, false) => Partitioner.group_recurse P EVR fuel part1

/-- Body of the loop of `get_grouping_candidate` for one group key: the
candidate pushed for it, if any. -/
def grouping_candidate_of (part : Partitioner) (outputs : List Function) (level : Level)
    (k : FStage) : Except String (Option (String × String)) :=
  match env_get part.env k.func with
  | Except.error e => Except.error e
  | Except.ok prod_f =>
    if outputs.any (fun f => k.func == f.name) || !(k.stage_num == prod_f.updates) then
      Except.ok none
    else
      match map_find part.children k with
      | none => Except.ok none
      | some cs =>
        if (child_group_names cs).length == 1 && level == Level.FastMem then
          Except.ok (some (prod_f.name, (child_group_names cs).headD ""))
        else if level == Level.Inline && prod_f.is_pure then
          Except.ok (some (prod_f.name, ""))
        else Except.ok none

/-! ## A small instance of the symbolic primitives

The worked examples need a concrete simplifier and prover.  This one works in
the style of Simplify.cpp, by rewriting: constants are folded, a zero operand
of a sum or difference is dropped, and a comparison is decided when both
sides are constants, by the rule `c < max(e, d)` when `c < d`, or by the rule
`a < a + t` when `0 < t`. -/

/-- Sum of two simplified operands. -/
def basic_add (a b : Expr) : Expr :=
  match a, b with
  | Expr.IntImm x, Expr.IntImm y => Expr.IntImm (x + y)
  | Expr.IntImm x, e => if x = 0 then e else Expr.Add (Expr.IntImm x) e
  | e, Expr.IntImm y => if y = 0 then e else Expr.Add e (Expr.IntImm y)
  | e1, e2 => Expr.Add e1 e2

/-- Difference of two simplified operands. -/
def basic_sub (a b : Expr) : Expr :=
  match a, b with
  | Expr.IntImm x, Expr.IntImm y => Expr.IntImm (x - y)
  | e, Expr.IntImm y => if y = 0 then e else Expr.Sub e (Expr.IntImm y)
  | e1, e2 => Expr.Sub e1 e2

/-- Minimum of two simplified operands. -/
def basic_min (a b : Expr) : Expr :=
  match a, b with
  | Expr.IntImm x, Expr.IntImm y => Expr.IntImm (min x y)
  | e1, e2 => Expr.Min e1 e2

/-- Maximum of two simplified operands. -/
def basic_max (a b : Expr) : Expr :=
  match a, b with
  | Expr.IntImm x, Expr.IntImm y => Expr.IntImm (max x y)
  | e1, e2 => Expr.Max e1 e2

/-- The rewriting rules for `a < b`. -/
def basic_prove_lt : Expr → Expr → Bool
  | Expr.IntImm x, Expr.IntImm y => decide (x < y)
  | Expr.IntImm c, Expr.Max _ (Expr.IntImm d) => decide (c < d)
  | a, Expr.Add a1 t => decide (a = a1) && basic_prove_lt (Expr.IntImm 0) t
  | _, _ => false

/-- Comparison `a >= b` of two simplified operands. -/
def basic_ge (a b : Expr) : Expr :=
  match a, b with
  | Expr.IntImm x, Expr.IntImm y => Expr.IntImm (if y ≤ x then 1 else 0)
  | e1, e2 => Expr.GE e1 e2

/-- Product of two simplified operands. -/
def basic_mul (a b : Expr) : Expr :=
  match a, b with
  | Expr.IntImm x, Expr.IntImm y => Expr.IntImm (x * y)
  | e1, e2 => Expr.Mul e1 e2

/-- Quotient of two simplified operands. -/
def basic_div (a b : Expr) : Expr :=
  match a, b with
  | Expr.IntImm x, Expr.IntImm y => Expr.IntImm (x / y)
  | e1, e2 => Expr.Div e1 e2

/-- The simplifier of the small instance. -/
def basic_simplify : Expr → Expr
  | Expr.IntImm v => Expr.IntImm v
  | Expr.Variable n => Expr.Variable n
  | Expr.Add a b => basic_add (basic_simplify a) (basic_simplify b)
  | Expr.Sub a b => basic_sub (basic_simplify a) (basic_simplify b)
  | Expr.Mul a b => basic_mul (basic_simplify a) (basic_simplify b)
  | Expr.Min a b => basic_min (basic_simplify a) (basic_simplify b)
  | Expr.Max a b => basic_max (basic_simplify a) (basic_simplify b)
  | Expr.LT a b =>
    if basic_prove_lt (basic_simplify a) (basic_simplify b) then Expr.IntImm 1
    else Expr.LT (basic_simplify a) (basic_simplify b)
  | Expr.LE a b => Expr.LE (basic_simplify a) (basic_simplify b)
  | Expr.GT a b => Expr.GT (basic_simplify a) (basic_simplify b)
  | Expr.GE a b => basic_ge (basic_simplify a) (basic_simplify b)
  | Expr.EQ a b =>
    if basic_simplify a = basic_simplify b then Expr.IntImm 1
    else Expr.EQ (basic_simplify a) (basic_simplify b)
  | Expr.Div a b => basic_div (basic_simplify a) (basic_simplify b)
  | Expr.Cast t a => Expr.Cast t (basic_simplify a)

/-- The prover of the small instance: `is_one(simplify(e))`. -/
def basic_can_prove (e : Expr) : Bool := decide (basic_simplify e = Expr.IntImm 1)

/-- The small instance of the primitives. -/
def Primitives.basic : Primitives := ⟨basic_simplify, basic_can_prove⟩

/-! ## A worked pipeline

Two producers `f1` and `f2` feed the output `g`; every function has a single
stage.  The stored cost of `f1` is `max(x, 1)` and that of `f2` is
`max(x, 1) + max(y, 1)`, for symbolic sizes `x` and `y`; a merged group
costs nothing. -/

/-- A function with a pure definition only. -/
def example_function (n : String) : Function := ⟨n, 0, true, false⟩

/-- The singleton group of the only stage of a function. -/
def example_group (n : String) : Group := Group.mk ⟨n, 0⟩ [⟨n, 0⟩] [] [] []

/-- An analysis with the given arithmetic cost, no memory cost and
parallelism 16. -/
def example_analysis (arith : Expr) : GroupAnalysis :=
  ⟨⟨some arith, some (Expr.IntImm 0)⟩, some (Expr.IntImm 16)⟩

/-- The expression `max(v, 1)`. -/
def example_max (v : String) : Expr := Expr.Max (Expr.Variable v) (Expr.IntImm 1)

/-- The partitioner of the worked pipeline. -/
def example_part : Partitioner where
  grouping_cache := []
  groups := [(⟨"f1", 0⟩, example_group "f1"), (⟨"f2", 0⟩, example_group "f2"),
    (⟨"g", 0⟩, example_group "g")]
  children := [(⟨"f1", 0⟩, [⟨"g", 0⟩]), (⟨"f2", 0⟩, [⟨"g", 0⟩])]
  group_costs := [(⟨"f1", 0⟩, example_analysis (example_max "x")),
    (⟨"f2", 0⟩, example_analysis (Expr.Add (example_max "x") (example_max "y"))),
    (⟨"g", 0⟩, example_analysis (Expr.IntImm 0))]
  arch_params := MachineParams.generic
  env := [example_function "f1", example_function "f2", example_function "g"]
  outputs := [example_function "g"]

/-- The worked pipeline with an undefined stored analysis for `f1`. -/
def example_part_undefined : Partitioner :=
  { example_part with
    group_costs := [(⟨"f1", 0⟩, GroupAnalysis.undefined),
      (⟨"f2", 0⟩, example_analysis (Expr.IntImm 7)),
      (⟨"g", 0⟩, example_analysis (Expr.IntImm 0))] }

/-- An evaluator for which every merged group costs nothing and has
parallelism 16. -/
def example_evaluate_choice : EvaluateChoice :=
  fun _ _ _ => Except.ok ⟨[], example_analysis (Expr.IntImm 0)⟩

/-- The same evaluator for the recursive grouping, without subgroups. -/
def example_evaluate_choice_recurse : EvaluateChoiceRecurse :=
  fun _ => Except.ok (⟨[], example_analysis (Expr.IntImm 0)⟩, [])

/-- A pipeline with three producers `f0`, `f1`, `f2` of the output `g`,
where the stored cost of `f0` is given and `f1` and `f2` both cost 7. -/
def example_part_tie (cost0 : Expr) : Partitioner where
  grouping_cache := []
  groups := [(⟨"f0", 0⟩, example_group "f0"), (⟨"f1", 0⟩, example_group "f1"),
    (⟨"f2", 0⟩, example_group "f2"), (⟨"g", 0⟩, example_group "g")]
  children := [(⟨"f0", 0⟩, [⟨"g", 0⟩]), (⟨"f1", 0⟩, [⟨"g", 0⟩]), (⟨"f2", 0⟩, [⟨"g", 0⟩])]
  group_costs := [(⟨"f0", 0⟩, example_analysis cost0),
    (⟨"f1", 0⟩, example_analysis (Expr.IntImm 7)),
    (⟨"f2", 0⟩, example_analysis (Expr.IntImm 7)),
    (⟨"g", 0⟩, example_analysis (Expr.IntImm 0))]
  arch_params := MachineParams.generic
  env := [example_function "f0", example_function "f1", example_function "f2",
    example_function "g"]
  outputs := [example_function "g"]

/-- The grouping of a producer of the worked pipelines into `g`. -/
def example_grouping (prod : String) : List (GroupingChoice × GroupConfig) :=
  [(⟨prod, ⟨"g", 0⟩⟩, ⟨[], example_analysis (Expr.IntImm 0)⟩)]

/-! ## Merging two groups -/

/-- `Partitioner::merge_groups(const Group &, const Group &)` (lines
2593-2613): the members of the producer group followed by those of the
consumer group, under the output of the consumer group. -/
def merge_groups (prod_group cons_group : Group) : Group :=
  let group_members := prod_group.members ++ cons_group.members
  let inlined0 := prod_group.inlined.foldl (fun acc f => set_insert string_lt f acc) []
  let inlined1 := cons_group.inlined.foldl (fun acc f => set_insert string_lt f acc) inlined0
  Group.mk cons_group.output group_members inlined1 [] []

/-! ## Tile configurations -/

/-- Modelled from the spec: what the partitioner reads of a loop dimension
`Dim` (Schedule.h, not among the sources): the name of its variable and
whether it is a reduction loop (`is_rvar()`). -/
structure Dim where
  var : String
  is_rvar : Bool
  deriving DecidableEq, Repr

/-- What the partitioner reads of the definitions of the pipeline, which lie
outside the sources: the loop dimensions of a stage
(`get_stage_definition(f, s).schedule().dims()`, innermost first, the
placeholder `__outermost` last) and the names of the functions that a stage
calls (`get_parents(f, s)`). -/
structure StageDefinitions where
  dims : FStage → List Dim
  parents : FStage → List String

/-- The variables that `generate_tile_configs` tiles (lines 1816-1821): the
dimensions other than the last that are not reduction loops. -/
def tile_vars (dims : List Dim) : List String :=
  (dims.dropLast.filter (fun d => !d.is_rvar)).map (fun d => d.var)

/-- The tile sizes tried along a dimension (line 1823). -/
def size_variants : List Int := [1, 4, 8, 16, 32, 64, 128, 256]

/-- The least size of the innermost dimension (line 1809). -/
def min_inner_dim_size : Int := 64

/-- `operator==` on tile configurations (lines 1623-1636). -/
def tile_sizes_equal (m1 m2 : TileSizes) : Bool :=
  if m1.length ≠ m2.length then false
  else
    m1.all (fun it1 =>
      match map_find m2 it1.1 with
      | none => false
      | some v => decide (it1.2 = v))

/-- The end of each family of configurations (lines 1842-1850): a tiling
that is neither empty nor already present is pushed. -/
def push_tile_config (tiling : TileSizes) (tile_configs : List TileSizes) : List TileSizes :=
  if tiling.isEmpty then tile_configs
  else if tile_configs.any (fun m => tile_sizes_equal tiling m) then tile_configs
  else tile_configs ++ [tiling]

/-- A skewed tiling (lines 1832-1841): the size `dim_size` along dimension
`i`, the largest size along the dimensions before it and the smallest along
those after it. -/
def skewed_tiling (tvars : List String) (i : Nat) (dim_size : Int) : TileSizes :=
  (List.range tvars.length).foldl
    (fun tiling j =>
      if j < i then
        map_emplace string_lt (tvars.getD j "") (Expr.IntImm (size_variants.getLastD 0)) tiling
      else if j > i then
        map_emplace string_lt (tvars.getD j "") (Expr.IntImm (size_variants.headD 0)) tiling
      else tiling)
    (map_emplace string_lt (tvars.getD i "")
      (Expr.IntImm (if i = 0 then max dim_size min_inner_dim_size else dim_size)) [])

/-- An almost square tiling (lines 1856-1860). -/
def square_tiling (tvars : List String) (dim_size : Int) : TileSizes :=
  (List.range tvars.length).foldl
    (fun tiling j =>
      map_emplace string_lt (tvars.getD j "")
        (Expr.IntImm (if j = 0 then max dim_size min_inner_dim_size else dim_size)) tiling)
    []

/-- A reorder tiling (lines 1874-1883): the dimensions selected by the bits
of `i`. -/
def reorder_tiling (tvars : List String) (i : Nat) : TileSizes :=
  (List.range tvars.length).foldl
    (fun tiling j =>
      if (i >>> j) &&& 1 = 1 then
        if j = 0 then map_emplace string_lt (tvars.getD j "") (Expr.IntImm min_inner_dim_size) tiling
        else map_emplace string_lt (tvars.getD j "") (Expr.IntImm 1) tiling
      else tiling)
    []

/-- The three families of `generate_tile_configs` over given tile
variables (lines 1829-1893).  The bound `1 << tile_vars.size()` of the last
loop is taken without overflow. -/
def tile_configs_of (tvars : List String) : List TileSizes :=
  let skewed :=
    (List.range tvars.length).foldl
      (fun cfgs i =>
        size_variants.foldl (fun cfgs1 dim_size =>
          push_tile_config (skewed_tiling tvars i dim_size) cfgs1) cfgs)
      []
  let square :=
    size_variants.foldl (fun cfgs dim_size =>
      push_tile_config (square_tiling tvars dim_size) cfgs) skewed
  (List.range (2 ^ tvars.length)).foldl
    (fun cfgs i => push_tile_config (reorder_tiling tvars i) cfgs) square

/-- `Partitioner::generate_tile_configs` (lines 1803-1896). -/
def generate_tile_configs (D : StageDefinitions) (stg : FStage) : List TileSizes :=
  tile_configs_of (tile_vars (D.dims stg))

/-- Modelled from the spec: `as_const_int` (IROperator.h, not among the
sources), the value of an integer constant. -/
def as_const_int : Expr → Option Int
  | Expr.IntImm v => some v
  | _ => none

/-- The variable along which the window slides (lines 1653-1662): the second
dimension, counted from the innermost and without the last one, that is not
a reduction loop; empty when there is none. -/
def sliding_var (dims : List Dim) : String :=
  (dims.dropLast.foldl
    (fun (st : Nat × String) d =>
      if !d.is_rvar then (st.1 + 1, if st.1 + 1 = 2 then d.var else st.2) else st)
    (0, "")).2

/-- `Partitioner::generate_tile_configs_sliding_window` (lines 1638-1682):
copies of `tile_bounds` in which the size along the sliding variable is
replaced by each size variant below the bound. -/
def generate_tile_configs_sliding_window (D : StageDefinitions) (stg : FStage)
    (tile_bounds : TileSizes) : Except String (List TileSizes) :=
  let var := sliding_var (D.dims stg)
  match map_find tile_bounds var with
  | none => Except.ok []
  | some bound =>
    if var = "" then Except.ok []
    else
      match as_const_int bound with
      | none => Except.error "internal_assert: bound_size"
      | some bound_size =>
        Except.ok
          ((size_variants.takeWhile (fun dim_size => !decide (dim_size ≥ bound_size))).map
            (fun dim_size =>
              tile_bounds.map (fun e => if e.1 = var then (e.1, Expr.IntImm dim_size) else e)))
/-! ## The search for a tile configuration -/

/-- The analysis of a group (`analyze_group`, lines 2307-2591) rests on
bounds inference and region costs that lie outside this development.  It is
taken as a parameter: the analysis of a group for given tile bounds
`group_tile_bounds` and flag `is_subgroup`, which may stop on an internal
assertion. -/
abbrev AnalyzeGroup := Group → TileSizes → Bool → Except String GroupAnalysis

/-- The cost model of a run: the analysis of the partitioner of the whole
pipeline, and the analysis of the nested partitioner that
`evaluate_choice_recurse` builds for a merged group and its tile
configuration, whose pipeline bounds are the regions required by one tile of
the group (lines 2839-2881). -/
structure CostModel where
  analyze_group : AnalyzeGroup
  analyze_group_nested : Group → TileSizes → AnalyzeGroup

/-- A copy of a group with other tile sizes (`new_group.tile_sizes = config`). -/
def with_tile_sizes (g : Group) (config : TileSizes) : Group :=
  Group.mk g.output g.members g.inlined config g.subgroups

/-- The loop over the configurations in `find_best_tile_config` (lines
1918-1942) and `find_best_tile_config_sliding_window` (lines 1977-2006): a
configuration replaces the best one when its benefit over the best one is
defined and provably positive. -/
def best_tile_config_loop (P : Primitives) (arch_params : MachineParams)
    (analyze : TileSizes → Except String GroupAnalysis) :
    List TileSizes → TileSizes × GroupAnalysis → Except String (TileSizes × GroupAnalysis)
  | [], best => Except.ok best
  | config :: rest, best =>
    match analyze config with
    | Except.error e => Except.error e
    | Except.ok new_analysis =>
      match estimate_benefit P arch_params best.2 new_analysis false true with
      | none => best_tile_config_loop P arch_params analyze rest best
      | some benefit =>
        if P.can_prove (Expr.GT benefit (Expr.IntImm 0)) then
          best_tile_config_loop P arch_params analyze rest (config, new_analysis)
        else best_tile_config_loop P arch_params analyze rest best

/-- `Partitioner::find_best_tile_config` (lines 1898-1945). -/
def find_best_tile_config (P : Primitives) (arch_params : MachineParams) (an : AnalyzeGroup)
    (D : StageDefinitions) (g : Group) : Except String (TileSizes × GroupAnalysis) :=
  match an (with_tile_sizes g []) [] false with
  | Except.error e => Except.error e
  | Except.ok no_tile_analysis =>
    if !no_tile_analysis.cost.defined then Except.ok ([], no_tile_analysis)
    else
      best_tile_config_loop P arch_params (fun config => an (with_tile_sizes g config) [] false)
        (generate_tile_configs D g.output) ([], no_tile_analysis)

/-- `Partitioner::find_best_tile_config_sliding_window` (lines 1947-2009). -/
def find_best_tile_config_sliding_window (P : Primitives) (arch_params : MachineParams)
    (an : AnalyzeGroup) (D : StageDefinitions) (g : Group) (tile_bounds : TileSizes) :
    Except String (TileSizes × GroupAnalysis) :=
  match an (with_tile_sizes g []) tile_bounds true with
  | Except.error e => Except.error e
  | Except.ok no_tile_analysis =>
    if !no_tile_analysis.cost.defined then Except.ok ([], no_tile_analysis)
    else
      match generate_tile_configs_sliding_window D g.output tile_bounds with
      | Except.error e => Except.error e
      | Except.ok configs =>
        best_tile_config_loop P arch_params
          (fun config => an (with_tile_sizes g config) tile_bounds true)
          configs ([], no_tile_analysis)

/-! ## Evaluation of a grouping choice -/

/-- The groups of the stages of the producer (lines 2665-2668). -/
def get_prod_groups (groups : List (FStage × Group)) (prod_f : Function) :
    List Nat → Except String (List Group)
  | [] => Except.ok []
  | s :: rest =>
    match get_element groups (⟨prod_f.name, s⟩ : FStage) with
    | Except.error e => Except.error e
    | Except.ok g =>
      match get_prod_groups groups prod_f rest with
      | Except.error e => Except.error e
      | Except.ok gs => Except.ok (g :: gs)

/-- The group that reflects a grouping choice (lines 2661-2674): the groups
of the producer stages merged one after the other into the consumer group. -/
def merged_group (prod_groups : List Group) (cons : Group) : Group :=
  prod_groups.foldl (fun group prod_g => merge_groups prod_g group) cons

/-- The unit tile sizes of an inline choice (lines 2681-2689): size 1 along
every dimension but the last of the output stage of the consumer group. -/
def unit_tile_sizes (dims : List Dim) : TileSizes :=
  dims.dropLast.foldl (fun ts d => map_assign string_lt d.var (Expr.IntImm 1) ts) []

/-- The inlined set of an inline choice (lines 2693-2701). -/
def inline_choice_inlined (prod_groups : List Group) (cons group : Group) : List String :=
  cons.inlined.foldl (fun acc f => set_insert string_lt f acc)
    (prod_groups.foldl
      (fun acc prod_g => prod_g.members.foldl (fun acc1 s => set_insert string_lt s.func acc1) acc)
      group.inlined)

/-- `Partitioner::evaluate_choice` (lines 2649-2713). -/
def Partitioner.evaluate_choice (P : Primitives) (an : AnalyzeGroup) (D : StageDefinitions)
    (part : Partitioner) : EvaluateChoice :=
  fun choice level tile_bounds =>
    match env_get part.env choice.prod with
    | Except.error e => Except.error e
    | Except.ok prod_f =>
      match get_prod_groups part.groups prod_f (List.range (prod_f.updates + 1)) with
      | Except.error e => Except.error e
      | Except.ok prod_groups =>
        match get_element part.groups choice.cons with
        | Except.error e => Except.error e
        | Except.ok cons =>
          let group := merged_group prod_groups cons
          match level with
          | Level.Inline =>
            let tile_sizes := unit_tile_sizes (D.dims cons.output)
            let group1 :=
              Group.mk group.output group.members (inline_choice_inlined prod_groups cons group)
                tile_sizes group.subgroups
            match an group1 tile_bounds false with
            | Except.error e => Except.error e
            | Except.ok group_analysis => Except.ok ⟨tile_sizes, group_analysis⟩
          | Level.FastMem =>
            match find_best_tile_config_sliding_window P part.arch_params an D group
                tile_bounds with
            | Except.error e => Except.error e
            | Except.ok config => Except.ok ⟨config.1, config.2⟩

/-! ## Construction of the partitioner -/

/-- The update `children[prod_stage].insert(cons_stage)`. -/
def children_insert (children : List (FStage × List FStage)) (prod_stage cons_stage : FStage) :
    List (FStage × List FStage) :=
  map_assign FStage.lt prod_stage
    (set_insert FStage.lt cons_stage ((map_find children prod_stage).getD [])) children

/-- The edges into one stage (lines 1395-1421 and 2804-2830): from the final
stage of every called function of the environment other than the function
itself, and from the stage before it of the same function. -/
def add_stage_children (env : List Function) (D : StageDefinitions) (f : String) (s : Nat)
    (children : List (FStage × List FStage)) : List (FStage × List FStage) :=
  let cons_stage : FStage := ⟨f, s⟩
  let children1 :=
    (D.parents cons_stage).foldl
      (fun ch c =>
        match env_find env c with
        | some prod_func =>
          if c ≠ f then children_insert ch ⟨prod_func.name, prod_func.updates⟩ cons_stage else ch
        | none => ch)
      children
  if s > 0 then children_insert children1 ⟨f, s - 1⟩ cons_stage else children1

/-- First loop of the constructor (lines 1378-1388): every stage of a
function that is not unbounded is placed in a group of its own. -/
def initial_groups (env : List Function) (unbounded : List String) : List (FStage × Group) :=
  env.foldl
    (fun groups f =>
      if unbounded.contains f.name then groups
      else
        (List.range (f.updates + 1)).foldl
          (fun groups1 s =>
            map_emplace FStage.lt (⟨f.name, s⟩ : FStage)
              (Group.mk ⟨f.name, s⟩ [⟨f.name, s⟩] [] [] []) groups1)
          groups)
    []

/-- Second loop of the constructor (lines 1391-1423). -/
def initial_children (env : List Function) (D : StageDefinitions) : List (FStage × List FStage) :=
  env.foldl
    (fun ch f =>
      (List.range (f.updates + 1)).foldl (fun ch1 s => add_stage_children env D f.name s ch1) ch)
    []

/-- The loop over the members for one stage of an unbounded function (lines
1436-1442). -/
def uses_unbounded_stage (children : List (FStage × List FStage)) (prod_stage : FStage) :
    List FStage → Except String Bool
  | [] => Except.ok false
  | m :: rest =>
    match get_element children prod_stage with
    | Except.error e => Except.error e
    | Except.ok c =>
      if c.contains m then Except.ok true else uses_unbounded_stage children prod_stage rest

/-- The flag `use_f` of a group for an unbounded function (lines 1433-1443). -/
def uses_unbounded (children : List (FStage × List FStage)) (func : Function)
    (members : List FStage) : List Nat → Bool → Except String Bool
  | [], use_f => Except.ok use_f
  | s :: rest, use_f =>
    match uses_unbounded_stage children ⟨func.name, s⟩ members with
    | Except.error e => Except.error e
    | Except.ok b => uses_unbounded children func members rest (use_f || b)

/-- The loop over the groups for one unbounded function (lines 1432-1450):
a group that uses the function takes all its stages as members and its name
as inlined. -/
def add_unbounded (children : List (FStage × List FStage)) (func : Function) (f : String) :
    List (FStage × Group) → Except String (List (FStage × Group))
  | [] => Except.ok []
  | g :: rest =>
    match uses_unbounded children func g.2.members (List.range (func.updates + 1)) false with
    | Except.error e => Except.error e
    | Except.ok use_f =>
      match add_unbounded children func f rest with
      | Except.error e => Except.error e
      | Except.ok rest1 =>
        if use_f then
          Except.ok
            ((g.1, Group.mk g.2.output
                (g.2.members ++
                  (List.range (func.updates + 1)).map (fun s => (⟨func.name, s⟩ : FStage)))
                (set_insert string_lt f g.2.inlined) g.2.tile_sizes g.2.subgroups) :: rest1)
        else Except.ok (g :: rest1)

/-- Third loop of the constructor (lines 1426-1451). -/
def add_unbounded_all (env outputs : List Function) (children : List (FStage × List FStage)) :
    List String → List (FStage × Group) → Except String (List (FStage × Group))
  | [], groups => Except.ok groups
  | f :: rest, groups =>
    if outputs.any (fun o => o.name == f) then
      Except.error "internal_assert: Output should have been bounded"
    else
      match env_get env f with
      | Except.error e => Except.error e
      | Except.ok func =>
        match add_unbounded children func f groups with
        | Except.error e => Except.error e
        | Except.ok groups1 => add_unbounded_all env outputs children rest groups1

/-- The constructor `Partitioner::Partitioner` (lines 1367-1452). -/
def Partitioner.construct (arch_params : MachineParams) (env : List Function)
    (D : StageDefinitions) (outputs : List Function) (unbounded : List String) :
    Except String Partitioner :=
  let children := initial_children env D
  match add_unbounded_all env outputs children unbounded (initial_groups env unbounded) with
  | Except.error e => Except.error e
  | Except.ok groups =>
    Except.ok
      { grouping_cache := []
        groups := groups
        children := children
        group_costs := []
        arch_params := arch_params
        env := env
        outputs := outputs }

/-- The loop of `initialize_groups` (lines 1456-1460): every group takes its
best tile configuration, whose analysis is stored under the output of the
group. -/
def initialize_groups_loop (P : Primitives) (arch_params : MachineParams) (an : AnalyzeGroup)
    (D : StageDefinitions) :
    List (FStage × Group) → List (FStage × GroupAnalysis) →
      Except String (List (FStage × Group) × List (FStage × GroupAnalysis))
  | [], costs => Except.ok ([], costs)
  | g :: rest, costs =>
    match find_best_tile_config P arch_params an D g.2 with
    | Except.error e => Except.error e
    | Except.ok best =>
      match initialize_groups_loop P arch_params an D rest
          (map_emplace FStage.lt g.2.output best.2 costs) with
      | Except.error e => Except.error e
      | Except.ok (groups1, costs1) => Except.ok ((g.1, with_tile_sizes g.2 best.1) :: groups1, costs1)

/-- `Partitioner::initialize_groups` (lines 1454-1462). -/
def Partitioner.initialize_groups (P : Primitives) (an : AnalyzeGroup) (D : StageDefinitions)
    (part : Partitioner) : Except String Partitioner :=
  match initialize_groups_loop P part.arch_params an D part.groups [] with
  | Except.error e => Except.error e
  | Except.ok (groups, costs) =>
    Except.ok { part with groups := groups, group_costs := costs, grouping_cache := [] }
/-! ## The nested partition of a merged group -/

/-- The groups of the nested partitioner (lines 2764-2795): every member
stage that is not inlined is the output of a group made of the inlined
stages and itself. -/
def nested_groups (group : Group) : List (FStage × Group) :=
  let inlined_stages := group.members.filter (fun stg => group.inlined.contains stg.func)
  group.members.foldl
    (fun groups stg =>
      if group.inlined.contains stg.func then groups
      else
        map_emplace FStage.lt stg (Group.mk stg (inlined_stages ++ [stg]) group.inlined [] [])
          groups)
    []

/-- The children map of the nested partitioner (lines 2800-2831), rebuilt
from the edges into the stages that are keys of its groups. -/
def nested_children (env : List Function) (D : StageDefinitions)
    (groups : List (FStage × Group)) : List (FStage × List FStage) :=
  groups.foldl (fun ch g => add_stage_children env D g.1.func g.1.stage_num ch) []

/-- The function of a stage as an output of the nested partitioner (line
2762); the grouping reads only its name. -/
def output_function (env : List Function) (n : String) : Function :=
  (env_find env n).getD ⟨n, 0, false, false⟩

/-- The sum of the memory costs of the groups of the nested partitioner
(lines 2913-2924). -/
def nested_memory_cost (group_costs : List (FStage × GroupAnalysis)) :
    List (FStage × Group) → Option Expr → Except String (Option Expr)
  | [], memory_cost => Except.ok memory_cost
  | g :: rest, memory_cost =>
    match get_element group_costs g.1 with
    | Except.error e => Except.error e
    | Except.ok analysis =>
      match memory_cost with
      | none => nested_memory_cost group_costs rest none
      | some m =>
        match analysis.cost.memory with
        | none => nested_memory_cost group_costs rest none
        | some a => nested_memory_cost group_costs rest (some (Expr.Add m a))

/-- The nested partitioner of `evaluate_choice_recurse` after its grouping
(lines 2760-2904): a copy of the partitioner whose only output is the output
of the merged group, with the nested groups and children, initialised and
grouped at level `FastMem` within the tile configuration of the merged
group.  The loop of `group` runs for at most `fuel` turns. -/
def Partitioner.nested_partition (P : Primitives) (CM : CostModel) (D : StageDefinitions)
    (fuel : Nat) (part : Partitioner) (group : Group) (best_tile_config : TileSizes) :
    Except String Partitioner :=
  let an := CM.analyze_group_nested group best_tile_config
  let groups0 := nested_groups group
  let part0 : Partitioner :=
    { part with
      outputs := [output_function part.env group.output.func]
      groups := groups0
      children := nested_children part.env D groups0 }
  if (D.dims ⟨group.output.func, 0⟩).dropLast.any (fun d => d.is_rvar) then
    Except.error "internal_assert: !dims[d].is_rvar()"
  else
    match part0.initialize_groups P an D with
    | Except.error e => Except.error e
    | Except.ok part1 =>
      match Partitioner.group P (fun p => p.evaluate_choice P an D) Level.FastMem
          best_tile_config fuel part1 with
      | Except.error e => Except.error e
      | Except.ok none => Except.error "the bound on the turns of the loop is used up"
      | Except.ok (some part2) => Except.ok part2

/-- `Partitioner::evaluate_choice_recurse` (lines 2715-2946). -/
def Partitioner.evaluate_choice_recurse (P : Primitives) (CM : CostModel)
    (D : StageDefinitions) (fuel : Nat) (part : Partitioner) : EvaluateChoiceRecurse :=
  fun choice =>
    match env_get part.env choice.prod with
    | Except.error e => Except.error e
    | Except.ok prod_f =>
      match get_prod_groups part.groups prod_f (List.range (prod_f.updates + 1)) with
      | Except.error e => Except.error e
      | Except.ok prod_groups =>
        match get_element part.groups choice.cons with
        | Except.error e => Except.error e
        | Except.ok cons =>
          let group := merged_group prod_groups cons
          match find_best_tile_config P part.arch_params CM.analyze_group D group with
          | Except.error e => Except.error e
          | Except.ok config =>
            let best_tile_config := config.1
            let group_analysis := config.2
            if group_analysis.cost.defined then
              match part.nested_partition P CM D fuel group best_tile_config with
              | Except.error e => Except.error e
              | Except.ok part2 =>
                match nested_memory_cost part2.group_costs part2.groups (some make_zero) with
                | Except.error e => Except.error e
                | Except.ok none => Except.error "internal_assert: memory_cost.defined()"
                | Except.ok (some memory_cost) =>
                  Except.ok
                    (⟨best_tile_config,
                      ⟨⟨group_analysis.cost.arith, some (P.simplify memory_cost)⟩,
                        group_analysis.parallelism⟩⟩,
                      part2.groups.map (fun g => g.2))
            else Except.ok (⟨best_tile_config, group_analysis⟩, [])

/-! ## The grouping steps of the scheduler -/

/-- The grouping steps of `generate_schedules` (lines 4607-4643): the
partitioner is constructed and initialised, grouped at level `Inline`, its
grouping cache is cleared, and it is grouped recursively.  Every loop runs
for at most `fuel` turns; `none` when a bound is used up. -/
def generate_groups (P : Primitives) (CM : CostModel) (D : StageDefinitions) (fuel : Nat)
    (arch_params : MachineParams) (env outputs : List Function) (unbounded : List String) :
    Except String (Option Partitioner) :=
  match Partitioner.construct arch_params env D outputs unbounded with
  | Except.error e => Except.error e
  | Except.ok part0 =>
    match part0.initialize_groups P CM.analyze_group D with
    | Except.error e => Except.error e
    | Except.ok part1 =>
      match Partitioner.group P (fun p => p.evaluate_choice P CM.analyze_group D) Level.Inline []
          fuel part1 with
      | Except.error e => Except.error e
      | Except.ok none => Except.ok none
      | Except.ok (some part2) =>
        Partitioner.group_recurse P (fun p => p.evaluate_choice_recurse P CM D fuel) fuel
          { part2 with grouping_cache := [] }

/-! ## Properties of the pipeline graph and of the groups -/

/-- The stage `b` is in the children set of the stage `a`. -/
def has_child (children : List (FStage × List FStage)) (a b : FStage) : Prop :=
  ∃ cs, map_find children a = some cs ∧ b ∈ cs

/-- The groups hold functions whole: in every entry the output is the key
and a member, and every member other than the key is there together with
all stages of its function. -/
def groups_closed (env : List Function) (groups : List (FStage × Group)) : Prop :=
  ∀ e ∈ groups, e.2.output = e.1 ∧ e.1 ∈ e.2.members ∧
    ∀ m ∈ e.2.members, m = e.1 ∨
      ∀ f, env_find env m.func = some f → ∀ s ≤ f.updates, (⟨m.func, s⟩ : FStage) ∈ e.2.members

/-- The pipeline graph is acyclic for a ranking of the functions: every edge
of the children map leads to a function of higher rank, or to a later stage
of the same function. -/
def children_ranked (rank : String → Nat) (env : List Function)
    (children : List (FStage × List FStage)) : Prop :=
  ∀ a b, has_child children a b →
    rank a.func < rank b.func ∨
      (a.func = b.func ∧ a.stage_num < b.stage_num ∧
        ∃ f, env_find env b.func = some f ∧ b.stage_num ≤ f.updates)

/-- Every key of `groups` is a stage of a function of the environment. -/
def keys_are_stages (env : List Function) (groups : List (FStage × Group)) : Prop :=
  ∀ k, map_find groups k ≠ none → ∃ f, env_find env k.func = some f ∧ k.stage_num ≤ f.updates

/-- The stage is a member of some group. -/
def is_grouped (groups : List (FStage × Group)) (x : FStage) : Prop :=
  ∃ k g, map_find groups k = some g ∧ x ∈ g.members
/-! ## Further worked pipelines -/

/-- The worked pipeline after both producers were merged into the output:
the only group left is that of `g`. -/
def example_part_inlined : Partitioner :=
  { example_part with
    groups := [(⟨"g", 0⟩, Group.mk ⟨"g", 0⟩ [⟨"g", 0⟩, ⟨"f1", 0⟩, ⟨"f2", 0⟩] ["f1", "f2"] [] [])]
    children := []
    group_costs := [(⟨"g", 0⟩, example_analysis (Expr.IntImm 0))] }

/-- A chain `r -> p -> g` of single-stage functions with output `g`; the
stored costs are 3 for `r`, 7 for `p` and 20 for `g`. -/
def example_chain : Partitioner where
  grouping_cache := []
  groups := [(⟨"g", 0⟩, example_group "g"), (⟨"p", 0⟩, example_group "p"),
    (⟨"r", 0⟩, example_group "r")]
  children := [(⟨"p", 0⟩, [⟨"g", 0⟩]), (⟨"r", 0⟩, [⟨"p", 0⟩])]
  group_costs := [(⟨"g", 0⟩, example_analysis (Expr.IntImm 20)),
    (⟨"p", 0⟩, example_analysis (Expr.IntImm 7)),
    (⟨"r", 0⟩, example_analysis (Expr.IntImm 3))]
  arch_params := MachineParams.generic
  env := [example_function "g", example_function "p", example_function "r"]
  outputs := [example_function "g"]

/-- The chain after the first turn of `group` at level `Inline`, which
merges `p` into `g`. -/
def example_chain_merged : Partitioner where
  grouping_cache := [(⟨"r", ⟨"p", 0⟩⟩, ⟨[], example_analysis (Expr.IntImm 0)⟩)]
  groups := [(⟨"g", 0⟩, Group.mk ⟨"g", 0⟩ [⟨"g", 0⟩, ⟨"p", 0⟩] ["p"] [] []),
    (⟨"r", 0⟩, example_group "r")]
  children := [(⟨"r", 0⟩, [⟨"g", 0⟩])]
  group_costs := [(⟨"g", 0⟩, example_analysis (Expr.IntImm 0)),
    (⟨"r", 0⟩, example_analysis (Expr.IntImm 3))]
  arch_params := MachineParams.generic
  env := [example_function "g", example_function "p", example_function "r"]
  outputs := [example_function "g"]

/-- Definitions for the worked pipelines: every stage has the loops `x`, `y`
and the placeholder; in the chain, `p` calls `r` and `g` calls `p`. -/
def example_definitions : StageDefinitions where
  dims := fun _ => [⟨"x", false⟩, ⟨"y", false⟩, ⟨"__outermost", false⟩]
  parents := fun stg =>
    if stg.func = "g" then ["p"] else if stg.func = "p" then ["r"] else []

/-- An analysis for which every group costs nothing and has parallelism 16. -/
def example_analyze_group : AnalyzeGroup :=
  fun _ _ _ => Except.ok (example_analysis (Expr.IntImm 0))

/-- The chain as the constructor leaves it: no group costs yet. -/
def example_chain_constructed : Partitioner :=
  { example_chain with group_costs := [] }

/-- A cost model in which every group costs nothing. -/
def example_cost_model : CostModel :=
  ⟨example_analyze_group, fun _ _ => example_analyze_group⟩

/-- An output function with one update definition. -/
def example_update_function : Function := ⟨"f", 1, true, false⟩

/-- The partitioner of the pipeline whose only function is
`example_update_function`, after the grouping steps: one group per stage. -/
def example_update_part : Partitioner where
  grouping_cache := []
  groups := [(⟨"f", 0⟩, Group.mk ⟨"f", 0⟩ [⟨"f", 0⟩] [] [] []),
    (⟨"f", 1⟩, Group.mk ⟨"f", 1⟩ [⟨"f", 1⟩] [] [] [])]
  children := [(⟨"f", 0⟩, [⟨"f", 1⟩])]
  group_costs := [(⟨"f", 0⟩, example_analysis (Expr.IntImm 0)),
    (⟨"f", 1⟩, example_analysis (Expr.IntImm 0))]
  arch_params := MachineParams.generic
  env := [example_update_function]
  outputs := [example_update_function]

/-! ## A pipeline whose inner stage names its loops differently

The chain `a -> h -> c` with output `c`: the stages of `a` and `c` have the
loops `x`, `y`, the stage of `h` has the loops `u`, `y`.  The producer `a`
was merged into `h` at level `FastMem`. -/

/-- The definitions of the pipeline. -/
def example_window_definitions : StageDefinitions where
  dims := fun stg =>
    if stg.func = "h" then [⟨"u", false⟩, ⟨"y", false⟩, ⟨"__outermost", false⟩]
    else [⟨"x", false⟩, ⟨"y", false⟩, ⟨"__outermost", false⟩]
  parents := fun stg =>
    if stg.func = "c" then ["h"] else if stg.func = "h" then ["a"] else []

/-- The partitioner after the merge of `a` into `h`. -/
def example_window_part : Partitioner where
  grouping_cache := []
  groups := [(⟨"c", 0⟩, example_group "c"),
    (⟨"h", 0⟩, Group.mk ⟨"h", 0⟩ [⟨"h", 0⟩, ⟨"a", 0⟩] [] [] [])]
  children := [(⟨"h", 0⟩, [⟨"c", 0⟩])]
  group_costs := [(⟨"c", 0⟩, example_analysis (Expr.IntImm 100)),
    (⟨"h", 0⟩, example_analysis (Expr.IntImm 100))]
  arch_params := MachineParams.generic
  env := [example_function "a", example_function "c", example_function "h"]
  outputs := [example_function "c"]

/-- A cost model: for the whole pipeline a group costs 10 when tiled by 32
along `y` and 100 otherwise; in a nested partitioner a group with output `c`
costs 10 for each member, any other group 10 when tiled and 100 when not. -/
def example_window_cost_model : CostModel where
  analyze_group := fun g _ _ =>
    Except.ok (example_analysis
      (Expr.IntImm (if map_find g.tile_sizes "y" = some (Expr.IntImm 32) then 10 else 100)))
  analyze_group_nested := fun _ _ g _ _ =>
    Except.ok (example_analysis
      (Expr.IntImm
        (if g.output.func = "c" then 10 * g.members.length
          else if g.tile_sizes = [] then 100 else 10)))

/-- The small prover extended by the rule `a > 0` when `0 < a` is proved. -/
def example_window_primitives : Primitives where
  simplify := basic_simplify
  can_prove := fun e =>
    match e with
    | Expr.GT a (Expr.IntImm 0) => basic_can_prove (Expr.LT (Expr.IntImm 0) a)
    | e1 => basic_can_prove e1

/-! ## Intervals, boxes and the bounds of a stage -/

/-- Modelled from the spec: `Interval` (Interval.h, not among the sources), a
pair `(min, max)` of expressions; a side that has no bound holds a
sentinel. -/
structure Interval where
  min : Expr
  max : Expr
  deriving DecidableEq, Repr

/-- Modelled from the spec: the sentinel `Interval::neg_inf` of a side
without a lower bound. -/
def Interval.neg_inf : Expr := Expr.Variable "neg_inf"

/-- Modelled from the spec: the sentinel `Interval::pos_inf` of a side
without an upper bound. -/
def Interval.pos_inf : Expr := Expr.Variable "pos_inf"

/-- Modelled from the spec: the interval `Interval()` without bounds. -/
def Interval.everything : Interval := ⟨Interval.neg_inf, Interval.pos_inf⟩

/-- Modelled from the spec: `Interval::has_lower_bound()`. -/
def Interval.has_lower_bound (i : Interval) : Bool := !decide (i.min = Interval.neg_inf)

/-- Modelled from the spec: `Interval::has_upper_bound()`. -/
def Interval.has_upper_bound (i : Interval) : Bool := !decide (i.max = Interval.pos_inf)

/-- Modelled from the spec: `Interval::is_bounded()`. -/
def Interval.is_bounded (i : Interval) : Bool := i.has_lower_bound && i.has_upper_bound

/-- A `Box`, one interval for each dimension. -/
abbrev Box := List Interval

/-- The map `DimBounds` from the loop variables of a stage to their bounds. -/
abbrev DimBounds := List (String × Interval)

/-- Modelled from the spec: the extent `max - min + 1` of a bounded interval,
undefined for an interval without a bound on one side. -/
def interval_extent (simplify : Expr → Expr) (i : Interval) : Option Expr :=
  if i.is_bounded then some (simplify (Expr.Add (Expr.Sub i.max i.min) (Expr.IntImm 1)))
  else none

/-- What the cost analysis of the partitioner takes from outside the sources:
the loop dimensions and callees of the stages, the pure arguments of a
function (`Function::args()`), the bounds of the pipeline
(`pipeline_bounds`), the helpers `get_stage_bounds`, `get_extent`, `box_size`
and `combine_load_costs` of AutoScheduleUtils.h, `can_parallelize_rvar` of
ParallelRVar.h, the queries of `RegionCosts`, and
`dep_analysis.regions_required` as a function of its stage, bounds, producer
set and flag (the input estimates are fixed). -/
structure AnalysisEnv where
  definitions : StageDefinitions
  args : String → List String
  pipeline_bounds : List (String × Box)
  get_stage_bounds : FStage → DimBounds → DimBounds
  get_extent : Interval → Option Expr
  box_size : Box → Option Expr
  combine_load_costs :
    List (String × Option Expr) → List (String × Option Expr) → List (String × Option Expr)
  can_parallelize_rvar : String → FStage → Bool
  regions_required :
    FStage → DimBounds → List String → Bool → Except String (List (String × Box))
  region_cost : List (String × Box) → List String → Cost
  stage_region_cost : FStage → DimBounds → List String → Cost
  detailed_load_costs : List (String × Box) → List String → List (String × Option Expr)
  stage_detailed_load_costs :
    FStage → DimBounds → List String → List (String × Option Expr)
  region_size : String → Box → Option Expr
  input_region_size : String → Box → Option Expr

/-- The loop of `get_bounds` over the pure arguments (lines 2264-2266):
argument number `d` gets interval number `d` of the box of the function in
`pipeline_bounds`. -/
def get_bounds_args (pipeline_bounds : List (String × Box)) (name : String) :
    List String → Nat → DimBounds → Except String DimBounds
  | [], _, bounds => Except.ok bounds
  | a :: rest, d, bounds =>
    match get_element pipeline_bounds name with
    | Except.error e => Except.error e
    | Except.ok box =>
      match box[d]? with
      | none => Except.error "index out of the range of the box"
      | some i =>
        get_bounds_args pipeline_bounds name rest (d + 1) (map_assign string_lt a i bounds)

/-- `Partitioner::get_bounds` (lines 2260-2270). -/
def get_bounds (A : AnalysisEnv) (s : FStage) : Except String DimBounds :=
  match get_bounds_args A.pipeline_bounds s.func (A.args s.func) 0 [] with
  | Except.error e => Except.error e
  | Except.ok bounds => Except.ok (A.get_stage_bounds s bounds)

/-- The bound that `get_bounds_from_tile_sizes` gives to one loop variable
(lines 2281-2300). -/
def tile_bound (P : Primitives) (A : AnalysisEnv) (def_bounds : DimBounds)
    (tile_sizes : TileSizes) (var : String) : Except String Interval :=
  match get_element def_bounds var with
  | Except.error e => Except.error e
  | Except.ok bound =>
    match map_find tile_sizes var with
    | some size =>
      match A.get_extent bound with
      | none => Except.error "internal_assert: extent.defined()"
      | some extent =>
        if P.can_prove (Expr.GE extent (Expr.Mul (Expr.IntImm 2) size)) then
          Except.ok ⟨Expr.IntImm 0, P.simplify (Expr.Sub size (Expr.IntImm 1))⟩
        else Except.ok bound
    | none => Except.ok bound

/-- The loop of `get_bounds_from_tile_sizes` over the dimensions (lines
2280-2302). -/
def get_bounds_from_tile_sizes_loop (P : Primitives) (A : AnalysisEnv) (def_bounds : DimBounds)
    (tile_sizes : TileSizes) : List Dim → DimBounds → Except String DimBounds
  | [], bounds => Except.ok bounds
  | d :: rest, bounds =>
    match tile_bound P A def_bounds tile_sizes d.var with
    | Except.error e => Except.error e
    | Except.ok i =>
      get_bounds_from_tile_sizes_loop P A def_bounds tile_sizes rest
        (map_assign string_lt d.var i bounds)

/-- `Partitioner::get_bounds_from_tile_sizes` (lines 2272-2305). -/
def get_bounds_from_tile_sizes (P : Primitives) (A : AnalysisEnv) (s : FStage)
    (tile_sizes : TileSizes) : Except String DimBounds :=
  match get_bounds A s with
  | Except.error e => Except.error e
  | Except.ok def_bounds =>
    get_bounds_from_tile_sizes_loop P A def_bounds tile_sizes (A.definitions.dims s).dropLast []

/-! ## The cost analysis of a group -/

/-- The set `group_members` of `analyze_group` (line 2316): the names of the
functions of the members. -/
def group_member_names (g : Group) : List String :=
  g.members.foldl (fun s stg => set_insert string_lt stg.func s) []

/-- The set `group_inputs` of `analyze_group` (lines 2317-2329): the callees
of the members that are not functions of members. -/
def group_input_names (D : StageDefinitions) (g : Group) : List String :=
  g.members.foldl
    (fun s stg =>
      (D.parents stg).foldl
        (fun s1 c => if g.members.any (fun m => m.func == c) then s1
          else set_insert string_lt c s1) s) []

/-- The number of tiles along one dimension (line 2352),
`simplify((extent + size - 1) / size)`. -/
def dim_tiles (P : Primitives) (extent size : Expr) : Expr :=
  P.simplify (Expr.Div (Expr.Sub (Expr.Add extent size) (Expr.IntImm 1)) size)

/-- The loop of `analyze_group` over the dimensions of the output stage (lines
2341-2358), which multiplies up `estimate_tiles` and `parallelism`.  The
result `none` is the return of an undefined analysis for an undefined
extent. -/
def tile_counts (P : Primitives) (A : AnalysisEnv) (g : Group) (stg_bounds : DimBounds) :
    List Dim → Expr × Expr → Except String (Option (Expr × Expr))
  | [], acc => Except.ok (some acc)
  | d :: rest, acc =>
    match map_find g.tile_sizes d.var with
    | none => tile_counts P A g stg_bounds rest acc
    | some size =>
      match get_element stg_bounds d.var with
      | Except.error e => Except.error e
      | Except.ok bound =>
        match A.get_extent bound with
        | none => Except.ok none
        | some extent =>
          tile_counts P A g stg_bounds rest
            (Expr.Mul acc.1 (dim_tiles P extent size),
              if A.can_parallelize_rvar d.var g.output then
                Expr.Mul acc.2 (dim_tiles P extent size)
              else acc.2)

/-- The regions `group_reg` of `analyze_group` (lines 2372-2376): the computed
regions of the members other than the output function. -/
def group_regions (group_members : List String) (output_name : String)
    (compute_regions : List (String × Box)) : List (String × Box) :=
  compute_regions.foldl
    (fun acc reg =>
      if group_members.contains reg.1 && reg.1 != output_name then
        map_emplace string_lt reg.1 reg.2 acc
      else acc) []

/-- The box `out_tile_extent` of `analyze_group` (lines 2478-2489). -/
def out_tile_extent (A : AnalysisEnv) (g : Group) (tile_bounds : DimBounds) : Box :=
  if g.output.stage_num = 0 then
    (A.args g.output.func).map
      (fun a => match map_find tile_bounds a with
        | some i => i
        | none => Interval.everything)
  else []

/-- The slope `load_slope` of the cost of a load (line 2506). -/
def load_slope (arch : MachineParams) : Expr :=
  Expr.Div (Expr.Cast "float32" arch.balance) arch.last_level_cache_size

/-- The factor `cost_factor` of a load from a source of the given footprint
(line 2560). -/
def cost_factor (arch : MachineParams) (footprint : Expr) : Expr :=
  Expr.Cast "int64"
    (Expr.Min (Expr.Add (Expr.IntImm 1) (Expr.Mul footprint (load_slope arch))) arch.balance)

/-- Modelled from the spec: an operand of an arithmetic operator of
IROperator.h, which is not among the sources.  The operators assert that
their operands are defined (`operator* of undefined Expr`), so an undefined
handle is an error. -/
def defined_operand (e : Option Expr) : Except String Expr :=
  match e with
  | some x => Except.ok x
  | none => Except.error "user_assert: operator of undefined Expr"

/-- The last two lines of the loop over the load sources (lines 2560-2561):
`per_tile_cost.memory += cost_factor * f_load.second`. -/
def add_load_cost (arch : MachineParams) (memory : Expr) (footprint count : Option Expr) :
    Except String (Option Expr) :=
  match defined_operand footprint with
  | Except.error e => Except.error e
  | Except.ok fp =>
    match defined_operand count with
    | Except.error e => Except.error e
    | Except.ok c => Except.ok (some (Expr.Add memory (Expr.Mul (cost_factor arch fp) c)))

/-- The flag `model_reuse` of `analyze_group` (line 2503). -/
def model_reuse : Bool := false

/-- The cost of a load source that is the output of the group or not a member
(lines 2545-2561), from the footprint of the initial loads (over the bounds
of the pipeline) and that of the later loads.  Without `model_reuse` the
initial footprint replaces the other one, and an undefined one makes
`analyze_group` return (`none`). -/
def checked_load_cost (arch : MachineParams) (memory : Expr)
    (initial_footprint footprint count : Option Expr) : Except String (Option Expr) :=
  if model_reuse then
    match defined_operand initial_footprint with
    | Except.error e => Except.error e
    | Except.ok i =>
      match defined_operand footprint with
      | Except.error e => Except.error e
      | Except.ok fp =>
        add_load_cost arch (Expr.Add memory (Expr.Mul (cost_factor arch i) fp)) (some fp) count
  else
    match initial_footprint with
    | none => Except.ok none
    | some fp => add_load_cost arch memory (some fp) count

/-- One turn of the loop of `analyze_group` over the load sources (lines
2507-2562).  The result is the new `per_tile_cost.memory`, or `none` for the
return of an undefined analysis. -/
def load_cost_step (A : AnalysisEnv) (part : Partitioner) (g : Group)
    (group_members : List String) (alloc_regions : List (String × Box)) (out_extent : Box)
    (memory : Expr) (f_load : String × Option Expr) : Except String (Option Expr) :=
  if g.inlined.contains f_load.1 then
    Except.error "internal_assert: intermediates of an inlined function in group_load_costs"
  else
    match get_element alloc_regions f_load.1 with
    | Except.error e => Except.error e
    | Except.ok alloc_reg =>
      if (!(f_load.1 == g.output.func)) && group_members.contains f_load.1 then
        add_load_cost part.arch_params memory (A.region_size f_load.1 alloc_reg) f_load.2
      else
        match get_element A.pipeline_bounds f_load.1 with
        | Except.error e => Except.error e
        | Except.ok f_load_pipeline_bounds =>
          if !(env_find part.env f_load.1).isSome then
            checked_load_cost part.arch_params memory
              (A.input_region_size f_load.1 f_load_pipeline_bounds)
              (A.input_region_size f_load.1 alloc_reg) f_load.2
          else if f_load.1 == g.output.func then
            if group_members.contains f_load.1 then
              checked_load_cost part.arch_params memory
                (A.region_size f_load.1 f_load_pipeline_bounds)
                (A.region_size f_load.1 out_extent) f_load.2
            else Except.error "internal_assert: the output should have been a group member"
          else
            checked_load_cost part.arch_params memory
              (A.region_size f_load.1 f_load_pipeline_bounds)
              (A.region_size f_load.1 alloc_reg) f_load.2

/-- The loop of `analyze_group` over the load sources (lines 2507-2562). -/
def load_costs_loop (A : AnalysisEnv) (part : Partitioner) (g : Group)
    (group_members : List String) (alloc_regions : List (String × Box)) (out_extent : Box) :
    List (String × Option Expr) → Expr → Except String (Option Expr)
  | [], memory => Except.ok (some memory)
  | f_load :: rest, memory =>
    match load_cost_step A part g group_members alloc_regions out_extent memory f_load with
    | Except.error e => Except.error e
    | Except.ok none => Except.ok none
    | Except.ok (some memory1) =>
      load_costs_loop A part g group_members alloc_regions out_extent rest memory1

/-- What `analyze_group` has computed when it reaches line 2575: the
arithmetic and the memory cost of one tile, the number of tiles and the
parallelism. -/
structure TileAnalysis where
  arith : Expr
  memory : Expr
  estimate_tiles : Expr
  parallelism : Expr
  deriving DecidableEq, Repr

/-- The part of `analyze_group` after the loop over the dimensions (lines
2360-2573), for the tile counts of that loop.  The result `none` is the
return of an undefined analysis. -/
def per_tile_costs (P : Primitives) (A : AnalysisEnv) (part : Partitioner) (g : Group)
    (show_analysis : Bool) (counts : Expr × Expr) : Except String (Option TileAnalysis) :=
  match get_bounds_from_tile_sizes P A g.output g.tile_sizes with
  | Except.error e => Except.error e
  | Except.ok tile_bounds =>
    match A.regions_required g.output tile_bounds (group_member_names g) false with
    | Except.error e => Except.error e
    | Except.ok alloc_regions =>
      match A.regions_required g.output tile_bounds (group_member_names g) true with
      | Except.error e => Except.error e
      | Except.ok compute_regions =>
        let group_reg := group_regions (group_member_names g) g.output.func compute_regions
        match (A.region_cost group_reg g.inlined).arith,
            (A.region_cost group_reg g.inlined).memory with
        | some tile_arith, some _ =>
          match (A.stage_region_cost g.output tile_bounds g.inlined).arith,
              (A.stage_region_cost g.output tile_bounds g.inlined).memory with
          | some out_arith, some _ =>
            if alloc_regions.any (fun reg => (A.box_size reg.2).isNone) then Except.ok none
            else
              match load_costs_loop A part g (group_member_names g) alloc_regions
                  (out_tile_extent A g tile_bounds)
                  (A.combine_load_costs (A.detailed_load_costs group_reg g.inlined)
                    (A.stage_detailed_load_costs g.output tile_bounds g.inlined))
                  make_zero with
              | Except.error e => Except.error e
              | Except.ok none => Except.ok none
              | Except.ok (some memory) =>
                let arith := P.simplify (Expr.Add tile_arith out_arith)
                if show_analysis then
                  Except.ok (some ⟨P.simplify arith, P.simplify memory, counts.1, counts.2⟩)
                else Except.ok (some ⟨arith, memory, counts.1, counts.2⟩)
          | _, _ => Except.ok none
        | _, _ => Except.ok none

/-- The analysis that `analyze_group` builds from the costs of one tile
(lines 2575-2589). -/
def group_analysis_of (P : Primitives) (is_subgroup : Bool) (t : TileAnalysis) :
    GroupAnalysis :=
  GroupAnalysis.simplify P.simplify
    (if is_subgroup then ⟨⟨some t.arith, some t.memory⟩, some t.parallelism⟩
     else ⟨⟨some (Expr.Mul t.arith t.estimate_tiles),
            some (Expr.Mul t.memory t.estimate_tiles)⟩, some t.parallelism⟩)

/-- `Partitioner::analyze_group` (lines 2307-2591).  The argument
`group_tile_bounds` is not read by the body. -/
def Partitioner.analyze_group (P : Primitives) (A : AnalysisEnv) (part : Partitioner)
    (g : Group) (show_analysis : Bool) (_group_tile_bounds : TileSizes) (is_subgroup : Bool) :
    Except String GroupAnalysis :=
  match get_bounds A g.output with
  | Except.error e => Except.error e
  | Except.ok stg_bounds =>
    match tile_counts P A g stg_bounds (A.definitions.dims g.output).dropLast
        (Expr.IntImm 1, Expr.IntImm 1) with
    | Except.error e => Except.error e
    | Except.ok none => Except.ok GroupAnalysis.undefined
    | Except.ok (some counts) =>
      match per_tile_costs P A part g show_analysis counts with
      | Except.error e => Except.error e
      | Except.ok none => Except.ok GroupAnalysis.undefined
      | Except.ok (some t) => Except.ok (group_analysis_of P is_subgroup t)

/-! ## The regions that a stage requires -/

/-- `DependenceAnalysis::RegionsRequiredQuery` (lines 181-214), the key of the
cache of `regions_required`; `operator==` compares the four fields. -/
structure RegionsRequiredQuery where
  f : String
  stage : Nat
  prods : List String
  only_regions_computed : Bool
  deriving DecidableEq, Repr

/-- The order of `std::set<string>`: lexicographic by element. -/
def strings_lt : List String → List String → Bool
  | [], [] => false
  | [], _ :: _ => true
  | _ :: _, [] => false
  | a :: as, b :: bs => string_lt a b || (!string_lt b a && strings_lt as bs)

/-- `RegionsRequiredQuery::operator<` (lines 196-213). -/
def RegionsRequiredQuery.lt (a b : RegionsRequiredQuery) : Bool :=
  if string_lt a.f b.f then true
  else if string_lt b.f a.f then false
  else if a.stage < b.stage then true
  else if b.stage < a.stage then false
  else if !a.only_regions_computed && b.only_regions_computed then true
  else if a.only_regions_computed && !b.only_regions_computed then false
  else strings_lt a.prods b.prods

/-- `DependenceAnalysis::RegionsRequired` (lines 215-222): an answer of the
cache, the regions required for the bounds. -/
structure RegionsRequired where
  bounds : DimBounds
  regions : List (String × Box)
  deriving DecidableEq, Repr

/-- The cache `regions_required_cache` (line 225). -/
abbrev RegionsCache := List (RegionsRequiredQuery × List RegionsRequired)

/-- `StageBounds` (lines 292-316), an element of the set of visited stages. -/
structure StageBounds where
  f_stage : FStage
  bounds : DimBounds
  deriving DecidableEq, Repr

/-- `StageBounds::operator<` (lines 303-306): by stage, and for one stage by
the number of bounds. -/
def StageBounds.lt (a b : StageBounds) : Bool :=
  FStage.lt a.f_stage b.f_stage ||
    (a.f_stage == b.f_stage && decide (a.bounds.length < b.bounds.length))

/-- The test `visited.find(sb) != visited.end()`: an element that is neither
smaller nor larger than `sb` is in the set. -/
def visited_find (visited : List StageBounds) (sb : StageBounds) : Bool :=
  visited.any (fun v => !StageBounds.lt v sb && !StageBounds.lt sb v)

/-- Modelled from the spec: an argument of an extern definition
(`ExternFuncArgument`, not among the sources): a whole function, an
expression, or an image or buffer with its number of dimensions. -/
inductive ExternFuncArgument (ε : Type) where
  | func (name : String)
  | expr (e : ε)
  | buffer (name : String) (dimensions : Nat)
  | undefined

/-- Modelled from the spec: an estimate of the schedule of a function (`Bound`
of Schedule.h, not among the sources): the variable, its least value and its
extent. -/
structure Bound where
  var : String
  min : Option Expr
  extent : Option Expr
  deriving DecidableEq, Repr

/-- A scope of intervals: the bindings pushed last come first, those of the
containing scope last. -/
abbrev Scope := List (String × Interval)

/-- The fields of `DependenceAnalysis` (lines 175-270) and what
`regions_required` takes from outside the sources.  The expressions of the
definitions (values, left-hand-side arguments, arguments of an extern
definition) are of a type `ε` that the analysis only hands on to the bounds
inference of Bounds.h (`boxes_required`, `bounds_of_expr_in_scope`, with the
fixed `func_val_bounds`) and to `SubstituteVarEstimates`; `merge_boxes`,
`get_stage_bounds`, `Interval::make_min` and `Interval::make_max` are taken
from outside as well. -/
structure DependenceAnalysis (ε : Type) where
  env : List Function
  order : List String
  input_estimates : Scope
  args : String → List String
  estimates : String → List Bound
  extern_arguments : String → List (ExternFuncArgument ε)
  dims : FStage → List Dim
  values : FStage → List ε
  lhs_args : FStage → List ε
  substitute_var_estimates : Expr → Expr
  substitute_estimates : ε → ε
  boxes_required : ε → Scope → List (String × Box)
  bounds_of_expr_in_scope : ε → Scope → Interval
  merge_boxes : Box → Box → Box
  get_stage_bounds : String → DimBounds → List DimBounds
  make_min : Expr → Expr → Expr
  make_max : Expr → Expr → Expr

/-- The queue of stages, the regions found so far and the set of visited
stages of `regions_required` (lines 438-440). -/
structure RegionState where
  fs_bounds : List (FStage × DimBounds)
  regions : List (String × Box)
  visited : List StageBounds
  deriving DecidableEq, Repr

/-- The merge of one region into a map of regions (lines 88-93 and 391-396):
a new entry, or the merge of the boxes. -/
def merge_region (merge_boxes : Box → Box → Box) (result : List (String × Box))
    (reg : String × Box) : List (String × Box) :=
  match map_find result reg.1 with
  | none => map_emplace string_lt reg.1 reg.2 result
  | some box => map_assign string_lt reg.1 (merge_boxes box reg.2) result

/-- `merge_regions` on maps of boxes (lines 85-95). -/
def merge_regions (merge_boxes : Box → Box → Box) (result partial_regions : List (String × Box)) :
    List (String × Box) :=
  partial_regions.foldl (merge_region merge_boxes) result

/-- `simplify_box` (lines 77-82). -/
def simplify_box (P : Primitives) (b : Box) : Box :=
  b.map (fun i => ⟨P.simplify i.min, P.simplify i.max⟩)

/-- The merge of the bounds of a stage into those already queued for it (lines
351-369). -/
def merge_queued_bounds {ε : Type} (DA : DependenceAnalysis ε) (P : Primitives)
    (curr_bounds bounds : DimBounds) : DimBounds :=
  bounds.foldl
    (fun curr b =>
      match map_find curr b.1 with
      | none => map_emplace string_lt b.1 b.2 curr
      | some cur =>
        map_assign string_lt b.1
          ⟨if cur.has_lower_bound && b.2.has_lower_bound then
              P.simplify (DA.make_min cur.min b.2.min)
            else Interval.neg_inf,
            if cur.has_upper_bound && b.2.has_upper_bound then
              P.simplify (DA.make_max cur.max b.2.max)
            else Interval.pos_inf⟩ curr)
    curr_bounds

/-- The queueing of one stage of a producer (lines 345-371): nothing happens
for a visited stage. -/
def queue_stage {ε : Type} (DA : DependenceAnalysis ε) (P : Primitives)
    (visited : List StageBounds) (name : String) (prod_bounds : List DimBounds)
    (fs_bounds : List (FStage × DimBounds)) (prod_s : Nat) : List (FStage × DimBounds) :=
  if visited_find visited ⟨⟨name, prod_s⟩, prod_bounds.getD prod_s []⟩ then fs_bounds
  else
    match map_find fs_bounds ⟨name, prod_s⟩ with
    | none => map_emplace FStage.lt ⟨name, prod_s⟩ (prod_bounds.getD prod_s []) fs_bounds
    | some curr_bounds =>
      map_assign FStage.lt ⟨name, prod_s⟩
        (merge_queued_bounds DA P curr_bounds (prod_bounds.getD prod_s [])) fs_bounds

/-- `queue_func_regions` (lines 321-373). -/
def queue_func_regions {ε : Type} (DA : DependenceAnalysis ε) (P : Primitives)
    (fs_bounds : List (FStage × DimBounds)) (prod_func : Function) (region : Box)
    (visited : List StageBounds) : Except String (List (FStage × DimBounds)) :=
  if region.length ≠ (DA.args prod_func.name).length then
    Except.error "internal_assert: region.size() == args.size()"
  else
    let prod_pure_bounds : DimBounds :=
      ((DA.args prod_func.name).zip region).foldl
        (fun m ar => map_assign string_lt ar.1 ar.2 m) []
    let prod_bounds := DA.get_stage_bounds prod_func.name prod_pure_bounds
    if prod_bounds.length ≠ prod_func.updates + 1 then
      Except.error "internal_assert: prod_bounds.size() == num_stages"
    else
      Except.ok ((List.range (prod_func.updates + 1)).foldl
        (queue_stage DA P visited prod_func.name prod_bounds) fs_bounds)

/-- One turn of the loop of `merge_and_queue_regions` (lines 386-411). -/
def merge_and_queue_region {ε : Type} (DA : DependenceAnalysis ε) (P : Primitives)
    (prods : List String) (only_regions_computed : Bool) (curr_func_name : String)
    (st : RegionState) (reg : String × Box) : Except String RegionState :=
  let regions1 :=
    if !only_regions_computed || (only_regions_computed && reg.1 != curr_func_name) then
      merge_region DA.merge_boxes st.regions reg
    else st.regions
  if !prods.contains reg.1 then Except.ok { st with regions := regions1 }
  else
    match env_find DA.env reg.1 with
    | some f =>
      if reg.1 != curr_func_name then
        match queue_func_regions DA P st.fs_bounds f reg.2 st.visited with
        | Except.error e => Except.error e
        | Except.ok fs1 => Except.ok { st with fs_bounds := fs1, regions := regions1 }
      else Except.ok { st with regions := regions1 }
    | none => Except.ok { st with regions := regions1 }

/-- `merge_and_queue_regions` (lines 378-412). -/
def merge_and_queue_regions {ε : Type} (DA : DependenceAnalysis ε) (P : Primitives)
    (prods : List String) (only_regions_computed : Bool) (curr_func_name : String) :
    List (String × Box) → RegionState → Except String RegionState
  | [], st => Except.ok st
  | reg :: rest, st =>
    match merge_and_queue_region DA P prods only_regions_computed curr_func_name st reg with
    | Except.error e => Except.error e
    | Except.ok st1 =>
      merge_and_queue_regions DA P prods only_regions_computed curr_func_name rest st1

/-- The scope of the loop variables of a stage (lines 475-483): each variable
but the last is bound to its simplified bounds with the estimates
substituted. -/
def stage_scope {ε : Type} (DA : DependenceAnalysis ε) (P : Primitives)
    (curr_bounds : DimBounds) : List Dim → Scope → Except String Scope
  | [], scope => Except.ok scope
  | d :: rest, scope =>
    match map_find curr_bounds d.var with
    | none => Except.error "internal_assert: cannot find the bound of a dimension"
    | some b =>
      stage_scope DA P curr_bounds rest
        ((d.var, ⟨P.simplify (DA.substitute_var_estimates b.min),
          P.simplify (DA.substitute_var_estimates b.max)⟩) :: scope)

/-- The regions of one argument of an extern definition (lines 494-532). -/
def extern_argument_regions {ε : Type} (DA : DependenceAnalysis ε) (P : Primitives)
    (prods : List String) (only_regions_computed : Bool) (s : FStage) (scope : Scope)
    (st : RegionState) (arg : ExternFuncArgument ε) : Except String RegionState :=
  match arg with
  | ExternFuncArgument.func prod_name =>
    match env_get DA.env prod_name with
    | Except.error e => Except.error e
    | Except.ok _ =>
      merge_and_queue_regions DA P prods only_regions_computed s.func
        (if (DA.args prod_name).isEmpty then []
          else [(prod_name, (DA.args prod_name).map (fun _ => Interval.everything))]) st
  | ExternFuncArgument.expr e =>
    merge_and_queue_regions DA P prods only_regions_computed s.func
      (DA.boxes_required (DA.substitute_estimates e) scope) st
  | ExternFuncArgument.buffer name dimensions =>
    Except.ok { st with
      regions := (merge_regions DA.merge_boxes st.regions
        (if dimensions = 0 then []
          else [(name, List.replicate dimensions Interval.everything)])) }
  | ExternFuncArgument.undefined => Except.ok st

/-- The loop over the arguments of an extern definition (lines 494-532). -/
def extern_regions {ε : Type} (DA : DependenceAnalysis ε) (P : Primitives)
    (prods : List String) (only_regions_computed : Bool) (s : FStage) (scope : Scope) :
    List (ExternFuncArgument ε) → RegionState → Except String RegionState
  | [], st => Except.ok st
  | arg :: rest, st =>
    match extern_argument_regions DA P prods only_regions_computed s scope st arg with
    | Except.error e => Except.error e
    | Except.ok st1 => extern_regions DA P prods only_regions_computed s scope rest st1

/-- The regions `curr_regions` that one value of a stage requires (lines
540-564): the boxes of the value and of the left-hand-side arguments, and
under the name of the function itself the bounds `left_reg` of those
arguments. -/
def value_regions {ε : Type} (DA : DependenceAnalysis ε) (s : FStage) (scope : Scope)
    (val : ε) : List (String × Box) :=
  let r : List (String × Box) × Box :=
    (DA.lhs_args s).foldl
      (fun acc arg =>
        (merge_regions DA.merge_boxes acc.1
            (DA.boxes_required (DA.substitute_estimates arg) scope),
          acc.2 ++ [DA.bounds_of_expr_in_scope arg scope]))
      (DA.boxes_required (DA.substitute_estimates val) scope, [])
  merge_region DA.merge_boxes r.1 (s.func, r.2)

/-- The loop over the values of a stage (lines 537-569). -/
def values_regions {ε : Type} (DA : DependenceAnalysis ε) (P : Primitives)
    (prods : List String) (only_regions_computed : Bool) (s : FStage) (scope : Scope) :
    List ε → RegionState → Except String RegionState
  | [], st => Except.ok st
  | val :: rest, st =>
    match merge_and_queue_regions DA P prods only_regions_computed s.func
        (value_regions DA s scope val) st with
    | Except.error e => Except.error e
    | Except.ok st1 => values_regions DA P prods only_regions_computed s scope rest st1

/-- The work of `regions_required` on one queued stage (lines 457-571). -/
def process_stage {ε : Type} (DA : DependenceAnalysis ε) (P : Primitives)
    (prods : List String) (only_regions_computed : Bool) (f : Function) (s : FStage)
    (curr_bounds : DimBounds) (st : RegionState) : Except String RegionState :=
  match stage_scope DA P curr_bounds (DA.dims s).dropLast [] with
  | Except.error e => Except.error e
  | Except.ok pushes =>
    match
      (if f.has_extern_definition then
        extern_regions DA P prods only_regions_computed s (pushes ++ DA.input_estimates)
          (DA.extern_arguments s.func)
          { st with visited := set_insert StageBounds.lt ⟨s, curr_bounds⟩ st.visited }
      else
        Except.ok { st with visited := set_insert StageBounds.lt ⟨s, curr_bounds⟩ st.visited })
    with
    | Except.error e => Except.error e
    | Except.ok st1 =>
      match values_regions DA P prods only_regions_computed s (pushes ++ DA.input_estimates)
          (DA.values s) st1 with
      | Except.error e => Except.error e
      | Except.ok st2 => Except.ok { st2 with fs_bounds := map_erase st2.fs_bounds s }

/-- The loop over the stages of one function (lines 449-572): a stage that is
not queued is skipped. -/
def pass_stages {ε : Type} (DA : DependenceAnalysis ε) (P : Primitives)
    (prods : List String) (only_regions_computed : Bool) (f : Function) :
    List Nat → RegionState → Except String RegionState
  | [], st => Except.ok st
  | stage_num :: rest, st =>
    match map_find st.fs_bounds ⟨f.name, stage_num⟩ with
    | none => pass_stages DA P prods only_regions_computed f rest st
    | some curr_bounds =>
      match process_stage DA P prods only_regions_computed f ⟨f.name, stage_num⟩ curr_bounds
          st with
      | Except.error e => Except.error e
      | Except.ok st1 => pass_stages DA P prods only_regions_computed f rest st1

/-- The loop over the functions (lines 446-573), given in the order of the
traversal, the realization order reversed. -/
def pass_functions {ε : Type} (DA : DependenceAnalysis ε) (P : Primitives)
    (prods : List String) (only_regions_computed : Bool) :
    List String → RegionState → Except String RegionState
  | [], st => Except.ok st
  | name :: rest, st =>
    match env_get DA.env name with
    | Except.error e => Except.error e
    | Except.ok f =>
      match pass_stages DA P prods only_regions_computed f (List.range (f.updates + 1)) st with
      | Except.error e => Except.error e
      | Except.ok st1 => pass_functions DA P prods only_regions_computed rest st1

/-- The loop `while (!fs_bounds.empty())` (lines 445-574); the first argument
bounds the number of turns. -/
def drain_queue {ε : Type} (DA : DependenceAnalysis ε) (P : Primitives)
    (prods : List String) (only_regions_computed : Bool) :
    Nat → RegionState → Except String RegionState
  | 0, _ => Except.error "out of fuel"
  | fuel + 1, st =>
    if st.fs_bounds.isEmpty then Except.ok st
    else
      match pass_functions DA P prods only_regions_computed DA.order.reverse st with
      | Except.error e => Except.error e
      | Except.ok st1 => drain_queue DA P prods only_regions_computed fuel st1

/-- The lower bound taken from the estimates of a function (lines 592-600):
the least value of the last estimate of argument `i`. -/
def estimate_lower (args : List String) (i : Nat) : List Bound → Expr → Except String Expr
  | [], lower => Except.ok lower
  | b :: rest, lower =>
    if decide (i < args.length) && b.var == args.getD i "" then
      match b.min with
      | some (Expr.IntImm v) => estimate_lower args i rest (Expr.IntImm v)
      | _ => Except.error "as<IntImm>() of an estimate that is not a constant"
    else estimate_lower args i rest lower

/-- The upper bound taken from the estimates of a function (lines 602-612):
`min + extent - 1` of the last estimate of argument `i`. -/
def estimate_upper (args : List String) (i : Nat) : List Bound → Expr → Except String Expr
  | [], upper => Except.ok upper
  | b :: rest, upper =>
    if decide (i < args.length) && b.var == args.getD i "" then
      match b.min, b.extent with
      | some (Expr.IntImm bmin), some (Expr.IntImm bextent) =>
        estimate_upper args i rest (Expr.IntImm (bmin + bextent - 1))
      | _, _ => Except.error "as<IntImm>() of an estimate that is not a constant"
    else estimate_upper args i rest upper

/-- The concrete bounds of dimension `i` of the region of a function (lines
586-615). -/
def concrete_interval {ε : Type} (DA : DependenceAnalysis ε) (name : String) (i : Nat)
    (bounds : Interval) : Except String Interval :=
  match
    (if (as_const_int bounds.min).isNone && (env_find DA.env name).isSome then
      estimate_lower (DA.args name) i (DA.estimates name) bounds.min
    else Except.ok bounds.min) with
  | Except.error e => Except.error e
  | Except.ok lower =>
    match
      (if (as_const_int bounds.max).isNone && (env_find DA.env name).isSome then
        estimate_upper (DA.args name) i (DA.estimates name) bounds.max
      else Except.ok bounds.max) with
    | Except.error e => Except.error e
    | Except.ok upper => Except.ok ⟨lower, upper⟩

/-- The concrete box of the region of a function (lines 584-616), from
dimension `i` on. -/
def concrete_box {ε : Type} (DA : DependenceAnalysis ε) (name : String) :
    Nat → Box → Except String Box
  | _, [] => Except.ok []
  | i, bounds :: rest =>
    match concrete_interval DA name i bounds with
    | Except.error e => Except.error e
    | Except.ok c =>
      match concrete_box DA name (i + 1) rest with
      | Except.error e => Except.error e
      | Except.ok cs => Except.ok (c :: cs)

/-- The loop that makes the regions concrete (lines 579-618). -/
def concrete_regions {ε : Type} (DA : DependenceAnalysis ε) (P : Primitives) :
    List (String × Box) → List (String × Box) → Except String (List (String × Box))
  | [], acc => Except.ok acc
  | f_reg :: rest, acc =>
    match concrete_box DA f_reg.1 0 (simplify_box P f_reg.2) with
    | Except.error e => Except.error e
    | Except.ok box => concrete_regions DA P rest (map_assign string_lt f_reg.1 box acc)

/-- The computation of `regions_required` after the look into the cache
(lines 437-618). -/
def DependenceAnalysis.compute_regions {ε : Type} (DA : DependenceAnalysis ε) (P : Primitives)
    (fuel : Nat) (f : String) (stage_num : Nat) (bounds : DimBounds) (prods : List String)
    (only_regions_computed : Bool) : Except String (List (String × Box)) :=
  match drain_queue DA P prods only_regions_computed fuel
      ⟨[(⟨f, stage_num⟩, bounds)], [], []⟩ with
  | Except.error e => Except.error e
  | Except.ok st => concrete_regions DA P st.regions []

/-- The look into the cache (lines 426-435): the regions of the first answer
stored under the query whose bounds equal the given ones. -/
def cache_lookup (cache : RegionsCache) (query : RegionsRequiredQuery) (bounds : DimBounds) :
    Option (List (String × Box)) :=
  match map_find cache query with
  | none => none
  | some answers =>
    match answers.find? (fun r => decide (r.bounds = bounds)) with
    | none => none
    | some r => some r.regions

/-- The store `regions_required_cache[query].push_back(r)` (line 620). -/
def cache_store (cache : RegionsCache) (query : RegionsRequiredQuery) (r : RegionsRequired) :
    RegionsCache :=
  map_assign RegionsRequiredQuery.lt query
    ((match map_find cache query with
      | none => []
      | some answers => answers) ++ [r]) cache

/-- `DependenceAnalysis::regions_required` for a stage (lines 416-622), with
the cache as an argument and a result. -/
def DependenceAnalysis.regions_required {ε : Type} (DA : DependenceAnalysis ε) (P : Primitives)
    (fuel : Nat) (cache : RegionsCache) (f : String) (stage_num : Nat) (bounds : DimBounds)
    (prods : List String) (only_regions_computed : Bool) :
    Except String (List (String × Box) × RegionsCache) :=
  match cache_lookup cache ⟨f, stage_num, prods, only_regions_computed⟩ bounds with
  | some regions => Except.ok (regions, cache)
  | none =>
    match DA.compute_regions P fuel f stage_num bounds prods only_regions_computed with
    | Except.error e => Except.error e
    | Except.ok regions =>
      Except.ok (regions,
        cache_store cache ⟨f, stage_num, prods, only_regions_computed⟩ ⟨bounds, regions⟩)

/-- A cache all of whose answers are results of the computation. -/
def cache_consistent {ε : Type} (DA : DependenceAnalysis ε) (P : Primitives)
    (cache : RegionsCache) : Prop :=
  ∀ query answers, map_find cache query = some answers → ∀ r ∈ answers,
    ∃ fuel, DA.compute_regions P fuel query.f query.stage r.bounds query.prods
      query.only_regions_computed = Except.ok r.regions

/-- A cache that holds the answers of another one, in the same order, and
possibly further ones behind them. -/
def cache_extends (c1 c2 : RegionsCache) : Prop :=
  ∀ query answers, map_find c1 query = some answers →
    ∃ more, map_find c2 query = some (answers ++ more)

/-- A ranking of the functions under which the expressions of every stage
require, besides the function of the stage, only functions of a lower rank,
and so do the arguments of every extern definition: the calls of the
pipeline have no cycle. -/
def ranked_calls {ε : Type} (DA : DependenceAnalysis ε) (rank : String → Nat) : Prop :=
  (∀ (s : FStage) (scope : Scope) (e : ε), e ∈ DA.values s ∨ e ∈ DA.lhs_args s →
    ∀ x ∈ DA.boxes_required (DA.substitute_estimates e) scope,
      x.1 = s.func ∨ rank x.1 < rank s.func) ∧
  (∀ (name : String), ∀ arg ∈ DA.extern_arguments name,
    match arg with
    | ExternFuncArgument.func p => rank p < rank name
    | ExternFuncArgument.expr e =>
      ∀ scope, ∀ x ∈ DA.boxes_required (DA.substitute_estimates e) scope,
        x.1 = name ∨ rank x.1 < rank name
    | ExternFuncArgument.buffer b _ => rank b < rank name
    | ExternFuncArgument.undefined => True)

/-! ## A worked cost analysis

The output `f` over `x` in `[0, 3]` and `y` in `[0, 31]` is grouped with the
intermediate `h`, which reads the input buffer `in`. -/

/-- The interval between two constants. -/
def example_interval (lo hi : Int) : Interval := ⟨Expr.IntImm lo, Expr.IntImm hi⟩

/-- The product of the extents of a box, undefined when an extent is. -/
def example_box_size (b : Box) : Option Expr :=
  b.foldl
    (fun acc i =>
      match acc, interval_extent basic_simplify i with
      | some a, some e => some (basic_simplify (Expr.Mul a e))
      | _, _ => none)
    (some (Expr.IntImm 1))

/-- The externals of the worked analysis; the argument is the number of loads
from `h` that `detailed_load_costs` reports. -/
def example_analysis_env (h_count : Option Expr) : AnalysisEnv where
  definitions :=
    ⟨fun _ => [⟨"x", false⟩, ⟨"y", false⟩, ⟨"__outermost", false⟩],
      fun s => if s.func = "f" then ["h"] else ["in"]⟩
  args := fun _ => ["x", "y"]
  pipeline_bounds :=
    [("f", [example_interval 0 3, example_interval 0 31]),
      ("h", [example_interval 0 3, example_interval 0 31]),
      ("in", [example_interval 0 3, example_interval 0 31])]
  get_stage_bounds := fun _ b => b
  get_extent := interval_extent basic_simplify
  box_size := example_box_size
  combine_load_costs := fun a b => b.foldl (fun acc e => map_assign string_lt e.1 e.2 acc) a
  can_parallelize_rvar := fun _ _ => true
  regions_required := fun _ tile_bounds _ only_regions_computed =>
    Except.ok
      (if only_regions_computed then
        [("h", tile_bounds.map Prod.snd), ("in", tile_bounds.map Prod.snd)]
      else
        [("f", tile_bounds.map Prod.snd), ("h", tile_bounds.map Prod.snd),
          ("in", tile_bounds.map Prod.snd)])
  region_cost := fun _ _ => ⟨some (Expr.IntImm 10), some (Expr.IntImm 5)⟩
  stage_region_cost := fun _ _ _ => ⟨some (Expr.IntImm 20), some (Expr.IntImm 7)⟩
  detailed_load_costs := fun _ _ => [("in", some (Expr.IntImm 4))]
  stage_detailed_load_costs := fun _ _ _ => [("h", h_count)]
  region_size := fun _ b => example_box_size b
  input_region_size := fun _ b => example_box_size b

/-- The partitioner of the worked analysis: the functions `f` and `h` and the
machine parameters `16, 1024, 40`. -/
def example_analysis_part : Partitioner where
  grouping_cache := []
  groups := []
  children := []
  group_costs := []
  arch_params := MachineParams.of_ints 16 1024 40
  env := [example_function "f", example_function "h"]
  outputs := [example_function "f"]

/-- The group of `f` and `h` with the given tile sizes along `x` and `y`. -/
def example_analysis_group (tx ty : Int) : Group :=
  Group.mk ⟨"f", 0⟩ [⟨"f", 0⟩, ⟨"h", 0⟩] []
    [("x", Expr.IntImm tx), ("y", Expr.IntImm ty)] []

/-- The worked analysis with a pipeline bound of the input buffer `in` that
has no upper bound along `y`. -/
def example_unbounded_env : AnalysisEnv :=
  { example_analysis_env (some (Expr.IntImm 3)) with
    pipeline_bounds :=
      [("f", [example_interval 0 3, example_interval 0 31]),
        ("h", [example_interval 0 3, example_interval 0 31]),
        ("in", [example_interval 0 3, ⟨Expr.IntImm 0, Interval.pos_inf⟩])] }

/-! ## A worked query of the regions

The output `f(x) = g(x)` reads the producer `g`, which has the pure
definition `g(x) = 0` and the update `g(r) = g(r) + 1` over the reduction
domain `r` in `[0, 255]`. -/

/-- The bounds of a variable in a scope, without bounds when it is not
bound. -/
def example_scope_bounds (scope : Scope) (v : String) : Interval :=
  match map_find scope v with
  | some i => i
  | none => Interval.everything

/-- The dependence analysis of the worked query; the expressions of the
definitions are given by their text. -/
def example_dependence : DependenceAnalysis String where
  env := [⟨"f", 0, true, false⟩, ⟨"g", 1, true, false⟩]
  order := ["g", "f"]
  input_estimates := []
  args := fun _ => ["x"]
  estimates := fun _ => []
  extern_arguments := fun _ => []
  dims := fun s =>
    if s = ⟨"g", 1⟩ then [⟨"r", true⟩, ⟨"__outermost", false⟩]
    else [⟨"x", false⟩, ⟨"__outermost", false⟩]
  values := fun s =>
    if s = ⟨"f", 0⟩ then ["g(x)"] else if s = ⟨"g", 0⟩ then ["0"]
    else if s = ⟨"g", 1⟩ then ["g(r) + 1"] else []
  lhs_args := fun s => if s = ⟨"g", 1⟩ then ["r"] else ["x"]
  substitute_var_estimates := fun e => e
  substitute_estimates := fun e => e
  boxes_required := fun e scope =>
    if e = "g(x)" then [("g", [example_scope_bounds scope "x"])]
    else if e = "g(r) + 1" then [("g", [example_scope_bounds scope "r"])]
    else []
  bounds_of_expr_in_scope := fun e scope => example_scope_bounds scope e
  merge_boxes := fun a b =>
    List.zipWith (fun i j => ⟨Expr.Min i.min j.min, Expr.Max i.max j.max⟩) a b
  get_stage_bounds := fun name pure_bounds =>
    if name = "g" then [pure_bounds, [("r", example_interval 0 255)]] else [pure_bounds]
  make_min := Expr.Min
  make_max := Expr.Max

/-! ## Names, estimates and the bounds of the stages -/

/-- The C predicate `isalnum` in the classic locale: a decimal digit or an
ASCII letter. -/
def isalnum (c : Char) : Bool :=
  isdigit c || (65 ≤ c.toNat && c.toNat ≤ 90) || (97 ≤ c.toNat && c.toNat ≤ 122)

/-- `get_sanitized_name` (lines 134-145) on the characters of the name, one
`Char` for each `char`.  `name[0]` of the empty string is the terminating
null character, which is no digit. -/
def get_sanitized_name (name : List Char) : List Char :=
  let name1 :=
    match name with
    | [] => name
    | c :: _ => if isdigit c then '_' :: name else name
  name1.map (fun c => if !isalnum c then '_' else c)

/-- The search of `check_estimates_on_outputs` for the estimate of an
argument (lines 160-167), from the last estimate to the first: the last
estimate of the variable whose `min` and `extent` are both defined. -/
def last_defined_estimate (estimates : List Bound) (arg : String) : Option Bound :=
  estimates.reverse.find? (fun b => b.var == arg && b.min.isSome && b.extent.isSome)

/-- The test `est.min.type().is_int() && est.extent.type().is_int()` of line
168; `is_int` stands for `Expr::type().is_int()` (Expr.h and Type.h are not
among the sources). -/
def estimate_is_int (is_int : Expr → Bool) (est : Bound) : Bool :=
  match est.min, est.extent with
  | some mn, some ex => is_int mn && is_int ex
  | _, _ => false

/-- The loop of `check_estimates_on_outputs` over the arguments of one output
(lines 158-171).  The variable `est` is declared before the loop and keeps
its value from one argument to the next; the message of the assertion names
`est.var`. -/
def check_estimates_args (is_int : Expr → Bool) (name : String) (estimates : List Bound) :
    List String → Bound → Except String Bound
  | [], est => Except.ok est
  | arg :: rest, est =>
    match last_defined_estimate estimates arg with
    | none =>
      Except.error
        ("Please provide a valid estimate for dimension " ++ est.var ++ " of output " ++ name)
    | some est1 =>
      if estimate_is_int is_int est1 then
        check_estimates_args is_int name estimates rest est1
      else
        Except.error
          ("Please provide a valid estimate for dimension " ++ est1.var ++ " of output " ++ name)

/-- `check_estimates_on_outputs` (lines 147-173); `args` and `estimates` give
`Function::args()` and `Function::schedule().estimates()` by name. -/
def check_estimates_on_outputs (is_int : Expr → Bool) (args : String → List String)
    (estimates : String → List Bound) : List Function → Except String Unit
  | [] => Except.ok ()
  | out :: rest =>
    match check_estimates_args is_int out.name (estimates out.name) (args out.name)
        ⟨"", none, none⟩ with
    | Except.error e => Except.error e
    | Except.ok _ => check_estimates_on_outputs is_int args estimates rest

/-- One turn of the loop of `merge_dim_bounds` (lines 107-118).  The bounds of
an `Interval` of this development are always defined expressions, so the
assertions of lines 113-114 hold; `make_min` stands for `Interval::make_min`
(Interval.h is not among the sources). -/
def merge_dim_bound (P : Primitives) (make_min : Expr → Expr → Expr) (result : DimBounds)
    (bound : String × Interval) : Except String DimBounds :=
  match map_find result bound.1 with
  | none => Except.ok (map_emplace string_lt bound.1 bound.2 result)
  | some cur =>
    if cur.is_bounded && bound.2.is_bounded then
      Except.ok (map_assign string_lt bound.1
        ⟨P.simplify (make_min cur.min bound.2.min), P.simplify (make_min cur.max bound.2.max)⟩
        result)
    else Except.error "internal_assert: is_bounded()"

/-- The loop of `merge_dim_bounds` over the bounds to merge (lines 107-118). -/
def merge_dim_bounds_loop (P : Primitives) (make_min : Expr → Expr → Expr) :
    List (String × Interval) → DimBounds → Except String DimBounds
  | [], result => Except.ok result
  | bound :: rest, result =>
    match merge_dim_bound P make_min result bound with
    | Except.error e => Except.error e
    | Except.ok result1 => merge_dim_bounds_loop P make_min rest result1

/-- `merge_dim_bounds` (lines 97-119). -/
def merge_dim_bounds (P : Primitives) (make_min : Expr → Expr → Expr)
    (result partial_bounds : DimBounds) : Except String DimBounds :=
  if partial_bounds.isEmpty then Except.ok result
  else if result.isEmpty then Except.ok partial_bounds
  else merge_dim_bounds_loop P make_min partial_bounds result

/-- `merge_regions` on maps from stages to bounds (lines 121-132). -/
def merge_stage_regions (P : Primitives) (make_min : Expr → Expr → Expr) :
    List (FStage × DimBounds) → List (FStage × DimBounds) →
      Except String (List (FStage × DimBounds))
  | [], result => Except.ok result
  | reg :: rest, result =>
    match map_find result reg.1 with
    | none => merge_stage_regions P make_min rest (map_emplace FStage.lt reg.1 reg.2 result)
    | some cur =>
      match merge_dim_bounds P make_min cur reg.2 with
      | Except.error e => Except.error e
      | Except.ok merged =>
        merge_stage_regions P make_min rest (map_assign FStage.lt reg.1 merged result)

/-! ## The regions computed twice -/

/-- The bounds of `redundant_regions` shifted along `var` by the size of the
interval (lines 640-650). -/
def shifted_bounds (var : String) (bounds : DimBounds) : DimBounds :=
  bounds.foldl
    (fun acc b =>
      if b.1 == var then
        map_assign string_lt b.1
          ⟨Expr.Add b.2.min (Expr.Add (Expr.Sub b.2.max b.2.min) (Expr.IntImm 1)),
            Expr.Add b.2.max (Expr.Add (Expr.Sub b.2.max b.2.min) (Expr.IntImm 1))⟩ acc
      else map_assign string_lt b.1 b.2 acc)
    []

/-- The loop of `redundant_regions` over the regions (lines 660-681).  The
test of line 662 compares the iterator into `regions_shifted` with
`regions.end()`, the end of the other map: for a function without shifted
region it does not skip the function, and the iterator that is read next
points past the end, so no result is defined then.  `make_intersection`
stands for `Interval::make_intersection` (Interval.h is not among the
sources). -/
def overlaps_loop (make_intersection : Interval → Interval → Interval)
    (regions_shifted : List (String × Box)) :
    List (String × Box) → List (String × Box) → Except String (List (String × Box))
  | [], overlaps => Except.ok overlaps
  | reg :: rest, overlaps =>
    match map_find regions_shifted reg.1 with
    | none => Except.error "read of the end iterator of regions_shifted"
    | some b_shifted =>
      if reg.2.length ≠ b_shifted.length then
        Except.error "internal_assert: b.size() == b_shifted.size()"
      else if (map_find overlaps reg.1).isSome then
        Except.error "internal_assert: overlaps.find(reg.first) == overlaps.end()"
      else
        overlaps_loop make_intersection regions_shifted rest
          (map_emplace string_lt reg.1 (List.zipWith make_intersection reg.2 b_shifted)
            overlaps)

/-- `DependenceAnalysis::redundant_regions` (lines 627-689), with the cache of
`regions_required` as an argument and a result. -/
def DependenceAnalysis.redundant_regions {ε : Type} (DA : DependenceAnalysis ε) (P : Primitives)
    (make_intersection : Interval → Interval → Interval) (fuel : Nat) (cache : RegionsCache)
    (f : String) (stage_num : Nat) (var : String) (bounds : DimBounds) (prods : List String)
    (only_regions_computed : Bool) : Except String (List (String × Box) × RegionsCache) :=
  match DA.regions_required P fuel cache f stage_num bounds prods only_regions_computed with
  | Except.error e => Except.error e
  | Except.ok (regions, cache1) =>
    match DA.regions_required P fuel cache1 f stage_num (shifted_bounds var bounds) prods
        only_regions_computed with
    | Except.error e => Except.error e
    | Except.ok (regions_shifted, cache2) =>
      match overlaps_loop make_intersection regions_shifted regions [] with
      | Except.error e => Except.error e
      | Except.ok overlaps =>
        Except.ok (overlaps.map (fun o => (o.1, simplify_box P o.2)), cache2)

/-! ## The directives of the schedule -/

/-- Modelled from the spec: `VarOrRVar` (Func.h, not among the sources), the
name of a loop variable and whether it is a reduction variable. -/
structure VarOrRVar where
  name : String
  is_rvar : Bool
  deriving DecidableEq, Repr

/-- Modelled from the spec: `TailStrategy` (Schedule.h, not among the
sources). -/
inductive TailStrategy where
  | RoundUp
  | GuardWithIf
  | ShiftInwards
  | Auto
  deriving DecidableEq, Repr

/-- The order of `int` keys. -/
def nat_lt (a b : Nat) : Bool := decide (a < b)

/-- The fields of `AutoSchedule` (lines 757-895) that the directives write:
the variables declared by the scheduler, and for each function and stage the
directives applied and the variables that they use. -/
structure AutoSchedule where
  internal_vars : List (String × VarOrRVar)
  func_schedules : List (String × List (Nat × List String))
  used_vars : List (String × List (Nat × List String))
  deriving DecidableEq, Repr

/-- `AutoSchedule::push_schedule` (lines 877-894).  The name of the function
is the part of the name of the stage before the first dot. -/
def AutoSchedule.push_schedule (sched : AutoSchedule) (stage_name : String) (stage_num : Nat)
    (directive : String) (vars : List String) : Except String AutoSchedule :=
  match split_string stage_name.toList '.' with
  | [] => Except.error "internal_assert: !v.empty()"
  | v0 :: _ =>
    let used_stages := (map_find sched.used_vars (String.mk v0)).getD []
    let used := (map_find used_stages stage_num).getD []
    let func_stages := (map_find sched.func_schedules (String.mk v0)).getD []
    let schedules := (map_find func_stages stage_num).getD []
    Except.ok
      ⟨sched.internal_vars,
        map_assign string_lt (String.mk v0)
          (map_assign nat_lt stage_num
            (if schedules.isEmpty then [directive]
              else if schedules.getLast? != some directive then schedules ++ [directive]
              else schedules)
            func_stages)
          sched.func_schedules,
        map_assign string_lt (String.mk v0)
          (map_assign nat_lt stage_num (set_insert_all string_lt vars used) used_stages)
          sched.used_vars⟩

/-- The variables that the schedule records as used by a stage
(`used_vars[f][stage_num]`). -/
def AutoSchedule.used (sched : AutoSchedule) (f : String) (stage_num : Nat) : List String :=
  ((map_find sched.used_vars f).bind (fun stages => map_find stages stage_num)).getD []

/-- The directives that the schedule holds for a stage
(`func_schedules[f][stage_num]`). -/
def AutoSchedule.directives (sched : AutoSchedule) (f : String) (stage_num : Nat) :
    List String :=
  ((map_find sched.func_schedules f).bind (fun stages => map_find stages stage_num)).getD []

/-- What the emission of the directives takes from outside the sources: the
calls that `FindAllCalls` finds in the definition of a stage (each with its
argument expressions, of a type `ε`), `expr_uses_var` of ExprUsesVar.h, and
the names of the inputs of the pipeline (`costs.inputs`). -/
structure ScheduleEnv (ε : Type) where
  call_args : FStage → List (String × List ε)
  expr_uses_var : ε → String → Bool
  inputs : List String

/-- `access_inputs_or_outputs` (lines 3229-3260), on the calls `call_args`
that `FindAllCalls` finds in the definition. -/
def access_inputs_or_outputs {ε : Type} (expr_uses_var : ε → String → Bool)
    (call_args : List (String × List ε)) (var : VarOrRVar) (inputs : List String)
    (outputs : List Function) : Bool :=
  call_args.any (fun ca =>
    (inputs.contains ca.1 || outputs.any (fun f => f.name == ca.1)) &&
      ca.2.any (fun arg => expr_uses_var arg var.name))

/-- The declaration of a variable of a split in `sched.internal_vars` (lines
3272-3287). -/
def declare_internal_var (internal_vars : List (String × VarOrRVar)) (v : VarOrRVar) :
    Except String (List (String × VarOrRVar)) :=
  match map_find internal_vars v.name with
  | none => Except.ok (map_emplace string_lt v.name v internal_vars)
  | some w =>
    if w.is_rvar == v.is_rvar then Except.ok internal_vars
    else Except.error "internal_assert: iter->second.is_rvar"

/-- The tail strategy that `split_dim` chooses (lines 3305-3327).
`f_handle_name` is `f_handle.name()` and `def_calls` the calls of the
definition `def` handed to `split_dim`. -/
def split_tail_strategy {ε : Type} (SE : ScheduleEnv ε) (part : Partitioner) (g : Group)
    (f_handle_name : String) (stage_num : Nat) (def_calls : List (String × List ε))
    (is_group_output : Bool) (v : VarOrRVar) : TailStrategy :=
  if decide (stage_num > 0) && !v.is_rvar then
    if !is_group_output then
      if access_inputs_or_outputs SE.expr_uses_var def_calls v SE.inputs part.outputs then
        TailStrategy.GuardWithIf
      else TailStrategy.Auto
    else
      if g.members.any (fun mem =>
          !(mem.func == f_handle_name) &&
            access_inputs_or_outputs SE.expr_uses_var (SE.call_args mem) v SE.inputs
              part.outputs) then
        TailStrategy.GuardWithIf
      else TailStrategy.Auto
  else TailStrategy.Auto

/-- The text of the directive `split` (lines 3331-3348). -/
def split_directive (arg_name outer_name inner_name : String) (factor : Expr)
    (strategy : TailStrategy) : String :=
  "split(" ++ arg_name ++ ", " ++ outer_name ++ ", " ++ inner_name ++ ", " ++
    String.mk (print_expr factor) ++
    (match strategy with
      | TailStrategy.RoundUp => ", TailStrategy::RoundUp)"
      | TailStrategy.GuardWithIf => ", TailStrategy::GuardWithIf)"
      | TailStrategy.ShiftInwards => ", TailStrategy::ShiftInwards)"
      | TailStrategy.Auto => ")")

/-- What `split_dim` returns and writes: the two new variables, the strategy
handed to `f_handle.split`, the estimates and the schedule. -/
structure SplitResult where
  inner : VarOrRVar
  outer : VarOrRVar
  strategy : TailStrategy
  estimates : List (String × Option Expr)
  sched : AutoSchedule
  deriving DecidableEq, Repr

/-- `Partitioner::split_dim` (lines 3262-3360).  The call `f_handle.split`
acts on the schedule of the function, outside this development; its tail
strategy is kept in the result.  The estimate `est` is a reference into
`estimates`: it reads the factor when the inner variable has the name of the
split variable. -/
def Partitioner.split_dim {ε : Type} (P : Primitives) (SE : ScheduleEnv ε) (part : Partitioner)
    (g : Group) (f_handle_name : String) (stage_num : Nat) (def_calls : List (String × List ε))
    (is_group_output : Bool) (v : VarOrRVar) (factor : Expr) (in_suffix out_suffix : String)
    (estimates : List (String × Option Expr)) (sched : AutoSchedule) :
    Except String SplitResult :=
  match declare_internal_var sched.internal_vars ⟨v.name ++ in_suffix, v.is_rvar⟩ with
  | Except.error e => Except.error e
  | Except.ok vars1 =>
    match declare_internal_var vars1 ⟨v.name ++ out_suffix, v.is_rvar⟩ with
    | Except.error e => Except.error e
    | Except.ok vars2 =>
      match AutoSchedule.push_schedule ⟨vars2, sched.func_schedules, sched.used_vars⟩
          f_handle_name stage_num
          (split_directive v.name (v.name ++ out_suffix) (v.name ++ in_suffix) factor
            (split_tail_strategy SE part g f_handle_name stage_num def_calls is_group_output v))
          [v.name, v.name ++ out_suffix, v.name ++ in_suffix] with
      | Except.error e => Except.error e
      | Except.ok sched1 =>
        match get_element estimates v.name with
        | Except.error e => Except.error e
        | Except.ok none => Except.error "internal_assert: est.defined()"
        | Except.ok (some est) =>
          Except.ok
            ⟨⟨v.name ++ in_suffix, v.is_rvar⟩, ⟨v.name ++ out_suffix, v.is_rvar⟩,
              split_tail_strategy SE part g f_handle_name stage_num def_calls is_group_output v,
              map_erase
                (map_assign string_lt (v.name ++ out_suffix)
                  (some (P.simplify
                    (Expr.Div
                      (Expr.Sub
                        (Expr.Add (if v.name ++ in_suffix = v.name then factor else est) factor)
                        (Expr.IntImm 1))
                      factor)))
                  (map_assign string_lt (v.name ++ in_suffix) (some factor) estimates))
                v.name,
              sched1⟩

/-- `get_base_name` (lines 3219-3225) on the characters of the name: what
follows the last dot, or the whole name without a dot. -/
def get_base_name_chars : List Char → List Char
  | [] => []
  | c :: cs =>
    if cs.contains '.' then get_base_name_chars cs
    else if c = '.' then cs
    else c :: cs

/-- `get_base_name` (lines 3219-3225). -/
def get_base_name (name : String) : String := String.mk (get_base_name_chars name.toList)

/-- The state of a scan of `reorder_dims` for the dimension of least stride
(lines 3456-3459 and 3483-3485): whether a dimension was met, the least
stride, its variable and its index. -/
structure StrideScan where
  found : Bool
  stride : Expr
  var : String
  index : Option Nat
  deriving DecidableEq, Repr

/-- The scan of `reorder_dims` over the pure dimensions (lines 3460-3473),
from dimension `d` on.  `is_pure` stands for `Dim::is_pure()` (Schedule.h is
not among the sources). -/
def scan_pure (P : Primitives) (is_pure : Dim → Bool) (strides : List (String × Option Expr)) :
    List Dim → Nat → StrideScan → Except String StrideScan
  | [], _, st => Except.ok st
  | dim :: rest, d, st =>
    match map_find strides (get_base_name dim.var) with
    | none => scan_pure P is_pure strides rest (d + 1) st
    | some dim_stride =>
      if is_pure dim then
        match dim_stride with
        | none => Except.error "internal_assert: dim_stride.defined()"
        | some s =>
          if P.can_prove (Expr.LT s st.stride) then
            scan_pure P is_pure strides rest (d + 1)
              ⟨true, s, get_base_name dim.var, some d⟩
          else scan_pure P is_pure strides rest (d + 1) ⟨true, st.stride, st.var, st.index⟩
      else scan_pure P is_pure strides rest (d + 1) st

/-- The scan of `reorder_dims` over the impure dimensions (lines 3486-3502),
which stops at the first one whose stride is proved below the bound. -/
def scan_impure (P : Primitives) (is_pure : Dim → Bool)
    (strides : List (String × Option Expr)) :
    List Dim → Nat → StrideScan → Except String StrideScan
  | [], _, st => Except.ok st
  | dim :: rest, d, st =>
    match map_find strides (get_base_name dim.var) with
    | none => scan_impure P is_pure strides rest (d + 1) st
    | some dim_stride =>
      if !is_pure dim then
        match dim_stride with
        | none => Except.error "internal_assert: dim_stride.defined()"
        | some s =>
          if P.can_prove (Expr.LT s st.stride) then
            Except.ok ⟨st.found, s, get_base_name dim.var, some d⟩
          else scan_impure P is_pure strides rest (d + 1) st
      else scan_impure P is_pure strides rest (d + 1) st

/-- The loop `while (strides.size() > 0)` of `reorder_dims` (lines
3454-3522); the first argument bounds the number of turns.  The result is
`none` when the function returns from inside the loop. -/
def reorder_loop (P : Primitives) (is_pure : Dim → Bool) (dims : List Dim) :
    Nat → List (String × Option Expr) → List (String × Option Nat) →
      Except String (Option (List (String × Option Nat)))
  | 0, _, _ => Except.error "out of fuel"
  | fuel + 1, strides, order =>
    if strides.isEmpty then Except.ok (some order)
    else
      match scan_pure P is_pure strides dims.dropLast 0 ⟨false, Int64_max, "", none⟩ with
      | Except.error e => Except.error e
      | Except.ok pure_scan =>
        if pure_scan.found && pure_scan.var.isEmpty then Except.ok none
        else
          match scan_impure P is_pure strides dims.dropLast 0 ⟨false, Int64_max, "", none⟩ with
          | Except.error e => Except.error e
          | Except.ok impure =>
            if pure_scan.var.isEmpty && impure.var.isEmpty then Except.ok none
            else if !impure.var.isEmpty && P.can_prove (Expr.LT impure.stride pure_scan.stride) then
              match impure.index.bind (fun i => dims[i]?) with
              | none => Except.error "index out of the range of dims"
              | some dim =>
                if dim.is_rvar then
                  reorder_loop P is_pure dims fuel (map_erase strides impure.var)
                    (order ++ [(impure.var, impure.index)])
                else Except.error "internal_assert: dims[min_impure_index].is_rvar()"
            else
              reorder_loop P is_pure dims fuel (map_erase strides pure_scan.var)
                (order ++ [(pure_scan.var, pure_scan.index)])

/-- The list `ordering` of `reorder_dims` (lines 3524-3528): each variable of
the order with the kind of its dimension. -/
def ordering_of (dims : List Dim) :
    List (String × Option Nat) → Except String (List VarOrRVar)
  | [] => Except.ok []
  | o :: rest =>
    match o.2.bind (fun i => dims[i]?) with
    | none => Except.error "index out of the range of dims"
    | some dim =>
      match ordering_of dims rest with
      | Except.error e => Except.error e
      | Except.ok vs => Except.ok (⟨o.1, dim.is_rvar⟩ :: vs)

/-- The comparison `dims == ordering` (lines 3425-3435). -/
def dims_eq_ordering (dims : List Dim) (ordering : List VarOrRVar) : Bool :=
  decide (dims.length = ordering.length + 1) &&
    (List.zipWith (fun (d : Dim) (o : VarOrRVar) => d.var == o.name) dims ordering).all id

/-- The text `var_order` of a directive `reorder` (lines 3532-3534 and
3752-3754): the names of the ordering, separated by commas. -/
def var_order (ordering : List VarOrRVar) : String :=
  match ordering with
  | [] => ""
  | o :: rest => rest.foldl (fun s v => s ++ ", " ++ v.name) o.name

/-- The set `var_list` of a directive `reorder` (lines 3531-3536 and
3751-3756): the loop that fills it starts at the second variable of the
ordering. -/
def var_list (ordering : List VarOrRVar) : List String :=
  ordering.tail.foldl (fun s v => set_insert string_lt v.name s) []

/-- The end of `reorder_dims` and of the reordering of the tiles (lines
3538-3541 and 3758-3762): the directive is recorded when the ordering is not
that of the dimensions.  The call `f_handle.reorder` acts on the schedule of
the function, outside this development. -/
def push_reorder (sched : AutoSchedule) (f_handle_name : String) (stage_num : Nat)
    (dims : List Dim) (ordering : List VarOrRVar) : Except String AutoSchedule :=
  if !dims_eq_ordering dims ordering then
    sched.push_schedule f_handle_name stage_num ("reorder(" ++ var_order ordering ++ ")")
      (var_list ordering)
  else Except.ok sched

/-- `Partitioner::reorder_dims` (lines 3443-3542). -/
def reorder_dims (P : Primitives) (is_pure : Dim → Bool) (f_handle_name : String)
    (stage_num : Nat) (dims : List Dim) (strides : List (String × Option Expr))
    (sched : AutoSchedule) : Except String AutoSchedule :=
  if dims.length ≤ 1 then Except.error "internal_assert: dims.size() > 1"
  else if dims.dropLast.any (fun d => (map_find strides d.var).isNone) then
    Except.error "internal_assert: strides.find(dims[d].var) != strides.end()"
  else
    match reorder_loop P is_pure dims (strides.length + 1) strides [] with
    | Except.error e => Except.error e
    | Except.ok none => Except.ok sched
    | Except.ok (some order) =>
      match ordering_of dims order with
      | Except.error e => Except.error e
      | Except.ok ordering =>
        if ordering.isEmpty then Except.error "internal_assert: !ordering.empty()"
        else push_reorder sched f_handle_name stage_num dims ordering

/-- The reordering of the tile dimensions in `generate_group_cpu_schedule`
(lines 3741-3763), from the inner and outer dimensions found by the
tiling. -/
def reorder_tiles (sched : AutoSchedule) (f_handle_name : String) (stage_num : Nat)
    (dims : List Dim) (inner_dims outer_dims : List VarOrRVar) : Except String AutoSchedule :=
  if !outer_dims.isEmpty then
    push_reorder sched f_handle_name stage_num dims (inner_dims ++ outer_dims)
  else Except.ok sched

/-! ## A worked emission of directives

The output `f` has the update `f(x) = f(x) + in(x, r)` over the reduction
variable `r`, which reads the input `in`. -/

/-- The calls of the update of `f`, each argument given by the name of the
variable that it is. -/
def example_schedule_env : ScheduleEnv String where
  call_args := fun s => if s = ⟨"f", 1⟩ then [("f", ["x"]), ("in", ["x", "r"])] else []
  expr_uses_var := fun e v => e == v
  inputs := ["in"]

/-- The group of the update of `f`. -/
def example_update_group : Group := Group.mk ⟨"f", 1⟩ [⟨"f", 1⟩] [] [] []

/-- The schedule before any directive. -/
def example_empty_schedule : AutoSchedule := ⟨[], [], []⟩

/-- The intersection of two intervals as `Interval::make_intersection` builds
it from bounded intervals: the larger lower bound and the smaller upper
bound. -/
def example_make_intersection (a b : Interval) : Interval :=
  ⟨Expr.Max a.min b.min, Expr.Min a.max b.max⟩

/-- The interval that the merge of queued bounds leaves for a dimension
present on both sides (lines 357-367). -/
def queue_merge_interval {ε : Type} (DA : DependenceAnalysis ε) (P : Primitives)
    (cur b : Interval) : Interval :=
  ⟨if cur.has_lower_bound && b.has_lower_bound then P.simplify (DA.make_min cur.min b.min)
    else Interval.neg_inf,
    if cur.has_upper_bound && b.has_upper_bound then P.simplify (DA.make_max cur.max b.max)
    else Interval.pos_inf⟩

/-- An expression that is a bound, none of the two sentinels. -/
def is_finite_bound (e : Expr) : Prop := e ≠ Interval.neg_inf ∧ e ≠ Interval.pos_inf

/-! ## Containment of intervals, boxes and regions -/

/-- The value of a bound under a valuation, with the two sentinels read as the
least and the largest element. -/
def Expr.bound_value (env : String → Int) (e : Expr) : WithBot (WithTop Int) :=
  if e = Interval.neg_inf then ⊥
  else if e = Interval.pos_inf then ⊤
  else (((e.eval env : Int) : WithTop Int) : WithBot (WithTop Int))

/-- An interval lies within another one when, under every valuation, its
lower bound is not below and its upper bound not above that of the other. -/
def Interval.subset (a b : Interval) : Prop :=
  ∀ env : String → Int,
    b.min.bound_value env ≤ a.min.bound_value env ∧
      a.max.bound_value env ≤ b.max.bound_value env

/-- A box lies within another one when each of its intervals lies within the
interval of the other at the same position. -/
def box_subset (a b : Box) : Prop :=
  ∀ (i : Nat) (x : Interval), a[i]? = some x → ∃ y, b[i]? = some y ∧ x.subset y

/-- A map lies below another one when each of its keys is a key of the other,
with a value that is below the value there. -/
def map_le {κ ν : Type} [DecidableEq κ] (le : ν → ν → Prop) (m1 m2 : List (κ × ν)) : Prop :=
  ∀ k v1, map_find m1 k = some v1 → ∃ v2, map_find m2 k = some v2 ∧ le v1 v2

/-- Containment of the bounds of a stage, dimension by dimension. -/
def bounds_subset (b1 b2 : DimBounds) : Prop := map_le Interval.subset b1 b2

/-- Containment of maps of regions, function by function. -/
def regions_subset (r1 r2 : List (String × Box)) : Prop := map_le box_subset r1 r2

/-- Containment of queues of stages, stage by stage. -/
def queue_subset (q1 q2 : List (FStage × DimBounds)) : Prop := map_le bounds_subset q1 q2

/-- Containment of scopes that bind the same variables in the same order. -/
def scope_subset (s1 s2 : Scope) : Prop :=
  List.Forall₂ (fun a b => a.1 = b.1 ∧ a.2.subset b.2) s1 s2

/-- What the monotonicity of the region solver asks of the primitives that it
takes from outside: the simplifier keeps the value of a bound and the
sentinels; the substitution of the estimates keeps the order of bounds;
`Interval::make_min` and `make_max` compute the minimum and the maximum;
`boxes_required` and `get_stage_bounds` return maps and are monotone, as is
`bounds_of_expr_in_scope`; and `merge_boxes` gives the least box that holds
its two arguments. -/
structure MonotonePrimitives {ε : Type} (DA : DependenceAnalysis ε) (P : Primitives) : Prop where
  simplify_value : ∀ (e : Expr) (env : String → Int),
    (P.simplify e).bound_value env = e.bound_value env
  substitute_mono : ∀ a b : Expr,
    (∀ env : String → Int, a.bound_value env ≤ b.bound_value env) →
    ∀ env : String → Int,
      (DA.substitute_var_estimates a).bound_value env ≤
        (DA.substitute_var_estimates b).bound_value env
  make_min_value : ∀ (a b : Expr) (env : String → Int),
    a ≠ Interval.neg_inf → b ≠ Interval.neg_inf →
    (DA.make_min a b).bound_value env = min (a.bound_value env) (b.bound_value env)
  make_max_value : ∀ (a b : Expr) (env : String → Int),
    a ≠ Interval.pos_inf → b ≠ Interval.pos_inf →
    (DA.make_max a b).bound_value env = max (a.bound_value env) (b.bound_value env)
  boxes_required_sorted : ∀ (e : ε) (scope : Scope),
    (DA.boxes_required e scope).Pairwise (fun a b => string_lt a.1 b.1 = true)
  boxes_required_mono : ∀ (e : ε) (s1 s2 : Scope), scope_subset s1 s2 →
    regions_subset (DA.boxes_required e s1) (DA.boxes_required e s2)
  bounds_of_expr_mono : ∀ (e : ε) (s1 s2 : Scope), scope_subset s1 s2 →
    (DA.bounds_of_expr_in_scope e s1).subset (DA.bounds_of_expr_in_scope e s2)
  merge_boxes_left : ∀ a b : Box, box_subset a (DA.merge_boxes a b)
  merge_boxes_right : ∀ a b : Box, box_subset b (DA.merge_boxes a b)
  merge_boxes_least : ∀ a b c : Box, box_subset a c → box_subset b c →
    box_subset (DA.merge_boxes a b) c
  get_stage_bounds_keys : ∀ (name : String) (p : DimBounds), (p.map Prod.fst).Nodup →
    ∀ s : Nat, (((DA.get_stage_bounds name p).getD s []).map Prod.fst).Nodup
  get_stage_bounds_mono : ∀ (name : String) (p1 p2 : DimBounds), bounds_subset p1 p2 →
    ∀ s : Nat, bounds_subset ((DA.get_stage_bounds name p1).getD s [])
      ((DA.get_stage_bounds name p2).getD s [])

/-- The bounds of the regions of the functions of the pipeline simplify to
integer constants, so that `regions_required` replaces none of them by an
estimate. -/
def regions_concrete {ε : Type} (DA : DependenceAnalysis ε) (P : Primitives)
    (regions : List (String × Box)) : Prop :=
  ∀ e ∈ regions, (env_find DA.env e.1).isSome = true → ∀ i ∈ e.2,
    (as_const_int (P.simplify i.min)).isSome = true ∧
      (as_const_int (P.simplify i.max)).isSome = true

/-- The bounds `prod_pure_bounds` of the pure dimensions of a producer (lines
328-333): the region, dimension by dimension, under the names of the
arguments. -/
def prod_pure_bounds {ε : Type} (DA : DependenceAnalysis ε) (name : String) (region : Box) :
    DimBounds :=
  ((DA.args name).zip region).foldl (fun m ar => map_assign string_lt ar.1 ar.2 m) []

/-- Containment of the states of two traversals: of the regions found and of
the bounds queued. -/
def state_subset (st1 st2 : RegionState) : Prop :=
  regions_subset st1.regions st2.regions ∧ queue_subset st1.fs_bounds st2.fs_bounds

/-- Containment of lists of regions: each region of the first list lies within
a region of the second one for the same function. -/
def regions_within (l1 l2 : List (String × Box)) : Prop :=
  ∀ reg ∈ l1, ∃ box, (reg.1, box) ∈ l2 ∧ box_subset reg.2 box

/-- The functions of the visited stages have at least the given rank. -/
def visited_ranked (rank : String → Nat) (r : Nat) (visited : List StageBounds) : Prop :=
  ∀ v ∈ visited, r ≤ rank v.f_stage.func

/-- The order of the traversal follows the ranking: a function comes before
the functions of a lower rank. -/
def order_ranked {ε : Type} (DA : DependenceAnalysis ε) (rank : String → Nat) : Prop :=
  DA.order.reverse.Pairwise (fun a b => rank b ≤ rank a)

/-- The regions hold, for the function, a box that holds the given one. -/
def region_held (regions : List (String × Box)) (k : String) (box : Box) : Prop :=
  ∃ b, map_find regions k = some b ∧ box_subset box b

/-- The queue holds each stage of the producer, up to the given number of
updates, with bounds that hold those of the given region. -/
def stages_held {ε : Type} (DA : DependenceAnalysis ε) (q : List (FStage × DimBounds))
    (k : String) (box : Box) (updates : Nat) : Prop :=
  ∀ n, n < updates + 1 →
    ∃ e, map_find q ⟨k, n⟩ = some e ∧
      bounds_subset ((DA.get_stage_bounds k (prod_pure_bounds DA k box)).getD n []) e

/-! ## A worked query for the monotonicity of the regions

The pipeline of the worked query of the regions, with an estimate for the
producer `g`, a merge of boxes that pads the shorter box, and
`Interval::make_min` and `Interval::make_max` that know the two sentinels and
fold constants. -/

/-- The minimum of two bounds; the sentinels are the least and the largest
bound. -/
def example_make_min (a b : Expr) : Expr :=
  if a = Interval.pos_inf then b
  else if b = Interval.pos_inf then a
  else if a = Interval.neg_inf ∨ b = Interval.neg_inf then Interval.neg_inf
  else
    match a, b with
    | Expr.IntImm x, Expr.IntImm y => Expr.IntImm (min x y)
    | _, _ => Expr.Min a b

/-- The maximum of two bounds. -/
def example_make_max (a b : Expr) : Expr :=
  if a = Interval.neg_inf then b
  else if b = Interval.neg_inf then a
  else if a = Interval.pos_inf ∨ b = Interval.pos_inf then Interval.pos_inf
  else
    match a, b with
    | Expr.IntImm x, Expr.IntImm y => Expr.IntImm (max x y)
    | _, _ => Expr.Max a b

/-- The least box that holds two boxes; the dimensions that only one of them
has are kept. -/
def example_merge_boxes : Box → Box → Box
  | [], b => b
  | a :: as, [] => a :: as
  | a :: as, b :: bs =>
    ⟨example_make_min a.min b.min, example_make_max a.max b.max⟩ :: example_merge_boxes as bs

/-- A simplifier that leaves every expression as it is. -/
def example_identity_primitives : Primitives := ⟨fun e => e, fun _ => false⟩

/-- The dependence analysis of the worked query, with the estimate
`x` in `[5, 104]` for `g`. -/
def example_monotone_dependence : DependenceAnalysis String :=
  { example_dependence with
    estimates := fun n =>
      if n = "g" then [⟨"x", some (Expr.IntImm 5), some (Expr.IntImm 100)⟩] else []
    merge_boxes := example_merge_boxes
    make_min := example_make_min
    make_max := example_make_max }

/-- The ranking of the worked query: the output `f` above the producer `g`. -/
def example_rank (n : String) : Nat := if n = "f" then 1 else 0

/-! ## The states of a partitioner -/

/-- The states that a partitioner takes: the state that the constructor
returns, the first state of a nested partitioner (lines 2760-2831), which
copies a state and rebuilds the outputs, the groups and the children, and
the states that `initialize_groups` and one turn of the loop of `group` or of
`group_recurse` make of a state. -/
inductive Partitioner.reachable (D : StageDefinitions) : Partitioner → Prop where
  | construct (arch_params : MachineParams) (env outputs : List Function)
      (unbounded : List String) (part : Partitioner) :
      Partitioner.construct arch_params env D outputs unbounded = Except.ok part →
      Partitioner.reachable D part
  | nested (part : Partitioner) (group : Group) :
      Partitioner.reachable D part →
      Partitioner.reachable D
        { part with
          outputs := [output_function part.env group.output.func]
          groups := nested_groups group
          children := nested_children part.env D (nested_groups group) }
  | init_groups (P : Primitives) (an : AnalyzeGroup) (part part1 : Partitioner) :
      Partitioner.reachable D part → part.initialize_groups P an D = Except.ok part1 →
      Partitioner.reachable D part1
  | turn (P : Primitives) (EV : Partitioner → EvaluateChoice) (level : Level)
      (tile_bounds : TileSizes) (part part1 : Partitioner) (fixpoint : Bool) :
      Partitioner.reachable D part →
      part.group_iteration P EV level tile_bounds = Except.ok (part1, fixpoint) →
      Partitioner.reachable D part1
  | turn_recurse (P : Primitives) (EVR : Partitioner → EvaluateChoiceRecurse)
      (part part1 : Partitioner) (fixpoint : Bool) :
      Partitioner.reachable D part →
      part.group_recurse_iteration P EVR = Except.ok (part1, fixpoint) →
      Partitioner.reachable D part1

/-! ## Theorems -/

/-! ### Ordered containers -/

theorem mem_of_mem_set_insert {α : Type} (lt : α → α → Bool) (x y : α) :
    ∀ s : List α, y ∈ set_insert lt x s → y = x ∨ y ∈ s := by
  intro s
  induction s with
  | nil => intro h; simpa [set_insert] using h
  | cons z zs ih =>
    intro h
    unfold set_insert at h
    split at h
    · simpa using h
    · split at h
      · rcases List.mem_cons.mp h with h1 | h1
        · exact Or.inr (by simp [h1])
        · rcases ih h1 with h2 | h2
          · exact Or.inl h2
          · exact Or.inr (List.mem_cons_of_mem _ h2)
      · exact Or.inr h

theorem mem_set_insert_of_mem {α : Type} (lt : α → α → Bool) (x y : α) :
    ∀ s : List α, y ∈ s → y ∈ set_insert lt x s := by
  intro s
  induction s with
  | nil => intro h; simp at h
  | cons z zs ih =>
    intro h
    unfold set_insert
    split
    · exact List.mem_cons_of_mem _ h
    · split
      · rcases List.mem_cons.mp h with h1 | h1
        · simp [h1]
        · exact List.mem_cons_of_mem _ (ih h1)
      · exact h

theorem mem_set_insert_self {α : Type} (lt : α → α → Bool)
    (htri : ∀ a b : α, lt a b = false → lt b a = false → a = b) (x : α) :
    ∀ s : List α, x ∈ set_insert lt x s := by
  intro s
  induction s with
  | nil => simp [set_insert]
  | cons z zs ih =>
    unfold set_insert
    split
    · simp
    · split
      · exact List.mem_cons_of_mem _ ih
      · next h1 h2 =>
        have h3 : x = z := htri x z (by simpa using h1) (by simpa using h2)
        simp [h3]

theorem chars_lt_trichotomy :
    ∀ a b : List Char, chars_lt a b = false → chars_lt b a = false → a = b := by
  intro a
  induction a with
  | nil => intro b h1 h2; cases b <;> simp_all [chars_lt]
  | cons x xs ih =>
    intro b h1 h2
    cases b with
    | nil => simp [chars_lt] at h2
    | cons y ys =>
      simp only [chars_lt, Bool.or_eq_false_iff, Bool.and_eq_false_iff,
        decide_eq_false_iff_not, beq_eq_false_iff_ne] at h1 h2
      have hxy : x.toNat = y.toNat := by omega
      have h3 : x = y := by
        rw [← Char.ofNat_toNat x, ← Char.ofNat_toNat y, hxy]
      subst h3
      have h4 := ih ys (by simpa using h1.2) (by simpa using h2.2)
      rw [h4]

theorem string_lt_trichotomy (a b : String) (h1 : string_lt a b = false)
    (h2 : string_lt b a = false) : a = b :=
  String.ext (chars_lt_trichotomy _ _ h1 h2)

theorem FStage_lt_trichotomy (a b : FStage) (h1 : FStage.lt a b = false)
    (h2 : FStage.lt b a = false) : a = b := by
  simp only [FStage.lt, Bool.or_eq_false_iff, Bool.and_eq_false_iff, beq_eq_false_iff_ne,
    decide_eq_false_iff_not] at h1 h2
  have hf : a.func = b.func := string_lt_trichotomy _ _ h1.1 h2.1
  have hn : a.stage_num = b.stage_num := by
    rcases h1.2 with h | h
    · exact absurd hf h
    · rcases h2.2 with h3 | h3
      · exact absurd hf.symm h3
      · omega
  cases a; cases b; simp_all

theorem mem_foldl_set_insert_of_mem {α β : Type} (lt : α → α → Bool) (f : β → α) (y : α) :
    ∀ (xs : List β) (s : List α), y ∈ s →
      y ∈ xs.foldl (fun acc x => set_insert lt (f x) acc) s := by
  intro xs
  induction xs with
  | nil => intro s h; simpa using h
  | cons x xs ih =>
    intro s h
    simp only [List.foldl_cons]
    exact ih _ (mem_set_insert_of_mem lt _ _ _ h)

theorem mem_foldl_set_insert {α β : Type} (lt : α → α → Bool)
    (htri : ∀ a b : α, lt a b = false → lt b a = false → a = b) (f : β → α) :
    ∀ (xs : List β) (s : List α) (x : β), x ∈ xs →
      f x ∈ xs.foldl (fun acc x => set_insert lt (f x) acc) s := by
  intro xs
  induction xs with
  | nil => intro s x h; simp at h
  | cons z zs ih =>
    intro s x h
    simp only [List.foldl_cons]
    rcases List.mem_cons.mp h with h1 | h1
    · subst h1
      exact mem_foldl_set_insert_of_mem lt f _ _ _ (mem_set_insert_self lt htri _ _)
    · exact ih _ x h1

theorem mem_of_mem_foldl_set_insert {α β : Type} (lt : α → α → Bool) (f : β → α) (y : α) :
    ∀ (xs : List β) (s : List α), y ∈ xs.foldl (fun acc x => set_insert lt (f x) acc) s →
      y ∈ s ∨ ∃ x ∈ xs, y = f x := by
  intro xs
  induction xs with
  | nil => intro s h; exact Or.inl (by simpa using h)
  | cons z zs ih =>
    intro s h
    simp only [List.foldl_cons] at h
    rcases ih _ h with h1 | ⟨x, hx, hy⟩
    · rcases mem_of_mem_set_insert lt _ _ _ h1 with h2 | h2
      · exact Or.inr ⟨z, by simp, h2⟩
      · exact Or.inl h2
    · exact Or.inr ⟨x, List.mem_cons_of_mem _ hx, hy⟩


/-! ### Soundness of the small instance -/

theorem basic_add_eval (env : String → Int) (a b : Expr) :
    (basic_add a b).eval env = a.eval env + b.eval env := by
  unfold basic_add
  split
  · simp [Expr.eval]
  · split
    · next h => subst h; simp [Expr.eval]
    · simp [Expr.eval]
  · split
    · next h => subst h; simp [Expr.eval]
    · simp [Expr.eval]
  · simp [Expr.eval]

theorem basic_sub_eval (env : String → Int) (a b : Expr) :
    (basic_sub a b).eval env = a.eval env - b.eval env := by
  unfold basic_sub
  split
  · simp [Expr.eval]
  · split
    · next h => subst h; simp [Expr.eval]
    · simp [Expr.eval]
  · simp [Expr.eval]

theorem basic_min_eval (env : String → Int) (a b : Expr) :
    (basic_min a b).eval env = min (a.eval env) (b.eval env) := by
  unfold basic_min
  split <;> simp [Expr.eval]

theorem basic_max_eval (env : String → Int) (a b : Expr) :
    (basic_max a b).eval env = max (a.eval env) (b.eval env) := by
  unfold basic_max
  split <;> simp [Expr.eval]

theorem basic_ge_eval (env : String → Int) (a b : Expr) :
    (basic_ge a b).eval env = (Expr.GE a b).eval env := by
  unfold basic_ge
  split <;> simp [Expr.eval]

theorem basic_prove_lt_sound (env : String → Int) :
    ∀ (b a : Expr), basic_prove_lt a b = true → a.eval env < b.eval env := by
  intro b
  induction b with
  | IntImm y =>
    intro a h
    cases a <;> simp_all [basic_prove_lt, Expr.eval]
  | Add a1 t _ iht =>
    intro a h
    have h2 : a = a1 ∧ basic_prove_lt (Expr.IntImm 0) t = true := by
      cases a <;> simpa [basic_prove_lt] using h
    obtain ⟨h3, h4⟩ := h2
    subst h3
    have h5 := iht _ h4
    simp only [Expr.eval] at h5 ⊢
    omega
  | Max e d _ _ =>
    intro a h
    cases a with
    | IntImm c =>
      cases d <;> simp_all [basic_prove_lt, Expr.eval]
    | _ => simp [basic_prove_lt] at h
  | _ =>
    intro a h
    cases a <;> simp [basic_prove_lt] at h

theorem basic_simplify_sound : Primitives.basic.simplify_sound := by
  intro env e
  show (basic_simplify e).eval env = e.eval env
  induction e with
  | IntImm v => rfl
  | Variable n => rfl
  | Add a b iha ihb => simp [basic_simplify, basic_add_eval, Expr.eval, iha, ihb]
  | Sub a b iha ihb => simp [basic_simplify, basic_sub_eval, Expr.eval, iha, ihb]
  | Mul a b iha ihb =>
    simp only [basic_simplify, Expr.eval, ← iha, ← ihb]
    unfold basic_mul
    split
    · next h1 h2 => simp [Expr.eval, h1, h2]
    · simp [Expr.eval]
  | Min a b iha ihb => simp [basic_simplify, basic_min_eval, Expr.eval, iha, ihb]
  | Max a b iha ihb => simp [basic_simplify, basic_max_eval, Expr.eval, iha, ihb]
  | LT a b iha ihb =>
    simp only [basic_simplify]
    split
    · next h =>
      have h2 := basic_prove_lt_sound env _ _ h
      rw [iha, ihb] at h2
      simp [Expr.eval, h2]
    · simp [Expr.eval, iha, ihb]
  | LE a b iha ihb => simp [basic_simplify, Expr.eval, iha, ihb]
  | GT a b iha ihb => simp [basic_simplify, Expr.eval, iha, ihb]
  | GE a b iha ihb => simp [basic_simplify, basic_ge_eval, Expr.eval, iha, ihb]
  | EQ a b iha ihb =>
    simp only [basic_simplify]
    split
    · next h =>
      have h2 : a.eval env = b.eval env := by rw [← iha, ← ihb, h]
      simp [Expr.eval, h2]
    · simp [Expr.eval, iha, ihb]
  | Div a b iha ihb =>
    simp only [basic_simplify, Expr.eval, ← iha, ← ihb]
    unfold basic_div
    split
    · next h1 h2 => simp [Expr.eval, h1, h2]
    · simp [Expr.eval]
  | Cast t a iha => simp [basic_simplify, Expr.eval, iha]

theorem basic_can_prove_sound : Primitives.basic.can_prove_sound := by
  intro e h env
  have h1 : basic_simplify e = Expr.IntImm 1 := by
    simpa [Primitives.basic, basic_can_prove] using h
  have h2 := basic_simplify_sound env e
  simp only [Primitives.basic] at h2
  rw [h1] at h2
  simp only [Expr.eval] at h2
  omega


/-! ### The benefit of a grouping -/

/-- C3: whenever `estimate_benefit` returns a defined value, both costs are
defined and the value is the simplified sum of the memory difference and the
arithmetic difference; with a sound simplifier it evaluates, under every
valuation, to `(old.arith - new.arith) + (old.memory - new.memory)`. -/
theorem estimate_benefit_value (P : Primitives) (hs : P.simplify_sound)
    (arch_params : MachineParams) (old_grouping new_grouping : GroupAnalysis)
    (no_redundant_work ensure_parallelism : Bool) (b : Expr)
    (hb : estimate_benefit P arch_params old_grouping new_grouping no_redundant_work
      ensure_parallelism = some b) :
    ∃ old_arith new_arith old_memory new_memory : Expr,
      old_grouping.cost.arith = some old_arith ∧ new_grouping.cost.arith = some new_arith ∧
      old_grouping.cost.memory = some old_memory ∧
      new_grouping.cost.memory = some new_memory ∧
      b = P.simplify
        (Expr.Add (Expr.Sub old_memory new_memory) (Expr.Sub old_arith new_arith)) ∧
      ∀ env : String → Int,
        b.eval env = (old_arith.eval env - new_arith.eval env) +
          (old_memory.eval env - new_memory.eval env) := by
  unfold estimate_benefit at hb
  split at hb
  · exact absurd hb (by simp)
  · split at hb
    · exact absurd hb (by simp)
    · split at hb
      · next oa na om nm h1 h2 h3 h4 =>
        simp only [] at hb
        split at hb
        · exact absurd hb (by simp)
        · refine ⟨oa, na, om, nm, h1, h2, h3, h4, ?_, ?_⟩
          · exact (Option.some.inj hb).symm
          · intro env
            rw [← Option.some.inj hb, hs env]
            simp only [Expr.eval]
            omega
      · exact absurd hb (by simp)

/-- An instance of C3 with the small simplifier: old cost `(100, 50)`, new
cost `(30, 20)`, benefit 100. -/
theorem estimate_benefit_value_witness :
    Primitives.basic.simplify_sound ∧
    estimate_benefit Primitives.basic MachineParams.generic
      ⟨⟨some (Expr.IntImm 100), some (Expr.IntImm 50)⟩, some (Expr.IntImm 16)⟩
      ⟨⟨some (Expr.IntImm 30), some (Expr.IntImm 20)⟩, some (Expr.IntImm 16)⟩
      false true = some (Expr.IntImm 100) ∧
    ∃ old_arith new_arith old_memory new_memory : Expr,
      some (Expr.IntImm 100) = some old_arith ∧ some (Expr.IntImm 30) = some new_arith ∧
      some (Expr.IntImm 50) = some old_memory ∧ some (Expr.IntImm 20) = some new_memory ∧
      Expr.IntImm 100 = Primitives.basic.simplify
        (Expr.Add (Expr.Sub old_memory new_memory) (Expr.Sub old_arith new_arith)) ∧
      ∀ env : String → Int,
        (Expr.IntImm 100).eval env = (old_arith.eval env - new_arith.eval env) +
          (old_memory.eval env - new_memory.eval env) :=
  ⟨basic_simplify_sound, by decide,
    estimate_benefit_value Primitives.basic basic_simplify_sound MachineParams.generic
      ⟨⟨some (Expr.IntImm 100), some (Expr.IntImm 50)⟩, some (Expr.IntImm 16)⟩
      ⟨⟨some (Expr.IntImm 30), some (Expr.IntImm 20)⟩, some (Expr.IntImm 16)⟩
      false true (Expr.IntImm 100) (by decide)⟩

theorem estimate_benefit_none_of_undefined (P : Primitives) (arch_params : MachineParams)
    (old_grouping new_grouping : GroupAnalysis) (no_redundant_work ensure_parallelism : Bool)
    (h : old_grouping.cost.defined = false ∨ new_grouping.cost.defined = false) :
    estimate_benefit P arch_params old_grouping new_grouping no_redundant_work
      ensure_parallelism = none := by
  unfold estimate_benefit
  split
  · rfl
  · split
    · rfl
    · next h2 =>
      exfalso
      apply h2
      rcases h with h | h <;> simp [h]

theorem GroupAnalysis.simplify_cost_defined (f : Expr → Expr) (a : GroupAnalysis) :
    (a.simplify f).cost.defined = a.cost.defined := by
  simp [GroupAnalysis.simplify, Cost.simplify, Cost.defined]

theorem mem_insert_prod_stages (prod_f : Function) (og : List FStage) (s : Nat)
    (hs : s ≤ prod_f.updates) : (⟨prod_f.name, s⟩ : FStage) ∈ insert_prod_stages prod_f og := by
  unfold insert_prod_stages
  exact mem_foldl_set_insert FStage.lt FStage_lt_trichotomy
    (fun s => (⟨prod_f.name, s⟩ : FStage)) _ og s (by simp; omega)

theorem subset_insert_prod_stages (prod_f : Function) (og : List FStage) (k : FStage)
    (hk : k ∈ og) : k ∈ insert_prod_stages prod_f og := by
  unfold insert_prod_stages
  exact mem_foldl_set_insert_of_mem FStage.lt (fun s => (⟨prod_f.name, s⟩ : FStage)) k _ og hk

theorem mem_insert_prod_stages_inv (prod_f : Function) (og : List FStage) (k : FStage)
    (hk : k ∈ insert_prod_stages prod_f og) :
    k ∈ og ∨ (k.func = prod_f.name ∧ k.stage_num ≤ prod_f.updates) := by
  unfold insert_prod_stages at hk
  rcases mem_of_mem_foldl_set_insert FStage.lt (fun s => (⟨prod_f.name, s⟩ : FStage)) k _ og hk
    with h | ⟨s, hs, rfl⟩
  · exact Or.inl h
  · refine Or.inr ⟨rfl, ?_⟩
    simp at hs
    simp
    omega

theorem estimate_benefit_new_groups_spec (env : List Function) :
    ∀ (ng : List (GroupingChoice × GroupConfig)) (og : List FStage) (acc : GroupAnalysis)
      (og1 : List FStage) (acc1 : GroupAnalysis),
      estimate_benefit_new_groups env ng og acc = Except.ok (og1, acc1) →
      ((∃ g ∈ ng, g.2.analysis.defined = false) → acc1 = GroupAnalysis.undefined) ∧
      (acc1 = GroupAnalysis.undefined ∨
        ((∀ k ∈ og, k ∈ og1) ∧ ∀ g ∈ ng, ∀ k, g.1.affects env k → k ∈ og1)) := by
  intro ng
  induction ng with
  | nil =>
    intro og acc og1 acc1 h
    simp only [estimate_benefit_new_groups, Except.ok.injEq, Prod.mk.injEq] at h
    obtain ⟨h1, _⟩ := h
    subst h1
    exact ⟨by simp, Or.inr ⟨fun k hk => hk, by simp⟩⟩
  | cons g rest ih =>
    intro og acc og1 acc1 h
    unfold estimate_benefit_new_groups at h
    split at h
    · exact absurd h (by simp)
    · next prod_f hf =>
      have hfind : env_find env g.1.prod = some prod_f := by
        unfold env_get at hf
        split at hf
        · next f hf2 => rw [hf2]; simpa using hf
        · exact absurd hf (by simp)
      simp only [] at h
      split at h
      · next hd =>
        obtain ⟨ih1, ih2⟩ := ih _ _ _ _ h
        constructor
        · rintro ⟨g1, hg1, hu⟩
          rcases List.mem_cons.mp hg1 with h1 | h1
          · subst h1; rw [hd] at hu; exact absurd hu (by simp)
          · exact ih1 ⟨g1, h1, hu⟩
        · rcases ih2 with h2 | ⟨h2, h3⟩
          · exact Or.inl h2
          · refine Or.inr ⟨?_, ?_⟩
            · intro k hk
              exact h2 _ (mem_set_insert_of_mem _ _ _ _ (subset_insert_prod_stages _ _ _ hk))
            · intro g1 hg1 k hk
              rcases List.mem_cons.mp hg1 with h1 | h1
              · subst h1
                obtain ⟨f1, hf1, hk1⟩ := hk
                rw [hfind] at hf1
                have hf2 : prod_f = f1 := Option.some.inj hf1
                subst hf2
                apply h2
                rcases hk1 with h4 | ⟨h4, h5⟩
                · subst h4
                  exact mem_set_insert_self _ FStage_lt_trichotomy _ _
                · apply mem_set_insert_of_mem
                  have h6 := mem_insert_prod_stages prod_f og k.stage_num h5
                  rw [← h4] at h6
                  exact h6
              · exact h3 g1 h1 k hk
      · simp only [Except.ok.injEq, Prod.mk.injEq] at h
        exact ⟨fun _ => h.2.symm, Or.inl h.2.symm⟩

theorem estimate_benefit_old_groups_spec (group_costs : List (FStage × GroupAnalysis)) :
    ∀ (og : List FStage) (acc r : GroupAnalysis),
      estimate_benefit_old_groups group_costs og acc = Except.ok r →
      (∃ k ∈ og, ∃ a, map_find group_costs k = some a ∧ a.defined = false) →
      r = GroupAnalysis.undefined := by
  intro og
  induction og with
  | nil => intro acc r _ h; simp at h
  | cons g rest ih =>
    intro acc r h hex
    unfold estimate_benefit_old_groups at h
    split at h
    · exact absurd h (by simp)
    · next a ha =>
      split at h
      · next hd =>
        apply ih _ _ h
        obtain ⟨k, hk, a1, ha1, hu⟩ := hex
        rcases List.mem_cons.mp hk with h1 | h1
        · subst h1
          rw [ha] at ha1
          have h2 : a = a1 := Option.some.inj ha1
          subst h2
          rw [hd] at hu
          exact absurd hu (by simp)
        · exact ⟨k, h1, a1, ha1, hu⟩
      · simp only [Except.ok.injEq] at h
        exact h.symm

theorem estimate_benefit_new_groups_total (env : List Function) :
    ∀ (ng : List (GroupingChoice × GroupConfig)) (og : List FStage) (acc : GroupAnalysis),
      (∀ g ∈ ng, ∃ f, env_find env g.1.prod = some f) →
      ∃ og1 acc1, estimate_benefit_new_groups env ng og acc = Except.ok (og1, acc1) ∧
        ∀ k ∈ og1, k ∈ og ∨ ∃ g ∈ ng, g.1.affects env k := by
  intro ng
  induction ng with
  | nil =>
    intro og acc _
    exact ⟨og, acc, rfl, fun k hk => Or.inl hk⟩
  | cons g rest ih =>
    intro og acc hall
    obtain ⟨f, hf⟩ := hall g (by simp)
    have hrest : ∀ g1 ∈ rest, ∃ f, env_find env g1.1.prod = some f :=
      fun g1 hg1 => hall g1 (List.mem_cons_of_mem _ hg1)
    have hins : ∀ k ∈ set_insert FStage.lt g.1.cons (insert_prod_stages f og),
        k ∈ og ∨ g.1.affects env k := by
      intro k hk
      rcases mem_of_mem_set_insert _ _ _ _ hk with h1 | h1
      · exact Or.inr ⟨f, hf, Or.inl h1⟩
      · rcases mem_insert_prod_stages_inv _ _ _ h1 with h2 | h2
        · exact Or.inl h2
        · exact Or.inr ⟨f, hf, Or.inr h2⟩
    unfold estimate_benefit_new_groups
    simp only [env_get, hf]
    split
    · obtain ⟨og1, acc1, h1, h2⟩ := ih (set_insert FStage.lt g.1.cons (insert_prod_stages f og))
        (acc.accumulate g.2.analysis) hrest
      refine ⟨og1, acc1, h1, ?_⟩
      intro k hk
      rcases h2 k hk with h3 | ⟨g1, hg1, h4⟩
      · rcases hins k h3 with h5 | h5
        · exact Or.inl h5
        · exact Or.inr ⟨g, by simp, h5⟩
      · exact Or.inr ⟨g1, List.mem_cons_of_mem _ hg1, h4⟩
    · refine ⟨_, _, rfl, ?_⟩
      intro k hk
      rcases hins k hk with h5 | h5
      · exact Or.inl h5
      · exact Or.inr ⟨g, by simp, h5⟩

theorem estimate_benefit_old_groups_total (group_costs : List (FStage × GroupAnalysis)) :
    ∀ (og : List FStage) (acc : GroupAnalysis),
      (∀ k ∈ og, ∃ a, map_find group_costs k = some a) →
      ∃ r, estimate_benefit_old_groups group_costs og acc = Except.ok r := by
  intro og
  induction og with
  | nil => intro acc _; exact ⟨acc, rfl⟩
  | cons g rest ih =>
    intro acc hall
    obtain ⟨a, ha⟩ := hall g (by simp)
    unfold estimate_benefit_old_groups
    simp only [ha]
    split
    · exact ih _ (fun k hk => hall k (List.mem_cons_of_mem _ hk))
    · exact ⟨_, rfl⟩

/-- C4: `estimate_benefit` is undefined whenever the cost of the old or of the
new analysis is undefined, whatever the two flags; and the aggregated
overload never returns a defined value when one configuration of the new
grouping, or the stored analysis of one affected old group (the consumer
stage or a stage of the producer of a choice), is undefined.  It does return
(no assertion fails) when every producer is in the environment and every
affected old group has an entry in `group_costs`. -/
theorem estimate_benefit_undefined (P : Primitives) (part : Partitioner) :
    (∀ (arch_params : MachineParams) (old_grouping new_grouping : GroupAnalysis)
        (no_redundant_work ensure_parallelism : Bool),
        (old_grouping.cost.defined = false ∨ new_grouping.cost.defined = false) →
        estimate_benefit P arch_params old_grouping new_grouping no_redundant_work
          ensure_parallelism = none) ∧
    (∀ (new_grouping : List (GroupingChoice × GroupConfig))
        (no_redundant_work ensure_parallelism : Bool) (r : Option Expr),
        part.estimate_benefit P new_grouping no_redundant_work ensure_parallelism =
          Except.ok r →
        ((∃ g ∈ new_grouping, g.2.analysis.defined = false) ∨
          (∃ g ∈ new_grouping, ∃ k a, g.1.affects part.env k ∧
            map_find part.group_costs k = some a ∧ a.defined = false)) →
        r = none) ∧
    (∀ (new_grouping : List (GroupingChoice × GroupConfig))
        (no_redundant_work ensure_parallelism : Bool),
        (∀ g ∈ new_grouping, (∃ f, env_find part.env g.1.prod = some f) ∧
          ∀ k, g.1.affects part.env k → ∃ a, map_find part.group_costs k = some a) →
        ∃ r, part.estimate_benefit P new_grouping no_redundant_work ensure_parallelism =
          Except.ok r) := by
  refine ⟨fun a o n f1 f2 h => estimate_benefit_none_of_undefined P a o n f1 f2 h, ?_, ?_⟩
  · intro ng nrw ep r h hex
    unfold Partitioner.estimate_benefit at h
    split at h
    · exact absurd h (by simp)
    · next og new_acc hnew =>
      obtain ⟨hn1, hn2⟩ := estimate_benefit_new_groups_spec _ _ _ _ _ _ hnew
      simp only [] at h
      split at h
      · exact absurd h (by simp)
      · next old_acc hold =>
        simp only [Except.ok.injEq] at h
        rw [← h]
        apply estimate_benefit_none_of_undefined
        rw [GroupAnalysis.simplify_cost_defined, GroupAnalysis.simplify_cost_defined]
        have key : new_acc = GroupAnalysis.undefined ∨ old_acc = GroupAnalysis.undefined := by
          rcases hex with h1 | ⟨g, hg, k, a, hk, ha, hu⟩
          · exact Or.inl (hn1 h1)
          · rcases hn2 with h2 | ⟨_, h3⟩
            · exact Or.inl h2
            · exact Or.inr
                (estimate_benefit_old_groups_spec _ _ _ _ hold ⟨k, h3 g hg k hk, a, ha, hu⟩)
        rcases key with h1 | h1
        · exact Or.inr (by rw [h1]; rfl)
        · exact Or.inl (by rw [h1]; rfl)
  · intro ng nrw ep hall
    obtain ⟨og1, acc1, h1, h2⟩ := estimate_benefit_new_groups_total part.env ng []
      GroupAnalysis.zero (fun g hg => (hall g hg).1)
    have h3 : ∀ k ∈ og1, ∃ a, map_find part.group_costs k = some a := by
      intro k hk
      rcases h2 k hk with h4 | ⟨g, hg, h4⟩
      · simp at h4
      · exact (hall g hg).2 k h4
    obtain ⟨r, hr⟩ := estimate_benefit_old_groups_total part.group_costs og1
      GroupAnalysis.zero h3
    unfold Partitioner.estimate_benefit
    simp only [h1, hr]
    exact ⟨_, rfl⟩

/-- An instance of C4 on the worked pipeline: an undefined old analysis, an
undefined configuration in the new grouping, and an undefined stored analysis
of the producer `f1`. -/
theorem estimate_benefit_undefined_witness :
    estimate_benefit Primitives.basic MachineParams.generic GroupAnalysis.undefined
      (example_analysis (Expr.IntImm 0)) false true = none ∧
    example_part.estimate_benefit Primitives.basic
      [(⟨"f1", ⟨"g", 0⟩⟩, ⟨[], GroupAnalysis.undefined⟩)] false true = Except.ok none ∧
    example_part_undefined.estimate_benefit Primitives.basic
      [(⟨"f1", ⟨"g", 0⟩⟩, ⟨[], example_analysis (Expr.IntImm 0)⟩)] false true =
        Except.ok none := by
  refine ⟨(estimate_benefit_undefined Primitives.basic example_part).1 _ _ _ _ _ (Or.inl rfl),
    ?_, ?_⟩
  · have h := (estimate_benefit_undefined Primitives.basic example_part).2.1
      [(⟨"f1", ⟨"g", 0⟩⟩, ⟨[], GroupAnalysis.undefined⟩)] false true none (by decide)
      (Or.inl ⟨_, List.mem_singleton.mpr rfl, rfl⟩)
    rw [h]
    decide
  · have h := (estimate_benefit_undefined Primitives.basic example_part_undefined).2.1
      [(⟨"f1", ⟨"g", 0⟩⟩, ⟨[], example_analysis (Expr.IntImm 0)⟩)] false true none (by decide)
      (Or.inr ⟨_, List.mem_singleton.mpr rfl, ⟨"f1", 0⟩, GroupAnalysis.undefined,
        ⟨example_function "f1", rfl, Or.inr ⟨rfl, Nat.le_refl _⟩⟩, rfl, rfl⟩)
    rw [h]
    decide

/-! ### The grouping cache -/

theorem GroupingChoice_lt_trichotomy (a b : GroupingChoice) (h1 : GroupingChoice.lt a b = false)
    (h2 : GroupingChoice.lt b a = false) : a = b := by
  simp only [GroupingChoice.lt, Bool.or_eq_false_iff, Bool.and_eq_false_iff,
    beq_eq_false_iff_ne] at h1 h2
  have hp : a.prod = b.prod := string_lt_trichotomy _ _ h1.1 h2.1
  have hc : a.cons = b.cons := by
    rcases h1.2 with h | h
    · exact absurd hp h
    · rcases h2.2 with h3 | h3
      · exact absurd hp.symm h3
      · exact FStage_lt_trichotomy _ _ h h3
  cases a; cases b; simp_all

theorem map_find_emplace_self {κ ν : Type} [DecidableEq κ] (lt : κ → κ → Bool)
    (htri : ∀ a b : κ, lt a b = false → lt b a = false → a = b) (k : κ) (v : ν) :
    ∀ m : List (κ × ν), map_find m k = none → map_find (map_emplace lt k v m) k = some v := by
  intro m
  induction m with
  | nil => intro _; simp [map_emplace, map_find]
  | cons e rest ih =>
    intro h
    obtain ⟨k1, v1⟩ := e
    have hne : k1 ≠ k := by
      intro heq
      simp [map_find, heq] at h
    have hrest : map_find rest k = none := by
      simpa [map_find, hne] using h
    unfold map_emplace
    split
    · simp [map_find]
    · split
      · simp [map_find, hne, ih hrest]
      · next h1 h2 =>
        exact absurd (htri k k1 (by simpa using h1) (by simpa using h2)).symm hne

theorem map_find_emplace_ne {κ ν : Type} [DecidableEq κ] (lt : κ → κ → Bool) (k k2 : κ) (v : ν)
    (hne : k ≠ k2) :
    ∀ m : List (κ × ν), map_find (map_emplace lt k v m) k2 = map_find m k2 := by
  intro m
  induction m with
  | nil => simp [map_emplace, map_find, hne]
  | cons e rest ih =>
    obtain ⟨k1, v1⟩ := e
    unfold map_emplace
    split
    · simp [map_find, hne]
    · split
      · simp [map_find, ih]
      · rfl

theorem lookup_or_evaluate_emplace (ev : EvaluateChoice) (level : Level)
    (tile_bounds : TileSizes) (cache : List (GroupingChoice × GroupConfig))
    (k : GroupingChoice) (v : GroupConfig) (hnone : map_find cache k = none)
    (hev : ev k level tile_bounds = Except.ok v) :
    lookup_or_evaluate ev level tile_bounds (map_emplace GroupingChoice.lt k v cache) =
      lookup_or_evaluate ev level tile_bounds cache := by
  funext k2
  unfold lookup_or_evaluate
  by_cases h : k = k2
  · subst h
    rw [map_find_emplace_self _ GroupingChoice_lt_trichotomy _ _ _ hnone, hnone]
    exact hev.symm
  · rw [map_find_emplace_ne _ _ _ _ h]

theorem candidate_grouping_congr (ev : EvaluateChoice) (level : Level) (tile_bounds : TileSizes)
    (c1 c2 : List (GroupingChoice × GroupConfig)) (prod : String)
    (h : lookup_or_evaluate ev level tile_bounds c1 = lookup_or_evaluate ev level tile_bounds c2) :
    ∀ cs, candidate_grouping ev level tile_bounds c1 prod cs =
      candidate_grouping ev level tile_bounds c2 prod cs := by
  intro cs
  induction cs with
  | nil => rfl
  | cons c rest ih => simp only [candidate_grouping, h, ih]

theorem candidate_benefit_congr (P : Primitives) (part : Partitioner) (ev : EvaluateChoice)
    (level : Level) (tile_bounds : TileSizes) (c1 c2 : List (GroupingChoice × GroupConfig))
    (h : lookup_or_evaluate ev level tile_bounds c1 = lookup_or_evaluate ev level tile_bounds c2)
    (p : String × String) :
    candidate_benefit P part ev level tile_bounds c1 p =
      candidate_benefit P part ev level tile_bounds c2 p := by
  unfold candidate_benefit
  split
  · rfl
  · split
    · rfl
    · rw [candidate_grouping_congr ev level tile_bounds c1 c2 _ h]

theorem choose_candidate_grouping_children_spec (ev : EvaluateChoice) (level : Level)
    (tile_bounds : TileSizes) (prod : String) :
    ∀ (cs : List FStage) (cache : List (GroupingChoice × GroupConfig)),
      (match choose_candidate_grouping_children ev level tile_bounds prod cs cache with
        | Except.error e =>
          candidate_grouping ev level tile_bounds cache prod cs = Except.error e
        | Except.ok (grouping, cache1) =>
          candidate_grouping ev level tile_bounds cache prod cs = Except.ok grouping ∧
          lookup_or_evaluate ev level tile_bounds cache1 =
            lookup_or_evaluate ev level tile_bounds cache) := by
  intro cs
  induction cs with
  | nil => intro cache; simp [choose_candidate_grouping_children, candidate_grouping]
  | cons c rest ih =>
    intro cache
    unfold choose_candidate_grouping_children candidate_grouping
    simp only [lookup_or_evaluate]
    cases hfind : map_find cache (⟨prod, c⟩ : GroupingChoice) with
    | some cfg =>
      simp only []
      have ih1 := ih cache
      cases hrest : choose_candidate_grouping_children ev level tile_bounds prod rest cache with
      | error e =>
        rw [hrest] at ih1
        simp only [] at ih1 ⊢
        rw [ih1]
      | ok r =>
        obtain ⟨grouping, cache1⟩ := r
        rw [hrest] at ih1
        simp only [] at ih1 ⊢
        rw [ih1.1]
        exact ⟨rfl, ih1.2⟩
    | none =>
      simp only []
      cases hev : ev ⟨prod, c⟩ level tile_bounds with
      | error e => simp
      | ok cfg =>
        simp only []
        have hext := lookup_or_evaluate_emplace ev level tile_bounds cache ⟨prod, c⟩ cfg hfind hev
        have ih1 := ih (map_emplace GroupingChoice.lt ⟨prod, c⟩ cfg cache)
        rw [candidate_grouping_congr ev level tile_bounds _ _ prod hext] at ih1
        cases hrest : choose_candidate_grouping_children ev level tile_bounds prod rest
            (map_emplace GroupingChoice.lt ⟨prod, c⟩ cfg cache) with
        | error e =>
          rw [hrest] at ih1
          simp only [] at ih1 ⊢
          rw [ih1]
        | ok r =>
          obtain ⟨grouping, cache1⟩ := r
          rw [hrest] at ih1
          simp only [] at ih1 ⊢
          rw [ih1.1]
          exact ⟨rfl, ih1.2.trans hext⟩

/-! ### The selection loop -/

theorem choose_candidate_grouping_body_spec (P : Primitives) (part : Partitioner)
    (ev : EvaluateChoice) (level : Level) (tile_bounds : TileSizes) (st st1 : ChooseState)
    (p : String × String)
    (h : choose_candidate_grouping_body P part ev level tile_bounds st p = Except.ok st1) :
    lookup_or_evaluate ev level tile_bounds st1.grouping_cache =
      lookup_or_evaluate ev level tile_bounds st.grouping_cache ∧
    ∃ g b, candidate_benefit P part ev level tile_bounds st.grouping_cache p = Except.ok (g, b) ∧
      ((∃ ob, b = some ob ∧ P.can_prove (Expr.LT st.best_benefit ob) = true ∧
          st1.best_grouping = g ∧ st1.best_benefit = ob) ∨
        ((b = none ∨ ∃ ob, b = some ob ∧ P.can_prove (Expr.LT st.best_benefit ob) = false) ∧
          st1.best_grouping = st.best_grouping ∧ st1.best_benefit = st.best_benefit)) := by
  unfold choose_candidate_grouping_body at h
  unfold candidate_benefit
  cases henv : env_get part.env p.1 with
  | error e => rw [henv] at h; exact absurd h (by simp)
  | ok prod_f =>
    rw [henv] at h
    simp only [] at h ⊢
    cases hch : get_element part.children (⟨prod_f.name, prod_f.updates⟩ : FStage) with
    | error e => rw [hch] at h; exact absurd h (by simp)
    | ok cs =>
      rw [hch] at h
      simp only [] at h ⊢
      have hsp := choose_candidate_grouping_children_spec ev level tile_bounds prod_f.name cs
        st.grouping_cache
      cases hloop : choose_candidate_grouping_children ev level tile_bounds prod_f.name cs
          st.grouping_cache with
      | error e => rw [hloop] at h; exact absurd h (by simp)
      | ok r =>
        obtain ⟨grouping, cache1⟩ := r
        rw [hloop] at h hsp
        simp only [] at h hsp
        rw [hsp.1]
        simp only []
        cases hben : part.estimate_benefit P grouping false true with
        | error e => rw [hben] at h; exact absurd h (by simp)
        | ok b =>
          rw [hben] at h
          cases b with
          | none =>
            simp only [Except.ok.injEq] at h
            subst h
            exact ⟨hsp.2, grouping, none, rfl, Or.inr ⟨Or.inl rfl, rfl, rfl⟩⟩
          | some ob =>
            simp only [] at h
            split at h
            · next hp =>
              simp only [Except.ok.injEq] at h
              subst h
              exact ⟨hsp.2, grouping, some ob, rfl, Or.inl ⟨ob, rfl, hp, rfl, rfl⟩⟩
            · next hp =>
              simp only [Except.ok.injEq] at h
              subst h
              exact ⟨hsp.2, grouping, some ob, rfl,
                Or.inr ⟨Or.inr ⟨ob, rfl, by simpa using hp⟩, rfl, rfl⟩⟩

theorem candidate_benefit_estimate (P : Primitives) (part : Partitioner) (ev : EvaluateChoice)
    (level : Level) (tile_bounds : TileSizes) (cache : List (GroupingChoice × GroupConfig))
    (p : String × String) (g : List (GroupingChoice × GroupConfig)) (b : Option Expr)
    (h : candidate_benefit P part ev level tile_bounds cache p = Except.ok (g, b)) :
    part.estimate_benefit P g false true = Except.ok b := by
  unfold candidate_benefit at h
  split at h
  · exact absurd h (by simp)
  · split at h
    · exact absurd h (by simp)
    · split at h
      · exact absurd h (by simp)
      · next grouping _ =>
        split at h
        · exact absurd h (by simp)
        · next b1 hb =>
          simp only [Except.ok.injEq, Prod.mk.injEq] at h
          rw [← h.1, ← h.2]
          exact hb

theorem choose_candidate_grouping_loop_invariant (P : Primitives) (part : Partitioner)
    (ev : EvaluateChoice) (level : Level) (tile_bounds : TileSizes) :
    ∀ (cands : List (String × String)) (st st1 : ChooseState),
      choose_candidate_grouping_loop P part ev level tile_bounds cands st = Except.ok st1 →
      ChooseInvariant P part st.best_grouping st.best_benefit →
      ChooseInvariant P part st1.best_grouping st1.best_benefit := by
  intro cands
  induction cands with
  | nil =>
    intro st st1 h hinv
    simp only [choose_candidate_grouping_loop, Except.ok.injEq] at h
    subst h
    exact hinv
  | cons p rest ih =>
    intro st st1 h hinv
    unfold choose_candidate_grouping_loop at h
    split at h
    · exact absurd h (by simp)
    · next st2 hbody =>
      apply ih st2 st1 h
      obtain ⟨_, g, b, hcb, hsel⟩ :=
        choose_candidate_grouping_body_spec P part ev level tile_bounds st st2 p hbody
      rcases hsel with ⟨ob, hb, hp, hg, hbb⟩ | ⟨_, hg, hbb⟩
      · subst hb
        right
        rw [hg, hbb]
        refine ⟨candidate_benefit_estimate P part ev level tile_bounds _ p g _ hcb, ?_⟩
        rcases hinv with ⟨_, h0⟩ | ⟨_, hacc⟩
        · rw [h0] at hp
          exact AcceptedBenefit.first ob hp
        · exact AcceptedBenefit.next _ ob hacc hp
      · rw [hg, hbb]
        exact hinv

theorem AcceptedBenefit.positive (P : Primitives) (hc : P.can_prove_sound) (b : Expr)
    (h : AcceptedBenefit P b) : ∀ env : String → Int, 0 < b.eval env := by
  induction h with
  | first b hp =>
    intro env
    have h1 := hc _ hp env
    simp only [Expr.eval, make_zero] at h1
    by_contra hneg
    simp [hneg] at h1
  | next a b _ hp ih =>
    intro env
    have h1 := hc _ hp env
    have h2 := ih env
    simp only [Expr.eval] at h1
    by_contra hneg
    have h3 : ¬ (a.eval env < b.eval env) := by omega
    simp [h3] at h1

theorem choose_candidate_grouping_recurse_loop_invariant (P : Primitives) (part : Partitioner)
    (evr : EvaluateChoiceRecurse) :
    ∀ (cands : List (String × String)) (st st1 : ChooseRecurseState),
      choose_candidate_grouping_recurse_loop P part evr cands st = Except.ok st1 →
      ChooseInvariant P part st.best_grouping st.best_benefit →
      ChooseInvariant P part st1.best_grouping st1.best_benefit := by
  intro cands
  induction cands with
  | nil =>
    intro st st1 h hinv
    simp only [choose_candidate_grouping_recurse_loop, Except.ok.injEq] at h
    subst h
    exact hinv
  | cons p rest ih =>
    intro st st1 h hinv
    unfold choose_candidate_grouping_recurse_loop at h
    split at h
    · exact absurd h (by simp)
    · next st2 hbody =>
      apply ih st2 st1 h
      unfold choose_candidate_grouping_recurse_body at hbody
      split at hbody
      · exact absurd hbody (by simp)
      · simp only [] at hbody
        split at hbody
        · exact absurd hbody (by simp)
        · split at hbody
          · exact absurd hbody (by simp)
          · next grouping subgroups _ =>
            split at hbody
            · exact absurd hbody (by simp)
            · simp only [Except.ok.injEq] at hbody
              subst hbody
              exact hinv
            · next ob hben =>
              split at hbody
              · next hp =>
                simp only [Except.ok.injEq] at hbody
                subst hbody
                right
                refine ⟨hben, ?_⟩
                rcases hinv with ⟨_, h0⟩ | ⟨_, hacc⟩
                · rw [h0] at hp
                  exact AcceptedBenefit.first ob hp
                · exact AcceptedBenefit.next _ ob hacc hp
              · simp only [Except.ok.injEq] at hbody
                subst hbody
                exact hinv

theorem estimate_benefit_new_groups_parallelism (env : List Function) :
    ∀ (ng : List (GroupingChoice × GroupConfig)) (og : List FStage) (acc : GroupAnalysis)
      (og1 : List FStage) (acc1 : GroupAnalysis) (q : Expr),
      estimate_benefit_new_groups env ng og acc = Except.ok (og1, acc1) →
      acc1.parallelism = some q →
      (∃ a, acc.parallelism = some a ∧ ∀ v : String → Int, q.eval v ≤ a.eval v) ∧
      ∀ g ∈ ng, ∃ p, g.2.analysis.parallelism = some p ∧
        ∀ v : String → Int, q.eval v ≤ p.eval v := by
  intro ng
  induction ng with
  | nil =>
    intro og acc og1 acc1 q h hq
    simp only [estimate_benefit_new_groups, Except.ok.injEq, Prod.mk.injEq] at h
    rw [← h.2] at hq
    exact ⟨⟨q, hq, fun _ => le_refl _⟩, by simp⟩
  | cons g rest ih =>
    intro og acc og1 acc1 q h hq
    unfold estimate_benefit_new_groups at h
    split at h
    · exact absurd h (by simp)
    · simp only [] at h
      split at h
      · obtain ⟨⟨a1, ha1, hle1⟩, hrest⟩ := ih _ _ _ _ q h hq
        have hmin : ∃ a pg, acc.parallelism = some a ∧ g.2.analysis.parallelism = some pg ∧
            a1 = Expr.Min a pg := by
          simp only [GroupAnalysis.accumulate, opt_min] at ha1
          split at ha1
          · next x y hx hy =>
            exact ⟨x, y, hx, hy, (Option.some.inj ha1).symm⟩
          · exact absurd ha1 (by simp)
        obtain ⟨a, pg, hacc, hpg, hmin1⟩ := hmin
        subst hmin1
        refine ⟨⟨a, hacc, ?_⟩, ?_⟩
        · intro v
          have := hle1 v
          simp only [Expr.eval] at this
          exact le_trans this (min_le_left _ _)
        · intro g1 hg1
          rcases List.mem_cons.mp hg1 with h1 | h1
          · subst h1
            refine ⟨pg, hpg, ?_⟩
            intro v
            have := hle1 v
            simp only [Expr.eval] at this
            exact le_trans this (min_le_right _ _)
          · exact hrest g1 h1
      · simp only [Except.ok.injEq, Prod.mk.injEq] at h
        rw [← h.2] at hq
        exact absurd hq (by simp [GroupAnalysis.undefined])

theorem estimate_benefit_parallelism (P : Primitives) (arch_params : MachineParams)
    (old_grouping new_grouping : GroupAnalysis) (no_redundant_work : Bool) (b : Expr)
    (h : estimate_benefit P arch_params old_grouping new_grouping no_redundant_work true =
      some b) :
    ∃ q, new_grouping.parallelism = some q ∧
      P.can_prove (Expr.GE q arch_params.parallelism) = true := by
  unfold estimate_benefit at h
  split at h
  · exact absurd h (by simp)
  · next hcond =>
    cases hq : new_grouping.parallelism with
    | none => simp [hq] at hcond
    | some q =>
      refine ⟨q, rfl, ?_⟩
      simpa [hq] using hcond

theorem estimate_benefit_defined_parallelism (P : Primitives) (hs : P.simplify_sound)
    (hc : P.can_prove_sound) (part : Partitioner) (grouping : List (GroupingChoice × GroupConfig))
    (no_redundant_work : Bool) (b : Expr)
    (h : part.estimate_benefit P grouping no_redundant_work true = Except.ok (some b)) :
    ∀ g ∈ grouping, ∃ p q, g.2.analysis.parallelism = some p ∧
      P.can_prove (Expr.GE q part.arch_params.parallelism) = true ∧
      (∀ v : String → Int, q.eval v ≤ p.eval v) ∧
      ∀ v : String → Int, part.arch_params.parallelism.eval v ≤ p.eval v := by
  unfold Partitioner.estimate_benefit at h
  split at h
  · exact absurd h (by simp)
  · next og new_acc hnew =>
    simp only [] at h
    split at h
    · exact absurd h (by simp)
    · next old_acc hold =>
      simp only [Except.ok.injEq] at h
      obtain ⟨q1, hq1, hprove⟩ := estimate_benefit_parallelism P _ _ _ _ _ h
      have hq0 : ∃ q0, new_acc.parallelism = some q0 ∧ q1 = P.simplify q0 := by
        simp only [GroupAnalysis.simplify, Option.map_eq_some'] at hq1
        obtain ⟨q0, h1, h2⟩ := hq1
        exact ⟨q0, h1, h2.symm⟩
      obtain ⟨q0, hq0, hq1s⟩ := hq0
      obtain ⟨_, hall⟩ := estimate_benefit_new_groups_parallelism _ _ _ _ _ _ q0 hnew hq0
      intro g hg
      obtain ⟨p, hp, hle⟩ := hall g hg
      have hq1le : ∀ v : String → Int, q1.eval v ≤ p.eval v := by
        intro v
        rw [hq1s, hs v]
        exact hle v
      refine ⟨p, q1, hp, hprove, hq1le, ?_⟩
      intro v
      have h1 := hc _ hprove v
      simp only [Expr.eval] at h1
      have h2 : part.arch_params.parallelism.eval v ≤ q1.eval v := by
        by_contra hneg
        simp [hneg] at h1
      exact le_trans h2 (hq1le v)

/-- C5, as stated, fails on the worked pipeline with the small (sound) prover:
the candidates are `f1` then `f2`; `f1` is accepted since `0 < max(x, 1)` is
proved, `f2` replaces it since `max(x, 1) < max(x, 1) + max(y, 1)` is proved,
and the grouping of `f2` is returned although `0 < max(x, 1) + max(y, 1)` is
not proved: the loop compares a benefit with the best so far, not with 0. -/
theorem accepted_grouping_benefit_counterexample :
    Primitives.basic.can_prove_sound ∧
    example_part.get_grouping_candidate example_part.groups example_part.outputs
      Level.FastMem = Except.ok [("f1", "g"), ("f2", "g")] ∧
    Except.map Prod.fst
      (example_part.choose_candidate_grouping Primitives.basic example_evaluate_choice
        [("f1", "g"), ("f2", "g")] Level.FastMem []) =
      Except.ok [(⟨"f2", ⟨"g", 0⟩⟩, ⟨[], example_analysis (Expr.IntImm 0)⟩)] ∧
    example_part.estimate_benefit Primitives.basic
      [(⟨"f2", ⟨"g", 0⟩⟩, ⟨[], example_analysis (Expr.IntImm 0)⟩)] false true =
      Except.ok (some (Expr.Add (example_max "x") (example_max "y"))) ∧
    Primitives.basic.can_prove (Expr.LT (example_max "x")
      (Expr.Add (example_max "x") (example_max "y"))) = true ∧
    Primitives.basic.can_prove
      (Expr.LT make_zero (Expr.Add (example_max "x") (example_max "y"))) = false :=
  ⟨basic_can_prove_sound, by decide, by decide, by decide, by decide, by decide⟩

/-- C5 (amended): a non-empty grouping returned by `choose_candidate_grouping`
or by `choose_candidate_grouping_recurse` has a defined aggregated benefit
that was accepted: it was proved greater than the best benefit so far, which
is 0 or a benefit accepted earlier.  With a sound prover the benefit is
positive under every valuation, so no grouping with undefined or zero benefit
is returned. -/
theorem accepted_grouping_benefit (P : Primitives) (hc : P.can_prove_sound)
    (part : Partitioner) (cands : List (String × String)) :
    (∀ (ev : EvaluateChoice) (level : Level) (tile_bounds : TileSizes)
        (best cache : List (GroupingChoice × GroupConfig)),
        part.choose_candidate_grouping P ev cands level tile_bounds = Except.ok (best, cache) →
        best ≠ [] →
        ∃ b, part.estimate_benefit P best false true = Except.ok (some b) ∧
          AcceptedBenefit P b ∧ ∀ env : String → Int, 0 < b.eval env) ∧
    (∀ (evr : EvaluateChoiceRecurse) (best : List (GroupingChoice × GroupConfig))
        (subgroups : List (List Group)),
        part.choose_candidate_grouping_recurse P evr cands = Except.ok (best, subgroups) →
        best ≠ [] →
        ∃ b, part.estimate_benefit P best false true = Except.ok (some b) ∧
          AcceptedBenefit P b ∧ ∀ env : String → Int, 0 < b.eval env) := by
  constructor
  · intro ev level tile_bounds best cache h hne
    unfold Partitioner.choose_candidate_grouping at h
    split at h
    · exact absurd h (by simp)
    · next st hloop =>
      simp only [Except.ok.injEq, Prod.mk.injEq] at h
      have hinv := choose_candidate_grouping_loop_invariant P part ev level tile_bounds cands
        _ st hloop (Or.inl ⟨rfl, rfl⟩)
      rw [h.1] at hinv
      rcases hinv with ⟨h0, _⟩ | ⟨h1, h2⟩
      · exact absurd h0 hne
      · exact ⟨_, h1, h2, AcceptedBenefit.positive P hc _ h2⟩
  · intro evr best subgroups h hne
    unfold Partitioner.choose_candidate_grouping_recurse at h
    split at h
    · exact absurd h (by simp)
    · next st hloop =>
      simp only [Except.ok.injEq, Prod.mk.injEq] at h
      have hinv := choose_candidate_grouping_recurse_loop_invariant P part evr cands
        _ st hloop (Or.inl ⟨rfl, rfl⟩)
      rw [h.1] at hinv
      rcases hinv with ⟨h0, _⟩ | ⟨h1, h2⟩
      · exact absurd h0 hne
      · exact ⟨_, h1, h2, AcceptedBenefit.positive P hc _ h2⟩

/-- An instance of the amended C5 on the worked pipeline: the grouping of
`f2` is returned by both functions, and its benefit is accepted and
positive. -/
theorem accepted_grouping_benefit_witness :
    Primitives.basic.can_prove_sound ∧
    (∃ b, example_part.estimate_benefit Primitives.basic
        [(⟨"f2", ⟨"g", 0⟩⟩, ⟨[], example_analysis (Expr.IntImm 0)⟩)] false true =
          Except.ok (some b) ∧
      AcceptedBenefit Primitives.basic b ∧ ∀ env : String → Int, 0 < b.eval env) ∧
    (∃ b, example_part.estimate_benefit Primitives.basic
        [(⟨"f2", ⟨"g", 0⟩⟩, ⟨[], example_analysis (Expr.IntImm 0)⟩)] false true =
          Except.ok (some b) ∧
      AcceptedBenefit Primitives.basic b ∧ ∀ env : String → Int, 0 < b.eval env) :=
  ⟨basic_can_prove_sound,
    (accepted_grouping_benefit Primitives.basic basic_can_prove_sound example_part
      [("f1", "g"), ("f2", "g")]).1 example_evaluate_choice Level.FastMem []
      [(⟨"f2", ⟨"g", 0⟩⟩, ⟨[], example_analysis (Expr.IntImm 0)⟩)]
      [(⟨"f1", ⟨"g", 0⟩⟩, ⟨[], example_analysis (Expr.IntImm 0)⟩),
        (⟨"f2", ⟨"g", 0⟩⟩, ⟨[], example_analysis (Expr.IntImm 0)⟩)]
      (by decide) (by simp),
    (accepted_grouping_benefit Primitives.basic basic_can_prove_sound example_part
      [("f1", "g"), ("f2", "g")]).2 example_evaluate_choice_recurse
      [(⟨"f2", ⟨"g", 0⟩⟩, ⟨[], example_analysis (Expr.IntImm 0)⟩)] [[]]
      (by rfl) (by simp)⟩

/-- C6: every pair of a grouping returned by
`choose_candidate_grouping_recurse` has a defined parallelism `p`, and there
is a `q` (the simplified minimum over the new groups) with `q >= parallelism
target` proved and `q <= p`; with sound primitives `p` is at least the target
under every valuation.  The reason: `estimate_benefit` with
`ensure_parallelism` set is undefined when the parallelism of the new
analysis is undefined or not proved to reach the target. -/
theorem fastmem_parallelism (P : Primitives) (hs : P.simplify_sound) (hc : P.can_prove_sound)
    (part : Partitioner) (evr : EvaluateChoiceRecurse) (cands : List (String × String))
    (best : List (GroupingChoice × GroupConfig)) (subgroups : List (List Group))
    (h : part.choose_candidate_grouping_recurse P evr cands = Except.ok (best, subgroups)) :
    (∀ g ∈ best, ∃ p q, g.2.analysis.parallelism = some p ∧
      P.can_prove (Expr.GE q part.arch_params.parallelism) = true ∧
      (∀ v : String → Int, q.eval v ≤ p.eval v) ∧
      ∀ v : String → Int, part.arch_params.parallelism.eval v ≤ p.eval v) ∧
    (∀ (old_grouping new_grouping : GroupAnalysis) (no_redundant_work : Bool),
      (new_grouping.parallelism = none ∨
        ∃ p, new_grouping.parallelism = some p ∧
          P.can_prove (Expr.GE p part.arch_params.parallelism) = false) →
      estimate_benefit P part.arch_params old_grouping new_grouping no_redundant_work true =
        none) := by
  constructor
  · unfold Partitioner.choose_candidate_grouping_recurse at h
    split at h
    · exact absurd h (by simp)
    · next st hloop =>
      simp only [Except.ok.injEq, Prod.mk.injEq] at h
      have hinv := choose_candidate_grouping_recurse_loop_invariant P part evr cands
        _ st hloop (Or.inl ⟨rfl, rfl⟩)
      rw [h.1] at hinv
      rcases hinv with ⟨h0, _⟩ | ⟨h1, _⟩
      · intro g hg
        rw [h0] at hg
        simp at hg
      · exact estimate_benefit_defined_parallelism P hs hc part best false _ h1
  · intro old_grouping new_grouping no_redundant_work hpar
    cases hb : estimate_benefit P part.arch_params old_grouping new_grouping
      no_redundant_work true with
    | none => rfl
    | some b =>
      obtain ⟨q, hq, hprove⟩ := estimate_benefit_parallelism P _ _ _ _ _ hb
      rcases hpar with h1 | ⟨p, h1, h2⟩
      · rw [h1] at hq
        exact absurd hq (by simp)
      · rw [h1] at hq
        have : p = q := Option.some.inj hq
        subst this
        rw [h2] at hprove
        exact absurd hprove (by simp)

/-- An instance of C6 on the worked pipeline, where the target is 16 and
every merged group has parallelism 16. -/
theorem fastmem_parallelism_witness :
    Primitives.basic.simplify_sound ∧ Primitives.basic.can_prove_sound ∧
    example_part.choose_candidate_grouping_recurse Primitives.basic
      example_evaluate_choice_recurse [("f1", "g"), ("f2", "g")] =
      Except.ok ([(⟨"f2", ⟨"g", 0⟩⟩, ⟨[], example_analysis (Expr.IntImm 0)⟩)], [[]]) ∧
    ∀ g ∈ [((⟨"f2", ⟨"g", 0⟩⟩ : GroupingChoice),
        (⟨[], example_analysis (Expr.IntImm 0)⟩ : GroupConfig))],
      ∃ p q, g.2.analysis.parallelism = some p ∧
        Primitives.basic.can_prove (Expr.GE q example_part.arch_params.parallelism) = true ∧
        (∀ v : String → Int, q.eval v ≤ p.eval v) ∧
        ∀ v : String → Int, example_part.arch_params.parallelism.eval v ≤ p.eval v :=
  ⟨basic_simplify_sound, basic_can_prove_sound, by rfl,
    (fastmem_parallelism Primitives.basic basic_simplify_sound basic_can_prove_sound
      example_part example_evaluate_choice_recurse [("f1", "g"), ("f2", "g")] _ [[]]
      (by rfl)).1⟩

/-! ### Ties -/

theorem choose_candidate_grouping_loop_append (P : Primitives) (part : Partitioner)
    (ev : EvaluateChoice) (level : Level) (tile_bounds : TileSizes) :
    ∀ (xs ys : List (String × String)) (st st2 : ChooseState),
      choose_candidate_grouping_loop P part ev level tile_bounds (xs ++ ys) st = Except.ok st2 →
      ∃ st1, choose_candidate_grouping_loop P part ev level tile_bounds xs st = Except.ok st1 ∧
        choose_candidate_grouping_loop P part ev level tile_bounds ys st1 = Except.ok st2 := by
  intro xs
  induction xs with
  | nil => intro ys st st2 h; exact ⟨st, rfl, h⟩
  | cons x rest ih =>
    intro ys st st2 h
    simp only [List.cons_append] at h
    unfold choose_candidate_grouping_loop at h
    split at h
    · exact absurd h (by simp)
    · next st1 hbody =>
      obtain ⟨st3, h1, h2⟩ := ih ys st1 st2 h
      refine ⟨st3, ?_, h2⟩
      simp only [choose_candidate_grouping_loop, hbody]
      exact h1

theorem choose_candidate_grouping_loop_pred (P : Primitives) (part : Partitioner)
    (ev : EvaluateChoice) (level : Level) (tile_bounds : TileSizes)
    (cache0 : List (GroupingChoice × GroupConfig)) (R : Expr → Prop) :
    ∀ (xs : List (String × String)) (st st1 : ChooseState),
      choose_candidate_grouping_loop P part ev level tile_bounds xs st = Except.ok st1 →
      lookup_or_evaluate ev level tile_bounds st.grouping_cache =
        lookup_or_evaluate ev level tile_bounds cache0 →
      R st.best_benefit →
      (∀ p ∈ xs, ∀ g b,
        candidate_benefit P part ev level tile_bounds cache0 p = Except.ok (g, some b) → R b) →
      R st1.best_benefit ∧
        lookup_or_evaluate ev level tile_bounds st1.grouping_cache =
          lookup_or_evaluate ev level tile_bounds cache0 := by
  intro xs
  induction xs with
  | nil =>
    intro st st1 h hc hR _
    simp only [choose_candidate_grouping_loop, Except.ok.injEq] at h
    subst h
    exact ⟨hR, hc⟩
  | cons x rest ih =>
    intro st st1 h hc hR hall
    unfold choose_candidate_grouping_loop at h
    split at h
    · exact absurd h (by simp)
    · next st2 hbody =>
      obtain ⟨hc2, g, b, hcb, hsel⟩ :=
        choose_candidate_grouping_body_spec P part ev level tile_bounds st st2 x hbody
      rw [candidate_benefit_congr P part ev level tile_bounds _ cache0 hc] at hcb
      apply ih st2 st1 h (hc2.trans hc)
      · rcases hsel with ⟨ob, hb, _, _, hbb⟩ | ⟨_, _, hbb⟩
        · subst hb
          rw [hbb]
          exact hall x (by simp) g ob hcb
        · rw [hbb]
          exact hR
      · exact fun p hp => hall p (List.mem_cons_of_mem _ hp)

theorem choose_candidate_grouping_loop_stay (P : Primitives) (part : Partitioner)
    (ev : EvaluateChoice) (level : Level) (tile_bounds : TileSizes)
    (cache0 : List (GroupingChoice × GroupConfig)) :
    ∀ (xs : List (String × String)) (st st1 : ChooseState),
      choose_candidate_grouping_loop P part ev level tile_bounds xs st = Except.ok st1 →
      lookup_or_evaluate ev level tile_bounds st.grouping_cache =
        lookup_or_evaluate ev level tile_bounds cache0 →
      (∀ p ∈ xs, ∀ g b,
        candidate_benefit P part ev level tile_bounds cache0 p = Except.ok (g, some b) →
        P.can_prove (Expr.LT st.best_benefit b) = false) →
      st1.best_grouping = st.best_grouping ∧ st1.best_benefit = st.best_benefit := by
  intro xs
  induction xs with
  | nil =>
    intro st st1 h _ _
    simp only [choose_candidate_grouping_loop, Except.ok.injEq] at h
    subst h
    exact ⟨rfl, rfl⟩
  | cons x rest ih =>
    intro st st1 h hc hall
    unfold choose_candidate_grouping_loop at h
    split at h
    · exact absurd h (by simp)
    · next st2 hbody =>
      obtain ⟨hc2, g, b, hcb, hsel⟩ :=
        choose_candidate_grouping_body_spec P part ev level tile_bounds st st2 x hbody
      rw [candidate_benefit_congr P part ev level tile_bounds _ cache0 hc] at hcb
      have hkeep : st2.best_grouping = st.best_grouping ∧ st2.best_benefit = st.best_benefit := by
        rcases hsel with ⟨ob, hb, hp, _, _⟩ | ⟨_, hg, hbb⟩
        · subst hb
          rw [hall x (by simp) g ob hcb] at hp
          exact absurd hp (by simp)
        · exact ⟨hg, hbb⟩
      have h3 := ih st2 st1 h (hc2.trans hc)
        (fun p hp g b hcb2 => by
          rw [hkeep.2]
          exact hall p (List.mem_cons_of_mem _ hp) g b hcb2)
      exact ⟨h3.1.trans hkeep.1, h3.2.trans hkeep.2⟩

/-- C7, as stated, fails with three candidates `f0`, `f1`, `f2` of benefit
`max(x, 1)`, 7 and 7: the benefits of `f1` and `f2` are defined, proved
positive and proved equal, and the benefit of `f0` is not proved larger; yet
the grouping of `f0` is returned, because `f0` is accepted first and
`max(x, 1) < 7` is not proved (it is false for large `x`). -/
theorem first_of_tied_wins_counterexample :
    Primitives.basic.can_prove_sound ∧
    (example_part_tie (example_max "x")).get_grouping_candidate
      (example_part_tie (example_max "x")).groups (example_part_tie (example_max "x")).outputs
      Level.FastMem = Except.ok [("f0", "g"), ("f1", "g"), ("f2", "g")] ∧
    candidate_benefit Primitives.basic (example_part_tie (example_max "x"))
      example_evaluate_choice Level.FastMem [] [] ("f0", "g") =
      Except.ok (example_grouping "f0", some (example_max "x")) ∧
    candidate_benefit Primitives.basic (example_part_tie (example_max "x"))
      example_evaluate_choice Level.FastMem [] [] ("f1", "g") =
      Except.ok (example_grouping "f1", some (Expr.IntImm 7)) ∧
    candidate_benefit Primitives.basic (example_part_tie (example_max "x"))
      example_evaluate_choice Level.FastMem [] [] ("f2", "g") =
      Except.ok (example_grouping "f2", some (Expr.IntImm 7)) ∧
    Primitives.basic.can_prove (Expr.LT make_zero (Expr.IntImm 7)) = true ∧
    Primitives.basic.can_prove (Expr.EQ (Expr.IntImm 7) (Expr.IntImm 7)) = true ∧
    Primitives.basic.can_prove (Expr.LT (Expr.IntImm 7) (example_max "x")) = false ∧
    Except.map Prod.fst
      ((example_part_tie (example_max "x")).choose_candidate_grouping Primitives.basic
        example_evaluate_choice [("f0", "g"), ("f1", "g"), ("f2", "g")] Level.FastMem []) =
      Except.ok (example_grouping "f0") ∧
    example_grouping "f0" ≠ example_grouping "f1" :=
  ⟨basic_can_prove_sound, by decide, by decide, by decide, by decide, by decide, by decide,
    by decide, by decide, by decide⟩

/-- C7 (amended): let two candidates have defined benefits that are proved
equal, the first of them proved positive; let every candidate before the
first of the two have an undefined benefit or one proved smaller, and let no
other candidate after it have a benefit proved larger.  Then
`choose_candidate_grouping` returns the grouping of the first of the two.  In
every turn of the loop the best grouping is replaced only by a candidate whose
benefit is defined and proved strictly greater than the best so far. -/
theorem first_of_tied_wins (P : Primitives) (hc : P.can_prove_sound) (part : Partitioner)
    (ev : EvaluateChoice) (level : Level) (tile_bounds : TileSizes)
    (pre mid post : List (String × String)) (ci cj : String × String)
    (gi gj best cache : List (GroupingChoice × GroupConfig)) (bi bj : Expr)
    (hrun : part.choose_candidate_grouping P ev (pre ++ ci :: (mid ++ cj :: post)) level
      tile_bounds = Except.ok (best, cache))
    (hi : candidate_benefit P part ev level tile_bounds part.grouping_cache ci =
      Except.ok (gi, some bi))
    (hj : candidate_benefit P part ev level tile_bounds part.grouping_cache cj =
      Except.ok (gj, some bj))
    (hpos : P.can_prove (Expr.LT make_zero bi) = true)
    (heq : P.can_prove (Expr.EQ bi bj) = true)
    (hpre : ∀ p ∈ pre, ∀ g b,
      candidate_benefit P part ev level tile_bounds part.grouping_cache p =
        Except.ok (g, some b) → P.can_prove (Expr.LT b bi) = true)
    (hpost : ∀ p ∈ mid ++ post, ∀ g b,
      candidate_benefit P part ev level tile_bounds part.grouping_cache p =
        Except.ok (g, some b) → P.can_prove (Expr.LT bi b) = false) :
    best = gi ∧
    ∀ (st st1 : ChooseState) (p : String × String),
      choose_candidate_grouping_body P part ev level tile_bounds st p = Except.ok st1 →
      (st1.best_grouping = st.best_grouping ∧ st1.best_benefit = st.best_benefit) ∨
      ∃ g b, candidate_benefit P part ev level tile_bounds st.grouping_cache p =
          Except.ok (g, some b) ∧
        P.can_prove (Expr.LT st.best_benefit b) = true ∧
        st1.best_grouping = g ∧ st1.best_benefit = b := by
  constructor
  · unfold Partitioner.choose_candidate_grouping at hrun
    split at hrun
    · exact absurd hrun (by simp)
    · next st3 hloop =>
      simp only [Except.ok.injEq, Prod.mk.injEq] at hrun
      obtain ⟨st1, hl1, hl2⟩ := choose_candidate_grouping_loop_append P part ev level
        tile_bounds pre _ _ _ hloop
      obtain ⟨hR, hc1⟩ := choose_candidate_grouping_loop_pred P part ev level tile_bounds
        part.grouping_cache (fun b => P.can_prove (Expr.LT b bi) = true) pre _ st1 hl1 rfl
        hpos hpre
      unfold choose_candidate_grouping_loop at hl2
      split at hl2
      · exact absurd hl2 (by simp)
      · next st2 hbody =>
        obtain ⟨hc2, g, b, hcb, hsel⟩ :=
          choose_candidate_grouping_body_spec P part ev level tile_bounds st1 st2 ci hbody
        rw [candidate_benefit_congr P part ev level tile_bounds _ part.grouping_cache hc1,
          hi] at hcb
        simp only [Except.ok.injEq, Prod.mk.injEq] at hcb
        have hst2 : st2.best_grouping = gi ∧ st2.best_benefit = bi := by
          rcases hsel with ⟨ob, hb, _, hg, hbb⟩ | ⟨hno, _, _⟩
          · rw [← hcb.2] at hb
            rw [hg, hbb, ← hcb.1, Option.some.inj hb]
            exact ⟨rfl, rfl⟩
          · rcases hno with hn | ⟨ob, hb, hp⟩
            · rw [← hcb.2] at hn
              exact absurd hn (by simp)
            · rw [← hcb.2] at hb
              rw [← Option.some.inj hb, hR] at hp
              exact absurd hp (by simp)
        have hnotlt : P.can_prove (Expr.LT bi bj) = false := by
          cases hlt : P.can_prove (Expr.LT bi bj) with
          | false => rfl
          | true =>
            exfalso
            have h1 := hc _ hlt (fun _ => 0)
            have h2 := hc _ heq (fun _ => 0)
            simp only [Expr.eval] at h1 h2
            by_cases h3 : bi.eval (fun _ => 0) = bj.eval (fun _ => 0)
            · rw [h3] at h1
              simp at h1
            · simp [h3] at h2
        have hstay := choose_candidate_grouping_loop_stay P part ev level tile_bounds
          part.grouping_cache _ st2 st3 hl2 (hc2.trans hc1)
          (fun p hp g b hcb2 => by
            rw [hst2.2]
            rcases List.mem_append.mp hp with h1 | h1
            · exact hpost p (List.mem_append.mpr (Or.inl h1)) g b hcb2
            · rcases List.mem_cons.mp h1 with h2 | h2
              · subst h2
                rw [hj] at hcb2
                simp only [Except.ok.injEq, Prod.mk.injEq, Option.some.injEq] at hcb2
                rw [← hcb2.2]
                exact hnotlt
              · exact hpost p (List.mem_append.mpr (Or.inr h2)) g b hcb2)
        rw [← hrun.1, hstay.1, hst2.1]
  · intro st st1 p hbody
    obtain ⟨_, g, b, hcb, hsel⟩ :=
      choose_candidate_grouping_body_spec P part ev level tile_bounds st st1 p hbody
    rcases hsel with ⟨ob, hb, hp, hg, hbb⟩ | ⟨_, hg, hbb⟩
    · subst hb
      exact Or.inr ⟨g, ob, hcb, hp, hg, hbb⟩
    · exact Or.inl ⟨hg, hbb⟩

/-- An instance of the amended C7: the candidates `f0`, `f1`, `f2` have
benefit 3, 7 and 7, and the grouping of `f1` is returned. -/
theorem first_of_tied_wins_witness :
    Primitives.basic.can_prove_sound ∧
    (example_part_tie (Expr.IntImm 3)).choose_candidate_grouping Primitives.basic
      example_evaluate_choice ([("f0", "g")] ++ ("f1", "g") :: ([] ++ ("f2", "g") :: []))
      Level.FastMem [] =
      Except.ok (example_grouping "f1",
        example_grouping "f0" ++ example_grouping "f1" ++ example_grouping "f2") ∧
    candidate_benefit Primitives.basic (example_part_tie (Expr.IntImm 3))
      example_evaluate_choice Level.FastMem [] [] ("f0", "g") =
      Except.ok (example_grouping "f0", some (Expr.IntImm 3)) ∧
    example_grouping "f1" = example_grouping "f1" :=
  ⟨basic_can_prove_sound, by decide, by decide,
    (first_of_tied_wins Primitives.basic basic_can_prove_sound
      (example_part_tie (Expr.IntImm 3)) example_evaluate_choice Level.FastMem []
      [("f0", "g")] [] [] ("f1", "g") ("f2", "g") (example_grouping "f1")
      (example_grouping "f2") (example_grouping "f1")
      (example_grouping "f0" ++ example_grouping "f1" ++ example_grouping "f2")
      (Expr.IntImm 7) (Expr.IntImm 7) (by decide) (by decide) (by decide) (by decide)
      (by decide)
      (fun p hp g b hcb => by
        simp only [List.mem_singleton] at hp
        subst hp
        have h3 : candidate_benefit Primitives.basic (example_part_tie (Expr.IntImm 3))
            example_evaluate_choice Level.FastMem []
            (example_part_tie (Expr.IntImm 3)).grouping_cache ("f0", "g") =
            Except.ok (example_grouping "f0", some (Expr.IntImm 3)) := by decide
        rw [h3] at hcb
        simp only [Except.ok.injEq, Prod.mk.injEq, Option.some.injEq] at hcb
        rw [← hcb.2]
        decide)
      (fun p hp => by simp at hp)).1⟩

/-! ### Candidates -/

theorem env_find_name : ∀ (env : List Function) (n : String) (f : Function),
    env_find env n = some f → f.name = n := by
  intro env
  induction env with
  | nil => intro n f h; simp [env_find] at h
  | cons g rest ih =>
    intro n f h
    unfold env_find at h
    split at h
    · next hn =>
      simp only [Option.some.injEq] at h
      rw [← h]
      exact hn
    · exact ih n f h

theorem env_get_ok (env : List Function) (n : String) (f : Function) :
    env_get env n = Except.ok f ↔ env_find env n = some f := by
  unfold env_get
  cases env_find env n <;> simp

theorem get_element_ok {κ ν : Type} [DecidableEq κ] (m : List (κ × ν)) (k : κ) (v : ν) :
    get_element m k = Except.ok v ↔ map_find m k = some v := by
  unfold get_element
  cases map_find m k <;> simp

theorem get_grouping_candidate_cons (part : Partitioner) (g : FStage × Group)
    (rest : List (FStage × Group)) (outputs : List Function) (level : Level) :
    part.get_grouping_candidate (g :: rest) outputs level =
      match grouping_candidate_of part outputs level g.1 with
      | Except.error e => Except.error e
      | Except.ok none => part.get_grouping_candidate rest outputs level
      | Except.ok (some x) =>
        Except.map (fun cand => x :: cand) (part.get_grouping_candidate rest outputs level) := by
  rw [Partitioner.get_grouping_candidate]
  unfold grouping_candidate_of
  cases env_get part.env g.1.func with
  | error e => rfl
  | ok prod_f =>
    simp only []
    split
    · rfl
    · cases map_find part.children g.1 with
      | none => rfl
      | some cs =>
        simp only []
        split
        · rfl
        · split <;> rfl

theorem get_grouping_candidate_mem (part : Partitioner) (outputs : List Function)
    (level : Level) :
    ∀ (groups : List (FStage × Group)) (cand : List (String × String)),
      part.get_grouping_candidate groups outputs level = Except.ok cand →
      ∀ pc, pc ∈ cand ↔
        ∃ e ∈ groups, grouping_candidate_of part outputs level e.1 = Except.ok (some pc) := by
  intro groups
  induction groups with
  | nil =>
    intro cand h pc
    simp only [Partitioner.get_grouping_candidate, Except.ok.injEq] at h
    subst h
    simp
  | cons g rest ih =>
    intro cand h pc
    rw [get_grouping_candidate_cons] at h
    cases hb : grouping_candidate_of part outputs level g.1 with
    | error e => rw [hb] at h; exact absurd h (by simp)
    | ok o =>
      rw [hb] at h
      cases o with
      | none =>
        simp only [] at h
        rw [ih cand h pc]
        constructor
        · rintro ⟨e, he, hc⟩
          exact ⟨e, List.mem_cons_of_mem _ he, hc⟩
        · rintro ⟨e, he, hc⟩
          rcases List.mem_cons.mp he with h1 | h1
          · subst h1
            rw [hb] at hc
            exact absurd hc (by simp)
          · exact ⟨e, h1, hc⟩
      | some x =>
        simp only [] at h
        cases hrec : part.get_grouping_candidate rest outputs level with
        | error e => rw [hrec] at h; exact absurd h (by simp [Except.map])
        | ok cand1 =>
          rw [hrec] at h
          simp only [Except.map, Except.ok.injEq] at h
          subst h
          rw [List.mem_cons, ih cand1 hrec pc]
          constructor
          · rintro (h1 | ⟨e, he, hc⟩)
            · subst h1
              exact ⟨g, by simp, hb⟩
            · exact ⟨e, List.mem_cons_of_mem _ he, hc⟩
          · rintro ⟨e, he, hc⟩
            rcases List.mem_cons.mp he with h1 | h1
            · subst h1
              rw [hb] at hc
              simp only [Except.ok.injEq, Option.some.injEq] at hc
              exact Or.inl hc.symm
            · exact Or.inr ⟨e, h1, hc⟩

theorem grouping_candidate_of_spec (part : Partitioner) (outputs : List Function)
    (level : Level) (k : FStage) (pc : String × String) :
    grouping_candidate_of part outputs level k = Except.ok (some pc) ↔
      ∃ prod_f cs, env_find part.env k.func = some prod_f ∧
        outputs.any (fun f => k.func == f.name) = false ∧
        k.stage_num = prod_f.updates ∧ map_find part.children k = some cs ∧
        ((level = Level.FastMem ∧ (child_group_names cs).length = 1 ∧
            pc = (prod_f.name, (child_group_names cs).headD "")) ∨
          (level = Level.Inline ∧ prod_f.is_pure = true ∧ pc = (prod_f.name, ""))) := by
  unfold grouping_candidate_of
  cases henv : env_get part.env k.func with
  | error e =>
    simp only []
    constructor
    · intro h; exact absurd h (by simp)
    · rintro ⟨prod_f, cs, hf, _⟩
      rw [(env_get_ok _ _ _).mpr hf] at henv
      exact absurd henv (by simp)
  | ok prod_f =>
    have hf := (env_get_ok _ _ _).mp henv
    simp only []
    split
    · next hskip =>
      constructor
      · intro h; exact absurd h (by simp)
      · rintro ⟨f1, cs, hf1, hout, hfin, _⟩
        rw [hf] at hf1
        have : prod_f = f1 := Option.some.inj hf1
        subst this
        simp [hout, hfin] at hskip
    · next hskip =>
      have hout : outputs.any (fun f => k.func == f.name) = false := by
        cases h : outputs.any (fun f => k.func == f.name) with
        | false => rfl
        | true => simp [h] at hskip
      have hfin : k.stage_num = prod_f.updates := by
        by_contra hne
        simp [hne] at hskip
      cases hch : map_find part.children k with
      | none =>
        simp only []
        constructor
        · intro h; exact absurd h (by simp)
        · rintro ⟨_, cs, _, _, _, hcs, _⟩
          exact absurd hcs (by simp)
      | some cs =>
        simp only []
        cases level with
        | FastMem =>
          constructor
          · intro h
            by_cases hone : (child_group_names cs).length = 1
            · have h1 : (prod_f.name, (child_group_names cs).headD "") = pc := by
                simpa [hone] using h
              exact ⟨prod_f, cs, hf, hout, hfin, rfl, Or.inl ⟨rfl, hone, h1.symm⟩⟩
            · simp [hone] at h
          · rintro ⟨f1, cs1, hf1, _, _, hcs1, hcase⟩
            rw [hf] at hf1
            have h1 : prod_f = f1 := Option.some.inj hf1
            have h2 : cs = cs1 := Option.some.inj hcs1
            subst h1 h2
            rcases hcase with ⟨_, hl, hpc⟩ | ⟨hl, _⟩
            · simp [hl, hpc]
            · exact absurd hl (by simp)
        | Inline =>
          constructor
          · intro h
            by_cases hpure : prod_f.is_pure = true
            · have h1 : (prod_f.name, "") = pc := by
                simpa [hpure] using h
              exact ⟨prod_f, cs, hf, hout, hfin, rfl, Or.inr ⟨rfl, hpure, h1.symm⟩⟩
            · simp [hpure] at h
          · rintro ⟨f1, cs1, hf1, _, _, _, hcase⟩
            rw [hf] at hf1
            have h1 : prod_f = f1 := Option.some.inj hf1
            subst h1
            rcases hcase with ⟨hl, _⟩ | ⟨_, hp, hpc⟩
            · exact absurd hl (by simp)
            · simp [hp, hpc]

theorem chars_lt_irrefl : ∀ a : List Char, chars_lt a a = false := by
  intro a
  induction a with
  | nil => rfl
  | cons x xs ih => simp [chars_lt, ih]

theorem chars_lt_trans : ∀ a b c : List Char,
    chars_lt a b = true → chars_lt b c = true → chars_lt a c = true := by
  intro a
  induction a with
  | nil =>
    intro b c h1 h2
    cases b with
    | nil => simp [chars_lt] at h1
    | cons y ys =>
      cases c with
      | nil => simp [chars_lt] at h2
      | cons z zs => simp [chars_lt]
  | cons x xs ih =>
    intro b c h1 h2
    cases b with
    | nil => simp [chars_lt] at h1
    | cons y ys =>
      cases c with
      | nil => simp [chars_lt] at h2
      | cons z zs =>
        simp only [chars_lt, Bool.or_eq_true, Bool.and_eq_true, decide_eq_true_eq,
          beq_iff_eq] at h1 h2 ⊢
        rcases h1 with h1 | ⟨h1, h1r⟩
        · rcases h2 with h2 | ⟨h2, _⟩
          · exact Or.inl (by omega)
          · exact Or.inl (by omega)
        · rcases h2 with h2 | ⟨h2, h2r⟩
          · exact Or.inl (by omega)
          · exact Or.inr ⟨by omega, ih ys zs h1r h2r⟩

theorem set_insert_pairwise {α : Type} (lt : α → α → Bool)
    (htrans : ∀ a b c : α, lt a b = true → lt b c = true → lt a c = true) (x : α) :
    ∀ s : List α, s.Pairwise (fun a b => lt a b = true) →
      (set_insert lt x s).Pairwise (fun a b => lt a b = true) := by
  intro s
  induction s with
  | nil => intro _; simp [set_insert]
  | cons y ys ih =>
    intro hs
    have hy := List.pairwise_cons.mp hs
    unfold set_insert
    split
    · next hxy =>
      refine List.pairwise_cons.mpr ⟨?_, hs⟩
      intro z hz
      rcases List.mem_cons.mp hz with h1 | h1
      · rw [h1]; exact hxy
      · exact htrans _ _ _ hxy (hy.1 z h1)
    · split
      · next _ hyx =>
        refine List.pairwise_cons.mpr ⟨?_, ih hy.2⟩
        intro z hz
        rcases mem_of_mem_set_insert lt x z ys hz with h1 | h1
        · rw [h1]; exact hyx
        · exact hy.1 z h1
      · exact hs

theorem foldl_set_insert_pairwise {α β : Type} (lt : α → α → Bool)
    (htrans : ∀ a b c : α, lt a b = true → lt b c = true → lt a c = true) (f : β → α) :
    ∀ (xs : List β) (s : List α), s.Pairwise (fun a b => lt a b = true) →
      (xs.foldl (fun acc x => set_insert lt (f x) acc) s).Pairwise
        (fun a b => lt a b = true) := by
  intro xs
  induction xs with
  | nil => intro s hs; simpa using hs
  | cons x rest ih =>
    intro s hs
    simp only [List.foldl_cons]
    exact ih _ (set_insert_pairwise lt htrans _ _ hs)

theorem child_group_names_nodup (cs : List FStage) : (child_group_names cs).Nodup := by
  have h := foldl_set_insert_pairwise string_lt
    (fun a b c h1 h2 => chars_lt_trans _ _ _ h1 h2) (fun s : FStage => s.func) cs []
    List.Pairwise.nil
  unfold child_group_names
  refine List.Pairwise.imp ?_ h
  intro a b hab heq
  subst heq
  rw [string_lt, chars_lt_irrefl] at hab
  exact absurd hab (by simp)

theorem mem_child_group_names (cs : List FStage) (x : String) :
    x ∈ child_group_names cs ↔ x ∈ cs.map FStage.func := by
  unfold child_group_names
  constructor
  · intro h
    rcases mem_of_mem_foldl_set_insert string_lt (fun s : FStage => s.func) x cs [] h
      with h1 | ⟨s, hs, hx⟩
    · simp at h1
    · exact List.mem_map.mpr ⟨s, hs, hx.symm⟩
  · intro h
    obtain ⟨s, hs, hx⟩ := List.mem_map.mp h
    rw [← hx]
    exact mem_foldl_set_insert string_lt string_lt_trichotomy (fun s : FStage => s.func) cs []
      s hs

theorem child_group_names_single (cs : List FStage) (c : String) :
    ((child_group_names cs).length = 1 ∧ (child_group_names cs).headD "" = c) ↔
      (cs.map FStage.func).toFinset = {c} := by
  have hnd := child_group_names_nodup cs
  have hmem := mem_child_group_names cs
  constructor
  · rintro ⟨hlen, hhead⟩
    have hl : child_group_names cs = [c] := by
      match hm : child_group_names cs, hlen, hhead with
      | [y], _, hh => simp at hh; rw [hh]
    ext x
    rw [List.mem_toFinset, ← hmem, hl]
    simp
  · intro h
    have hx : ∀ x, x ∈ child_group_names cs ↔ x = c := by
      intro x
      rw [hmem, ← List.mem_toFinset, h]
      simp
    match hm : child_group_names cs with
    | [] =>
      have := (hx c).mpr rfl
      rw [hm] at this
      simp at this
    | [y] =>
      have := (hx y).mp (by rw [hm]; simp)
      simp [this]
    | y :: z :: rest =>
      exfalso
      have h1 := (hx y).mp (by rw [hm]; simp)
      have h2 := (hx z).mp (by rw [hm]; simp)
      rw [hm] at hnd
      have := (List.nodup_cons.mp hnd).1
      apply this
      rw [h1, h2]
      simp

theorem FStage_eq (a b : FStage) (h1 : a.func = b.func) (h2 : a.stage_num = b.stage_num) :
    a = b := by
  cases a
  cases b
  simp_all

theorem outputs_any_false (outputs : List Function) (n : String) :
    outputs.any (fun f => n == f.name) = false ↔ ∀ f ∈ outputs, f.name ≠ n := by
  rw [List.any_eq_false]
  constructor
  · intro h f hf heq
    exact h f hf (by simp [heq])
  · intro h f hf
    have := h f hf
    simp only [beq_iff_eq]
    exact fun h2 => this h2.symm

theorem map_find_mem {κ ν : Type} [DecidableEq κ] :
    ∀ (m : List (κ × ν)) (k : κ) (v : ν), map_find m k = some v → (k, v) ∈ m := by
  intro m
  induction m with
  | nil => intro k v h; simp [map_find] at h
  | cons e rest ih =>
    intro k v h
    obtain ⟨k1, v1⟩ := e
    unfold map_find at h
    split at h
    · next hk =>
      simp only [Option.some.injEq] at h
      subst hk h
      simp
    · exact List.mem_cons_of_mem _ (ih k v h)

/-- C9: at `FastMem` level a pair `(p, c)` is emitted exactly when `p` is the
function of a group key that is not an output, is the final stage of `p`, has
an entry in `children`, and the set of function names of its children is the
singleton of `c`; a producer whose children belong to two or more functions
yields no candidate. -/
theorem fastmem_single_consumer (part : Partitioner) (groups : List (FStage × Group))
    (outputs : List Function) (cand : List (String × String))
    (h : part.get_grouping_candidate groups outputs Level.FastMem = Except.ok cand) :
    (∀ pc : String × String, pc ∈ cand ↔
      ∃ e ∈ groups, ∃ prod_f cs, env_find part.env e.1.func = some prod_f ∧
        (∀ f ∈ outputs, f.name ≠ e.1.func) ∧ e.1.stage_num = prod_f.updates ∧
        map_find part.children e.1 = some cs ∧ pc.1 = e.1.func ∧
        (cs.map FStage.func).toFinset = {pc.2}) ∧
    (∀ e ∈ groups, ∀ prod_f cs, env_find part.env e.1.func = some prod_f →
      e.1.stage_num = prod_f.updates → map_find part.children e.1 = some cs →
      2 ≤ (cs.map FStage.func).toFinset.card → ∀ c, (e.1.func, c) ∉ cand) := by
  have hiff : ∀ pc : String × String, pc ∈ cand ↔
      ∃ e ∈ groups, ∃ prod_f cs, env_find part.env e.1.func = some prod_f ∧
        (∀ f ∈ outputs, f.name ≠ e.1.func) ∧ e.1.stage_num = prod_f.updates ∧
        map_find part.children e.1 = some cs ∧ pc.1 = e.1.func ∧
        (cs.map FStage.func).toFinset = {pc.2} := by
    intro pc
    rw [get_grouping_candidate_mem part outputs Level.FastMem groups cand h pc]
    constructor
    · rintro ⟨e, he, hc⟩
      obtain ⟨prod_f, cs, hf, hout, hfin, hcs, hcase⟩ :=
        (grouping_candidate_of_spec part outputs Level.FastMem e.1 pc).mp hc
      rcases hcase with ⟨_, hlen, hpc⟩ | ⟨hl, _⟩
      · refine ⟨e, he, prod_f, cs, hf, (outputs_any_false _ _).mp hout, hfin, hcs, ?_, ?_⟩
        · rw [hpc]
          exact env_find_name _ _ _ hf
        · rw [hpc]
          exact (child_group_names_single cs _).mp ⟨hlen, rfl⟩
      · exact absurd hl (by simp)
    · rintro ⟨e, he, prod_f, cs, hf, hout, hfin, hcs, hp1, hset⟩
      refine ⟨e, he, ?_⟩
      obtain ⟨hlen, hhead⟩ := (child_group_names_single cs pc.2).mpr hset
      refine (grouping_candidate_of_spec part outputs Level.FastMem e.1 pc).mpr
        ⟨prod_f, cs, hf, (outputs_any_false _ _).mpr hout, hfin, hcs,
          Or.inl ⟨rfl, hlen, ?_⟩⟩
      rw [hhead, env_find_name _ _ _ hf, ← hp1]
  refine ⟨hiff, ?_⟩
  intro e _ prod_f cs hf hfin hcs hcard c hmem
  obtain ⟨e1, _, f1, cs1, hf1, _, hfin1, hcs1, hp1, hset⟩ := (hiff (e.1.func, c)).mp hmem
  simp only [] at hp1 hset
  rw [← hp1, hf] at hf1
  have h1 : prod_f = f1 := Option.some.inj hf1
  subst h1
  have hkey : e1.1 = e.1 := FStage_eq _ _ hp1.symm (hfin1.trans hfin.symm)
  rw [hkey, hcs] at hcs1
  have h4 : cs = cs1 := Option.some.inj hcs1
  subst h4
  rw [hset] at hcard
  simp at hcard

/-- An instance of C9 on the worked pipeline: `f1` and `f2` each have the
single consumer `g`. -/
theorem fastmem_single_consumer_witness :
    example_part.get_grouping_candidate example_part.groups example_part.outputs
      Level.FastMem = Except.ok [("f1", "g"), ("f2", "g")] ∧
    ((("f1", "g") : String × String) ∈ [(("f1", "g") : String × String), ("f2", "g")] ↔
      ∃ e ∈ example_part.groups, ∃ prod_f cs,
        env_find example_part.env e.1.func = some prod_f ∧
        (∀ f ∈ example_part.outputs, f.name ≠ e.1.func) ∧ e.1.stage_num = prod_f.updates ∧
        map_find example_part.children e.1 = some cs ∧
        (("f1", "g") : String × String).1 = e.1.func ∧
        (cs.map FStage.func).toFinset = {(("f1", "g") : String × String).2}) :=
  ⟨by decide,
    (fastmem_single_consumer example_part example_part.groups example_part.outputs
      [("f1", "g"), ("f2", "g")] (by decide)).1 ("f1", "g")⟩

/-! ### Merging keeps the groups of the outputs -/

theorem map_find_assign_ne_none {κ ν : Type} [DecidableEq κ] (lt : κ → κ → Bool) (k k2 : κ)
    (v : ν) :
    ∀ m : List (κ × ν), map_find m k ≠ none → map_find (map_assign lt k2 v m) k ≠ none := by
  intro m
  induction m with
  | nil => intro h; simp [map_find] at h
  | cons e rest ih =>
    intro h
    obtain ⟨k1, v1⟩ := e
    unfold map_assign
    split
    · by_cases hk : k2 = k
      · simp [map_find, hk]
      · simpa [map_find, hk] using h
    · split
      · by_cases hk : k1 = k
        · simp [map_find, hk]
        · simp only [map_find, hk, if_false] at h ⊢
          exact ih h
      · by_cases hk : k1 = k
        · simp [map_find, hk]
        · simpa [map_find, hk] using h

theorem map_find_erase_ne {κ ν : Type} [DecidableEq κ] (k k2 : κ) (hne : k ≠ k2) :
    ∀ m : List (κ × ν), map_find (map_erase m k2) k = map_find m k := by
  intro m
  induction m with
  | nil => rfl
  | cons e rest ih =>
    obtain ⟨k1, v1⟩ := e
    unfold map_erase at ih ⊢
    by_cases hk : k1 = k2
    · have hk1 : k1 ≠ k := fun h => hne (h.symm.trans hk)
      simp only [List.filter_cons, hk, decide_True, Bool.not_true, Bool.false_eq_true, if_false]
      rw [ih]
      rw [← hk]
      simp [map_find, hk1]
    · simp only [List.filter_cons, hk, decide_False, Bool.not_false, if_true]
      by_cases hk1 : k1 = k
      · simp [map_find, hk1]
      · simp only [map_find, hk1, if_false]
        exact ih

theorem merge_groups_keeps (part part1 : Partitioner) (choice : GroupingChoice)
    (eval : GroupConfig) (level : Level)
    (h : part.merge_groups choice eval level = Except.ok part1) :
    part1.env = part.env ∧ part1.outputs = part.outputs ∧ part1.children = part.children ∧
    ∀ k, map_find part.groups k ≠ none → map_find part1.groups k ≠ none := by
  unfold Partitioner.merge_groups at h
  split at h
  · exact absurd h (by simp)
  · simp only [] at h
    split at h
    · exact absurd h (by simp)
    · split at h
      · exact absurd h (by simp)
      · simp only [Except.ok.injEq] at h
        subst h
        exact ⟨rfl, rfl, rfl, fun k hk => map_find_assign_ne_none _ _ _ _ _ hk⟩

theorem merge_best_keeps (prod : String) (level : Level) :
    ∀ (best : List (GroupingChoice × GroupConfig)) (part part1 : Partitioner),
      merge_best prod level best part = Except.ok part1 →
      part1.env = part.env ∧ part1.outputs = part.outputs ∧ part1.children = part.children ∧
      ∀ k, map_find part.groups k ≠ none → map_find part1.groups k ≠ none := by
  intro best
  induction best with
  | nil =>
    intro part part1 h
    simp only [merge_best, Except.ok.injEq] at h
    subst h
    exact ⟨rfl, rfl, rfl, fun _ hk => hk⟩
  | cons g rest ih =>
    intro part part1 h
    unfold merge_best at h
    split at h
    · split at h
      · exact absurd h (by simp)
      · next part2 hm =>
        obtain ⟨h1, h2, h3, h4⟩ := merge_groups_keeps _ _ _ _ _ hm
        obtain ⟨h5, h6, h7, h8⟩ := ih part2 part1 h
        exact ⟨h5.trans h1, h6.trans h2, h7.trans h3, fun k hk => h8 k (h4 k hk)⟩
    · exact absurd h (by simp)

theorem merge_best_recurse_keeps (prod : String) :
    ∀ (best : List (GroupingChoice × GroupConfig)) (subs : List (List Group))
      (part part1 : Partitioner),
      merge_best_recurse prod best subs part = Except.ok part1 →
      part1.env = part.env ∧ part1.outputs = part.outputs ∧ part1.children = part.children ∧
      ∀ k, map_find part.groups k ≠ none → map_find part1.groups k ≠ none := by
  intro best
  induction best with
  | nil =>
    intro subs part part1 h
    simp only [merge_best_recurse, Except.ok.injEq] at h
    subst h
    exact ⟨rfl, rfl, rfl, fun _ hk => hk⟩
  | cons g rest ih =>
    intro subs part part1 h
    cases subs with
    | nil => simp [merge_best_recurse] at h
    | cons sub subs1 =>
      unfold merge_best_recurse at h
      split at h
      · split at h
        · exact absurd h (by simp)
        · next part2 hm =>
          obtain ⟨h1, h2, h3, h4⟩ := merge_groups_keeps _ _ _ _ _ hm
          split at h
          · exact absurd h (by simp)
          · obtain ⟨h5, h6, h7, h8⟩ := ih subs1 _ part1 h
            exact ⟨h5.trans h1, h6.trans h2, h7.trans h3,
              fun k hk => h8 k (map_find_assign_ne_none _ _ _ _ _ (h4 k hk))⟩
      · exact absurd h (by simp)

theorem erase_producer_stages_keeps (prod_f : Function) (prod_group_children : List FStage) :
    ∀ (stages : List Nat) (part : Partitioner),
      (erase_producer_stages prod_f prod_group_children stages part).env = part.env ∧
      (erase_producer_stages prod_f prod_group_children stages part).outputs = part.outputs ∧
      ∀ k : FStage, k.func ≠ prod_f.name →
        map_find (erase_producer_stages prod_f prod_group_children stages part).groups k =
          map_find part.groups k := by
  intro stages
  induction stages with
  | nil => intro part; exact ⟨rfl, rfl, fun _ _ => rfl⟩
  | cons s rest ih =>
    intro part
    unfold erase_producer_stages
    obtain ⟨h1, h2, h3⟩ := ih { part with
      groups := map_erase part.groups (⟨prod_f.name, s⟩ : FStage)
      group_costs := map_erase part.group_costs (⟨prod_f.name, s⟩ : FStage)
      children := rewire_children part.children ⟨prod_f.name, s⟩ prod_group_children }
    refine ⟨h1, h2, ?_⟩
    intro k hk
    rw [h3 k hk]
    exact map_find_erase_ne k _ (fun heq => hk (by rw [heq])) _

theorem candidate_grouping_prod (ev : EvaluateChoice) (level : Level) (tile_bounds : TileSizes)
    (cache : List (GroupingChoice × GroupConfig)) (prod : String) :
    ∀ (cs : List FStage) (g : List (GroupingChoice × GroupConfig)),
      candidate_grouping ev level tile_bounds cache prod cs = Except.ok g →
      ∀ x ∈ g, x.1.prod = prod := by
  intro cs
  induction cs with
  | nil =>
    intro g h
    simp only [candidate_grouping, Except.ok.injEq] at h
    subst h
    simp
  | cons c rest ih =>
    intro g h
    unfold candidate_grouping at h
    split at h
    · exact absurd h (by simp)
    · split at h
      · exact absurd h (by simp)
      · next g1 hg1 =>
        simp only [Except.ok.injEq] at h
        subst h
        intro x hx
        rcases List.mem_cons.mp hx with h1 | h1
        · rw [h1]
        · exact ih g1 hg1 x h1

theorem candidate_benefit_prod (P : Primitives) (part : Partitioner) (ev : EvaluateChoice)
    (level : Level) (tile_bounds : TileSizes) (cache : List (GroupingChoice × GroupConfig))
    (p : String × String) (g : List (GroupingChoice × GroupConfig)) (b : Option Expr)
    (h : candidate_benefit P part ev level tile_bounds cache p = Except.ok (g, b)) :
    ∀ x ∈ g, x.1.prod = p.1 := by
  unfold candidate_benefit at h
  split at h
  · exact absurd h (by simp)
  · next prod_f hf =>
    have hname := env_find_name _ _ _ ((env_get_ok _ _ _).mp hf)
    split at h
    · exact absurd h (by simp)
    · split at h
      · exact absurd h (by simp)
      · next grouping hg =>
        split at h
        · exact absurd h (by simp)
        · simp only [Except.ok.injEq, Prod.mk.injEq] at h
          rw [← h.1, ← hname]
          exact candidate_grouping_prod ev level tile_bounds cache _ _ _ hg

theorem choose_candidate_grouping_loop_prod (P : Primitives) (part : Partitioner)
    (ev : EvaluateChoice) (level : Level) (tile_bounds : TileSizes)
    (R : String → Prop) :
    ∀ (cands : List (String × String)) (st st1 : ChooseState),
      choose_candidate_grouping_loop P part ev level tile_bounds cands st = Except.ok st1 →
      (∀ p ∈ cands, R p.1) →
      (∀ x ∈ st.best_grouping, R x.1.prod) →
      ∀ x ∈ st1.best_grouping, R x.1.prod := by
  intro cands
  induction cands with
  | nil =>
    intro st st1 h _ hst
    simp only [choose_candidate_grouping_loop, Except.ok.injEq] at h
    subst h
    exact hst
  | cons p rest ih =>
    intro st st1 h hall hst
    unfold choose_candidate_grouping_loop at h
    split at h
    · exact absurd h (by simp)
    · next st2 hbody =>
      apply ih st2 st1 h (fun q hq => hall q (List.mem_cons_of_mem _ hq))
      obtain ⟨_, g, b, hcb, hsel⟩ :=
        choose_candidate_grouping_body_spec P part ev level tile_bounds st st2 p hbody
      rcases hsel with ⟨_, _, _, hg, _⟩ | ⟨_, hg, _⟩
      · rw [hg]
        intro x hx
        rw [candidate_benefit_prod P part ev level tile_bounds _ p g b hcb x hx]
        exact hall p (by simp)
      · rw [hg]
        exact hst

theorem choose_candidate_grouping_recurse_children_prod (evr : EvaluateChoiceRecurse)
    (prod : String) :
    ∀ (cs : List FStage) (g : List (GroupingChoice × GroupConfig)) (subs : List (List Group)),
      choose_candidate_grouping_recurse_children evr prod cs = Except.ok (g, subs) →
      ∀ x ∈ g, x.1.prod = prod := by
  intro cs
  induction cs with
  | nil =>
    intro g subs h
    simp only [choose_candidate_grouping_recurse_children, Except.ok.injEq,
      Prod.mk.injEq] at h
    rw [← h.1]
    simp
  | cons c rest ih =>
    intro g subs h
    unfold choose_candidate_grouping_recurse_children at h
    simp only [] at h
    cases hev : evr ⟨prod, c⟩ with
    | error e => rw [hev] at h; exact absurd h (by simp)
    | ok r =>
      obtain ⟨best_config, best_sub⟩ := r
      rw [hev] at h
      simp only [] at h
      cases hrec : choose_candidate_grouping_recurse_children evr prod rest with
      | error e => rw [hrec] at h; exact absurd h (by simp)
      | ok r1 =>
        obtain ⟨g1, subs1⟩ := r1
        rw [hrec] at h
        simp only [Except.ok.injEq, Prod.mk.injEq] at h
        rw [← h.1]
        intro x hx
        rcases List.mem_cons.mp hx with h1 | h1
        · rw [h1]
        · exact ih g1 subs1 hrec x h1

theorem choose_candidate_grouping_recurse_loop_prod (P : Primitives) (part : Partitioner)
    (evr : EvaluateChoiceRecurse) (R : String → Prop) :
    ∀ (cands : List (String × String)) (st st1 : ChooseRecurseState),
      choose_candidate_grouping_recurse_loop P part evr cands st = Except.ok st1 →
      (∀ p ∈ cands, R p.1) →
      (∀ x ∈ st.best_grouping, R x.1.prod) →
      ∀ x ∈ st1.best_grouping, R x.1.prod := by
  intro cands
  induction cands with
  | nil =>
    intro st st1 h _ hst
    simp only [choose_candidate_grouping_recurse_loop, Except.ok.injEq] at h
    subst h
    exact hst
  | cons p rest ih =>
    intro st st1 h hall hst
    unfold choose_candidate_grouping_recurse_loop at h
    split at h
    · exact absurd h (by simp)
    · next st2 hbody =>
      apply ih st2 st1 h (fun q hq => hall q (List.mem_cons_of_mem _ hq))
      unfold choose_candidate_grouping_recurse_body at hbody
      split at hbody
      · exact absurd hbody (by simp)
      · next prod_f hf =>
        have hname := env_find_name _ _ _ ((env_get_ok _ _ _).mp hf)
        simp only [] at hbody
        split at hbody
        · exact absurd hbody (by simp)
        · split at hbody
          · exact absurd hbody (by simp)
          · next grouping subgroups hg =>
            split at hbody
            · exact absurd hbody (by simp)
            · simp only [Except.ok.injEq] at hbody
              subst hbody
              exact hst
            · split at hbody
              · simp only [Except.ok.injEq] at hbody
                subst hbody
                intro x hx
                simp only [] at hx
                rw [choose_candidate_grouping_recurse_children_prod evr _ _ _ _ hg x hx, hname]
                exact hall p (by simp)
              · simp only [Except.ok.injEq] at hbody
                subst hbody
                exact hst

theorem candidates_not_outputs (part : Partitioner) (groups : List (FStage × Group))
    (outputs : List Function) (level : Level) (cand : List (String × String))
    (h : part.get_grouping_candidate groups outputs level = Except.ok cand) :
    ∀ pc ∈ cand, (∀ f ∈ outputs, f.name ≠ pc.1) ∧
      ∃ e ∈ groups, ∃ prod_f, env_find part.env pc.1 = some prod_f ∧ e.1.func = pc.1 ∧
        e.1.stage_num = prod_f.updates := by
  intro pc hpc
  obtain ⟨e, he, hc⟩ := (get_grouping_candidate_mem part outputs level groups cand h pc).mp hpc
  obtain ⟨prod_f, cs, hf, hout, hfin, _, hcase⟩ :=
    (grouping_candidate_of_spec part outputs level e.1 pc).mp hc
  have hname := env_find_name _ _ _ hf
  have hp1 : pc.1 = e.1.func := by
    rcases hcase with ⟨_, _, hpc1⟩ | ⟨_, _, hpc1⟩ <;> rw [hpc1] <;> exact hname
  refine ⟨?_, e, he, prod_f, ?_, hp1.symm, hfin⟩
  · rw [hp1]
    exact (outputs_any_false _ _).mp hout
  · rw [hp1]
    exact hf

theorem group_iteration_keeps (P : Primitives) (EV : Partitioner → EvaluateChoice)
    (level : Level) (tile_bounds : TileSizes) (part part1 : Partitioner) (fixpoint : Bool)
    (h : part.group_iteration P EV level tile_bounds = Except.ok (part1, fixpoint)) :
    part1.env = part.env ∧ part1.outputs = part.outputs ∧
    ∀ k : FStage, (∃ f ∈ part.outputs, f.name = k.func) →
      map_find part.groups k ≠ none → map_find part1.groups k ≠ none := by
  unfold Partitioner.group_iteration at h
  split at h
  · exact absurd h (by simp)
  · next cand hcand =>
    split at h
    · exact absurd h (by simp)
    · next best cache hchoose =>
      have hprod : ∀ x ∈ best, ∀ f ∈ part.outputs, f.name ≠ x.1.prod := by
        unfold Partitioner.choose_candidate_grouping at hchoose
        split at hchoose
        · exact absurd hchoose (by simp)
        · next st hloop =>
          simp only [Except.ok.injEq, Prod.mk.injEq] at hchoose
          rw [← hchoose.1]
          exact choose_candidate_grouping_loop_prod P part (EV part) level tile_bounds
            (fun n => ∀ f ∈ part.outputs, f.name ≠ n) cand _ st hloop
            (fun p hp => (candidates_not_outputs part _ _ _ _ hcand p hp).1)
            (by simp)
      simp only [] at h
      split at h
      · simp only [Except.ok.injEq, Prod.mk.injEq] at h
        rw [← h.1]
        exact ⟨rfl, rfl, fun _ _ hk => hk⟩
      · next best0 rest =>
        split at h
        · exact absurd h (by simp)
        · next prod_f hf =>
          have hname : prod_f.name = best0.1.prod :=
            env_find_name _ _ _ ((env_get_ok _ _ _).mp hf)
          split at h
          · exact absurd h (by simp)
          · split at h
            · exact absurd h (by simp)
            · next part3 hmerge =>
              simp only [Except.ok.injEq, Prod.mk.injEq] at h
              obtain ⟨h1, h2, _, h4⟩ := merge_best_keeps _ _ _ _ _ hmerge
              obtain ⟨h5, h6, h7⟩ := erase_producer_stages_keeps prod_f
                (by assumption) (List.range (prod_f.updates + 1)) part3
              rw [← h.1]
              refine ⟨h5.trans h1, h6.trans h2, ?_⟩
              rintro k ⟨f, hfo, hfk⟩ hk
              have hne : k.func ≠ prod_f.name := by
                rw [hname, ← hfk]
                exact hprod best0 (by simp) f hfo
              rw [h7 k hne]
              exact h4 k hk

theorem group_recurse_iteration_keeps (P : Primitives)
    (EVR : Partitioner → EvaluateChoiceRecurse) (part part1 : Partitioner) (fixpoint : Bool)
    (h : part.group_recurse_iteration P EVR = Except.ok (part1, fixpoint)) :
    part1.env = part.env ∧ part1.outputs = part.outputs ∧
    ∀ k : FStage, (∃ f ∈ part.outputs, f.name = k.func) →
      map_find part.groups k ≠ none → map_find part1.groups k ≠ none := by
  unfold Partitioner.group_recurse_iteration at h
  split at h
  · exact absurd h (by simp)
  · next cand hcand =>
    split at h
    · exact absurd h (by simp)
    · next best best_subgroups hchoose =>
      have hprod : ∀ x ∈ best, ∀ f ∈ part.outputs, f.name ≠ x.1.prod := by
        unfold Partitioner.choose_candidate_grouping_recurse at hchoose
        split at hchoose
        · exact absurd hchoose (by simp)
        · next st hloop =>
          simp only [Except.ok.injEq, Prod.mk.injEq] at hchoose
          rw [← hchoose.1]
          exact choose_candidate_grouping_recurse_loop_prod P part (EVR part)
            (fun n => ∀ f ∈ part.outputs, f.name ≠ n) cand _ st hloop
            (fun p hp => (candidates_not_outputs part _ _ _ _ hcand p hp).1)
            (by simp)
      split at h
      · exact absurd h (by simp)
      · split at h
        · simp only [Except.ok.injEq, Prod.mk.injEq] at h
          rw [← h.1]
          exact ⟨rfl, rfl, fun _ _ hk => hk⟩
        · next best0 rest _ =>
          simp only [] at h
          split at h
          · exact absurd h (by simp)
          · next prod_f hf =>
            have hname : prod_f.name = best0.1.prod :=
              env_find_name _ _ _ ((env_get_ok _ _ _).mp hf)
            split at h
            · exact absurd h (by simp)
            · split at h
              · exact absurd h (by simp)
              · next part3 hmerge =>
                simp only [Except.ok.injEq, Prod.mk.injEq] at h
                obtain ⟨h1, h2, _, h4⟩ := merge_best_recurse_keeps _ _ _ _ _ hmerge
                obtain ⟨h5, h6, h7⟩ := erase_producer_stages_keeps prod_f
                  (by assumption) (List.range (prod_f.updates + 1)) part3
                rw [← h.1]
                refine ⟨h5.trans h1, h6.trans h2, ?_⟩
                rintro k ⟨f, hfo, hfk⟩ hk
                have hne : k.func ≠ prod_f.name := by
                  rw [hname, ← hfk]
                  exact hprod best0 (by simp) f hfo
                rw [h7 k hne]
                exact h4 k hk

theorem group_keeps (P : Primitives) (EV : Partitioner → EvaluateChoice)
    (level : Level) (tile_bounds : TileSizes) :
    ∀ (fuel : Nat) (part part1 : Partitioner),
      part.group P EV level tile_bounds fuel = Except.ok (some part1) →
      ∀ k : FStage, (∃ f ∈ part.outputs, f.name = k.func) →
        map_find part.groups k ≠ none → map_find part1.groups k ≠ none := by
  intro fuel
  induction fuel with
  | zero => intro part part1 h; simp [Partitioner.group] at h
  | succ n ih =>
    intro part part1 h k hout hk
    unfold Partitioner.group at h
    split at h
    · exact absurd h (by simp)
    · next part2 hit =>
      simp only [Except.ok.injEq, Option.some.injEq] at h
      rw [← h]
      exact (group_iteration_keeps P EV level tile_bounds _ _ _ hit).2.2 k hout hk
    · next part2 hit =>
      obtain ⟨_, h2, h3⟩ := group_iteration_keeps P EV level tile_bounds _ _ _ hit
      exact ih part2 part1 h k (by rw [h2]; exact hout) (h3 k hout hk)

theorem group_recurse_keeps (P : Primitives) (EVR : Partitioner → EvaluateChoiceRecurse) :
    ∀ (fuel : Nat) (part part1 : Partitioner),
      part.group_recurse P EVR fuel = Except.ok (some part1) →
      ∀ k : FStage, (∃ f ∈ part.outputs, f.name = k.func) →
        map_find part.groups k ≠ none → map_find part1.groups k ≠ none := by
  intro fuel
  induction fuel with
  | zero => intro part part1 h; simp [Partitioner.group_recurse] at h
  | succ n ih =>
    intro part part1 h k hout hk
    unfold Partitioner.group_recurse at h
    split at h
    · exact absurd h (by simp)
    · next part2 hit =>
      simp only [Except.ok.injEq, Option.some.injEq] at h
      rw [← h]
      exact (group_recurse_iteration_keeps P EVR _ _ _ hit).2.2 k hout hk
    · next part2 hit =>
      obtain ⟨_, h2, h3⟩ := group_recurse_iteration_keeps P EVR _ _ _ hit
      exact ih part2 part1 h k (by rw [h2]; exact hout) (h3 k hout hk)

/-- C8: every candidate returned by `get_grouping_candidate` has a producer
that is not an output function and that is the function of a group key whose
stage number is the final stage of that function.  Hence a turn of the loop
of `group` or of `group_recurse`, and so the whole loop, keeps the group of
every stage of an output function, its final stage included. -/
theorem candidate_producers_not_outputs (P : Primitives) (part : Partitioner) :
    (∀ (groups : List (FStage × Group)) (outputs : List Function) (level : Level)
        (cand : List (String × String)),
        part.get_grouping_candidate groups outputs level = Except.ok cand →
        ∀ pc ∈ cand, (∀ f ∈ outputs, f.name ≠ pc.1) ∧
          ∃ e ∈ groups, ∃ prod_f, env_find part.env pc.1 = some prod_f ∧ e.1.func = pc.1 ∧
            e.1.stage_num = prod_f.updates) ∧
    (∀ (EV : Partitioner → EvaluateChoice) (level : Level) (tile_bounds : TileSizes)
        (part1 : Partitioner) (fixpoint : Bool),
        part.group_iteration P EV level tile_bounds = Except.ok (part1, fixpoint) →
        ∀ k : FStage, (∃ f ∈ part.outputs, f.name = k.func) →
          map_find part.groups k ≠ none → map_find part1.groups k ≠ none) ∧
    (∀ (EVR : Partitioner → EvaluateChoiceRecurse) (part1 : Partitioner) (fixpoint : Bool),
        part.group_recurse_iteration P EVR = Except.ok (part1, fixpoint) →
        ∀ k : FStage, (∃ f ∈ part.outputs, f.name = k.func) →
          map_find part.groups k ≠ none → map_find part1.groups k ≠ none) ∧
    (∀ (EV : Partitioner → EvaluateChoice) (level : Level) (tile_bounds : TileSizes)
        (fuel : Nat) (part1 : Partitioner),
        part.group P EV level tile_bounds fuel = Except.ok (some part1) →
        ∀ k : FStage, (∃ f ∈ part.outputs, f.name = k.func) →
          map_find part.groups k ≠ none → map_find part1.groups k ≠ none) ∧
    (∀ (EVR : Partitioner → EvaluateChoiceRecurse) (fuel : Nat) (part1 : Partitioner),
        part.group_recurse P EVR fuel = Except.ok (some part1) →
        ∀ k : FStage, (∃ f ∈ part.outputs, f.name = k.func) →
          map_find part.groups k ≠ none → map_find part1.groups k ≠ none) :=
  ⟨fun groups outputs level cand h => candidates_not_outputs part groups outputs level cand h,
    fun EV level tile_bounds part1 fixpoint h =>
      (group_iteration_keeps P EV level tile_bounds part part1 fixpoint h).2.2,
    fun EVR part1 fixpoint h => (group_recurse_iteration_keeps P EVR part part1 fixpoint h).2.2,
    fun EV level tile_bounds fuel part1 h => group_keeps P EV level tile_bounds fuel part part1 h,
    fun EVR fuel part1 h => group_recurse_keeps P EVR fuel part part1 h⟩

/-- An instance of C8 on the worked pipeline: `group` and `group_recurse`
merge `f2` and then `f1` into the output `g` and stop at the third turn; the
group of `g` is the one left. -/
theorem candidate_producers_not_outputs_witness :
    Except.map (Option.map (fun p : Partitioner => p.groups.map Prod.fst))
      (example_part.group Primitives.basic (fun _ => example_evaluate_choice) Level.FastMem []
        3) = Except.ok (some [⟨"g", 0⟩]) ∧
    Except.map (Option.map (fun p : Partitioner => p.groups.map Prod.fst))
      (example_part.group_recurse Primitives.basic (fun _ => example_evaluate_choice_recurse)
        3) = Except.ok (some [⟨"g", 0⟩]) ∧
    (∀ part1 : Partitioner,
      example_part.group Primitives.basic (fun _ => example_evaluate_choice) Level.FastMem []
        3 = Except.ok (some part1) →
      ∀ k : FStage, (∃ f ∈ example_part.outputs, f.name = k.func) →
        map_find example_part.groups k ≠ none → map_find part1.groups k ≠ none) :=
  ⟨by rfl, by rfl,
    (candidate_producers_not_outputs Primitives.basic example_part).2.2.2.1
      (fun _ => example_evaluate_choice) Level.FastMem [] 3⟩

/-! ### Reading machine parameters -/

theorem skip_ws_append (ws rest : List Char) (hws : ∀ c ∈ ws, isspace c = true)
    (hrest : ∀ c r, rest = c :: r → isspace c = false) :
    skip_ws (ws ++ rest) = rest := by
  induction ws with
  | nil =>
    cases rest with
    | nil => rfl
    | cons c r => simp [skip_ws, hrest c r rfl]
  | cons w ws ih =>
    simp only [List.cons_append, skip_ws, hws w (by simp), if_true]
    exact ih (fun c hc => hws c (List.mem_cons_of_mem _ hc))

theorem skip_ws_spec : ∀ s : List Char, ∃ ws, s = ws ++ skip_ws s ∧
    (∀ c ∈ ws, isspace c = true) := by
  intro s
  induction s with
  | nil => exact ⟨[], rfl, by simp⟩
  | cons c cs ih =>
    unfold skip_ws
    split
    · next hc =>
      obtain ⟨ws, h1, h2⟩ := ih
      refine ⟨c :: ws, by rw [List.cons_append, ← h1], ?_⟩
      intro x hx
      rcases List.mem_cons.mp hx with h | h
      · rw [h]; exact hc
      · exact h2 x h
    · exact ⟨[], rfl, by simp⟩

theorem read_digits_spec : ∀ s : List Char, s = (read_digits s).1 ++ (read_digits s).2 ∧
    (∀ c ∈ (read_digits s).1, isdigit c = true) := by
  intro s
  induction s with
  | nil => exact ⟨rfl, by simp [read_digits]⟩
  | cons c cs ih =>
    unfold read_digits
    split
    · next hc =>
      refine ⟨by rw [List.cons_append, ← ih.1], ?_⟩
      intro x hx
      rcases List.mem_cons.mp hx with h | h
      · rw [h]; exact hc
      · exact ih.2 x h
    · exact ⟨rfl, by simp⟩

theorem read_digits_all (ds : List Char) (h : ∀ c ∈ ds, isdigit c = true) :
    read_digits ds = (ds, []) := by
  induction ds with
  | nil => rfl
  | cons c cs ih =>
    have ih1 := ih (fun x hx => h x (List.mem_cons_of_mem _ hx))
    simp [read_digits, h c (by simp), ih1]

theorem read_sign_spec (s : List Char) :
    ∃ sign, s = sign ++ (read_sign s).2 ∧ (sign = [] ∨ sign = ['-'] ∨ sign = ['+']) ∧
      ((read_sign s).1 = true ↔ sign = ['-']) := by
  cases s with
  | nil => exact ⟨[], rfl, Or.inl rfl, by simp [read_sign]⟩
  | cons c cs =>
    by_cases h1 : c = '-'
    · exact ⟨['-'], by simp [read_sign, h1], Or.inr (Or.inl rfl), by simp [read_sign, h1]⟩
    · by_cases h2 : c = '+'
      · exact ⟨['+'], by simp [read_sign, h2], Or.inr (Or.inr rfl), by simp [read_sign, h2]⟩
      · exact ⟨[], by simp [read_sign, h1, h2], Or.inl rfl, by simp [read_sign, h1, h2]⟩

theorem isdigit_not_special (c : Char) (h : isdigit c = true) :
    isspace c = false ∧ c ≠ '-' ∧ c ≠ '+' ∧ c ≠ ',' := by
  have h1 : 48 ≤ c.toNat ∧ c.toNat ≤ 57 := by
    simpa [isdigit] using h
  refine ⟨?_, ?_, ?_, ?_⟩
  · simp only [isspace, Bool.or_eq_false_iff, Bool.and_eq_false_iff, decide_eq_false_iff_not]
    constructor
    · omega
    · right; omega
  · intro hc; rw [hc] at h1; simp at h1
  · intro hc; rw [hc] at h1; simp at h1
  · intro hc; rw [hc] at h1; simp at h1

/-- The value read by `iss >> i` from a field. -/
theorem string_to_int_eq (field : List Char) :
    string_to_int field =
      if (read_digits (read_sign (skip_ws field)).2).1 = [] ∨
          INT_MAX < (if (read_sign (skip_ws field)).1
            then -(digits_value (read_digits (read_sign (skip_ws field)).2).1 : Int)
            else (digits_value (read_digits (read_sign (skip_ws field)).2).1 : Int)) ∨
          (if (read_sign (skip_ws field)).1
            then -(digits_value (read_digits (read_sign (skip_ws field)).2).1 : Int)
            else (digits_value (read_digits (read_sign (skip_ws field)).2).1 : Int)) < INT_MIN ∨
          (read_digits (read_sign (skip_ws field)).2).2 ≠ [] then
        Except.error ("Unable to parse: " ++ String.mk field)
      else
        Except.ok (if (read_sign (skip_ws field)).1
          then -(digits_value (read_digits (read_sign (skip_ws field)).2).1 : Int)
          else (digits_value (read_digits (read_sign (skip_ws field)).2).1 : Int)) := by
  unfold string_to_int
  simp only [istringstream.extract_int, Bool.false_eq_true, if_false]
  by_cases h1 : (read_digits (read_sign (skip_ws field)).2).1 = []
  · simp [h1, istringstream.fail]
  · by_cases h2 : INT_MAX < (if (read_sign (skip_ws field)).1
        then -(digits_value (read_digits (read_sign (skip_ws field)).2).1 : Int)
        else (digits_value (read_digits (read_sign (skip_ws field)).2).1 : Int))
    · simp [h1, h2, istringstream.fail]
    · by_cases h3 : (if (read_sign (skip_ws field)).1
          then -(digits_value (read_digits (read_sign (skip_ws field)).2).1 : Int)
          else (digits_value (read_digits (read_sign (skip_ws field)).2).1 : Int)) < INT_MIN
      · simp [h1, h2, h3, istringstream.fail]
      · cases h4 : (read_digits (read_sign (skip_ws field)).2).2 with
        | nil => simp [h1, h2, h3, h4, istringstream.fail, istringstream.get]
        | cons x xs => simp [h1, h2, h3, h4, istringstream.fail, istringstream.get]

theorem string_to_int_ok_iff (field : List Char) (n : Int) :
    string_to_int field = Except.ok n ↔ is_int_literal field n := by
  rw [string_to_int_eq]
  constructor
  · intro h
    obtain ⟨ws, hws, hsp⟩ := skip_ws_spec field
    obtain ⟨sign, hsign, hsv, hneg⟩ := read_sign_spec (skip_ws field)
    obtain ⟨hds, hdig⟩ := read_digits_spec (read_sign (skip_ws field)).2
    set v : Int := (if (read_sign (skip_ws field)).1
      then -(digits_value (read_digits (read_sign (skip_ws field)).2).1 : Int)
      else (digits_value (read_digits (read_sign (skip_ws field)).2).1 : Int)) with hv
    by_cases hcond : (read_digits (read_sign (skip_ws field)).2).1 = [] ∨ INT_MAX < v ∨
        v < INT_MIN ∨ (read_digits (read_sign (skip_ws field)).2).2 ≠ []
    · rw [if_pos hcond] at h
      exact absurd h (by simp)
    · rw [if_neg hcond] at h
      simp only [not_or, not_lt, ne_eq, not_not] at hcond
      obtain ⟨hne, hmax, hmin, hrest⟩ := hcond
      simp only [Except.ok.injEq] at h
      rw [hv] at h
      rw [hrest, List.append_nil] at hds
      refine ⟨ws, sign, (read_digits (read_sign (skip_ws field)).2).1, ?_, hsp, hsv, hne,
        hdig, ?_, ?_, ?_⟩
      · rw [← hds, ← hsign]
        exact hws
      · rw [← h]
        by_cases hs : sign = ['-']
        · simp [hs, hneg.mpr hs]
        · have hf : (read_sign (skip_ws field)).1 = false := by
            cases hb : (read_sign (skip_ws field)).1 with
            | false => rfl
            | true => exact absurd (hneg.mp hb) hs
          simp [hs, hf]
      · rw [← h]; exact hmin
      · rw [← h]; exact hmax
  · rintro ⟨ws, sign, ds, hf, hws, hsv, hne, hdig, hn, hmin, hmax⟩
    obtain ⟨d0, dr, hd0⟩ : ∃ d0 dr, ds = d0 :: dr := by
      cases ds with
      | nil => exact absurd rfl hne
      | cons d0 dr => exact ⟨d0, dr, rfl⟩
    have hd0dig := isdigit_not_special d0 (hdig d0 (by rw [hd0]; simp))
    have hskip : skip_ws field = sign ++ ds := by
      rw [hf]
      apply skip_ws_append _ _ hws
      intro c r hcr
      rcases hsv with h | h | h
      · rw [h, hd0] at hcr
        simp only [List.nil_append, List.cons.injEq] at hcr
        rw [← hcr.1]; exact hd0dig.1
      · rw [h] at hcr
        simp only [List.singleton_append, List.cons.injEq] at hcr
        rw [← hcr.1]; decide
      · rw [h] at hcr
        simp only [List.singleton_append, List.cons.injEq] at hcr
        rw [← hcr.1]; decide
    have hsignr : read_sign (sign ++ ds) = (decide (sign = ['-']), ds) := by
      rcases hsv with h | h | h
      · rw [h, hd0]
        simp [read_sign, hd0dig.2.1, hd0dig.2.2.1]
      · rw [h]; simp [read_sign]
      · rw [h]; simp [read_sign]
    have hrd := read_digits_all ds hdig
    simp only [hskip, hsignr, hrd, decide_eq_true_eq]
    rw [← hn]
    have h1 : ¬ INT_MAX < n := not_lt.mpr hmax
    have h2 : ¬ n < INT_MIN := not_lt.mpr hmin
    simp [h1, h2, hne]

theorem MachineParams_of_string_ok_iff (s : List Char) (p : MachineParams) :
    MachineParams.of_string s = Except.ok p ↔
      ∃ (v0 v1 v2 : List Char) (a b c : Int), split_string s ',' = [v0, v1, v2] ∧
        is_int_literal v0 a ∧ is_int_literal v1 b ∧ is_int_literal v2 c ∧
        p = ⟨Expr.IntImm a, Expr.IntImm b, Expr.IntImm c⟩ := by
  constructor
  · intro h
    unfold MachineParams.of_string at h
    split at h
    · next v0 v1 v2 hsplit =>
      split at h
      · exact absurd h (by simp)
      · next a ha =>
        split at h
        · exact absurd h (by simp)
        · next b hb =>
          split at h
          · exact absurd h (by simp)
          · next c hc =>
            simp only [Except.ok.injEq] at h
            exact ⟨v0, v1, v2, a, b, c, hsplit, (string_to_int_ok_iff _ _).mp ha,
              (string_to_int_ok_iff _ _).mp hb, (string_to_int_ok_iff _ _).mp hc, h.symm⟩
    · exact absurd h (by simp)
  · rintro ⟨v0, v1, v2, a, b, c, hsplit, ha, hb, hc, hp⟩
    unfold MachineParams.of_string
    rw [hsplit]
    simp only [(string_to_int_ok_iff _ _).mpr ha, (string_to_int_ok_iff _ _).mpr hb,
      (string_to_int_ok_iff _ _).mpr hc, hp]

/-- C1: the string constructor of `MachineParams` succeeds exactly when the
input splits at commas into three fields each of which is read completely as
an `int` (optional white space and sign, then digits up to the end of the
field, value in the range of `int`); the three values are then assigned in
order to `parallelism`, `last_level_cache_size` and `balance`.  Every other
input raises an error.  A field that is read completely is not empty and ends
with a digit. -/
theorem MachineParams_of_string_spec (s : List Char) :
    (∀ p : MachineParams, MachineParams.of_string s = Except.ok p ↔
      ∃ (v0 v1 v2 : List Char) (a b c : Int), split_string s ',' = [v0, v1, v2] ∧
        is_int_literal v0 a ∧ is_int_literal v1 b ∧ is_int_literal v2 c ∧
        p = ⟨Expr.IntImm a, Expr.IntImm b, Expr.IntImm c⟩) ∧
    ((¬ ∃ (v0 v1 v2 : List Char) (a b c : Int), split_string s ',' = [v0, v1, v2] ∧
        is_int_literal v0 a ∧ is_int_literal v1 b ∧ is_int_literal v2 c) →
      ∃ e, MachineParams.of_string s = Except.error e) ∧
    (∀ (field : List Char) (n : Int), is_int_literal field n →
      field ≠ [] ∧ ∃ d, field.getLast? = some d ∧ isdigit d = true) := by
  refine ⟨MachineParams_of_string_ok_iff s, ?_, ?_⟩
  · intro hno
    cases hr : MachineParams.of_string s with
    | error e => exact ⟨e, rfl⟩
    | ok p =>
      exfalso
      apply hno
      obtain ⟨v0, v1, v2, a, b, c, h1, h2, h3, h4, _⟩ :=
        (MachineParams_of_string_ok_iff s p).mp hr
      exact ⟨v0, v1, v2, a, b, c, h1, h2, h3, h4⟩
  · rintro field n ⟨ws, sign, ds, hf, _, _, hne, hdig, _⟩
    have hlast : ∃ d, ds.getLast? = some d ∧ d ∈ ds := by
      cases hd : ds.getLast? with
      | none => rw [List.getLast?_eq_none_iff] at hd; exact absurd hd hne
      | some d => exact ⟨d, rfl, List.mem_of_getLast?_eq_some hd⟩
    obtain ⟨d, hd, hmem⟩ := hlast
    constructor
    · rw [hf]
      intro hnil
      simp only [List.append_eq_nil] at hnil
      exact hne hnil.2.2
    · refine ⟨d, ?_, hdig d hmem⟩
      rw [hf, ← List.append_assoc, List.getLast?_append, hd]
      simp

/-- Instances of C1: the generic parameters are read; a fourth field, an
empty field, trailing characters and a value outside `int` are rejected;
leading white space in a field is skipped. -/
theorem MachineParams_of_string_examples :
    MachineParams.of_string "16,16777216,40".toList = Except.ok MachineParams.generic ∧
    MachineParams.of_string " 1,-2,+3".toList = Except.ok (MachineParams.of_ints 1 (-2) 3) ∧
    (MachineParams.of_string "1,2,3,4".toList).toBool = false ∧
    (MachineParams.of_string "1,2".toList).toBool = false ∧
    (MachineParams.of_string "1,,3".toList).toBool = false ∧
    (MachineParams.of_string "1,2,3 ".toList).toBool = false ∧
    (MachineParams.of_string "1,2x,3".toList).toBool = false ∧
    (MachineParams.of_string "1,2,2147483648".toList).toBool = false := by
  decide

theorem digit_char_spec (d : Nat) (hd : d < 10) :
    isdigit (digit_char d) = true ∧ (digit_char d).toNat - 48 = d := by
  interval_cases d <;> exact ⟨by decide, by decide⟩

theorem digits_value_append (xs : List Char) (c : Char) :
    digits_value (xs ++ [c]) = 10 * digits_value xs + (c.toNat - 48) := by
  simp [digits_value, List.foldl_append]

theorem print_nat_fuel_spec : ∀ (fuel n : Nat), n < fuel →
    print_nat_fuel fuel n ≠ [] ∧ (∀ c ∈ print_nat_fuel fuel n, isdigit c = true) ∧
      digits_value (print_nat_fuel fuel n) = n := by
  intro fuel
  induction fuel with
  | zero => intro n h; omega
  | succ k ih =>
    intro n hn
    unfold print_nat_fuel
    split
    · next hlt =>
      obtain ⟨h1, h2⟩ := digit_char_spec n hlt
      refine ⟨by simp, ?_, ?_⟩
      · intro c hc
        simp only [List.mem_singleton] at hc
        rw [hc]; exact h1
      · simp [digits_value, h2]
    · next hge =>
      obtain ⟨h1, h2, h3⟩ := ih (n / 10) (by omega)
      obtain ⟨h4, h5⟩ := digit_char_spec (n % 10) (Nat.mod_lt _ (by decide))
      refine ⟨by simp, ?_, ?_⟩
      · intro c hc
        rcases List.mem_append.mp hc with h | h
        · exact h2 c h
        · simp only [List.mem_singleton] at h
          rw [h]; exact h4
      · rw [digits_value_append, h3, h5]
        omega

theorem print_int_literal (n : Int) (hmin : INT_MIN ≤ n) (hmax : n ≤ INT_MAX) :
    is_int_literal (print_int n) n ∧ ∀ c ∈ print_int n, c ≠ ',' := by
  obtain ⟨h1, h2, h3⟩ := print_nat_fuel_spec (n.natAbs + 1) n.natAbs (by omega)
  have hcomma : ∀ c ∈ print_nat n.natAbs, c ≠ ',' :=
    fun c hc => (isdigit_not_special c (h2 c hc)).2.2.2
  unfold print_int
  split
  · next hneg =>
    constructor
    · refine ⟨[], ['-'], print_nat n.natAbs, by simp, by simp, Or.inr (Or.inl rfl), h1, h2, ?_,
        hmin, hmax⟩
      simp only [if_true]
      show n = -((digits_value (print_nat_fuel (n.natAbs + 1) n.natAbs) : Nat) : Int)
      rw [h3]
      omega
    · intro c hc
      rcases List.mem_cons.mp hc with h | h
      · rw [h]; decide
      · exact hcomma c h
  · next hpos =>
    constructor
    · refine ⟨[], [], print_nat n.natAbs, by simp, by simp, Or.inl rfl, h1, h2, ?_, hmin, hmax⟩
      have : ¬ (([] : List Char) = ['-']) := by simp
      simp only [this, if_false]
      show n = ((digits_value (print_nat_fuel (n.natAbs + 1) n.natAbs) : Nat) : Int)
      rw [h3]
      omega
    · exact hcomma

theorem split_string_no_delim (d : Char) :
    ∀ xs : List Char, (∀ c ∈ xs, c ≠ d) → split_string xs d = [xs] := by
  intro xs
  induction xs with
  | nil => intro _; rfl
  | cons x rest ih =>
    intro h
    have hx : x ≠ d := h x (by simp)
    have hr := ih (fun c hc => h c (List.mem_cons_of_mem _ hc))
    simp [split_string, hx, hr]

theorem split_string_append (d : Char) (rest : List Char) :
    ∀ xs : List Char, (∀ c ∈ xs, c ≠ d) →
      split_string (xs ++ d :: rest) d = xs :: split_string rest d := by
  intro xs
  induction xs with
  | nil => intro _; simp [split_string]
  | cons x more ih =>
    intro h
    have hx : x ≠ d := h x (by simp)
    have hr := ih (fun c hc => h c (List.mem_cons_of_mem _ hc))
    simp [split_string, hx, hr]

/-- C2: for integer constants in the range of `int`, reading back the string
written by `to_string` succeeds and gives the same three fields. -/
theorem MachineParams_round_trip (a b c : Int)
    (ha : INT_MIN ≤ a ∧ a ≤ INT_MAX) (hb : INT_MIN ≤ b ∧ b ≤ INT_MAX)
    (hc : INT_MIN ≤ c ∧ c ≤ INT_MAX) :
    MachineParams.of_string (MachineParams.to_string (MachineParams.of_ints a b c)) =
      Except.ok (MachineParams.of_ints a b c) := by
  obtain ⟨ha1, ha2⟩ := print_int_literal a ha.1 ha.2
  obtain ⟨hb1, hb2⟩ := print_int_literal b hb.1 hb.2
  obtain ⟨hc1, hc2⟩ := print_int_literal c hc.1 hc.2
  apply (MachineParams_of_string_ok_iff _ _).mpr
  refine ⟨print_int a, print_int b, print_int c, a, b, c, ?_, ha1, hb1, hc1, rfl⟩
  simp only [MachineParams.to_string, MachineParams.of_ints, print_expr, List.append_assoc,
    List.singleton_append, List.cons_append, List.nil_append]
  rw [split_string_append _ _ _ ha2, split_string_append _ _ _ hb2,
    split_string_no_delim _ _ hc2]

/-- An instance of C2: the generic machine parameters `16,16777216,40`. -/
theorem MachineParams_round_trip_witness :
    (INT_MIN ≤ 16 ∧ (16 : Int) ≤ INT_MAX) ∧
    (INT_MIN ≤ 16 * 1024 * 1024 ∧ (16 * 1024 * 1024 : Int) ≤ INT_MAX) ∧
    (INT_MIN ≤ 40 ∧ (40 : Int) ≤ INT_MAX) ∧
    MachineParams.to_string MachineParams.generic = "16,16777216,40".toList ∧
    MachineParams.of_string (MachineParams.to_string (MachineParams.of_ints 16
      (16 * 1024 * 1024) 40)) = Except.ok (MachineParams.of_ints 16 (16 * 1024 * 1024) 40) :=
  ⟨by decide, by decide, by decide, by decide,
    MachineParams_round_trip 16 (16 * 1024 * 1024) 40 (by decide) (by decide) (by decide)⟩

/-! ### The consumer sets of the children map are never empty -/

theorem set_insert_ne_nil {α : Type} (lt : α → α → Bool) (x : α) (s : List α) :
    set_insert lt x s ≠ [] := by
  cases s with
  | nil => simp [set_insert]
  | cons y ys =>
    unfold set_insert
    split
    · simp
    · split <;> simp

theorem set_insert_all_ne_nil {α : Type} (lt : α → α → Bool) (xs s : List α) (hxs : xs ≠ []) :
    set_insert_all lt xs s ≠ [] := by
  cases xs with
  | nil => exact absurd rfl hxs
  | cons x rest =>
    unfold set_insert_all
    simp only [List.foldl_cons]
    cases hs : set_insert lt x s with
    | nil => exact absurd hs (set_insert_ne_nil lt x s)
    | cons y ys =>
      have hmem := mem_foldl_set_insert_of_mem lt (fun a : α => a) y rest (y :: ys) (by simp)
      intro hnil
      rw [hnil] at hmem
      simp at hmem

theorem rewire_children_nonempty (children : List (FStage × List FStage))
    (prod_group : FStage) (prod_group_children : List FStage)
    (hch : ∀ e ∈ children, e.2 ≠ []) (hpgc : prod_group_children ≠ []) :
    ∀ e ∈ rewire_children children prod_group prod_group_children, e.2 ≠ [] := by
  intro e he
  unfold rewire_children at he
  obtain ⟨f, hf, hfe⟩ := List.mem_map.mp he
  have hf1 : f ∈ children := by
    unfold map_erase at hf
    exact (List.mem_filter.mp hf).1
  split at hfe
  · rw [← hfe]
    exact set_insert_all_ne_nil _ _ _ hpgc
  · rw [← hfe]
    exact hch f hf1

theorem erase_producer_stages_nonempty (prod_f : Function) (prod_group_children : List FStage)
    (hpgc : prod_group_children ≠ []) :
    ∀ (stages : List Nat) (part : Partitioner), (∀ e ∈ part.children, e.2 ≠ []) →
      ∀ e ∈ (erase_producer_stages prod_f prod_group_children stages part).children,
        e.2 ≠ [] := by
  intro stages
  induction stages with
  | nil => intro part h; exact h
  | cons s rest ih =>
    intro part h
    unfold erase_producer_stages
    exact ih _ (rewire_children_nonempty _ _ _ h hpgc)

/-- A turn of the loop of `group` keeps the consumer sets of `children`
non-empty. -/
theorem group_iteration_children_nonempty (P : Primitives) (EV : Partitioner → EvaluateChoice)
    (level : Level) (tile_bounds : TileSizes) (part part1 : Partitioner) (fixpoint : Bool)
    (hch : ∀ e ∈ part.children, e.2 ≠ [])
    (h : part.group_iteration P EV level tile_bounds = Except.ok (part1, fixpoint)) :
    ∀ e ∈ part1.children, e.2 ≠ [] := by
  unfold Partitioner.group_iteration at h
  split at h
  · exact absurd h (by simp)
  · split at h
    · exact absurd h (by simp)
    · simp only [] at h
      split at h
      · simp only [Except.ok.injEq, Prod.mk.injEq] at h
        rw [← h.1]
        exact hch
      · split at h
        · exact absurd h (by simp)
        · next prod_f _ =>
          split at h
          · exact absurd h (by simp)
          · next pgc hpgc =>
            have hne : pgc ≠ [] :=
              hch (_, pgc) (map_find_mem _ _ _ ((get_element_ok _ _ _).mp hpgc))
            split at h
            · exact absurd h (by simp)
            · next part3 hmerge =>
              simp only [Except.ok.injEq, Prod.mk.injEq] at h
              obtain ⟨_, _, h3, _⟩ := merge_best_keeps _ _ _ _ _ hmerge
              rw [← h.1]
              apply erase_producer_stages_nonempty prod_f pgc hne
              rw [h3]
              exact hch

/-- A turn of the loop of `group_recurse` keeps the consumer sets of
`children` non-empty. -/
theorem group_recurse_iteration_children_nonempty (P : Primitives)
    (EVR : Partitioner → EvaluateChoiceRecurse) (part part1 : Partitioner) (fixpoint : Bool)
    (hch : ∀ e ∈ part.children, e.2 ≠ [])
    (h : part.group_recurse_iteration P EVR = Except.ok (part1, fixpoint)) :
    ∀ e ∈ part1.children, e.2 ≠ [] := by
  unfold Partitioner.group_recurse_iteration at h
  split at h
  · exact absurd h (by simp)
  · split at h
    · exact absurd h (by simp)
    · split at h
      · exact absurd h (by simp)
      · split at h
        · simp only [Except.ok.injEq, Prod.mk.injEq] at h
          rw [← h.1]
          exact hch
        · simp only [] at h
          split at h
          · exact absurd h (by simp)
          · next prod_f _ =>
            split at h
            · exact absurd h (by simp)
            · next pgc hpgc =>
              have hne : pgc ≠ [] :=
                hch (_, pgc) (map_find_mem _ _ _ ((get_element_ok _ _ _).mp hpgc))
              split at h
              · exact absurd h (by simp)
              · next part3 hmerge =>
                simp only [Except.ok.injEq, Prod.mk.injEq] at h
                obtain ⟨_, _, h3, _⟩ := merge_best_recurse_keeps _ _ _ _ _ hmerge
                rw [← h.1]
                apply erase_producer_stages_nonempty prod_f pgc hne
                rw [h3]
                exact hch

/-! ### Merging and tile configurations -/

/-- C11: the two-argument `merge_groups` returns a group whose output is that
of the consumer group, whose members are the members of the producer group
followed by those of the consumer group (so a stage is a member exactly when
it is a member of one of the two groups), whose inlined set holds exactly the
names inlined in one of the two groups, and whose tile sizes and subgroups
are empty. -/
theorem merge_two_groups_spec (prod_group cons_group : Group) :
    (merge_groups prod_group cons_group).output = cons_group.output ∧
    (merge_groups prod_group cons_group).members = prod_group.members ++ cons_group.members ∧
    (∀ s : FStage, s ∈ (merge_groups prod_group cons_group).members ↔
      s ∈ prod_group.members ∨ s ∈ cons_group.members) ∧
    (∀ f : String, f ∈ (merge_groups prod_group cons_group).inlined ↔
      f ∈ prod_group.inlined ∨ f ∈ cons_group.inlined) ∧
    (merge_groups prod_group cons_group).inlined.Pairwise (fun a b => string_lt a b = true) ∧
    (merge_groups prod_group cons_group).tile_sizes = [] ∧
    (merge_groups prod_group cons_group).subgroups = [] := by
  refine ⟨rfl, rfl, ?_, ?_, ?_, rfl, rfl⟩
  · intro s
    simp [merge_groups, Group.members]
  · intro f
    simp only [merge_groups, Group.inlined]
    constructor
    · intro h
      rcases mem_of_mem_foldl_set_insert string_lt (fun x => x) f _ _ h with h1 | ⟨x, hx, rfl⟩
      · rcases mem_of_mem_foldl_set_insert string_lt (fun x => x) f _ _ h1 with h2 | ⟨x, hx, rfl⟩
        · simp at h2
        · exact Or.inl hx
      · exact Or.inr hx
    · rintro (h | h)
      · exact mem_foldl_set_insert_of_mem string_lt (fun x => x) f _ _
          (mem_foldl_set_insert string_lt string_lt_trichotomy (fun x => x) _ _ f h)
      · exact mem_foldl_set_insert string_lt string_lt_trichotomy (fun x => x) _ _ f h
  · simp only [merge_groups, Group.inlined]
    apply foldl_set_insert_pairwise string_lt
      (fun a b c => chars_lt_trans a.toList b.toList c.toList) (fun x => x)
    apply foldl_set_insert_pairwise string_lt
      (fun a b c => chars_lt_trans a.toList b.toList c.toList) (fun x => x)
    exact List.Pairwise.nil
theorem mem_map_emplace {κ ν : Type} (lt : κ → κ → Bool) (k : κ) (v : ν) :
    ∀ (m : List (κ × ν)) (e : κ × ν), e ∈ map_emplace lt k v m → e ∈ m ∨ e = (k, v) := by
  intro m
  induction m with
  | nil => intro e he; simp [map_emplace] at he; exact Or.inr he
  | cons a rest ih =>
    intro e he
    obtain ⟨k1, v1⟩ := a
    unfold map_emplace at he
    split at he
    · simp only [List.mem_cons] at he
      rcases he with he | he | he
      · exact Or.inr he
      · exact Or.inl (by simp [he])
      · exact Or.inl (by simp [he])
    · split at he
      · simp only [List.mem_cons] at he
        rcases he with he | he
        · exact Or.inl (by simp [he])
        · rcases ih e he with h | h
          · exact Or.inl (by simp [h])
          · exact Or.inr h
      · exact Or.inl he

theorem getD_mem_of_lt (xs : List String) (j : Nat) (h : j < xs.length) :
    xs.getD j "" ∈ xs := by
  rw [List.getD_eq_getElem xs "" h]
  exact List.getElem_mem h

theorem foldl_invariant {α β : Type} (Q : α → Prop) (f : α → β → α) :
    ∀ (xs : List β) (a : α), Q a → (∀ a x, x ∈ xs → Q a → Q (f a x)) → Q (xs.foldl f a) := by
  intro xs
  induction xs with
  | nil => intro a ha _; exact ha
  | cons x rest ih =>
    intro a ha hstep
    simp only [List.foldl_cons]
    exact ih _ (hstep a x (by simp) ha) (fun a1 x1 hx1 => hstep a1 x1 (by simp [hx1]))

theorem skewed_tiling_keys (tvars : List String) (i : Nat) (hi : i < tvars.length)
    (dim_size : Int) : ∀ e ∈ skewed_tiling tvars i dim_size, e.1 ∈ tvars := by
  unfold skewed_tiling
  apply foldl_invariant (fun t : TileSizes => ∀ e ∈ t, e.1 ∈ tvars)
  · intro e he
    rcases mem_map_emplace _ _ _ _ e he with h | h
    · simp at h
    · rw [h]; exact getD_mem_of_lt tvars i hi
  · intro t j hj ht e he
    have hj1 : j < tvars.length := List.mem_range.mp hj
    split at he
    · rcases mem_map_emplace _ _ _ _ e he with h | h
      · exact ht e h
      · rw [h]; exact getD_mem_of_lt tvars j hj1
    · split at he
      · rcases mem_map_emplace _ _ _ _ e he with h | h
        · exact ht e h
        · rw [h]; exact getD_mem_of_lt tvars j hj1
      · exact ht e he

theorem square_tiling_keys (tvars : List String) (dim_size : Int) :
    ∀ e ∈ square_tiling tvars dim_size, e.1 ∈ tvars := by
  unfold square_tiling
  apply foldl_invariant (fun t : TileSizes => ∀ e ∈ t, e.1 ∈ tvars)
  · intro e he; simp at he
  · intro t j hj ht e he
    have hj1 : j < tvars.length := List.mem_range.mp hj
    rcases mem_map_emplace _ _ _ _ e he with h | h
    · exact ht e h
    · rw [h]; exact getD_mem_of_lt tvars j hj1

theorem reorder_tiling_keys (tvars : List String) (i : Nat) :
    ∀ e ∈ reorder_tiling tvars i, e.1 ∈ tvars := by
  unfold reorder_tiling
  apply foldl_invariant (fun t : TileSizes => ∀ e ∈ t, e.1 ∈ tvars)
  · intro e he; simp at he
  · intro t j hj ht e he
    have hj1 : j < tvars.length := List.mem_range.mp hj
    split at he
    · split at he
      · rcases mem_map_emplace _ _ _ _ e he with h | h
        · exact ht e h
        · rw [h]; exact getD_mem_of_lt tvars j hj1
      · rcases mem_map_emplace _ _ _ _ e he with h | h
        · exact ht e h
        · rw [h]; exact getD_mem_of_lt tvars j hj1
    · exact ht e he

theorem push_tile_config_invariant (Q : TileSizes → Prop) (tiling : TileSizes)
    (cfgs : List TileSizes) (hc : ∀ c ∈ cfgs, c ≠ [] ∧ Q c) (ht : Q tiling) :
    ∀ c ∈ push_tile_config tiling cfgs, c ≠ [] ∧ Q c := by
  intro c hcm
  unfold push_tile_config at hcm
  split at hcm
  · exact hc c hcm
  · next hne =>
    split at hcm
    · exact hc c hcm
    · simp only [List.mem_append, List.mem_singleton] at hcm
      rcases hcm with h | h
      · exact hc c h
      · subst h
        refine ⟨?_, ht⟩
        intro h0
        rw [h0] at hne
        exact hne rfl

theorem tile_configs_of_keys (tvars : List String) :
    ∀ c ∈ tile_configs_of tvars, c ≠ [] ∧ ∀ e ∈ c, e.1 ∈ tvars := by
  unfold tile_configs_of
  simp only []
  apply foldl_invariant (fun cfgs : List TileSizes => ∀ c ∈ cfgs, c ≠ [] ∧ ∀ e ∈ c, e.1 ∈ tvars)
  · apply foldl_invariant
      (fun cfgs : List TileSizes => ∀ c ∈ cfgs, c ≠ [] ∧ ∀ e ∈ c, e.1 ∈ tvars)
    · apply foldl_invariant
        (fun cfgs : List TileSizes => ∀ c ∈ cfgs, c ≠ [] ∧ ∀ e ∈ c, e.1 ∈ tvars)
      · intro c hc; simp at hc
      · intro cfgs i hi hcfgs
        have hi1 : i < tvars.length := List.mem_range.mp hi
        apply foldl_invariant
          (fun cfgs : List TileSizes => ∀ c ∈ cfgs, c ≠ [] ∧ ∀ e ∈ c, e.1 ∈ tvars)
        · exact hcfgs
        · intro cfgs1 d _ h1
          exact push_tile_config_invariant _ _ _ h1 (skewed_tiling_keys tvars i hi1 d)
    · intro cfgs d _ h1
      exact push_tile_config_invariant _ _ _ h1 (square_tiling_keys tvars d)
  · intro cfgs i _ h1
    exact push_tile_config_invariant _ _ _ h1 (reorder_tiling_keys tvars i)

theorem mem_tile_vars (dims : List Dim) (x : String) :
    x ∈ tile_vars dims ↔ ∃ d ∈ dims.dropLast, d.is_rvar = false ∧ d.var = x := by
  simp only [tile_vars, List.mem_map, List.mem_filter, Bool.not_eq_true', and_assoc]

/-- C20: every key of every tile configuration that `generate_tile_configs`
returns for a stage is the name of a loop dimension of the stage that is not
a reduction loop and not the last (outermost placeholder) dimension; no
returned configuration is empty; and a stage all of whose dimensions other
than the last are reduction loops gets no configuration. -/
theorem generate_tile_configs_pure (D : StageDefinitions) (stg : FStage) :
    (∀ config ∈ generate_tile_configs D stg, config ≠ [] ∧
      ∀ e ∈ config, ∃ d ∈ (D.dims stg).dropLast, d.is_rvar = false ∧ d.var = e.1) ∧
    ((∀ d ∈ (D.dims stg).dropLast, d.is_rvar = true) → generate_tile_configs D stg = []) := by
  constructor
  · intro config hc
    obtain ⟨h1, h2⟩ := tile_configs_of_keys _ config hc
    exact ⟨h1, fun e he => (mem_tile_vars _ _).mp (h2 e he)⟩
  · intro h
    have hv : tile_vars (D.dims stg) = [] := by
      unfold tile_vars
      rw [List.map_eq_nil_iff, List.filter_eq_nil_iff]
      intro d hd
      simp [h d hd]
    unfold generate_tile_configs
    rw [hv]
    decide

theorem generate_tile_configs_pure_witness :
    generate_tile_configs
      ⟨fun _ => [⟨"x", false⟩, ⟨"r", true⟩, ⟨"__outermost", false⟩], fun _ => []⟩ ⟨"f", 1⟩ =
      [[("x", Expr.IntImm 64)], [("x", Expr.IntImm 128)], [("x", Expr.IntImm 256)]] ∧
    ((∀ d ∈ ((⟨fun _ => [⟨"r", true⟩, ⟨"__outermost", false⟩], fun _ => []⟩ :
        StageDefinitions).dims ⟨"f", 1⟩).dropLast, d.is_rvar = true) ∧
      generate_tile_configs ⟨fun _ => [⟨"r", true⟩, ⟨"__outermost", false⟩], fun _ => []⟩
        ⟨"f", 1⟩ = []) :=
  ⟨by decide, by decide,
    (generate_tile_configs_pure ⟨fun _ => [⟨"r", true⟩, ⟨"__outermost", false⟩], fun _ => []⟩
      ⟨"f", 1⟩).2 (by decide)⟩
/-! ### A pipeline without candidates -/

theorem grouping_candidate_of_output (part : Partitioner) (outputs : List Function)
    (level : Level) (k : FStage) (hout : ∃ f ∈ outputs, f.name = k.func)
    (henv : ∃ f, env_find part.env k.func = some f) :
    grouping_candidate_of part outputs level k = Except.ok none := by
  obtain ⟨f, hf⟩ := henv
  obtain ⟨o, ho, hok⟩ := hout
  have hany : outputs.any (fun f => k.func == f.name) = true := by
    rw [List.any_eq_true]
    exact ⟨o, ho, by simp [hok]⟩
  unfold grouping_candidate_of
  rw [(env_get_ok _ _ _).mpr hf]
  simp [hany]

theorem get_grouping_candidate_outputs (part : Partitioner) (outputs : List Function)
    (level : Level) :
    ∀ groups : List (FStage × Group),
      (∀ e ∈ groups, (∃ f ∈ outputs, f.name = e.1.func) ∧
        ∃ f, env_find part.env e.1.func = some f) →
      part.get_grouping_candidate groups outputs level = Except.ok [] := by
  intro groups
  induction groups with
  | nil => intro _; rfl
  | cons g rest ih =>
    intro h
    rw [get_grouping_candidate_cons,
      grouping_candidate_of_output part outputs level g.1 (h g (by simp)).1 (h g (by simp)).2]
    exact ih (fun e he => h e (by simp [he]))

/-- C19: when every key of `groups` is a stage of an output function (and
the outputs are functions of the environment), `get_grouping_candidate`
returns the empty list at both levels, and `group` and `group_recurse` stop
after one turn of their loop, for every evaluator and every bound of at
least one turn, with the whole state (groups, children, group costs
included) unchanged. -/
theorem fully_inlined_noop (P : Primitives) (part : Partitioner)
    (hout : ∀ e ∈ part.groups, ∃ f ∈ part.outputs, f.name = e.1.func)
    (henv : ∀ f ∈ part.outputs, ∃ f1, env_find part.env f.name = some f1) :
    (∀ level : Level,
      part.get_grouping_candidate part.groups part.outputs level = Except.ok []) ∧
    (∀ (EV : Partitioner → EvaluateChoice) (level : Level) (tile_bounds : TileSizes),
      part.group_iteration P EV level tile_bounds = Except.ok (part, true)) ∧
    (∀ (EV : Partitioner → EvaluateChoice) (level : Level) (tile_bounds : TileSizes)
        (fuel : Nat),
      part.group P EV level tile_bounds (fuel + 1) = Except.ok (some part)) ∧
    (∀ EVR : Partitioner → EvaluateChoiceRecurse,
      part.group_recurse_iteration P EVR = Except.ok (part, true)) ∧
    (∀ (EVR : Partitioner → EvaluateChoiceRecurse) (fuel : Nat),
      part.group_recurse P EVR (fuel + 1) = Except.ok (some part)) := by
  have hc : ∀ level : Level,
      part.get_grouping_candidate part.groups part.outputs level = Except.ok [] := by
    intro level
    apply get_grouping_candidate_outputs
    intro e he
    obtain ⟨f, hf, hfe⟩ := hout e he
    refine ⟨⟨f, hf, hfe⟩, ?_⟩
    rw [← hfe]
    exact henv f hf
  have hit : ∀ (EV : Partitioner → EvaluateChoice) (level : Level) (tile_bounds : TileSizes),
      part.group_iteration P EV level tile_bounds = Except.ok (part, true) := by
    intro EV level tile_bounds
    unfold Partitioner.group_iteration
    rw [hc level]
    simp [Partitioner.choose_candidate_grouping, choose_candidate_grouping_loop]
  have hitr : ∀ EVR : Partitioner → EvaluateChoiceRecurse,
      part.group_recurse_iteration P EVR = Except.ok (part, true) := by
    intro EVR
    unfold Partitioner.group_recurse_iteration
    rw [hc Level.FastMem]
    simp [Partitioner.choose_candidate_grouping_recurse, choose_candidate_grouping_recurse_loop]
  refine ⟨hc, hit, ?_, hitr, ?_⟩
  · intro EV level tile_bounds fuel
    unfold Partitioner.group
    rw [hit]
  · intro EVR fuel
    unfold Partitioner.group_recurse
    rw [hitr]

theorem fully_inlined_noop_witness :
    (∀ e ∈ example_part_inlined.groups,
      ∃ f ∈ example_part_inlined.outputs, f.name = e.1.func) ∧
    (∀ f ∈ example_part_inlined.outputs,
      ∃ f1, env_find example_part_inlined.env f.name = some f1) ∧
    example_part_inlined.group Primitives.basic (fun _ => example_evaluate_choice)
      Level.Inline [] 1 = Except.ok (some example_part_inlined) ∧
    example_part_inlined.group_recurse Primitives.basic
      (fun _ => example_evaluate_choice_recurse) 1 = Except.ok (some example_part_inlined) :=
  have henv : ∀ f ∈ example_part_inlined.outputs,
      ∃ f1, env_find example_part_inlined.env f.name = some f1 := by
    intro f hf
    have hfg : f = example_function "g" := by
      simpa [example_part_inlined, example_part] using hf
    subst hfg
    exact ⟨example_function "g", by decide⟩
  ⟨by decide, henv,
    (fully_inlined_noop Primitives.basic example_part_inlined (by decide) henv).2.2.1
      (fun _ => example_evaluate_choice) Level.Inline [] 0,
    (fully_inlined_noop Primitives.basic example_part_inlined (by decide) henv).2.2.2.2
      (fun _ => example_evaluate_choice_recurse) 0⟩
/-! ### One accepted merge -/

theorem group_iteration_merge (P : Primitives) (EV : Partitioner → EvaluateChoice)
    (level : Level) (tile_bounds : TileSizes) (part part1 : Partitioner)
    (h : part.group_iteration P EV level tile_bounds = Except.ok (part1, false)) :
    ∃ cand best0 rest cache prod_f pgc part3,
      part.get_grouping_candidate part.groups part.outputs level = Except.ok cand ∧
      part.choose_candidate_grouping P (EV part) cand level tile_bounds =
        Except.ok (best0 :: rest, cache) ∧
      env_find part.env best0.1.prod = some prod_f ∧
      map_find part.children (⟨prod_f.name, prod_f.updates⟩ : FStage) = some pgc ∧
      merge_best best0.1.prod level (best0 :: rest)
        { part with
          grouping_cache :=
            (invalid_keys cache pgc).foldl (fun c key => map_erase c key) cache } =
        Except.ok part3 ∧
      part1 = erase_producer_stages prod_f pgc (List.range (prod_f.updates + 1)) part3 := by
  unfold Partitioner.group_iteration at h
  split at h
  · exact absurd h (by simp)
  · next cand hcand =>
    split at h
    · exact absurd h (by simp)
    · next best cache hchoose =>
      simp only [] at h
      split at h
      · simp at h
      · next best0 rest =>
        split at h
        · exact absurd h (by simp)
        · next prod_f hf =>
          split at h
          · exact absurd h (by simp)
          · next pgc hpgc =>
            split at h
            · exact absurd h (by simp)
            · next part3 hmerge =>
              simp only [Except.ok.injEq, Prod.mk.injEq, and_true] at h
              simp only [Nat.add_sub_cancel] at hpgc
              exact ⟨cand, best0, rest, cache, prod_f, pgc, part3, hcand, hchoose,
                (env_get_ok _ _ _).mp hf, (get_element_ok _ _ _).mp hpgc, hmerge, h.symm⟩

theorem group_recurse_iteration_merge (P : Primitives)
    (EVR : Partitioner → EvaluateChoiceRecurse) (part part1 : Partitioner)
    (h : part.group_recurse_iteration P EVR = Except.ok (part1, false)) :
    ∃ cand best0 rest subs prod_f pgc part3,
      part.get_grouping_candidate part.groups part.outputs Level.FastMem = Except.ok cand ∧
      part.choose_candidate_grouping_recurse P (EVR part) cand =
        Except.ok (best0 :: rest, subs) ∧
      env_find part.env best0.1.prod = some prod_f ∧
      map_find part.children (⟨prod_f.name, prod_f.updates⟩ : FStage) = some pgc ∧
      merge_best_recurse best0.1.prod (best0 :: rest) subs
        { part with
          grouping_cache :=
            (invalid_keys part.grouping_cache pgc).foldl (fun c key => map_erase c key)
              part.grouping_cache } =
        Except.ok part3 ∧
      part1 = erase_producer_stages prod_f pgc (List.range (prod_f.updates + 1)) part3 := by
  unfold Partitioner.group_recurse_iteration at h
  split at h
  · exact absurd h (by simp)
  · next cand hcand =>
    split at h
    · exact absurd h (by simp)
    · next best subs hchoose =>
      split at h
      · exact absurd h (by simp)
      · split at h
        · simp at h
        · next best0 rest _ =>
          simp only [] at h
          split at h
          · exact absurd h (by simp)
          · next prod_f hf =>
            split at h
            · exact absurd h (by simp)
            · next pgc hpgc =>
              split at h
              · exact absurd h (by simp)
              · next part3 hmerge =>
                simp only [Except.ok.injEq, Prod.mk.injEq, and_true] at h
                simp only [Nat.add_sub_cancel] at hpgc
                exact ⟨cand, best0, rest, subs, prod_f, pgc, part3, hcand, hchoose,
                  (env_get_ok _ _ _).mp hf, (get_element_ok _ _ _).mp hpgc, hmerge, h.symm⟩

theorem merge_groups_cache (part part1 : Partitioner) (choice : GroupingChoice)
    (eval : GroupConfig) (level : Level)
    (h : part.merge_groups choice eval level = Except.ok part1) :
    part1.grouping_cache = part.grouping_cache ∧ part1.arch_params = part.arch_params := by
  unfold Partitioner.merge_groups at h
  split at h
  · exact absurd h (by simp)
  · simp only [] at h
    split at h
    · exact absurd h (by simp)
    · split at h
      · exact absurd h (by simp)
      · simp only [Except.ok.injEq] at h
        subst h
        exact ⟨rfl, rfl⟩

theorem merge_best_cache (prod : String) (level : Level) :
    ∀ (best : List (GroupingChoice × GroupConfig)) (part part1 : Partitioner),
      merge_best prod level best part = Except.ok part1 →
      part1.grouping_cache = part.grouping_cache ∧ part1.arch_params = part.arch_params := by
  intro best
  induction best with
  | nil =>
    intro part part1 h
    simp only [merge_best, Except.ok.injEq] at h
    subst h
    exact ⟨rfl, rfl⟩
  | cons g rest ih =>
    intro part part1 h
    unfold merge_best at h
    split at h
    · split at h
      · exact absurd h (by simp)
      · next part2 hm =>
        obtain ⟨h1, h2⟩ := merge_groups_cache _ _ _ _ _ hm
        obtain ⟨h3, h4⟩ := ih part2 part1 h
        exact ⟨h3.trans h1, h4.trans h2⟩
    · exact absurd h (by simp)

theorem merge_best_recurse_cache (prod : String) :
    ∀ (best : List (GroupingChoice × GroupConfig)) (subs : List (List Group))
      (part part1 : Partitioner),
      merge_best_recurse prod best subs part = Except.ok part1 →
      part1.grouping_cache = part.grouping_cache ∧ part1.arch_params = part.arch_params := by
  intro best
  induction best with
  | nil =>
    intro subs part part1 h
    simp only [merge_best_recurse, Except.ok.injEq] at h
    subst h
    exact ⟨rfl, rfl⟩
  | cons g rest ih =>
    intro subs part part1 h
    cases subs with
    | nil => simp [merge_best_recurse] at h
    | cons sub subs1 =>
      unfold merge_best_recurse at h
      split at h
      · split at h
        · exact absurd h (by simp)
        · next part2 hm =>
          obtain ⟨h1, h2⟩ := merge_groups_cache _ _ _ _ _ hm
          split at h
          · exact absurd h (by simp)
          · obtain ⟨h3, h4⟩ := ih subs1 _ part1 h
            exact ⟨h3.trans h1, h4.trans h2⟩
      · exact absurd h (by simp)

theorem erase_producer_stages_cache (prod_f : Function) (pgc : List FStage) :
    ∀ (stages : List Nat) (part : Partitioner),
      (erase_producer_stages prod_f pgc stages part).grouping_cache = part.grouping_cache ∧
      (erase_producer_stages prod_f pgc stages part).arch_params = part.arch_params := by
  intro stages
  induction stages with
  | nil => intro part; exact ⟨rfl, rfl⟩
  | cons s rest ih =>
    intro part
    unfold erase_producer_stages
    exact ih _

theorem mem_foldl_map_erase {κ ν : Type} [DecidableEq κ] :
    ∀ (keys : List κ) (m : List (κ × ν)) (e : κ × ν),
      e ∈ keys.foldl (fun c key => map_erase c key) m ↔ e ∈ m ∧ e.1 ∉ keys := by
  intro keys
  induction keys with
  | nil => intro m e; simp
  | cons k rest ih =>
    intro m e
    rw [List.foldl_cons, ih]
    simp only [map_erase, List.mem_filter, List.mem_cons, not_or,
      Bool.not_eq_true', decide_eq_false_iff_not]
    tauto

theorem mem_invalid_keys_inner (c : FStage) (k : GroupingChoice) :
    ∀ (cache : List (GroupingChoice × GroupConfig)) (acc : List GroupingChoice),
      k ∈ cache.foldl
          (fun acc1 entry =>
            if entry.1.prod == c.func || entry.1.cons == c then
              set_insert GroupingChoice.lt entry.1 acc1
            else acc1)
          acc ↔
        k ∈ acc ∨ ∃ entry ∈ cache, entry.1 = k ∧ (entry.1.prod = c.func ∨ entry.1.cons = c) := by
  intro cache
  induction cache with
  | nil => intro acc; simp
  | cons e rest ih =>
    intro acc
    simp only [List.foldl_cons]
    rw [ih]
    by_cases hcond : (e.1.prod == c.func || e.1.cons == c) = true
    · simp only [hcond, if_true]
      have hcond1 : e.1.prod = c.func ∨ e.1.cons = c := by simpa using hcond
      constructor
      · rintro (h | ⟨x, hx, hxk, hxc⟩)
        · rcases mem_of_mem_set_insert _ _ _ _ h with h1 | h1
          · exact Or.inr ⟨e, by simp, h1.symm, hcond1⟩
          · exact Or.inl h1
        · exact Or.inr ⟨x, by simp [hx], hxk, hxc⟩
      · rintro (h | ⟨x, hx, hxk, hxc⟩)
        · exact Or.inl (mem_set_insert_of_mem _ _ _ _ h)
        · simp only [List.mem_cons] at hx
          rcases hx with hx | hx
          · subst hx
            rw [← hxk]
            exact Or.inl (mem_set_insert_self _ GroupingChoice_lt_trichotomy _ _)
          · exact Or.inr ⟨x, hx, hxk, hxc⟩
    · simp only [hcond, if_false]
      have hcond1 : ¬ (e.1.prod = c.func ∨ e.1.cons = c) := by simpa using hcond
      constructor
      · rintro (h | ⟨x, hx, hxk, hxc⟩)
        · exact Or.inl h
        · exact Or.inr ⟨x, by simp [hx], hxk, hxc⟩
      · rintro (h | ⟨x, hx, hxk, hxc⟩)
        · exact Or.inl h
        · simp only [List.mem_cons] at hx
          rcases hx with hx | hx
          · subst hx
            exact absurd hxc hcond1
          · exact Or.inr ⟨x, hx, hxk, hxc⟩

theorem mem_invalid_keys_from (cache : List (GroupingChoice × GroupConfig))
    (k : GroupingChoice) :
    ∀ (pgc : List FStage) (acc : List GroupingChoice),
      k ∈ pgc.foldl
          (fun acc c =>
            cache.foldl
              (fun acc1 entry =>
                if entry.1.prod == c.func || entry.1.cons == c then
                  set_insert GroupingChoice.lt entry.1 acc1
                else acc1)
              acc)
          acc ↔
        k ∈ acc ∨ ∃ c ∈ pgc, ∃ entry ∈ cache, entry.1 = k ∧
          (entry.1.prod = c.func ∨ entry.1.cons = c) := by
  intro pgc
  induction pgc with
  | nil => intro acc; simp
  | cons c rest ih =>
    intro acc
    simp only [List.foldl_cons]
    rw [ih, mem_invalid_keys_inner]
    simp only [List.mem_cons, exists_eq_or_imp, or_assoc]

theorem mem_invalid_keys (cache : List (GroupingChoice × GroupConfig)) (pgc : List FStage)
    (k : GroupingChoice) :
    k ∈ invalid_keys cache pgc ↔
      ∃ c ∈ pgc, ∃ entry ∈ cache, entry.1 = k ∧ (entry.1.prod = c.func ∨ entry.1.cons = c) := by
  unfold invalid_keys
  rw [mem_invalid_keys_from]
  simp

theorem mem_cache_after_invalidation (cache : List (GroupingChoice × GroupConfig))
    (pgc : List FStage) (entry : GroupingChoice × GroupConfig) :
    entry ∈ (invalid_keys cache pgc).foldl (fun c key => map_erase c key) cache ↔
      entry ∈ cache ∧ ∀ c ∈ pgc, entry.1.prod ≠ c.func ∧ entry.1.cons ≠ c := by
  rw [mem_foldl_map_erase, mem_invalid_keys]
  constructor
  · rintro ⟨h1, h2⟩
    refine ⟨h1, fun c hc => ?_⟩
    constructor
    · intro hp
      exact h2 ⟨c, hc, entry, h1, rfl, Or.inl hp⟩
    · intro hp
      exact h2 ⟨c, hc, entry, h1, rfl, Or.inr hp⟩
  · rintro ⟨h1, h2⟩
    refine ⟨h1, ?_⟩
    rintro ⟨c, hc, x, _, hxk, hxc⟩
    rw [hxk] at hxc
    rcases hxc with hxc | hxc
    · exact (h2 c hc).1 hxc
    · exact (h2 c hc).2 hxc

/-- C18 fails as stated: in the chain `r -> p -> g` the first turn of
`group` at level `Inline` evaluates the choices `(p, g.0)` and `(r, p.0)`,
accepts the merge of `p` into `g`, and leaves the entry `(r, p.0)`, whose
consumer is a stage of the merged producer `p`, in the grouping cache. -/
theorem cache_invalidation_counterexample :
    Except.map
      (fun r : Partitioner × Bool =>
        (r.1.grouping_cache.map Prod.fst, r.1.groups.map Prod.fst, r.2))
      (example_chain.group_iteration Primitives.basic (fun _ => example_evaluate_choice)
        Level.Inline []) =
      Except.ok ([⟨"r", ⟨"p", 0⟩⟩], [⟨"g", 0⟩, ⟨"r", 0⟩], false) := by
  decide

/-- C18, amended: on an accepted merge of a producer `p` in a turn of
`group`, the grouping cache afterwards holds exactly those entries of the
cache left by the selection whose consumer is not a child `c` of the final
stage of `p` and whose producer is not the function of such a child; so no
entry `(p, c)` evaluated for the merge and no entry into or out of a stage
that absorbed `p` remains.  (Entries whose consumer is a stage of `p` are
not touched.) -/
theorem cache_invalidation (P : Primitives) (EV : Partitioner → EvaluateChoice)
    (level : Level) (tile_bounds : TileSizes) (part part1 : Partitioner)
    (h : part.group_iteration P EV level tile_bounds = Except.ok (part1, false)) :
    ∃ cand best0 rest cache prod_f pgc,
      part.get_grouping_candidate part.groups part.outputs level = Except.ok cand ∧
      part.choose_candidate_grouping P (EV part) cand level tile_bounds =
        Except.ok (best0 :: rest, cache) ∧
      env_find part.env best0.1.prod = some prod_f ∧
      map_find part.children (⟨prod_f.name, prod_f.updates⟩ : FStage) = some pgc ∧
      (∀ entry, entry ∈ part1.grouping_cache ↔
        entry ∈ cache ∧ ∀ c ∈ pgc, entry.1.prod ≠ c.func ∧ entry.1.cons ≠ c) ∧
      (∀ c ∈ pgc, ∀ entry ∈ part1.grouping_cache,
        entry.1 ≠ ⟨best0.1.prod, c⟩ ∧ entry.1.cons ≠ c ∧ entry.1.prod ≠ c.func) := by
  obtain ⟨cand, best0, rest, cache, prod_f, pgc, part3, h1, h2, h3, h4, h5, h6⟩ :=
    group_iteration_merge P EV level tile_bounds part part1 h
  have hcache : part1.grouping_cache =
      (invalid_keys cache pgc).foldl (fun c key => map_erase c key) cache := by
    rw [h6, (erase_producer_stages_cache prod_f pgc _ part3).1,
      (merge_best_cache _ _ _ _ _ h5).1]
  refine ⟨cand, best0, rest, cache, prod_f, pgc, h1, h2, h3, h4, ?_, ?_⟩
  · intro entry
    rw [hcache]
    exact mem_cache_after_invalidation cache pgc entry
  · intro c hc entry he
    rw [hcache] at he
    obtain ⟨_, hne⟩ := (mem_cache_after_invalidation cache pgc entry).mp he
    refine ⟨?_, (hne c hc).2, (hne c hc).1⟩
    intro heq
    apply (hne c hc).2
    rw [heq]

theorem cache_invalidation_witness :
    example_chain.group_iteration Primitives.basic (fun _ => example_evaluate_choice)
      Level.Inline [] = Except.ok (example_chain_merged, false) ∧
    ∃ cand best0 rest cache prod_f pgc,
      example_chain.get_grouping_candidate example_chain.groups example_chain.outputs
        Level.Inline = Except.ok cand ∧
      example_chain.choose_candidate_grouping Primitives.basic example_evaluate_choice cand
        Level.Inline [] = Except.ok (best0 :: rest, cache) ∧
      env_find example_chain.env best0.1.prod = some prod_f ∧
      map_find example_chain.children (⟨prod_f.name, prod_f.updates⟩ : FStage) = some pgc ∧
      (∀ entry, entry ∈ example_chain_merged.grouping_cache ↔
        entry ∈ cache ∧ ∀ c ∈ pgc, entry.1.prod ≠ c.func ∧ entry.1.cons ≠ c) ∧
      (∀ c ∈ pgc, ∀ entry ∈ example_chain_merged.grouping_cache,
        entry.1 ≠ ⟨best0.1.prod, c⟩ ∧ entry.1.cons ≠ c ∧ entry.1.prod ≠ c.func) :=
  ⟨by rfl, cache_invalidation Primitives.basic (fun _ => example_evaluate_choice)
    Level.Inline [] example_chain example_chain_merged (by rfl)⟩
/-! ### The children map after a merge -/

theorem map_find_erase_self {κ ν : Type} [DecidableEq κ] (k : κ) :
    ∀ m : List (κ × ν), map_find (map_erase m k) k = none := by
  intro m
  induction m with
  | nil => rfl
  | cons e rest ih =>
    obtain ⟨k1, v1⟩ := e
    by_cases hk : k1 = k
    · simp only [map_erase, List.filter, hk, decide_True, Bool.not_true]
      exact ih
    · simp only [map_erase, List.filter, hk, decide_False, Bool.not_false, map_find, if_false]
      exact ih

theorem mem_set_insert_all (xs s : List FStage) (x : FStage) :
    x ∈ set_insert_all FStage.lt xs s ↔ x ∈ s ∨ x ∈ xs := by
  unfold set_insert_all
  constructor
  · intro h
    rcases mem_of_mem_foldl_set_insert FStage.lt (fun x => x) x _ _ h with h1 | ⟨y, hy, rfl⟩
    · exact Or.inl h1
    · exact Or.inr hy
  · rintro (h | h)
    · exact mem_foldl_set_insert_of_mem FStage.lt (fun x => x) x _ _ h
    · exact mem_foldl_set_insert FStage.lt FStage_lt_trichotomy (fun x => x) _ _ x h

theorem map_find_map_values {κ ν : Type} [DecidableEq κ] (F : κ × ν → κ × ν) (G : ν → ν)
    (hF : ∀ e, F e = (e.1, G e.2)) (k : κ) :
    ∀ m : List (κ × ν), map_find (m.map F) k = (map_find m k).map G := by
  intro m
  induction m with
  | nil => rfl
  | cons e rest ih =>
    obtain ⟨k1, v1⟩ := e
    rw [List.map_cons, hF]
    by_cases hk : k1 = k
    · simp [map_find, hk]
    · simp only [map_find, hk, if_false]
      exact ih

theorem rewire_children_eq (pg : FStage) (pgc : List FStage) (e : FStage × List FStage) :
    (if e.2.contains pg then
        (e.1, set_insert_all FStage.lt pgc (e.2.filter (fun c => !decide (c = pg))))
      else e) =
      (e.1, if e.2.contains pg then
          set_insert_all FStage.lt pgc (e.2.filter (fun c => !decide (c = pg)))
        else e.2) := by
  by_cases hc : e.2.contains pg = true
  · simp only [hc, if_true]
  · simp only [hc]
    rfl

theorem map_find_rewire_children (pg : FStage) (pgc : List FStage) (k : FStage) (hk : k ≠ pg)
    (children : List (FStage × List FStage)) :
    map_find (rewire_children children pg pgc) k =
      (map_find children k).map
        (fun cs =>
          if cs.contains pg then
            set_insert_all FStage.lt pgc (cs.filter (fun c => !decide (c = pg)))
          else cs) := by
  unfold rewire_children
  rw [map_find_map_values _
    (fun cs =>
      if cs.contains pg then
        set_insert_all FStage.lt pgc (cs.filter (fun c => !decide (c = pg)))
      else cs)
    (rewire_children_eq pg pgc) k, map_find_erase_ne k pg hk]

theorem map_find_rewire_children_self (pg : FStage) (pgc : List FStage)
    (children : List (FStage × List FStage)) :
    map_find (rewire_children children pg pgc) pg = none := by
  unfold rewire_children
  rw [map_find_map_values _
    (fun cs =>
      if cs.contains pg then
        set_insert_all FStage.lt pgc (cs.filter (fun c => !decide (c = pg)))
      else cs)
    (rewire_children_eq pg pgc) pg, map_find_erase_self]
  rfl

theorem erase_producer_stages_erased (prod_f : Function) (pgc : List FStage) :
    ∀ (stages : List Nat) (part : Partitioner) (k : FStage),
      ((k.func = prod_f.name ∧ k.stage_num ∈ stages) ∨
        (map_find part.groups k = none ∧ map_find part.group_costs k = none ∧
          map_find part.children k = none)) →
      map_find (erase_producer_stages prod_f pgc stages part).groups k = none ∧
        map_find (erase_producer_stages prod_f pgc stages part).group_costs k = none ∧
        map_find (erase_producer_stages prod_f pgc stages part).children k = none := by
  intro stages
  induction stages with
  | nil =>
    intro part k h
    rcases h with ⟨_, h⟩ | h
    · simp at h
    · exact h
  | cons s rest ih =>
    intro part k h
    unfold erase_producer_stages
    apply ih
    by_cases hks : k = (⟨prod_f.name, s⟩ : FStage)
    · right
      subst hks
      exact ⟨map_find_erase_self _ _, map_find_erase_self _ _, map_find_rewire_children_self _ _ _⟩
    · rcases h with ⟨h1, h2⟩ | ⟨h1, h2, h3⟩
      · left
        simp only [List.mem_cons] at h2
        rcases h2 with h2 | h2
        · exact absurd (FStage_eq k ⟨prod_f.name, s⟩ h1 h2) hks
        · exact ⟨h1, h2⟩
      · right
        refine ⟨?_, ?_, ?_⟩
        · simp only []
          rw [map_find_erase_ne k _ hks, h1]
        · simp only []
          rw [map_find_erase_ne k _ hks, h2]
        · simp only []
          rw [map_find_rewire_children _ _ k hks, h3]
          rfl
theorem mem_rewired_set (pg : FStage) (pgc cs : List FStage) (x : FStage) :
    x ∈ (if cs.contains pg then
          set_insert_all FStage.lt pgc (cs.filter (fun c => !decide (c = pg)))
        else cs) ↔
      if pg ∈ cs then (x ∈ cs ∧ x ≠ pg) ∨ x ∈ pgc else x ∈ cs := by
  by_cases h : pg ∈ cs
  · have hc : cs.contains pg = true := by simpa using h
    simp only [hc, h, if_true, mem_set_insert_all, List.mem_filter, Bool.not_eq_true',
      decide_eq_false_iff_not]
  · have hc : ¬ cs.contains pg = true := by simpa using h
    simp only [hc, h, if_false]
    simp

theorem erase_producer_stages_children_none (prod_f : Function) (pgc : List FStage) :
    ∀ (stages : List Nat) (part : Partitioner) (k : FStage),
      map_find part.children k = none →
      map_find (erase_producer_stages prod_f pgc stages part).children k = none := by
  intro stages
  induction stages with
  | nil => intro part k h; exact h
  | cons s rest ih =>
    intro part k h
    unfold erase_producer_stages
    apply ih
    simp only []
    by_cases hks : k = (⟨prod_f.name, s⟩ : FStage)
    · rw [hks]
      exact map_find_rewire_children_self _ _ _
    · rw [map_find_rewire_children _ _ k hks, h]
      rfl

theorem erase_producer_stages_children (prod_f : Function) (pgc : List FStage)
    (hpgc : ∀ c ∈ pgc, c.func ≠ prod_f.name) :
    ∀ (stages : List Nat), stages.Nodup →
      ∀ (part : Partitioner) (k : FStage) (cs : List FStage),
        ¬ (k.func = prod_f.name ∧ k.stage_num ∈ stages) →
        map_find part.children k = some cs →
        ∃ cs1, map_find (erase_producer_stages prod_f pgc stages part).children k = some cs1 ∧
          (∀ x, x ∈ cs1 ↔
            (x ∈ cs ∧ ¬ (x.func = prod_f.name ∧ x.stage_num ∈ stages)) ∨
              (x ∈ pgc ∧ ∃ s ∈ stages, (⟨prod_f.name, s⟩ : FStage) ∈ cs)) ∧
          ((∀ s ∈ stages, (⟨prod_f.name, s⟩ : FStage) ∉ cs) → cs1 = cs) := by
  intro stages
  induction stages with
  | nil =>
    intro _ part k cs _ h
    exact ⟨cs, h, by simp, fun _ => rfl⟩
  | cons s rest ih =>
    intro hnd part k cs hk h
    have hs : s ∉ rest := (List.nodup_cons.mp hnd).1
    have hks : k ≠ (⟨prod_f.name, s⟩ : FStage) := by
      intro heq
      apply hk
      rw [heq]
      exact ⟨rfl, by simp⟩
    have hkrest : ¬ (k.func = prod_f.name ∧ k.stage_num ∈ rest) :=
      fun hh => hk ⟨hh.1, by simp [hh.2]⟩
    unfold erase_producer_stages
    have hfind : map_find
        ({ part with
            groups := map_erase part.groups (⟨prod_f.name, s⟩ : FStage)
            group_costs := map_erase part.group_costs (⟨prod_f.name, s⟩ : FStage)
            children := rewire_children part.children ⟨prod_f.name, s⟩ pgc } :
          Partitioner).children k =
        some (if cs.contains (⟨prod_f.name, s⟩ : FStage) then
            set_insert_all FStage.lt pgc
              (cs.filter (fun c => !decide (c = (⟨prod_f.name, s⟩ : FStage))))
          else cs) := by
      simp only []
      rw [map_find_rewire_children _ _ k hks, h]
      rfl
    obtain ⟨cs1, h1, h2, h3⟩ := ih (List.nodup_cons.mp hnd).2 _ k _ hkrest hfind
    refine ⟨cs1, h1, ?_, ?_⟩
    · intro x
      have hxs : (x.func = prod_f.name ∧ x.stage_num ∈ s :: rest) ↔
          (x = (⟨prod_f.name, s⟩ : FStage) ∨ (x.func = prod_f.name ∧ x.stage_num ∈ rest)) := by
        constructor
        · rintro ⟨hf, hm⟩
          simp only [List.mem_cons] at hm
          rcases hm with hm | hm
          · exact Or.inl (FStage_eq _ _ hf hm)
          · exact Or.inr ⟨hf, hm⟩
        · rintro (hx | ⟨hf, hm⟩)
          · rw [hx]; exact ⟨rfl, by simp⟩
          · exact ⟨hf, by simp [hm]⟩
      have hF1 : ∀ s1 ∈ rest,
          ((⟨prod_f.name, s1⟩ : FStage) ∈
            (if cs.contains (⟨prod_f.name, s⟩ : FStage) then
              set_insert_all FStage.lt pgc
                (cs.filter (fun c => !decide (c = (⟨prod_f.name, s⟩ : FStage))))
            else cs) ↔ (⟨prod_f.name, s1⟩ : FStage) ∈ cs) := by
        intro s1 hs1
        have hne : (⟨prod_f.name, s1⟩ : FStage) ≠ ⟨prod_f.name, s⟩ := by
          intro heq
          have : s1 = s := by simpa using heq
          exact hs (this ▸ hs1)
        have hnp : (⟨prod_f.name, s1⟩ : FStage) ∉ pgc := fun hm => hpgc _ hm rfl
        rw [mem_rewired_set]
        split
        · constructor
          · rintro (hh | hh)
            · exact hh.1
            · exact absurd hh hnp
          · intro hh
            exact Or.inl ⟨hh, hne⟩
        · exact Iff.rfl
      have hxp : x ∈ pgc → ¬ (x.func = prod_f.name ∧ x.stage_num ∈ rest) :=
        fun hx hh => hpgc x hx hh.1
      have hxp2 : x ∈ pgc → x ≠ (⟨prod_f.name, s⟩ : FStage) := by
        intro hx heq
        apply hpgc x hx
        rw [heq]
      rw [h2 x, mem_rewired_set, hxs]
      have hex : (∃ s1 ∈ rest, (⟨prod_f.name, s1⟩ : FStage) ∈
            (if cs.contains (⟨prod_f.name, s⟩ : FStage) then
              set_insert_all FStage.lt pgc
                (cs.filter (fun c => !decide (c = (⟨prod_f.name, s⟩ : FStage))))
            else cs)) ↔ ∃ s1 ∈ rest, (⟨prod_f.name, s1⟩ : FStage) ∈ cs := by
        constructor
        · rintro ⟨s1, hs1, hm⟩
          exact ⟨s1, hs1, (hF1 s1 hs1).mp hm⟩
        · rintro ⟨s1, hs1, hm⟩
          exact ⟨s1, hs1, (hF1 s1 hs1).mpr hm⟩
      rw [hex]
      have hex2 : (∃ s1 ∈ s :: rest, (⟨prod_f.name, s1⟩ : FStage) ∈ cs) ↔
          ((⟨prod_f.name, s⟩ : FStage) ∈ cs ∨ ∃ s1 ∈ rest, (⟨prod_f.name, s1⟩ : FStage) ∈ cs) := by
        simp only [List.mem_cons, exists_eq_or_imp]
      rw [hex2]
      by_cases hA : (⟨prod_f.name, s⟩ : FStage) ∈ cs
      · simp only [hA, if_true, true_or, and_true]
        constructor
        · rintro (⟨hh | hh, hr⟩ | ⟨hh, _⟩)
          · exact Or.inl ⟨hh.1, fun h => h.elim hh.2 hr⟩
          · exact Or.inr hh
          · exact Or.inr hh
        · rintro (⟨hh, hn⟩ | hh)
          · exact Or.inl ⟨Or.inl ⟨hh, fun h => hn (Or.inl h)⟩, fun h => hn (Or.inr h)⟩
          · exact Or.inl ⟨Or.inr hh, hxp hh⟩
      · simp only [hA, if_false, false_or]
        constructor
        · rintro (⟨hh, hr⟩ | hh)
          · refine Or.inl ⟨hh, fun h => h.elim (fun heq => hA (heq ▸ hh)) hr⟩
          · exact Or.inr hh
        · rintro (⟨hh, hn⟩ | hh)
          · exact Or.inl ⟨hh, fun h => hn (Or.inr h)⟩
          · exact Or.inr hh
    · intro hno
      have hA : (⟨prod_f.name, s⟩ : FStage) ∉ cs := hno s (by simp)
      have hc : ¬ cs.contains (⟨prod_f.name, s⟩ : FStage) = true := by simpa using hA
      have hG : (if cs.contains (⟨prod_f.name, s⟩ : FStage) then
            set_insert_all FStage.lt pgc
              (cs.filter (fun c => !decide (c = (⟨prod_f.name, s⟩ : FStage))))
          else cs) = cs := by
        simp only [hc, if_false]
        simp
      rw [hG] at h3
      exact h3 (fun s1 hs1 => hno s1 (by simp [hs1]))
theorem merge_groups_stages_present (groups : List (FStage × Group)) (prod_f : Function)
    (level : Level) :
    ∀ (stages : List Nat) (child_group merged : Group),
      merge_groups_stages groups prod_f level stages child_group = Except.ok merged →
      ∀ s ∈ stages, map_find groups (⟨prod_f.name, s⟩ : FStage) ≠ none := by
  intro stages
  induction stages with
  | nil => intro _ _ _ s hs; simp at hs
  | cons s0 rest ih =>
    intro child_group merged h s hs
    unfold merge_groups_stages at h
    split at h
    · exact absurd h (by simp)
    · next cand_group hc =>
      simp only [List.mem_cons] at hs
      rcases hs with hs | hs
      · rw [hs, (get_element_ok _ _ _).mp hc]
        simp
      · exact ih _ _ h s hs

theorem merge_groups_present (part part1 : Partitioner) (choice : GroupingChoice)
    (eval : GroupConfig) (level : Level)
    (h : part.merge_groups choice eval level = Except.ok part1) :
    ∃ prod_f, env_find part.env choice.prod = some prod_f ∧
      ∀ s ≤ prod_f.updates, map_find part.groups (⟨prod_f.name, s⟩ : FStage) ≠ none := by
  unfold Partitioner.merge_groups at h
  split at h
  · exact absurd h (by simp)
  · next prod_f hf =>
    simp only [] at h
    split at h
    · exact absurd h (by simp)
    · split at h
      · exact absurd h (by simp)
      · next merged hm =>
        refine ⟨prod_f, (env_get_ok _ _ _).mp hf, fun s hs => ?_⟩
        exact merge_groups_stages_present _ _ _ _ _ _ hm s
          (List.mem_range.mpr (Nat.lt_succ_of_le hs))

theorem merge_best_present (prod : String) (level : Level)
    (g : GroupingChoice × GroupConfig) (rest : List (GroupingChoice × GroupConfig))
    (part part1 : Partitioner) (h : merge_best prod level (g :: rest) part = Except.ok part1) :
    ∃ prod_f, env_find part.env g.1.prod = some prod_f ∧
      ∀ s ≤ prod_f.updates, map_find part.groups (⟨prod_f.name, s⟩ : FStage) ≠ none := by
  unfold merge_best at h
  split at h
  · split at h
    · exact absurd h (by simp)
    · next part2 hm => exact merge_groups_present _ _ _ _ _ hm
  · exact absurd h (by simp)

theorem merge_best_recurse_present (prod : String)
    (g : GroupingChoice × GroupConfig) (rest : List (GroupingChoice × GroupConfig))
    (subs : List (List Group)) (part part1 : Partitioner)
    (h : merge_best_recurse prod (g :: rest) subs part = Except.ok part1) :
    ∃ prod_f, env_find part.env g.1.prod = some prod_f ∧
      ∀ s ≤ prod_f.updates, map_find part.groups (⟨prod_f.name, s⟩ : FStage) ≠ none := by
  cases subs with
  | nil => simp [merge_best_recurse] at h
  | cons sub subs1 =>
    unfold merge_best_recurse at h
    split at h
    · split at h
      · exact absurd h (by simp)
      · next part2 hm => exact merge_groups_present _ _ _ _ _ hm
    · exact absurd h (by simp)

theorem accepted_merge_shape (P : Primitives) (part part1 : Partitioner)
    (hrun : (∃ (EV : Partitioner → EvaluateChoice) (level : Level) (tile_bounds : TileSizes),
        part.group_iteration P EV level tile_bounds = Except.ok (part1, false)) ∨
      (∃ EVR : Partitioner → EvaluateChoiceRecurse,
        part.group_recurse_iteration P EVR = Except.ok (part1, false))) :
    ∃ prod_f pgc part3,
      env_find part.env prod_f.name = some prod_f ∧
      map_find part.children (⟨prod_f.name, prod_f.updates⟩ : FStage) = some pgc ∧
      (∀ s ≤ prod_f.updates, map_find part.groups (⟨prod_f.name, s⟩ : FStage) ≠ none) ∧
      part3.children = part.children ∧
      part1 = erase_producer_stages prod_f pgc (List.range (prod_f.updates + 1)) part3 := by
  rcases hrun with ⟨EV, level, tile_bounds, h⟩ | ⟨EVR, h⟩
  · obtain ⟨cand, best0, rest, cache, prod_f, pgc, part3, _, _, h3, h4, h5, h6⟩ :=
      group_iteration_merge P EV level tile_bounds part part1 h
    obtain ⟨prod_f1, hf1, hpres⟩ := merge_best_present _ _ _ _ _ _ h5
    have hsame : prod_f1 = prod_f := by
      simp only [] at hf1
      rw [h3] at hf1
      exact (Option.some.inj hf1).symm
    subst hsame
    have hname := env_find_name _ _ _ h3
    refine ⟨prod_f1, pgc, part3, ?_, h4, hpres, (merge_best_keeps _ _ _ _ _ h5).2.2.1, h6⟩
    rw [hname]
    exact h3
  · obtain ⟨cand, best0, rest, subs, prod_f, pgc, part3, _, _, h3, h4, h5, h6⟩ :=
      group_recurse_iteration_merge P EVR part part1 h
    obtain ⟨prod_f1, hf1, hpres⟩ := merge_best_recurse_present _ _ _ _ _ _ h5
    have hsame : prod_f1 = prod_f := by
      simp only [] at hf1
      rw [h3] at hf1
      exact (Option.some.inj hf1).symm
    subst hsame
    have hname := env_find_name _ _ _ h3
    refine ⟨prod_f1, pgc, part3, ?_, h4, hpres, (merge_best_recurse_keeps _ _ _ _ _ h5).2.2.1,
      h6⟩
    rw [hname]
    exact h3

/-- C17: an accepted merge, in a turn of `group` or of `group_recurse`,
merges a producer function `p` all of whose stages were keys of `groups`.
Afterwards no stage of `p` is a key of `groups`, `group_costs` or
`children`.  When no child of the final stage of `p` is itself a stage of
`p` (the pipeline is acyclic), no stage of `p` occurs in a children set,
every remaining children set that held a stage of `p` holds all the former
children of the final stage of `p` (it is the old set without the stages of
`p`, together with those children), a children set that held no stage of `p`
is unchanged, and every key that is not a stage of `p` keeps a children
set. -/
theorem merge_rewires_children (P : Primitives) (part part1 : Partitioner)
    (hrun : (∃ (EV : Partitioner → EvaluateChoice) (level : Level) (tile_bounds : TileSizes),
        part.group_iteration P EV level tile_bounds = Except.ok (part1, false)) ∨
      (∃ EVR : Partitioner → EvaluateChoiceRecurse,
        part.group_recurse_iteration P EVR = Except.ok (part1, false))) :
    ∃ prod_f pgc,
      env_find part.env prod_f.name = some prod_f ∧
      map_find part.children (⟨prod_f.name, prod_f.updates⟩ : FStage) = some pgc ∧
      (∀ s ≤ prod_f.updates, map_find part.groups (⟨prod_f.name, s⟩ : FStage) ≠ none) ∧
      (∀ s ≤ prod_f.updates,
        map_find part1.groups (⟨prod_f.name, s⟩ : FStage) = none ∧
        map_find part1.group_costs (⟨prod_f.name, s⟩ : FStage) = none ∧
        map_find part1.children (⟨prod_f.name, s⟩ : FStage) = none) ∧
      ((∀ c ∈ pgc, c.func ≠ prod_f.name) →
        (∀ k cs1, map_find part1.children k = some cs1 →
          (∀ s ≤ prod_f.updates, (⟨prod_f.name, s⟩ : FStage) ∉ cs1) ∧
          ∃ cs, map_find part.children k = some cs ∧
            (∀ x, x ∈ cs1 ↔
              (x ∈ cs ∧ ¬ (x.func = prod_f.name ∧ x.stage_num ≤ prod_f.updates)) ∨
                (x ∈ pgc ∧ ∃ s ≤ prod_f.updates, (⟨prod_f.name, s⟩ : FStage) ∈ cs)) ∧
            ((∃ s ≤ prod_f.updates, (⟨prod_f.name, s⟩ : FStage) ∈ cs) → ∀ c ∈ pgc, c ∈ cs1) ∧
            ((∀ s ≤ prod_f.updates, (⟨prod_f.name, s⟩ : FStage) ∉ cs) → cs1 = cs)) ∧
        (∀ k cs, map_find part.children k = some cs →
          ¬ (k.func = prod_f.name ∧ k.stage_num ≤ prod_f.updates) →
          ∃ cs1, map_find part1.children k = some cs1)) := by
  obtain ⟨prod_f, pgc, part3, h1, h2, h3, h4, h5⟩ := accepted_merge_shape P part part1 hrun
  have hrange : ∀ s : Nat, s ∈ List.range (prod_f.updates + 1) ↔ s ≤ prod_f.updates := by
    intro s
    rw [List.mem_range]
    exact Nat.lt_succ_iff
  refine ⟨prod_f, pgc, h1, h2, h3, ?_, ?_⟩
  · intro s hs
    rw [h5]
    exact erase_producer_stages_erased prod_f pgc _ part3 ⟨prod_f.name, s⟩
      (Or.inl ⟨rfl, (hrange s).mpr hs⟩)
  · intro hpgc
    have hkey : ∀ k cs, map_find part.children k = some cs →
        ¬ (k.func = prod_f.name ∧ k.stage_num ≤ prod_f.updates) →
        ∃ cs1, map_find part1.children k = some cs1 ∧
          (∀ x, x ∈ cs1 ↔
            (x ∈ cs ∧ ¬ (x.func = prod_f.name ∧ x.stage_num ≤ prod_f.updates)) ∨
              (x ∈ pgc ∧ ∃ s ≤ prod_f.updates, (⟨prod_f.name, s⟩ : FStage) ∈ cs)) ∧
          ((∀ s ≤ prod_f.updates, (⟨prod_f.name, s⟩ : FStage) ∉ cs) → cs1 = cs) := by
      intro k cs hk hnk
      obtain ⟨cs1, g1, g2, g3⟩ := erase_producer_stages_children prod_f pgc hpgc
        (List.range (prod_f.updates + 1)) (List.nodup_range _) part3 k cs
        (fun hh => hnk ⟨hh.1, (hrange _).mp hh.2⟩) (by rw [h4]; exact hk)
      refine ⟨cs1, by rw [h5]; exact g1, ?_, ?_⟩
      · intro x
        rw [g2 x]
        simp only [hrange]
      · intro hno
        exact g3 (fun s hs => hno s ((hrange s).mp hs))
    constructor
    · intro k cs1 hk1
      have hnk : ¬ (k.func = prod_f.name ∧ k.stage_num ≤ prod_f.updates) := by
        intro hh
        have hnone : map_find part1.children k = none := by
          rw [h5]
          exact (erase_producer_stages_erased prod_f pgc _ part3 k
            (Or.inl ⟨hh.1, (hrange _).mpr hh.2⟩)).2.2
        rw [hnone] at hk1
        exact absurd hk1 (by simp)
      cases hcs : map_find part.children k with
      | none =>
        have hnone : map_find part1.children k = none := by
          rw [h5]
          exact erase_producer_stages_children_none prod_f pgc _ part3 k (by rw [h4]; exact hcs)
        rw [hnone] at hk1
        exact absurd hk1 (by simp)
      | some cs =>
        obtain ⟨cs2, g1, g2, g3⟩ := hkey k cs hcs hnk
        have hsame : cs2 = cs1 := by
          rw [g1] at hk1
          exact Option.some.inj hk1
        subst hsame
        refine ⟨?_, cs, rfl, g2, ?_, g3⟩
        · intro s hs hm
          rcases (g2 _).mp hm with ⟨_, hn⟩ | ⟨hp, _⟩
          · exact hn ⟨rfl, hs⟩
          · exact hpgc _ hp rfl
        · intro hex c hc
          exact (g2 c).mpr (Or.inr ⟨hc, hex⟩)
    · intro k cs hk hnk
      obtain ⟨cs1, g1, _, _⟩ := hkey k cs hk hnk
      exact ⟨cs1, g1⟩

theorem merge_rewires_children_witness :
    example_chain.group_iteration Primitives.basic (fun _ => example_evaluate_choice)
      Level.Inline [] = Except.ok (example_chain_merged, false) ∧
    ∃ prod_f pgc,
      env_find example_chain.env prod_f.name = some prod_f ∧
      map_find example_chain.children (⟨prod_f.name, prod_f.updates⟩ : FStage) = some pgc ∧
      (∀ s ≤ prod_f.updates,
        map_find example_chain.groups (⟨prod_f.name, s⟩ : FStage) ≠ none) ∧
      (∀ s ≤ prod_f.updates,
        map_find example_chain_merged.groups (⟨prod_f.name, s⟩ : FStage) = none ∧
        map_find example_chain_merged.group_costs (⟨prod_f.name, s⟩ : FStage) = none ∧
        map_find example_chain_merged.children (⟨prod_f.name, s⟩ : FStage) = none) ∧
      ((∀ c ∈ pgc, c.func ≠ prod_f.name) →
        (∀ k cs1, map_find example_chain_merged.children k = some cs1 →
          (∀ s ≤ prod_f.updates, (⟨prod_f.name, s⟩ : FStage) ∉ cs1) ∧
          ∃ cs, map_find example_chain.children k = some cs ∧
            (∀ x, x ∈ cs1 ↔
              (x ∈ cs ∧ ¬ (x.func = prod_f.name ∧ x.stage_num ≤ prod_f.updates)) ∨
                (x ∈ pgc ∧ ∃ s ≤ prod_f.updates, (⟨prod_f.name, s⟩ : FStage) ∈ cs)) ∧
            ((∃ s ≤ prod_f.updates, (⟨prod_f.name, s⟩ : FStage) ∈ cs) → ∀ c ∈ pgc, c ∈ cs1) ∧
            ((∀ s ≤ prod_f.updates, (⟨prod_f.name, s⟩ : FStage) ∉ cs) → cs1 = cs)) ∧
        (∀ k cs, map_find example_chain.children k = some cs →
          ¬ (k.func = prod_f.name ∧ k.stage_num ≤ prod_f.updates) →
          ∃ cs1, map_find example_chain_merged.children k = some cs1)) :=
  ⟨by rfl, merge_rewires_children Primitives.basic example_chain example_chain_merged
    (Or.inl ⟨fun _ => example_evaluate_choice, Level.Inline, [], by rfl⟩)⟩
/-! ### Inline choices and the merge of a choice -/

theorem string_lt_irrefl (a : String) : string_lt a a = false :=
  chars_lt_irrefl a.toList

theorem FStage_lt_irrefl (a : FStage) : FStage.lt a a = false := by
  simp [FStage.lt, string_lt_irrefl]

theorem map_find_assign_self {κ ν : Type} [DecidableEq κ] (lt : κ → κ → Bool)
    (hirr : ∀ a : κ, lt a a = false)
    (htri : ∀ a b : κ, lt a b = false → lt b a = false → a = b) (k : κ) (v : ν) :
    ∀ m : List (κ × ν), map_find (map_assign lt k v m) k = some v := by
  intro m
  induction m with
  | nil => simp [map_assign, map_find]
  | cons e rest ih =>
    obtain ⟨k1, v1⟩ := e
    unfold map_assign
    by_cases h1 : lt k k1 = true
    · simp [h1, map_find]
    · by_cases h2 : lt k1 k = true
      · have hne : k1 ≠ k := by
          intro heq
          rw [heq, hirr] at h2
          exact absurd h2 (by simp)
        simp only [h1, h2, if_true, if_false, map_find, hne]
        exact ih
      · have heq : k1 = k :=
          (htri k k1 (by simpa using h1) (by simpa using h2)).symm
        subst heq
        simp [hirr, map_find]

theorem map_find_assign_ne {κ ν : Type} [DecidableEq κ] (lt : κ → κ → Bool)
    (htri : ∀ a b : κ, lt a b = false → lt b a = false → a = b) (k k2 : κ) (v : ν)
    (hne : k2 ≠ k) :
    ∀ m : List (κ × ν), map_find (map_assign lt k v m) k2 = map_find m k2 := by
  have hne1 : ¬ k = k2 := fun h => hne h.symm
  intro m
  induction m with
  | nil => simp only [map_assign, map_find, hne1, if_false]
  | cons e rest ih =>
    obtain ⟨k1, v1⟩ := e
    unfold map_assign
    by_cases h1 : lt k k1 = true
    · simp only [h1, if_true]
      rw [map_find]
      simp only [hne1, if_false]
    · by_cases h2 : lt k1 k = true
      · simp only [h1, h2, if_true, if_false]
        by_cases hk : k1 = k2
        · simp [map_find, hk]
        · simp only [map_find, hk, if_false]
          exact ih
      · have heq : k1 = k :=
          (htri k k1 (by simpa using h1) (by simpa using h2)).symm
        have hk : ¬ k1 = k2 := fun h => hne1 (heq ▸ h)
        simp only [h1, h2, if_false, map_find, hk]

theorem unit_tile_sizes_find (v : String) :
    ∀ (ds : List Dim) (ts : TileSizes),
      map_find (ds.foldl (fun ts d => map_assign string_lt d.var (Expr.IntImm 1) ts) ts) v =
        if v ∈ ds.map (fun d => d.var) then some (Expr.IntImm 1) else map_find ts v := by
  intro ds
  induction ds using List.reverseRecOn with
  | nil => intro ts; simp
  | append_singleton ds d ih =>
    intro ts
    rw [List.foldl_append, List.foldl_cons, List.foldl_nil]
    by_cases hv : v = d.var
    · subst hv
      rw [map_find_assign_self string_lt string_lt_irrefl string_lt_trichotomy]
      simp
    · rw [map_find_assign_ne string_lt string_lt_trichotomy _ _ _ hv, ih]
      simp [hv]

theorem merge_groups_stages_spec (groups : List (FStage × Group)) (prod_f : Function)
    (level : Level) :
    ∀ (stages : List Nat) (child_group merged : Group),
      merge_groups_stages groups prod_f level stages child_group = Except.ok merged →
      merged.output = child_group.output ∧
      merged.tile_sizes = child_group.tile_sizes ∧
      merged.subgroups = child_group.subgroups ∧
      (∀ m, m ∈ merged.members ↔
        m ∈ child_group.members ∨
          ∃ s ∈ stages, ∃ pg, map_find groups (⟨prod_f.name, s⟩ : FStage) = some pg ∧
            m ∈ pg.members) ∧
      (∀ x, x ∈ merged.inlined ↔
        x ∈ child_group.inlined ∨
          ∃ s ∈ stages, ∃ pg, map_find groups (⟨prod_f.name, s⟩ : FStage) = some pg ∧
            match level with
            | Level.Inline => ∃ m ∈ pg.members, m.func = x
            | Level.FastMem => x ∈ pg.inlined) := by
  intro stages
  induction stages with
  | nil =>
    intro child_group merged h
    simp only [merge_groups_stages, Except.ok.injEq] at h
    subst h
    simp
  | cons s0 rest ih =>
    intro child_group merged h
    unfold merge_groups_stages at h
    split at h
    · exact absurd h (by simp)
    · next cand_group hc =>
      have hfind := (get_element_ok _ _ _).mp hc
      obtain ⟨h1, h2, h3, h4, h5⟩ := ih _ _ h
      refine ⟨h1, h2, h3, ?_, ?_⟩
      · intro m
        rw [h4 m]
        simp only [Group.members, List.mem_append, List.mem_cons, exists_eq_or_imp, hfind,
          Option.some.injEq, exists_eq_left']
        tauto
      · intro x
        rw [h5 x]
        simp only [Group.inlined, List.mem_cons, exists_eq_or_imp, hfind,
          Option.some.injEq, exists_eq_left']
        cases level with
        | Inline =>
          simp only []
          constructor
          · rintro (hx | hx)
            · rcases mem_of_mem_foldl_set_insert string_lt (fun stg : FStage => stg.func) x _ _ hx
                with h6 | ⟨m, hm, rfl⟩
              · exact Or.inl h6
              · exact Or.inr (Or.inl ⟨m, hm, rfl⟩)
            · exact Or.inr (Or.inr hx)
          · rintro (hx | ⟨m, hm, rfl⟩ | hx)
            · exact Or.inl (mem_foldl_set_insert_of_mem string_lt
                (fun stg : FStage => stg.func) x _ _ hx)
            · exact Or.inl (mem_foldl_set_insert string_lt string_lt_trichotomy
                (fun stg : FStage => stg.func) _ _ m hm)
            · exact Or.inr hx
        | FastMem =>
          simp only []
          constructor
          · rintro (hx | hx)
            · rcases mem_of_mem_foldl_set_insert string_lt (fun f : String => f) x _ _ hx
                with h6 | ⟨m, hm, rfl⟩
              · exact Or.inl h6
              · exact Or.inr (Or.inl hm)
            · exact Or.inr (Or.inr hx)
          · rintro (hx | hx | hx)
            · exact Or.inl (mem_foldl_set_insert_of_mem string_lt
                (fun f : String => f) x _ _ hx)
            · exact Or.inl (mem_foldl_set_insert string_lt string_lt_trichotomy
                (fun f : String => f) _ _ x hx)
            · exact Or.inr hx

theorem merge_groups_choice_spec (part part1 : Partitioner) (choice : GroupingChoice)
    (eval : GroupConfig) (level : Level)
    (h : part.merge_groups choice eval level = Except.ok part1) :
    ∃ prod_f child_group merged,
      env_find part.env choice.prod = some prod_f ∧
      map_find part.groups choice.cons = some child_group ∧
      merge_groups_stages part.groups prod_f level (List.range (prod_f.updates + 1))
        child_group = Except.ok merged ∧
      part1.groups = map_assign FStage.lt choice.cons
        (Group.mk merged.output merged.members merged.inlined eval.tile_sizes merged.subgroups)
        part.groups ∧
      part1.group_costs = map_assign FStage.lt choice.cons eval.analysis part.group_costs := by
  unfold Partitioner.merge_groups at h
  split at h
  · exact absurd h (by simp)
  · next prod_f hf =>
    simp only [] at h
    split at h
    · exact absurd h (by simp)
    · next child_group hcg =>
      split at h
      · exact absurd h (by simp)
      · next merged hm =>
        simp only [Except.ok.injEq] at h
        subst h
        exact ⟨prod_f, child_group, merged, (env_get_ok _ _ _).mp hf,
          (get_element_ok _ _ _).mp hcg, hm, rfl, rfl⟩
/-- C12: `evaluate_choice` at level `Inline` returns the tile configuration
that maps every loop dimension but the last (the outermost placeholder) of
the output stage of the consumer group, which is the consumer stage of the
choice when every group is stored under its output, to 1 and has no other
key.  After
`merge_groups(choice, eval, Inline)` the consumer group has the tile sizes
of `eval`, and its inlined set holds, besides what it held, exactly the
function names of the members of the groups of the producer stages; at
level `FastMem` it gains exactly the names inlined in those groups. -/
theorem inline_merge_spec (P : Primitives) (an : AnalyzeGroup) (D : StageDefinitions)
    (part : Partitioner) (choice : GroupingChoice) :
    (∀ (tile_bounds : TileSizes) (cfg : GroupConfig),
      part.evaluate_choice P an D choice Level.Inline tile_bounds = Except.ok cfg →
      ∃ cons, map_find part.groups choice.cons = some cons ∧
        ((∀ e ∈ part.groups, e.2.output = e.1) → cons.output = choice.cons) ∧
        (∀ d ∈ (D.dims cons.output).dropLast,
          map_find cfg.tile_sizes d.var = some (Expr.IntImm 1)) ∧
        (∀ v e, map_find cfg.tile_sizes v = some e →
          e = Expr.IntImm 1 ∧ ∃ d ∈ (D.dims cons.output).dropLast, d.var = v)) ∧
    (∀ (eval : GroupConfig) (part1 : Partitioner),
      part.merge_groups choice eval Level.Inline = Except.ok part1 →
      ∃ prod_f child_group child_group1,
        env_find part.env choice.prod = some prod_f ∧
        map_find part.groups choice.cons = some child_group ∧
        map_find part1.groups choice.cons = some child_group1 ∧
        child_group1.tile_sizes = eval.tile_sizes ∧
        (∀ s ≤ prod_f.updates, ∃ pg,
          map_find part.groups (⟨prod_f.name, s⟩ : FStage) = some pg ∧
          ∀ m ∈ pg.members, m.func ∈ child_group1.inlined) ∧
        (∀ x, x ∈ child_group1.inlined ↔
          x ∈ child_group.inlined ∨
            ∃ s ≤ prod_f.updates, ∃ pg,
              map_find part.groups (⟨prod_f.name, s⟩ : FStage) = some pg ∧
              ∃ m ∈ pg.members, m.func = x)) ∧
    (∀ (eval : GroupConfig) (part1 : Partitioner),
      part.merge_groups choice eval Level.FastMem = Except.ok part1 →
      ∃ prod_f child_group child_group1,
        env_find part.env choice.prod = some prod_f ∧
        map_find part.groups choice.cons = some child_group ∧
        map_find part1.groups choice.cons = some child_group1 ∧
        child_group1.tile_sizes = eval.tile_sizes ∧
        (∀ x, x ∈ child_group1.inlined ↔
          x ∈ child_group.inlined ∨
            ∃ s ≤ prod_f.updates, ∃ pg,
              map_find part.groups (⟨prod_f.name, s⟩ : FStage) = some pg ∧
              x ∈ pg.inlined)) := by
  have hrange : ∀ (n s : Nat), s ∈ List.range (n + 1) ↔ s ≤ n := by
    intro n s
    rw [List.mem_range]
    exact Nat.lt_succ_iff
  refine ⟨?_, ?_, ?_⟩
  · intro tile_bounds cfg h
    unfold Partitioner.evaluate_choice at h
    simp only [] at h
    split at h
    · exact absurd h (by simp)
    · split at h
      · exact absurd h (by simp)
      · split at h
        · exact absurd h (by simp)
        · next cons hcons =>
          split at h
          · exact absurd h (by simp)
          · next ga _ =>
            simp only [Except.ok.injEq] at h
            subst h
            refine ⟨cons, (get_element_ok _ _ _).mp hcons,
              fun hkey => hkey _ (map_find_mem _ _ _ ((get_element_ok _ _ _).mp hcons)), ?_, ?_⟩
            · intro d hd
              simp only [unit_tile_sizes]
              rw [unit_tile_sizes_find, if_pos (List.mem_map_of_mem _ hd)]
            · intro v e he
              simp only [unit_tile_sizes] at he
              rw [unit_tile_sizes_find] at he
              split at he
              · next hm =>
                obtain ⟨d, hd, hdv⟩ := List.mem_map.mp hm
                exact ⟨(Option.some.inj he).symm, d, hd, hdv⟩
              · simp [map_find] at he
  · intro eval part1 h
    obtain ⟨prod_f, child_group, merged, h1, h2, h3, h4, _⟩ :=
      merge_groups_choice_spec part part1 choice eval Level.Inline h
    obtain ⟨_, _, _, _, g5⟩ := merge_groups_stages_spec _ _ _ _ _ _ h3
    refine ⟨prod_f, child_group,
      Group.mk merged.output merged.members merged.inlined eval.tile_sizes merged.subgroups,
      h1, h2, ?_, rfl, ?_, ?_⟩
    · rw [h4]
      exact map_find_assign_self FStage.lt FStage_lt_irrefl FStage_lt_trichotomy _ _ _
    · intro s hs
      have hpres := merge_groups_stages_present _ _ _ _ _ _ h3 s ((hrange _ s).mpr hs)
      cases hpg : map_find part.groups (⟨prod_f.name, s⟩ : FStage) with
      | none => exact absurd hpg hpres
      | some pg =>
        refine ⟨pg, rfl, fun m hm => ?_⟩
        exact (g5 m.func).mpr (Or.inr ⟨s, (hrange _ s).mpr hs, pg, hpg, m, hm, rfl⟩)
    · intro x
      have hi : (Group.mk merged.output merged.members merged.inlined eval.tile_sizes
          merged.subgroups).inlined = merged.inlined := rfl
      rw [hi, g5 x]
      simp only [hrange]
  · intro eval part1 h
    obtain ⟨prod_f, child_group, merged, h1, h2, h3, h4, _⟩ :=
      merge_groups_choice_spec part part1 choice eval Level.FastMem h
    obtain ⟨_, _, _, _, g5⟩ := merge_groups_stages_spec _ _ _ _ _ _ h3
    refine ⟨prod_f, child_group,
      Group.mk merged.output merged.members merged.inlined eval.tile_sizes merged.subgroups,
      h1, h2, ?_, rfl, ?_⟩
    · rw [h4]
      exact map_find_assign_self FStage.lt FStage_lt_irrefl FStage_lt_trichotomy _ _ _
    · intro x
      have hi : (Group.mk merged.output merged.members merged.inlined eval.tile_sizes
          merged.subgroups).inlined = merged.inlined := rfl
      rw [hi, g5 x]
      simp only [hrange]

theorem inline_merge_spec_witness :
    example_chain.evaluate_choice Primitives.basic example_analyze_group example_definitions
      ⟨"p", ⟨"g", 0⟩⟩ Level.Inline [] =
      Except.ok ⟨[("x", Expr.IntImm 1), ("y", Expr.IntImm 1)],
        example_analysis (Expr.IntImm 0)⟩ ∧
    ∃ cons, map_find example_chain.groups (⟨"p", ⟨"g", 0⟩⟩ : GroupingChoice).cons = some cons ∧
      ((∀ e ∈ example_chain.groups, e.2.output = e.1) →
        cons.output = (⟨"p", ⟨"g", 0⟩⟩ : GroupingChoice).cons) ∧
      (∀ d ∈ (example_definitions.dims cons.output).dropLast,
        map_find [("x", Expr.IntImm 1), ("y", Expr.IntImm 1)] d.var = some (Expr.IntImm 1)) ∧
      (∀ v e, map_find [("x", Expr.IntImm 1), ("y", Expr.IntImm 1)] v = some e →
        e = Expr.IntImm 1 ∧ ∃ d ∈ (example_definitions.dims cons.output).dropLast, d.var = v) :=
  ⟨by decide,
    (inline_merge_spec Primitives.basic example_analyze_group example_definitions example_chain
      ⟨"p", ⟨"g", 0⟩⟩).1 []
      ⟨[("x", Expr.IntImm 1), ("y", Expr.IntImm 1)], example_analysis (Expr.IntImm 0)⟩
      (by decide)⟩
/-! ### The output of a group is its key and one of its members -/

theorem mem_map_assign {κ ν : Type} (lt : κ → κ → Bool)
    (htri : ∀ a b : κ, lt a b = false → lt b a = false → a = b) (k : κ) (v : ν) :
    ∀ (m : List (κ × ν)) (e : κ × ν), e ∈ map_assign lt k v m → e ∈ m ∨ e = (k, v) := by
  intro m
  induction m with
  | nil => intro e he; simp [map_assign] at he; exact Or.inr he
  | cons a rest ih =>
    intro e he
    obtain ⟨k1, v1⟩ := a
    unfold map_assign at he
    split at he
    · simp only [List.mem_cons] at he
      rcases he with he | he | he
      · exact Or.inr he
      · exact Or.inl (he ▸ List.mem_cons_self _ _)
      · exact Or.inl (List.mem_cons_of_mem _ he)
    · next h1 =>
      split at he
      · simp only [List.mem_cons] at he
        rcases he with he | he
        · exact Or.inl (he ▸ List.mem_cons_self _ _)
        · rcases ih e he with h | h
          · exact Or.inl (List.mem_cons_of_mem _ h)
          · exact Or.inr h
      · next h2 =>
        have heq : k1 = k :=
          (htri k k1 (by simpa using h1) (by simpa using h2)).symm
        simp only [List.mem_cons] at he
        rcases he with he | he
        · rw [heq] at he
          exact Or.inr he
        · exact Or.inl (List.mem_cons_of_mem _ he)

theorem mem_map_erase {κ ν : Type} [DecidableEq κ] (m : List (κ × ν)) (k : κ) (e : κ × ν)
    (he : e ∈ map_erase m k) : e ∈ m :=
  (List.mem_filter.mp he).1

theorem erase_producer_stages_groups_subset (prod_f : Function) (pgc : List FStage) :
    ∀ (stages : List Nat) (part : Partitioner),
      ∀ e ∈ (erase_producer_stages prod_f pgc stages part).groups, e ∈ part.groups := by
  intro stages
  induction stages with
  | nil => intro part e he; exact he
  | cons s rest ih =>
    intro part e he
    unfold erase_producer_stages at he
    exact mem_map_erase _ _ _ (ih _ e he)

theorem merge_groups_output_invariant (part part1 : Partitioner) (choice : GroupingChoice)
    (eval : GroupConfig) (level : Level)
    (hinv : ∀ e ∈ part.groups, e.2.output = e.1 ∧ e.2.output ∈ e.2.members)
    (h : part.merge_groups choice eval level = Except.ok part1) :
    ∀ e ∈ part1.groups, e.2.output = e.1 ∧ e.2.output ∈ e.2.members := by
  obtain ⟨prod_f, child_group, merged, _, h2, h3, h4, _⟩ :=
    merge_groups_choice_spec part part1 choice eval level h
  obtain ⟨g1, _, _, g4, _⟩ := merge_groups_stages_spec _ _ _ _ _ _ h3
  obtain ⟨c1, c2⟩ := hinv _ (map_find_mem _ _ _ h2)
  intro e he
  rw [h4] at he
  rcases mem_map_assign FStage.lt FStage_lt_trichotomy _ _ _ e he with he1 | he1
  · exact hinv e he1
  · rw [he1]
    refine ⟨g1.trans c1, ?_⟩
    show merged.output ∈ merged.members
    rw [g1]
    exact (g4 _).mpr (Or.inl c2)

theorem merge_best_output_invariant (prod : String) (level : Level) :
    ∀ (best : List (GroupingChoice × GroupConfig)) (part part1 : Partitioner),
      (∀ e ∈ part.groups, e.2.output = e.1 ∧ e.2.output ∈ e.2.members) →
      merge_best prod level best part = Except.ok part1 →
      ∀ e ∈ part1.groups, e.2.output = e.1 ∧ e.2.output ∈ e.2.members := by
  intro best
  induction best with
  | nil =>
    intro part part1 hinv h
    simp only [merge_best, Except.ok.injEq] at h
    subst h
    exact hinv
  | cons g rest ih =>
    intro part part1 hinv h
    unfold merge_best at h
    split at h
    · split at h
      · exact absurd h (by simp)
      · next part2 hm =>
        exact ih part2 part1 (merge_groups_output_invariant _ _ _ _ _ hinv hm) h
    · exact absurd h (by simp)

theorem merge_best_recurse_output_invariant (prod : String) :
    ∀ (best : List (GroupingChoice × GroupConfig)) (subs : List (List Group))
      (part part1 : Partitioner),
      (∀ e ∈ part.groups, e.2.output = e.1 ∧ e.2.output ∈ e.2.members) →
      merge_best_recurse prod best subs part = Except.ok part1 →
      ∀ e ∈ part1.groups, e.2.output = e.1 ∧ e.2.output ∈ e.2.members := by
  intro best
  induction best with
  | nil =>
    intro subs part part1 hinv h
    simp only [merge_best_recurse, Except.ok.injEq] at h
    subst h
    exact hinv
  | cons g rest ih =>
    intro subs part part1 hinv h
    cases subs with
    | nil => simp [merge_best_recurse] at h
    | cons sub subs1 =>
      unfold merge_best_recurse at h
      split at h
      · split at h
        · exact absurd h (by simp)
        · next part2 hm =>
          have hinv2 := merge_groups_output_invariant _ _ _ _ _ hinv hm
          split at h
          · exact absurd h (by simp)
          · next child_group hcg =>
            apply ih subs1 _ part1 _ h
            intro e he
            simp only [] at he
            rcases mem_map_assign FStage.lt FStage_lt_trichotomy _ _ _ e he with he1 | he1
            · exact hinv2 e he1
            · obtain ⟨c1, c2⟩ :=
                hinv2 _ (map_find_mem _ _ _ ((get_element_ok _ _ _).mp hcg))
              rw [he1]
              exact ⟨c1, c2⟩
      · exact absurd h (by simp)

theorem group_iteration_output_invariant (P : Primitives) (EV : Partitioner → EvaluateChoice)
    (level : Level) (tile_bounds : TileSizes) (part part1 : Partitioner) (fixpoint : Bool)
    (hinv : ∀ e ∈ part.groups, e.2.output = e.1 ∧ e.2.output ∈ e.2.members)
    (h : part.group_iteration P EV level tile_bounds = Except.ok (part1, fixpoint)) :
    ∀ e ∈ part1.groups, e.2.output = e.1 ∧ e.2.output ∈ e.2.members := by
  cases fixpoint with
  | false =>
    obtain ⟨_, _, _, _, prod_f, pgc, part3, _, _, _, _, h5, h6⟩ :=
      group_iteration_merge P EV level tile_bounds part part1 h
    intro e he
    rw [h6] at he
    refine merge_best_output_invariant _ _ _ _ part3 ?_ h5 e
      (erase_producer_stages_groups_subset _ _ _ _ e he)
    exact hinv
  | true =>
    unfold Partitioner.group_iteration at h
    split at h
    · exact absurd h (by simp)
    · split at h
      · exact absurd h (by simp)
      · simp only [] at h
        split at h
        · simp only [Except.ok.injEq, Prod.mk.injEq] at h
          rw [← h.1]
          exact hinv
        · split at h
          · exact absurd h (by simp)
          · split at h
            · exact absurd h (by simp)
            · split at h
              · exact absurd h (by simp)
              · simp at h

theorem group_recurse_iteration_output_invariant (P : Primitives)
    (EVR : Partitioner → EvaluateChoiceRecurse) (part part1 : Partitioner) (fixpoint : Bool)
    (hinv : ∀ e ∈ part.groups, e.2.output = e.1 ∧ e.2.output ∈ e.2.members)
    (h : part.group_recurse_iteration P EVR = Except.ok (part1, fixpoint)) :
    ∀ e ∈ part1.groups, e.2.output = e.1 ∧ e.2.output ∈ e.2.members := by
  cases fixpoint with
  | false =>
    obtain ⟨_, _, _, _, prod_f, pgc, part3, _, _, _, _, h5, h6⟩ :=
      group_recurse_iteration_merge P EVR part part1 h
    intro e he
    rw [h6] at he
    refine merge_best_recurse_output_invariant _ _ _ _ part3 ?_ h5 e
      (erase_producer_stages_groups_subset _ _ _ _ e he)
    exact hinv
  | true =>
    unfold Partitioner.group_recurse_iteration at h
    split at h
    · exact absurd h (by simp)
    · split at h
      · exact absurd h (by simp)
      · split at h
        · exact absurd h (by simp)
        · split at h
          · simp only [Except.ok.injEq, Prod.mk.injEq] at h
            rw [← h.1]
            exact hinv
          · simp only [] at h
            split at h
            · exact absurd h (by simp)
            · split at h
              · exact absurd h (by simp)
              · split at h
                · exact absurd h (by simp)
                · simp at h

theorem group_loop_invariant (Q : Partitioner → Prop) (P : Primitives)
    (EV : Partitioner → EvaluateChoice) (level : Level) (tile_bounds : TileSizes)
    (hstep : ∀ (part part1 : Partitioner) (fixpoint : Bool), Q part →
      part.group_iteration P EV level tile_bounds = Except.ok (part1, fixpoint) → Q part1) :
    ∀ (fuel : Nat) (part part1 : Partitioner), Q part →
      part.group P EV level tile_bounds fuel = Except.ok (some part1) → Q part1 := by
  intro fuel
  induction fuel with
  | zero => intro part part1 _ h; simp [Partitioner.group] at h
  | succ n ih =>
    intro part part1 hq h
    unfold Partitioner.group at h
    split at h
    · exact absurd h (by simp)
    · next part2 hit =>
      simp only [Except.ok.injEq, Option.some.injEq] at h
      rw [← h]
      exact hstep _ _ _ hq hit
    · next part2 hit => exact ih part2 part1 (hstep _ _ _ hq hit) h

theorem group_recurse_loop_invariant (Q : Partitioner → Prop) (P : Primitives)
    (EVR : Partitioner → EvaluateChoiceRecurse)
    (hstep : ∀ (part part1 : Partitioner) (fixpoint : Bool), Q part →
      part.group_recurse_iteration P EVR = Except.ok (part1, fixpoint) → Q part1) :
    ∀ (fuel : Nat) (part part1 : Partitioner), Q part →
      part.group_recurse P EVR fuel = Except.ok (some part1) → Q part1 := by
  intro fuel
  induction fuel with
  | zero => intro part part1 _ h; simp [Partitioner.group_recurse] at h
  | succ n ih =>
    intro part part1 hq h
    unfold Partitioner.group_recurse at h
    split at h
    · exact absurd h (by simp)
    · next part2 hit =>
      simp only [Except.ok.injEq, Option.some.injEq] at h
      rw [← h]
      exact hstep _ _ _ hq hit
    · next part2 hit => exact ih part2 part1 (hstep _ _ _ hq hit) h
theorem initial_groups_spec (env : List Function) (unbounded : List String) :
    ∀ e ∈ initial_groups env unbounded,
      e.2 = Group.mk e.1 [e.1] [] [] [] ∧
      ∃ f ∈ env, unbounded.contains f.name = false ∧ e.1.func = f.name ∧
        e.1.stage_num ≤ f.updates := by
  unfold initial_groups
  apply foldl_invariant
    (fun groups : List (FStage × Group) => ∀ e ∈ groups,
      e.2 = Group.mk e.1 [e.1] [] [] [] ∧
      ∃ f ∈ env, unbounded.contains f.name = false ∧ e.1.func = f.name ∧
        e.1.stage_num ≤ f.updates)
  · intro e he; simp at he
  · intro groups f hf hgroups
    split
    · exact hgroups
    · next hunb =>
      apply foldl_invariant
        (fun groups : List (FStage × Group) => ∀ e ∈ groups,
          e.2 = Group.mk e.1 [e.1] [] [] [] ∧
          ∃ f ∈ env, unbounded.contains f.name = false ∧ e.1.func = f.name ∧
            e.1.stage_num ≤ f.updates)
      · exact hgroups
      · intro groups1 s hs h1 e he
        rcases mem_map_emplace _ _ _ _ e he with h | h
        · exact h1 e h
        · rw [h]
          exact ⟨rfl, f, hf, by simpa using hunb, rfl,
            Nat.lt_succ_iff.mp (List.mem_range.mp hs)⟩

theorem add_unbounded_spec (children : List (FStage × List FStage)) (func : Function)
    (f : String) :
    ∀ (groups groups1 : List (FStage × Group)),
      add_unbounded children func f groups = Except.ok groups1 →
      ∀ e1 ∈ groups1, ∃ e ∈ groups, e1.1 = e.1 ∧ e1.2.output = e.2.output ∧
        (e1.2.members = e.2.members ∨
          e1.2.members = e.2.members ++
            (List.range (func.updates + 1)).map (fun s => (⟨func.name, s⟩ : FStage))) := by
  intro groups
  induction groups with
  | nil =>
    intro groups1 h e1 he1
    simp only [add_unbounded, Except.ok.injEq] at h
    subst h
    simp at he1
  | cons g rest ih =>
    intro groups1 h e1 he1
    unfold add_unbounded at h
    split at h
    · exact absurd h (by simp)
    · next use_f _ =>
      split at h
      · exact absurd h (by simp)
      · next rest1 hrest =>
        have hrec : ∀ e1 ∈ rest1, ∃ e ∈ g :: rest, e1.1 = e.1 ∧ e1.2.output = e.2.output ∧
            (e1.2.members = e.2.members ∨
              e1.2.members = e.2.members ++
                (List.range (func.updates + 1)).map (fun s => (⟨func.name, s⟩ : FStage))) := by
          intro e2 he2
          obtain ⟨e, he, hh⟩ := ih rest1 hrest e2 he2
          exact ⟨e, List.mem_cons_of_mem _ he, hh⟩
        split at h
        · simp only [Except.ok.injEq] at h
          subst h
          simp only [List.mem_cons] at he1
          rcases he1 with he1 | he1
          · rw [he1]
            exact ⟨g, List.mem_cons_self _ _, rfl, rfl, Or.inr rfl⟩
          · exact hrec e1 he1
        · simp only [Except.ok.injEq] at h
          subst h
          simp only [List.mem_cons] at he1
          rcases he1 with he1 | he1
          · rw [he1]
            exact ⟨g, List.mem_cons_self _ _, rfl, rfl, Or.inl rfl⟩
          · exact hrec e1 he1

theorem add_unbounded_all_output_invariant (env outputs : List Function)
    (children : List (FStage × List FStage)) :
    ∀ (unbounded : List String) (groups groups1 : List (FStage × Group)),
      (∀ e ∈ groups, e.2.output = e.1 ∧ e.2.output ∈ e.2.members) →
      add_unbounded_all env outputs children unbounded groups = Except.ok groups1 →
      ∀ e ∈ groups1, e.2.output = e.1 ∧ e.2.output ∈ e.2.members := by
  intro unbounded
  induction unbounded with
  | nil =>
    intro groups groups1 hinv h
    simp only [add_unbounded_all, Except.ok.injEq] at h
    subst h
    exact hinv
  | cons f rest ih =>
    intro groups groups1 hinv h
    unfold add_unbounded_all at h
    split at h
    · exact absurd h (by simp)
    · split at h
      · exact absurd h (by simp)
      · next func _ =>
        split at h
        · exact absurd h (by simp)
        · next groups2 hadd =>
          apply ih groups2 groups1 _ h
          intro e1 he1
          obtain ⟨e, he, h1, h2, h3⟩ := add_unbounded_spec _ _ _ _ _ hadd e1 he1
          obtain ⟨c1, c2⟩ := hinv e he
          refine ⟨by rw [h2, h1, c1], ?_⟩
          rw [h2]
          rcases h3 with h3 | h3
          · rw [h3]; exact c2
          · rw [h3]; exact List.mem_append_left _ c2

theorem nested_groups_spec (group : Group) :
    ∀ e ∈ nested_groups group,
      e.1 ∈ group.members ∧ group.inlined.contains e.1.func = false ∧
      e.2 = Group.mk e.1
        (group.members.filter (fun stg => group.inlined.contains stg.func) ++ [e.1])
        group.inlined [] [] := by
  unfold nested_groups
  simp only []
  apply foldl_invariant
    (fun groups : List (FStage × Group) => ∀ e ∈ groups,
      e.1 ∈ group.members ∧ group.inlined.contains e.1.func = false ∧
      e.2 = Group.mk e.1
        (group.members.filter (fun stg => group.inlined.contains stg.func) ++ [e.1])
        group.inlined [] [])
  · intro e he; simp at he
  · intro groups stg hstg hgroups
    split
    · exact hgroups
    · next hin =>
      intro e he
      rcases mem_map_emplace _ _ _ _ e he with h | h
      · exact hgroups e h
      · rw [h]
        exact ⟨hstg, by simpa using hin, rfl⟩

theorem initialize_groups_loop_spec (P : Primitives) (arch_params : MachineParams)
    (an : AnalyzeGroup) (D : StageDefinitions) :
    ∀ (groups : List (FStage × Group)) (costs : List (FStage × GroupAnalysis))
      (groups1 : List (FStage × Group)) (costs1 : List (FStage × GroupAnalysis)),
      initialize_groups_loop P arch_params an D groups costs = Except.ok (groups1, costs1) →
      ∀ e1 ∈ groups1, ∃ e ∈ groups, ∃ best,
        find_best_tile_config P arch_params an D e.2 = Except.ok best ∧
        e1 = (e.1, with_tile_sizes e.2 best.1) := by
  intro groups
  induction groups with
  | nil =>
    intro costs groups1 costs1 h e1 he1
    simp only [initialize_groups_loop, Except.ok.injEq, Prod.mk.injEq] at h
    rw [← h.1] at he1
    simp at he1
  | cons g rest ih =>
    intro costs groups1 costs1 h e1 he1
    unfold initialize_groups_loop at h
    split at h
    · exact absurd h (by simp)
    · next best hbest =>
      split at h
      · exact absurd h (by simp)
      · next groups2 costs2 hrest =>
        simp only [Except.ok.injEq, Prod.mk.injEq] at h
        rw [← h.1] at he1
        simp only [List.mem_cons] at he1
        rcases he1 with he1 | he1
        · exact ⟨g, List.mem_cons_self _ _, best, hbest, he1⟩
        · obtain ⟨e, he, hh⟩ := ih _ _ _ hrest e1 he1
          exact ⟨e, List.mem_cons_of_mem _ he, hh⟩

theorem initialize_groups_spec (P : Primitives) (an : AnalyzeGroup) (D : StageDefinitions)
    (part part1 : Partitioner) (h : part.initialize_groups P an D = Except.ok part1) :
    part1.env = part.env ∧ part1.outputs = part.outputs ∧ part1.children = part.children ∧
    part1.arch_params = part.arch_params ∧ part1.grouping_cache = [] ∧
    ∀ e1 ∈ part1.groups, ∃ e ∈ part.groups, ∃ best,
      find_best_tile_config P part.arch_params an D e.2 = Except.ok best ∧
      e1 = (e.1, with_tile_sizes e.2 best.1) := by
  unfold Partitioner.initialize_groups at h
  split at h
  · exact absurd h (by simp)
  · next groups costs hloop =>
    simp only [Except.ok.injEq] at h
    subst h
    exact ⟨rfl, rfl, rfl, rfl, rfl, initialize_groups_loop_spec _ _ _ _ _ _ _ _ hloop⟩

theorem initialize_groups_output_invariant (P : Primitives) (an : AnalyzeGroup)
    (D : StageDefinitions) (part part1 : Partitioner)
    (hinv : ∀ e ∈ part.groups, e.2.output = e.1 ∧ e.2.output ∈ e.2.members)
    (h : part.initialize_groups P an D = Except.ok part1) :
    ∀ e ∈ part1.groups, e.2.output = e.1 ∧ e.2.output ∈ e.2.members := by
  intro e1 he1
  obtain ⟨e, he, best, _, heq⟩ := (initialize_groups_spec P an D part part1 h).2.2.2.2.2 e1 he1
  rw [heq]
  exact hinv e he

theorem construct_output_invariant (arch_params : MachineParams) (env : List Function)
    (D : StageDefinitions) (outputs : List Function) (unbounded : List String)
    (part : Partitioner)
    (h : Partitioner.construct arch_params env D outputs unbounded = Except.ok part) :
    ∀ e ∈ part.groups, e.2.output = e.1 ∧ e.2.output ∈ e.2.members := by
  unfold Partitioner.construct at h
  simp only [] at h
  split at h
  · exact absurd h (by simp)
  · next groups hadd =>
    simp only [Except.ok.injEq] at h
    subst h
    apply add_unbounded_all_output_invariant _ _ _ _ _ _ _ hadd
    intro e he
    rw [(initial_groups_spec env unbounded e he).1]
    exact ⟨rfl, by simp [Group.output, Group.members]⟩

theorem nested_partition_output_invariant (P : Primitives) (CM : CostModel)
    (D : StageDefinitions) (fuel : Nat) (part part2 : Partitioner) (group : Group)
    (best_tile_config : TileSizes)
    (h : part.nested_partition P CM D fuel group best_tile_config = Except.ok part2) :
    ∀ e ∈ part2.groups, e.2.output = e.1 ∧ e.2.output ∈ e.2.members := by
  unfold Partitioner.nested_partition at h
  simp only [] at h
  split at h
  · exact absurd h (by simp)
  · split at h
    · exact absurd h (by simp)
    · next part1 hinit =>
      split at h
      · exact absurd h (by simp)
      · exact absurd h (by simp)
      · next part3 hgroup =>
        simp only [Except.ok.injEq] at h
        subst h
        apply group_loop_invariant
          (fun p => ∀ e ∈ p.groups, e.2.output = e.1 ∧ e.2.output ∈ e.2.members) P _ _ _
          (fun p p1 fx hq hit => group_iteration_output_invariant P _ _ _ p p1 fx hq hit)
          fuel part1 part3 _ hgroup
        apply initialize_groups_output_invariant P _ D _ part1 _ hinit
        intro e he
        simp only [] at he
        rw [(nested_groups_spec group e he).2.2]
        exact ⟨rfl, by simp [Group.output, Group.members]⟩
/-- C14: in every state the partitioner reaches, each entry `(k, g)` of
`groups` has `g.output = k` and `g.output` among `g.members`.  This holds
after construction and for the groups of the nested partitioner of
`evaluate_choice_recurse`; it is kept by `initialize_groups`, by every turn
of `group` and of `group_recurse` (for any evaluator), hence by the loops;
so it holds for the nested partitioner after its grouping and at the end of
the grouping steps of `generate_schedules`. -/
theorem output_is_member_key (P : Primitives) :
    (∀ (arch_params : MachineParams) (env : List Function) (D : StageDefinitions)
        (outputs : List Function) (unbounded : List String) (part : Partitioner),
      Partitioner.construct arch_params env D outputs unbounded = Except.ok part →
      ∀ e ∈ part.groups, e.2.output = e.1 ∧ e.2.output ∈ e.2.members) ∧
    (∀ group : Group,
      ∀ e ∈ nested_groups group, e.2.output = e.1 ∧ e.2.output ∈ e.2.members) ∧
    (∀ (an : AnalyzeGroup) (D : StageDefinitions) (part part1 : Partitioner),
      (∀ e ∈ part.groups, e.2.output = e.1 ∧ e.2.output ∈ e.2.members) →
      part.initialize_groups P an D = Except.ok part1 →
      ∀ e ∈ part1.groups, e.2.output = e.1 ∧ e.2.output ∈ e.2.members) ∧
    (∀ (EV : Partitioner → EvaluateChoice) (level : Level) (tile_bounds : TileSizes)
        (part part1 : Partitioner) (fixpoint : Bool),
      (∀ e ∈ part.groups, e.2.output = e.1 ∧ e.2.output ∈ e.2.members) →
      part.group_iteration P EV level tile_bounds = Except.ok (part1, fixpoint) →
      ∀ e ∈ part1.groups, e.2.output = e.1 ∧ e.2.output ∈ e.2.members) ∧
    (∀ (EVR : Partitioner → EvaluateChoiceRecurse) (part part1 : Partitioner)
        (fixpoint : Bool),
      (∀ e ∈ part.groups, e.2.output = e.1 ∧ e.2.output ∈ e.2.members) →
      part.group_recurse_iteration P EVR = Except.ok (part1, fixpoint) →
      ∀ e ∈ part1.groups, e.2.output = e.1 ∧ e.2.output ∈ e.2.members) ∧
    (∀ (EV : Partitioner → EvaluateChoice) (level : Level) (tile_bounds : TileSizes)
        (fuel : Nat) (part part1 : Partitioner),
      (∀ e ∈ part.groups, e.2.output = e.1 ∧ e.2.output ∈ e.2.members) →
      part.group P EV level tile_bounds fuel = Except.ok (some part1) →
      ∀ e ∈ part1.groups, e.2.output = e.1 ∧ e.2.output ∈ e.2.members) ∧
    (∀ (EVR : Partitioner → EvaluateChoiceRecurse) (fuel : Nat) (part part1 : Partitioner),
      (∀ e ∈ part.groups, e.2.output = e.1 ∧ e.2.output ∈ e.2.members) →
      part.group_recurse P EVR fuel = Except.ok (some part1) →
      ∀ e ∈ part1.groups, e.2.output = e.1 ∧ e.2.output ∈ e.2.members) ∧
    (∀ (CM : CostModel) (D : StageDefinitions) (fuel : Nat) (part part2 : Partitioner)
        (group : Group) (best_tile_config : TileSizes),
      part.nested_partition P CM D fuel group best_tile_config = Except.ok part2 →
      ∀ e ∈ part2.groups, e.2.output = e.1 ∧ e.2.output ∈ e.2.members) ∧
    (∀ (CM : CostModel) (D : StageDefinitions) (fuel : Nat) (arch_params : MachineParams)
        (env outputs : List Function) (unbounded : List String) (part : Partitioner),
      generate_groups P CM D fuel arch_params env outputs unbounded = Except.ok (some part) →
      ∀ e ∈ part.groups, e.2.output = e.1 ∧ e.2.output ∈ e.2.members) := by
  refine ⟨?_, ?_, ?_, ?_, ?_, ?_, ?_, ?_, ?_⟩
  · intro arch_params env D outputs unbounded part h
    exact construct_output_invariant _ _ _ _ _ _ h
  · intro group e he
    rw [(nested_groups_spec group e he).2.2]
    exact ⟨rfl, by simp [Group.output, Group.members]⟩
  · intro an D part part1 hinv h
    exact initialize_groups_output_invariant P an D part part1 hinv h
  · intro EV level tile_bounds part part1 fixpoint hinv h
    exact group_iteration_output_invariant P EV level tile_bounds part part1 fixpoint hinv h
  · intro EVR part part1 fixpoint hinv h
    exact group_recurse_iteration_output_invariant P EVR part part1 fixpoint hinv h
  · intro EV level tile_bounds fuel part part1 hinv h
    exact group_loop_invariant
      (fun p => ∀ e ∈ p.groups, e.2.output = e.1 ∧ e.2.output ∈ e.2.members) P EV level
      tile_bounds
      (fun p p1 fx hq hit => group_iteration_output_invariant P _ _ _ p p1 fx hq hit)
      fuel part part1 hinv h
  · intro EVR fuel part part1 hinv h
    exact group_recurse_loop_invariant
      (fun p => ∀ e ∈ p.groups, e.2.output = e.1 ∧ e.2.output ∈ e.2.members) P EVR
      (fun p p1 fx hq hit => group_recurse_iteration_output_invariant P _ p p1 fx hq hit)
      fuel part part1 hinv h
  · intro CM D fuel part part2 group best_tile_config h
    exact nested_partition_output_invariant P CM D fuel part part2 group best_tile_config h
  · intro CM D fuel arch_params env outputs unbounded part h
    unfold generate_groups at h
    split at h
    · exact absurd h (by simp)
    · next part0 hcon =>
      split at h
      · exact absurd h (by simp)
      · next part1 hinit =>
        split at h
        · exact absurd h (by simp)
        · exact absurd h (by simp)
        · next part2 hgroup =>
          have h0 := construct_output_invariant _ _ _ _ _ _ hcon
          have h1 := initialize_groups_output_invariant P _ D _ _ h0 hinit
          have h2 := group_loop_invariant
            (fun p => ∀ e ∈ p.groups, e.2.output = e.1 ∧ e.2.output ∈ e.2.members) P _ _ _
            (fun p p1 fx hq hit => group_iteration_output_invariant P _ _ _ p p1 fx hq hit)
            fuel part1 part2 h1 hgroup
          refine group_recurse_loop_invariant
            (fun p => ∀ e ∈ p.groups, e.2.output = e.1 ∧ e.2.output ∈ e.2.members) P _
            (fun p p1 fx hq hit => group_recurse_iteration_output_invariant P _ p p1 fx hq hit)
            fuel { part2 with grouping_cache := [] } part ?_ h
          exact h2

theorem output_is_member_key_witness :
    Partitioner.construct MachineParams.generic
      [example_function "g", example_function "p", example_function "r"] example_definitions
      [example_function "g"] [] = Except.ok example_chain_constructed ∧
    (∀ e ∈ example_chain_constructed.groups, e.2.output = e.1 ∧ e.2.output ∈ e.2.members) ∧
    example_chain.group_iteration Primitives.basic (fun _ => example_evaluate_choice)
      Level.Inline [] = Except.ok (example_chain_merged, false) ∧
    (∀ e ∈ example_chain_merged.groups, e.2.output = e.1 ∧ e.2.output ∈ e.2.members) :=
  ⟨by rfl,
    (output_is_member_key Primitives.basic).1 MachineParams.generic
      [example_function "g", example_function "p", example_function "r"] example_definitions
      [example_function "g"] [] example_chain_constructed (by rfl),
    by rfl,
    (output_is_member_key Primitives.basic).2.2.2.1 (fun _ => example_evaluate_choice)
      Level.Inline [] example_chain example_chain_merged false (by decide) (by rfl)⟩
/-! ### The children map of the constructor -/

theorem mem_set_insert_iff (c x : FStage) (s : List FStage) :
    x ∈ set_insert FStage.lt c s ↔ x = c ∨ x ∈ s := by
  constructor
  · exact mem_of_mem_set_insert _ _ _ _
  · rintro (h | h)
    · rw [h]; exact mem_set_insert_self _ FStage_lt_trichotomy _ _
    · exact mem_set_insert_of_mem _ _ _ _ h

theorem has_child_insert (children : List (FStage × List FStage)) (k c a b : FStage) :
    has_child (children_insert children k c) a b ↔
      has_child children a b ∨ (a = k ∧ b = c) := by
  unfold has_child children_insert
  by_cases hak : a = k
  · subst hak
    rw [map_find_assign_self FStage.lt FStage_lt_irrefl FStage_lt_trichotomy]
    simp only [Option.some.injEq, exists_eq_left', mem_set_insert_iff, true_and]
    cases hfind : map_find children a with
    | none => simp
    | some cs => simp [or_comm]
  · rw [map_find_assign_ne FStage.lt FStage_lt_trichotomy _ _ _ hak]
    simp [hak]

theorem foldl_has_child {β : Type} (step : List (FStage × List FStage) → β →
      List (FStage × List FStage)) (E : β → FStage → FStage → Prop)
    (hstep : ∀ ch x a b, has_child (step ch x) a b ↔ has_child ch a b ∨ E x a b) :
    ∀ (xs : List β) (ch : List (FStage × List FStage)) (a b : FStage),
      has_child (xs.foldl step ch) a b ↔ has_child ch a b ∨ ∃ x ∈ xs, E x a b := by
  intro xs
  induction xs with
  | nil => intro ch a b; simp
  | cons x rest ih =>
    intro ch a b
    rw [List.foldl_cons, ih, hstep]
    simp only [List.mem_cons, exists_eq_or_imp, or_assoc]

theorem has_child_add_stage (env : List Function) (D : StageDefinitions) (f : String) (s : Nat)
    (children : List (FStage × List FStage)) (a b : FStage) :
    has_child (add_stage_children env D f s children) a b ↔
      has_child children a b ∨
        (b = (⟨f, s⟩ : FStage) ∧
          ((∃ c ∈ D.parents ⟨f, s⟩, c ≠ f ∧
              ∃ pf, env_find env c = some pf ∧ a = (⟨pf.name, pf.updates⟩ : FStage)) ∨
            (0 < s ∧ a = (⟨f, s - 1⟩ : FStage)))) := by
  have hpar : ∀ (ch : List (FStage × List FStage)) (a b : FStage),
      has_child
          ((D.parents ⟨f, s⟩).foldl
            (fun ch c =>
              match env_find env c with
              | some prod_func =>
                if c ≠ f then
                  children_insert ch ⟨prod_func.name, prod_func.updates⟩ ⟨f, s⟩
                else ch
              | none => ch)
            ch) a b ↔
        has_child ch a b ∨ ∃ c ∈ D.parents ⟨f, s⟩,
          (c ≠ f ∧ ∃ pf, env_find env c = some pf ∧
            a = (⟨pf.name, pf.updates⟩ : FStage) ∧ b = (⟨f, s⟩ : FStage)) := by
    intro ch a b
    apply foldl_has_child
    intro ch1 c a1 b1
    cases hfind : env_find env c with
    | none => simp
    | some pf =>
      simp only []
      by_cases hc : c = f
      · simp [hc]
      · simp only [ne_eq, hc, not_false_eq_true, if_true, has_child_insert, true_and,
          Option.some.injEq, exists_eq_left']
  unfold add_stage_children
  simp only []
  split
  · next hs =>
    rw [has_child_insert]
    refine Iff.trans (or_congr (hpar children a b) Iff.rfl) ?_
    constructor
    · rintro ((h | ⟨c, hc, hne, pf, hpf, ha, hb⟩) | ⟨ha, hb⟩)
      · exact Or.inl h
      · exact Or.inr ⟨hb, Or.inl ⟨c, hc, hne, pf, hpf, ha⟩⟩
      · exact Or.inr ⟨hb, Or.inr ⟨hs, ha⟩⟩
    · rintro (h | ⟨hb, ⟨c, hc, hne, pf, hpf, ha⟩ | ⟨_, ha⟩⟩)
      · exact Or.inl (Or.inl h)
      · exact Or.inl (Or.inr ⟨c, hc, hne, pf, hpf, ha, hb⟩)
      · exact Or.inr ⟨ha, hb⟩
  · next hs =>
    refine Iff.trans (hpar children a b) ?_
    constructor
    · rintro (h | ⟨c, hc, hne, pf, hpf, ha, hb⟩)
      · exact Or.inl h
      · exact Or.inr ⟨hb, Or.inl ⟨c, hc, hne, pf, hpf, ha⟩⟩
    · rintro (h | ⟨hb, ⟨c, hc, hne, pf, hpf, ha⟩ | ⟨h0, _⟩⟩)
      · exact Or.inl h
      · exact Or.inr ⟨c, hc, hne, pf, hpf, ha, hb⟩
      · exact absurd h0 hs

theorem has_child_initial_children (env : List Function) (D : StageDefinitions)
    (a b : FStage) :
    has_child (initial_children env D) a b ↔
      ∃ g ∈ env, b.func = g.name ∧ b.stage_num ≤ g.updates ∧
        ((∃ c ∈ D.parents b, c ≠ g.name ∧
            ∃ pf, env_find env c = some pf ∧ a = (⟨pf.name, pf.updates⟩ : FStage)) ∨
          (0 < b.stage_num ∧ a = (⟨g.name, b.stage_num - 1⟩ : FStage))) := by
  unfold initial_children
  rw [foldl_has_child _
    (fun (g : Function) a b => ∃ s ∈ List.range (g.updates + 1),
      (b = (⟨g.name, s⟩ : FStage) ∧
        ((∃ c ∈ D.parents ⟨g.name, s⟩, c ≠ g.name ∧
            ∃ pf, env_find env c = some pf ∧ a = (⟨pf.name, pf.updates⟩ : FStage)) ∨
          (0 < s ∧ a = (⟨g.name, s - 1⟩ : FStage)))))]
  · have hnil : ¬ has_child [] a b := by
      simp [has_child, map_find]
    simp only [hnil, false_or]
    constructor
    · rintro ⟨g, hg, s, hs, hb, hrest⟩
      subst hb
      exact ⟨g, hg, rfl, Nat.lt_succ_iff.mp (List.mem_range.mp hs), hrest⟩
    · rintro ⟨g, hg, hf, hs, hrest⟩
      have hb : b = (⟨g.name, b.stage_num⟩ : FStage) := FStage_eq _ _ hf rfl
      refine ⟨g, hg, b.stage_num, List.mem_range.mpr (Nat.lt_succ_of_le hs), hb, ?_⟩
      rw [← hb]
      exact hrest
  · intro ch g a1 b1
    exact foldl_has_child _
      (fun (s : Nat) a b =>
        (b = (⟨g.name, s⟩ : FStage) ∧
          ((∃ c ∈ D.parents ⟨g.name, s⟩, c ≠ g.name ∧
              ∃ pf, env_find env c = some pf ∧ a = (⟨pf.name, pf.updates⟩ : FStage)) ∨
            (0 < s ∧ a = (⟨g.name, s - 1⟩ : FStage)))))
      (fun ch1 s a2 b2 => has_child_add_stage env D g.name s ch1 a2 b2) _ ch a1 b1

theorem construct_children (arch_params : MachineParams) (env : List Function)
    (D : StageDefinitions) (outputs : List Function) (unbounded : List String)
    (part : Partitioner)
    (h : Partitioner.construct arch_params env D outputs unbounded = Except.ok part) :
    part.children = initial_children env D ∧ part.env = env ∧ part.outputs = outputs ∧
    part.arch_params = arch_params := by
  unfold Partitioner.construct at h
  simp only [] at h
  split at h
  · exact absurd h (by simp)
  · simp only [Except.ok.injEq] at h
    subst h
    exact ⟨rfl, rfl, rfl, rfl⟩

/-- C16 fails as stated: for the chain `r -> p -> g` the constructor builds
the children map with `children[p.0] = [g.0]` and `children[r.0] = [p.0]`;
`g.0` depends on `r.0` through `p.0` but is not in `children[r.0]`. -/
theorem children_direct_edges_counterexample :
    "p" ∈ example_definitions.parents ⟨"g", 0⟩ ∧ "r" ∈ example_definitions.parents ⟨"p", 0⟩ ∧
    Except.map (fun p : Partitioner => p.children)
      (Partitioner.construct MachineParams.generic
        [example_function "g", example_function "p", example_function "r"] example_definitions
        [example_function "g"] []) =
      Except.ok [(⟨"p", 0⟩, [⟨"g", 0⟩]), (⟨"r", 0⟩, [⟨"p", 0⟩])] ∧
    ¬ has_child [((⟨"p", 0⟩ : FStage), [(⟨"g", 0⟩ : FStage)]), (⟨"r", 0⟩, [⟨"p", 0⟩])]
      ⟨"r", 0⟩ ⟨"g", 0⟩ := by
  refine ⟨by decide, by decide, by decide, ?_⟩
  rintro ⟨cs, h1, h2⟩
  have hcs : cs = [(⟨"p", 0⟩ : FStage)] := by
    have : map_find [((⟨"p", 0⟩ : FStage), [(⟨"g", 0⟩ : FStage)]), (⟨"r", 0⟩, [⟨"p", 0⟩])]
        ⟨"r", 0⟩ = some [(⟨"p", 0⟩ : FStage)] := by decide
    rw [this] at h1
    exact (Option.some.inj h1).symm
  rw [hcs] at h2
  revert h2
  decide

/-- C16, amended: the children map that the constructor builds holds exactly
the direct edges: `b` is in `children[a]` if and only if `b` is a stage of a
function `g` of the environment and either `a` is the final stage of a
function of the environment, other than `g`, that the stage `b` calls, or
`a` is the stage of `g` just before `b`. -/
theorem children_direct_edges (arch_params : MachineParams) (env : List Function)
    (D : StageDefinitions) (outputs : List Function) (unbounded : List String)
    (part : Partitioner)
    (h : Partitioner.construct arch_params env D outputs unbounded = Except.ok part)
    (a b : FStage) :
    (∃ cs, map_find part.children a = some cs ∧ b ∈ cs) ↔
      ∃ g ∈ env, b.func = g.name ∧ b.stage_num ≤ g.updates ∧
        ((∃ c ∈ D.parents b, c ≠ g.name ∧
            ∃ pf, env_find env c = some pf ∧ a = (⟨pf.name, pf.updates⟩ : FStage)) ∨
          (0 < b.stage_num ∧ a = (⟨g.name, b.stage_num - 1⟩ : FStage))) := by
  rw [(construct_children _ _ _ _ _ _ h).1]
  exact has_child_initial_children env D a b

theorem children_direct_edges_witness :
    Partitioner.construct MachineParams.generic
      [example_function "g", example_function "p", example_function "r"] example_definitions
      [example_function "g"] [] = Except.ok example_chain_constructed ∧
    ((∃ cs, map_find example_chain_constructed.children ⟨"r", 0⟩ = some cs ∧
        (⟨"p", 0⟩ : FStage) ∈ cs) ↔
      ∃ g ∈ [example_function "g", example_function "p", example_function "r"],
        (⟨"p", 0⟩ : FStage).func = g.name ∧ (⟨"p", 0⟩ : FStage).stage_num ≤ g.updates ∧
          ((∃ c ∈ example_definitions.parents ⟨"p", 0⟩, c ≠ g.name ∧
              ∃ pf, env_find
                  [example_function "g", example_function "p", example_function "r"] c =
                  some pf ∧
                (⟨"r", 0⟩ : FStage) = (⟨pf.name, pf.updates⟩ : FStage)) ∨
            (0 < (⟨"p", 0⟩ : FStage).stage_num ∧
              (⟨"r", 0⟩ : FStage) = (⟨g.name, (⟨"p", 0⟩ : FStage).stage_num - 1⟩ : FStage)))) :=
  ⟨by rfl, children_direct_edges MachineParams.generic
    [example_function "g", example_function "p", example_function "r"] example_definitions
    [example_function "g"] [] example_chain_constructed (by rfl) ⟨"r", 0⟩ ⟨"p", 0⟩⟩
/-! ### Functions are merged whole -/

theorem merge_groups_closed (part part1 : Partitioner) (choice : GroupingChoice)
    (eval : GroupConfig) (level : Level)
    (hinv : groups_closed part.env part.groups)
    (h : part.merge_groups choice eval level = Except.ok part1) :
    groups_closed part.env part1.groups := by
  obtain ⟨prod_f, child_group, merged, h1, h2, h3, h4, _⟩ :=
    merge_groups_choice_spec part part1 choice eval level h
  obtain ⟨g1, _, _, g4, _⟩ := merge_groups_stages_spec _ _ _ _ _ _ h3
  obtain ⟨c1, c2, c3⟩ := hinv _ (map_find_mem _ _ _ h2)
  have hname := env_find_name _ _ _ h1
  intro e he
  rw [h4] at he
  rcases mem_map_assign FStage.lt FStage_lt_trichotomy _ _ _ e he with he1 | he1
  · exact hinv e he1
  · rw [he1]
    refine ⟨g1.trans c1, (g4 _).mpr (Or.inl c2), ?_⟩
    intro m hm
    have hm1 : m ∈ merged.members := hm
    rcases (g4 m).mp hm1 with hmc | ⟨s, hs, pg, hpg, hmp⟩
    · rcases c3 m hmc with hk | hcl
      · exact Or.inl hk
      · exact Or.inr (fun f hf s1 hs1 => (g4 _).mpr (Or.inl (hcl f hf s1 hs1)))
    · obtain ⟨p1, p2, p3⟩ := hinv _ (map_find_mem _ _ _ hpg)
      right
      intro f hf s1 hs1
      rcases p3 m hmp with hk | hcl
      · have hmf : m.func = choice.prod := by
          rw [hk]
          exact hname
        rw [hmf] at hf
        rw [h1] at hf
        have hff : prod_f = f := Option.some.inj hf
        subst hff
        have hpres := merge_groups_stages_present _ _ _ _ _ _ h3 s1
          (List.mem_range.mpr (Nat.lt_succ_of_le hs1))
        cases hpg1 : map_find part.groups (⟨prod_f.name, s1⟩ : FStage) with
        | none => exact absurd hpg1 hpres
        | some pg1 =>
          obtain ⟨_, q2, _⟩ := hinv _ (map_find_mem _ _ _ hpg1)
          have hmf1 : m.func = prod_f.name := by rw [hk]
          rw [hmf1]
          exact (g4 _).mpr (Or.inr ⟨s1, List.mem_range.mpr (Nat.lt_succ_of_le hs1), pg1, hpg1, q2⟩)
      · exact (g4 _).mpr (Or.inr ⟨s, hs, pg, hpg, hcl f hf s1 hs1⟩)

theorem merge_best_closed (prod : String) (level : Level) :
    ∀ (best : List (GroupingChoice × GroupConfig)) (part part1 : Partitioner),
      groups_closed part.env part.groups →
      merge_best prod level best part = Except.ok part1 →
      groups_closed part.env part1.groups := by
  intro best
  induction best with
  | nil =>
    intro part part1 hinv h
    simp only [merge_best, Except.ok.injEq] at h
    subst h
    exact hinv
  | cons g rest ih =>
    intro part part1 hinv h
    unfold merge_best at h
    split at h
    · split at h
      · exact absurd h (by simp)
      · next part2 hm =>
        have henv := (merge_groups_keeps _ _ _ _ _ hm).1
        have h2 := merge_groups_closed _ _ _ _ _ hinv hm
        rw [← henv] at h2 ⊢
        exact ih part2 part1 h2 h
    · exact absurd h (by simp)

theorem merge_best_recurse_closed (prod : String) :
    ∀ (best : List (GroupingChoice × GroupConfig)) (subs : List (List Group))
      (part part1 : Partitioner),
      groups_closed part.env part.groups →
      merge_best_recurse prod best subs part = Except.ok part1 →
      groups_closed part.env part1.groups := by
  intro best
  induction best with
  | nil =>
    intro subs part part1 hinv h
    simp only [merge_best_recurse, Except.ok.injEq] at h
    subst h
    exact hinv
  | cons g rest ih =>
    intro subs part part1 hinv h
    cases subs with
    | nil => simp [merge_best_recurse] at h
    | cons sub subs1 =>
      unfold merge_best_recurse at h
      split at h
      · split at h
        · exact absurd h (by simp)
        · next part2 hm =>
          have henv := (merge_groups_keeps _ _ _ _ _ hm).1
          have hinv2 := merge_groups_closed _ _ _ _ _ hinv hm
          split at h
          · exact absurd h (by simp)
          · next child_group hcg =>
            rw [← henv]
            refine ih subs1
              { part2 with
                groups := map_assign FStage.lt g.1.cons
                  (Group.mk child_group.output child_group.members child_group.inlined
                    child_group.tile_sizes sub) part2.groups } part1 ?_ h
            intro e he
            simp only [] at he
            rcases mem_map_assign FStage.lt FStage_lt_trichotomy _ _ _ e he with he1 | he1
            · rw [henv]
              exact hinv2 e he1
            · obtain ⟨c1, c2, c3⟩ :=
                hinv2 _ (map_find_mem _ _ _ ((get_element_ok _ _ _).mp hcg))
              rw [he1, henv]
              exact ⟨c1, c2, c3⟩
      · exact absurd h (by simp)

theorem group_iteration_closed (P : Primitives) (EV : Partitioner → EvaluateChoice)
    (level : Level) (tile_bounds : TileSizes) (part part1 : Partitioner) (fixpoint : Bool)
    (hinv : groups_closed part.env part.groups)
    (h : part.group_iteration P EV level tile_bounds = Except.ok (part1, fixpoint)) :
    groups_closed part1.env part1.groups := by
  rw [(group_iteration_keeps P EV level tile_bounds part part1 fixpoint h).1]
  cases fixpoint with
  | false =>
    obtain ⟨_, _, _, _, prod_f, pgc, part3, _, _, _, _, h5, h6⟩ :=
      group_iteration_merge P EV level tile_bounds part part1 h
    intro e he
    rw [h6] at he
    refine merge_best_closed _ _ _ _ part3 ?_ h5 e
      (erase_producer_stages_groups_subset _ _ _ _ e he)
    exact hinv
  | true =>
    unfold Partitioner.group_iteration at h
    split at h
    · exact absurd h (by simp)
    · split at h
      · exact absurd h (by simp)
      · simp only [] at h
        split at h
        · simp only [Except.ok.injEq, Prod.mk.injEq] at h
          rw [← h.1]
          exact hinv
        · split at h
          · exact absurd h (by simp)
          · split at h
            · exact absurd h (by simp)
            · split at h
              · exact absurd h (by simp)
              · simp at h

theorem group_recurse_iteration_closed (P : Primitives)
    (EVR : Partitioner → EvaluateChoiceRecurse) (part part1 : Partitioner) (fixpoint : Bool)
    (hinv : groups_closed part.env part.groups)
    (h : part.group_recurse_iteration P EVR = Except.ok (part1, fixpoint)) :
    groups_closed part1.env part1.groups := by
  rw [(group_recurse_iteration_keeps P EVR part part1 fixpoint h).1]
  cases fixpoint with
  | false =>
    obtain ⟨_, _, _, _, prod_f, pgc, part3, _, _, _, _, h5, h6⟩ :=
      group_recurse_iteration_merge P EVR part part1 h
    intro e he
    rw [h6] at he
    refine merge_best_recurse_closed _ _ _ _ part3 ?_ h5 e
      (erase_producer_stages_groups_subset _ _ _ _ e he)
    exact hinv
  | true =>
    unfold Partitioner.group_recurse_iteration at h
    split at h
    · exact absurd h (by simp)
    · split at h
      · exact absurd h (by simp)
      · split at h
        · exact absurd h (by simp)
        · split at h
          · simp only [Except.ok.injEq, Prod.mk.injEq] at h
            rw [← h.1]
            exact hinv
          · simp only [] at h
            split at h
            · exact absurd h (by simp)
            · split at h
              · exact absurd h (by simp)
              · split at h
                · exact absurd h (by simp)
                · simp at h

theorem add_unbounded_all_closed (env outputs : List Function)
    (children : List (FStage × List FStage)) :
    ∀ (unbounded : List String) (groups groups1 : List (FStage × Group)),
      groups_closed env groups →
      add_unbounded_all env outputs children unbounded groups = Except.ok groups1 →
      groups_closed env groups1 := by
  intro unbounded
  induction unbounded with
  | nil =>
    intro groups groups1 hinv h
    simp only [add_unbounded_all, Except.ok.injEq] at h
    subst h
    exact hinv
  | cons f rest ih =>
    intro groups groups1 hinv h
    unfold add_unbounded_all at h
    split at h
    · exact absurd h (by simp)
    · split at h
      · exact absurd h (by simp)
      · next func hfunc =>
        split at h
        · exact absurd h (by simp)
        · next groups2 hadd =>
          apply ih groups2 groups1 _ h
          intro e1 he1
          obtain ⟨e, he, h1, h2, h3⟩ := add_unbounded_spec _ _ _ _ _ hadd e1 he1
          obtain ⟨c1, c2, c3⟩ := hinv e he
          have hfind := (env_get_ok _ _ _).mp hfunc
          have hname := env_find_name _ _ _ hfind
          rcases h3 with h3 | h3
          · refine ⟨by rw [h2, h1, c1], by rw [h3, h1]; exact c2, ?_⟩
            rw [h3, h1]
            exact c3
          · refine ⟨by rw [h2, h1, c1], by rw [h3, h1]; exact List.mem_append_left _ c2, ?_⟩
            rw [h3, h1]
            intro m hm
            rcases List.mem_append.mp hm with hm1 | hm1
            · rcases c3 m hm1 with hk | hcl
              · exact Or.inl hk
              · exact Or.inr (fun f1 hf1 s hs => List.mem_append_left _ (hcl f1 hf1 s hs))
            · right
              obtain ⟨s0, _, hs0⟩ := List.mem_map.mp hm1
              intro f1 hf1 s hs
              have hmf : m.func = func.name := by rw [← hs0]
              rw [hmf, hname, hfind] at hf1
              have hff : func = f1 := Option.some.inj hf1
              subst hff
              rw [hmf]
              apply List.mem_append_right
              exact List.mem_map.mpr ⟨s, List.mem_range.mpr (Nat.lt_succ_of_le hs), rfl⟩

theorem construct_closed (arch_params : MachineParams) (env : List Function)
    (D : StageDefinitions) (outputs : List Function) (unbounded : List String)
    (part : Partitioner)
    (h : Partitioner.construct arch_params env D outputs unbounded = Except.ok part) :
    groups_closed part.env part.groups := by
  rw [(construct_children _ _ _ _ _ _ h).2.1]
  unfold Partitioner.construct at h
  simp only [] at h
  split at h
  · exact absurd h (by simp)
  · next groups hadd =>
    simp only [Except.ok.injEq] at h
    subst h
    apply add_unbounded_all_closed _ _ _ _ _ _ _ hadd
    intro e he
    rw [(initial_groups_spec env unbounded e he).1]
    refine ⟨rfl, by simp [Group.members], ?_⟩
    intro m hm
    left
    simpa [Group.members] using hm

theorem initialize_groups_closed (P : Primitives) (an : AnalyzeGroup)
    (D : StageDefinitions) (part part1 : Partitioner)
    (hinv : groups_closed part.env part.groups)
    (h : part.initialize_groups P an D = Except.ok part1) :
    groups_closed part1.env part1.groups := by
  obtain ⟨h1, _, _, _, _, h6⟩ := initialize_groups_spec P an D part part1 h
  rw [h1]
  intro e1 he1
  obtain ⟨e, he, best, _, heq⟩ := h6 e1 he1
  rw [heq]
  exact hinv e he

theorem generate_groups_closed (P : Primitives) (CM : CostModel) (D : StageDefinitions)
    (fuel : Nat) (arch_params : MachineParams) (env outputs : List Function)
    (unbounded : List String) (part : Partitioner)
    (h : generate_groups P CM D fuel arch_params env outputs unbounded =
      Except.ok (some part)) :
    part.env = env ∧ groups_closed env part.groups := by
  unfold generate_groups at h
  split at h
  · exact absurd h (by simp)
  · next part0 hcon =>
    split at h
    · exact absurd h (by simp)
    · next part1 hinit =>
      split at h
      · exact absurd h (by simp)
      · exact absurd h (by simp)
      · next part2 hgroup =>
        have e0 := (construct_children _ _ _ _ _ _ hcon).2.1
        have h0 := construct_closed _ _ _ _ _ _ hcon
        have e1 := (initialize_groups_spec P _ D _ _ hinit).1
        have h1 := initialize_groups_closed P _ D _ _ h0 hinit
        have h2 := group_loop_invariant
          (fun p => p.env = env ∧ groups_closed p.env p.groups) P _ _ _
          (fun p p1 fx hq hit =>
            ⟨(group_iteration_keeps P _ _ _ p p1 fx hit).1.trans hq.1,
              group_iteration_closed P _ _ _ p p1 fx hq.2 hit⟩)
          fuel part1 part2 ⟨e1.trans e0, h1⟩ hgroup
        have h3 := group_recurse_loop_invariant
          (fun p => p.env = env ∧ groups_closed p.env p.groups) P _
          (fun p p1 fx hq hit =>
            ⟨(group_recurse_iteration_keeps P _ p p1 fx hit).1.trans hq.1,
              group_recurse_iteration_closed P _ p p1 fx hq.2 hit⟩)
          fuel { part2 with grouping_cache := [] } part h2 h
        exact ⟨h3.1, h3.1 ▸ h3.2⟩
/-! ### The consumers of an accepted grouping are children of the producer -/

theorem candidate_grouping_cons (ev : EvaluateChoice) (level : Level) (tile_bounds : TileSizes)
    (cache : List (GroupingChoice × GroupConfig)) (prod : String) :
    ∀ (cs : List FStage) (g : List (GroupingChoice × GroupConfig)),
      candidate_grouping ev level tile_bounds cache prod cs = Except.ok g →
      ∀ x ∈ g, x.1.prod = prod ∧ x.1.cons ∈ cs := by
  intro cs
  induction cs with
  | nil =>
    intro g h
    simp only [candidate_grouping, Except.ok.injEq] at h
    subst h
    simp
  | cons c rest ih =>
    intro g h
    unfold candidate_grouping at h
    split at h
    · exact absurd h (by simp)
    · split at h
      · exact absurd h (by simp)
      · next g1 hg1 =>
        simp only [Except.ok.injEq] at h
        subst h
        intro x hx
        rcases List.mem_cons.mp hx with h1 | h1
        · rw [h1]
          exact ⟨rfl, List.mem_cons_self _ _⟩
        · exact ⟨(ih g1 hg1 x h1).1, List.mem_cons_of_mem _ (ih g1 hg1 x h1).2⟩

theorem candidate_benefit_children (P : Primitives) (part : Partitioner) (ev : EvaluateChoice)
    (level : Level) (tile_bounds : TileSizes) (cache : List (GroupingChoice × GroupConfig))
    (p : String × String) (g : List (GroupingChoice × GroupConfig)) (b : Option Expr)
    (h : candidate_benefit P part ev level tile_bounds cache p = Except.ok (g, b)) :
    ∀ x ∈ g, ∃ prod_f cs, env_find part.env x.1.prod = some prod_f ∧
      map_find part.children (⟨prod_f.name, prod_f.updates⟩ : FStage) = some cs ∧
      x.1.cons ∈ cs := by
  unfold candidate_benefit at h
  split at h
  · exact absurd h (by simp)
  · next prod_f hf =>
    have hfind := (env_get_ok _ _ _).mp hf
    have hname := env_find_name _ _ _ hfind
    split at h
    · exact absurd h (by simp)
    · next cs hcs =>
      split at h
      · exact absurd h (by simp)
      · next grouping hg =>
        split at h
        · exact absurd h (by simp)
        · simp only [Except.ok.injEq, Prod.mk.injEq] at h
          rw [← h.1]
          intro x hx
          obtain ⟨h1, h2⟩ := candidate_grouping_cons _ _ _ _ _ _ _ hg x hx
          refine ⟨prod_f, cs, ?_, (get_element_ok _ _ _).mp hcs, h2⟩
          rw [h1, hname]
          exact hfind

theorem choose_candidate_grouping_loop_children (P : Primitives) (part : Partitioner)
    (ev : EvaluateChoice) (level : Level) (tile_bounds : TileSizes) :
    ∀ (cands : List (String × String)) (st st1 : ChooseState),
      choose_candidate_grouping_loop P part ev level tile_bounds cands st = Except.ok st1 →
      (∀ x ∈ st.best_grouping, ∃ prod_f cs, env_find part.env x.1.prod = some prod_f ∧
        map_find part.children (⟨prod_f.name, prod_f.updates⟩ : FStage) = some cs ∧
        x.1.cons ∈ cs) →
      ∀ x ∈ st1.best_grouping, ∃ prod_f cs, env_find part.env x.1.prod = some prod_f ∧
        map_find part.children (⟨prod_f.name, prod_f.updates⟩ : FStage) = some cs ∧
        x.1.cons ∈ cs := by
  intro cands
  induction cands with
  | nil =>
    intro st st1 h hst
    simp only [choose_candidate_grouping_loop, Except.ok.injEq] at h
    subst h
    exact hst
  | cons p rest ih =>
    intro st st1 h hst
    unfold choose_candidate_grouping_loop at h
    split at h
    · exact absurd h (by simp)
    · next st2 hbody =>
      apply ih st2 st1 h
      obtain ⟨_, g, b, hcb, hcase⟩ :=
        choose_candidate_grouping_body_spec P part ev level tile_bounds st st2 p hbody
      rcases hcase with ⟨_, _, _, hg, _⟩ | ⟨_, hg, _⟩
      · rw [hg]
        exact candidate_benefit_children P part ev level tile_bounds _ p g b hcb
      · rw [hg]
        exact hst

theorem choose_candidate_grouping_recurse_children_cons (evr : EvaluateChoiceRecurse)
    (prod : String) :
    ∀ (cs : List FStage) (g : List (GroupingChoice × GroupConfig)) (subs : List (List Group)),
      choose_candidate_grouping_recurse_children evr prod cs = Except.ok (g, subs) →
      ∀ x ∈ g, x.1.prod = prod ∧ x.1.cons ∈ cs := by
  intro cs
  induction cs with
  | nil =>
    intro g subs h
    simp only [choose_candidate_grouping_recurse_children, Except.ok.injEq,
      Prod.mk.injEq] at h
    rw [← h.1]
    simp
  | cons c rest ih =>
    intro g subs h
    unfold choose_candidate_grouping_recurse_children at h
    simp only [] at h
    cases hev : evr ⟨prod, c⟩ with
    | error e => rw [hev] at h; exact absurd h (by simp)
    | ok r =>
      obtain ⟨best_config, best_sub⟩ := r
      rw [hev] at h
      simp only [] at h
      cases hrec : choose_candidate_grouping_recurse_children evr prod rest with
      | error e => rw [hrec] at h; exact absurd h (by simp)
      | ok r1 =>
        obtain ⟨g1, subs1⟩ := r1
        rw [hrec] at h
        simp only [Except.ok.injEq, Prod.mk.injEq] at h
        rw [← h.1]
        intro x hx
        rcases List.mem_cons.mp hx with h1 | h1
        · rw [h1]
          exact ⟨rfl, List.mem_cons_self _ _⟩
        · exact ⟨(ih g1 subs1 hrec x h1).1, List.mem_cons_of_mem _ (ih g1 subs1 hrec x h1).2⟩

theorem choose_candidate_grouping_recurse_loop_children (P : Primitives) (part : Partitioner)
    (evr : EvaluateChoiceRecurse) :
    ∀ (cands : List (String × String)) (st st1 : ChooseRecurseState),
      choose_candidate_grouping_recurse_loop P part evr cands st = Except.ok st1 →
      (∀ x ∈ st.best_grouping, ∃ prod_f cs, env_find part.env x.1.prod = some prod_f ∧
        map_find part.children (⟨prod_f.name, prod_f.updates⟩ : FStage) = some cs ∧
        x.1.cons ∈ cs) →
      ∀ x ∈ st1.best_grouping, ∃ prod_f cs, env_find part.env x.1.prod = some prod_f ∧
        map_find part.children (⟨prod_f.name, prod_f.updates⟩ : FStage) = some cs ∧
        x.1.cons ∈ cs := by
  intro cands
  induction cands with
  | nil =>
    intro st st1 h hst
    simp only [choose_candidate_grouping_recurse_loop, Except.ok.injEq] at h
    subst h
    exact hst
  | cons p rest ih =>
    intro st st1 h hst
    unfold choose_candidate_grouping_recurse_loop at h
    split at h
    · exact absurd h (by simp)
    · next st2 hbody =>
      apply ih st2 st1 h
      unfold choose_candidate_grouping_recurse_body at hbody
      split at hbody
      · exact absurd hbody (by simp)
      · next prod_f hf =>
        have hfind := (env_get_ok _ _ _).mp hf
        have hname := env_find_name _ _ _ hfind
        simp only [] at hbody
        split at hbody
        · exact absurd hbody (by simp)
        · next cs hcs =>
          split at hbody
          · exact absurd hbody (by simp)
          · next grouping subgroups hg =>
            split at hbody
            · exact absurd hbody (by simp)
            · simp only [Except.ok.injEq] at hbody
              subst hbody
              exact hst
            · split at hbody
              · simp only [Except.ok.injEq] at hbody
                subst hbody
                intro x hx
                simp only [] at hx
                obtain ⟨h1, h2⟩ :=
                  choose_candidate_grouping_recurse_children_cons evr _ _ _ _ hg x hx
                refine ⟨prod_f, cs, ?_, (get_element_ok _ _ _).mp hcs, h2⟩
                rw [h1, hname]
                exact hfind
              · simp only [Except.ok.injEq] at hbody
                subst hbody
                exact hst

theorem merge_groups_mono (part part1 : Partitioner) (choice : GroupingChoice)
    (eval : GroupConfig) (level : Level)
    (h : part.merge_groups choice eval level = Except.ok part1) :
    (∀ k g, map_find part.groups k = some g →
      ∃ g1, map_find part1.groups k = some g1 ∧ ∀ m ∈ g.members, m ∈ g1.members) ∧
    (∃ prod_f, env_find part.env choice.prod = some prod_f ∧
      ∀ s ≤ prod_f.updates, ∀ pg,
        map_find part.groups (⟨prod_f.name, s⟩ : FStage) = some pg →
        ∃ g1, map_find part1.groups choice.cons = some g1 ∧
          ∀ m ∈ pg.members, m ∈ g1.members) ∧
    (∀ k, map_find part1.groups k ≠ none → map_find part.groups k ≠ none) := by
  obtain ⟨prod_f, child_group, merged, h1, h2, h3, h4, _⟩ :=
    merge_groups_choice_spec part part1 choice eval level h
  obtain ⟨_, _, _, g4, _⟩ := merge_groups_stages_spec _ _ _ _ _ _ h3
  have hself : map_find part1.groups choice.cons =
      some (Group.mk merged.output merged.members merged.inlined eval.tile_sizes
        merged.subgroups) := by
    rw [h4]
    exact map_find_assign_self FStage.lt FStage_lt_irrefl FStage_lt_trichotomy _ _ _
  have hne : ∀ k, k ≠ choice.cons → map_find part1.groups k = map_find part.groups k := by
    intro k hk
    rw [h4]
    exact map_find_assign_ne FStage.lt FStage_lt_trichotomy _ _ _ hk _
  refine ⟨?_, ⟨prod_f, h1, ?_⟩, ?_⟩
  · intro k g hk
    by_cases hkc : k = choice.cons
    · subst hkc
      rw [h2] at hk
      have hg : child_group = g := Option.some.inj hk
      subst hg
      exact ⟨_, hself, fun m hm => (g4 m).mpr (Or.inl hm)⟩
    · exact ⟨g, by rw [hne k hkc]; exact hk, fun m hm => hm⟩
  · intro s hs pg hpg
    exact ⟨_, hself, fun m hm =>
      (g4 m).mpr (Or.inr ⟨s, List.mem_range.mpr (Nat.lt_succ_of_le hs), pg, hpg, hm⟩)⟩
  · intro k hk
    by_cases hkc : k = choice.cons
    · subst hkc
      rw [h2]
      simp
    · rw [← hne k hkc]
      exact hk

theorem merge_best_mono (prod : String) (level : Level) :
    ∀ (best : List (GroupingChoice × GroupConfig)) (part part1 : Partitioner),
      merge_best prod level best part = Except.ok part1 →
      (∀ k g, map_find part.groups k = some g →
        ∃ g1, map_find part1.groups k = some g1 ∧ ∀ m ∈ g.members, m ∈ g1.members) ∧
      (∀ k, map_find part1.groups k ≠ none → map_find part.groups k ≠ none) := by
  intro best
  induction best with
  | nil =>
    intro part part1 h
    simp only [merge_best, Except.ok.injEq] at h
    subst h
    exact ⟨fun k g hk => ⟨g, hk, fun m hm => hm⟩, fun k hk => hk⟩
  | cons g rest ih =>
    intro part part1 h
    unfold merge_best at h
    split at h
    · split at h
      · exact absurd h (by simp)
      · next part2 hm =>
        obtain ⟨a1, _, a3⟩ := merge_groups_mono _ _ _ _ _ hm
        obtain ⟨b1, b3⟩ := ih part2 part1 h
        refine ⟨?_, fun k hk => a3 k (b3 k hk)⟩
        intro k g0 hk
        obtain ⟨g1, hg1, hsub1⟩ := a1 k g0 hk
        obtain ⟨g2, hg2, hsub2⟩ := b1 k g1 hg1
        exact ⟨g2, hg2, fun m hm => hsub2 m (hsub1 m hm)⟩
    · exact absurd h (by simp)

theorem merge_best_head (prod : String) (level : Level)
    (g : GroupingChoice × GroupConfig) (rest : List (GroupingChoice × GroupConfig))
    (part part1 : Partitioner) (h : merge_best prod level (g :: rest) part = Except.ok part1) :
    ∃ prod_f, env_find part.env g.1.prod = some prod_f ∧
      ∀ s ≤ prod_f.updates, ∀ pg,
        map_find part.groups (⟨prod_f.name, s⟩ : FStage) = some pg →
        ∃ g1, map_find part1.groups g.1.cons = some g1 ∧ ∀ m ∈ pg.members, m ∈ g1.members := by
  unfold merge_best at h
  split at h
  · split at h
    · exact absurd h (by simp)
    · next part2 hm =>
      obtain ⟨_, ⟨prod_f, hf, a2⟩, _⟩ := merge_groups_mono _ _ _ _ _ hm
      obtain ⟨b1, _⟩ := merge_best_mono _ _ _ _ _ h
      refine ⟨prod_f, hf, fun s hs pg hpg => ?_⟩
      obtain ⟨g1, hg1, hsub1⟩ := a2 s hs pg hpg
      obtain ⟨g2, hg2, hsub2⟩ := b1 _ g1 hg1
      exact ⟨g2, hg2, fun m hm => hsub2 m (hsub1 m hm)⟩
  · exact absurd h (by simp)

theorem assign_subgroups_mono (groups : List (FStage × Group)) (cons : FStage)
    (child_group : Group) (sub : List Group)
    (hcg : map_find groups cons = some child_group) :
    (∀ k g, map_find groups k = some g →
      ∃ g1, map_find (map_assign FStage.lt cons
          (Group.mk child_group.output child_group.members child_group.inlined
            child_group.tile_sizes sub) groups) k = some g1 ∧
        ∀ m ∈ g.members, m ∈ g1.members) ∧
    (∀ k, map_find (map_assign FStage.lt cons
          (Group.mk child_group.output child_group.members child_group.inlined
            child_group.tile_sizes sub) groups) k ≠ none → map_find groups k ≠ none) := by
  constructor
  · intro k g hk
    by_cases hkc : k = cons
    · subst hkc
      rw [hcg] at hk
      have hg : child_group = g := Option.some.inj hk
      subst hg
      exact ⟨_, map_find_assign_self FStage.lt FStage_lt_irrefl FStage_lt_trichotomy _ _ _,
        fun m hm => hm⟩
    · refine ⟨g, ?_, fun m hm => hm⟩
      rw [map_find_assign_ne FStage.lt FStage_lt_trichotomy _ _ _ hkc]
      exact hk
  · intro k hk
    by_cases hkc : k = cons
    · subst hkc
      rw [hcg]
      simp
    · rw [map_find_assign_ne FStage.lt FStage_lt_trichotomy _ _ _ hkc] at hk
      exact hk

theorem merge_best_recurse_mono (prod : String) :
    ∀ (best : List (GroupingChoice × GroupConfig)) (subs : List (List Group))
      (part part1 : Partitioner),
      merge_best_recurse prod best subs part = Except.ok part1 →
      (∀ k g, map_find part.groups k = some g →
        ∃ g1, map_find part1.groups k = some g1 ∧ ∀ m ∈ g.members, m ∈ g1.members) ∧
      (∀ k, map_find part1.groups k ≠ none → map_find part.groups k ≠ none) := by
  intro best
  induction best with
  | nil =>
    intro subs part part1 h
    simp only [merge_best_recurse, Except.ok.injEq] at h
    subst h
    exact ⟨fun k g hk => ⟨g, hk, fun m hm => hm⟩, fun k hk => hk⟩
  | cons g rest ih =>
    intro subs part part1 h
    cases subs with
    | nil => simp [merge_best_recurse] at h
    | cons sub subs1 =>
      unfold merge_best_recurse at h
      split at h
      · split at h
        · exact absurd h (by simp)
        · next part2 hm =>
          obtain ⟨a1, _, a3⟩ := merge_groups_mono _ _ _ _ _ hm
          split at h
          · exact absurd h (by simp)
          · next child_group hcg =>
            obtain ⟨c1, c3⟩ := assign_subgroups_mono part2.groups g.1.cons child_group sub
              ((get_element_ok _ _ _).mp hcg)
            obtain ⟨b1, b3⟩ := ih subs1 _ part1 h
            refine ⟨?_, fun k hk => a3 k (c3 k (b3 k hk))⟩
            intro k g0 hk
            obtain ⟨g1, hg1, hsub1⟩ := a1 k g0 hk
            obtain ⟨g2, hg2, hsub2⟩ := c1 k g1 hg1
            obtain ⟨g3, hg3, hsub3⟩ := b1 k g2 hg2
            exact ⟨g3, hg3, fun m hm => hsub3 m (hsub2 m (hsub1 m hm))⟩
      · exact absurd h (by simp)

theorem merge_best_recurse_head (prod : String)
    (g : GroupingChoice × GroupConfig) (rest : List (GroupingChoice × GroupConfig))
    (subs : List (List Group)) (part part1 : Partitioner)
    (h : merge_best_recurse prod (g :: rest) subs part = Except.ok part1) :
    ∃ prod_f, env_find part.env g.1.prod = some prod_f ∧
      ∀ s ≤ prod_f.updates, ∀ pg,
        map_find part.groups (⟨prod_f.name, s⟩ : FStage) = some pg →
        ∃ g1, map_find part1.groups g.1.cons = some g1 ∧ ∀ m ∈ pg.members, m ∈ g1.members := by
  cases subs with
  | nil => simp [merge_best_recurse] at h
  | cons sub subs1 =>
    unfold merge_best_recurse at h
    split at h
    · split at h
      · exact absurd h (by simp)
      · next part2 hm =>
        obtain ⟨_, ⟨prod_f, hf, a2⟩, _⟩ := merge_groups_mono _ _ _ _ _ hm
        split at h
        · exact absurd h (by simp)
        · next child_group hcg =>
          obtain ⟨c1, _⟩ := assign_subgroups_mono part2.groups g.1.cons child_group sub
            ((get_element_ok _ _ _).mp hcg)
          obtain ⟨b1, _⟩ := merge_best_recurse_mono _ _ _ _ _ h
          refine ⟨prod_f, hf, fun s hs pg hpg => ?_⟩
          obtain ⟨g1, hg1, hsub1⟩ := a2 s hs pg hpg
          obtain ⟨g2, hg2, hsub2⟩ := c1 _ g1 hg1
          obtain ⟨g3, hg3, hsub3⟩ := b1 _ g2 hg2
          exact ⟨g3, hg3, fun m hm => hsub3 m (hsub2 m (hsub1 m hm))⟩
    · exact absurd h (by simp)

theorem accepted_merge_consumer (P : Primitives) (part part1 : Partitioner)
    (hrun : (∃ (EV : Partitioner → EvaluateChoice) (level : Level) (tile_bounds : TileSizes),
        part.group_iteration P EV level tile_bounds = Except.ok (part1, false)) ∨
      (∃ EVR : Partitioner → EvaluateChoiceRecurse,
        part.group_recurse_iteration P EVR = Except.ok (part1, false))) :
    ∃ (prod_f : Function) (pgc : List FStage) (part3 : Partitioner) (cons : FStage),
      env_find part.env prod_f.name = some prod_f ∧
      map_find part.children (⟨prod_f.name, prod_f.updates⟩ : FStage) = some pgc ∧
      cons ∈ pgc ∧
      (∀ k g, map_find part.groups k = some g →
        ∃ g1, map_find part3.groups k = some g1 ∧ ∀ m ∈ g.members, m ∈ g1.members) ∧
      (∀ s ≤ prod_f.updates, ∀ pg,
        map_find part.groups (⟨prod_f.name, s⟩ : FStage) = some pg →
        ∃ g1, map_find part3.groups cons = some g1 ∧ ∀ m ∈ pg.members, m ∈ g1.members) ∧
      (∀ k, map_find part3.groups k ≠ none → map_find part.groups k ≠ none) ∧
      part3.children = part.children ∧
      part1 = erase_producer_stages prod_f pgc (List.range (prod_f.updates + 1)) part3 := by
  rcases hrun with ⟨EV, level, tile_bounds, h⟩ | ⟨EVR, h⟩
  · obtain ⟨cand, best0, rest, cache, prod_f, pgc, part3, _, h2, h3, h4, h5, h6⟩ :=
      group_iteration_merge P EV level tile_bounds part part1 h
    have hname := env_find_name _ _ _ h3
    have hcons : best0.1.cons ∈ pgc := by
      unfold Partitioner.choose_candidate_grouping at h2
      split at h2
      · exact absurd h2 (by simp)
      · next st hloop =>
        simp only [Except.ok.injEq, Prod.mk.injEq] at h2
        obtain ⟨pf, cs, e1, e2, e3⟩ :=
          choose_candidate_grouping_loop_children P part (EV part) level tile_bounds cand _ st
            hloop (by simp) best0 (by rw [h2.1]; simp)
        rw [h3] at e1
        have hpf : prod_f = pf := Option.some.inj e1
        subst hpf
        rw [h4] at e2
        have hcs : pgc = cs := Option.some.inj e2
        rw [hcs]
        exact e3
    obtain ⟨b1, b3⟩ := merge_best_mono _ _ _ _ _ h5
    obtain ⟨pf1, hf1, hhead⟩ := merge_best_head _ _ _ _ _ _ h5
    have hsame : pf1 = prod_f := by
      simp only [] at hf1
      rw [h3] at hf1
      exact (Option.some.inj hf1).symm
    subst hsame
    refine ⟨pf1, pgc, part3, best0.1.cons, ?_, h4, hcons, b1, hhead, b3,
      (merge_best_keeps _ _ _ _ _ h5).2.2.1, h6⟩
    rw [hname]
    exact h3
  · obtain ⟨cand, best0, rest, subs, prod_f, pgc, part3, _, h2, h3, h4, h5, h6⟩ :=
      group_recurse_iteration_merge P EVR part part1 h
    have hname := env_find_name _ _ _ h3
    have hcons : best0.1.cons ∈ pgc := by
      unfold Partitioner.choose_candidate_grouping_recurse at h2
      split at h2
      · exact absurd h2 (by simp)
      · next st hloop =>
        simp only [Except.ok.injEq, Prod.mk.injEq] at h2
        obtain ⟨pf, cs, e1, e2, e3⟩ :=
          choose_candidate_grouping_recurse_loop_children P part (EVR part) cand _ st
            hloop (by simp) best0 (by rw [h2.1]; simp)
        rw [h3] at e1
        have hpf : prod_f = pf := Option.some.inj e1
        subst hpf
        rw [h4] at e2
        have hcs : pgc = cs := Option.some.inj e2
        rw [hcs]
        exact e3
    obtain ⟨b1, b3⟩ := merge_best_recurse_mono _ _ _ _ _ h5
    obtain ⟨pf1, hf1, hhead⟩ := merge_best_recurse_head _ _ _ _ _ _ h5
    have hsame : pf1 = prod_f := by
      simp only [] at hf1
      rw [h3] at hf1
      exact (Option.some.inj hf1).symm
    subst hsame
    refine ⟨pf1, pgc, part3, best0.1.cons, ?_, h4, hcons, b1, hhead, b3,
      (merge_best_recurse_keeps _ _ _ _ _ h5).2.2.1, h6⟩
    rw [hname]
    exact h3
/-! ### Every stage stays in a group -/

theorem erase_producer_stages_groups_find (prod_f : Function) (pgc : List FStage) :
    ∀ (stages : List Nat) (part : Partitioner) (k : FStage),
      map_find (erase_producer_stages prod_f pgc stages part).groups k =
        if k.func = prod_f.name ∧ k.stage_num ∈ stages then none else map_find part.groups k := by
  intro stages
  induction stages with
  | nil => intro part k; simp [erase_producer_stages]
  | cons s rest ih =>
    intro part k
    unfold erase_producer_stages
    rw [ih]
    simp only []
    by_cases hks : k = (⟨prod_f.name, s⟩ : FStage)
    · subst hks
      simp [map_find_erase_self]
    · rw [map_find_erase_ne k _ hks]
      have hiff : (k.func = prod_f.name ∧ k.stage_num ∈ s :: rest) ↔
          (k.func = prod_f.name ∧ k.stage_num ∈ rest) := by
        constructor
        · rintro ⟨h1, h2⟩
          simp only [List.mem_cons] at h2
          rcases h2 with h2 | h2
          · exact absurd (FStage_eq k ⟨prod_f.name, s⟩ h1 h2) hks
          · exact ⟨h1, h2⟩
        · rintro ⟨h1, h2⟩
          exact ⟨h1, List.mem_cons_of_mem _ h2⟩
      by_cases hc : k.func = prod_f.name ∧ k.stage_num ∈ rest
      · rw [if_pos hc, if_pos (hiff.mpr hc)]
      · rw [if_neg hc, if_neg (fun h => hc (hiff.mp h))]

theorem erase_producer_stages_has_child (prod_f : Function) (pgc : List FStage)
    (hpgc : ∀ c ∈ pgc, c.func ≠ prod_f.name) (part : Partitioner) (k x : FStage)
    (h : has_child
      (erase_producer_stages prod_f pgc (List.range (prod_f.updates + 1)) part).children k x) :
    has_child part.children k x ∨
      (x ∈ pgc ∧ ∃ s ≤ prod_f.updates, has_child part.children k ⟨prod_f.name, s⟩) := by
  obtain ⟨cs1, hfind, hx⟩ := h
  have hrange : ∀ s : Nat, s ∈ List.range (prod_f.updates + 1) ↔ s ≤ prod_f.updates := by
    intro s
    rw [List.mem_range]
    exact Nat.lt_succ_iff
  have hnk : ¬ (k.func = prod_f.name ∧ k.stage_num ∈ List.range (prod_f.updates + 1)) := by
    intro hh
    rw [(erase_producer_stages_erased prod_f pgc _ part k (Or.inl hh)).2.2] at hfind
    exact absurd hfind (by simp)
  cases hcs : map_find part.children k with
  | none =>
    rw [erase_producer_stages_children_none prod_f pgc _ part k hcs] at hfind
    exact absurd hfind (by simp)
  | some cs =>
    obtain ⟨cs2, g1, g2, _⟩ := erase_producer_stages_children prod_f pgc hpgc
      (List.range (prod_f.updates + 1)) (List.nodup_range _) part k cs hnk hcs
    rw [g1] at hfind
    have hsame : cs2 = cs1 := Option.some.inj hfind
    subst hsame
    rcases (g2 x).mp hx with ⟨hxc, _⟩ | ⟨hxp, s, hs, hsc⟩
    · exact Or.inl ⟨cs, hcs, hxc⟩
    · exact Or.inr ⟨hxp, s, (hrange s).mp hs, cs, hcs, hsc⟩

theorem children_ranked_final (rank : String → Nat) (env : List Function)
    (children : List (FStage × List FStage)) (hr : children_ranked rank env children)
    (prod_f : Function) (pgc : List FStage)
    (hf : env_find env prod_f.name = some prod_f)
    (hpgc : map_find children (⟨prod_f.name, prod_f.updates⟩ : FStage) = some pgc) :
    ∀ c ∈ pgc, rank prod_f.name < rank c.func := by
  intro c hc
  rcases hr ⟨prod_f.name, prod_f.updates⟩ c ⟨pgc, hpgc, hc⟩ with h | ⟨h1, h2, f, h3, h4⟩
  · exact h
  · simp only [] at h1 h2
    rw [← h1, hf] at h3
    have hff : prod_f = f := Option.some.inj h3
    subst hff
    exact absurd h4 (Nat.not_le.mpr h2)

theorem accepted_merge_grouped (P : Primitives) (rank : String → Nat) (S : FStage → Prop)
    (part part1 : Partitioner)
    (hrun : (∃ (EV : Partitioner → EvaluateChoice) (level : Level) (tile_bounds : TileSizes),
        part.group_iteration P EV level tile_bounds = Except.ok (part1, false)) ∨
      (∃ EVR : Partitioner → EvaluateChoiceRecurse,
        part.group_recurse_iteration P EVR = Except.ok (part1, false)))
    (hr : children_ranked rank part.env part.children)
    (hk : keys_are_stages part.env part.groups)
    (hs : ∀ x, S x → is_grouped part.groups x) :
    children_ranked rank part.env part1.children ∧
    keys_are_stages part.env part1.groups ∧
    ∀ x, S x → is_grouped part1.groups x := by
  obtain ⟨prod_f, pgc, part3, cons, h1, h2, h3, h4, h5, h6, h7, h8⟩ :=
    accepted_merge_consumer P part part1 hrun
  have hrank := children_ranked_final rank part.env part.children hr prod_f pgc h1 h2
  have hpgc : ∀ c ∈ pgc, c.func ≠ prod_f.name := by
    intro c hc heq
    have := hrank c hc
    rw [heq] at this
    exact absurd this (Nat.lt_irrefl _)
  have hrange : ∀ s : Nat, s ∈ List.range (prod_f.updates + 1) ↔ s ≤ prod_f.updates := by
    intro s
    rw [List.mem_range]
    exact Nat.lt_succ_iff
  refine ⟨?_, ?_, ?_⟩
  · intro a b hab
    rw [h8] at hab
    rcases erase_producer_stages_has_child prod_f pgc hpgc part3 a b hab with
      hold | ⟨hb, s, _, hps⟩
    · rw [h7] at hold
      exact hr a b hold
    · rw [h7] at hps
      left
      have hb1 := hrank b hb
      rcases hr a ⟨prod_f.name, s⟩ hps with g1 | ⟨g1, _, _⟩
      · exact Nat.lt_trans g1 hb1
      · simp only [] at g1
        rw [g1]
        exact hb1
  · intro k hkn
    rw [h8, erase_producer_stages_groups_find] at hkn
    split at hkn
    · exact absurd rfl hkn
    · exact hk k (h6 k hkn)
  · intro x hx
    obtain ⟨k, g, hkg, hxg⟩ := hs x hx
    by_cases hkp : k.func = prod_f.name
    · obtain ⟨f, hf, hle⟩ := hk k (by rw [hkg]; simp)
      rw [hkp, h1] at hf
      have hff : prod_f = f := Option.some.inj hf
      subst hff
      have hkeq : k = (⟨prod_f.name, k.stage_num⟩ : FStage) := FStage_eq _ _ hkp rfl
      rw [hkeq] at hkg
      obtain ⟨g1, hg1, hsub⟩ := h5 k.stage_num hle g hkg
      refine ⟨cons, g1, ?_, hsub x hxg⟩
      rw [h8, erase_producer_stages_groups_find, if_neg (fun hh => hpgc cons h3 hh.1)]
      exact hg1
    · obtain ⟨g1, hg1, hsub⟩ := h4 k g hkg
      refine ⟨k, g1, ?_, hsub x hxg⟩
      rw [h8, erase_producer_stages_groups_find, if_neg (fun hh => hkp hh.1)]
      exact hg1
theorem map_find_emplace_ne_none {κ ν : Type} [DecidableEq κ] (lt : κ → κ → Bool)
    (htri : ∀ a b : κ, lt a b = false → lt b a = false → a = b) (k k2 : κ) (v : ν)
    (m : List (κ × ν)) (h : map_find m k ≠ none ∨ k = k2) :
    map_find (map_emplace lt k2 v m) k ≠ none := by
  by_cases hk : k2 = k
  · subst hk
    cases hm : map_find m k2 with
    | none =>
      rw [map_find_emplace_self lt htri k2 v m hm]
      simp
    | some v0 =>
      clear h
      induction m with
      | nil => simp [map_find] at hm
      | cons e rest ih =>
        obtain ⟨k1, v1⟩ := e
        unfold map_emplace
        split
        · simp [map_find]
        · split
          · by_cases hk1 : k1 = k2
            · simp [map_find, hk1]
            · simp only [map_find, hk1, if_false] at hm ⊢
              exact ih hm
          · rw [hm]
            simp
  · rw [map_find_emplace_ne lt k2 k v hk]
    rcases h with h | h
    · exact h
    · exact absurd h.symm hk

theorem initial_groups_find (unbounded : List String) :
    ∀ (env : List Function) (groups : List (FStage × Group)),
      (∀ k, map_find groups k ≠ none →
        map_find (env.foldl
          (fun groups f =>
            if unbounded.contains f.name then groups
            else
              (List.range (f.updates + 1)).foldl
                (fun groups1 s =>
                  map_emplace FStage.lt (⟨f.name, s⟩ : FStage)
                    (Group.mk ⟨f.name, s⟩ [⟨f.name, s⟩] [] [] []) groups1)
                groups)
          groups) k ≠ none) ∧
      (∀ f ∈ env, unbounded.contains f.name = false → ∀ s ≤ f.updates,
        map_find (env.foldl
          (fun groups f =>
            if unbounded.contains f.name then groups
            else
              (List.range (f.updates + 1)).foldl
                (fun groups1 s =>
                  map_emplace FStage.lt (⟨f.name, s⟩ : FStage)
                    (Group.mk ⟨f.name, s⟩ [⟨f.name, s⟩] [] [] []) groups1)
                groups)
          groups) (⟨f.name, s⟩ : FStage) ≠ none) := by
  have hinner : ∀ (name : String) (stages : List Nat) (groups : List (FStage × Group)),
      (∀ k, map_find groups k ≠ none →
        map_find (stages.foldl
          (fun groups1 s =>
            map_emplace FStage.lt (⟨name, s⟩ : FStage)
              (Group.mk ⟨name, s⟩ [⟨name, s⟩] [] [] []) groups1)
          groups) k ≠ none) ∧
      (∀ s ∈ stages,
        map_find (stages.foldl
          (fun groups1 s =>
            map_emplace FStage.lt (⟨name, s⟩ : FStage)
              (Group.mk ⟨name, s⟩ [⟨name, s⟩] [] [] []) groups1)
          groups) (⟨name, s⟩ : FStage) ≠ none) := by
    intro name stages
    induction stages with
    | nil => intro groups; exact ⟨fun k hk => hk, fun s hs => absurd hs (by simp)⟩
    | cons s0 rest ih =>
      intro groups
      simp only [List.foldl_cons]
      obtain ⟨i1, i2⟩ := ih (map_emplace FStage.lt (⟨name, s0⟩ : FStage)
        (Group.mk ⟨name, s0⟩ [⟨name, s0⟩] [] [] []) groups)
      constructor
      · intro k hk
        exact i1 k (map_find_emplace_ne_none _ FStage_lt_trichotomy _ _ _ _ (Or.inl hk))
      · intro s hs
        simp only [List.mem_cons] at hs
        rcases hs with hs | hs
        · rw [hs]
          exact i1 _ (map_find_emplace_ne_none _ FStage_lt_trichotomy _ _ _ _ (Or.inr rfl))
        · exact i2 s hs
  intro env
  induction env with
  | nil => intro groups; exact ⟨fun k hk => hk, fun f hf => absurd hf (by simp)⟩
  | cons f0 rest ih =>
    intro groups
    simp only [List.foldl_cons]
    by_cases hunb : unbounded.contains f0.name = true
    · simp only [hunb, if_true]
      obtain ⟨i1, i2⟩ := ih groups
      refine ⟨i1, ?_⟩
      intro f hf hfu s hs
      simp only [List.mem_cons] at hf
      rcases hf with hf | hf
      · rw [hf, hunb] at hfu
        exact absurd hfu (by simp)
      · exact i2 f hf hfu s hs
    · simp only [hunb]
      obtain ⟨j1, j2⟩ := hinner f0.name (List.range (f0.updates + 1)) groups
      obtain ⟨i1, i2⟩ := ih ((List.range (f0.updates + 1)).foldl
        (fun groups1 s =>
          map_emplace FStage.lt (⟨f0.name, s⟩ : FStage)
            (Group.mk ⟨f0.name, s⟩ [⟨f0.name, s⟩] [] [] []) groups1)
        groups)
      constructor
      · intro k hk
        exact i1 k (j1 k hk)
      · intro f hf hfu s hs
        simp only [List.mem_cons] at hf
        rcases hf with hf | hf
        · rw [hf]
          exact i1 _ (j2 s (List.mem_range.mpr (Nat.lt_succ_of_le (hf ▸ hs))))
        · exact i2 f hf hfu s hs

theorem add_unbounded_find (children : List (FStage × List FStage)) (func : Function)
    (f : String) :
    ∀ (groups groups1 : List (FStage × Group)),
      add_unbounded children func f groups = Except.ok groups1 →
      ∀ k, (∀ g, map_find groups k = some g →
          ∃ g1, map_find groups1 k = some g1 ∧ ∀ m ∈ g.members, m ∈ g1.members) ∧
        (map_find groups1 k ≠ none → map_find groups k ≠ none) := by
  intro groups
  induction groups with
  | nil =>
    intro groups1 h k
    simp only [add_unbounded, Except.ok.injEq] at h
    subst h
    simp [map_find]
  | cons g0 rest ih =>
    intro groups1 h k
    obtain ⟨k0, v0⟩ := g0
    unfold add_unbounded at h
    split at h
    · exact absurd h (by simp)
    · next use_f _ =>
      split at h
      · exact absurd h (by simp)
      · next rest1 hrest =>
        obtain ⟨i1, i2⟩ := ih rest1 hrest k
        split at h
        · simp only [Except.ok.injEq] at h
          subst h
          by_cases hk : k0 = k
          · simp only [map_find, hk, if_true, Option.some.injEq]
            refine ⟨?_, fun _ => by simp⟩
            intro g hg
            subst hg
            exact ⟨_, rfl, fun m hm => List.mem_append_left _ hm⟩
          · simp only [map_find, hk, if_false]
            exact ⟨i1, i2⟩
        · simp only [Except.ok.injEq] at h
          subst h
          by_cases hk : k0 = k
          · simp only [map_find, hk, if_true, Option.some.injEq]
            refine ⟨?_, fun _ => by simp⟩
            intro g hg
            exact ⟨g, hg, fun m hm => hm⟩
          · simp only [map_find, hk, if_false]
            exact ⟨i1, i2⟩

theorem add_unbounded_all_find (env outputs : List Function)
    (children : List (FStage × List FStage)) :
    ∀ (unbounded : List String) (groups groups1 : List (FStage × Group)),
      add_unbounded_all env outputs children unbounded groups = Except.ok groups1 →
      ∀ k, (∀ g, map_find groups k = some g →
          ∃ g1, map_find groups1 k = some g1 ∧ ∀ m ∈ g.members, m ∈ g1.members) ∧
        (map_find groups1 k ≠ none → map_find groups k ≠ none) := by
  intro unbounded
  induction unbounded with
  | nil =>
    intro groups groups1 h k
    simp only [add_unbounded_all, Except.ok.injEq] at h
    subst h
    exact ⟨fun g hg => ⟨g, hg, fun m hm => hm⟩, fun hk => hk⟩
  | cons f rest ih =>
    intro groups groups1 h k
    unfold add_unbounded_all at h
    split at h
    · exact absurd h (by simp)
    · split at h
      · exact absurd h (by simp)
      · next func _ =>
        split at h
        · exact absurd h (by simp)
        · next groups2 hadd =>
          obtain ⟨a1, a2⟩ := add_unbounded_find _ _ _ _ _ hadd k
          obtain ⟨b1, b2⟩ := ih groups2 groups1 h k
          refine ⟨?_, fun hk => a2 (b2 hk)⟩
          intro g hg
          obtain ⟨g1, hg1, hs1⟩ := a1 g hg
          obtain ⟨g2, hg2, hs2⟩ := b1 g1 hg1
          exact ⟨g2, hg2, fun m hm => hs2 m (hs1 m hm)⟩

theorem initialize_groups_loop_find (P : Primitives) (arch_params : MachineParams)
    (an : AnalyzeGroup) (D : StageDefinitions) :
    ∀ (groups : List (FStage × Group)) (costs : List (FStage × GroupAnalysis))
      (groups1 : List (FStage × Group)) (costs1 : List (FStage × GroupAnalysis)),
      initialize_groups_loop P arch_params an D groups costs = Except.ok (groups1, costs1) →
      ∀ k, (∀ g, map_find groups k = some g →
          ∃ g1, map_find groups1 k = some g1 ∧ ∀ m ∈ g.members, m ∈ g1.members) ∧
        (map_find groups1 k ≠ none → map_find groups k ≠ none) := by
  intro groups
  induction groups with
  | nil =>
    intro costs groups1 costs1 h k
    simp only [initialize_groups_loop, Except.ok.injEq, Prod.mk.injEq] at h
    rw [← h.1]
    simp [map_find]
  | cons g0 rest ih =>
    intro costs groups1 costs1 h k
    obtain ⟨k0, v0⟩ := g0
    unfold initialize_groups_loop at h
    split at h
    · exact absurd h (by simp)
    · next best _ =>
      split at h
      · exact absurd h (by simp)
      · next groups2 costs2 hrest =>
        simp only [Except.ok.injEq, Prod.mk.injEq] at h
        rw [← h.1]
        obtain ⟨i1, i2⟩ := ih _ _ _ hrest k
        by_cases hk : k0 = k
        · simp only [map_find, hk, if_true, Option.some.injEq]
          refine ⟨?_, fun _ => by simp⟩
          intro g hg
          subst hg
          exact ⟨_, rfl, fun m hm => hm⟩
        · simp only [map_find, hk, if_false]
          exact ⟨i1, i2⟩

theorem initialize_groups_find (P : Primitives) (an : AnalyzeGroup) (D : StageDefinitions)
    (part part1 : Partitioner) (h : part.initialize_groups P an D = Except.ok part1) :
    ∀ k, (∀ g, map_find part.groups k = some g →
        ∃ g1, map_find part1.groups k = some g1 ∧ ∀ m ∈ g.members, m ∈ g1.members) ∧
      (map_find part1.groups k ≠ none → map_find part.groups k ≠ none) := by
  unfold Partitioner.initialize_groups at h
  split at h
  · exact absurd h (by simp)
  · next groups costs hloop =>
    simp only [Except.ok.injEq] at h
    subst h
    exact initialize_groups_loop_find _ _ _ _ _ _ _ _ hloop

theorem group_iteration_fixpoint (P : Primitives) (EV : Partitioner → EvaluateChoice)
    (level : Level) (tile_bounds : TileSizes) (part part1 : Partitioner)
    (h : part.group_iteration P EV level tile_bounds = Except.ok (part1, true)) :
    part1.groups = part.groups ∧ part1.children = part.children ∧
    part1.group_costs = part.group_costs := by
  unfold Partitioner.group_iteration at h
  split at h
  · exact absurd h (by simp)
  · split at h
    · exact absurd h (by simp)
    · simp only [] at h
      split at h
      · simp only [Except.ok.injEq, Prod.mk.injEq] at h
        rw [← h.1]
        exact ⟨rfl, rfl, rfl⟩
      · split at h
        · exact absurd h (by simp)
        · split at h
          · exact absurd h (by simp)
          · split at h
            · exact absurd h (by simp)
            · simp at h

theorem group_recurse_iteration_fixpoint (P : Primitives)
    (EVR : Partitioner → EvaluateChoiceRecurse) (part part1 : Partitioner)
    (h : part.group_recurse_iteration P EVR = Except.ok (part1, true)) :
    part1.groups = part.groups ∧ part1.children = part.children ∧
    part1.group_costs = part.group_costs := by
  unfold Partitioner.group_recurse_iteration at h
  split at h
  · exact absurd h (by simp)
  · split at h
    · exact absurd h (by simp)
    · split at h
      · exact absurd h (by simp)
      · split at h
        · simp only [Except.ok.injEq, Prod.mk.injEq] at h
          rw [← h.1]
          exact ⟨rfl, rfl, rfl⟩
        · simp only [] at h
          split at h
          · exact absurd h (by simp)
          · split at h
            · exact absurd h (by simp)
            · split at h
              · exact absurd h (by simp)
              · simp at h
theorem construct_grouped (rank : String → Nat) (arch_params : MachineParams)
    (env : List Function) (D : StageDefinitions) (outputs : List Function)
    (unbounded : List String) (part : Partitioner)
    (henv : ∀ g ∈ env, env_find env g.name = some g)
    (hdag : ∀ g ∈ env, ∀ s ≤ g.updates, ∀ c ∈ D.parents ⟨g.name, s⟩, c ≠ g.name →
      ∀ pf, env_find env c = some pf → rank c < rank g.name)
    (h : Partitioner.construct arch_params env D outputs unbounded = Except.ok part) :
    part.env = env ∧ children_ranked rank env part.children ∧
    keys_are_stages env part.groups ∧
    ∀ g ∈ env, unbounded.contains g.name = false → ∀ s ≤ g.updates,
      is_grouped part.groups ⟨g.name, s⟩ := by
  obtain ⟨c1, c2, _, _⟩ := construct_children _ _ _ _ _ _ h
  unfold Partitioner.construct at h
  simp only [] at h
  split at h
  · exact absurd h (by simp)
  · next groups hadd =>
    simp only [Except.ok.injEq] at h
    subst h
    have hfind := add_unbounded_all_find _ _ _ _ _ _ hadd
    refine ⟨rfl, ?_, ?_, ?_⟩
    · intro a b hab
      obtain ⟨g, hg, hb1, hb2, hcase⟩ := (has_child_initial_children env D a b).mp hab
      have hb : b = (⟨g.name, b.stage_num⟩ : FStage) := FStage_eq _ _ hb1 rfl
      rcases hcase with ⟨c, hc, hne, pf, hpf, ha⟩ | ⟨h0, ha⟩
      · left
        rw [hb] at hc
        have := hdag g hg b.stage_num hb2 c hc hne pf hpf
        rw [ha, hb1]
        simp only []
        rw [env_find_name _ _ _ hpf]
        exact this
      · right
        rw [ha, hb1]
        refine ⟨rfl, Nat.sub_lt h0 Nat.one_pos, g, henv g hg, hb2⟩
    · intro k hk
      have hk0 := (hfind k).2 hk
      cases hm : map_find (initial_groups env unbounded) k with
      | none => exact absurd hm hk0
      | some g0 =>
        obtain ⟨_, f, hf, _, hkf, hks⟩ :=
          initial_groups_spec env unbounded _ (map_find_mem _ _ _ hm)
        refine ⟨f, ?_, hks⟩
        simp only [] at hkf
        rw [hkf]
        exact henv f hf
    · intro g hg hgu s hs
      have h0 := (initial_groups_find unbounded env []).2 g hg hgu s hs
      cases hm : map_find (initial_groups env unbounded) (⟨g.name, s⟩ : FStage) with
      | none => exact absurd hm h0
      | some g0 =>
        obtain ⟨hg0, _⟩ := initial_groups_spec env unbounded _ (map_find_mem _ _ _ hm)
        obtain ⟨g1, hg1, hsub⟩ := (hfind _).1 g0 hm
        refine ⟨_, g1, hg1, hsub _ ?_⟩
        simp only [] at hg0
        rw [hg0]
        simp [Group.members]

theorem iteration_grouped (P : Primitives) (rank : String → Nat) (S : FStage → Prop)
    (env : List Function) (part part1 : Partitioner) (fixpoint : Bool)
    (hrun : (∃ (EV : Partitioner → EvaluateChoice) (level : Level) (tile_bounds : TileSizes),
        part.group_iteration P EV level tile_bounds = Except.ok (part1, fixpoint)) ∨
      (∃ EVR : Partitioner → EvaluateChoiceRecurse,
        part.group_recurse_iteration P EVR = Except.ok (part1, fixpoint)))
    (hinv : part.env = env ∧ children_ranked rank env part.children ∧
      keys_are_stages env part.groups ∧ ∀ x, S x → is_grouped part.groups x) :
    part1.env = env ∧ children_ranked rank env part1.children ∧
      keys_are_stages env part1.groups ∧ ∀ x, S x → is_grouped part1.groups x := by
  obtain ⟨e0, hr, hk, hs⟩ := hinv
  have henv : part1.env = part.env := by
    rcases hrun with ⟨EV, level, tile_bounds, h⟩ | ⟨EVR, h⟩
    · exact (group_iteration_keeps P EV level tile_bounds part part1 fixpoint h).1
    · exact (group_recurse_iteration_keeps P EVR part part1 fixpoint h).1
  cases fixpoint with
  | true =>
    have hsame : part1.groups = part.groups ∧ part1.children = part.children ∧
        part1.group_costs = part.group_costs := by
      rcases hrun with ⟨EV, level, tile_bounds, h⟩ | ⟨EVR, h⟩
      · exact group_iteration_fixpoint P EV level tile_bounds part part1 h
      · exact group_recurse_iteration_fixpoint P EVR part part1 h
    rw [hsame.1, hsame.2.1]
    exact ⟨henv.trans e0, hr, hk, hs⟩
  | false =>
    subst e0
    obtain ⟨a1, a2, a3⟩ := accepted_merge_grouped P rank S part part1 hrun hr hk hs
    exact ⟨henv, a1, a2, a3⟩

theorem generate_groups_grouped (P : Primitives) (CM : CostModel) (D : StageDefinitions)
    (fuel : Nat) (arch_params : MachineParams) (env outputs : List Function)
    (unbounded : List String) (part : Partitioner) (rank : String → Nat)
    (henv : ∀ g ∈ env, env_find env g.name = some g)
    (hdag : ∀ g ∈ env, ∀ s ≤ g.updates, ∀ c ∈ D.parents ⟨g.name, s⟩, c ≠ g.name →
      ∀ pf, env_find env c = some pf → rank c < rank g.name)
    (h : generate_groups P CM D fuel arch_params env outputs unbounded =
      Except.ok (some part)) :
    ∀ g ∈ env, unbounded.contains g.name = false → ∀ s ≤ g.updates,
      is_grouped part.groups ⟨g.name, s⟩ := by
  unfold generate_groups at h
  split at h
  · exact absurd h (by simp)
  · next part0 hcon =>
    split at h
    · exact absurd h (by simp)
    · next part1 hinit =>
      split at h
      · exact absurd h (by simp)
      · exact absurd h (by simp)
      · next part2 hgroup =>
        obtain ⟨c1, c2, c3, c4⟩ :=
          construct_grouped rank _ _ _ _ _ _ henv hdag hcon
        obtain ⟨i1, _, i3, _, _, _⟩ := initialize_groups_spec P _ D _ _ hinit
        have ifind := initialize_groups_find P _ D _ _ hinit
        have hS : ∀ x : FStage,
            (∃ g ∈ env, unbounded.contains g.name = false ∧
              x = (⟨g.name, x.stage_num⟩ : FStage) ∧ x.stage_num ≤ g.updates) →
            is_grouped part1.groups x := by
          rintro x ⟨g, hg, hgu, hx, hxs⟩
          obtain ⟨k, g0, hk0, hm0⟩ := c4 g hg hgu x.stage_num hxs
          obtain ⟨g1, hg1, hsub⟩ := (ifind k).1 g0 hk0
          rw [hx]
          exact ⟨k, g1, hg1, hsub _ hm0⟩
        have h1 : part1.env = env ∧ children_ranked rank env part1.children ∧
            keys_are_stages env part1.groups ∧
            ∀ x : FStage,
              (∃ g ∈ env, unbounded.contains g.name = false ∧
                x = (⟨g.name, x.stage_num⟩ : FStage) ∧ x.stage_num ≤ g.updates) →
              is_grouped part1.groups x := by
          refine ⟨i1.trans c1, by rw [i3]; exact c2, ?_, hS⟩
          intro k hk
          exact c3 k ((ifind k).2 hk)
        have h2 := group_loop_invariant
          (fun p => p.env = env ∧ children_ranked rank env p.children ∧
            keys_are_stages env p.groups ∧
            ∀ x : FStage,
              (∃ g ∈ env, unbounded.contains g.name = false ∧
                x = (⟨g.name, x.stage_num⟩ : FStage) ∧ x.stage_num ≤ g.updates) →
              is_grouped p.groups x) P _ _ _
          (fun p p1 fx hq hit =>
            iteration_grouped P rank _ env p p1 fx (Or.inl ⟨_, _, _, hit⟩) hq)
          fuel part1 part2 h1 hgroup
        have h3 := group_recurse_loop_invariant
          (fun p => p.env = env ∧ children_ranked rank env p.children ∧
            keys_are_stages env p.groups ∧
            ∀ x : FStage,
              (∃ g ∈ env, unbounded.contains g.name = false ∧
                x = (⟨g.name, x.stage_num⟩ : FStage) ∧ x.stage_num ≤ g.updates) →
              is_grouped p.groups x) P _
          (fun p p1 fx hq hit =>
            iteration_grouped P rank _ env p p1 fx (Or.inr ⟨_, hit⟩) hq)
          fuel { part2 with grouping_cache := [] } part h2 h
        intro g hg hgu s hs
        exact h3.2.2.2 ⟨g.name, s⟩ ⟨g, hg, hgu, rfl, hs⟩
/-- C13 fails as stated: for the pipeline whose only function `f` is an
output with one update definition, the grouping steps end with the two
groups `f.0 -> [f.0]` and `f.1 -> [f.1]`; no group holds both stages
of `f`. -/
theorem grouped_stages_counterexample :
    Except.map
      (Option.map (fun p : Partitioner => p.groups.map (fun e => (e.1, e.2.members))))
      (generate_groups Primitives.basic example_cost_model example_definitions 3
        MachineParams.generic [example_update_function] [example_update_function] []) =
      Except.ok (some [(⟨"f", 0⟩, [⟨"f", 0⟩]), (⟨"f", 1⟩, [⟨"f", 1⟩])]) ∧
    ¬ ∃ e ∈ [((⟨"f", 0⟩ : FStage), [(⟨"f", 0⟩ : FStage)]), (⟨"f", 1⟩, [⟨"f", 1⟩])],
      (⟨"f", 0⟩ : FStage) ∈ e.2 ∧ (⟨"f", 1⟩ : FStage) ∈ e.2 := by
  decide

/-- C13, amended: after the grouping steps every entry of `groups` has its
key as output and as a member, and every member of a group other than its
key is in the group together with all stages of its function (a merged
producer moves whole into each group that absorbs it).  Moreover, when the
environment holds every function under its own name and the calls between
functions are acyclic (they respect a ranking of the functions), every stage
of every function that is not unbounded is a member of at least one
group. -/
theorem grouped_stages (P : Primitives) (CM : CostModel) (D : StageDefinitions)
    (fuel : Nat) (arch_params : MachineParams) (env outputs : List Function)
    (unbounded : List String) (part : Partitioner)
    (h : generate_groups P CM D fuel arch_params env outputs unbounded =
      Except.ok (some part)) :
    (∀ e ∈ part.groups, e.2.output = e.1 ∧ e.1 ∈ e.2.members ∧
      ∀ m ∈ e.2.members, m = e.1 ∨
        ∀ f, env_find env m.func = some f → ∀ s ≤ f.updates,
          (⟨m.func, s⟩ : FStage) ∈ e.2.members) ∧
    ((∀ g ∈ env, env_find env g.name = some g) →
      (∃ rank : String → Nat, ∀ g ∈ env, ∀ s ≤ g.updates, ∀ c ∈ D.parents ⟨g.name, s⟩,
        c ≠ g.name → ∀ pf, env_find env c = some pf → rank c < rank g.name) →
      ∀ g ∈ env, unbounded.contains g.name = false → ∀ s ≤ g.updates,
        ∃ k grp, map_find part.groups k = some grp ∧ (⟨g.name, s⟩ : FStage) ∈ grp.members) :=
  ⟨(generate_groups_closed P CM D fuel arch_params env outputs unbounded part h).2,
    fun henv hdag =>
      hdag.elim (fun rank hrank =>
        generate_groups_grouped P CM D fuel arch_params env outputs unbounded part rank henv
          hrank h)⟩

theorem grouped_stages_witness :
    generate_groups Primitives.basic example_cost_model example_definitions 3
      MachineParams.generic [example_update_function] [example_update_function] [] =
      Except.ok (some example_update_part) ∧
    (∀ e ∈ example_update_part.groups, e.2.output = e.1 ∧ e.1 ∈ e.2.members ∧
      ∀ m ∈ e.2.members, m = e.1 ∨
        ∀ f, env_find [example_update_function] m.func = some f → ∀ s ≤ f.updates,
          (⟨m.func, s⟩ : FStage) ∈ e.2.members) ∧
    (∀ g ∈ [example_update_function], ([] : List String).contains g.name = false →
      ∀ s ≤ g.updates,
        ∃ k grp, map_find example_update_part.groups k = some grp ∧
          (⟨g.name, s⟩ : FStage) ∈ grp.members) :=
  ⟨by rfl,
    (grouped_stages Primitives.basic example_cost_model example_definitions 3
      MachineParams.generic [example_update_function] [example_update_function] []
      example_update_part (by rfl)).1,
    (grouped_stages Primitives.basic example_cost_model example_definitions 3
      MachineParams.generic [example_update_function] [example_update_function] []
      example_update_part (by rfl)).2 (by decide)
      ⟨fun _ => 0, by
        intro g hg s _ c hc
        have hgf : g = example_update_function := by simpa using hg
        subst hgf
        revert hc
        simp [example_definitions, example_update_function]⟩⟩

/-- C15 fails for the subgroups of the recursive refinement: in the chain
`a -> h -> c`, where the stage of `h` has the loops `u` and `y` and the
tile of the merged group is keyed by the loops `x` and `y` of `c`,
`evaluate_choice_recurse` returns for the choice `(h, c.0)` a subgroup with
output `h.0` whose tile sizes have the key `x`, which is no loop dimension
of `h.0`: the sliding-window configurations are copies of the tile bounds
of the outer group. -/
theorem subgroup_tile_sizes_failing_input :
    generate_tile_configs_sliding_window example_window_definitions ⟨"h", 0⟩
      [("x", Expr.IntImm 256), ("y", Expr.IntImm 32)] =
      Except.ok [[("x", Expr.IntImm 256), ("y", Expr.IntImm 1)],
        [("x", Expr.IntImm 256), ("y", Expr.IntImm 4)],
        [("x", Expr.IntImm 256), ("y", Expr.IntImm 8)],
        [("x", Expr.IntImm 256), ("y", Expr.IntImm 16)]] ∧
    Except.map
      (fun r : GroupConfig × List Group =>
        (r.1.tile_sizes, r.2.map (fun g => (g.output, g.members, g.tile_sizes))))
      (example_window_part.evaluate_choice_recurse example_window_primitives
        example_window_cost_model example_window_definitions 4 ⟨"h", ⟨"c", 0⟩⟩) =
      Except.ok ([("x", Expr.IntImm 256), ("y", Expr.IntImm 32)],
        [(⟨"c", 0⟩, [⟨"c", 0⟩], []),
          (⟨"h", 0⟩, [⟨"h", 0⟩, ⟨"a", 0⟩],
            [("x", Expr.IntImm 256), ("y", Expr.IntImm 1)])]) ∧
    (example_window_definitions.dims ⟨"h", 0⟩).map (fun d => d.var) =
      ["u", "y", "__outermost"] ∧
    "x" ∉ (example_window_definitions.dims ⟨"h", 0⟩).map (fun d => d.var) := by
  refine ⟨by decide, by rfl, by decide, by decide⟩


/-! ### The families of tile configurations -/

theorem map_find_eq_none_iff {κ ν : Type} [DecidableEq κ] :
    ∀ (m : List (κ × ν)) (k : κ), map_find m k = none ↔ ∀ e ∈ m, e.1 ≠ k := by
  intro m
  induction m with
  | nil => intro k; simp [map_find]
  | cons e rest ih =>
    intro k
    obtain ⟨k1, v1⟩ := e
    unfold map_find
    by_cases h : k1 = k
    · simp [h]
    · simp [h, ih]

theorem map_emplace_keys_nodup {κ ν : Type} [DecidableEq κ] (lt : κ → κ → Bool) (k : κ) (v : ν) :
    ∀ m : List (κ × ν), map_find m k = none → (m.map Prod.fst).Nodup →
      ((map_emplace lt k v m).map Prod.fst).Nodup := by
  intro m
  induction m with
  | nil => intro _ _; simp [map_emplace]
  | cons e rest ih =>
    intro hk hnd
    obtain ⟨k1, v1⟩ := e
    have hk1 : k1 ≠ k := by
      intro heq
      simp [map_find, heq] at hk
    have hrest : map_find rest k = none := by
      simpa [map_find, hk1] using hk
    unfold map_emplace
    split
    · simp only [List.map_cons, List.nodup_cons]
      refine ⟨?_, List.nodup_cons.mp hnd⟩
      intro hmem
      rw [List.mem_cons] at hmem
      rcases hmem with h | h
      · exact hk1 h.symm
      · obtain ⟨e, he, hek⟩ := List.mem_map.mp h
        exact (map_find_eq_none_iff rest k).mp hrest e he hek
    · split
      · simp only [List.map_cons, List.nodup_cons] at hnd ⊢
        refine ⟨?_, ih hrest hnd.2⟩
        intro hmem
        obtain ⟨e, he, hek⟩ := List.mem_map.mp hmem
        rcases mem_map_emplace lt k v rest e he with h | h
        · exact hnd.1 (List.mem_map.mpr ⟨e, h, hek⟩)
        · rw [h] at hek
          exact hk1 hek.symm
      · exact hnd

theorem map_find_of_mem_nodup {κ ν : Type} [DecidableEq κ] :
    ∀ (m : List (κ × ν)), (m.map Prod.fst).Nodup → ∀ e ∈ m, map_find m e.1 = some e.2 := by
  intro m
  induction m with
  | nil => intro _ e he; simp at he
  | cons a rest ih =>
    intro hnd e he
    obtain ⟨k1, v1⟩ := a
    simp only [List.map_cons, List.nodup_cons] at hnd
    rw [List.mem_cons] at he
    rcases he with h | h
    · subst h; simp [map_find]
    · have hne : k1 ≠ e.1 := by
        intro heq
        exact hnd.1 (List.mem_map.mpr ⟨e, h, heq.symm⟩)
      simp only [map_find, hne, if_false]
      exact ih hnd.2 e h

/-- Two maps that `tile_sizes_equal` accepts hold the same value under every
key, when the keys of the first are distinct. -/
theorem tile_sizes_equal_find (m1 m2 : TileSizes) (hnd : (m1.map Prod.fst).Nodup)
    (h : tile_sizes_equal m1 m2 = true) : ∀ k, map_find m2 k = map_find m1 k := by
  unfold tile_sizes_equal at h
  split at h
  · simp at h
  · next hlen =>
    have hlen1 : m1.length = m2.length := by
      by_contra hne
      exact hlen hne
    have hall : ∀ e ∈ m1, map_find m2 e.1 = some e.2 := by
      intro e he
      have h1 := List.all_eq_true.mp h e he
      split at h1
      · simp at h1
      · next v hv =>
        rw [hv]
        simp only [decide_eq_true_eq] at h1
        rw [h1]
    have hsub : m1.map Prod.fst ⊆ m2.map Prod.fst := by
      intro k hk
      obtain ⟨e, he, hek⟩ := List.mem_map.mp hk
      have h2 := map_find_mem m2 e.1 e.2 (hall e he)
      exact List.mem_map.mpr ⟨(e.1, e.2), h2, hek⟩
    have hperm : (m1.map Prod.fst).Perm (m2.map Prod.fst) :=
      (List.subperm_of_subset hnd hsub).perm_of_length_le (by simp [hlen1])
    intro k
    cases h1 : map_find m1 k with
    | some v =>
      have h2 := map_find_mem m1 k v h1
      exact hall (k, v) h2
    | none =>
      rw [map_find_eq_none_iff] at h1 ⊢
      intro e he hek
      have h3 : k ∈ m1.map Prod.fst := hperm.symm.subset (List.mem_map.mpr ⟨e, he, hek⟩)
      obtain ⟨e1, he1, hek1⟩ := List.mem_map.mp h3
      exact h1 e1 he1 hek1

theorem mem_push_tile_config (tiling c : TileSizes) (cfgs : List TileSizes) (h : c ∈ cfgs) :
    c ∈ push_tile_config tiling cfgs := by
  unfold push_tile_config
  split
  · exact h
  · split
    · exact h
    · exact List.mem_append_left _ h

theorem push_tile_config_contains (tiling : TileSizes) (cfgs : List TileSizes)
    (hne : tiling ≠ []) (hnd : (tiling.map Prod.fst).Nodup) :
    ∃ c ∈ push_tile_config tiling cfgs, ∀ k, map_find c k = map_find tiling k := by
  unfold push_tile_config
  split
  · next h =>
    exfalso
    apply hne
    simpa using h
  · split
    · next h =>
      obtain ⟨c, hc, heq⟩ := List.any_eq_true.mp h
      exact ⟨c, hc, tile_sizes_equal_find tiling c hnd heq⟩
    · exact ⟨tiling, by simp, fun _ => rfl⟩

theorem foldl_push_mono {β : Type} (tiling_of : β → TileSizes) (c : TileSizes) :
    ∀ (xs : List β) (cfgs : List TileSizes), c ∈ cfgs →
      c ∈ xs.foldl (fun cfgs x => push_tile_config (tiling_of x) cfgs) cfgs := by
  intro xs cfgs h
  exact foldl_invariant (fun cfgs : List TileSizes => c ∈ cfgs) _ xs cfgs h
    (fun a x _ ha => mem_push_tile_config _ _ _ ha)

theorem foldl_push_contains {β : Type} (tiling_of : β → TileSizes) (x : β)
    (hne : tiling_of x ≠ []) (hnd : ((tiling_of x).map Prod.fst).Nodup) :
    ∀ (xs : List β) (cfgs : List TileSizes), x ∈ xs →
      ∃ c ∈ xs.foldl (fun cfgs x => push_tile_config (tiling_of x) cfgs) cfgs,
        ∀ k, map_find c k = map_find (tiling_of x) k := by
  intro xs
  induction xs with
  | nil => intro _ h; simp at h
  | cons y rest ih =>
    intro cfgs h
    rw [List.mem_cons] at h
    simp only [List.foldl_cons]
    rcases h with h | h
    · subst h
      obtain ⟨c, hc, hk⟩ := push_tile_config_contains (tiling_of x) cfgs hne hnd
      exact ⟨c, foldl_push_mono tiling_of c rest _ hc, hk⟩
    · exact ih _ h

theorem getD_inj_of_nodup (tvars : List String) (hnd : tvars.Nodup) (j1 j2 : Nat)
    (h1 : j1 < tvars.length) (h2 : j2 < tvars.length)
    (h : tvars.getD j1 "" = tvars.getD j2 "") : j1 = j2 := by
  rw [List.getD_eq_getElem tvars "" h1, List.getD_eq_getElem tvars "" h2] at h
  exact (List.Nodup.getElem_inj_iff hnd).mp h

theorem foldl_emplace_find (tvars : List String) (hnd : tvars.Nodup) (val : Nat → Option Expr)
    (f : TileSizes → Nat → TileSizes)
    (hf : ∀ t j, f t j =
      (val j).elim t (fun e => map_emplace string_lt (tvars.getD j "") e t)) :
    ∀ (js : List Nat) (t0 : TileSizes), js.Nodup → (∀ j ∈ js, j < tvars.length) →
      (∀ j ∈ js, val j ≠ none → map_find t0 (tvars.getD j "") = none) →
      (t0.map Prod.fst).Nodup →
      ((js.foldl f t0).map Prod.fst).Nodup ∧
      (∀ j ∈ js, val j ≠ none → map_find (js.foldl f t0) (tvars.getD j "") = val j) ∧
      (∀ k, (∀ j ∈ js, val j ≠ none → tvars.getD j "" ≠ k) →
        map_find (js.foldl f t0) k = map_find t0 k) := by
  intro js
  induction js with
  | nil =>
    intro t0 _ _ _ h0
    exact ⟨h0, fun j hj => by simp at hj, fun _ _ => rfl⟩
  | cons j rest ih =>
    intro t0 hjs hlt habs h0
    rw [List.nodup_cons] at hjs
    simp only [List.foldl_cons]
    have hjlt : j < tvars.length := hlt j (by simp)
    -- the map after the step at `j`
    have hstep_nd : ((f t0 j).map Prod.fst).Nodup := by
      rw [hf]
      cases hv : val j with
      | none => exact h0
      | some e =>
        exact map_emplace_keys_nodup string_lt _ e t0 (habs j (by simp) (by simp [hv])) h0
    have hstep_self : val j ≠ none → map_find (f t0 j) (tvars.getD j "") = val j := by
      intro hne
      rw [hf]
      cases hv : val j with
      | none => exact absurd hv hne
      | some e =>
        exact map_find_emplace_self string_lt string_lt_trichotomy _ e t0
          (habs j (by simp) (by simp [hv]))
    have hstep_ne : ∀ k, (val j ≠ none → tvars.getD j "" ≠ k) →
        map_find (f t0 j) k = map_find t0 k := by
      intro k hk
      rw [hf]
      cases hv : val j with
      | none => rfl
      | some e =>
        exact map_find_emplace_ne string_lt _ k e (hk (by simp [hv])) t0
    have hne_rest : ∀ j1 ∈ rest, tvars.getD j "" ≠ tvars.getD j1 "" := by
      intro j1 hj1 heq
      have := getD_inj_of_nodup tvars hnd j j1 hjlt (hlt j1 (by simp [hj1])) heq
      subst this
      exact hjs.1 hj1
    obtain ⟨g1, g2, g3⟩ := ih (f t0 j) hjs.2 (fun j1 hj1 => hlt j1 (by simp [hj1]))
      (fun j1 hj1 hv1 => by
        rw [hstep_ne _ (fun _ => hne_rest j1 hj1)]
        exact habs j1 (by simp [hj1]) hv1) hstep_nd
    refine ⟨g1, ?_, ?_⟩
    · intro j0 hj0 hv0
      rw [List.mem_cons] at hj0
      rcases hj0 with h | h
      · subst h
        rw [g3 _ (fun j1 hj1 _ => (hne_rest j1 hj1).symm)]
        exact hstep_self hv0
      · exact g2 j0 h hv0
    · intro k hk
      rw [g3 k (fun j1 hj1 hv1 => hk j1 (by simp [hj1]) hv1)]
      exact hstep_ne k (fun hv => hk j (by simp) hv)

/-- The size that the skewed tiling at position `i` gives to position `j`. -/
theorem skewed_tiling_find (tvars : List String) (hnd : tvars.Nodup) (i : Nat)
    (hi : i < tvars.length) (s : Int) :
    ((skewed_tiling tvars i s).map Prod.fst).Nodup ∧
    (∀ j, j < tvars.length → map_find (skewed_tiling tvars i s) (tvars.getD j "") =
      some (Expr.IntImm (if j < i then 256 else if i < j then 1
        else if i = 0 then max s 64 else s))) ∧
    (∀ k, k ∉ tvars → map_find (skewed_tiling tvars i s) k = none) := by
  unfold skewed_tiling
  have hinit : map_find (map_emplace string_lt (tvars.getD i "")
      (Expr.IntImm (if i = 0 then max s min_inner_dim_size else s)) ([] : TileSizes))
      (tvars.getD i "") = some (Expr.IntImm (if i = 0 then max s min_inner_dim_size else s)) :=
    map_find_emplace_self string_lt string_lt_trichotomy _ _ [] rfl
  obtain ⟨g1, g2, g3⟩ := foldl_emplace_find tvars hnd
    (fun j => if j < i then some (Expr.IntImm 256) else if i < j then some (Expr.IntImm 1)
      else none)
    (fun tiling j =>
      if j < i then map_emplace string_lt (tvars.getD j "")
        (Expr.IntImm (size_variants.getLastD 0)) tiling
      else if j > i then map_emplace string_lt (tvars.getD j "")
        (Expr.IntImm (size_variants.headD 0)) tiling
      else tiling)
    (by
      intro t j
      by_cases h1 : j < i
      · simp [h1, size_variants]
      · by_cases h2 : i < j
        · simp [h1, h2, size_variants]
        · simp [h1, h2])
    (List.range tvars.length)
    (map_emplace string_lt (tvars.getD i "")
      (Expr.IntImm (if i = 0 then max s min_inner_dim_size else s)) [])
    (List.nodup_range _) (fun j hj => List.mem_range.mp hj)
    (by
      intro j hj hv
      have hji : j ≠ i := by
        intro h
        subst h
        simp at hv
      rw [map_find_emplace_ne string_lt _ _ _
        (fun h => hji (getD_inj_of_nodup tvars hnd i j hi (List.mem_range.mp hj) h).symm)]
      rfl)
    (by simp [map_emplace])
  refine ⟨g1, ?_, ?_⟩
  · intro j hj
    by_cases h1 : j < i
    · have := g2 j (List.mem_range.mpr hj) (by simp [h1])
      simpa [h1] using this
    · by_cases h2 : i < j
      · have := g2 j (List.mem_range.mpr hj) (by simp [h1, h2])
        simpa [h1, h2] using this
      · have hji : j = i := by omega
        subst hji
        have h3 := g3 (tvars.getD j "") (by
          intro j1 hj1 hv heq
          have := getD_inj_of_nodup tvars hnd j1 j (List.mem_range.mp hj1) hj heq
          subst this
          simp at hv)
        rw [h3, hinit]
        simp [min_inner_dim_size]
  · intro k hk
    have h3 := g3 k (by
      intro j hj _ heq
      apply hk
      rw [← heq]
      exact getD_mem_of_lt tvars j (List.mem_range.mp hj))
    rw [h3, map_find_emplace_ne string_lt _ _ _ (fun h => hk (by
      rw [← h]
      exact getD_mem_of_lt tvars i hi))]
    rfl

theorem square_tiling_find (tvars : List String) (hnd : tvars.Nodup) (s : Int) :
    ((square_tiling tvars s).map Prod.fst).Nodup ∧
    (∀ j, j < tvars.length → map_find (square_tiling tvars s) (tvars.getD j "") =
      some (Expr.IntImm (if j = 0 then max s 64 else s))) ∧
    (∀ k, k ∉ tvars → map_find (square_tiling tvars s) k = none) := by
  unfold square_tiling
  obtain ⟨g1, g2, g3⟩ := foldl_emplace_find tvars hnd
    (fun j => some (Expr.IntImm (if j = 0 then max s min_inner_dim_size else s)))
    (fun tiling j => map_emplace string_lt (tvars.getD j "")
      (Expr.IntImm (if j = 0 then max s min_inner_dim_size else s)) tiling)
    (by intro t j; rfl)
    (List.range tvars.length) []
    (List.nodup_range _) (fun j hj => List.mem_range.mp hj)
    (by intro j _ _; rfl) (by simp)
  refine ⟨g1, ?_, ?_⟩
  · intro j hj
    have := g2 j (List.mem_range.mpr hj) (by simp)
    simpa [min_inner_dim_size] using this
  · intro k hk
    exact g3 k (by
      intro j hj _ heq
      apply hk
      rw [← heq]
      exact getD_mem_of_lt tvars j (List.mem_range.mp hj))

theorem reorder_tiling_find (tvars : List String) (hnd : tvars.Nodup) (i : Nat) :
    ((reorder_tiling tvars i).map Prod.fst).Nodup ∧
    (∀ j, j < tvars.length → map_find (reorder_tiling tvars i) (tvars.getD j "") =
      if (i >>> j) &&& 1 = 1 then some (Expr.IntImm (if j = 0 then 64 else 1)) else none) ∧
    (∀ k, k ∉ tvars → map_find (reorder_tiling tvars i) k = none) := by
  unfold reorder_tiling
  obtain ⟨g1, g2, g3⟩ := foldl_emplace_find tvars hnd
    (fun j => if (i >>> j) &&& 1 = 1 then some (Expr.IntImm (if j = 0 then 64 else 1)) else none)
    (fun tiling j =>
      if (i >>> j) &&& 1 = 1 then
        if j = 0 then map_emplace string_lt (tvars.getD j "")
          (Expr.IntImm min_inner_dim_size) tiling
        else map_emplace string_lt (tvars.getD j "") (Expr.IntImm 1) tiling
      else tiling)
    (by
      intro t j
      dsimp only
      by_cases h1 : (i >>> j) &&& 1 = 1
      · rw [if_pos h1, if_pos h1]
        by_cases h2 : j = 0
        · rw [if_pos h2, if_pos h2]; rfl
        · rw [if_neg h2, if_neg h2]; rfl
      · rw [if_neg h1, if_neg h1]; rfl)
    (List.range tvars.length) []
    (List.nodup_range _) (fun j hj => List.mem_range.mp hj)
    (by intro j _ _; rfl) (by simp)
  refine ⟨g1, ?_, ?_⟩
  · intro j hj
    by_cases h1 : (i >>> j) &&& 1 = 1
    · have := g2 j (List.mem_range.mpr hj) (by simp [h1])
      simpa [h1] using this
    · have h3 := g3 (tvars.getD j "") (by
        intro j1 hj1 hv heq
        have := getD_inj_of_nodup tvars hnd j1 j (List.mem_range.mp hj1) hj heq
        subst this
        rw [if_neg h1] at hv
        exact hv rfl)
      rw [if_neg h1]
      exact h3
  · intro k hk
    exact g3 k (by
      intro j hj _ heq
      apply hk
      rw [← heq]
      exact getD_mem_of_lt tvars j (List.mem_range.mp hj))

theorem tiling_ne_nil_of_find (t : TileSizes) (k : String) (e : Expr)
    (h : map_find t k = some e) : t ≠ [] := by
  intro h0
  rw [h0] at h
  simp [map_find] at h

theorem foldl_foldl_push_mono {β γ : Type} (tiling_of : β → γ → TileSizes) (ys : List γ)
    (c : TileSizes) :
    ∀ (xs : List β) (cfgs : List TileSizes), c ∈ cfgs →
      c ∈ xs.foldl (fun cfgs x =>
        ys.foldl (fun cfgs1 y => push_tile_config (tiling_of x y) cfgs1) cfgs) cfgs := by
  intro xs cfgs h
  exact foldl_invariant (fun cfgs : List TileSizes => c ∈ cfgs) _ xs cfgs h
    (fun a x _ ha => foldl_push_mono (tiling_of x) c ys a ha)

theorem foldl_foldl_push_contains {β γ : Type} (tiling_of : β → γ → TileSizes) (ys : List γ)
    (x : β) (y : γ) (hy : y ∈ ys)
    (hne : tiling_of x y ≠ []) (hnd : ((tiling_of x y).map Prod.fst).Nodup) :
    ∀ (xs : List β) (cfgs : List TileSizes), x ∈ xs →
      ∃ c ∈ xs.foldl (fun cfgs x =>
          ys.foldl (fun cfgs1 y => push_tile_config (tiling_of x y) cfgs1) cfgs) cfgs,
        ∀ k, map_find c k = map_find (tiling_of x y) k := by
  intro xs
  induction xs with
  | nil => intro _ h; simp at h
  | cons x1 rest ih =>
    intro cfgs h
    rw [List.mem_cons] at h
    simp only [List.foldl_cons]
    rcases h with h | h
    · subst h
      obtain ⟨c, hc, hk⟩ := foldl_push_contains (tiling_of x) y hne hnd ys cfgs hy
      exact ⟨c, foldl_foldl_push_mono tiling_of ys c rest _ hc, hk⟩
    · exact ih _ h

/-- The list of `tile_configs_of` holds a configuration with the entries of
each skewed tiling. -/
theorem tile_configs_of_skewed (tvars : List String) (hnd : tvars.Nodup) (i : Nat)
    (hi : i < tvars.length) (s : Int) (hs : s ∈ size_variants) :
    ∃ c ∈ tile_configs_of tvars, ∀ k, map_find c k = map_find (skewed_tiling tvars i s) k := by
  obtain ⟨g1, g2, _⟩ := skewed_tiling_find tvars hnd i hi s
  obtain ⟨c, hc, hk⟩ := foldl_foldl_push_contains (fun i s => skewed_tiling tvars i s)
    size_variants i s hs (tiling_ne_nil_of_find _ _ _ (g2 i hi)) g1
    (List.range tvars.length) [] (List.mem_range.mpr hi)
  refine ⟨c, ?_, hk⟩
  unfold tile_configs_of
  exact foldl_push_mono _ c _ _ (foldl_push_mono _ c _ _ hc)

/-- The list of `tile_configs_of` holds a configuration with the entries of
each almost-square tiling. -/
theorem tile_configs_of_square (tvars : List String) (hnd : tvars.Nodup)
    (hpos : 0 < tvars.length) (s : Int) (hs : s ∈ size_variants) :
    ∃ c ∈ tile_configs_of tvars, ∀ k, map_find c k = map_find (square_tiling tvars s) k := by
  obtain ⟨g1, g2, _⟩ := square_tiling_find tvars hnd s
  obtain ⟨c, hc, hk⟩ := foldl_push_contains (fun s => square_tiling tvars s) s
    (tiling_ne_nil_of_find _ _ _ (g2 0 hpos)) g1 size_variants
    ((List.range tvars.length).foldl
      (fun cfgs i => size_variants.foldl (fun cfgs1 dim_size =>
          push_tile_config (skewed_tiling tvars i dim_size) cfgs1) cfgs) []) hs
  refine ⟨c, ?_, hk⟩
  unfold tile_configs_of
  exact foldl_push_mono _ c _ _ hc

/-- The list of `tile_configs_of` holds a configuration with the entries of
each reorder tiling that is not empty. -/
theorem tile_configs_of_reorder (tvars : List String) (hnd : tvars.Nodup) (i : Nat)
    (hi : i < 2 ^ tvars.length) (hne : reorder_tiling tvars i ≠ []) :
    ∃ c ∈ tile_configs_of tvars, ∀ k, map_find c k = map_find (reorder_tiling tvars i) k := by
  obtain ⟨g1, _, _⟩ := reorder_tiling_find tvars hnd i
  obtain ⟨c, hc, hk⟩ := foldl_push_contains (fun i => reorder_tiling tvars i) i hne g1
    (List.range (2 ^ tvars.length))
    (size_variants.foldl (fun cfgs dim_size =>
        push_tile_config (square_tiling tvars dim_size) cfgs)
      ((List.range tvars.length).foldl
        (fun cfgs i => size_variants.foldl (fun cfgs1 dim_size =>
            push_tile_config (skewed_tiling tvars i dim_size) cfgs1) cfgs) []))
    (List.mem_range.mpr hi)
  refine ⟨c, ?_, hk⟩
  unfold tile_configs_of
  exact hc

/-- Every subset of the positions of a list is the set of bits of a number
below `2 ^ length`. -/
theorem exists_mask (p : String → Bool) :
    ∀ tvars : List String, ∃ i, i < 2 ^ tvars.length ∧
      ∀ j, j < tvars.length → ((i >>> j) &&& 1 = 1 ↔ p (tvars.getD j "") = true) := by
  intro tvars
  induction tvars with
  | nil => exact ⟨0, by simp, fun j hj => by simp at hj⟩
  | cons t ts ih =>
    obtain ⟨i1, hi1, hbit⟩ := ih
    refine ⟨2 * i1 + (if p t = true then 1 else 0), ?_, ?_⟩
    · simp only [List.length_cons, pow_succ]
      split <;> omega
    · intro j hj
      cases j with
      | zero =>
        simp only [Nat.shiftRight_zero, Nat.and_one_is_mod, List.getD_cons_zero]
        by_cases hp : p t = true
        · simp [hp, Nat.add_mod]
        · simp [hp, Nat.add_mod]
      | succ j1 =>
        have hj1 : j1 < ts.length := by simpa using hj
        have hsh : (2 * i1 + (if p t = true then 1 else 0)) >>> (j1 + 1) = i1 >>> j1 := by
          have h1 : (2 * i1 + (if p t = true then 1 else 0)) >>> 1 = i1 := by
            rw [Nat.shiftRight_eq_div_pow, pow_one]
            split <;> omega
          rw [Nat.add_comm j1 1, Nat.shiftRight_add, h1]
        rw [hsh, List.getD_cons_succ]
        exact hbit j1 hj1

/-- The smallest size of the innermost dimension: a configuration of
`tile_configs_of` that holds the first tile variable gives it a constant size
of at least 64. -/
theorem tile_configs_of_inner (tvars : List String) (hnd : tvars.Nodup)
    (hpos : 0 < tvars.length) :
    ∀ c ∈ tile_configs_of tvars, ∀ e, map_find c (tvars.getD 0 "") = some e →
      ∃ v : Int, e = Expr.IntImm v ∧ 64 ≤ v := by
  have hQ : ∀ c ∈ tile_configs_of tvars, c ≠ [] ∧
      ∀ e, map_find c (tvars.getD 0 "") = some e → ∃ v : Int, e = Expr.IntImm v ∧ 64 ≤ v := by
    unfold tile_configs_of
    simp only []
    apply foldl_invariant (fun cfgs : List TileSizes => ∀ c ∈ cfgs, c ≠ [] ∧
      ∀ e, map_find c (tvars.getD 0 "") = some e → ∃ v : Int, e = Expr.IntImm v ∧ 64 ≤ v)
    · apply foldl_invariant (fun cfgs : List TileSizes => ∀ c ∈ cfgs, c ≠ [] ∧
        ∀ e, map_find c (tvars.getD 0 "") = some e → ∃ v : Int, e = Expr.IntImm v ∧ 64 ≤ v)
      · apply foldl_invariant (fun cfgs : List TileSizes => ∀ c ∈ cfgs, c ≠ [] ∧
          ∀ e, map_find c (tvars.getD 0 "") = some e → ∃ v : Int, e = Expr.IntImm v ∧ 64 ≤ v)
        · intro c hc; simp at hc
        · intro cfgs i hi hcfgs
          have hi1 : i < tvars.length := List.mem_range.mp hi
          apply foldl_invariant (fun cfgs : List TileSizes => ∀ c ∈ cfgs, c ≠ [] ∧
            ∀ e, map_find c (tvars.getD 0 "") = some e →
              ∃ v : Int, e = Expr.IntImm v ∧ 64 ≤ v)
          · exact hcfgs
          · intro cfgs1 d _ h1
            apply push_tile_config_invariant _ _ _ h1
            intro e he
            rw [(skewed_tiling_find tvars hnd i hi1 d).2.1 0 hpos] at he
            simp only [Option.some.injEq] at he
            refine ⟨_, he.symm, ?_⟩
            by_cases h0 : 0 < i
            · simp [h0]
            · have : i = 0 := by omega
              subst this
              simp
      · intro cfgs d _ h1
        apply push_tile_config_invariant _ _ _ h1
        intro e he
        rw [(square_tiling_find tvars hnd d).2.1 0 hpos] at he
        simp only [Option.some.injEq] at he
        exact ⟨_, he.symm, by simp⟩
    · intro cfgs i _ h1
      apply push_tile_config_invariant _ _ _ h1
      intro e he
      rw [(reorder_tiling_find tvars hnd i).2.1 0 hpos] at he
      split at he
      · simp only [Option.some.injEq] at he
        exact ⟨_, he.symm, by simp⟩
      · simp at he
  intro c hc
  exact (hQ c hc).2

theorem sliding_var_fold_ge (l : List Dim) :
    ∀ (n0 : Nat) (acc : String), 2 ≤ n0 →
      (l.foldl (fun (st : Nat × String) d =>
        if !d.is_rvar then (st.1 + 1, if st.1 + 1 = 2 then d.var else st.2) else st)
        (n0, acc)).2 = acc := by
  induction l with
  | nil => intro n0 acc _; rfl
  | cons d rest ih =>
    intro n0 acc h
    simp only [List.foldl_cons]
    cases hr : d.is_rvar with
    | true => simpa using ih n0 acc h
    | false =>
      have hne : ¬ n0 + 1 = 2 := by omega
      simp only [Bool.not_false, if_true, hne, if_false]
      exact ih (n0 + 1) acc (by omega)

theorem sliding_var_fold_one (l : List Dim) :
    ∀ (acc : String),
      (l.foldl (fun (st : Nat × String) d =>
        if !d.is_rvar then (st.1 + 1, if st.1 + 1 = 2 then d.var else st.2) else st)
        (1, acc)).2 = (((l.filter (fun d => !d.is_rvar)).map (fun d => d.var))[0]?).getD acc := by
  induction l with
  | nil => intro acc; rfl
  | cons d rest ih =>
    intro acc
    simp only [List.foldl_cons]
    cases hr : d.is_rvar with
    | true => simpa [hr] using ih acc
    | false =>
      simp only [Bool.not_false, if_true]
      rw [sliding_var_fold_ge rest 2 d.var (by omega)]
      simp [List.filter, hr]

theorem sliding_var_fold_zero (l : List Dim) :
    (l.foldl (fun (st : Nat × String) d =>
      if !d.is_rvar then (st.1 + 1, if st.1 + 1 = 2 then d.var else st.2) else st)
      (0, "")).2 = (((l.filter (fun d => !d.is_rvar)).map (fun d => d.var))[1]?).getD "" := by
  induction l with
  | nil => rfl
  | cons d rest ih =>
    simp only [List.foldl_cons]
    cases hr : d.is_rvar with
    | true => simpa [hr] using ih
    | false =>
      simp only [Bool.not_false, if_true]
      have h := sliding_var_fold_one rest ""
      have e : (((0, "") : Nat × String).1 + 1,
          if ((0, "") : Nat × String).1 + 1 = 2 then d.var else ((0, "") : Nat × String).2) =
          (1, "") := rfl
      rw [e, h]
      simp [List.filter, hr]

theorem sliding_var_eq (dims : List Dim) :
    sliding_var dims = ((tile_vars dims)[1]?).getD "" := by
  unfold sliding_var tile_vars
  exact sliding_var_fold_zero dims.dropLast

theorem takeWhile_eq_filter_of_sorted (b : Int) :
    ∀ l : List Int, l.Pairwise (fun x y => x ≤ y) →
      l.takeWhile (fun dim_size => !decide (dim_size ≥ b)) =
        l.filter (fun s => decide (s < b)) := by
  intro l
  induction l with
  | nil => intro _; rfl
  | cons a rest ih =>
    intro h
    rw [List.pairwise_cons] at h
    by_cases hab : a < b
    · have h1 : (!decide (a ≥ b)) = true := by simp [hab]
      have h2 : decide (a < b) = true := by simp [hab]
      rw [List.takeWhile_cons, List.filter_cons, h1, h2, ih h.2]
      rfl
    · have h1 : (!decide (a ≥ b)) = false := by simp; omega
      have h2 : decide (a < b) = false := by simp; omega
      rw [List.takeWhile_cons, List.filter_cons, h1, h2]
      simp only [Bool.false_eq_true, if_false]
      symm
      rw [List.filter_eq_nil_iff]
      intro x hx
      have := h.1 x hx
      simp
      omega

theorem size_variants_takeWhile (b : Int) :
    size_variants.takeWhile (fun dim_size => !decide (dim_size ≥ b)) =
      size_variants.filter (fun s => decide (s < b)) :=
  takeWhile_eq_filter_of_sorted b size_variants (by decide)

/-- C21: the skewed family.  For a stage whose tile variables `t_0`
(innermost), ..., `t_(n-1)` are distinct, every position `i` and every size
`s` of `size_variants`, the list of `generate_tile_configs` holds a
configuration whose keys are the tile variables and which gives `t_i` the
size `s` (`max(s, 64)` when `i = 0`), every `t_j` with `j < i` the size 256
and every `t_j` with `j > i` the size 1. -/
theorem skewed_family (D : StageDefinitions) (stg : FStage)
    (hnd : (tile_vars (D.dims stg)).Nodup) (i : Nat)
    (hi : i < (tile_vars (D.dims stg)).length) (s : Int) (hs : s ∈ size_variants) :
    ∃ c ∈ generate_tile_configs D stg,
      (∀ j, j < (tile_vars (D.dims stg)).length →
        map_find c ((tile_vars (D.dims stg)).getD j "") =
          some (Expr.IntImm (if j = i then (if i = 0 then max s 64 else s)
            else if j < i then 256 else 1))) ∧
      (∀ k, k ∉ tile_vars (D.dims stg) → map_find c k = none) := by
  obtain ⟨c, hc, hk⟩ := tile_configs_of_skewed _ hnd i hi s hs
  obtain ⟨_, g2, g3⟩ := skewed_tiling_find _ hnd i hi s
  refine ⟨c, hc, ?_, ?_⟩
  · intro j hj
    rw [hk, g2 j hj]
    by_cases h1 : j = i
    · subst h1; simp
    · by_cases h2 : j < i
      · simp [h1, h2]
      · have h3 : i < j := by omega
        simp [h1, h2, h3]
  · intro k hkn
    rw [hk, g3 k hkn]

theorem skewed_family_witness :
    (tile_vars ((⟨fun _ => [⟨"x", false⟩, ⟨"y", false⟩, ⟨"__outermost", false⟩],
      fun _ => []⟩ : StageDefinitions).dims ⟨"f", 0⟩)).Nodup ∧
    ∃ c ∈ generate_tile_configs
        ⟨fun _ => [⟨"x", false⟩, ⟨"y", false⟩, ⟨"__outermost", false⟩], fun _ => []⟩ ⟨"f", 0⟩,
      (∀ j, j < (tile_vars ((⟨fun _ => [⟨"x", false⟩, ⟨"y", false⟩, ⟨"__outermost", false⟩],
          fun _ => []⟩ : StageDefinitions).dims ⟨"f", 0⟩)).length →
        map_find c ((tile_vars ((⟨fun _ => [⟨"x", false⟩, ⟨"y", false⟩,
          ⟨"__outermost", false⟩], fun _ => []⟩ : StageDefinitions).dims ⟨"f", 0⟩)).getD j "") =
          some (Expr.IntImm (if j = 1 then (if (1 : Nat) = 0 then max 8 64 else 8)
            else if j < 1 then 256 else 1))) ∧
      (∀ k, k ∉ tile_vars ((⟨fun _ => [⟨"x", false⟩, ⟨"y", false⟩, ⟨"__outermost", false⟩],
          fun _ => []⟩ : StageDefinitions).dims ⟨"f", 0⟩) → map_find c k = none) :=
  ⟨by decide,
    skewed_family ⟨fun _ => [⟨"x", false⟩, ⟨"y", false⟩, ⟨"__outermost", false⟩], fun _ => []⟩
      ⟨"f", 0⟩ (by decide) 1 (by decide) 8 (by decide)⟩

/-- C22: the almost-square family.  For a stage with at least one tile
variable, the tile variables being distinct, and every size `s` of
`size_variants`, the list of `generate_tile_configs` holds a configuration
whose keys are the tile variables and which gives the innermost one the size
`max(s, 64)` and every other one the size `s`; and no configuration of the
list gives the innermost tile variable a size below 64. -/
theorem square_family (D : StageDefinitions) (stg : FStage)
    (hnd : (tile_vars (D.dims stg)).Nodup) (hpos : 0 < (tile_vars (D.dims stg)).length) :
    (∀ s ∈ size_variants, ∃ c ∈ generate_tile_configs D stg,
      (∀ j, j < (tile_vars (D.dims stg)).length →
        map_find c ((tile_vars (D.dims stg)).getD j "") =
          some (Expr.IntImm (if j = 0 then max s 64 else s))) ∧
      (∀ k, k ∉ tile_vars (D.dims stg) → map_find c k = none)) ∧
    (∀ c ∈ generate_tile_configs D stg, ∀ e,
      map_find c ((tile_vars (D.dims stg)).getD 0 "") = some e →
        ∃ v : Int, e = Expr.IntImm v ∧ 64 ≤ v) := by
  refine ⟨?_, tile_configs_of_inner _ hnd hpos⟩
  intro s hs
  obtain ⟨c, hc, hk⟩ := tile_configs_of_square _ hnd hpos s hs
  obtain ⟨_, g2, g3⟩ := square_tiling_find _ hnd s
  refine ⟨c, hc, ?_, ?_⟩
  · intro j hj
    rw [hk, g2 j hj]
  · intro k hkn
    rw [hk, g3 k hkn]

theorem square_family_witness :
    ((tile_vars ((⟨fun _ => [⟨"x", false⟩, ⟨"y", false⟩, ⟨"__outermost", false⟩],
      fun _ => []⟩ : StageDefinitions).dims ⟨"f", 0⟩)).Nodup ∧
    0 < (tile_vars ((⟨fun _ => [⟨"x", false⟩, ⟨"y", false⟩, ⟨"__outermost", false⟩],
      fun _ => []⟩ : StageDefinitions).dims ⟨"f", 0⟩)).length) ∧
    [("x", Expr.IntImm 64), ("y", Expr.IntImm 16)] ∈ generate_tile_configs
      ⟨fun _ => [⟨"x", false⟩, ⟨"y", false⟩, ⟨"__outermost", false⟩], fun _ => []⟩ ⟨"f", 0⟩ ∧
    (∀ c ∈ generate_tile_configs
        ⟨fun _ => [⟨"x", false⟩, ⟨"y", false⟩, ⟨"__outermost", false⟩], fun _ => []⟩ ⟨"f", 0⟩,
      ∀ e, map_find c ((tile_vars ((⟨fun _ => [⟨"x", false⟩, ⟨"y", false⟩,
        ⟨"__outermost", false⟩], fun _ => []⟩ : StageDefinitions).dims ⟨"f", 0⟩)).getD 0 "") =
          some e → ∃ v : Int, e = Expr.IntImm v ∧ 64 ≤ v) :=
  ⟨⟨by decide, by decide⟩, by decide,
    (square_family ⟨fun _ => [⟨"x", false⟩, ⟨"y", false⟩, ⟨"__outermost", false⟩], fun _ => []⟩
      ⟨"f", 0⟩ (by decide) (by decide)).2⟩

/-- The stage with the loops `x` and `y`: the only configuration of
`generate_tile_configs` with the single key `y` gives `y` the size 1, and no
configuration of the list has `y` at 64 without a key `x`. -/
theorem reorder_family_counterexample :
    [("y", Expr.IntImm 1)] ∈ generate_tile_configs
      ⟨fun _ => [⟨"x", false⟩, ⟨"y", false⟩, ⟨"__outermost", false⟩], fun _ => []⟩ ⟨"f", 0⟩ ∧
    ¬ ∃ c ∈ generate_tile_configs
        ⟨fun _ => [⟨"x", false⟩, ⟨"y", false⟩, ⟨"__outermost", false⟩], fun _ => []⟩ ⟨"f", 0⟩,
      map_find c "x" = none ∧ map_find c "y" = some (Expr.IntImm 64) := by
  decide

/-- C23 (as the code has it): the reorder-only family.  For a stage with
fewer than 31 tile variables, all distinct, and every non-empty set `S` of
tile variables, the list of `generate_tile_configs` holds a configuration
whose key set is exactly `S`; it gives the size 64 to the innermost tile
variable of the stage when that one is in `S`, and the size 1 to every other
member of `S`. -/
theorem reorder_family (D : StageDefinitions) (stg : FStage)
    (hnd : (tile_vars (D.dims stg)).Nodup) (hlen : (tile_vars (D.dims stg)).length < 31)
    (S : List String) (hS : S ≠ []) (hsub : ∀ x ∈ S, x ∈ tile_vars (D.dims stg)) :
    ∃ c ∈ generate_tile_configs D stg, ∀ k,
      map_find c k =
        if k ∈ S then
          some (Expr.IntImm (if (tile_vars (D.dims stg)).head? = some k then 64 else 1))
        else none := by
  obtain ⟨i, hi, hbit⟩ := exists_mask (fun x => decide (x ∈ S)) (tile_vars (D.dims stg))
  obtain ⟨_, g2, g3⟩ := reorder_tiling_find _ hnd i
  have hfind : ∀ k, map_find (reorder_tiling (tile_vars (D.dims stg)) i) k =
      if k ∈ S then
        some (Expr.IntImm (if (tile_vars (D.dims stg)).head? = some k then 64 else 1))
      else none := by
    intro k
    by_cases hk : k ∈ tile_vars (D.dims stg)
    · obtain ⟨j, hj, hjk⟩ := List.getElem_of_mem hk
      have hjk1 : (tile_vars (D.dims stg)).getD j "" = k := by
        rw [List.getD_eq_getElem _ "" hj, hjk]
      have h1 := g2 j hj
      have h2 := hbit j hj
      rw [hjk1] at h1 h2
      rw [h1]
      simp only [decide_eq_true_eq] at h2
      by_cases hkS : k ∈ S
      · rw [if_pos (h2.mpr hkS), if_pos hkS]
        congr 2
        by_cases hj0 : j = 0
        · subst hj0
          have : (tile_vars (D.dims stg)).head? = some k := by
            rw [← hjk, List.head?_eq_getElem?, List.getElem?_eq_getElem hj]
          simp [this]
        · have : ¬ (tile_vars (D.dims stg)).head? = some k := by
            intro hh
            rw [List.head?_eq_getElem?] at hh
            have h0 : 0 < (tile_vars (D.dims stg)).length := by omega
            rw [List.getElem?_eq_getElem h0, Option.some.injEq, ← hjk] at hh
            exact hj0 ((List.Nodup.getElem_inj_iff hnd).mp hh).symm
          simp [hj0, this]
      · rw [if_neg (fun h => hkS (h2.mp h)), if_neg hkS]
    · rw [g3 k hk, if_neg (fun h => hk (hsub k h))]
  have hne : reorder_tiling (tile_vars (D.dims stg)) i ≠ [] := by
    obtain ⟨x, hx⟩ := List.exists_mem_of_ne_nil S hS
    have := hfind x
    rw [if_pos hx] at this
    exact tiling_ne_nil_of_find _ _ _ this
  obtain ⟨c, hc, hk⟩ := tile_configs_of_reorder _ hnd i hi hne
  exact ⟨c, hc, fun k => by rw [hk, hfind]⟩

theorem reorder_family_witness :
    ((tile_vars ((⟨fun _ => [⟨"x", false⟩, ⟨"y", false⟩, ⟨"__outermost", false⟩],
      fun _ => []⟩ : StageDefinitions).dims ⟨"f", 0⟩)).Nodup ∧
    (tile_vars ((⟨fun _ => [⟨"x", false⟩, ⟨"y", false⟩, ⟨"__outermost", false⟩],
      fun _ => []⟩ : StageDefinitions).dims ⟨"f", 0⟩)).length < 31 ∧
    ["y"] ≠ [] ∧
    ∀ x ∈ ["y"], x ∈ tile_vars ((⟨fun _ => [⟨"x", false⟩, ⟨"y", false⟩,
      ⟨"__outermost", false⟩], fun _ => []⟩ : StageDefinitions).dims ⟨"f", 0⟩)) ∧
    ∃ c ∈ generate_tile_configs
        ⟨fun _ => [⟨"x", false⟩, ⟨"y", false⟩, ⟨"__outermost", false⟩], fun _ => []⟩ ⟨"f", 0⟩,
      ∀ k, map_find c k =
        if k ∈ ["y"] then
          some (Expr.IntImm (if (tile_vars ((⟨fun _ => [⟨"x", false⟩, ⟨"y", false⟩,
            ⟨"__outermost", false⟩], fun _ => []⟩ : StageDefinitions).dims ⟨"f", 0⟩)).head? =
              some k then 64 else 1))
        else none :=
  ⟨⟨by decide, by decide, by decide, by decide⟩,
    reorder_family ⟨fun _ => [⟨"x", false⟩, ⟨"y", false⟩, ⟨"__outermost", false⟩], fun _ => []⟩
      ⟨"f", 0⟩ (by decide) (by decide) ["y"] (by decide) (by decide)⟩

/-- C24: `generate_tile_configs_sliding_window`.  With `v` the second tile
variable (second-innermost loop that is not a reduction loop) of the stage:
the result is empty when there is no such `v`, when `tile_bounds` has no
entry for `v`, or when `v` is the empty name; the assertion fails when the
entry is not a constant; and for a constant entry `b` the result lists, in
the increasing order of `size_variants`, one configuration for each size
`s < b`, which is `tile_bounds` with the entry of `v` replaced by `s`. -/
theorem sliding_window_configs (D : StageDefinitions) (stg : FStage) (tile_bounds : TileSizes) :
    generate_tile_configs_sliding_window D stg tile_bounds =
      match (tile_vars (D.dims stg))[1]? with
      | none => Except.ok []
      | some v =>
        match map_find tile_bounds v with
        | none => Except.ok []
        | some bound =>
          if v = "" then Except.ok []
          else
            match as_const_int bound with
            | none => Except.error "internal_assert: bound_size"
            | some b =>
              Except.ok ((size_variants.filter (fun s => decide (s < b))).map
                (fun s => tile_bounds.map
                  (fun e => if e.1 = v then (e.1, Expr.IntImm s) else e))) := by
  unfold generate_tile_configs_sliding_window
  simp only []
  rw [sliding_var_eq]
  cases hv : (tile_vars (D.dims stg))[1]? with
  | none =>
    simp only [Option.getD_none]
    cases hb : map_find tile_bounds "" with
    | none => rfl
    | some bound => simp
  | some v =>
    simp only [Option.getD_some]
    cases hb : map_find tile_bounds v with
    | none => rfl
    | some bound =>
      simp only []
      by_cases hve : v = ""
      · simp [hve]
      · simp only [hve, if_false]
        cases hc : as_const_int bound with
        | none => rfl
        | some b =>
          simp only []
          rw [size_variants_takeWhile]


/-! ### The bounds of a tile -/

theorem map_assign_sorted {κ ν : Type} (lt : κ → κ → Bool)
    (htrans : ∀ a b c : κ, lt a b = true → lt b c = true → lt a c = true)
    (htri : ∀ a b : κ, lt a b = false → lt b a = false → a = b) (k : κ) (v : ν) :
    ∀ m : List (κ × ν), m.Pairwise (fun a b => lt a.1 b.1 = true) →
      (map_assign lt k v m).Pairwise (fun a b => lt a.1 b.1 = true) := by
  intro m
  induction m with
  | nil => intro _; simp [map_assign]
  | cons e rest ih =>
    intro h
    obtain ⟨k1, v1⟩ := e
    rw [List.pairwise_cons] at h
    unfold map_assign
    by_cases h1 : lt k k1 = true
    · simp only [h1, if_true]
      rw [List.pairwise_cons]
      refine ⟨?_, List.pairwise_cons.mpr h⟩
      intro a ha
      rw [List.mem_cons] at ha
      rcases ha with ha | ha
      · rw [ha]; exact h1
      · exact htrans _ _ _ h1 (h.1 a ha)
    · by_cases h2 : lt k1 k = true
      · simp only [h1, h2, if_true, if_false, Bool.false_eq_true]
        rw [List.pairwise_cons]
        refine ⟨?_, ih h.2⟩
        intro a ha
        rcases mem_map_assign lt htri k v rest a ha with h3 | h3
        · exact h.1 a h3
        · rw [h3]; exact h2
      · have heq : k1 = k := (htri k k1 (by simpa using h1) (by simpa using h2)).symm
        simp only [h1, h2, if_false, Bool.false_eq_true]
        rw [List.pairwise_cons]
        exact ⟨h.1, h.2⟩

theorem sorted_keys_nodup (m : List (String × Interval))
    (h : m.Pairwise (fun a b => string_lt a.1 b.1 = true)) : (m.map Prod.fst).Nodup := by
  rw [List.Nodup, List.pairwise_map]
  refine List.Pairwise.imp ?_ h
  intro a b hab heq
  rw [heq, string_lt_irrefl] at hab
  exact absurd hab (by simp)

theorem get_bounds_from_tile_sizes_loop_spec (P : Primitives) (A : AnalysisEnv)
    (def_bounds : DimBounds) (tile_sizes : TileSizes) :
    ∀ (ds : List Dim) (init : DimBounds),
      (∀ d ∈ ds, ∃ i, tile_bound P A def_bounds tile_sizes d.var = Except.ok i) →
      ∃ bounds, get_bounds_from_tile_sizes_loop P A def_bounds tile_sizes ds init =
          Except.ok bounds ∧
        (∀ v i, (∃ d ∈ ds, d.var = v) → tile_bound P A def_bounds tile_sizes v = Except.ok i →
          map_find bounds v = some i) ∧
        (∀ v, (∀ d ∈ ds, d.var ≠ v) → map_find bounds v = map_find init v) ∧
        (init.Pairwise (fun a b => string_lt a.1 b.1 = true) →
          bounds.Pairwise (fun a b => string_lt a.1 b.1 = true)) := by
  intro ds
  induction ds with
  | nil =>
    intro init _
    exact ⟨init, rfl, fun v i h => by simp at h, fun _ _ => rfl, fun h => h⟩
  | cons d rest ih =>
    intro init hok
    obtain ⟨i0, hi0⟩ := hok d (by simp)
    obtain ⟨bounds, hb, g1, g2, g3⟩ := ih (map_assign string_lt d.var i0 init)
      (fun d1 hd1 => hok d1 (by simp [hd1]))
    refine ⟨bounds, ?_, ?_, ?_, ?_⟩
    · rw [get_bounds_from_tile_sizes_loop, hi0]
      exact hb
    · intro v i hv hi
      by_cases hr : ∃ d1 ∈ rest, d1.var = v
      · exact g1 v i hr hi
      · have hdv : d.var = v := by
          obtain ⟨d1, hd1, hv1⟩ := hv
          rw [List.mem_cons] at hd1
          rcases hd1 with h | h
          · rw [← h]; exact hv1
          · exact absurd ⟨d1, h, hv1⟩ hr
        rw [g2 v (fun d1 hd1 hv1 => hr ⟨d1, hd1, hv1⟩), ← hdv,
          map_find_assign_self string_lt string_lt_irrefl string_lt_trichotomy]
        rw [hdv] at hi0
        rw [hi0] at hi
        injection hi with hi
        rw [hi]
    · intro v hv
      rw [g2 v (fun d1 hd1 => hv d1 (by simp [hd1]))]
      exact map_find_assign_ne string_lt string_lt_trichotomy _ _ _
        (fun h => hv d (by simp) h.symm) init
    · intro hs
      exact g3 (map_assign_sorted string_lt (fun a b c h1 h2 => chars_lt_trans _ _ _ h1 h2)
        string_lt_trichotomy _ _ init hs)

theorem tile_bound_none (P : Primitives) (A : AnalysisEnv) (def_bounds : DimBounds)
    (tile_sizes : TileSizes) (v : String) (bound : Interval)
    (hb : map_find def_bounds v = some bound) (hts : map_find tile_sizes v = none) :
    tile_bound P A def_bounds tile_sizes v = Except.ok bound := by
  unfold tile_bound get_element
  rw [hb]
  simp only [hts]

theorem tile_bound_some (P : Primitives) (A : AnalysisEnv) (def_bounds : DimBounds)
    (tile_sizes : TileSizes) (v : String) (bound : Interval) (size extent : Expr)
    (hb : map_find def_bounds v = some bound) (hts : map_find tile_sizes v = some size)
    (hx : A.get_extent bound = some extent) :
    tile_bound P A def_bounds tile_sizes v =
      if P.can_prove (Expr.GE extent (Expr.Mul (Expr.IntImm 2) size)) then
        Except.ok ⟨Expr.IntImm 0, P.simplify (Expr.Sub size (Expr.IntImm 1))⟩
      else Except.ok bound := by
  unfold tile_bound get_element
  rw [hb]
  simp only [hts, hx]

/-- C28 (as the code has it): `get_bounds_from_tile_sizes`.  When every loop
dimension of the stage other than the last has a bound in the result of
`get_bounds`, with a defined extent where `tile_sizes` has an entry, the
result has exactly one entry for each such dimension `v`: the interval
`[0, simplify(s - 1)]` when `tile_sizes` has the size `s` for `v` and
`extent(v) >= 2 * s` is proved, and the bound of `get_bounds` otherwise, that
is without an entry, when the comparison is not proved, and, for a sound
prover, whenever the extent is below `2 * s` under some valuation. -/
theorem tile_bounds_spec (P : Primitives) (A : AnalysisEnv) (s : FStage) (tile_sizes : TileSizes)
    (def_bounds : DimBounds) (hb : get_bounds A s = Except.ok def_bounds)
    (hdef : ∀ d ∈ (A.definitions.dims s).dropLast, ∃ b, map_find def_bounds d.var = some b ∧
      (map_find tile_sizes d.var ≠ none → A.get_extent b ≠ none)) :
    ∃ bounds, get_bounds_from_tile_sizes P A s tile_sizes = Except.ok bounds ∧
      (bounds.map Prod.fst).Nodup ∧
      (∀ v, map_find bounds v ≠ none ↔ ∃ d ∈ (A.definitions.dims s).dropLast, d.var = v) ∧
      (∀ d ∈ (A.definitions.dims s).dropLast, ∀ bound, map_find def_bounds d.var = some bound →
        (map_find tile_sizes d.var = none → map_find bounds d.var = some bound) ∧
        (∀ size extent, map_find tile_sizes d.var = some size →
          A.get_extent bound = some extent →
          (P.can_prove (Expr.GE extent (Expr.Mul (Expr.IntImm 2) size)) = true →
            map_find bounds d.var =
              some ⟨Expr.IntImm 0, P.simplify (Expr.Sub size (Expr.IntImm 1))⟩) ∧
          (P.can_prove (Expr.GE extent (Expr.Mul (Expr.IntImm 2) size)) = false →
            map_find bounds d.var = some bound) ∧
          (P.can_prove_sound → (∃ env, extent.eval env < 2 * size.eval env) →
            map_find bounds d.var = some bound))) := by
  have hok : ∀ d ∈ (A.definitions.dims s).dropLast,
      ∃ i, tile_bound P A def_bounds tile_sizes d.var = Except.ok i := by
    intro d hd
    obtain ⟨b, hb1, hb2⟩ := hdef d hd
    cases hts : map_find tile_sizes d.var with
    | none => exact ⟨b, tile_bound_none P A def_bounds tile_sizes d.var b hb1 hts⟩
    | some size =>
      cases hx : A.get_extent b with
      | none => exact absurd hx (hb2 (by simp [hts]))
      | some extent =>
        rw [tile_bound_some P A def_bounds tile_sizes d.var b size extent hb1 hts hx]
        split
        · exact ⟨_, rfl⟩
        · exact ⟨_, rfl⟩
  obtain ⟨bounds, h1, g1, g2, g3⟩ := get_bounds_from_tile_sizes_loop_spec P A def_bounds
    tile_sizes (A.definitions.dims s).dropLast [] hok
  refine ⟨bounds, ?_, sorted_keys_nodup bounds (g3 List.Pairwise.nil), ?_, ?_⟩
  · unfold get_bounds_from_tile_sizes
    rw [hb]
    exact h1
  · intro v
    constructor
    · intro hv
      by_contra hne
      apply hv
      rw [g2 v (fun d hd hdv => hne ⟨d, hd, hdv⟩)]
      rfl
    · rintro ⟨d, hd, hdv⟩
      obtain ⟨i, hi⟩ := hok d hd
      rw [hdv] at hi
      rw [g1 v i ⟨d, hd, hdv⟩ hi]
      simp
  · intro d hd bound hbound
    have hfind : ∀ i, tile_bound P A def_bounds tile_sizes d.var = Except.ok i →
        map_find bounds d.var = some i := fun i hi => g1 d.var i ⟨d, hd, rfl⟩ hi
    refine ⟨?_, ?_⟩
    · intro hts
      exact hfind bound (tile_bound_none P A def_bounds tile_sizes d.var bound hbound hts)
    · intro size extent hts hx
      rw [tile_bound_some P A def_bounds tile_sizes d.var bound size extent hbound hts hx]
        at hfind
      refine ⟨?_, ?_, ?_⟩
      · intro hp
        rw [if_pos hp] at hfind
        exact hfind _ rfl
      · intro hp
        rw [if_neg (by simp [hp])] at hfind
        exact hfind _ rfl
      · intro hsound ⟨env, henv⟩
        have hp : ¬ P.can_prove (Expr.GE extent (Expr.Mul (Expr.IntImm 2) size)) = true := by
          intro hp
          have := hsound _ hp env
          simp only [Expr.eval] at this
          split at this
          · omega
          · exact this rfl
        rw [if_neg hp] at hfind
        exact hfind _ rfl

/-- The loop `x` of extent 4 with the tile size 2: `4 >= 2 * 2` is proved, and
the bound `[0, 3]` of `x` becomes `[0, 1]`. -/
theorem tile_bounds_spec_counterexample :
    get_bounds (example_analysis_env none) ⟨"f", 0⟩ =
      Except.ok [("x", example_interval 0 3), ("y", example_interval 0 31)] ∧
    (example_analysis_env none).get_extent (example_interval 0 3) = some (Expr.IntImm 4) ∧
    get_bounds_from_tile_sizes Primitives.basic (example_analysis_env none) ⟨"f", 0⟩
      [("x", Expr.IntImm 2)] =
      Except.ok [("x", example_interval 0 1), ("y", example_interval 0 31)] := by
  decide

theorem tile_bounds_spec_witness :
    get_bounds (example_analysis_env none) ⟨"f", 0⟩ =
      Except.ok [("x", example_interval 0 3), ("y", example_interval 0 31)] ∧
    get_bounds_from_tile_sizes Primitives.basic (example_analysis_env none) ⟨"f", 0⟩
      [("x", Expr.IntImm 3), ("y", Expr.IntImm 8)] =
      Except.ok [("x", example_interval 0 3), ("y", example_interval 0 7)] ∧
    ∃ bounds, get_bounds_from_tile_sizes Primitives.basic (example_analysis_env none) ⟨"f", 0⟩
        [("x", Expr.IntImm 3), ("y", Expr.IntImm 8)] = Except.ok bounds ∧
      (bounds.map Prod.fst).Nodup ∧
      (∀ v, map_find bounds v ≠ none ↔
        ∃ d ∈ ((example_analysis_env none).definitions.dims ⟨"f", 0⟩).dropLast, d.var = v) ∧
      (∀ d ∈ ((example_analysis_env none).definitions.dims ⟨"f", 0⟩).dropLast, ∀ bound,
        map_find [("x", example_interval 0 3), ("y", example_interval 0 31)] d.var = some bound →
        (map_find [("x", Expr.IntImm 3), ("y", Expr.IntImm 8)] d.var = none →
          map_find bounds d.var = some bound) ∧
        (∀ size extent, map_find [("x", Expr.IntImm 3), ("y", Expr.IntImm 8)] d.var = some size →
          (example_analysis_env none).get_extent bound = some extent →
          (Primitives.basic.can_prove (Expr.GE extent (Expr.Mul (Expr.IntImm 2) size)) = true →
            map_find bounds d.var =
              some ⟨Expr.IntImm 0, Primitives.basic.simplify (Expr.Sub size (Expr.IntImm 1))⟩) ∧
          (Primitives.basic.can_prove (Expr.GE extent (Expr.Mul (Expr.IntImm 2) size)) = false →
            map_find bounds d.var = some bound) ∧
          (Primitives.basic.can_prove_sound → (∃ env, extent.eval env < 2 * size.eval env) →
            map_find bounds d.var = some bound))) :=
  ⟨by decide, by decide,
    tile_bounds_spec Primitives.basic (example_analysis_env none) ⟨"f", 0⟩
      [("x", Expr.IntImm 3), ("y", Expr.IntImm 8)]
      [("x", example_interval 0 3), ("y", example_interval 0 31)] (by decide)
      (by
        intro d hd
        have hd1 : d = ⟨"x", false⟩ ∨ d = ⟨"y", false⟩ := by
          simpa [example_analysis_env] using hd
        rcases hd1 with h | h
        · subst h; exact ⟨example_interval 0 3, by decide, by decide⟩
        · subst h; exact ⟨example_interval 0 31, by decide, by decide⟩)⟩


/-! ### The number of tiles -/

theorem ceil_div_eq (e s : Int) (hs : 0 < s) :
    (e + s - 1) / s = ⌈(e : ℚ) / (s : ℚ)⌉ := by
  symm
  rw [Int.ceil_eq_iff]
  have hsq : (0 : ℚ) < (s : ℚ) := by exact_mod_cast hs
  have h1 := Int.ediv_add_emod (e + s - 1) s
  have h2 := Int.emod_nonneg (e + s - 1) (ne_of_gt hs)
  have h3 := Int.emod_lt_of_pos (e + s - 1) hs
  constructor
  · rw [lt_div_iff₀ hsq]
    have : ((e + s - 1) / s - 1) * s < e := by nlinarith
    exact_mod_cast this
  · rw [div_le_iff₀ hsq]
    have : e ≤ ((e + s - 1) / s) * s := by nlinarith
    exact_mod_cast this

/-- The factor that a dimension contributes to the number of tiles under a
valuation: the ceiling of extent over tile size when `tile_sizes` has an
entry for the dimension, and 1 otherwise. -/
theorem dim_tiles_eval (P : Primitives) (hs : P.simplify_sound) (env : String → Int)
    (extent size : Expr) (hz : 0 < size.eval env) :
    (dim_tiles P extent size).eval env =
      ⌈((extent.eval env : Int) : ℚ) / ((size.eval env : Int) : ℚ)⌉ := by
  unfold dim_tiles
  rw [hs env, ← ceil_div_eq _ _ hz]
  simp only [Expr.eval]

theorem tile_counts_eval (P : Primitives) (hs : P.simplify_sound) (A : AnalysisEnv) (g : Group)
    (stg_bounds : DimBounds) (env : String → Int) :
    ∀ (ds : List Dim) (acc : Expr × Expr),
      (∀ d ∈ ds, ∀ size, map_find g.tile_sizes d.var = some size →
        ∃ bound extent, map_find stg_bounds d.var = some bound ∧
          A.get_extent bound = some extent ∧ 0 < size.eval env) →
      ∃ counts, tile_counts P A g stg_bounds ds acc = Except.ok (some counts) ∧
        counts.1.eval env = acc.1.eval env *
          (ds.map (fun d =>
            match map_find g.tile_sizes d.var, (map_find stg_bounds d.var).bind A.get_extent with
            | some size, some extent =>
              ⌈((extent.eval env : Int) : ℚ) / ((size.eval env : Int) : ℚ)⌉
            | _, _ => 1)).prod := by
  intro ds
  induction ds with
  | nil =>
    intro acc _
    exact ⟨acc, rfl, by simp⟩
  | cons d rest ih =>
    intro acc h
    have hrest := fun d1 hd1 => h d1 (List.mem_cons_of_mem d hd1)
    cases hts : map_find g.tile_sizes d.var with
    | none =>
      obtain ⟨counts, hc, hv⟩ := ih acc hrest
      refine ⟨counts, ?_, ?_⟩
      · rw [tile_counts]
        simp only [hts]
        exact hc
      · rw [hv]
        simp only [List.map_cons, List.prod_cons, hts]
        ring
    | some size =>
      obtain ⟨bound, extent, hb, hx, hz⟩ := h d (by simp) size hts
      obtain ⟨counts, hc, hv⟩ := ih
        (Expr.Mul acc.1 (dim_tiles P extent size),
          if A.can_parallelize_rvar d.var g.output then
            Expr.Mul acc.2 (dim_tiles P extent size)
          else acc.2) hrest
      refine ⟨counts, ?_, ?_⟩
      · rw [tile_counts]
        simp only [hts, get_element, hb, hx]
        exact hc
      · have hbx : (map_find stg_bounds d.var).bind A.get_extent = some extent := by
          rw [hb]; exact hx
        rw [hv]
        simp only [List.map_cons, List.prod_cons, hts, hbx, Expr.eval]
        rw [dim_tiles_eval P hs env extent size hz]
        ring

/-- C25: the number of tiles of `analyze_group`.  With a sound simplifier,
under a valuation for which every dimension of the output stage (the last
excluded) that has an entry in `tile_sizes` has a bound with a defined extent
and a positive tile size, the loop over the dimensions runs
to its end, and its `estimate_tiles` has the value of the product, over those
dimensions, of the ceiling of extent over tile size, a dimension without an
entry contributing the factor 1; the factor of a dimension,
`simplify((extent + size - 1) / size)`, has the value of that ceiling. -/
theorem estimate_tiles_product (P : Primitives) (hs : P.simplify_sound) (A : AnalysisEnv)
    (g : Group) (stg_bounds : DimBounds) (env : String → Int)
    (hdims : ∀ d ∈ (A.definitions.dims g.output).dropLast, ∀ size,
      map_find g.tile_sizes d.var = some size →
        ∃ bound extent, map_find stg_bounds d.var = some bound ∧
          A.get_extent bound = some extent ∧ 0 < size.eval env) :
    (∃ counts, tile_counts P A g stg_bounds (A.definitions.dims g.output).dropLast
        (Expr.IntImm 1, Expr.IntImm 1) = Except.ok (some counts) ∧
      counts.1.eval env =
        ((A.definitions.dims g.output).dropLast.map (fun d =>
          match map_find g.tile_sizes d.var, (map_find stg_bounds d.var).bind A.get_extent with
          | some size, some extent =>
            ⌈((extent.eval env : Int) : ℚ) / ((size.eval env : Int) : ℚ)⌉
          | _, _ => 1)).prod) ∧
    (∀ extent size : Expr, 0 < size.eval env →
      (dim_tiles P extent size).eval env =
        (extent.eval env + size.eval env - 1) / size.eval env ∧
      (dim_tiles P extent size).eval env =
        ⌈((extent.eval env : Int) : ℚ) / ((size.eval env : Int) : ℚ)⌉) := by
  constructor
  · obtain ⟨counts, hc, hv⟩ := tile_counts_eval P hs A g stg_bounds env _
      (Expr.IntImm 1, Expr.IntImm 1) hdims
    refine ⟨counts, hc, ?_⟩
    rw [hv]
    simp [Expr.eval]
  · intro extent size hz
    refine ⟨?_, dim_tiles_eval P hs env extent size hz⟩
    unfold dim_tiles
    rw [hs env]
    simp only [Expr.eval]

theorem estimate_tiles_product_witness :
    tile_counts Primitives.basic (example_analysis_env none) (example_analysis_group 3 8)
      [("x", example_interval 0 3), ("y", example_interval 0 31)]
      ((example_analysis_env none).definitions.dims (example_analysis_group 3 8).output).dropLast
      (Expr.IntImm 1, Expr.IntImm 1) =
      Except.ok (some (Expr.Mul (Expr.Mul (Expr.IntImm 1) (Expr.IntImm 2)) (Expr.IntImm 4),
        Expr.Mul (Expr.Mul (Expr.IntImm 1) (Expr.IntImm 2)) (Expr.IntImm 4))) ∧
    ((∃ counts, tile_counts Primitives.basic (example_analysis_env none)
        (example_analysis_group 3 8) [("x", example_interval 0 3), ("y", example_interval 0 31)]
        ((example_analysis_env none).definitions.dims
          (example_analysis_group 3 8).output).dropLast
        (Expr.IntImm 1, Expr.IntImm 1) = Except.ok (some counts) ∧
      counts.1.eval (fun _ => 0) =
        (((example_analysis_env none).definitions.dims
          (example_analysis_group 3 8).output).dropLast.map (fun d =>
          match map_find (example_analysis_group 3 8).tile_sizes d.var,
            (map_find [("x", example_interval 0 3), ("y", example_interval 0 31)] d.var).bind
              (example_analysis_env none).get_extent with
          | some size, some extent =>
            ⌈((extent.eval (fun _ => 0) : Int) : ℚ) / ((size.eval (fun _ => 0) : Int) : ℚ)⌉
          | _, _ => 1)).prod) ∧
    (∀ extent size : Expr, 0 < size.eval (fun _ => 0) →
      (dim_tiles Primitives.basic extent size).eval (fun _ => 0) =
        (extent.eval (fun _ => 0) + size.eval (fun _ => 0) - 1) / size.eval (fun _ => 0) ∧
      (dim_tiles Primitives.basic extent size).eval (fun _ => 0) =
        ⌈((extent.eval (fun _ => 0) : Int) : ℚ) / ((size.eval (fun _ => 0) : Int) : ℚ)⌉)) :=
  ⟨by decide,
    estimate_tiles_product Primitives.basic basic_simplify_sound (example_analysis_env none)
      (example_analysis_group 3 8) [("x", example_interval 0 3), ("y", example_interval 0 31)]
      (fun _ => 0)
      (by
        intro d hd size hsize
        have hd1 : d = ⟨"x", false⟩ ∨ d = ⟨"y", false⟩ := by
          simpa [example_analysis_env, example_analysis_group, Group.output] using hd
        rcases hd1 with h | h
        · subst h
          have hz : size = Expr.IntImm 3 := by
            have : map_find (example_analysis_group 3 8).tile_sizes "x" =
                some (Expr.IntImm 3) := by decide
            rw [this] at hsize
            exact (Option.some.inj hsize).symm
          subst hz
          exact ⟨example_interval 0 3, Expr.IntImm 4, by decide, by decide, by decide⟩
        · subst h
          have hz : size = Expr.IntImm 8 := by
            have : map_find (example_analysis_group 3 8).tile_sizes "y" =
                some (Expr.IntImm 8) := by decide
            rw [this] at hsize
            exact (Option.some.inj hsize).symm
          subst hz
          exact ⟨example_interval 0 31, Expr.IntImm 32, by decide, by decide, by decide⟩)⟩


/-! ### The cost of a group and of a subgroup -/

theorem per_tile_costs_counts (P : Primitives) (A : AnalysisEnv) (part : Partitioner) (g : Group)
    (show_analysis : Bool) (counts : Expr × Expr) (t : TileAnalysis)
    (h : per_tile_costs P A part g show_analysis counts = Except.ok (some t)) :
    t.estimate_tiles = counts.1 ∧ t.parallelism = counts.2 := by
  unfold per_tile_costs at h
  split at h
  · exact absurd h (by simp)
  · split at h
    · exact absurd h (by simp)
    · split at h
      · exact absurd h (by simp)
      · simp only [] at h
        split at h
        · split at h
          · split at h
            · exact absurd h (by simp)
            · split at h
              · exact absurd h (by simp)
              · exact absurd h (by simp)
              · split at h
                · simp only [Except.ok.injEq, Option.some.injEq] at h
                  rw [← h]
                  exact ⟨rfl, rfl⟩
                · simp only [Except.ok.injEq, Option.some.injEq] at h
                  rw [← h]
                  exact ⟨rfl, rfl⟩
          · exact absurd h (by simp)
        · exact absurd h (by simp)

/-- The run of `analyze_group` that returns a defined analysis went through
the loop over the dimensions and the costs of one tile. -/
theorem analyze_group_defined (P : Primitives) (A : AnalysisEnv) (part : Partitioner)
    (g : Group) (show_analysis : Bool) (tb : TileSizes) (is_subgroup : Bool) (a : GroupAnalysis)
    (h : part.analyze_group P A g show_analysis tb is_subgroup = Except.ok a)
    (hd : a.defined = true) :
    ∃ stg_bounds counts t, get_bounds A g.output = Except.ok stg_bounds ∧
      tile_counts P A g stg_bounds (A.definitions.dims g.output).dropLast
        (Expr.IntImm 1, Expr.IntImm 1) = Except.ok (some counts) ∧
      per_tile_costs P A part g show_analysis counts = Except.ok (some t) ∧
      a = group_analysis_of P is_subgroup t := by
  unfold Partitioner.analyze_group at h
  cases hb : get_bounds A g.output with
  | error e => rw [hb] at h; exact absurd h (by simp)
  | ok stg_bounds =>
    rw [hb] at h
    simp only [] at h
    cases hc : tile_counts P A g stg_bounds (A.definitions.dims g.output).dropLast
        (Expr.IntImm 1, Expr.IntImm 1) with
    | error e => rw [hc] at h; exact absurd h (by simp)
    | ok oc =>
      rw [hc] at h
      cases oc with
      | none =>
        simp only [Except.ok.injEq] at h
        rw [← h] at hd
        exact absurd hd (by decide)
      | some counts =>
        simp only [] at h
        cases hp : per_tile_costs P A part g show_analysis counts with
        | error e => rw [hp] at h; exact absurd h (by simp)
        | ok ot =>
          rw [hp] at h
          cases ot with
          | none =>
            simp only [Except.ok.injEq] at h
            rw [← h] at hd
            exact absurd hd (by decide)
          | some t =>
            simp only [Except.ok.injEq] at h
            exact ⟨stg_bounds, counts, t, rfl, hc, hp, h.symm⟩

theorem analyze_group_of_tile (P : Primitives) (A : AnalysisEnv) (part : Partitioner)
    (g : Group) (show_analysis : Bool) (tb : TileSizes) (is_subgroup : Bool)
    (stg_bounds : DimBounds) (counts : Expr × Expr) (t : TileAnalysis)
    (hb : get_bounds A g.output = Except.ok stg_bounds)
    (hc : tile_counts P A g stg_bounds (A.definitions.dims g.output).dropLast
      (Expr.IntImm 1, Expr.IntImm 1) = Except.ok (some counts))
    (hp : per_tile_costs P A part g show_analysis counts = Except.ok (some t)) :
    part.analyze_group P A g show_analysis tb is_subgroup =
      Except.ok (group_analysis_of P is_subgroup t) := by
  unfold Partitioner.analyze_group
  rw [hb]
  simp only []
  rw [hc]
  simp only []
  rw [hp]

/-- C26: the cost of a subgroup is the cost of one tile.  When `analyze_group`
returns a defined analysis for a group (with either value of `is_subgroup`),
there are a cost of one tile (`arith`, `memory`), the number of tiles that the
loop over the dimensions has computed, and a parallelism, such that with
`is_subgroup = true` the result is the simplified cost of one tile, with
`is_subgroup = false` it is the simplified product of each cost of one tile
with the number of tiles, and the parallelism is the same in both; with a
sound simplifier the values of the costs of the full group are those of the
subgroup times the number of tiles. -/
theorem subgroup_cost_per_tile (P : Primitives) (A : AnalysisEnv) (part : Partitioner)
    (g : Group) (show_analysis : Bool) (tb : TileSizes) (is_subgroup : Bool) (a : GroupAnalysis)
    (h : part.analyze_group P A g show_analysis tb is_subgroup = Except.ok a)
    (hd : a.defined = true) :
    ∃ (stg_bounds : DimBounds) (counts : Expr × Expr) (arith memory : Expr),
      get_bounds A g.output = Except.ok stg_bounds ∧
      tile_counts P A g stg_bounds (A.definitions.dims g.output).dropLast
        (Expr.IntImm 1, Expr.IntImm 1) = Except.ok (some counts) ∧
      part.analyze_group P A g show_analysis tb true =
        Except.ok ⟨⟨some (P.simplify arith), some (P.simplify memory)⟩,
          some (P.simplify counts.2)⟩ ∧
      part.analyze_group P A g show_analysis tb false =
        Except.ok ⟨⟨some (P.simplify (Expr.Mul arith counts.1)),
          some (P.simplify (Expr.Mul memory counts.1))⟩, some (P.simplify counts.2)⟩ ∧
      (P.simplify_sound → ∀ env : String → Int,
        (P.simplify (Expr.Mul arith counts.1)).eval env =
          (P.simplify arith).eval env * counts.1.eval env ∧
        (P.simplify (Expr.Mul memory counts.1)).eval env =
          (P.simplify memory).eval env * counts.1.eval env) := by
  obtain ⟨stg_bounds, counts, t, hb, hc, hp, _⟩ :=
    analyze_group_defined P A part g show_analysis tb is_subgroup a h hd
  obtain ⟨h1, h2⟩ := per_tile_costs_counts P A part g show_analysis counts t hp
  refine ⟨stg_bounds, counts, t.arith, t.memory, hb, hc, ?_, ?_, ?_⟩
  · rw [analyze_group_of_tile P A part g show_analysis tb true stg_bounds counts t hb hc hp]
    simp [group_analysis_of, GroupAnalysis.simplify, Cost.simplify, h2]
  · rw [analyze_group_of_tile P A part g show_analysis tb false stg_bounds counts t hb hc hp]
    simp [group_analysis_of, GroupAnalysis.simplify, Cost.simplify, h1, h2]
  · intro hs env
    simp only [hs env, Expr.eval, and_self]

theorem tile_counts_none (P : Primitives) (A : AnalysisEnv) (g : Group) (stg_bounds : DimBounds) :
    ∀ (ds : List Dim) (acc : Expr × Expr),
      (∀ d ∈ ds, map_find g.tile_sizes d.var ≠ none → map_find stg_bounds d.var ≠ none) →
      (∃ d ∈ ds, ∃ bound, map_find g.tile_sizes d.var ≠ none ∧
        map_find stg_bounds d.var = some bound ∧ A.get_extent bound = none) →
      tile_counts P A g stg_bounds ds acc = Except.ok none := by
  intro ds
  induction ds with
  | nil => intro acc _ h; obtain ⟨d, hd, _⟩ := h; simp at hd
  | cons d rest ih =>
    intro acc hb hex
    rw [tile_counts]
    cases hts : map_find g.tile_sizes d.var with
    | none =>
      simp only []
      apply ih acc (fun d1 hd1 => hb d1 (by simp [hd1]))
      obtain ⟨d1, hd1, bound, h1, h2, h3⟩ := hex
      rw [List.mem_cons] at hd1
      rcases hd1 with h | h
      · subst h; exact absurd hts h1
      · exact ⟨d1, h, bound, h1, h2, h3⟩
    | some size =>
      simp only []
      cases hsb : map_find stg_bounds d.var with
      | none => exact absurd hsb (hb d (by simp) (by simp [hts]))
      | some bound =>
        simp only [get_element, hsb]
        cases hx : A.get_extent bound with
        | none => rfl
        | some extent =>
          simp only []
          apply ih _ (fun d1 hd1 => hb d1 (by simp [hd1]))
          obtain ⟨d1, hd1, bound1, h1, h2, h3⟩ := hex
          rw [List.mem_cons] at hd1
          rcases hd1 with h | h
          · subst h
            rw [hsb] at h2
            injection h2 with h2
            rw [← h2, hx] at h3
            exact absurd h3 (by simp)
          · exact ⟨d1, h, bound1, h1, h2, h3⟩

theorem tile_counts_some (P : Primitives) (A : AnalysisEnv) (g : Group) (stg_bounds : DimBounds) :
    ∀ (ds : List Dim) (acc counts : Expr × Expr),
      tile_counts P A g stg_bounds ds acc = Except.ok (some counts) →
      ∀ d ∈ ds, ∀ size, map_find g.tile_sizes d.var = some size →
        ∃ bound extent, map_find stg_bounds d.var = some bound ∧
          A.get_extent bound = some extent := by
  intro ds
  induction ds with
  | nil => intro _ _ _ d hd; simp at hd
  | cons d rest ih =>
    intro acc counts h d1 hd1 size hsize
    rw [tile_counts] at h
    cases hts : map_find g.tile_sizes d.var with
    | none =>
      rw [hts] at h
      simp only [] at h
      rw [List.mem_cons] at hd1
      rcases hd1 with h1 | h1
      · subst h1; rw [hts] at hsize; exact absurd hsize (by simp)
      · exact ih acc counts h d1 h1 size hsize
    | some size0 =>
      rw [hts] at h
      simp only [] at h
      cases hsb : map_find stg_bounds d.var with
      | none => simp [get_element, hsb] at h
      | some bound =>
        simp only [get_element, hsb] at h
        cases hx : A.get_extent bound with
        | none => simp [hx] at h
        | some extent =>
          simp only [hx] at h
          rw [List.mem_cons] at hd1
          rcases hd1 with h1 | h1
          · subst h1; exact ⟨bound, extent, hsb, hx⟩
          · exact ih _ counts h d1 h1 size hsize

theorem checked_load_cost_none (arch : MachineParams) (memory : Expr)
    (footprint count : Option Expr) :
    checked_load_cost arch memory none footprint count = Except.ok none := by
  simp [checked_load_cost, model_reuse]

/-- The turn of the loop over the load sources at a source that is the output
or not a member, when the footprint over the bounds of the pipeline is
undefined: `analyze_group` returns. -/
theorem load_cost_step_none (A : AnalysisEnv) (part : Partitioner) (g : Group)
    (group_members : List String) (alloc_regions : List (String × Box)) (out_extent : Box)
    (memory : Expr) (f_load : String × Option Expr) (alloc_reg bounds : Box)
    (hinl : g.inlined.contains f_load.1 = false)
    (halloc : map_find alloc_regions f_load.1 = some alloc_reg)
    (hout : ((!(f_load.1 == g.output.func)) && group_members.contains f_load.1) = false)
    (hpb : map_find A.pipeline_bounds f_load.1 = some bounds)
    (hmem : (env_find part.env f_load.1).isSome = true → (f_load.1 == g.output.func) = true →
      group_members.contains f_load.1 = true)
    (hfoot : (if (env_find part.env f_load.1).isSome then A.region_size f_load.1 bounds
      else A.input_region_size f_load.1 bounds) = none) :
    load_cost_step A part g group_members alloc_regions out_extent memory f_load =
      Except.ok none := by
  unfold load_cost_step
  simp only [hinl, get_element, halloc, hout, hpb, Bool.false_eq_true, if_false]
  cases henv : (env_find part.env f_load.1).isSome with
  | false =>
    rw [henv] at hfoot
    simp only [Bool.false_eq_true, if_false] at hfoot
    simp only [Bool.not_false, if_true, hfoot, checked_load_cost_none]
  | true =>
    rw [henv] at hfoot
    simp only [if_true] at hfoot
    simp only [Bool.not_true, Bool.false_eq_true, if_false, hfoot, checked_load_cost_none]
    cases ho : (f_load.1 == g.output.func) with
    | false => simp
    | true =>
      have := hmem henv ho
      simpa using this

theorem load_costs_loop_none (A : AnalysisEnv) (part : Partitioner) (g : Group)
    (group_members : List String) (alloc_regions : List (String × Box)) (out_extent : Box)
    (f_load : String × Option Expr) (post : List (String × Option Expr))
    (hstep : ∀ memory, load_cost_step A part g group_members alloc_regions out_extent memory
      f_load = Except.ok none) :
    ∀ (pre : List (String × Option Expr)) (memory : Expr),
      (∀ e, load_costs_loop A part g group_members alloc_regions out_extent pre memory ≠
        Except.error e) →
      load_costs_loop A part g group_members alloc_regions out_extent (pre ++ f_load :: post)
        memory = Except.ok none := by
  intro pre
  induction pre with
  | nil =>
    intro memory _
    simp only [List.nil_append]
    rw [load_costs_loop, hstep]
  | cons f rest ih =>
    intro memory hne
    simp only [List.cons_append]
    rw [load_costs_loop] at hne ⊢
    cases hs : load_cost_step A part g group_members alloc_regions out_extent memory f with
    | error e => rw [hs] at hne; exact absurd rfl (hne e)
    | ok om =>
      cases om with
      | none => rfl
      | some memory1 =>
        rw [hs] at hne
        exact ih memory1 hne

theorem add_load_cost_some (arch : MachineParams) (memory : Expr) (footprint count : Option Expr)
    (m : Option Expr) (h : add_load_cost arch memory footprint count = Except.ok m) :
    footprint ≠ none ∧ count ≠ none := by
  unfold add_load_cost defined_operand at h
  cases footprint with
  | none => simp at h
  | some fp =>
    cases count with
    | none => simp at h
    | some c => simp

theorem load_cost_step_count (A : AnalysisEnv) (part : Partitioner) (g : Group)
    (group_members : List String) (alloc_regions : List (String × Box)) (out_extent : Box)
    (memory memory1 : Expr) (f_load : String × Option Expr)
    (h : load_cost_step A part g group_members alloc_regions out_extent memory f_load =
      Except.ok (some memory1)) : f_load.2 ≠ none := by
  have hc : ∀ i fp, checked_load_cost part.arch_params memory i fp f_load.2 =
      Except.ok (some memory1) → f_load.2 ≠ none := by
    intro i fp hh
    unfold checked_load_cost at hh
    simp only [model_reuse, Bool.false_eq_true, if_false] at hh
    cases i with
    | none => simp at hh
    | some x => exact (add_load_cost_some _ _ _ _ _ hh).2
  unfold load_cost_step at h
  split at h
  · exact absurd h (by simp)
  · split at h
    · exact absurd h (by simp)
    · split at h
      · exact (add_load_cost_some _ _ _ _ _ h).2
      · split at h
        · exact absurd h (by simp)
        · split at h
          · exact hc _ _ h
          · split at h
            · split at h
              · exact hc _ _ h
              · exact absurd h (by simp)
            · exact hc _ _ h

theorem load_costs_loop_counts (A : AnalysisEnv) (part : Partitioner) (g : Group)
    (group_members : List String) (alloc_regions : List (String × Box)) (out_extent : Box) :
    ∀ (loads : List (String × Option Expr)) (memory m : Expr),
      load_costs_loop A part g group_members alloc_regions out_extent loads memory =
        Except.ok (some m) → ∀ f ∈ loads, f.2 ≠ none := by
  intro loads
  induction loads with
  | nil => intro _ _ _ f hf; simp at hf
  | cons f0 rest ih =>
    intro memory m h f hf
    rw [load_costs_loop] at h
    cases hs : load_cost_step A part g group_members alloc_regions out_extent memory f0 with
    | error e => rw [hs] at h; exact absurd h (by simp)
    | ok om =>
      rw [hs] at h
      cases om with
      | none => exact absurd h (by simp)
      | some memory1 =>
        simp only [] at h
        rw [List.mem_cons] at hf
        rcases hf with h1 | h1
        · rw [h1]
          exact load_cost_step_count A part g group_members alloc_regions out_extent memory
            memory1 f0 hs
        · exact ih memory1 m h f h1

theorem per_tile_costs_none (P : Primitives) (A : AnalysisEnv) (part : Partitioner) (g : Group)
    (show_analysis : Bool) (counts : Expr × Expr) (tile_bounds : DimBounds)
    (alloc_regions compute_regions : List (String × Box))
    (htb : get_bounds_from_tile_sizes P A g.output g.tile_sizes = Except.ok tile_bounds)
    (ha : A.regions_required g.output tile_bounds (group_member_names g) false =
      Except.ok alloc_regions)
    (hc : A.regions_required g.output tile_bounds (group_member_names g) true =
      Except.ok compute_regions)
    (h : (A.region_cost (group_regions (group_member_names g) g.output.func compute_regions)
          g.inlined).defined = false ∨
      (A.stage_region_cost g.output tile_bounds g.inlined).defined = false ∨
      (∃ reg ∈ alloc_regions, A.box_size reg.2 = none) ∨
      load_costs_loop A part g (group_member_names g) alloc_regions
        (out_tile_extent A g tile_bounds)
        (A.combine_load_costs
          (A.detailed_load_costs
            (group_regions (group_member_names g) g.output.func compute_regions) g.inlined)
          (A.stage_detailed_load_costs g.output tile_bounds g.inlined))
        make_zero = Except.ok none) :
    per_tile_costs P A part g show_analysis counts = Except.ok none := by
  unfold per_tile_costs
  rw [htb]
  simp only []
  rw [ha]
  simp only []
  rw [hc]
  simp only []
  cases h1 : (A.region_cost (group_regions (group_member_names g) g.output.func compute_regions)
      g.inlined).arith with
  | none => rfl
  | some ta =>
    cases h2 : (A.region_cost (group_regions (group_member_names g) g.output.func
        compute_regions) g.inlined).memory with
    | none => rfl
    | some tm =>
      simp only []
      cases h3 : (A.stage_region_cost g.output tile_bounds g.inlined).arith with
      | none => rfl
      | some oa =>
        cases h4 : (A.stage_region_cost g.output tile_bounds g.inlined).memory with
        | none => rfl
        | some om =>
          simp only []
          split
          · rfl
          · next hbox =>
            rcases h with h | h | h | h
            · simp [Cost.defined, h1, h2] at h
            · simp [Cost.defined, h3, h4] at h
            · exfalso
              apply hbox
              obtain ⟨reg, hreg, hnone⟩ := h
              rw [List.any_eq_true]
              exact ⟨reg, hreg, by simp [hnone]⟩
            · rw [h]

theorem per_tile_costs_some (P : Primitives) (A : AnalysisEnv) (part : Partitioner) (g : Group)
    (show_analysis : Bool) (counts : Expr × Expr) (t : TileAnalysis)
    (h : per_tile_costs P A part g show_analysis counts = Except.ok (some t)) :
    ∃ tile_bounds alloc_regions compute_regions m,
      get_bounds_from_tile_sizes P A g.output g.tile_sizes = Except.ok tile_bounds ∧
      A.regions_required g.output tile_bounds (group_member_names g) false =
        Except.ok alloc_regions ∧
      A.regions_required g.output tile_bounds (group_member_names g) true =
        Except.ok compute_regions ∧
      (A.region_cost (group_regions (group_member_names g) g.output.func compute_regions)
        g.inlined).defined = true ∧
      (A.stage_region_cost g.output tile_bounds g.inlined).defined = true ∧
      (∀ reg ∈ alloc_regions, A.box_size reg.2 ≠ none) ∧
      load_costs_loop A part g (group_member_names g) alloc_regions
        (out_tile_extent A g tile_bounds)
        (A.combine_load_costs
          (A.detailed_load_costs
            (group_regions (group_member_names g) g.output.func compute_regions) g.inlined)
          (A.stage_detailed_load_costs g.output tile_bounds g.inlined))
        make_zero = Except.ok (some m) := by
  unfold per_tile_costs at h
  cases htb : get_bounds_from_tile_sizes P A g.output g.tile_sizes with
  | error e => rw [htb] at h; exact absurd h (by simp)
  | ok tile_bounds =>
    rw [htb] at h
    simp only [] at h
    cases ha : A.regions_required g.output tile_bounds (group_member_names g) false with
    | error e => rw [ha] at h; exact absurd h (by simp)
    | ok alloc_regions =>
      rw [ha] at h
      simp only [] at h
      cases hc : A.regions_required g.output tile_bounds (group_member_names g) true with
      | error e => rw [hc] at h; exact absurd h (by simp)
      | ok compute_regions =>
        rw [hc] at h
        simp only [] at h
        cases h1 : (A.region_cost (group_regions (group_member_names g) g.output.func
            compute_regions) g.inlined).arith with
        | none => rw [h1] at h; exact absurd h (by simp)
        | some ta =>
          cases h2 : (A.region_cost (group_regions (group_member_names g) g.output.func
              compute_regions) g.inlined).memory with
          | none => rw [h1, h2] at h; exact absurd h (by simp)
          | some tm =>
            rw [h1, h2] at h
            simp only [] at h
            cases h3 : (A.stage_region_cost g.output tile_bounds g.inlined).arith with
            | none => rw [h3] at h; exact absurd h (by simp)
            | some oa =>
              cases h4 : (A.stage_region_cost g.output tile_bounds g.inlined).memory with
              | none => rw [h3, h4] at h; exact absurd h (by simp)
              | some om =>
                rw [h3, h4] at h
                simp only [] at h
                split at h
                · exact absurd h (by simp)
                · next hbox =>
                  cases hl : load_costs_loop A part g (group_member_names g) alloc_regions
                      (out_tile_extent A g tile_bounds)
                      (A.combine_load_costs
                        (A.detailed_load_costs
                          (group_regions (group_member_names g) g.output.func compute_regions)
                          g.inlined)
                        (A.stage_detailed_load_costs g.output tile_bounds g.inlined))
                      make_zero with
                  | error e => rw [hl] at h; exact absurd h (by simp)
                  | ok om1 =>
                    cases om1 with
                    | none => rw [hl] at h; exact absurd h (by simp)
                    | some m =>
                      refine ⟨tile_bounds, alloc_regions, compute_regions, m, rfl, ha, hc,
                        ?_, ?_, ?_, hl⟩
                      · simp [Cost.defined, h1, h2]
                      · simp [Cost.defined, h3, h4]
                      · intro reg hreg hnone
                        apply hbox
                        rw [List.any_eq_true]
                        exact ⟨reg, hreg, by simp [hnone]⟩

theorem analyze_group_undefined_of_counts (P : Primitives) (A : AnalysisEnv)
    (part : Partitioner) (g : Group) (show_analysis : Bool) (tb : TileSizes)
    (is_subgroup : Bool) (stg_bounds : DimBounds)
    (hb : get_bounds A g.output = Except.ok stg_bounds)
    (hc : tile_counts P A g stg_bounds (A.definitions.dims g.output).dropLast
      (Expr.IntImm 1, Expr.IntImm 1) = Except.ok none) :
    part.analyze_group P A g show_analysis tb is_subgroup = Except.ok GroupAnalysis.undefined := by
  unfold Partitioner.analyze_group
  rw [hb]
  simp only []
  rw [hc]

theorem analyze_group_undefined_of_tile (P : Primitives) (A : AnalysisEnv)
    (part : Partitioner) (g : Group) (show_analysis : Bool) (tb : TileSizes)
    (is_subgroup : Bool) (stg_bounds : DimBounds) (counts : Expr × Expr)
    (hb : get_bounds A g.output = Except.ok stg_bounds)
    (hc : tile_counts P A g stg_bounds (A.definitions.dims g.output).dropLast
      (Expr.IntImm 1, Expr.IntImm 1) = Except.ok (some counts))
    (hp : per_tile_costs P A part g show_analysis counts = Except.ok none) :
    part.analyze_group P A g show_analysis tb is_subgroup = Except.ok GroupAnalysis.undefined := by
  unfold Partitioner.analyze_group
  rw [hb]
  simp only []
  rw [hc]
  simp only []
  rw [hp]

/-- C27 (as the code has it): undefined quantities in `analyze_group`, for a
stage with bounds `stg_bounds`.  The undefined analysis is returned (1) for
an undefined extent of a dimension with a tile size, when every such
dimension has a bound; and, once the loop over the dimensions, the tile
bounds and the two region queries have succeeded, (2) for an undefined region
cost of the intermediates, (3) for an undefined cost of the output stage, (4)
for an allocation region with an undefined box size, and (5) at a load source
that is the output or not a member of the group, whose footprint over the
bounds of the pipeline is undefined, when the loop over the load sources has
reached it and its assertions hold.  (6) A run that returns a defined
analysis has found all of these defined, and every load count as well. -/
theorem undefined_propagation (P : Primitives) (A : AnalysisEnv) (part : Partitioner)
    (g : Group) (show_analysis : Bool) (tb : TileSizes) (is_subgroup : Bool)
    (stg_bounds : DimBounds) (hb : get_bounds A g.output = Except.ok stg_bounds) :
    ((∀ d ∈ (A.definitions.dims g.output).dropLast,
        map_find g.tile_sizes d.var ≠ none → map_find stg_bounds d.var ≠ none) →
      (∃ d ∈ (A.definitions.dims g.output).dropLast, ∃ bound,
        map_find g.tile_sizes d.var ≠ none ∧ map_find stg_bounds d.var = some bound ∧
          A.get_extent bound = none) →
      part.analyze_group P A g show_analysis tb is_subgroup =
        Except.ok GroupAnalysis.undefined) ∧
    (∀ counts tile_bounds alloc_regions compute_regions,
      tile_counts P A g stg_bounds (A.definitions.dims g.output).dropLast
        (Expr.IntImm 1, Expr.IntImm 1) = Except.ok (some counts) →
      get_bounds_from_tile_sizes P A g.output g.tile_sizes = Except.ok tile_bounds →
      A.regions_required g.output tile_bounds (group_member_names g) false =
        Except.ok alloc_regions →
      A.regions_required g.output tile_bounds (group_member_names g) true =
        Except.ok compute_regions →
      ((A.region_cost (group_regions (group_member_names g) g.output.func compute_regions)
          g.inlined).defined = false →
        part.analyze_group P A g show_analysis tb is_subgroup =
          Except.ok GroupAnalysis.undefined) ∧
      ((A.stage_region_cost g.output tile_bounds g.inlined).defined = false →
        part.analyze_group P A g show_analysis tb is_subgroup =
          Except.ok GroupAnalysis.undefined) ∧
      ((∃ reg ∈ alloc_regions, A.box_size reg.2 = none) →
        part.analyze_group P A g show_analysis tb is_subgroup =
          Except.ok GroupAnalysis.undefined) ∧
      (∀ pre f_load post alloc_reg bounds,
        A.combine_load_costs
          (A.detailed_load_costs
            (group_regions (group_member_names g) g.output.func compute_regions) g.inlined)
          (A.stage_detailed_load_costs g.output tile_bounds g.inlined) =
          pre ++ f_load :: post →
        (∀ e, load_costs_loop A part g (group_member_names g) alloc_regions
          (out_tile_extent A g tile_bounds) pre make_zero ≠ Except.error e) →
        g.inlined.contains f_load.1 = false →
        map_find alloc_regions f_load.1 = some alloc_reg →
        ((!(f_load.1 == g.output.func)) && (group_member_names g).contains f_load.1) = false →
        map_find A.pipeline_bounds f_load.1 = some bounds →
        ((env_find part.env f_load.1).isSome = true → (f_load.1 == g.output.func) = true →
          (group_member_names g).contains f_load.1 = true) →
        (if (env_find part.env f_load.1).isSome then A.region_size f_load.1 bounds
          else A.input_region_size f_load.1 bounds) = none →
        part.analyze_group P A g show_analysis tb is_subgroup =
          Except.ok GroupAnalysis.undefined)) ∧
    (∀ a, part.analyze_group P A g show_analysis tb is_subgroup = Except.ok a →
      a.defined = true →
      (∀ d ∈ (A.definitions.dims g.output).dropLast, ∀ size,
        map_find g.tile_sizes d.var = some size →
          ∃ bound extent, map_find stg_bounds d.var = some bound ∧
            A.get_extent bound = some extent) ∧
      ∃ tile_bounds alloc_regions compute_regions,
        get_bounds_from_tile_sizes P A g.output g.tile_sizes = Except.ok tile_bounds ∧
        A.regions_required g.output tile_bounds (group_member_names g) false =
          Except.ok alloc_regions ∧
        A.regions_required g.output tile_bounds (group_member_names g) true =
          Except.ok compute_regions ∧
        (A.region_cost (group_regions (group_member_names g) g.output.func compute_regions)
          g.inlined).defined = true ∧
        (A.stage_region_cost g.output tile_bounds g.inlined).defined = true ∧
        (∀ reg ∈ alloc_regions, A.box_size reg.2 ≠ none) ∧
        (∀ f_load ∈ A.combine_load_costs
            (A.detailed_load_costs
              (group_regions (group_member_names g) g.output.func compute_regions) g.inlined)
            (A.stage_detailed_load_costs g.output tile_bounds g.inlined), f_load.2 ≠ none)) := by
  refine ⟨?_, ?_, ?_⟩
  · intro hbounds hex
    exact analyze_group_undefined_of_counts P A part g show_analysis tb is_subgroup stg_bounds hb
      (tile_counts_none P A g stg_bounds _ _ hbounds hex)
  · intro counts tile_bounds alloc_regions compute_regions hc htb ha hcr
    have hnone := fun h => analyze_group_undefined_of_tile P A part g show_analysis tb
      is_subgroup stg_bounds counts hb hc
      (per_tile_costs_none P A part g show_analysis counts tile_bounds alloc_regions
        compute_regions htb ha hcr h)
    refine ⟨fun h => hnone (Or.inl h), fun h => hnone (Or.inr (Or.inl h)),
      fun h => hnone (Or.inr (Or.inr (Or.inl h))), ?_⟩
    intro pre f_load post alloc_reg bounds hloads hpre hinl halloc hout hpb hmem hfoot
    apply hnone
    right; right; right
    rw [hloads]
    exact load_costs_loop_none A part g _ alloc_regions _ f_load post
      (fun memory => load_cost_step_none A part g _ alloc_regions _ memory f_load alloc_reg
        bounds hinl halloc hout hpb hmem hfoot) pre make_zero hpre
  · intro a h hd
    obtain ⟨stg_bounds1, counts, t, hb1, hc, hp, _⟩ :=
      analyze_group_defined P A part g show_analysis tb is_subgroup a h hd
    rw [hb] at hb1
    injection hb1 with hb1
    subst hb1
    refine ⟨tile_counts_some P A g stg_bounds _ _ counts hc, ?_⟩
    obtain ⟨tile_bounds, alloc_regions, compute_regions, m, h1, h2, h3, h4, h5, h6, h7⟩ :=
      per_tile_costs_some P A part g show_analysis counts t hp
    exact ⟨tile_bounds, alloc_regions, compute_regions, h1, h2, h3, h4, h5, h6,
      load_costs_loop_counts A part g _ alloc_regions _ _ _ m h7⟩

/-- The worked analysis with an undefined number of loads from `h`: every
extent, cost, box size and footprint is defined, and `analyze_group` fails
the assertion of the multiplication instead of returning an undefined
analysis. -/
theorem undefined_propagation_counterexample :
    (example_analysis_env none).stage_detailed_load_costs ⟨"f", 0⟩
      [("x", example_interval 0 3), ("y", example_interval 0 7)] [] = [("h", none)] ∧
    (example_analysis_part.analyze_group Primitives.basic
      (example_analysis_env (some (Expr.IntImm 3))) (example_analysis_group 3 8) false []
      false).toOption.map GroupAnalysis.defined = some true ∧
    example_analysis_part.analyze_group Primitives.basic (example_analysis_env none)
      (example_analysis_group 3 8) false [] false =
      Except.error "user_assert: operator of undefined Expr" ∧
    example_analysis_part.analyze_group Primitives.basic (example_analysis_env none)
      (example_analysis_group 3 8) false [] false ≠ Except.ok GroupAnalysis.undefined := by
  decide

theorem undefined_propagation_witness :
    get_bounds example_unbounded_env (example_analysis_group 3 8).output =
      Except.ok [("x", example_interval 0 3), ("y", example_interval 0 31)] ∧
    example_unbounded_env.input_region_size "in"
      [example_interval 0 3, ⟨Expr.IntImm 0, Interval.pos_inf⟩] = none ∧
    example_analysis_part.analyze_group Primitives.basic example_unbounded_env
      (example_analysis_group 3 8) false [] false = Except.ok GroupAnalysis.undefined :=
  ⟨by decide, by decide,
    ((undefined_propagation Primitives.basic example_unbounded_env example_analysis_part
      (example_analysis_group 3 8) false [] false
      [("x", example_interval 0 3), ("y", example_interval 0 31)] (by decide)).2.1
      (Expr.Mul (Expr.Mul (Expr.IntImm 1) (Expr.IntImm 2)) (Expr.IntImm 4),
        Expr.Mul (Expr.Mul (Expr.IntImm 1) (Expr.IntImm 2)) (Expr.IntImm 4))
      [("x", example_interval 0 3), ("y", example_interval 0 7)]
      [("f", [example_interval 0 3, example_interval 0 7]),
        ("h", [example_interval 0 3, example_interval 0 7]),
        ("in", [example_interval 0 3, example_interval 0 7])]
      [("h", [example_interval 0 3, example_interval 0 7]),
        ("in", [example_interval 0 3, example_interval 0 7])]
      (by decide) (by decide) (by decide) (by decide)).2.2.2
      [("h", some (Expr.IntImm 3))] ("in", some (Expr.IntImm 4)) []
      [example_interval 0 3, example_interval 0 7]
      [example_interval 0 3, ⟨Expr.IntImm 0, Interval.pos_inf⟩]
      (by decide)
      (by
        intro e he
        have hrun : load_costs_loop example_unbounded_env example_analysis_part
            (example_analysis_group 3 8) (group_member_names (example_analysis_group 3 8))
            [("f", [example_interval 0 3, example_interval 0 7]),
              ("h", [example_interval 0 3, example_interval 0 7]),
              ("in", [example_interval 0 3, example_interval 0 7])]
            (out_tile_extent example_unbounded_env (example_analysis_group 3 8)
              [("x", example_interval 0 3), ("y", example_interval 0 7)])
            [("h", some (Expr.IntImm 3))] make_zero =
            Except.ok (some (Expr.Add make_zero
              (Expr.Mul (cost_factor example_analysis_part.arch_params (Expr.IntImm 32))
                (Expr.IntImm 3)))) := by decide
        rw [hrun] at he
        exact absurd he (by simp))
      (by decide) (by decide) (by decide) (by decide) (by decide) (by decide)⟩

theorem subgroup_cost_per_tile_witness :
    (example_analysis_part.analyze_group Primitives.basic
        (example_analysis_env (some (Expr.IntImm 3))) (example_analysis_group 3 8) false []
        false =
      Except.ok ⟨⟨some (Expr.IntImm 240),
        some (Expr.Mul
          (Expr.Add
            (Expr.Mul (cost_factor (MachineParams.of_ints 16 1024 40) (Expr.IntImm 32))
              (Expr.IntImm 3))
            (Expr.Mul (cost_factor (MachineParams.of_ints 16 1024 40) (Expr.IntImm 128))
              (Expr.IntImm 4)))
          (Expr.IntImm 8))⟩, some (Expr.IntImm 8)⟩) ∧
    (example_analysis_part.analyze_group Primitives.basic
        (example_analysis_env (some (Expr.IntImm 3))) (example_analysis_group 3 8) false []
        true =
      Except.ok ⟨⟨some (Expr.IntImm 30),
        some (Expr.Add
          (Expr.Mul (cost_factor (MachineParams.of_ints 16 1024 40) (Expr.IntImm 32))
            (Expr.IntImm 3))
          (Expr.Mul (cost_factor (MachineParams.of_ints 16 1024 40) (Expr.IntImm 128))
            (Expr.IntImm 4)))⟩, some (Expr.IntImm 8)⟩) ∧
    ∃ (stg_bounds : DimBounds) (counts : Expr × Expr) (arith memory : Expr),
      get_bounds (example_analysis_env (some (Expr.IntImm 3)))
        (example_analysis_group 3 8).output = Except.ok stg_bounds ∧
      tile_counts Primitives.basic (example_analysis_env (some (Expr.IntImm 3)))
        (example_analysis_group 3 8) stg_bounds
        ((example_analysis_env (some (Expr.IntImm 3))).definitions.dims
          (example_analysis_group 3 8).output).dropLast
        (Expr.IntImm 1, Expr.IntImm 1) = Except.ok (some counts) ∧
      example_analysis_part.analyze_group Primitives.basic
        (example_analysis_env (some (Expr.IntImm 3))) (example_analysis_group 3 8) false []
        true =
        Except.ok ⟨⟨some (Primitives.basic.simplify arith),
          some (Primitives.basic.simplify memory)⟩,
          some (Primitives.basic.simplify counts.2)⟩ ∧
      example_analysis_part.analyze_group Primitives.basic
        (example_analysis_env (some (Expr.IntImm 3))) (example_analysis_group 3 8) false []
        false =
        Except.ok ⟨⟨some (Primitives.basic.simplify (Expr.Mul arith counts.1)),
          some (Primitives.basic.simplify (Expr.Mul memory counts.1))⟩,
          some (Primitives.basic.simplify counts.2)⟩ ∧
      (Primitives.basic.simplify_sound → ∀ env : String → Int,
        (Primitives.basic.simplify (Expr.Mul arith counts.1)).eval env =
          (Primitives.basic.simplify arith).eval env * counts.1.eval env ∧
        (Primitives.basic.simplify (Expr.Mul memory counts.1)).eval env =
          (Primitives.basic.simplify memory).eval env * counts.1.eval env) :=
  ⟨by decide, by decide,
    subgroup_cost_per_tile Primitives.basic (example_analysis_env (some (Expr.IntImm 3)))
      example_analysis_part (example_analysis_group 3 8) false [] false
      ⟨⟨some (Expr.IntImm 240),
        some (Expr.Mul
          (Expr.Add
            (Expr.Mul (cost_factor (MachineParams.of_ints 16 1024 40) (Expr.IntImm 32))
              (Expr.IntImm 3))
            (Expr.Mul (cost_factor (MachineParams.of_ints 16 1024 40) (Expr.IntImm 128))
              (Expr.IntImm 4)))
          (Expr.IntImm 8))⟩, some (Expr.IntImm 8)⟩ (by decide) (by decide)⟩


/-! ### The cache of the regions -/

theorem strings_lt_irrefl : ∀ a : List String, strings_lt a a = false := by
  intro a
  induction a with
  | nil => rfl
  | cons x xs ih => simp [strings_lt, string_lt_irrefl, ih]

theorem strings_lt_trichotomy : ∀ a b : List String,
    strings_lt a b = false → strings_lt b a = false → a = b := by
  intro a
  induction a with
  | nil =>
    intro b h1 h2
    cases b with
    | nil => rfl
    | cons y ys => simp [strings_lt] at h1
  | cons x xs ih =>
    intro b h1 h2
    cases b with
    | nil => simp [strings_lt] at h2
    | cons y ys =>
      simp only [strings_lt, Bool.or_eq_false_iff, Bool.and_eq_false_iff,
        Bool.not_eq_false'] at h1 h2
      have hxy : x = y := string_lt_trichotomy x y h1.1 h2.1
      subst hxy
      have h3 : strings_lt xs ys = false := by
        rcases h1.2 with h | h
        · rw [h1.1] at h; exact absurd h (by simp)
        · exact h
      have h4 : strings_lt ys xs = false := by
        rcases h2.2 with h | h
        · rw [h1.1] at h; exact absurd h (by simp)
        · exact h
      rw [ih ys h3 h4]

theorem RegionsRequiredQuery_lt_irrefl (a : RegionsRequiredQuery) :
    RegionsRequiredQuery.lt a a = false := by
  unfold RegionsRequiredQuery.lt
  simp [string_lt_irrefl, strings_lt_irrefl]

theorem RegionsRequiredQuery_lt_trichotomy (a b : RegionsRequiredQuery)
    (h1 : RegionsRequiredQuery.lt a b = false) (h2 : RegionsRequiredQuery.lt b a = false) :
    a = b := by
  obtain ⟨af, as, ap, ao⟩ := a
  obtain ⟨bf, bs, bp, bo⟩ := b
  unfold RegionsRequiredQuery.lt at h1 h2
  simp only at h1 h2
  by_cases hf1 : string_lt af bf = true
  · simp [hf1] at h1
  · by_cases hf2 : string_lt bf af = true
    · simp [hf2] at h2
    · have hf : af = bf := string_lt_trichotomy af bf (by simpa using hf1) (by simpa using hf2)
      subst hf
      simp only [hf1, if_false, Bool.false_eq_true] at h1 h2
      by_cases hs1 : as < bs
      · simp [hs1] at h1
      · by_cases hs2 : bs < as
        · simp [hs2] at h2
        · have hs : as = bs := by omega
          subst hs
          simp only [hs1, if_false] at h1 h2
          cases ao <;> cases bo <;> simp at h1 h2
          · rw [strings_lt_trichotomy ap bp h1 h2]
          · rw [strings_lt_trichotomy ap bp h1 h2]

theorem cache_lookup_store (cache : RegionsCache) (query : RegionsRequiredQuery)
    (bounds : DimBounds) (regions : List (String × Box))
    (h : cache_lookup cache query bounds = none) :
    cache_lookup (cache_store cache query ⟨bounds, regions⟩) query bounds = some regions := by
  unfold cache_lookup cache_store at *
  rw [map_find_assign_self RegionsRequiredQuery.lt RegionsRequiredQuery_lt_irrefl
    RegionsRequiredQuery_lt_trichotomy]
  cases hq : map_find cache query with
  | none => simp
  | some answers =>
    rw [hq] at h
    simp only [] at h ⊢
    cases hfind : answers.find? (fun r => decide (r.bounds = bounds)) with
    | some r => rw [hfind] at h; exact absurd h (by simp)
    | none =>
      rw [List.find?_append, hfind]
      simp

theorem cache_extends_refl (c : RegionsCache) : cache_extends c c :=
  fun _ answers h => ⟨[], by simpa using h⟩

theorem cache_extends_trans (c1 c2 c3 : RegionsCache) (h12 : cache_extends c1 c2)
    (h23 : cache_extends c2 c3) : cache_extends c1 c3 := by
  intro query answers h
  obtain ⟨m1, h1⟩ := h12 query answers h
  obtain ⟨m2, h2⟩ := h23 query _ h1
  exact ⟨m1 ++ m2, by rw [h2, List.append_assoc]⟩

theorem cache_extends_store (cache : RegionsCache) (query : RegionsRequiredQuery)
    (r : RegionsRequired) : cache_extends cache (cache_store cache query r) := by
  intro q answers h
  unfold cache_store
  by_cases hq : q = query
  · subst hq
    rw [map_find_assign_self RegionsRequiredQuery.lt RegionsRequiredQuery_lt_irrefl
      RegionsRequiredQuery_lt_trichotomy, h]
    exact ⟨[r], rfl⟩
  · rw [map_find_assign_ne RegionsRequiredQuery.lt RegionsRequiredQuery_lt_trichotomy _ _ _ hq,
      h]
    exact ⟨[], by simp⟩

theorem cache_lookup_extends (c1 c2 : RegionsCache) (hext : cache_extends c1 c2)
    (query : RegionsRequiredQuery) (bounds : DimBounds) (regions : List (String × Box))
    (h : cache_lookup c1 query bounds = some regions) :
    cache_lookup c2 query bounds = some regions := by
  unfold cache_lookup at h ⊢
  cases hq : map_find c1 query with
  | none => rw [hq] at h; exact absurd h (by simp)
  | some answers =>
    rw [hq] at h
    simp only [] at h
    obtain ⟨more, hm⟩ := hext query answers hq
    rw [hm]
    simp only []
    cases hfind : answers.find? (fun r => decide (r.bounds = bounds)) with
    | none => rw [hfind] at h; exact absurd h (by simp)
    | some r =>
      rw [hfind] at h
      rw [List.find?_append, hfind]
      exact h

theorem drain_queue_mono {ε : Type} (DA : DependenceAnalysis ε) (P : Primitives)
    (prods : List String) (orc : Bool) :
    ∀ (fuel : Nat) (st r : RegionState),
      drain_queue DA P prods orc fuel st = Except.ok r →
      drain_queue DA P prods orc (fuel + 1) st = Except.ok r := by
  intro fuel
  induction fuel with
  | zero => intro st r h; simp [drain_queue] at h
  | succ n ih =>
    intro st r h
    rw [drain_queue] at h ⊢
    split
    · next hempty => simpa [hempty] using h
    · next hempty =>
      simp only [hempty, if_false, Bool.false_eq_true] at h
      cases hp : pass_functions DA P prods orc DA.order.reverse st with
      | error e => rw [hp] at h; exact absurd h (by simp)
      | ok st1 =>
        rw [hp] at h
        exact ih st1 r h

theorem drain_queue_mono_le {ε : Type} (DA : DependenceAnalysis ε) (P : Primitives)
    (prods : List String) (orc : Bool) (fuel : Nat) (st r : RegionState)
    (h : drain_queue DA P prods orc fuel st = Except.ok r) :
    ∀ fuel2, fuel ≤ fuel2 → drain_queue DA P prods orc fuel2 st = Except.ok r := by
  intro fuel2 hle
  induction hle with
  | refl => exact h
  | step _ ih => exact drain_queue_mono DA P prods orc _ st r ih

theorem compute_regions_mono {ε : Type} (DA : DependenceAnalysis ε) (P : Primitives)
    (fuel : Nat) (f : String) (stage_num : Nat) (bounds : DimBounds) (prods : List String)
    (orc : Bool) (regions : List (String × Box))
    (h : DA.compute_regions P fuel f stage_num bounds prods orc = Except.ok regions) :
    ∀ fuel2, fuel ≤ fuel2 →
      DA.compute_regions P fuel2 f stage_num bounds prods orc = Except.ok regions := by
  intro fuel2 hle
  unfold DependenceAnalysis.compute_regions at h ⊢
  cases hd : drain_queue DA P prods orc fuel ⟨[(⟨f, stage_num⟩, bounds)], [], []⟩ with
  | error e => rw [hd] at h; exact absurd h (by simp)
  | ok st =>
    rw [hd] at h
    rw [drain_queue_mono_le DA P prods orc fuel _ st hd fuel2 hle]
    exact h

theorem regions_required_empty_cache {ε : Type} (DA : DependenceAnalysis ε) (P : Primitives)
    (fuel : Nat) (f : String) (stage_num : Nat) (bounds : DimBounds) (prods : List String)
    (orc : Bool) :
    DA.regions_required P fuel [] f stage_num bounds prods orc =
      match DA.compute_regions P fuel f stage_num bounds prods orc with
      | Except.error e => Except.error e
      | Except.ok regions =>
        Except.ok (regions, cache_store [] ⟨f, stage_num, prods, orc⟩ ⟨bounds, regions⟩) := by
  rfl

theorem cache_lookup_some (cache : RegionsCache) (query : RegionsRequiredQuery)
    (bounds : DimBounds) (regions : List (String × Box))
    (h : cache_lookup cache query bounds = some regions) :
    ∃ answers r, map_find cache query = some answers ∧ r ∈ answers ∧ r.bounds = bounds ∧
      r.regions = regions := by
  unfold cache_lookup at h
  cases hq : map_find cache query with
  | none => rw [hq] at h; exact absurd h (by simp)
  | some answers =>
    rw [hq] at h
    simp only [] at h
    cases hfind : answers.find? (fun r => decide (r.bounds = bounds)) with
    | none => rw [hfind] at h; exact absurd h (by simp)
    | some r =>
      rw [hfind] at h
      simp only [Option.some.injEq] at h
      refine ⟨answers, r, rfl, List.mem_of_find?_eq_some hfind, ?_, h⟩
      have := List.find?_some hfind
      simpa using this

theorem cache_consistent_nil {ε : Type} (DA : DependenceAnalysis ε) (P : Primitives) :
    cache_consistent DA P [] := by
  intro query answers h
  simp [map_find] at h

theorem cache_consistent_store {ε : Type} (DA : DependenceAnalysis ε) (P : Primitives)
    (cache : RegionsCache) (hc : cache_consistent DA P cache) (fuel : Nat) (f : String)
    (stage_num : Nat) (bounds : DimBounds) (prods : List String) (orc : Bool)
    (regions : List (String × Box))
    (h : DA.compute_regions P fuel f stage_num bounds prods orc = Except.ok regions) :
    cache_consistent DA P (cache_store cache ⟨f, stage_num, prods, orc⟩ ⟨bounds, regions⟩) := by
  intro q answers hq r hr
  unfold cache_store at hq
  by_cases hqq : q = ⟨f, stage_num, prods, orc⟩
  · subst hqq
    rw [map_find_assign_self RegionsRequiredQuery.lt RegionsRequiredQuery_lt_irrefl
      RegionsRequiredQuery_lt_trichotomy] at hq
    simp only [Option.some.injEq] at hq
    rw [← hq, List.mem_append] at hr
    rcases hr with hr | hr
    · cases hold : map_find cache ⟨f, stage_num, prods, orc⟩ with
      | none => rw [hold] at hr; simp at hr
      | some old =>
        rw [hold] at hr
        exact hc _ old hold r hr
    · simp only [List.mem_singleton] at hr
      subst hr
      exact ⟨fuel, h⟩
  · rw [map_find_assign_ne RegionsRequiredQuery.lt RegionsRequiredQuery_lt_trichotomy _ _ _ hqq]
      at hq
    exact hc q answers hq r hr

/-- C29: `regions_required` is memoised.  After a call that returns the
regions `r1` and the cache `c1`, the cache holds what it held before; a call
with the same function, stage, bounds, producers and flag on `c1`, or on any
cache that has grown from `c1`, returns `r1` without a change of the cache
and whatever the fuel, so that equal queries have equal answers; and when
every answer of the cache before the call is a result of the computation, so
is every answer of `c1`, and `r1` is what the call returns on the empty
cache for every sufficient fuel.  The empty cache holds no other answers. -/
theorem regions_required_memoised {ε : Type} (DA : DependenceAnalysis ε) (P : Primitives)
    (cache : RegionsCache) (fuel : Nat) (f : String) (stage_num : Nat) (bounds : DimBounds)
    (prods : List String) (orc : Bool) (r1 : List (String × Box)) (c1 : RegionsCache)
    (h : DA.regions_required P fuel cache f stage_num bounds prods orc = Except.ok (r1, c1)) :
    cache_extends cache c1 ∧
    (∀ c2 fuel2, cache_extends c1 c2 →
      DA.regions_required P fuel2 c2 f stage_num bounds prods orc = Except.ok (r1, c2)) ∧
    (cache_consistent DA P cache →
      cache_consistent DA P c1 ∧
      ∃ fuel0, ∀ fuel3, fuel0 ≤ fuel3 →
        DA.regions_required P fuel3 [] f stage_num bounds prods orc =
          Except.ok (r1, cache_store [] ⟨f, stage_num, prods, orc⟩ ⟨bounds, r1⟩)) ∧
    cache_consistent DA P [] := by
  have hfresh : ∀ fuel0, DA.compute_regions P fuel0 f stage_num bounds prods orc =
      Except.ok r1 → ∀ fuel3, fuel0 ≤ fuel3 →
      DA.regions_required P fuel3 [] f stage_num bounds prods orc =
        Except.ok (r1, cache_store [] ⟨f, stage_num, prods, orc⟩ ⟨bounds, r1⟩) := by
    intro fuel0 h0 fuel3 hle
    rw [regions_required_empty_cache,
      compute_regions_mono DA P fuel0 f stage_num bounds prods orc r1 h0 fuel3 hle]
  have hhit : ∀ c, cache_lookup c ⟨f, stage_num, prods, orc⟩ bounds = some r1 →
      ∀ fuel2, DA.regions_required P fuel2 c f stage_num bounds prods orc =
        Except.ok (r1, c) := by
    intro c hl fuel2
    unfold DependenceAnalysis.regions_required
    rw [hl]
  unfold DependenceAnalysis.regions_required at h
  cases hl : cache_lookup cache ⟨f, stage_num, prods, orc⟩ bounds with
  | some regions =>
    rw [hl] at h
    simp only [Except.ok.injEq, Prod.mk.injEq] at h
    obtain ⟨hr, hc⟩ := h
    subst hr hc
    refine ⟨cache_extends_refl _, ?_, ?_, cache_consistent_nil DA P⟩
    · intro c2 fuel2 hext
      exact hhit c2 (cache_lookup_extends _ _ hext _ _ _ hl) fuel2
    · intro hcons
      refine ⟨hcons, ?_⟩
      obtain ⟨answers, r, hq, hr, hb, hreg⟩ := cache_lookup_some _ _ _ _ hl
      obtain ⟨fuel0, h0⟩ := hcons _ answers hq r hr
      rw [hb, hreg] at h0
      exact ⟨fuel0, hfresh fuel0 h0⟩
  | none =>
    rw [hl] at h
    simp only [] at h
    cases hcomp : DA.compute_regions P fuel f stage_num bounds prods orc with
    | error e => rw [hcomp] at h; exact absurd h (by simp)
    | ok regions =>
      rw [hcomp] at h
      simp only [Except.ok.injEq, Prod.mk.injEq] at h
      obtain ⟨hr, hc⟩ := h
      subst hr hc
      refine ⟨cache_extends_store _ _ _, ?_, ?_, cache_consistent_nil DA P⟩
      · intro c2 fuel2 hext
        exact hhit c2 (cache_lookup_extends _ _ hext _ _ _
          (cache_lookup_store cache _ bounds regions hl)) fuel2
      · intro hcons
        exact ⟨cache_consistent_store DA P cache hcons fuel f stage_num bounds prods orc
          regions hcomp, fuel, hfresh fuel hcomp⟩

theorem regions_required_memoised_witness :
    example_dependence.regions_required Primitives.basic 2 [] "f" 0
      [("x", example_interval 0 9)] ["g"] true =
      Except.ok ([("g", [example_interval 0 9])],
        [(⟨"f", 0, ["g"], true⟩,
          [⟨[("x", example_interval 0 9)], [("g", [example_interval 0 9])]⟩])]) ∧
    example_dependence.regions_required Primitives.basic 0
      [(⟨"f", 0, ["g"], true⟩,
        [⟨[("x", example_interval 0 9)], [("g", [example_interval 0 9])]⟩])] "f" 0
      [("x", example_interval 0 9)] ["g"] true =
      Except.ok ([("g", [example_interval 0 9])],
        [(⟨"f", 0, ["g"], true⟩,
          [⟨[("x", example_interval 0 9)], [("g", [example_interval 0 9])]⟩])]) :=
  ⟨by decide,
    (regions_required_memoised example_dependence Primitives.basic [] 2 "f" 0
      [("x", example_interval 0 9)] ["g"] true [("g", [example_interval 0 9])]
      [(⟨"f", 0, ["g"], true⟩,
        [⟨[("x", example_interval 0 9)], [("g", [example_interval 0 9])]⟩])]
      (by decide)).2.1 _ 0 (cache_extends_refl _)⟩


/-! ### The region of the queried function -/

theorem merge_region_pred (mb : Box → Box → Box) (pr : String → Prop)
    (result : List (String × Box)) (reg : String × Box) (h : ∀ e ∈ result, pr e.1)
    (hr : pr reg.1) : ∀ e ∈ merge_region mb result reg, pr e.1 := by
  intro e he
  unfold merge_region at he
  split at he
  · rcases mem_map_emplace _ _ _ _ e he with h1 | h1
    · exact h e h1
    · rw [h1]; exact hr
  · rcases mem_map_assign _ string_lt_trichotomy _ _ _ e he with h1 | h1
    · exact h e h1
    · rw [h1]; exact hr

theorem merge_regions_pred (mb : Box → Box → Box) (pr : String → Prop)
    (result partial_regions : List (String × Box)) (h : ∀ e ∈ result, pr e.1)
    (hp : ∀ e ∈ partial_regions, pr e.1) :
    ∀ e ∈ merge_regions mb result partial_regions, pr e.1 := by
  unfold merge_regions
  exact foldl_invariant (fun r : List (String × Box) => ∀ e ∈ r, pr e.1) _ _ _ h
    (fun a x hx ha => merge_region_pred mb pr a x ha (hp x hx))

/-- The keys of the regions of one value of a stage are required by one of
its expressions, or name the function of the stage. -/
theorem value_regions_keys {ε : Type} (DA : DependenceAnalysis ε) (s : FStage) (scope : Scope)
    (val : ε) (pr : String → Prop) (hself : pr s.func)
    (hval : ∀ x ∈ DA.boxes_required (DA.substitute_estimates val) scope, pr x.1)
    (hargs : ∀ arg ∈ DA.lhs_args s,
      ∀ x ∈ DA.boxes_required (DA.substitute_estimates arg) scope, pr x.1) :
    ∀ e ∈ value_regions DA s scope val, pr e.1 := by
  unfold value_regions
  simp only []
  apply merge_region_pred _ pr _ _ _ hself
  have := foldl_invariant
    (fun acc : List (String × Box) × Box => ∀ e ∈ acc.1, pr e.1)
    (fun acc arg =>
      (merge_regions DA.merge_boxes acc.1
          (DA.boxes_required (DA.substitute_estimates arg) scope),
        acc.2 ++ [DA.bounds_of_expr_in_scope arg scope]))
    (DA.lhs_args s) (DA.boxes_required (DA.substitute_estimates val) scope, []) hval
    (fun a x hx ha => merge_regions_pred _ pr _ _ ha (hargs x hx))
  exact this

/-- An answer of `regions_required` on a cache all of whose answers are
results of the computation is itself a result of the computation. -/
theorem regions_required_computed {ε : Type} (DA : DependenceAnalysis ε) (P : Primitives)
    (cache : RegionsCache) (hcons : cache_consistent DA P cache) (fuel : Nat) (f : String)
    (s : Nat) (bounds : DimBounds) (prods : List String) (orc : Bool)
    (r : List (String × Box)) (c : RegionsCache)
    (h : DA.regions_required P fuel cache f s bounds prods orc = Except.ok (r, c)) :
    ∃ fuel0, DA.compute_regions P fuel0 f s bounds prods orc = Except.ok r := by
  unfold DependenceAnalysis.regions_required at h
  cases hl : cache_lookup cache ⟨f, s, prods, orc⟩ bounds with
  | some regions =>
    rw [hl] at h
    simp only [Except.ok.injEq, Prod.mk.injEq] at h
    obtain ⟨answers, a, hq, ha, hb, hreg⟩ := cache_lookup_some _ _ _ _ hl
    obtain ⟨fuel0, h0⟩ := hcons _ answers hq a ha
    rw [hb, hreg, h.1] at h0
    exact ⟨fuel0, h0⟩
  | none =>
    rw [hl] at h
    simp only [] at h
    cases hcomp : DA.compute_regions P fuel f s bounds prods orc with
    | error e => rw [hcomp] at h; exact absurd h (by simp)
    | ok regions =>
      rw [hcomp] at h
      simp only [Except.ok.injEq, Prod.mk.injEq] at h
      rw [← h.1]
      exact ⟨fuel, hcomp⟩

theorem example_dependence_ranked :
    ranked_calls example_dependence (fun n => if n = "f" then 1 else 0) := by
  constructor
  · intro s scope e he x hx
    simp only [example_dependence] at he hx ⊢
    by_cases h1 : e = "g(x)"
    · subst h1
      simp only [if_true, List.mem_singleton] at hx
      have hs : s = ⟨"f", 0⟩ := by
        by_contra hne
        rcases he with he | he
        · simp only [hne, if_false] at he
          split at he
          · simp at he
          · split at he
            · simp at he
            · simp at he
        · split at he
          · simp at he
          · simp at he
      subst hs hx
      right
      show (if "g" = "f" then 1 else 0) < (if "f" = "f" then 1 else 0)
      decide
    · simp only [h1, if_false] at hx
      by_cases h2 : e = "g(r) + 1"
      · subst h2
        simp only [if_true, List.mem_singleton] at hx
        have hs : s = ⟨"g", 1⟩ := by
          by_contra hne
          rcases he with he | he
          · split at he
            · simp at he
            · split at he
              · simp at he
              · simp [hne] at he
          · split at he
            · simp at he
            · simp at he
        subst hs hx
        left
        rfl
      · simp [h2] at hx
  · intro name arg harg
    simp [example_dependence] at harg

theorem isalnum_of_isdigit (c : Char) (h : isdigit c = true) : isalnum c = true := by
  unfold isalnum
  rw [h]
  rfl

theorem sanitized_char_spec (c : Char) :
    (isalnum (if !isalnum c then '_' else c) = true ∨ (if !isalnum c then '_' else c) = '_') ∧
    isdigit (if !isalnum c then '_' else c) = isdigit c ∧
    (if !isalnum (if !isalnum c then '_' else c) then '_' else (if !isalnum c then '_' else c)) =
      (if !isalnum c then '_' else c) := by
  cases h : isalnum c with
  | true => simp [h]
  | false =>
    have hd : isdigit c = false := by
      cases hd : isdigit c with
      | false => rfl
      | true => rw [isalnum_of_isdigit c hd] at h; exact absurd h (by simp)
    have h1 : isalnum '_' = false := by decide
    have h2 : isdigit '_' = false := by decide
    simp [h1, h2, hd]

/-- C38: `get_sanitized_name`.  For every name the result holds only ASCII
letters, digits and underscores and does not start with a digit; it is the
name, behind an underscore when the name starts with a digit, so its length
is that of the name or one more; every alphanumeric character of the name
stays at its position (behind the prefix, if any) and every other character
becomes an underscore there; and sanitising the result returns it
unchanged. -/
theorem get_sanitized_name_spec (name : List Char) :
    (∀ c ∈ get_sanitized_name name, isalnum c = true ∨ c = '_') ∧
    (∀ c, (get_sanitized_name name).head? = some c → isdigit c = false) ∧
    (get_sanitized_name name).length =
      name.length + (if name.head?.map isdigit = some true then 1 else 0) ∧
    (∀ i c, name[i]? = some c →
      (get_sanitized_name name)[i + (if name.head?.map isdigit = some true then 1 else 0)]? =
        some (if isalnum c then c else '_')) ∧
    get_sanitized_name (get_sanitized_name name) = get_sanitized_name name := by
  have hmap : ∀ l : List Char, ∀ c ∈ l.map (fun c => if !isalnum c then '_' else c),
      isalnum c = true ∨ c = '_' := by
    intro l c hc
    rw [List.mem_map] at hc
    obtain ⟨a, _, rfl⟩ := hc
    exact (sanitized_char_spec a).1
  have hidem : ∀ l : List Char,
      (l.map (fun c => if !isalnum c then '_' else c)).map (fun c => if !isalnum c then '_' else c) =
        l.map (fun c => if !isalnum c then '_' else c) := by
    intro l
    rw [List.map_map]
    apply List.map_congr_left
    intro a _
    exact (sanitized_char_spec a).2.2
  have hget : ∀ (l : List Char) (i : Nat) (c : Char), l[i]? = some c →
      (l.map (fun c => if !isalnum c then '_' else c))[i]? =
        some (if isalnum c then c else '_') := by
    intro l i c h
    rw [List.getElem?_map, h]
    cases hc : isalnum c <;> simp [hc]
  cases name with
  | nil =>
    refine ⟨?_, ?_, ?_, ?_, ?_⟩
    · intro c hc; simp [get_sanitized_name] at hc
    · intro c hc; simp [get_sanitized_name] at hc
    · simp [get_sanitized_name]
    · intro i c hc; simp at hc
    · simp [get_sanitized_name]
  | cons a rest =>
    cases hd : isdigit a with
    | true =>
      have hu : isdigit '_' = false := by decide
      have ha : isalnum '_' = false := by decide
      have e : get_sanitized_name (a :: rest) =
          '_' :: (a :: rest).map (fun c => if !isalnum c then '_' else c) := by
        simp [get_sanitized_name, hd, ha]
      have e2 : get_sanitized_name ('_' :: (a :: rest).map (fun c => if !isalnum c then '_' else c)) =
          '_' :: ((a :: rest).map (fun c => if !isalnum c then '_' else c)).map
            (fun c => if !isalnum c then '_' else c) := by
        simp only [get_sanitized_name, hu, Bool.false_eq_true, if_false, List.map_cons, ha,
          Bool.not_false, if_true]
      refine ⟨?_, ?_, ?_, ?_, ?_⟩
      · intro c hc
        rw [e, List.mem_cons] at hc
        rcases hc with rfl | hc
        · right; rfl
        · exact hmap _ c hc
      · intro c hc
        rw [e] at hc
        simp only [List.head?_cons, Option.some.injEq] at hc
        rw [← hc]; exact hu
      · rw [e]
        simp [hd]
      · intro i c hc
        rw [e]
        simp only [List.head?_cons, Option.map_some', hd, if_true]
        rw [List.getElem?_cons_succ]
        exact hget _ i c hc
      · rw [e, e2, hidem]
    | false =>
      have e : get_sanitized_name (a :: rest) =
          (a :: rest).map (fun c => if !isalnum c then '_' else c) := by
        simp [get_sanitized_name, hd]
      have hd2 : isdigit (if !isalnum a then '_' else a) = false := by
        rw [(sanitized_char_spec a).2.1]; exact hd
      have e2 : get_sanitized_name ((a :: rest).map (fun c => if !isalnum c then '_' else c)) =
          ((a :: rest).map (fun c => if !isalnum c then '_' else c)).map
            (fun c => if !isalnum c then '_' else c) := by
        simp only [get_sanitized_name, List.map_cons, hd2, Bool.false_eq_true, if_false]
      refine ⟨?_, ?_, ?_, ?_, ?_⟩
      · intro c hc
        rw [e] at hc
        exact hmap _ c hc
      · intro c hc
        rw [e] at hc
        simp only [List.map_cons, List.head?_cons, Option.some.injEq] at hc
        rw [← hc]; exact hd2
      · rw [e]
        simp [hd]
      · intro i c hc
        rw [e]
        simp only [List.head?_cons, Option.map_some', hd, Option.some.injEq, Bool.false_eq_true,
          if_false, Nat.add_zero]
        exact hget _ i c hc
      · rw [e, e2, hidem]

theorem get_sanitized_name_spec_witness :
    get_sanitized_name ['1', 'a', '-', 'b'] = ['_', '1', 'a', '_', 'b'] ∧
    (get_sanitized_name ['1', 'a', '-', 'b']).length =
      ['1', 'a', '-', 'b'].length +
        (if ['1', 'a', '-', 'b'].head?.map isdigit = some true then 1 else 0) ∧
    get_sanitized_name (get_sanitized_name ['1', 'a', '-', 'b']) =
      get_sanitized_name ['1', 'a', '-', 'b'] :=
  ⟨by decide, (get_sanitized_name_spec ['1', 'a', '-', 'b']).2.2.1,
    (get_sanitized_name_spec ['1', 'a', '-', 'b']).2.2.2.2⟩

/-! ### The estimates of the outputs -/

theorem check_estimates_args_ok (is_int : Expr → Bool) (name : String) (estimates : List Bound) :
    ∀ (args : List String) (est : Bound),
      (∃ est1, check_estimates_args is_int name estimates args est = Except.ok est1) ↔
        ∀ arg ∈ args, ∃ b, last_defined_estimate estimates arg = some b ∧
          estimate_is_int is_int b = true := by
  intro args
  induction args with
  | nil =>
    intro est
    simp [check_estimates_args]
  | cons arg rest ih =>
    intro est
    unfold check_estimates_args
    cases hl : last_defined_estimate estimates arg with
    | none =>
      simp only []
      constructor
      · rintro ⟨est1, h⟩
        exact absurd h (by simp)
      · intro h
        obtain ⟨b, hb, _⟩ := h arg (List.mem_cons_self _ _)
        rw [hl] at hb
        exact absurd hb (by simp)
    | some est1 =>
      simp only []
      cases hi : estimate_is_int is_int est1 with
      | true =>
        simp only [if_true]
        rw [ih est1]
        constructor
        · intro h a ha
          rw [List.mem_cons] at ha
          rcases ha with rfl | ha
          · exact ⟨est1, hl, hi⟩
          · exact h a ha
        · intro h a ha
          exact h a (List.mem_cons_of_mem _ ha)
      | false =>
        simp only [Bool.false_eq_true, if_false]
        constructor
        · rintro ⟨e, h⟩
          exact absurd h (by simp)
        · intro h
          obtain ⟨b, hb, hbi⟩ := h arg (List.mem_cons_self _ _)
          rw [hl] at hb
          simp only [Option.some.injEq] at hb
          rw [← hb, hi] at hbi
          exact absurd hbi (by simp)

theorem check_estimates_on_outputs_ok (is_int : Expr → Bool) (args : String → List String)
    (estimates : String → List Bound) :
    ∀ outputs : List Function,
      check_estimates_on_outputs is_int args estimates outputs = Except.ok () ↔
        ∀ out ∈ outputs, ∀ arg ∈ args out.name,
          ∃ b, last_defined_estimate (estimates out.name) arg = some b ∧
            estimate_is_int is_int b = true := by
  intro outputs
  induction outputs with
  | nil => simp [check_estimates_on_outputs]
  | cons out rest ih =>
    unfold check_estimates_on_outputs
    have hargs := check_estimates_args_ok is_int out.name (estimates out.name) (args out.name)
      ⟨"", none, none⟩
    cases hc : check_estimates_args is_int out.name (estimates out.name) (args out.name)
        ⟨"", none, none⟩ with
    | error e =>
      simp only []
      constructor
      · intro h
        exact absurd h (by simp)
      · intro h
        have := hargs.2 (h out (List.mem_cons_self _ _))
        rw [hc] at this
        obtain ⟨_, h1⟩ := this
        exact absurd h1 (by simp)
    | ok est1 =>
      simp only []
      rw [ih]
      have h0 := hargs.1 ⟨est1, hc⟩
      constructor
      · intro h o ho
        rw [List.mem_cons] at ho
        rcases ho with rfl | ho
        · exact h0
        · exact h o ho
      · intro h o ho
        exact h o (List.mem_cons_of_mem _ ho)

theorem last_defined_estimate_some (estimates : List Bound) (arg : String) (b : Bound) :
    last_defined_estimate estimates arg = some b ↔
      (b.var = arg ∧ b.min ≠ none ∧ b.extent ≠ none) ∧
        ∃ before after, estimates = before ++ b :: after ∧
          ∀ b2 ∈ after, ¬ (b2.var = arg ∧ b2.min ≠ none ∧ b2.extent ≠ none) := by
  unfold last_defined_estimate
  rw [List.find?_eq_some]
  have hp : ∀ x : Bound, (x.var == arg && x.min.isSome && x.extent.isSome) = true ↔
      (x.var = arg ∧ x.min ≠ none ∧ x.extent ≠ none) := by
    intro x
    simp [Option.isSome_iff_ne_none, and_assoc]
  constructor
  · rintro ⟨h1, as, bs, hrev, hall⟩
    refine ⟨(hp b).1 h1, bs.reverse, as.reverse, ?_, ?_⟩
    · have := congrArg List.reverse hrev
      simpa using this
    · intro b2 hb2 hc
      have := hall b2 (List.mem_reverse.1 hb2)
      rw [(hp b2).2 hc] at this
      exact absurd this (by simp)
  · rintro ⟨h1, before, after, hest, hall⟩
    refine ⟨(hp b).2 h1, after.reverse, before.reverse, ?_, ?_⟩
    · rw [hest]; simp
    · intro a ha
      have := hall a (List.mem_reverse.1 ha)
      cases hq : (a.var == arg && a.min.isSome && a.extent.isSome) with
      | false => rfl
      | true => exact absurd ((hp a).1 hq) this

/-- C33: `check_estimates_on_outputs`.  The check passes exactly when every
argument of every output has an estimate with defined `min` and `extent`
whose last such estimate has a `min` and an `extent` of integer type, and it
fails with the user error in every other case; the estimate examined for an
argument is the last one of the list that names the argument and has both
values defined, whatever stands before it. -/
theorem check_estimates_on_outputs_spec (is_int : Expr → Bool) (args : String → List String)
    (estimates : String → List Bound) (outputs : List Function) :
    (check_estimates_on_outputs is_int args estimates outputs = Except.ok () ↔
      ∀ out ∈ outputs, ∀ arg ∈ args out.name,
        ∃ b, last_defined_estimate (estimates out.name) arg = some b ∧
          estimate_is_int is_int b = true) ∧
    ((∃ e, check_estimates_on_outputs is_int args estimates outputs = Except.error e) ↔
      ∃ out ∈ outputs, ∃ arg ∈ args out.name,
        last_defined_estimate (estimates out.name) arg = none ∨
          ∃ b, last_defined_estimate (estimates out.name) arg = some b ∧
            ∃ mn ex, b.min = some mn ∧ b.extent = some ex ∧
              (is_int mn = false ∨ is_int ex = false)) ∧
    (∀ (ests : List Bound) (arg : String) (b : Bound),
      last_defined_estimate ests arg = some b ↔
        (b.var = arg ∧ b.min ≠ none ∧ b.extent ≠ none) ∧
          ∃ before after, ests = before ++ b :: after ∧
            ∀ b2 ∈ after, ¬ (b2.var = arg ∧ b2.min ≠ none ∧ b2.extent ≠ none)) ∧
    (∀ (ests : List Bound) (arg : String),
      last_defined_estimate ests arg = none ↔
        ∀ b ∈ ests, ¬ (b.var = arg ∧ b.min ≠ none ∧ b.extent ≠ none)) := by
  refine ⟨check_estimates_on_outputs_ok is_int args estimates outputs, ?_,
    last_defined_estimate_some, ?_⟩
  · have hok := check_estimates_on_outputs_ok is_int args estimates outputs
    constructor
    · rintro ⟨e, he⟩
      by_contra hcon
      have hall : ∀ out ∈ outputs, ∀ arg ∈ args out.name,
          ∃ b, last_defined_estimate (estimates out.name) arg = some b ∧
            estimate_is_int is_int b = true := by
        intro out ho arg ha
        by_contra hno
        apply hcon
        refine ⟨out, ho, arg, ha, ?_⟩
        cases hl : last_defined_estimate (estimates out.name) arg with
        | none => left; rfl
        | some b =>
          right
          refine ⟨b, rfl, ?_⟩
          obtain ⟨⟨_, hmn, hex⟩, _⟩ := (last_defined_estimate_some _ _ _).1 hl
          cases hm : b.min with
          | none => exact absurd hm hmn
          | some mn =>
            cases hx : b.extent with
            | none => exact absurd hx hex
            | some ex =>
              refine ⟨mn, ex, rfl, rfl, ?_⟩
              have hni : estimate_is_int is_int b ≠ true := fun hi => hno ⟨b, hl, hi⟩
              unfold estimate_is_int at hni
              rw [hm, hx] at hni
              simp only [] at hni
              cases h1 : is_int mn with
              | false => left; rfl
              | true =>
                right
                cases h2 : is_int ex with
                | false => rfl
                | true => rw [h1, h2] at hni; exact absurd rfl hni
      rw [hok.2 hall] at he
      exact absurd he (by simp)
    · rintro ⟨out, ho, arg, ha, hbad⟩
      cases hc : check_estimates_on_outputs is_int args estimates outputs with
      | error e => exact ⟨e, rfl⟩
      | ok u =>
        obtain ⟨b, hb, hi⟩ := hok.1 hc out ho arg ha
        rcases hbad with hn | ⟨b2, hb2, mn, ex, hm, hx, hint⟩
        · rw [hn] at hb; exact absurd hb (by simp)
        · rw [hb2] at hb
          simp only [Option.some.injEq] at hb
          subst hb
          unfold estimate_is_int at hi
          rw [hm, hx] at hi
          simp only [Bool.and_eq_true] at hi
          rcases hint with h | h
          · rw [h] at hi; exact absurd hi.1 (by simp)
          · rw [h] at hi; exact absurd hi.2 (by simp)
  · intro ests arg
    unfold last_defined_estimate
    rw [List.find?_eq_none]
    constructor
    · intro h b hb hc
      have := h b (List.mem_reverse.2 hb)
      simp [hc.1, Option.isSome_iff_ne_none, hc.2.1, hc.2.2] at this
    · intro h b hb
      have := h b (List.mem_reverse.1 hb)
      simp only [Bool.not_eq_true]
      cases hq : (b.var == arg && b.min.isSome && b.extent.isSome) with
      | false => rfl
      | true =>
        exfalso
        apply this
        simpa [Option.isSome_iff_ne_none, and_assoc] using hq

theorem check_estimates_on_outputs_spec_witness :
    check_estimates_on_outputs (fun e => (as_const_int e).isSome) (fun _ => ["x"])
      (fun _ => [⟨"x", some (Expr.IntImm 0), some (Expr.IntImm 10)⟩])
      [example_function "f"] = Except.ok () ∧
    ∀ out ∈ [example_function "f"], ∀ arg ∈ ["x"],
      ∃ b, last_defined_estimate [⟨"x", some (Expr.IntImm 0), some (Expr.IntImm 10)⟩] arg =
          some b ∧
        estimate_is_int (fun e => (as_const_int e).isSome) b = true :=
  ⟨by decide,
    (check_estimates_on_outputs_spec (fun e => (as_const_int e).isSome) (fun _ => ["x"])
      (fun _ => [⟨"x", some (Expr.IntImm 0), some (Expr.IntImm 10)⟩])
      [example_function "f"]).1.mp (by decide)⟩

/-! ### The tail strategy of a split -/

theorem nat_lt_irrefl (a : Nat) : nat_lt a a = false := by
  simp [nat_lt]

theorem nat_lt_trichotomy (a b : Nat) (h1 : nat_lt a b = false) (h2 : nat_lt b a = false) :
    a = b := by
  simp only [nat_lt, decide_eq_false_iff_not] at h1 h2
  omega

theorem access_inputs_or_outputs_iff {ε : Type} (uses : ε → String → Bool)
    (call_args : List (String × List ε)) (var : VarOrRVar) (inputs : List String)
    (outputs : List Function) :
    access_inputs_or_outputs uses call_args var inputs outputs = true ↔
      ∃ call ∈ call_args, (call.1 ∈ inputs ∨ ∃ f ∈ outputs, f.name = call.1) ∧
        ∃ arg ∈ call.2, uses arg var.name = true := by
  unfold access_inputs_or_outputs
  simp only [List.any_eq_true, Bool.and_eq_true, Bool.or_eq_true, List.contains_eq_any_beq,
    beq_iff_eq]
  constructor
  · rintro ⟨call, hc, hio, arg, ha, hu⟩
    refine ⟨call, hc, ?_, arg, ha, hu⟩
    rcases hio with ⟨x, hx, hxe⟩ | ⟨f, hf, hfe⟩
    · left; rw [hxe]; exact hx
    · right; exact ⟨f, hf, hfe⟩
  · rintro ⟨call, hc, hio, arg, ha, hu⟩
    refine ⟨call, hc, ?_, arg, ha, hu⟩
    rcases hio with hx | ⟨f, hf, hfe⟩
    · left; exact ⟨call.1, hx, rfl⟩
    · right; exact ⟨f, hf, hfe⟩

theorem push_schedule_directives (sched sched1 : AutoSchedule) (stage_name : String)
    (stage_num : Nat) (directive : String) (vars : List String)
    (h : sched.push_schedule stage_name stage_num directive vars = Except.ok sched1) :
    ∃ v0 rest, split_string stage_name.toList '.' = v0 :: rest ∧
      (sched1.directives (String.mk v0) stage_num).getLast? = some directive ∧
      sched1.used (String.mk v0) stage_num =
        set_insert_all string_lt vars (sched.used (String.mk v0) stage_num) ∧
      sched1.internal_vars = sched.internal_vars := by
  unfold AutoSchedule.push_schedule at h
  cases hs : split_string stage_name.toList '.' with
  | nil => rw [hs] at h; exact absurd h (by simp)
  | cons v0 rest =>
    rw [hs] at h
    simp only [Except.ok.injEq] at h
    refine ⟨v0, rest, rfl, ?_, ?_, ?_⟩
    · rw [← h]
      unfold AutoSchedule.directives
      simp only []
      rw [map_find_assign_self string_lt string_lt_irrefl string_lt_trichotomy]
      simp only [Option.some_bind]
      rw [map_find_assign_self nat_lt nat_lt_irrefl nat_lt_trichotomy]
      simp only [Option.getD_some]
      split
      · simp
      · split
        · simp
        · next h1 h2 =>
          simp only [bne_iff_ne, ne_eq, Decidable.not_not] at h2
          exact h2
    · rw [← h]
      unfold AutoSchedule.used
      simp only []
      rw [map_find_assign_self string_lt string_lt_irrefl string_lt_trichotomy]
      simp only [Option.some_bind]
      rw [map_find_assign_self nat_lt nat_lt_irrefl nat_lt_trichotomy]
      simp only [Option.getD_some]
      congr 1
      cases h1 : map_find sched.used_vars (String.mk v0) with
      | none => simp [map_find]
      | some stages => simp
    · rw [← h]

theorem split_dim_strategy {ε : Type} (P : Primitives) (SE : ScheduleEnv ε) (part : Partitioner)
    (g : Group) (f_handle_name : String) (stage_num : Nat) (def_calls : List (String × List ε))
    (is_group_output : Bool) (v : VarOrRVar) (factor : Expr) (in_suffix out_suffix : String)
    (estimates : List (String × Option Expr)) (sched : AutoSchedule) (r : SplitResult)
    (h : part.split_dim P SE g f_handle_name stage_num def_calls is_group_output v factor
      in_suffix out_suffix estimates sched = Except.ok r) :
    r.strategy =
      split_tail_strategy SE part g f_handle_name stage_num def_calls is_group_output v ∧
    ∃ v0 rest, split_string f_handle_name.toList '.' = v0 :: rest ∧
      (r.sched.directives (String.mk v0) stage_num).getLast? =
        some (split_directive v.name (v.name ++ out_suffix) (v.name ++ in_suffix) factor
          r.strategy) := by
  unfold Partitioner.split_dim at h
  cases h1 : declare_internal_var sched.internal_vars ⟨v.name ++ in_suffix, v.is_rvar⟩ with
  | error e => rw [h1] at h; exact absurd h (by simp)
  | ok vars1 =>
    rw [h1] at h
    simp only [] at h
    cases h2 : declare_internal_var vars1 ⟨v.name ++ out_suffix, v.is_rvar⟩ with
    | error e => rw [h2] at h; exact absurd h (by simp)
    | ok vars2 =>
      rw [h2] at h
      simp only [] at h
      cases h3 : AutoSchedule.push_schedule ⟨vars2, sched.func_schedules, sched.used_vars⟩
          f_handle_name stage_num
          (split_directive v.name (v.name ++ out_suffix) (v.name ++ in_suffix) factor
            (split_tail_strategy SE part g f_handle_name stage_num def_calls is_group_output v))
          [v.name, v.name ++ out_suffix, v.name ++ in_suffix] with
      | error e => rw [h3] at h; exact absurd h (by simp)
      | ok sched1 =>
        rw [h3] at h
        simp only [] at h
        cases h4 : get_element estimates v.name with
        | error e => rw [h4] at h; exact absurd h (by simp)
        | ok oe =>
          rw [h4] at h
          cases oe with
          | none => exact absurd h (by simp)
          | some est =>
            simp only [Except.ok.injEq] at h
            obtain ⟨v0, rest, hs, hd, _, _⟩ := push_schedule_directives _ _ _ _ _ _ h3
            rw [← h]
            exact ⟨rfl, v0, rest, hs, hd⟩

/-- The worked update: the split of the reduction variable `r`, which the
call of the input `in` uses, records the directive without a tail
strategy. -/
theorem split_guard_with_if_counterexample :
    access_inputs_or_outputs example_schedule_env.expr_uses_var
      (example_schedule_env.call_args ⟨"f", 1⟩) ⟨"r", true⟩ example_schedule_env.inputs
      example_update_part.outputs = true ∧
    (example_update_part.split_dim Primitives.basic example_schedule_env example_update_group
      "f.update(0)" 1 (example_schedule_env.call_args ⟨"f", 1⟩) true ⟨"r", true⟩
      (Expr.IntImm 8) "_i" "_o" [("r", some (Expr.IntImm 64))]
      example_empty_schedule).toOption.map (fun r => (r.strategy, r.sched.directives "f" 1)) =
      some (TailStrategy.Auto, ["split(r, r_o, r_i, 8)"]) ∧
    (example_update_part.split_dim Primitives.basic example_schedule_env example_update_group
      "f.update(0)" 1 (example_schedule_env.call_args ⟨"f", 1⟩) false ⟨"r", true⟩
      (Expr.IntImm 8) "_i" "_o" [("r", some (Expr.IntImm 64))]
      example_empty_schedule).toOption.map (fun r => (r.strategy, r.sched.directives "f" 1)) =
      some (TailStrategy.Auto, ["split(r, r_o, r_i, 8)"]) := by
  decide

/-- C34 (as the code has it): the tail strategy of `split_dim`.  A call that
returns has handed the strategy below to `f_handle.split` and has recorded
the directive `split` with that strategy as the last directive of the stage.
For a split variable that is not a reduction variable, in a stage with
`stage_num > 0`: when the stage is not the output of the group the strategy
is `GuardWithIf` exactly when a call of the definition to an input or an
output of the pipeline has an argument that uses the variable; when it is the
output of the group, exactly when the definition of a member of the group
whose function is not named as the handle `f_handle` has such a call, which
includes the definition of the stage itself when the stage is a member and
its handle is not named as its function.  In these cases the strategy is
`Auto` otherwise, and it is `Auto` for every reduction variable and in every
stage 0. -/
theorem split_guard_with_if {ε : Type} (P : Primitives) (SE : ScheduleEnv ε)
    (part : Partitioner) (g : Group) (f_handle_name : String) (stage_num : Nat)
    (def_calls : List (String × List ε)) (is_group_output : Bool) (v : VarOrRVar)
    (factor : Expr) (in_suffix out_suffix : String) (estimates : List (String × Option Expr))
    (sched : AutoSchedule) (r : SplitResult)
    (h : part.split_dim P SE g f_handle_name stage_num def_calls is_group_output v factor
      in_suffix out_suffix estimates sched = Except.ok r) :
    (∃ v0 rest, split_string f_handle_name.toList '.' = v0 :: rest ∧
      (r.sched.directives (String.mk v0) stage_num).getLast? =
        some (split_directive v.name (v.name ++ out_suffix) (v.name ++ in_suffix) factor
          r.strategy)) ∧
    (r.strategy = TailStrategy.GuardWithIf ∨ r.strategy = TailStrategy.Auto) ∧
    (0 < stage_num → v.is_rvar = false → is_group_output = false →
      (r.strategy = TailStrategy.GuardWithIf ↔
        ∃ call ∈ def_calls, (call.1 ∈ SE.inputs ∨ ∃ f ∈ part.outputs, f.name = call.1) ∧
          ∃ arg ∈ call.2, SE.expr_uses_var arg v.name = true)) ∧
    (0 < stage_num → v.is_rvar = false → is_group_output = true →
      (r.strategy = TailStrategy.GuardWithIf ↔
        ∃ mem ∈ g.members, mem.func ≠ f_handle_name ∧
          ∃ call ∈ SE.call_args mem,
            (call.1 ∈ SE.inputs ∨ ∃ f ∈ part.outputs, f.name = call.1) ∧
              ∃ arg ∈ call.2, SE.expr_uses_var arg v.name = true) ∧
      (∀ fn, (⟨fn, stage_num⟩ : FStage) ∈ g.members → fn ≠ f_handle_name →
        (∃ call ∈ SE.call_args ⟨fn, stage_num⟩,
          (call.1 ∈ SE.inputs ∨ ∃ f ∈ part.outputs, f.name = call.1) ∧
            ∃ arg ∈ call.2, SE.expr_uses_var arg v.name = true) →
        r.strategy = TailStrategy.GuardWithIf)) ∧
    (v.is_rvar = true ∨ stage_num = 0 → r.strategy = TailStrategy.Auto) := by
  obtain ⟨hst, hdir⟩ := split_dim_strategy P SE part g f_handle_name stage_num def_calls
    is_group_output v factor in_suffix out_suffix estimates sched r h
  have houtput : 0 < stage_num → v.is_rvar = false → is_group_output = true →
      (r.strategy = TailStrategy.GuardWithIf ↔
        ∃ mem ∈ g.members, mem.func ≠ f_handle_name ∧
          ∃ call ∈ SE.call_args mem,
            (call.1 ∈ SE.inputs ∨ ∃ f ∈ part.outputs, f.name = call.1) ∧
              ∃ arg ∈ call.2, SE.expr_uses_var arg v.name = true) := by
    intro hs hv ho
    rw [hst]
    unfold split_tail_strategy
    have hs1 : decide (stage_num > 0) = true := by simpa using hs
    simp only [hs1, hv, ho, Bool.not_false, Bool.and_self, if_true, Bool.not_true,
      Bool.false_eq_true, if_false]
    constructor
    · intro h1
      split at h1
      · next hany =>
        rw [List.any_eq_true] at hany
        obtain ⟨mem, hm, hacc⟩ := hany
        simp only [Bool.and_eq_true, Bool.not_eq_true', beq_eq_false_iff_ne, ne_eq] at hacc
        exact ⟨mem, hm, hacc.1, (access_inputs_or_outputs_iff _ _ _ _ _).1 hacc.2⟩
      · exact absurd h1 (by simp)
    · rintro ⟨mem, hm, hne, hacc⟩
      have hany : (g.members.any (fun mem =>
          !(mem.func == f_handle_name) &&
            access_inputs_or_outputs SE.expr_uses_var (SE.call_args mem) v SE.inputs
              part.outputs)) = true := by
        rw [List.any_eq_true]
        refine ⟨mem, hm, ?_⟩
        simp only [Bool.and_eq_true, Bool.not_eq_true', beq_eq_false_iff_ne, ne_eq]
        exact ⟨hne, (access_inputs_or_outputs_iff _ _ _ _ _).2 hacc⟩
      rw [if_pos hany]
  refine ⟨hdir, ?_, ?_, ?_, ?_⟩
  · rw [hst]
    unfold split_tail_strategy
    split
    · split
      · split
        · left; rfl
        · right; rfl
      · split
        · left; rfl
        · right; rfl
    · right; rfl
  · intro hs hv ho
    rw [hst]
    unfold split_tail_strategy
    have hs1 : decide (stage_num > 0) = true := by simpa using hs
    simp only [hs1, hv, ho, Bool.not_false, Bool.and_self, if_true]
    rw [← access_inputs_or_outputs_iff]
    split
    · next hacc => simp [hacc]
    · next hacc => simp [hacc]
  · intro hs hv ho
    refine ⟨houtput hs hv ho, ?_⟩
    intro fn hmem hne hacc
    exact (houtput hs hv ho).2 ⟨⟨fn, stage_num⟩, hmem, hne, hacc⟩
  · intro hor
    rw [hst]
    unfold split_tail_strategy
    rcases hor with hv | hs
    · simp [hv]
    · simp [hs]

theorem split_guard_with_if_witness :
    (example_update_part.split_dim Primitives.basic example_schedule_env example_update_group
      "f.update(0)" 1 (example_schedule_env.call_args ⟨"f", 1⟩) true ⟨"x", false⟩
      (Expr.IntImm 8) "_i" "_o" [("x", some (Expr.IntImm 64))] example_empty_schedule =
      Except.ok
        ⟨⟨"x_i", false⟩, ⟨"x_o", false⟩, TailStrategy.GuardWithIf,
          [("x_i", some (Expr.IntImm 8)), ("x_o", some (Expr.IntImm 8))],
          ⟨[("x_i", ⟨"x_i", false⟩), ("x_o", ⟨"x_o", false⟩)],
            [("f", [(1, ["split(x, x_o, x_i, 8, TailStrategy::GuardWithIf)"])])],
            [("f", [(1, ["x", "x_i", "x_o"])])]⟩⟩) ∧
    (TailStrategy.GuardWithIf = TailStrategy.GuardWithIf ∨
      TailStrategy.GuardWithIf = TailStrategy.Auto) :=
  ⟨by decide,
    (split_guard_with_if Primitives.basic example_schedule_env example_update_part
      example_update_group "f.update(0)" 1 (example_schedule_env.call_args ⟨"f", 1⟩) true
      ⟨"x", false⟩ (Expr.IntImm 8) "_i" "_o" [("x", some (Expr.IntImm 64))]
      example_empty_schedule
      ⟨⟨"x_i", false⟩, ⟨"x_o", false⟩, TailStrategy.GuardWithIf,
        [("x_i", some (Expr.IntImm 8)), ("x_o", some (Expr.IntImm 8))],
        ⟨[("x_i", ⟨"x_i", false⟩), ("x_o", ⟨"x_o", false⟩)],
          [("f", [(1, ["split(x, x_o, x_i, 8, TailStrategy::GuardWithIf)"])])],
          [("f", [(1, ["x", "x_i", "x_o"])])]⟩⟩
      (by decide)).2.1⟩

/-! ### The variables of a reorder directive -/

theorem mem_var_list (ordering : List VarOrRVar) (v : String) :
    v ∈ var_list ordering ↔ ∃ o ∈ ordering.tail, o.name = v := by
  unfold var_list
  constructor
  · intro h
    rcases mem_of_mem_foldl_set_insert string_lt (fun o : VarOrRVar => o.name) v _ _ h with
      h1 | ⟨o, ho, he⟩
    · exact absurd h1 (List.not_mem_nil _)
    · exact ⟨o, ho, he.symm⟩
  · rintro ⟨o, ho, rfl⟩
    exact mem_foldl_set_insert string_lt string_lt_trichotomy (fun o : VarOrRVar => o.name) _ _ o ho

/-- C39 fails for the first variable of the ordering.  The set `var_list`
handed to `push_schedule` holds the names of the ordering from the second on,
for every ordering.  In `reorder_dims`, for the stage with the loops `y`, `x`
whose strides are 4 and 1, the directive recorded is `reorder(x, y)` and the
variables recorded as used are `y` alone; the reordering of the tiles records
`reorder(x_i, y_i, x_o, y_o)` without `x_i`. -/
theorem reorder_used_vars_failing_input :
    (∀ (ordering : List VarOrRVar) (v : String),
      v ∈ var_list ordering ↔ ∃ o ∈ ordering.tail, o.name = v) ∧
    reorder_dims Primitives.basic (fun _ => true) "f" 0
      [⟨"y", false⟩, ⟨"x", false⟩, ⟨"__outermost", false⟩]
      [("x", some (Expr.IntImm 1)), ("y", some (Expr.IntImm 4))] example_empty_schedule =
      Except.ok ⟨[], [("f", [(0, ["reorder(x, y)"])])], [("f", [(0, ["y"])])]⟩ ∧
    "x" ∉ AutoSchedule.used ⟨[], [("f", [(0, ["reorder(x, y)"])])], [("f", [(0, ["y"])])]⟩
      "f" 0 ∧
    reorder_tiles example_empty_schedule "f" 0
      [⟨"x", false⟩, ⟨"y", false⟩, ⟨"__outermost", false⟩]
      [⟨"x_i", false⟩, ⟨"y_i", false⟩] [⟨"x_o", false⟩, ⟨"y_o", false⟩] =
      Except.ok ⟨[], [("f", [(0, ["reorder(x_i, y_i, x_o, y_o)"])])],
        [("f", [(0, ["x_o", "y_i", "y_o"])])]⟩ ∧
    "x_i" ∉ AutoSchedule.used
      ⟨[], [("f", [(0, ["reorder(x_i, y_i, x_o, y_o)"])])],
        [("f", [(0, ["x_o", "y_i", "y_o"])])]⟩ "f" 0 := by
  refine ⟨mem_var_list, by decide, by decide, by decide, by decide⟩

/-! ### The set of visited stages -/

theorem StageBounds_lt_equiv (a b : StageBounds) :
    (StageBounds.lt a b = false ∧ StageBounds.lt b a = false) ↔
      (a.f_stage = b.f_stage ∧ a.bounds.length = b.bounds.length) := by
  unfold StageBounds.lt
  constructor
  · rintro ⟨h1, h2⟩
    simp only [Bool.or_eq_false_iff, Bool.and_eq_false_iff, beq_eq_false_iff_ne,
      decide_eq_false_iff_not] at h1 h2
    have hs : a.f_stage = b.f_stage := FStage_lt_trichotomy _ _ h1.1 h2.1
    refine ⟨hs, ?_⟩
    rcases h1.2 with h | h
    · exact absurd hs h
    · rcases h2.2 with h3 | h3
      · exact absurd hs.symm h3
      · omega
  · rintro ⟨hs, hl⟩
    rw [hs, hl]
    simp [FStage_lt_irrefl]

/-! ### The merge of queued bounds -/

theorem merge_queued_bounds_find {ε : Type} (DA : DependenceAnalysis ε) (P : Primitives) :
    ∀ (bounds : DimBounds), (bounds.map Prod.fst).Nodup → ∀ (curr : DimBounds) (v : String),
      map_find (merge_queued_bounds DA P curr bounds) v =
        (match map_find bounds v with
          | none => map_find curr v
          | some b =>
            some (match map_find curr v with
              | none => b
              | some c => queue_merge_interval DA P c b)) := by
  intro bounds
  induction bounds with
  | nil =>
    intro _ curr v
    simp [merge_queued_bounds, map_find]
  | cons b0 rest ih =>
    intro hnd curr v
    rw [List.map_cons, List.nodup_cons] at hnd
    have hrest : map_find rest b0.1 = none := by
      rw [map_find_eq_none_iff]
      intro e he heq
      exact hnd.1 (heq ▸ List.mem_map_of_mem Prod.fst he)
    have hstep : merge_queued_bounds DA P curr (b0 :: rest) =
        merge_queued_bounds DA P
          (match map_find curr b0.1 with
            | none => map_emplace string_lt b0.1 b0.2 curr
            | some cur => map_assign string_lt b0.1 (queue_merge_interval DA P cur b0.2) curr)
          rest := by
      unfold merge_queued_bounds
      rw [List.foldl_cons]
      rfl
    rw [hstep, ih hnd.2]
    obtain ⟨k0, i0⟩ := b0
    by_cases hv : k0 = v
    · subst hv
      simp only [] at hrest
      rw [hrest]
      simp only [map_find, if_true]
      cases hc : map_find curr k0 with
      | none =>
        simp only []
        rw [map_find_emplace_self string_lt string_lt_trichotomy k0 i0 curr hc]
      | some c =>
        simp only []
        rw [map_find_assign_self string_lt string_lt_irrefl string_lt_trichotomy]
    · have hfind : map_find ((k0, i0) :: rest) v = map_find rest v := by
        simp [map_find, hv]
      rw [hfind]
      have hcur : map_find
          (match map_find curr k0 with
            | none => map_emplace string_lt k0 i0 curr
            | some cur => map_assign string_lt k0 (queue_merge_interval DA P cur i0) curr) v =
          map_find curr v := by
        cases hc : map_find curr k0 with
        | none =>
          simp only []
          exact map_find_emplace_ne string_lt k0 v i0 hv curr
        | some c =>
          simp only []
          exact map_find_assign_ne string_lt string_lt_trichotomy k0 v _ (fun h => hv h.symm) curr
      simp only [] at hcur ⊢
      rw [hcur]

/-- C35: the merge of queued bounds.  When `queue_func_regions` reaches a
stage that is queued with the bounds `curr` and not visited, the stage stays
queued with the merge of `curr` and the new bounds (a map, so with distinct
keys): a dimension of both sides gets as lower bound the simplified
`make_min` of the two lower bounds when both sides have one and `neg_inf`
otherwise, and as upper bound the simplified `make_max` of the two upper
bounds when both have one and `pos_inf` otherwise; a dimension of one side
only keeps its interval.  With a sound simplifier and `make_min`, `make_max`
that compute the minimum and maximum of bounds, the lower bound of the merge
has the value of the smaller lower bound and the upper bound that of the
larger upper bound, so that the merged interval contains both. -/
theorem queue_merge_spec {ε : Type} (DA : DependenceAnalysis ε) (P : Primitives)
    (visited : List StageBounds) (name : String) (prod_bounds : List DimBounds)
    (fs_bounds : List (FStage × DimBounds)) (prod_s : Nat) (curr : DimBounds)
    (hq : map_find fs_bounds ⟨name, prod_s⟩ = some curr)
    (hv : visited_find visited ⟨⟨name, prod_s⟩, prod_bounds.getD prod_s []⟩ = false)
    (hnd : ((prod_bounds.getD prod_s []).map Prod.fst).Nodup) :
    ∃ merged,
      map_find (queue_stage DA P visited name prod_bounds fs_bounds prod_s) ⟨name, prod_s⟩ =
        some merged ∧
      (∀ v c b, map_find curr v = some c → map_find (prod_bounds.getD prod_s []) v = some b →
        map_find merged v =
          some ⟨if c.has_lower_bound && b.has_lower_bound then
              P.simplify (DA.make_min c.min b.min)
            else Interval.neg_inf,
            if c.has_upper_bound && b.has_upper_bound then
              P.simplify (DA.make_max c.max b.max)
            else Interval.pos_inf⟩) ∧
      (∀ v, map_find (prod_bounds.getD prod_s []) v = none →
        map_find merged v = map_find curr v) ∧
      (∀ v b, map_find curr v = none → map_find (prod_bounds.getD prod_s []) v = some b →
        map_find merged v = some b) ∧
      (P.simplify_sound →
        (∀ a b env, is_finite_bound a → is_finite_bound b →
          (DA.make_min a b).eval env = min (a.eval env) (b.eval env)) →
        (∀ a b env, is_finite_bound a → is_finite_bound b →
          (DA.make_max a b).eval env = max (a.eval env) (b.eval env)) →
        ∀ v c b m, map_find curr v = some c →
          map_find (prod_bounds.getD prod_s []) v = some b → map_find merged v = some m →
          (is_finite_bound c.min → is_finite_bound b.min → ∀ env,
            m.min.eval env = min (c.min.eval env) (b.min.eval env) ∧
            m.min.eval env ≤ c.min.eval env ∧ m.min.eval env ≤ b.min.eval env) ∧
          (is_finite_bound c.max → is_finite_bound b.max → ∀ env,
            m.max.eval env = max (c.max.eval env) (b.max.eval env) ∧
            c.max.eval env ≤ m.max.eval env ∧ b.max.eval env ≤ m.max.eval env) ∧
          (c.has_lower_bound = false ∨ b.has_lower_bound = false → m.min = Interval.neg_inf) ∧
          (c.has_upper_bound = false ∨ b.has_upper_bound = false →
            m.max = Interval.pos_inf)) := by
  have hfind := merge_queued_bounds_find DA P (prod_bounds.getD prod_s []) hnd curr
  have hboth : ∀ v c b, map_find curr v = some c →
      map_find (prod_bounds.getD prod_s []) v = some b →
      map_find (merge_queued_bounds DA P curr (prod_bounds.getD prod_s [])) v =
        some (queue_merge_interval DA P c b) := by
    intro v c b hc hb
    rw [hfind v, hb, hc]
  refine ⟨merge_queued_bounds DA P curr (prod_bounds.getD prod_s []), ?_, ?_, ?_, ?_, ?_⟩
  · unfold queue_stage
    rw [hv, hq]
    simp only [Bool.false_eq_true, if_false]
    exact map_find_assign_self FStage.lt FStage_lt_irrefl FStage_lt_trichotomy _ _ _
  · intro v c b hc hb
    rw [hboth v c b hc hb]
    rfl
  · intro v hb
    rw [hfind v, hb]
  · intro v b hc hb
    rw [hfind v, hb, hc]
  · intro hs hmin hmax v c b m hc hb hm
    rw [hboth v c b hc hb] at hm
    simp only [Option.some.injEq] at hm
    subst hm
    unfold queue_merge_interval
    refine ⟨?_, ?_, ?_, ?_⟩
    · intro h1 h2 env
      have e1 : c.has_lower_bound = true := by simp [Interval.has_lower_bound, h1.1]
      have e2 : b.has_lower_bound = true := by simp [Interval.has_lower_bound, h2.1]
      simp only [e1, e2, Bool.and_self, if_true]
      rw [hs env, hmin _ _ env h1 h2]
      exact ⟨rfl, min_le_left _ _, min_le_right _ _⟩
    · intro h1 h2 env
      have e1 : c.has_upper_bound = true := by simp [Interval.has_upper_bound, h1.2]
      have e2 : b.has_upper_bound = true := by simp [Interval.has_upper_bound, h2.2]
      simp only [e1, e2, Bool.and_self, if_true]
      rw [hs env, hmax _ _ env h1 h2]
      exact ⟨rfl, le_max_left _ _, le_max_right _ _⟩
    · intro h
      rcases h with h | h <;> simp [h]
    · intro h
      rcases h with h | h <;> simp [h]

theorem queue_merge_spec_witness :
    map_find
      (queue_stage example_dependence Primitives.basic [] "g"
        [[("x", example_interval 5 20)], [("r", example_interval 0 255)]]
        [(⟨"g", 0⟩, [("x", example_interval 0 10)])] 0) ⟨"g", 0⟩ =
      some [("x", example_interval 0 20)] ∧
    ∃ merged,
      map_find
        (queue_stage example_dependence Primitives.basic [] "g"
          [[("x", example_interval 5 20)], [("r", example_interval 0 255)]]
          [(⟨"g", 0⟩, [("x", example_interval 0 10)])] 0) ⟨"g", 0⟩ = some merged ∧
      ∀ v, map_find
          ([[("x", example_interval 5 20)], [("r", example_interval 0 255)]].getD 0 []) v =
          none →
        map_find merged v = map_find [("x", example_interval 0 10)] v :=
  ⟨by decide,
    (queue_merge_spec example_dependence Primitives.basic [] "g"
      [[("x", example_interval 5 20)], [("r", example_interval 0 255)]]
      [(⟨"g", 0⟩, [("x", example_interval 0 10)])] 0 [("x", example_interval 0 10)]
      (by decide) (by decide) (by decide)).imp (fun _ h => ⟨h.1, h.2.2.1⟩)⟩

/-! ### The grouping loops end -/

theorem map_find_assign_key {κ ν : Type} [DecidableEq κ] (lt : κ → κ → Bool)
    (htri : ∀ a b : κ, lt a b = false → lt b a = false → a = b) (k k2 : κ) (v : ν)
    (m : List (κ × ν)) (h : map_find (map_assign lt k v m) k2 ≠ none) :
    k2 = k ∨ map_find m k2 ≠ none := by
  by_cases hk : k2 = k
  · left; exact hk
  · right
    rw [map_find_assign_ne lt htri k k2 v hk m] at h
    exact h

theorem merge_groups_no_new_key (part part1 : Partitioner) (choice : GroupingChoice)
    (eval : GroupConfig) (level : Level)
    (h : part.merge_groups choice eval level = Except.ok part1) :
    ∀ k, map_find part1.groups k ≠ none → map_find part.groups k ≠ none := by
  unfold Partitioner.merge_groups at h
  split at h
  · exact absurd h (by simp)
  · simp only [] at h
    split at h
    · exact absurd h (by simp)
    · next child_group hchild =>
      split at h
      · exact absurd h (by simp)
      · simp only [Except.ok.injEq] at h
        intro k hk
        rw [← h] at hk
        simp only [] at hk
        rcases map_find_assign_key FStage.lt FStage_lt_trichotomy _ _ _ _ hk with h1 | h1
        · rw [h1, (get_element_ok _ _ _).1 hchild]
          simp
        · exact h1

theorem merge_best_no_new_key (prod : String) (level : Level) :
    ∀ (best : List (GroupingChoice × GroupConfig)) (part part1 : Partitioner),
      merge_best prod level best part = Except.ok part1 →
      ∀ k, map_find part1.groups k ≠ none → map_find part.groups k ≠ none := by
  intro best
  induction best with
  | nil =>
    intro part part1 h
    simp only [merge_best, Except.ok.injEq] at h
    rw [h]
    intro k hk
    exact hk
  | cons g rest ih =>
    intro part part1 h
    unfold merge_best at h
    split at h
    · split at h
      · exact absurd h (by simp)
      · next part2 hm =>
        intro k hk
        exact merge_groups_no_new_key part part2 _ _ _ hm k (ih part2 part1 h k hk)
    · exact absurd h (by simp)

theorem merge_best_recurse_no_new_key (prod : String) :
    ∀ (best : List (GroupingChoice × GroupConfig)) (subs : List (List Group))
      (part part1 : Partitioner),
      merge_best_recurse prod best subs part = Except.ok part1 →
      ∀ k, map_find part1.groups k ≠ none → map_find part.groups k ≠ none := by
  intro best
  induction best with
  | nil =>
    intro subs part part1 h
    simp only [merge_best_recurse, Except.ok.injEq] at h
    rw [h]
    intro k hk
    exact hk
  | cons g rest ih =>
    intro subs part part1 h
    cases subs with
    | nil => simp [merge_best_recurse] at h
    | cons sub subs1 =>
      unfold merge_best_recurse at h
      split at h
      · split at h
        · exact absurd h (by simp)
        · next part2 hm =>
          split at h
          · exact absurd h (by simp)
          · next child_group hchild =>
            intro k hk
            have h2 := ih subs1 _ part1 h k hk
            simp only [] at h2
            apply merge_groups_no_new_key part part2 _ _ _ hm k
            rcases map_find_assign_key FStage.lt FStage_lt_trichotomy _ _ _ _ h2 with h1 | h1
            · rw [h1, (get_element_ok _ _ _).1 hchild]
              simp
            · exact h1
      · exact absurd h (by simp)

theorem erase_producer_stages_no_new_key (prod_f : Function) (pgc : List FStage)
    (stages : List Nat) (part : Partitioner) (k : FStage)
    (h : map_find (erase_producer_stages prod_f pgc stages part).groups k ≠ none) :
    map_find part.groups k ≠ none := by
  intro hn
  apply h
  rw [map_find_eq_none_iff] at hn ⊢
  intro e he
  exact hn e (erase_producer_stages_groups_subset prod_f pgc stages part e he)

theorem group_keys_card_lt (groups1 groups : List (FStage × Group)) (k0 : FStage)
    (hsub : ∀ k, map_find groups1 k ≠ none → map_find groups k ≠ none)
    (h0 : map_find groups k0 ≠ none) (h1 : map_find groups1 k0 = none) :
    (groups1.map Prod.fst).toFinset.card < (groups.map Prod.fst).toFinset.card := by
  have hmem : ∀ (m : List (FStage × Group)) (k : FStage),
      k ∈ (m.map Prod.fst).toFinset ↔ map_find m k ≠ none := by
    intro m k
    rw [List.mem_toFinset, List.mem_map, ne_eq, map_find_eq_none_iff]
    constructor
    · rintro ⟨e, he, rfl⟩ hall
      exact hall e he rfl
    · intro hall
      by_contra hcon
      apply hall
      intro e he heq
      exact hcon ⟨e, he, heq⟩
  apply Finset.card_lt_card
  rw [Finset.ssubset_iff_of_subset]
  · exact ⟨k0, (hmem _ _).2 h0, fun hin => (hmem _ _).1 hin h1⟩
  · intro k hk
    exact (hmem _ _).2 (hsub k ((hmem _ _).1 hk))

theorem group_iteration_keys (P : Primitives) (EV : Partitioner → EvaluateChoice)
    (level : Level) (tile_bounds : TileSizes) (part part1 : Partitioner)
    (h : part.group_iteration P EV level tile_bounds = Except.ok (part1, false)) :
    (∀ k, map_find part1.groups k ≠ none → map_find part.groups k ≠ none) ∧
    ∃ prod_f : Function, map_find part.groups (⟨prod_f.name, prod_f.updates⟩ : FStage) ≠ none ∧
      map_find part1.groups (⟨prod_f.name, prod_f.updates⟩ : FStage) = none := by
  obtain ⟨cand, best0, rest, cache, prod_f, pgc, part3, _, _, hf, _, hmerge, h1⟩ :=
    group_iteration_merge P EV level tile_bounds part part1 h
  obtain ⟨prod_f2, hf2, hpres⟩ := merge_best_present _ _ _ _ _ _ hmerge
  simp only [] at hf2 hpres
  rw [hf] at hf2
  simp only [Option.some.injEq] at hf2
  subst hf2
  have hnew := merge_best_no_new_key _ _ _ _ _ hmerge
  simp only [] at hnew
  refine ⟨?_, prod_f, hpres prod_f.updates (le_refl _), ?_⟩
  · intro k hk
    rw [h1] at hk
    exact hnew k (erase_producer_stages_no_new_key _ _ _ _ _ hk)
  · rw [h1]
    exact (erase_producer_stages_erased prod_f pgc _ part3 ⟨prod_f.name, prod_f.updates⟩
      (Or.inl ⟨rfl, List.mem_range.2 (Nat.lt_succ_self _)⟩)).1

theorem group_recurse_iteration_keys (P : Primitives)
    (EVR : Partitioner → EvaluateChoiceRecurse) (part part1 : Partitioner)
    (h : part.group_recurse_iteration P EVR = Except.ok (part1, false)) :
    (∀ k, map_find part1.groups k ≠ none → map_find part.groups k ≠ none) ∧
    ∃ prod_f : Function, map_find part.groups (⟨prod_f.name, prod_f.updates⟩ : FStage) ≠ none ∧
      map_find part1.groups (⟨prod_f.name, prod_f.updates⟩ : FStage) = none := by
  obtain ⟨prod_f, pgc, part3, _, _, hpres, _, h1⟩ :=
    accepted_merge_shape P part part1 (Or.inr ⟨EVR, h⟩)
  obtain ⟨cand, best0, rest, subs, prod_f2, pgc2, part4, _, _, _, _, hmerge, h2⟩ :=
    group_recurse_iteration_merge P EVR part part1 h
  have hnew := merge_best_recurse_no_new_key _ _ _ _ _ hmerge
  simp only [] at hnew
  refine ⟨?_, prod_f, hpres prod_f.updates (le_refl _), ?_⟩
  · intro k hk
    rw [h2] at hk
    exact hnew k (erase_producer_stages_no_new_key _ _ _ _ _ hk)
  · rw [h1]
    exact (erase_producer_stages_erased prod_f pgc _ part3 ⟨prod_f.name, prod_f.updates⟩
      (Or.inl ⟨rfl, List.mem_range.2 (Nat.lt_succ_self _)⟩)).1

theorem group_ends (P : Primitives) (EV : Partitioner → EvaluateChoice) (level : Level)
    (tile_bounds : TileSizes) :
    ∀ (fuel : Nat) (part : Partitioner), (part.groups.map Prod.fst).toFinset.card < fuel →
      Partitioner.group P EV level tile_bounds fuel part ≠ Except.ok none := by
  intro fuel
  induction fuel with
  | zero => intro part h; exact absurd h (Nat.not_lt_zero _)
  | succ n ih =>
    intro part hcard
    unfold Partitioner.group
    split
    · simp
    · simp
    · next part1 hit =>
      obtain ⟨hsub, prod_f, h0, h1⟩ := group_iteration_keys P EV level tile_bounds part part1 hit
      apply ih
      have := group_keys_card_lt part1.groups part.groups _ hsub h0 h1
      omega

theorem group_recurse_ends (P : Primitives) (EVR : Partitioner → EvaluateChoiceRecurse) :
    ∀ (fuel : Nat) (part : Partitioner), (part.groups.map Prod.fst).toFinset.card < fuel →
      Partitioner.group_recurse P EVR fuel part ≠ Except.ok none := by
  intro fuel
  induction fuel with
  | zero => intro part h; exact absurd h (Nat.not_lt_zero _)
  | succ n ih =>
    intro part hcard
    unfold Partitioner.group_recurse
    split
    · simp
    · simp
    · next part1 hit =>
      obtain ⟨hsub, prod_f, h0, h1⟩ := group_recurse_iteration_keys P EVR part part1 hit
      apply ih
      have := group_keys_card_lt part1.groups part.groups _ hsub h0 h1
      omega

/-- C37: the grouping loops end.  A turn of the loop of `group` or of
`group_recurse` that accepts a candidate adds no key to `groups` and erases
the key of the final stage of the merged producer, so the number of keys
goes down; hence with a bound on the turns above the number of entries of
`groups` (one turn for each possible merge and the last one, which accepts
nothing) both loops come to their end, with the fixed point or with a failed
assertion, and never use up the bound. -/
theorem grouping_terminates (P : Primitives) (EV : Partitioner → EvaluateChoice)
    (EVR : Partitioner → EvaluateChoiceRecurse) (level : Level) (tile_bounds : TileSizes)
    (part : Partitioner) (fuel : Nat) (hfuel : part.groups.length < fuel) :
    Partitioner.group P EV level tile_bounds fuel part ≠ Except.ok none ∧
    Partitioner.group_recurse P EVR fuel part ≠ Except.ok none ∧
    (∀ part1, (part.group_iteration P EV level tile_bounds = Except.ok (part1, false) ∨
        part.group_recurse_iteration P EVR = Except.ok (part1, false)) →
      (∀ k, map_find part1.groups k ≠ none → map_find part.groups k ≠ none) ∧
      (∃ prod_f : Function, map_find part.groups (⟨prod_f.name, prod_f.updates⟩ : FStage) ≠ none ∧
        map_find part1.groups (⟨prod_f.name, prod_f.updates⟩ : FStage) = none) ∧
      (part1.groups.map Prod.fst).toFinset.card < (part.groups.map Prod.fst).toFinset.card) := by
  have hcard : (part.groups.map Prod.fst).toFinset.card < fuel := by
    have h1 := List.toFinset_card_le (part.groups.map Prod.fst)
    rw [List.length_map] at h1
    omega
  refine ⟨group_ends P EV level tile_bounds fuel part hcard,
    group_recurse_ends P EVR fuel part hcard, ?_⟩
  intro part1 h
  have hk : (∀ k, map_find part1.groups k ≠ none → map_find part.groups k ≠ none) ∧
      ∃ prod_f : Function, map_find part.groups (⟨prod_f.name, prod_f.updates⟩ : FStage) ≠ none ∧
        map_find part1.groups (⟨prod_f.name, prod_f.updates⟩ : FStage) = none := by
    rcases h with h | h
    · exact group_iteration_keys P EV level tile_bounds part part1 h
    · exact group_recurse_iteration_keys P EVR part part1 h
  obtain ⟨hsub, prod_f, h0, h1⟩ := hk
  exact ⟨hsub, ⟨prod_f, h0, h1⟩, group_keys_card_lt _ _ _ hsub h0 h1⟩

theorem grouping_terminates_witness :
    example_part.groups.length < 4 ∧
    Except.map (Option.map (fun p : Partitioner => p.groups.map Prod.fst))
      (example_part.group Primitives.basic (fun _ => example_evaluate_choice) Level.FastMem []
        4) = Except.ok (some [⟨"g", 0⟩]) ∧
    example_part.group Primitives.basic (fun _ => example_evaluate_choice) Level.FastMem [] 4 ≠
      Except.ok none ∧
    example_part.group_recurse Primitives.basic (fun _ => example_evaluate_choice_recurse) 4 ≠
      Except.ok none :=
  ⟨by decide, by rfl,
    (grouping_terminates Primitives.basic (fun _ => example_evaluate_choice)
      (fun _ => example_evaluate_choice_recurse) Level.FastMem [] example_part 4
      (by decide)).1,
    (grouping_terminates Primitives.basic (fun _ => example_evaluate_choice)
      (fun _ => example_evaluate_choice_recurse) Level.FastMem [] example_part 4
      (by decide)).2.1⟩

/-! ### The regions computed twice -/

theorem shifted_bounds_find (var : String) :
    ∀ (bounds : DimBounds), (bounds.map Prod.fst).Nodup → ∀ (acc : DimBounds) (v : String),
      map_find
        (bounds.foldl
          (fun acc b =>
            if b.1 == var then
              map_assign string_lt b.1
                ⟨Expr.Add b.2.min (Expr.Add (Expr.Sub b.2.max b.2.min) (Expr.IntImm 1)),
                  Expr.Add b.2.max (Expr.Add (Expr.Sub b.2.max b.2.min) (Expr.IntImm 1))⟩ acc
            else map_assign string_lt b.1 b.2 acc)
          acc) v =
        (match map_find bounds v with
          | none => map_find acc v
          | some i =>
            some (if v = var then
              ⟨Expr.Add i.min (Expr.Add (Expr.Sub i.max i.min) (Expr.IntImm 1)),
                Expr.Add i.max (Expr.Add (Expr.Sub i.max i.min) (Expr.IntImm 1))⟩
            else i)) := by
  intro bounds
  induction bounds with
  | nil =>
    intro _ acc v
    simp [map_find]
  | cons b0 rest ih =>
    intro hnd acc v
    rw [List.map_cons, List.nodup_cons] at hnd
    have hrest : map_find rest b0.1 = none := by
      rw [map_find_eq_none_iff]
      intro e he heq
      exact hnd.1 (heq ▸ List.mem_map_of_mem Prod.fst he)
    rw [List.foldl_cons, ih hnd.2]
    obtain ⟨k0, i0⟩ := b0
    by_cases hv : k0 = v
    · subst hv
      simp only [] at hrest
      rw [hrest]
      simp only [map_find, if_true]
      by_cases hk : k0 = var
      · simp only [hk, beq_self_eq_true, if_true]
        rw [map_find_assign_self string_lt string_lt_irrefl string_lt_trichotomy]
      · have hb : (k0 == var) = false := by simpa using hk
        simp only [hb, Bool.false_eq_true, if_false, hk]
        rw [map_find_assign_self string_lt string_lt_irrefl string_lt_trichotomy]
    · have hfind : map_find ((k0, i0) :: rest) v = map_find rest v := by
        simp [map_find, hv]
      rw [hfind]
      have hacc : ∀ j : Interval, map_find (map_assign string_lt k0 j acc) v = map_find acc v :=
        fun j => map_find_assign_ne string_lt string_lt_trichotomy k0 v j
          (fun h => hv h.symm) acc
      have hstep : map_find
          (if (k0 == var) = true then
            map_assign string_lt k0
              ⟨Expr.Add i0.min (Expr.Add (Expr.Sub i0.max i0.min) (Expr.IntImm 1)),
                Expr.Add i0.max (Expr.Add (Expr.Sub i0.max i0.min) (Expr.IntImm 1))⟩ acc
          else map_assign string_lt k0 i0 acc) v = map_find acc v := by
        split
        · exact hacc _
        · exact hacc _
      simp only [] at hstep ⊢
      rw [hstep]

theorem overlaps_loop_find (mi : Interval → Interval → Interval)
    (regions_shifted : List (String × Box)) :
    ∀ (regions overlaps0 overlaps : List (String × Box)),
      overlaps_loop mi regions_shifted regions overlaps0 = Except.ok overlaps →
      ∀ k box, map_find overlaps k = some box →
        map_find overlaps0 k = some box ∨
          (map_find overlaps0 k = none ∧ ∃ b bs, map_find regions k = some b ∧
            map_find regions_shifted k = some bs ∧ b.length = bs.length ∧
            box = List.zipWith mi b bs) := by
  intro regions
  induction regions with
  | nil =>
    intro ov0 ov h k box hk
    simp only [overlaps_loop, Except.ok.injEq] at h
    rw [← h] at hk
    left; exact hk
  | cons reg rest ih =>
    intro ov0 ov h k box hk
    unfold overlaps_loop at h
    cases hs : map_find regions_shifted reg.1 with
    | none => rw [hs] at h; exact absurd h (by simp)
    | some bs =>
      rw [hs] at h
      simp only [] at h
      by_cases hlen : reg.2.length = bs.length
      · rw [if_neg (by simpa using hlen)] at h
        cases ho : map_find ov0 reg.1 with
        | some x =>
          rw [ho] at h
          simp at h
        | none =>
          rw [ho] at h
          simp only [Option.isSome_none, Bool.false_eq_true, if_false] at h
          obtain ⟨k0, b0⟩ := reg
          simp only [] at hs hlen ho h
          rcases ih _ ov h k box hk with h1 | ⟨h1, b, bs1, hb, hbs, hl, hbox⟩
          · by_cases hkk : k0 = k
            · subst hkk
              rw [map_find_emplace_self string_lt string_lt_trichotomy k0 _ ov0 ho] at h1
              simp only [Option.some.injEq] at h1
              right
              refine ⟨ho, b0, bs, ?_, hs, hlen, h1.symm⟩
              simp [map_find]
            · left
              rw [map_find_emplace_ne string_lt k0 k _ hkk ov0] at h1
              exact h1
          · have hkk : k0 ≠ k := by
              intro heq
              subst heq
              rw [map_find_emplace_self string_lt string_lt_trichotomy k0 _ ov0 ho] at h1
              exact absurd h1 (by simp)
            right
            rw [map_find_emplace_ne string_lt k0 k _ hkk ov0] at h1
            refine ⟨h1, b, bs1, ?_, hbs, hl, hbox⟩
            simp [map_find, hkk, hb]
      · rw [if_pos (by simpa using hlen)] at h
        exact absurd h (by simp)

/-- C31: `redundant_regions`.  A call that returns has made the two queries
of `regions_required`, for the bounds and for the bounds shifted along `var`
by `max - min + 1`; every function of its result is a function of the first
query and of the second, with boxes of one length there, and each interval of
its box is the simplified `make_intersection` of the two intervals at that
position.  With a sound simplifier and a `make_intersection` that takes, of
bounded intervals, the larger lower bound and the smaller upper bound, each
such interval lies within the interval of `regions_required` for the bounds
and within that for the shifted bounds. -/
theorem redundant_regions_contained {ε : Type} (DA : DependenceAnalysis ε) (P : Primitives)
    (mi : Interval → Interval → Interval) (fuel : Nat) (cache : RegionsCache) (f : String)
    (stage_num : Nat) (var : String) (bounds : DimBounds) (prods : List String) (orc : Bool)
    (overlaps : List (String × Box)) (cache2 : RegionsCache)
    (h : DA.redundant_regions P mi fuel cache f stage_num var bounds prods orc =
      Except.ok (overlaps, cache2)) :
    ∃ regions cache1 regions_shifted,
      DA.regions_required P fuel cache f stage_num bounds prods orc =
        Except.ok (regions, cache1) ∧
      DA.regions_required P fuel cache1 f stage_num (shifted_bounds var bounds) prods orc =
        Except.ok (regions_shifted, cache2) ∧
      ((bounds.map Prod.fst).Nodup → ∀ v,
        map_find (shifted_bounds var bounds) v =
          (map_find bounds v).map (fun i =>
            if v = var then
              ⟨Expr.Add i.min (Expr.Add (Expr.Sub i.max i.min) (Expr.IntImm 1)),
                Expr.Add i.max (Expr.Add (Expr.Sub i.max i.min) (Expr.IntImm 1))⟩
            else i)) ∧
      (∀ k box, map_find overlaps k = some box →
        ∃ b bs, map_find regions k = some b ∧ map_find regions_shifted k = some bs ∧
          b.length = bs.length ∧ box.length = b.length ∧
          ∀ (i : Nat) (x y : Interval), b[i]? = some x → bs[i]? = some y →
            box[i]? = some ⟨P.simplify (mi x y).min, P.simplify (mi x y).max⟩) ∧
      (P.simplify_sound →
        (∀ (a b : Interval) (env : String → Int), a.is_bounded = true → b.is_bounded = true →
          (mi a b).min.eval env = max (a.min.eval env) (b.min.eval env) ∧
          (mi a b).max.eval env = min (a.max.eval env) (b.max.eval env)) →
        ∀ (k : String) (box b bs : Box) (i : Nat) (x y z : Interval),
          map_find overlaps k = some box → map_find regions k = some b →
          map_find regions_shifted k = some bs → b[i]? = some x → bs[i]? = some y →
          box[i]? = some z → x.is_bounded = true → y.is_bounded = true →
          ∀ env : String → Int,
            x.min.eval env ≤ z.min.eval env ∧ z.max.eval env ≤ x.max.eval env ∧
            y.min.eval env ≤ z.min.eval env ∧ z.max.eval env ≤ y.max.eval env) := by
  unfold DependenceAnalysis.redundant_regions at h
  cases h1 : DA.regions_required P fuel cache f stage_num bounds prods orc with
  | error e => rw [h1] at h; exact absurd h (by simp)
  | ok r1 =>
    obtain ⟨regions, cache1⟩ := r1
    rw [h1] at h
    simp only [] at h
    cases h2 : DA.regions_required P fuel cache1 f stage_num (shifted_bounds var bounds) prods
        orc with
    | error e => rw [h2] at h; exact absurd h (by simp)
    | ok r2 =>
      obtain ⟨regions_shifted, c2⟩ := r2
      rw [h2] at h
      simp only [] at h
      cases h3 : overlaps_loop mi regions_shifted regions [] with
      | error e => rw [h3] at h; exact absurd h (by simp)
      | ok ov =>
        rw [h3] at h
        simp only [Except.ok.injEq, Prod.mk.injEq] at h
        obtain ⟨hov, hc⟩ := h
        subst hc
        have hfind : ∀ k box, map_find overlaps k = some box →
            ∃ b bs, map_find regions k = some b ∧ map_find regions_shifted k = some bs ∧
              b.length = bs.length ∧ box = simplify_box P (List.zipWith mi b bs) := by
          intro k box hk
          rw [← hov, map_find_map_values (fun o : String × Box => (o.1, simplify_box P o.2))
            (simplify_box P) (fun _ => rfl) k ov] at hk
          cases hk0 : map_find ov k with
          | none => rw [hk0] at hk; exact absurd hk (by simp)
          | some box0 =>
            rw [hk0] at hk
            simp only [Option.map_some', Option.some.injEq] at hk
            rcases overlaps_loop_find mi regions_shifted regions [] ov h3 k box0 hk0 with
              hnil | ⟨_, b, bs, hb, hbs, hl, hbox⟩
            · simp [map_find] at hnil
            · exact ⟨b, bs, hb, hbs, hl, by rw [← hk, hbox]⟩
        have hpos : ∀ (b bs : Box) (i : Nat) (x y : Interval), b[i]? = some x →
            bs[i]? = some y →
            (simplify_box P (List.zipWith mi b bs))[i]? =
              some ⟨P.simplify (mi x y).min, P.simplify (mi x y).max⟩ := by
          intro b bs i x y hx hy
          unfold simplify_box
          rw [List.getElem?_map, List.getElem?_zipWith, hx, hy]
          rfl
        refine ⟨regions, cache1, regions_shifted, rfl, h2, ?_, ?_, ?_⟩
        · intro hnd v
          unfold shifted_bounds
          rw [shifted_bounds_find var bounds hnd [] v]
          cases map_find bounds v with
          | none => simp [map_find]
          | some i => simp
        · intro k box hk
          obtain ⟨b, bs, hb, hbs, hl, hbox⟩ := hfind k box hk
          refine ⟨b, bs, hb, hbs, hl, ?_, ?_⟩
          · rw [hbox]
            simp [simplify_box, hl]
          · intro i x y hx hy
            rw [hbox]
            exact hpos b bs i x y hx hy
        · intro hs hmi k box b bs i x y z hk hb hbs hx hy hz hxb hyb env
          obtain ⟨b1, bs1, hb1, hbs1, _, hbox⟩ := hfind k box hk
          rw [hb] at hb1
          rw [hbs] at hbs1
          simp only [Option.some.injEq] at hb1 hbs1
          subst hb1 hbs1
          rw [hbox, hpos b bs i x y hx hy] at hz
          simp only [Option.some.injEq] at hz
          rw [← hz]
          simp only [hs env]
          obtain ⟨e1, e2⟩ := hmi x y env hxb hyb
          rw [e1, e2]
          exact ⟨le_max_left _ _, min_le_left _ _, le_max_right _ _, min_le_right _ _⟩

theorem redundant_regions_contained_witness :
    example_dependence.redundant_regions Primitives.basic example_make_intersection 2 [] "f" 0
      "x" [("x", example_interval 0 9)] ["g"] true =
      Except.ok ([("g", [example_interval 10 9])],
        [(⟨"f", 0, ["g"], true⟩,
          [⟨[("x", example_interval 0 9)], [("g", [example_interval 0 9])]⟩,
            ⟨[("x", ⟨Expr.Add (Expr.IntImm 0)
                (Expr.Add (Expr.Sub (Expr.IntImm 9) (Expr.IntImm 0)) (Expr.IntImm 1)),
              Expr.Add (Expr.IntImm 9)
                (Expr.Add (Expr.Sub (Expr.IntImm 9) (Expr.IntImm 0)) (Expr.IntImm 1))⟩)],
              [("g", [example_interval 10 19])]⟩])]) ∧
    ∃ regions cache1 regions_shifted,
      example_dependence.regions_required Primitives.basic 2 [] "f" 0
        [("x", example_interval 0 9)] ["g"] true = Except.ok (regions, cache1) ∧
      example_dependence.regions_required Primitives.basic 2 cache1 "f" 0
        (shifted_bounds "x" [("x", example_interval 0 9)]) ["g"] true =
        Except.ok (regions_shifted,
          [(⟨"f", 0, ["g"], true⟩,
            [⟨[("x", example_interval 0 9)], [("g", [example_interval 0 9])]⟩,
              ⟨[("x", ⟨Expr.Add (Expr.IntImm 0)
                  (Expr.Add (Expr.Sub (Expr.IntImm 9) (Expr.IntImm 0)) (Expr.IntImm 1)),
                Expr.Add (Expr.IntImm 9)
                  (Expr.Add (Expr.Sub (Expr.IntImm 9) (Expr.IntImm 0)) (Expr.IntImm 1))⟩)],
                [("g", [example_interval 10 19])]⟩])]) ∧
      ∀ k box, map_find [("g", [example_interval 10 9])] k = some box →
        ∃ b bs, map_find regions k = some b ∧ map_find regions_shifted k = some bs ∧
          b.length = bs.length ∧ box.length = b.length ∧
          ∀ (i : Nat) (x y : Interval), b[i]? = some x → bs[i]? = some y →
            box[i]? = some ⟨Primitives.basic.simplify (example_make_intersection x y).min,
              Primitives.basic.simplify (example_make_intersection x y).max⟩ :=
  ⟨by decide,
    (redundant_regions_contained example_dependence Primitives.basic example_make_intersection
        2 [] "f" 0 "x" [("x", example_interval 0 9)] ["g"] true
        [("g", [example_interval 10 9])]
        [(⟨"f", 0, ["g"], true⟩,
          [⟨[("x", example_interval 0 9)], [("g", [example_interval 0 9])]⟩,
            ⟨[("x", ⟨Expr.Add (Expr.IntImm 0)
                (Expr.Add (Expr.Sub (Expr.IntImm 9) (Expr.IntImm 0)) (Expr.IntImm 1)),
              Expr.Add (Expr.IntImm 9)
                (Expr.Add (Expr.Sub (Expr.IntImm 9) (Expr.IntImm 0)) (Expr.IntImm 1))⟩)],
              [("g", [example_interval 10 19])]⟩])]
        (by decide)).imp
      (fun _ h1 => h1.imp (fun _ h2 => h2.imp (fun _ h3 => ⟨h3.1, h3.2.1, h3.2.2.2.1⟩)))⟩

/-! ### Containment is an order -/

theorem bound_value_neg_inf (env : String → Int) : Interval.neg_inf.bound_value env = ⊥ := by
  simp [Expr.bound_value]

theorem bound_value_pos_inf (env : String → Int) : Interval.pos_inf.bound_value env = ⊤ := by
  have h : Interval.pos_inf ≠ Interval.neg_inf := by decide
  simp [Expr.bound_value, h]

theorem Interval_subset_refl (a : Interval) : a.subset a :=
  fun _ => ⟨le_refl _, le_refl _⟩

theorem Interval_subset_trans (a b c : Interval) (h1 : a.subset b) (h2 : b.subset c) :
    a.subset c :=
  fun env => ⟨le_trans (h2 env).1 (h1 env).1, le_trans (h1 env).2 (h2 env).2⟩

theorem box_subset_refl (a : Box) : box_subset a a :=
  fun _ x hx => ⟨x, hx, Interval_subset_refl x⟩

theorem box_subset_trans (a b c : Box) (h1 : box_subset a b) (h2 : box_subset b c) :
    box_subset a c := by
  intro i x hx
  obtain ⟨y, hy, hxy⟩ := h1 i x hx
  obtain ⟨z, hz, hyz⟩ := h2 i y hy
  exact ⟨z, hz, Interval_subset_trans _ _ _ hxy hyz⟩

theorem map_le_refl {κ ν : Type} [DecidableEq κ] (le : ν → ν → Prop) (hrefl : ∀ v, le v v)
    (m : List (κ × ν)) : map_le le m m :=
  fun _ v hv => ⟨v, hv, hrefl v⟩

theorem map_le_trans {κ ν : Type} [DecidableEq κ] (le : ν → ν → Prop)
    (htrans : ∀ a b c, le a b → le b c → le a c) (m1 m2 m3 : List (κ × ν))
    (h1 : map_le le m1 m2) (h2 : map_le le m2 m3) : map_le le m1 m3 := by
  intro k v1 hv1
  obtain ⟨v2, hv2, h12⟩ := h1 k v1 hv1
  obtain ⟨v3, hv3, h23⟩ := h2 k v2 hv2
  exact ⟨v3, hv3, htrans _ _ _ h12 h23⟩

theorem bounds_subset_refl (b : DimBounds) : bounds_subset b b :=
  map_le_refl _ Interval_subset_refl b

theorem bounds_subset_trans (a b c : DimBounds) (h1 : bounds_subset a b)
    (h2 : bounds_subset b c) : bounds_subset a c :=
  map_le_trans _ Interval_subset_trans a b c h1 h2

theorem regions_subset_refl (r : List (String × Box)) : regions_subset r r :=
  map_le_refl _ box_subset_refl r

theorem regions_subset_trans (a b c : List (String × Box)) (h1 : regions_subset a b)
    (h2 : regions_subset b c) : regions_subset a c :=
  map_le_trans _ box_subset_trans a b c h1 h2

theorem queue_subset_refl (q : List (FStage × DimBounds)) : queue_subset q q :=
  map_le_refl _ bounds_subset_refl q

theorem queue_subset_trans (a b c : List (FStage × DimBounds)) (h1 : queue_subset a b)
    (h2 : queue_subset b c) : queue_subset a c :=
  map_le_trans _ bounds_subset_trans a b c h1 h2

/-- A map into which a key is assigned a value above the one it has, if any,
lies above the map. -/
theorem map_le_assign_right {κ ν : Type} [DecidableEq κ] (lt : κ → κ → Bool)
    (hirr : ∀ a : κ, lt a a = false)
    (htri : ∀ a b : κ, lt a b = false → lt b a = false → a = b) (le : ν → ν → Prop)
    (hrefl : ∀ v, le v v) (m : List (κ × ν)) (k : κ) (v : ν)
    (h : ∀ v0, map_find m k = some v0 → le v0 v) : map_le le m (map_assign lt k v m) := by
  intro k2 v2 hv2
  by_cases hk : k2 = k
  · subst hk
    exact ⟨v, map_find_assign_self lt hirr htri _ _ _, h v2 hv2⟩
  · rw [map_find_assign_ne lt htri k k2 v hk m]
    exact ⟨v2, hv2, hrefl v2⟩

/-- A map with a further key lies above the map. -/
theorem map_le_emplace_right {κ ν : Type} [DecidableEq κ] (lt : κ → κ → Bool)
    (le : ν → ν → Prop) (hrefl : ∀ v, le v v) (m : List (κ × ν)) (k : κ) (v : ν)
    (h : map_find m k = none) : map_le le m (map_emplace lt k v m) := by
  intro k2 v2 hv2
  have hk : k ≠ k2 := by
    intro heq
    rw [heq] at h
    rw [h] at hv2
    exact absurd hv2 (by simp)
  rw [map_find_emplace_ne lt k k2 v hk m]
  exact ⟨v2, hv2, hrefl v2⟩

/-- A map stays below another one when a key is assigned a value that is below
the value of the other map there. -/
theorem map_le_assign_left {κ ν : Type} [DecidableEq κ] (lt : κ → κ → Bool)
    (hirr : ∀ a : κ, lt a a = false)
    (htri : ∀ a b : κ, lt a b = false → lt b a = false → a = b) (le : ν → ν → Prop)
    (m x : List (κ × ν)) (k : κ) (v : ν) (hm : map_le le m x)
    (h : ∃ vx, map_find x k = some vx ∧ le v vx) : map_le le (map_assign lt k v m) x := by
  intro k2 v2 hv2
  by_cases hk : k2 = k
  · subst hk
    rw [map_find_assign_self lt hirr htri] at hv2
    simp only [Option.some.injEq] at hv2
    rw [← hv2]
    exact h
  · rw [map_find_assign_ne lt htri k k2 v hk m] at hv2
    exact hm k2 v2 hv2

theorem map_le_emplace_left {κ ν : Type} [DecidableEq κ] (lt : κ → κ → Bool)
    (htri : ∀ a b : κ, lt a b = false → lt b a = false → a = b) (le : ν → ν → Prop)
    (m x : List (κ × ν)) (k : κ) (v : ν) (hm : map_le le m x) (hnone : map_find m k = none)
    (h : ∃ vx, map_find x k = some vx ∧ le v vx) : map_le le (map_emplace lt k v m) x := by
  intro k2 v2 hv2
  by_cases hk : k = k2
  · subst hk
    rw [map_find_emplace_self lt htri k v m hnone] at hv2
    simp only [Option.some.injEq] at hv2
    rw [← hv2]
    exact h
  · rw [map_find_emplace_ne lt k k2 v hk m] at hv2
    exact hm k2 v2 hv2

/-! ### The primitives and the order -/

theorem scope_interval_mono {ε : Type} (DA : DependenceAnalysis ε) (P : Primitives)
    (hm : MonotonePrimitives DA P) (i1 i2 : Interval) (h : i1.subset i2) :
    Interval.subset
      ⟨P.simplify (DA.substitute_var_estimates i1.min),
        P.simplify (DA.substitute_var_estimates i1.max)⟩
      ⟨P.simplify (DA.substitute_var_estimates i2.min),
        P.simplify (DA.substitute_var_estimates i2.max)⟩ := by
  intro env
  simp only [hm.simplify_value]
  exact ⟨hm.substitute_mono _ _ (fun e => (h e).1) env,
    hm.substitute_mono _ _ (fun e => (h e).2) env⟩

theorem simplify_interval_mono {ε : Type} (DA : DependenceAnalysis ε) (P : Primitives)
    (hm : MonotonePrimitives DA P) (i1 i2 : Interval) (h : i1.subset i2) :
    Interval.subset ⟨P.simplify i1.min, P.simplify i1.max⟩
      ⟨P.simplify i2.min, P.simplify i2.max⟩ := by
  intro env
  simp only [hm.simplify_value]
  exact h env

theorem queue_merge_interval_value {ε : Type} (DA : DependenceAnalysis ε) (P : Primitives)
    (hm : MonotonePrimitives DA P) (c b : Interval) (env : String → Int) :
    (queue_merge_interval DA P c b).min.bound_value env =
      min (c.min.bound_value env) (b.min.bound_value env) ∧
    (queue_merge_interval DA P c b).max.bound_value env =
      max (c.max.bound_value env) (b.max.bound_value env) := by
  unfold queue_merge_interval
  constructor
  · by_cases h1 : c.min = Interval.neg_inf
    · simp [Interval.has_lower_bound, h1, bound_value_neg_inf]
    · by_cases h2 : b.min = Interval.neg_inf
      · simp [Interval.has_lower_bound, h2, bound_value_neg_inf]
      · simp only [Interval.has_lower_bound, h1, h2, decide_False, Bool.not_false,
          Bool.and_self, if_true]
        rw [hm.simplify_value, hm.make_min_value _ _ env h1 h2]
  · by_cases h1 : c.max = Interval.pos_inf
    · simp [Interval.has_upper_bound, h1, bound_value_pos_inf]
    · by_cases h2 : b.max = Interval.pos_inf
      · simp [Interval.has_upper_bound, h2, bound_value_pos_inf]
      · simp only [Interval.has_upper_bound, h1, h2, decide_False, Bool.not_false,
          Bool.and_self, if_true]
        rw [hm.simplify_value, hm.make_max_value _ _ env h1 h2]

theorem queue_merge_interval_left {ε : Type} (DA : DependenceAnalysis ε) (P : Primitives)
    (hm : MonotonePrimitives DA P) (c b : Interval) :
    c.subset (queue_merge_interval DA P c b) := by
  intro env
  obtain ⟨h1, h2⟩ := queue_merge_interval_value DA P hm c b env
  rw [h1, h2]
  exact ⟨min_le_left _ _, le_max_left _ _⟩

theorem queue_merge_interval_right {ε : Type} (DA : DependenceAnalysis ε) (P : Primitives)
    (hm : MonotonePrimitives DA P) (c b : Interval) :
    b.subset (queue_merge_interval DA P c b) := by
  intro env
  obtain ⟨h1, h2⟩ := queue_merge_interval_value DA P hm c b env
  rw [h1, h2]
  exact ⟨min_le_right _ _, le_max_right _ _⟩

theorem queue_merge_interval_least {ε : Type} (DA : DependenceAnalysis ε) (P : Primitives)
    (hm : MonotonePrimitives DA P) (c b x : Interval) (hc : c.subset x) (hb : b.subset x) :
    (queue_merge_interval DA P c b).subset x := by
  intro env
  obtain ⟨h1, h2⟩ := queue_merge_interval_value DA P hm c b env
  rw [h1, h2]
  exact ⟨le_min (hc env).1 (hb env).1, max_le (hc env).2 (hb env).2⟩

/-! ### The merge of queued bounds and the order -/

theorem merge_queued_bounds_left {ε : Type} (DA : DependenceAnalysis ε) (P : Primitives)
    (hm : MonotonePrimitives DA P) (curr bounds : DimBounds)
    (hnd : (bounds.map Prod.fst).Nodup) :
    bounds_subset curr (merge_queued_bounds DA P curr bounds) := by
  intro v c hc
  rw [merge_queued_bounds_find DA P bounds hnd curr v, hc]
  cases hb : map_find bounds v with
  | none => exact ⟨c, rfl, Interval_subset_refl c⟩
  | some b => exact ⟨_, rfl, queue_merge_interval_left DA P hm c b⟩

theorem merge_queued_bounds_right {ε : Type} (DA : DependenceAnalysis ε) (P : Primitives)
    (hm : MonotonePrimitives DA P) (curr bounds : DimBounds)
    (hnd : (bounds.map Prod.fst).Nodup) :
    bounds_subset bounds (merge_queued_bounds DA P curr bounds) := by
  intro v b hb
  rw [merge_queued_bounds_find DA P bounds hnd curr v, hb]
  cases hc : map_find curr v with
  | none => exact ⟨b, rfl, Interval_subset_refl b⟩
  | some c => exact ⟨_, rfl, queue_merge_interval_right DA P hm c b⟩

theorem merge_queued_bounds_least {ε : Type} (DA : DependenceAnalysis ε) (P : Primitives)
    (hm : MonotonePrimitives DA P) (curr bounds x : DimBounds)
    (hnd : (bounds.map Prod.fst).Nodup) (hc : bounds_subset curr x)
    (hb : bounds_subset bounds x) :
    bounds_subset (merge_queued_bounds DA P curr bounds) x := by
  intro v m hv
  rw [merge_queued_bounds_find DA P bounds hnd curr v] at hv
  cases hbv : map_find bounds v with
  | none =>
    rw [hbv] at hv
    exact hc v m hv
  | some b =>
    rw [hbv] at hv
    obtain ⟨xb, hxb, hbx⟩ := hb v b hbv
    cases hcv : map_find curr v with
    | none =>
      rw [hcv] at hv
      simp only [Option.some.injEq] at hv
      rw [← hv]
      exact ⟨xb, hxb, hbx⟩
    | some c =>
      rw [hcv] at hv
      simp only [Option.some.injEq] at hv
      rw [← hv]
      obtain ⟨xc, hxc, hcx⟩ := hc v c hcv
      rw [hxb] at hxc
      simp only [Option.some.injEq] at hxc
      subst hxc
      exact ⟨xb, hxb, queue_merge_interval_least DA P hm c b xb hcx hbx⟩

/-! ### The queue and the order -/

theorem map_le_assign_both {κ ν : Type} [DecidableEq κ] (lt : κ → κ → Bool)
    (hirr : ∀ a : κ, lt a a = false)
    (htri : ∀ a b : κ, lt a b = false → lt b a = false → a = b) (le : ν → ν → Prop)
    (m1 m2 : List (κ × ν)) (k : κ) (v1 v2 : ν) (hm : map_le le m1 m2) (hv : le v1 v2) :
    map_le le (map_assign lt k v1 m1) (map_assign lt k v2 m2) := by
  intro k2 w hw
  by_cases hk : k2 = k
  · subst hk
    rw [map_find_assign_self lt hirr htri] at hw
    simp only [Option.some.injEq] at hw
    rw [← hw]
    exact ⟨v2, map_find_assign_self lt hirr htri _ _ _, hv⟩
  · rw [map_find_assign_ne lt htri k k2 v1 hk m1] at hw
    rw [map_find_assign_ne lt htri k k2 v2 hk m2]
    exact hm k2 w hw

theorem map_le_erase_right {κ ν : Type} [DecidableEq κ] (le : ν → ν → Prop)
    (m1 m2 : List (κ × ν)) (k : κ) (hm : map_le le m1 m2) (hk : map_find m1 k = none) :
    map_le le m1 (map_erase m2 k) := by
  intro k2 w hw
  have hne : k2 ≠ k := by
    intro heq
    rw [heq, hk] at hw
    exact absurd hw (by simp)
  rw [map_find_erase_ne k2 k hne]
  exact hm k2 w hw

theorem map_le_erase_both {κ ν : Type} [DecidableEq κ] (le : ν → ν → Prop)
    (m1 m2 : List (κ × ν)) (k : κ) (hm : map_le le m1 m2) :
    map_le le (map_erase m1 k) (map_erase m2 k) := by
  intro k2 w hw
  by_cases hne : k2 = k
  · rw [hne, map_find_erase_self] at hw
    exact absurd hw (by simp)
  · rw [map_find_erase_ne k2 k hne] at hw
    rw [map_find_erase_ne k2 k hne]
    exact hm k2 w hw

theorem box_subset_forall₂ : ∀ (a b : Box), box_subset a b → a.length = b.length →
    List.Forall₂ Interval.subset a b := by
  intro a
  induction a with
  | nil =>
    intro b _ hl
    cases b with
    | nil => exact List.Forall₂.nil
    | cons y ys => simp at hl
  | cons x xs ih =>
    intro b hs hl
    cases b with
    | nil => simp at hl
    | cons y ys =>
      refine List.Forall₂.cons ?_ (ih ys ?_ (by simpa using hl))
      · obtain ⟨y1, hy1, hxy⟩ := hs 0 x (by simp)
        simp only [List.getElem?_cons_zero, Option.some.injEq] at hy1
        rw [hy1]
        exact hxy
      · intro i z hz
        have := hs (i + 1) z (by simpa using hz)
        simpa using this

theorem forall₂_box_subset (a b : Box) (h : List.Forall₂ Interval.subset a b) :
    box_subset a b := by
  induction h with
  | nil => intro i x hx; simp at hx
  | cons hxy _ ih =>
    intro i x hx
    cases i with
    | zero =>
      simp only [List.getElem?_cons_zero, Option.some.injEq] at hx
      rw [← hx]
      exact ⟨_, by simp, hxy⟩
    | succ n =>
      simp only [List.getElem?_cons_succ] at hx ⊢
      exact ih n x hx

theorem pure_bounds_fold_mono : ∀ (args : List String) (b1 b2 : Box) (acc1 acc2 : DimBounds),
    List.Forall₂ Interval.subset b1 b2 → bounds_subset acc1 acc2 →
    bounds_subset
      ((args.zip b1).foldl (fun m ar => map_assign string_lt ar.1 ar.2 m) acc1)
      ((args.zip b2).foldl (fun m ar => map_assign string_lt ar.1 ar.2 m) acc2) := by
  intro args
  induction args with
  | nil => intro b1 b2 acc1 acc2 _ hacc; simpa using hacc
  | cons a rest ih =>
    intro b1 b2 acc1 acc2 hb hacc
    cases hb with
    | nil => simpa using hacc
    | cons hxy htl =>
      simp only [List.zip_cons_cons, List.foldl_cons]
      exact ih _ _ _ _ htl
        (map_le_assign_both string_lt string_lt_irrefl string_lt_trichotomy _ _ _ a _ _
          hacc hxy)

theorem prod_pure_bounds_mono {ε : Type} (DA : DependenceAnalysis ε) (name : String)
    (b1 b2 : Box) (hb : box_subset b1 b2) (hl : b1.length = b2.length) :
    bounds_subset (prod_pure_bounds DA name b1) (prod_pure_bounds DA name b2) :=
  pure_bounds_fold_mono _ b1 b2 [] [] (box_subset_forall₂ b1 b2 hb hl) (bounds_subset_refl [])

theorem prod_pure_bounds_nodup {ε : Type} (DA : DependenceAnalysis ε) (name : String)
    (region : Box) : ((prod_pure_bounds DA name region).map Prod.fst).Nodup := by
  apply sorted_keys_nodup
  unfold prod_pure_bounds
  exact foldl_invariant (fun m : DimBounds => m.Pairwise (fun a b => string_lt a.1 b.1 = true))
    (fun (m : DimBounds) (ar : String × Interval) => map_assign string_lt ar.1 ar.2 m)
    _ [] List.Pairwise.nil
    (fun m ar _ hm => map_assign_sorted string_lt
      (fun a b c h1 h2 => chars_lt_trans _ _ _ h1 h2) string_lt_trichotomy ar.1 ar.2 m hm)

theorem queue_stage_extensive {ε : Type} (DA : DependenceAnalysis ε) (P : Primitives)
    (hm : MonotonePrimitives DA P) (visited : List StageBounds) (name : String)
    (pb : List DimBounds) (fs : List (FStage × DimBounds)) (s : Nat)
    (hnd : ((pb.getD s []).map Prod.fst).Nodup) :
    queue_subset fs (queue_stage DA P visited name pb fs s) := by
  unfold queue_stage
  split
  · exact queue_subset_refl fs
  · cases hq : map_find fs ⟨name, s⟩ with
    | none =>
      exact map_le_emplace_right FStage.lt _ bounds_subset_refl fs _ _ hq
    | some curr =>
      refine map_le_assign_right FStage.lt FStage_lt_irrefl FStage_lt_trichotomy _
        bounds_subset_refl fs _ _ ?_
      intro v0 hv0
      rw [hq] at hv0
      simp only [Option.some.injEq] at hv0
      rw [← hv0]
      exact merge_queued_bounds_left DA P hm curr _ hnd

theorem queue_stage_holds {ε : Type} (DA : DependenceAnalysis ε) (P : Primitives)
    (hm : MonotonePrimitives DA P) (visited : List StageBounds) (name : String)
    (pb : List DimBounds) (fs : List (FStage × DimBounds)) (s : Nat)
    (hnd : ((pb.getD s []).map Prod.fst).Nodup)
    (hvis : visited_find visited ⟨⟨name, s⟩, pb.getD s []⟩ = false) :
    ∃ e, map_find (queue_stage DA P visited name pb fs s) ⟨name, s⟩ = some e ∧
      bounds_subset (pb.getD s []) e := by
  unfold queue_stage
  simp only [hvis, Bool.false_eq_true, if_false]
  cases hq : map_find fs ⟨name, s⟩ with
  | none =>
    exact ⟨_, map_find_emplace_self FStage.lt FStage_lt_trichotomy _ _ fs hq,
      bounds_subset_refl _⟩
  | some curr =>
    exact ⟨_, map_find_assign_self FStage.lt FStage_lt_irrefl FStage_lt_trichotomy _ _ _,
      merge_queued_bounds_right DA P hm curr _ hnd⟩

theorem queue_stage_below {ε : Type} (DA : DependenceAnalysis ε) (P : Primitives)
    (hm : MonotonePrimitives DA P) (visited : List StageBounds) (name : String)
    (pb : List DimBounds) (fs x : List (FStage × DimBounds)) (s : Nat)
    (hnd : ((pb.getD s []).map Prod.fst).Nodup) (hfs : queue_subset fs x)
    (hx : ∃ xb, map_find x ⟨name, s⟩ = some xb ∧ bounds_subset (pb.getD s []) xb) :
    queue_subset (queue_stage DA P visited name pb fs s) x := by
  unfold queue_stage
  split
  · exact hfs
  · cases hq : map_find fs ⟨name, s⟩ with
    | none =>
      exact map_le_emplace_left FStage.lt FStage_lt_trichotomy _ fs x _ _ hfs hq hx
    | some curr =>
      refine map_le_assign_left FStage.lt FStage_lt_irrefl FStage_lt_trichotomy _ fs x _ _
        hfs ?_
      obtain ⟨xb, hxb, hle⟩ := hx
      obtain ⟨xc, hxc, hcle⟩ := hfs _ curr hq
      rw [hxb] at hxc
      simp only [Option.some.injEq] at hxc
      subst hxc
      exact ⟨xb, hxb, merge_queued_bounds_least DA P hm curr _ xb hnd hcle hle⟩

/-- A property of the queue that the queueing of each stage of the producer
keeps holds after `queue_func_regions`. -/
theorem queue_func_regions_inv {ε : Type} (DA : DependenceAnalysis ε) (P : Primitives)
    (IQ : List (FStage × DimBounds) → Prop) (fs fs1 : List (FStage × DimBounds))
    (prod_func : Function) (region : Box) (visited : List StageBounds)
    (hq : region.length = (DA.args prod_func.name).length →
      ∀ (q : List (FStage × DimBounds)) (s : Nat), s < prod_func.updates + 1 → IQ q →
        IQ (queue_stage DA P visited prod_func.name
          (DA.get_stage_bounds prod_func.name (prod_pure_bounds DA prod_func.name region)) q s))
    (h0 : IQ fs)
    (h : queue_func_regions DA P fs prod_func region visited = Except.ok fs1) : IQ fs1 := by
  unfold queue_func_regions at h
  split at h
  · exact absurd h (by simp)
  · next hlen =>
    simp only [] at h
    split at h
    · exact absurd h (by simp)
    · simp only [Except.ok.injEq] at h
      rw [← h]
      refine foldl_invariant IQ _ _ fs h0 ?_
      intro q s hs hq0
      exact hq (by simpa using hlen) q s (List.mem_range.mp hs) hq0

theorem queue_stages_holds {ε : Type} (DA : DependenceAnalysis ε) (P : Primitives)
    (hm : MonotonePrimitives DA P) (visited : List StageBounds) (name : String)
    (pb : List DimBounds) (hnd : ∀ s, ((pb.getD s []).map Prod.fst).Nodup)
    (hvis : ∀ s b, visited_find visited ⟨⟨name, s⟩, b⟩ = false) :
    ∀ (stages : List Nat) (fs : List (FStage × DimBounds)), ∀ s ∈ stages,
      ∃ e, map_find (stages.foldl (queue_stage DA P visited name pb) fs) ⟨name, s⟩ = some e ∧
        bounds_subset (pb.getD s []) e := by
  intro stages
  induction stages with
  | nil => intro fs s hs; simp at hs
  | cons a rest ih =>
    intro fs s hs
    rw [List.foldl_cons]
    by_cases hin : s ∈ rest
    · exact ih _ s hin
    · have hsa : s = a := by
        rcases List.mem_cons.mp hs with h1 | h1
        · exact h1
        · exact absurd h1 hin
      subst hsa
      refine foldl_invariant
        (fun q : List (FStage × DimBounds) =>
          ∃ e, map_find q (⟨name, s⟩ : FStage) = some e ∧ bounds_subset (pb.getD s []) e)
        _ rest _ (queue_stage_holds DA P hm visited name pb fs s (hnd s) (hvis s _)) ?_
      intro q s2 _ hq
      obtain ⟨e, he, hle⟩ := hq
      obtain ⟨e2, he2, hle2⟩ := queue_stage_extensive DA P hm visited name pb q s2 (hnd s2) _ e he
      exact ⟨e2, he2, bounds_subset_trans _ _ _ hle hle2⟩

/-- A producer that is queued has each of its stages in the queue, with
bounds that hold those of the region. -/
theorem queue_func_regions_holds {ε : Type} (DA : DependenceAnalysis ε) (P : Primitives)
    (hm : MonotonePrimitives DA P) (fs fs1 : List (FStage × DimBounds))
    (prod_func : Function) (region : Box) (visited : List StageBounds)
    (hvis : ∀ s b, visited_find visited ⟨⟨prod_func.name, s⟩, b⟩ = false)
    (h : queue_func_regions DA P fs prod_func region visited = Except.ok fs1) :
    region.length = (DA.args prod_func.name).length ∧
    ∀ s, s < prod_func.updates + 1 →
      ∃ e, map_find fs1 ⟨prod_func.name, s⟩ = some e ∧
        bounds_subset
          ((DA.get_stage_bounds prod_func.name
            (prod_pure_bounds DA prod_func.name region)).getD s []) e := by
  unfold queue_func_regions at h
  split at h
  · exact absurd h (by simp)
  · next hlen =>
    simp only [] at h
    split at h
    · exact absurd h (by simp)
    · simp only [Except.ok.injEq] at h
      rw [← h]
      refine ⟨by simpa using hlen, ?_⟩
      intro s hs
      exact queue_stages_holds DA P hm visited prod_func.name _
        (fun s2 => hm.get_stage_bounds_keys _ _ (prod_pure_bounds_nodup DA _ region) s2)
        hvis _ fs s (List.mem_range.mpr hs)

/-! ### The regions and the order -/

theorem map_emplace_sorted {κ ν : Type} (lt : κ → κ → Bool)
    (htrans : ∀ a b c : κ, lt a b = true → lt b c = true → lt a c = true) (k : κ) (v : ν) :
    ∀ m : List (κ × ν), m.Pairwise (fun a b => lt a.1 b.1 = true) →
      (map_emplace lt k v m).Pairwise (fun a b => lt a.1 b.1 = true) := by
  intro m
  induction m with
  | nil => intro _; simp [map_emplace]
  | cons e rest ih =>
    intro h
    obtain ⟨k1, v1⟩ := e
    rw [List.pairwise_cons] at h
    unfold map_emplace
    by_cases h1 : lt k k1 = true
    · simp only [h1, if_true]
      rw [List.pairwise_cons]
      refine ⟨?_, List.pairwise_cons.mpr h⟩
      intro a ha
      rw [List.mem_cons] at ha
      rcases ha with ha | ha
      · rw [ha]; exact h1
      · exact htrans _ _ _ h1 (h.1 a ha)
    · by_cases h2 : lt k1 k = true
      · simp only [h1, h2, if_true, if_false, Bool.false_eq_true]
        rw [List.pairwise_cons]
        refine ⟨?_, ih h.2⟩
        intro a ha
        rcases mem_map_emplace lt k v rest a ha with h3 | h3
        · exact h.1 a h3
        · rw [h3]; exact h2
      · simp only [h1, h2, if_false, Bool.false_eq_true]
        rw [List.pairwise_cons]
        exact ⟨h.1, h.2⟩

theorem sorted_regions_nodup {ν : Type} (m : List (String × ν))
    (h : m.Pairwise (fun a b => string_lt a.1 b.1 = true)) : (m.map Prod.fst).Nodup := by
  rw [List.Nodup, List.pairwise_map]
  refine List.Pairwise.imp ?_ h
  intro a b hab heq
  rw [heq, string_lt_irrefl] at hab
  exact absurd hab (by simp)

theorem merge_region_sorted (mb : Box → Box → Box) (r : List (String × Box))
    (reg : String × Box) (h : r.Pairwise (fun a b => string_lt a.1 b.1 = true)) :
    (merge_region mb r reg).Pairwise (fun a b => string_lt a.1 b.1 = true) := by
  unfold merge_region
  split
  · exact map_emplace_sorted string_lt (fun a b c h1 h2 => chars_lt_trans _ _ _ h1 h2) _ _ r h
  · exact map_assign_sorted string_lt (fun a b c h1 h2 => chars_lt_trans _ _ _ h1 h2)
      string_lt_trichotomy _ _ r h

theorem merge_regions_sorted (mb : Box → Box → Box) (r l : List (String × Box))
    (h : r.Pairwise (fun a b => string_lt a.1 b.1 = true)) :
    (merge_regions mb r l).Pairwise (fun a b => string_lt a.1 b.1 = true) :=
  foldl_invariant (fun m : List (String × Box) => m.Pairwise (fun a b => string_lt a.1 b.1 = true))
    (merge_region mb) l r h (fun m reg _ hm => merge_region_sorted mb m reg hm)

theorem merge_region_extensive {ε : Type} (DA : DependenceAnalysis ε) (P : Primitives)
    (hm : MonotonePrimitives DA P) (r : List (String × Box)) (reg : String × Box) :
    regions_subset r (merge_region DA.merge_boxes r reg) := by
  unfold merge_region
  cases hq : map_find r reg.1 with
  | none => exact map_le_emplace_right string_lt _ box_subset_refl r _ _ hq
  | some box =>
    refine map_le_assign_right string_lt string_lt_irrefl string_lt_trichotomy _
      box_subset_refl r _ _ ?_
    intro v0 hv0
    rw [hq] at hv0
    simp only [Option.some.injEq] at hv0
    rw [← hv0]
    exact hm.merge_boxes_left box reg.2

theorem merge_region_holds {ε : Type} (DA : DependenceAnalysis ε) (P : Primitives)
    (hm : MonotonePrimitives DA P) (r : List (String × Box)) (reg : String × Box) :
    ∃ b, map_find (merge_region DA.merge_boxes r reg) reg.1 = some b ∧ box_subset reg.2 b := by
  unfold merge_region
  cases hq : map_find r reg.1 with
  | none =>
    exact ⟨_, map_find_emplace_self string_lt string_lt_trichotomy _ _ r hq, box_subset_refl _⟩
  | some box =>
    exact ⟨_, map_find_assign_self string_lt string_lt_irrefl string_lt_trichotomy _ _ _,
      hm.merge_boxes_right box reg.2⟩

theorem merge_region_below {ε : Type} (DA : DependenceAnalysis ε) (P : Primitives)
    (hm : MonotonePrimitives DA P) (r x : List (String × Box)) (reg : String × Box)
    (hr : regions_subset r x)
    (hx : ∃ xb, map_find x reg.1 = some xb ∧ box_subset reg.2 xb) :
    regions_subset (merge_region DA.merge_boxes r reg) x := by
  unfold merge_region
  cases hq : map_find r reg.1 with
  | none => exact map_le_emplace_left string_lt string_lt_trichotomy _ r x _ _ hr hq hx
  | some box =>
    refine map_le_assign_left string_lt string_lt_irrefl string_lt_trichotomy _ r x _ _ hr ?_
    obtain ⟨xb, hxb, hle⟩ := hx
    obtain ⟨xc, hxc, hcle⟩ := hr _ box hq
    rw [hxb] at hxc
    simp only [Option.some.injEq] at hxc
    subst hxc
    exact ⟨xb, hxb, hm.merge_boxes_least box reg.2 xb hcle hle⟩

/-- A region that is held stays held when a further region is merged. -/
theorem merge_region_keeps {ε : Type} (DA : DependenceAnalysis ε) (P : Primitives)
    (hm : MonotonePrimitives DA P) (r : List (String × Box)) (reg : String × Box)
    (k : String) (box : Box) (h : ∃ b, map_find r k = some b ∧ box_subset box b) :
    ∃ b, map_find (merge_region DA.merge_boxes r reg) k = some b ∧ box_subset box b := by
  obtain ⟨b, hb, hle⟩ := h
  obtain ⟨b2, hb2, hle2⟩ := merge_region_extensive DA P hm r reg k b hb
  exact ⟨b2, hb2, box_subset_trans _ _ _ hle hle2⟩

theorem merge_regions_extensive {ε : Type} (DA : DependenceAnalysis ε) (P : Primitives)
    (hm : MonotonePrimitives DA P) (r l : List (String × Box)) :
    regions_subset r (merge_regions DA.merge_boxes r l) :=
  foldl_invariant (fun m : List (String × Box) => regions_subset r m)
    (merge_region DA.merge_boxes) l r (regions_subset_refl r)
    (fun m reg _ hm0 => regions_subset_trans _ _ _ hm0 (merge_region_extensive DA P hm m reg))

theorem merge_regions_holds {ε : Type} (DA : DependenceAnalysis ε) (P : Primitives)
    (hm : MonotonePrimitives DA P) :
    ∀ (l r : List (String × Box)), ∀ reg ∈ l,
      ∃ b, map_find (merge_regions DA.merge_boxes r l) reg.1 = some b ∧ box_subset reg.2 b := by
  intro l
  induction l with
  | nil => intro r reg hreg; simp at hreg
  | cons a rest ih =>
    intro r reg hreg
    unfold merge_regions
    rw [List.foldl_cons]
    by_cases hin : reg ∈ rest
    · exact ih _ reg hin
    · have hra : reg = a := by
        rcases List.mem_cons.mp hreg with h1 | h1
        · exact h1
        · exact absurd h1 hin
      subst hra
      exact foldl_invariant
        (fun m : List (String × Box) => ∃ b, map_find m reg.1 = some b ∧ box_subset reg.2 b)
        (merge_region DA.merge_boxes) rest _ (merge_region_holds DA P hm r reg)
        (fun m reg2 _ hm0 => merge_region_keeps DA P hm m reg2 reg.1 reg.2 hm0)

theorem merge_regions_below {ε : Type} (DA : DependenceAnalysis ε) (P : Primitives)
    (hm : MonotonePrimitives DA P) (r l x : List (String × Box)) (hr : regions_subset r x)
    (hl : ∀ reg ∈ l, ∃ xb, map_find x reg.1 = some xb ∧ box_subset reg.2 xb) :
    regions_subset (merge_regions DA.merge_boxes r l) x :=
  foldl_invariant (fun m : List (String × Box) => regions_subset m x)
    (merge_region DA.merge_boxes) l r hr
    (fun m reg hreg hm0 => merge_region_below DA P hm m x reg hm0 (hl reg hreg))

theorem regions_within_refl (l : List (String × Box)) : regions_within l l :=
  fun reg hreg => ⟨reg.2, hreg, box_subset_refl _⟩

theorem regions_within_of_subset (l1 l2 : List (String × Box))
    (hs : l1.Pairwise (fun a b => string_lt a.1 b.1 = true)) (h : regions_subset l1 l2) :
    regions_within l1 l2 := by
  intro reg hreg
  obtain ⟨b, hb, hle⟩ := h reg.1 reg.2
    (map_find_of_mem_nodup l1 (sorted_regions_nodup l1 hs) reg hreg)
  exact ⟨b, map_find_mem l2 _ _ hb, hle⟩

theorem merge_regions_mono {ε : Type} (DA : DependenceAnalysis ε) (P : Primitives)
    (hm : MonotonePrimitives DA P) (r1 r2 l1 l2 : List (String × Box))
    (hr : regions_subset r1 r2) (hl : regions_within l1 l2) :
    regions_subset (merge_regions DA.merge_boxes r1 l1) (merge_regions DA.merge_boxes r2 l2) := by
  refine merge_regions_below DA P hm r1 l1 _
    (regions_subset_trans _ _ _ hr (merge_regions_extensive DA P hm r2 l2)) ?_
  intro reg hreg
  obtain ⟨box, hbox, hle⟩ := hl reg hreg
  obtain ⟨b, hb, hle2⟩ := merge_regions_holds DA P hm l2 r2 (reg.1, box) hbox
  exact ⟨b, hb, box_subset_trans _ _ _ hle hle2⟩

theorem merge_region_mono {ε : Type} (DA : DependenceAnalysis ε) (P : Primitives)
    (hm : MonotonePrimitives DA P) (r1 r2 : List (String × Box)) (k : String)
    (b1 b2 : Box) (hr : regions_subset r1 r2) (hb : box_subset b1 b2) :
    regions_subset (merge_region DA.merge_boxes r1 (k, b1))
      (merge_region DA.merge_boxes r2 (k, b2)) := by
  refine merge_region_below DA P hm r1 _ (k, b1)
    (regions_subset_trans _ _ _ hr (merge_region_extensive DA P hm r2 (k, b2))) ?_
  obtain ⟨b, hb0, hle⟩ := merge_region_holds DA P hm r2 (k, b2)
  exact ⟨b, hb0, box_subset_trans _ _ _ hb hle⟩

theorem value_regions_fold_sorted {ε : Type} (DA : DependenceAnalysis ε)
    (scope : Scope) :
    ∀ (args : List ε) (acc : List (String × Box) × Box),
      acc.1.Pairwise (fun a b => string_lt a.1 b.1 = true) →
      (args.foldl
        (fun (acc : List (String × Box) × Box) arg =>
          (merge_regions DA.merge_boxes acc.1
              (DA.boxes_required (DA.substitute_estimates arg) scope),
            acc.2 ++ [DA.bounds_of_expr_in_scope arg scope])) acc).1.Pairwise
        (fun a b => string_lt a.1 b.1 = true) := by
  intro args
  induction args with
  | nil => intro acc h; exact h
  | cons a rest ih =>
    intro acc h
    rw [List.foldl_cons]
    exact ih _ (merge_regions_sorted _ _ _ h)

theorem value_regions_sorted {ε : Type} (DA : DependenceAnalysis ε) (P : Primitives)
    (hm : MonotonePrimitives DA P) (s : FStage) (scope : Scope) (val : ε) :
    (value_regions DA s scope val).Pairwise (fun a b => string_lt a.1 b.1 = true) := by
  unfold value_regions
  exact merge_region_sorted _ _ _
    (value_regions_fold_sorted DA scope _ _ (hm.boxes_required_sorted _ _))

theorem value_regions_fold_mono {ε : Type} (DA : DependenceAnalysis ε) (P : Primitives)
    (hm : MonotonePrimitives DA P) (s1 s2 : Scope) (hs : scope_subset s1 s2) :
    ∀ (args : List ε) (acc1 acc2 : List (String × Box) × Box),
      regions_subset acc1.1 acc2.1 → List.Forall₂ Interval.subset acc1.2 acc2.2 →
      regions_subset
        (args.foldl
          (fun (acc : List (String × Box) × Box) arg =>
            (merge_regions DA.merge_boxes acc.1
                (DA.boxes_required (DA.substitute_estimates arg) s1),
              acc.2 ++ [DA.bounds_of_expr_in_scope arg s1])) acc1).1
        (args.foldl
          (fun (acc : List (String × Box) × Box) arg =>
            (merge_regions DA.merge_boxes acc.1
                (DA.boxes_required (DA.substitute_estimates arg) s2),
              acc.2 ++ [DA.bounds_of_expr_in_scope arg s2])) acc2).1 ∧
      List.Forall₂ Interval.subset
        (args.foldl
          (fun (acc : List (String × Box) × Box) arg =>
            (merge_regions DA.merge_boxes acc.1
                (DA.boxes_required (DA.substitute_estimates arg) s1),
              acc.2 ++ [DA.bounds_of_expr_in_scope arg s1])) acc1).2
        (args.foldl
          (fun (acc : List (String × Box) × Box) arg =>
            (merge_regions DA.merge_boxes acc.1
                (DA.boxes_required (DA.substitute_estimates arg) s2),
              acc.2 ++ [DA.bounds_of_expr_in_scope arg s2])) acc2).2 := by
  intro args
  induction args with
  | nil => intro acc1 acc2 h1 h2; exact ⟨h1, h2⟩
  | cons a rest ih =>
    intro acc1 acc2 h1 h2
    rw [List.foldl_cons, List.foldl_cons]
    refine ih _ _ ?_ ?_
    · exact merge_regions_mono DA P hm _ _ _ _ h1
        (regions_within_of_subset _ _ (hm.boxes_required_sorted _ _)
          (hm.boxes_required_mono _ s1 s2 hs))
    · exact List.rel_append h2
        (List.Forall₂.cons (hm.bounds_of_expr_mono a s1 s2 hs) List.Forall₂.nil)

theorem value_regions_mono {ε : Type} (DA : DependenceAnalysis ε) (P : Primitives)
    (hm : MonotonePrimitives DA P) (s : FStage) (s1 s2 : Scope) (hs : scope_subset s1 s2)
    (val : ε) :
    regions_within (value_regions DA s s1 val) (value_regions DA s s2 val) := by
  refine regions_within_of_subset _ _ (value_regions_sorted DA P hm s s1 val) ?_
  unfold value_regions
  obtain ⟨h1, h2⟩ := value_regions_fold_mono DA P hm s1 s2 hs (DA.lhs_args s)
    (DA.boxes_required (DA.substitute_estimates val) s1, [])
    (DA.boxes_required (DA.substitute_estimates val) s2, [])
    (hm.boxes_required_mono _ s1 s2 hs) List.Forall₂.nil
  exact merge_region_mono DA P hm _ _ s.func _ _ h1 (forall₂_box_subset _ _ h2)

/-! ### Properties that the merge of regions keeps -/

/-- A property of the regions and a property of the queue that the merge of
the region and the queueing of its stages keep hold after one turn of
`merge_and_queue_regions`, which leaves the visited stages as they are. -/
theorem merge_and_queue_region_inv {ε : Type} (DA : DependenceAnalysis ε) (P : Primitives)
    (prods : List String) (orc : Bool) (curr : String)
    (IR : List (String × Box) → Prop) (IQ : List (FStage × DimBounds) → Prop)
    (st st1 : RegionState) (reg : String × Box)
    (hr : (orc = false ∨ reg.1 ≠ curr) → ∀ r, IR r → IR (merge_region DA.merge_boxes r reg))
    (hq : reg.1 ≠ curr → prods.contains reg.1 = true → ∀ fn, env_find DA.env reg.1 = some fn →
      reg.2.length = (DA.args reg.1).length →
      ∀ (q : List (FStage × DimBounds)) (s : Nat), s < fn.updates + 1 → IQ q →
        IQ (queue_stage DA P st.visited reg.1
          (DA.get_stage_bounds reg.1 (prod_pure_bounds DA reg.1 reg.2)) q s))
    (h0r : IR st.regions) (h0q : IQ st.fs_bounds)
    (h : merge_and_queue_region DA P prods orc curr st reg = Except.ok st1) :
    IR st1.regions ∧ IQ st1.fs_bounds ∧ st1.visited = st.visited := by
  have hreg1 : IR (if (!orc || (orc && reg.1 != curr)) = true then
      merge_region DA.merge_boxes st.regions reg else st.regions) := by
    split
    · next hc =>
      refine hr ?_ _ h0r
      cases orc with
      | false => exact Or.inl rfl
      | true => exact Or.inr (by simpa using hc)
    · exact h0r
  unfold merge_and_queue_region at h
  simp only [] at h
  split at h
  · simp only [Except.ok.injEq] at h
    rw [← h]
    exact ⟨hreg1, h0q, rfl⟩
  · next hprod =>
    split at h
    · next f hf =>
      split at h
      · next hne =>
        have hne1 : reg.1 ≠ curr := by simpa using hne
        split at h
        · exact absurd h (by simp)
        · next fs1 hq1 =>
          simp only [Except.ok.injEq] at h
          rw [← h]
          refine ⟨hreg1, ?_, rfl⟩
          have hname := env_find_name _ _ _ hf
          refine queue_func_regions_inv DA P IQ _ _ f reg.2 st.visited ?_ h0q hq1
          rw [hname]
          intro hlen q s hs hq0
          exact hq hne1 (by simpa using hprod) f hf hlen q s hs hq0
      · simp only [Except.ok.injEq] at h
        rw [← h]
        exact ⟨hreg1, h0q, rfl⟩
    · simp only [Except.ok.injEq] at h
      rw [← h]
      exact ⟨hreg1, h0q, rfl⟩

theorem merge_and_queue_regions_inv {ε : Type} (DA : DependenceAnalysis ε) (P : Primitives)
    (prods : List String) (orc : Bool) (curr : String)
    (IR : List (String × Box) → Prop) (IQ : List (FStage × DimBounds) → Prop)
    (visited : List StageBounds) :
    ∀ (regs : List (String × Box)) (st st1 : RegionState),
      (∀ reg ∈ regs, (orc = false ∨ reg.1 ≠ curr) →
        ∀ r, IR r → IR (merge_region DA.merge_boxes r reg)) →
      (∀ reg ∈ regs, reg.1 ≠ curr → prods.contains reg.1 = true →
        ∀ fn, env_find DA.env reg.1 = some fn → reg.2.length = (DA.args reg.1).length →
        ∀ (q : List (FStage × DimBounds)) (s : Nat), s < fn.updates + 1 → IQ q →
          IQ (queue_stage DA P visited reg.1
            (DA.get_stage_bounds reg.1 (prod_pure_bounds DA reg.1 reg.2)) q s)) →
      st.visited = visited → IR st.regions → IQ st.fs_bounds →
      merge_and_queue_regions DA P prods orc curr regs st = Except.ok st1 →
      IR st1.regions ∧ IQ st1.fs_bounds ∧ st1.visited = visited := by
  intro regs
  induction regs with
  | nil =>
    intro st st1 _ _ hv h0r h0q h
    simp only [merge_and_queue_regions, Except.ok.injEq] at h
    rw [← h]
    exact ⟨h0r, h0q, hv⟩
  | cons reg rest ih =>
    intro st st1 hr hq hv h0r h0q h
    rw [merge_and_queue_regions] at h
    cases hstep : merge_and_queue_region DA P prods orc curr st reg with
    | error e => rw [hstep] at h; exact absurd h (by simp)
    | ok st2 =>
      rw [hstep] at h
      obtain ⟨hr2, hq2, hv2⟩ := merge_and_queue_region_inv DA P prods orc curr IR IQ st st2 reg
        (hr reg (by simp)) (by rw [hv]; exact hq reg (by simp)) h0r h0q hstep
      exact ih st2 st1 (fun r hr1 => hr r (by simp [hr1])) (fun r hr1 => hq r (by simp [hr1]))
        (by rw [hv2, hv]) hr2 hq2 h

/-- A stage of a function below the rank of every visited stage is not found
among the visited stages. -/
theorem visited_find_ranked (rank : String → Nat) (r : Nat) (visited : List StageBounds)
    (hv : visited_ranked rank r visited) (name : String) (hname : rank name < r) (n : Nat)
    (b : DimBounds) : visited_find visited ⟨⟨name, n⟩, b⟩ = false := by
  unfold visited_find
  rw [List.any_eq_false]
  intro v hvm hboth
  simp only [Bool.and_eq_true, Bool.not_eq_true'] at hboth
  have heq := (StageBounds_lt_equiv v ⟨⟨name, n⟩, b⟩).mp hboth
  have hrank := hv v hvm
  rw [heq.1] at hrank
  simp only at hrank
  omega

theorem extern_argument_regions_closed {ε : Type} (DA : DependenceAnalysis ε) (P : Primitives)
    (prods : List String) (orc : Bool) (s : FStage) (scope : Scope)
    (IR : List (String × Box) → Prop) (IQ : List (FStage × DimBounds) → Prop)
    (KP : String → Prop) (visited : List StageBounds) (st st1 : RegionState)
    (arg : ExternFuncArgument ε)
    (hr : ∀ reg r, IR r → IR (merge_region DA.merge_boxes r reg))
    (hq : ∀ (name : String) (region : Box) (q : List (FStage × DimBounds)) (n : Nat),
      KP name → (∃ fn, env_find DA.env name = some fn ∧ n < fn.updates + 1) → IQ q →
      IQ (queue_stage DA P visited name
        (DA.get_stage_bounds name (prod_pure_bounds DA name region)) q n))
    (harg : match arg with
      | ExternFuncArgument.func p => p ≠ s.func → KP p
      | ExternFuncArgument.expr e =>
        ∀ x ∈ DA.boxes_required (DA.substitute_estimates e) scope, x.1 ≠ s.func → KP x.1
      | ExternFuncArgument.buffer _ _ => True
      | ExternFuncArgument.undefined => True)
    (hv : st.visited = visited) (h0r : IR st.regions) (h0q : IQ st.fs_bounds)
    (h : extern_argument_regions DA P prods orc s scope st arg = Except.ok st1) :
    IR st1.regions ∧ IQ st1.fs_bounds ∧ st1.visited = visited := by
  cases arg with
  | func p =>
    simp only [extern_argument_regions] at h
    split at h
    · exact absurd h (by simp)
    · refine merge_and_queue_regions_inv DA P prods orc s.func IR IQ visited _ st st1
        (fun reg _ _ r hr0 => hr reg r hr0) ?_ hv h0r h0q h
      intro reg hreg hne _ fn hfn _ q n hn hq0
      split at hreg
      · simp at hreg
      · simp only [List.mem_singleton] at hreg
        rw [hreg] at hne
        have hk : KP reg.1 := by rw [hreg]; exact harg hne
        exact hq reg.1 reg.2 q n hk ⟨fn, hfn, hn⟩ hq0
  | expr e =>
    simp only [extern_argument_regions] at h
    refine merge_and_queue_regions_inv DA P prods orc s.func IR IQ visited _ st st1
      (fun reg _ _ r hr0 => hr reg r hr0) ?_ hv h0r h0q h
    intro reg hreg hne _ fn hfn _ q n hn hq0
    exact hq reg.1 reg.2 q n (harg reg hreg hne) ⟨fn, hfn, hn⟩ hq0
  | buffer b d =>
    simp only [extern_argument_regions, Except.ok.injEq] at h
    rw [← h]
    refine ⟨?_, h0q, hv⟩
    exact foldl_invariant IR (merge_region DA.merge_boxes) _ st.regions h0r
      (fun r reg _ hr0 => hr reg r hr0)
  | undefined =>
    simp only [extern_argument_regions, Except.ok.injEq] at h
    rw [← h]
    exact ⟨h0r, h0q, hv⟩

theorem extern_regions_closed {ε : Type} (DA : DependenceAnalysis ε) (P : Primitives)
    (prods : List String) (orc : Bool) (s : FStage) (scope : Scope)
    (IR : List (String × Box) → Prop) (IQ : List (FStage × DimBounds) → Prop)
    (KP : String → Prop) (visited : List StageBounds)
    (hr : ∀ reg r, IR r → IR (merge_region DA.merge_boxes r reg))
    (hq : ∀ (name : String) (region : Box) (q : List (FStage × DimBounds)) (n : Nat),
      KP name → (∃ fn, env_find DA.env name = some fn ∧ n < fn.updates + 1) → IQ q →
      IQ (queue_stage DA P visited name
        (DA.get_stage_bounds name (prod_pure_bounds DA name region)) q n)) :
    ∀ (args : List (ExternFuncArgument ε)) (st st1 : RegionState),
      (∀ arg ∈ args, match arg with
        | ExternFuncArgument.func p => p ≠ s.func → KP p
        | ExternFuncArgument.expr e =>
          ∀ x ∈ DA.boxes_required (DA.substitute_estimates e) scope, x.1 ≠ s.func → KP x.1
        | ExternFuncArgument.buffer _ _ => True
        | ExternFuncArgument.undefined => True) →
      st.visited = visited → IR st.regions → IQ st.fs_bounds →
      extern_regions DA P prods orc s scope args st = Except.ok st1 →
      IR st1.regions ∧ IQ st1.fs_bounds ∧ st1.visited = visited := by
  intro args
  induction args with
  | nil =>
    intro st st1 _ hv h0r h0q h
    simp only [extern_regions, Except.ok.injEq] at h
    rw [← h]
    exact ⟨h0r, h0q, hv⟩
  | cons arg rest ih =>
    intro st st1 hargs hv h0r h0q h
    rw [extern_regions] at h
    cases hstep : extern_argument_regions DA P prods orc s scope st arg with
    | error e => rw [hstep] at h; exact absurd h (by simp)
    | ok st2 =>
      rw [hstep] at h
      obtain ⟨hr2, hq2, hv2⟩ := extern_argument_regions_closed DA P prods orc s scope IR IQ KP
        visited st st2 arg hr hq (hargs arg (by simp)) hv h0r h0q hstep
      exact ih st2 st1 (fun a ha => hargs a (by simp [ha])) hv2 hr2 hq2 h

theorem values_regions_closed {ε : Type} (DA : DependenceAnalysis ε) (P : Primitives)
    (prods : List String) (orc : Bool) (s : FStage) (scope : Scope)
    (IR : List (String × Box) → Prop) (IQ : List (FStage × DimBounds) → Prop)
    (KP : String → Prop) (visited : List StageBounds)
    (hr : ∀ reg r, IR r → IR (merge_region DA.merge_boxes r reg))
    (hq : ∀ (name : String) (region : Box) (q : List (FStage × DimBounds)) (n : Nat),
      KP name → (∃ fn, env_find DA.env name = some fn ∧ n < fn.updates + 1) → IQ q →
      IQ (queue_stage DA P visited name
        (DA.get_stage_bounds name (prod_pure_bounds DA name region)) q n)) :
    ∀ (vals : List ε) (st st1 : RegionState),
      (∀ val ∈ vals, ∀ reg ∈ value_regions DA s scope val, reg.1 ≠ s.func → KP reg.1) →
      st.visited = visited → IR st.regions → IQ st.fs_bounds →
      values_regions DA P prods orc s scope vals st = Except.ok st1 →
      IR st1.regions ∧ IQ st1.fs_bounds ∧ st1.visited = visited := by
  intro vals
  induction vals with
  | nil =>
    intro st st1 _ hv h0r h0q h
    simp only [values_regions, Except.ok.injEq] at h
    rw [← h]
    exact ⟨h0r, h0q, hv⟩
  | cons val rest ih =>
    intro st st1 hkeys hv h0r h0q h
    rw [values_regions] at h
    cases hstep : merge_and_queue_regions DA P prods orc s.func
        (value_regions DA s scope val) st with
    | error e => rw [hstep] at h; exact absurd h (by simp)
    | ok st2 =>
      rw [hstep] at h
      obtain ⟨hr2, hq2, hv2⟩ := merge_and_queue_regions_inv DA P prods orc s.func IR IQ visited
        _ st st2 (fun reg _ _ r hr0 => hr reg r hr0)
        (fun reg hreg hne _ fn hfn _ q n hn hq0 =>
          hq reg.1 reg.2 q n (hkeys val (by simp) reg hreg hne) ⟨fn, hfn, hn⟩ hq0)
        hv h0r h0q hstep
      exact ih st2 st1 (fun v hv0 => hkeys v (by simp [hv0])) hv2 hr2 hq2 h

/-- Under a ranking of the calls, the functions that the expressions of a
stage require are the function of the stage or functions below it. -/
theorem value_regions_ranked {ε : Type} (DA : DependenceAnalysis ε) (rank : String → Nat)
    (hacyc : ranked_calls DA rank) (s : FStage) (scope : Scope) (val : ε)
    (hval : val ∈ DA.values s) :
    ∀ reg ∈ value_regions DA s scope val, reg.1 ≠ s.func → rank reg.1 < rank s.func := by
  intro reg hreg hne
  have := value_regions_keys DA s scope val
    (fun k => k = s.func ∨ rank k < rank s.func) (Or.inl rfl)
    (hacyc.1 s _ val (Or.inl hval))
    (fun arg harg => hacyc.1 s _ arg (Or.inr harg)) reg hreg
  rcases this with h1 | h1
  · exact absurd h1 hne
  · exact h1

theorem extern_arguments_ranked {ε : Type} (DA : DependenceAnalysis ε) (rank : String → Nat)
    (hacyc : ranked_calls DA rank) (s : FStage) (scope : Scope) :
    ∀ arg ∈ DA.extern_arguments s.func, match arg with
      | ExternFuncArgument.func p => p ≠ s.func → rank p < rank s.func
      | ExternFuncArgument.expr e =>
        ∀ x ∈ DA.boxes_required (DA.substitute_estimates e) scope,
          x.1 ≠ s.func → rank x.1 < rank s.func
      | ExternFuncArgument.buffer _ _ => True
      | ExternFuncArgument.undefined => True := by
  intro arg harg
  have hh := hacyc.2 s.func arg harg
  cases arg with
  | func p =>
    simp only [] at hh ⊢
    exact fun _ => hh
  | expr e =>
    simp only [] at hh ⊢
    intro x hx hne
    rcases hh scope x hx with h1 | h1
    · exact absurd h1 hne
    · exact h1
  | buffer b d => trivial
  | undefined => trivial

/-- A property of the regions that every merge keeps, and a property of the
queue that the queueing of a stage of a function below the stage keeps, hold
after the work on a stage, the latter up to the removal of the stage from
the queue; the work adds the stage to the visited ones. -/
theorem process_stage_closed {ε : Type} (DA : DependenceAnalysis ε) (P : Primitives)
    (prods : List String) (orc : Bool) (rank : String → Nat) (hacyc : ranked_calls DA rank)
    (IR : List (String × Box) → Prop) (IQ IQ2 : List (FStage × DimBounds) → Prop)
    (f : Function) (s : FStage) (curr_bounds : DimBounds) (st st1 : RegionState)
    (hr : ∀ reg r, IR r → IR (merge_region DA.merge_boxes r reg))
    (hq : ∀ (name : String) (region : Box) (q : List (FStage × DimBounds)) (n : Nat),
      rank name < rank s.func → (∃ fn, env_find DA.env name = some fn ∧ n < fn.updates + 1) →
      IQ q →
      IQ (queue_stage DA P (set_insert StageBounds.lt ⟨s, curr_bounds⟩ st.visited) name
        (DA.get_stage_bounds name (prod_pure_bounds DA name region)) q n))
    (herase : ∀ q, IQ q → IQ2 (map_erase q s))
    (h0r : IR st.regions) (h0q : IQ st.fs_bounds)
    (h : process_stage DA P prods orc f s curr_bounds st = Except.ok st1) :
    IR st1.regions ∧ IQ2 st1.fs_bounds ∧
      st1.visited = set_insert StageBounds.lt ⟨s, curr_bounds⟩ st.visited := by
  unfold process_stage at h
  cases hsc : stage_scope DA P curr_bounds (DA.dims s).dropLast [] with
  | error e => rw [hsc] at h; exact absurd h (by simp)
  | ok pushes =>
    rw [hsc] at h
    simp only [] at h
    have hext : ∀ st2, (if f.has_extern_definition = true then
        extern_regions DA P prods orc s (pushes ++ DA.input_estimates)
          (DA.extern_arguments s.func)
          { st with visited := set_insert StageBounds.lt ⟨s, curr_bounds⟩ st.visited }
      else
        Except.ok { st with visited := set_insert StageBounds.lt ⟨s, curr_bounds⟩ st.visited })
        = Except.ok st2 →
        IR st2.regions ∧ IQ st2.fs_bounds ∧
          st2.visited = set_insert StageBounds.lt ⟨s, curr_bounds⟩ st.visited := by
      intro st2 h2
      split at h2
      · exact extern_regions_closed DA P prods orc s _ IR IQ (fun k => rank k < rank s.func)
          _ hr hq _
          { st with visited := set_insert StageBounds.lt ⟨s, curr_bounds⟩ st.visited } st2
          (extern_arguments_ranked DA rank hacyc s _) rfl h0r h0q h2
      · simp only [Except.ok.injEq] at h2
        rw [← h2]
        exact ⟨h0r, h0q, rfl⟩
    split at h
    · exact absurd h (by simp)
    · next st2 h2 =>
      obtain ⟨hr2, hq2, hv2⟩ := hext st2 h2
      split at h
      · exact absurd h (by simp)
      · next st3 h3 =>
        simp only [Except.ok.injEq] at h
        rw [← h]
        obtain ⟨hr3, hq3, hv3⟩ := values_regions_closed DA P prods orc s _ IR IQ
          (fun k => rank k < rank s.func) _ hr hq _ st2 st3
          (fun val hval => value_regions_ranked DA rank hacyc s _ val hval) hv2 hr2 hq2 h3
        exact ⟨hr3, herase _ hq3, hv3⟩

/-! ### The merge of regions is monotone -/

theorem region_held_keeps {ε : Type} (DA : DependenceAnalysis ε) (P : Primitives)
    (hm : MonotonePrimitives DA P) (k : String) (box : Box) (reg : String × Box)
    (r : List (String × Box)) (h : region_held r k box) :
    region_held (merge_region DA.merge_boxes r reg) k box :=
  merge_region_keeps DA P hm r reg k box h

theorem stages_held_keeps {ε : Type} (DA : DependenceAnalysis ε) (P : Primitives)
    (hm : MonotonePrimitives DA P) (k : String) (box : Box) (updates : Nat)
    (visited : List StageBounds) (name : String) (region : Box)
    (q : List (FStage × DimBounds)) (n : Nat) (h : stages_held DA q k box updates) :
    stages_held DA
      (queue_stage DA P visited name
        (DA.get_stage_bounds name (prod_pure_bounds DA name region)) q n) k box updates := by
  intro m hm0
  obtain ⟨e, he, hle⟩ := h m hm0
  obtain ⟨e2, he2, hle2⟩ := queue_stage_extensive DA P hm visited name _ q n
    (hm.get_stage_bounds_keys _ _ (prod_pure_bounds_nodup DA name region) n) _ e he
  exact ⟨e2, he2, bounds_subset_trans _ _ _ hle hle2⟩

/-- One turn of `merge_and_queue_regions` leaves the region merged, and the
stages of a producer that is not visited queued. -/
theorem merge_and_queue_region_holds {ε : Type} (DA : DependenceAnalysis ε) (P : Primitives)
    (hm : MonotonePrimitives DA P) (prods : List String) (orc : Bool) (curr : String)
    (st st1 : RegionState) (reg : String × Box)
    (h : merge_and_queue_region DA P prods orc curr st reg = Except.ok st1) :
    ((orc = false ∨ reg.1 ≠ curr) → region_held st1.regions reg.1 reg.2) ∧
    (reg.1 ≠ curr → prods.contains reg.1 = true → ∀ fn, env_find DA.env reg.1 = some fn →
      (∀ n b, visited_find st.visited ⟨⟨reg.1, n⟩, b⟩ = false) →
      reg.2.length = (DA.args reg.1).length ∧
        stages_held DA st1.fs_bounds reg.1 reg.2 fn.updates) := by
  have hreg1 : (orc = false ∨ reg.1 ≠ curr) →
      region_held (if (!orc || (orc && reg.1 != curr)) = true then
        merge_region DA.merge_boxes st.regions reg else st.regions) reg.1 reg.2 := by
    intro hc
    have hc2 : (!orc || (orc && reg.1 != curr)) = true := by
      rcases hc with h1 | h1
      · simp [h1]
      · cases orc <;> simp [h1]
    rw [if_pos hc2]
    exact merge_region_holds DA P hm st.regions reg
  unfold merge_and_queue_region at h
  simp only [] at h
  split at h
  · next hprod =>
    simp only [Except.ok.injEq] at h
    rw [← h]
    refine ⟨hreg1, ?_⟩
    intro _ hp
    rw [hp] at hprod
    exact absurd hprod (by simp)
  · split at h
    · next f hf =>
      split at h
      · split at h
        · exact absurd h (by simp)
        · next fs1 hq1 =>
          simp only [Except.ok.injEq] at h
          rw [← h]
          refine ⟨hreg1, ?_⟩
          intro _ _ fn hfn hvis
          rw [hf] at hfn
          simp only [Option.some.injEq] at hfn
          subst hfn
          have hname := env_find_name _ _ _ hf
          have := queue_func_regions_holds DA P hm _ _ f reg.2 st.visited
            (by rw [hname]; exact hvis) hq1
          rw [hname] at this
          exact this
      · next hne =>
        simp only [Except.ok.injEq] at h
        rw [← h]
        refine ⟨hreg1, ?_⟩
        intro hne1
        exact absurd (by simpa using hne1) hne
    · next hnone =>
      simp only [Except.ok.injEq] at h
      rw [← h]
      refine ⟨hreg1, ?_⟩
      intro _ _ fn hfn
      rw [hnone] at hfn
      exact absurd hfn (by simp)

theorem merge_and_queue_regions_holds {ε : Type} (DA : DependenceAnalysis ε) (P : Primitives)
    (hm : MonotonePrimitives DA P) (prods : List String) (orc : Bool) (curr : String)
    (visited : List StageBounds) :
    ∀ (regs : List (String × Box)) (st st1 : RegionState), st.visited = visited →
      merge_and_queue_regions DA P prods orc curr regs st = Except.ok st1 →
      ∀ reg ∈ regs,
        ((orc = false ∨ reg.1 ≠ curr) → region_held st1.regions reg.1 reg.2) ∧
        (reg.1 ≠ curr → prods.contains reg.1 = true → ∀ fn, env_find DA.env reg.1 = some fn →
          (∀ n b, visited_find visited ⟨⟨reg.1, n⟩, b⟩ = false) →
          reg.2.length = (DA.args reg.1).length ∧
            stages_held DA st1.fs_bounds reg.1 reg.2 fn.updates) := by
  intro regs
  induction regs with
  | nil => intro st st1 _ _ reg hreg; simp at hreg
  | cons a rest ih =>
    intro st st1 hv h reg hreg
    rw [merge_and_queue_regions] at h
    cases hstep : merge_and_queue_region DA P prods orc curr st a with
    | error e => rw [hstep] at h; exact absurd h (by simp)
    | ok st2 =>
      rw [hstep] at h
      have hv2 : st2.visited = visited := by
        rw [← hv]
        exact (merge_and_queue_region_inv DA P prods orc curr (fun _ => True) (fun _ => True)
          st st2 a (fun _ _ _ => trivial) (fun _ _ _ _ _ _ _ _ _ => trivial) trivial trivial
          hstep).2.2
      by_cases hin : reg ∈ rest
      · exact ih st2 st1 hv2 h reg hin
      · have hra : reg = a := by
          rcases List.mem_cons.mp hreg with h1 | h1
          · exact h1
          · exact absurd h1 hin
        subst hra
        obtain ⟨hreg2, hq2⟩ := merge_and_queue_region_holds DA P hm prods orc curr st st2 reg
          hstep
        constructor
        · intro hc
          exact (merge_and_queue_regions_inv DA P prods orc curr
            (fun r => region_held r reg.1 reg.2) (fun _ => True) visited rest st2 st1
            (fun reg2 _ _ r hr0 => region_held_keeps DA P hm _ _ reg2 r hr0)
            (fun _ _ _ _ _ _ _ _ _ _ _ => trivial) hv2 (hreg2 hc) trivial h).1
        · intro hne hp fn hfn hvis
          obtain ⟨hlen, hheld⟩ := hq2 hne hp fn hfn (by rw [hv]; exact hvis)
          refine ⟨hlen, ?_⟩
          exact (merge_and_queue_regions_inv DA P prods orc curr
            (fun _ => True) (fun q => stages_held DA q reg.1 reg.2 fn.updates) visited rest
            st2 st1 (fun _ _ _ _ _ => trivial)
            (fun reg2 _ _ _ _ _ _ q n _ hq0 =>
              stages_held_keeps DA P hm _ _ _ visited reg2.1 reg2.2 q n hq0)
            hv2 trivial hheld h).2.1

/-- The state after `merge_and_queue_regions` holds the state before. -/
theorem merge_and_queue_regions_extensive {ε : Type} (DA : DependenceAnalysis ε)
    (P : Primitives) (hm : MonotonePrimitives DA P) (prods : List String) (orc : Bool)
    (curr : String) (regs : List (String × Box)) (st st1 : RegionState)
    (h : merge_and_queue_regions DA P prods orc curr regs st = Except.ok st1) :
    state_subset st st1 ∧ st1.visited = st.visited := by
  obtain ⟨h1, h2, h3⟩ := merge_and_queue_regions_inv DA P prods orc curr
    (fun r => regions_subset st.regions r) (fun q => queue_subset st.fs_bounds q) st.visited
    regs st st1
    (fun reg _ _ r hr0 => regions_subset_trans _ _ _ hr0 (merge_region_extensive DA P hm r reg))
    (fun reg _ _ _ _ _ _ q n _ hq0 => queue_subset_trans _ _ _ hq0
      (queue_stage_extensive DA P hm _ _ _ q n
        (hm.get_stage_bounds_keys _ _ (prod_pure_bounds_nodup DA _ _) n)))
    rfl (regions_subset_refl _) (queue_subset_refl _) h
  exact ⟨⟨h1, h2⟩, h3⟩

/-- `merge_and_queue_regions` is monotone: with a state and regions that lie
within those of a second run in which no producer of the regions is visited,
the state that it leaves lies within the state that the second run leaves. -/
theorem merge_and_queue_regions_mono {ε : Type} (DA : DependenceAnalysis ε) (P : Primitives)
    (hm : MonotonePrimitives DA P) (prods : List String) (orc : Bool) (curr : String)
    (l1 l2 : List (String × Box)) (st1 st2 r1 r2 : RegionState)
    (hst : state_subset st1 st2) (hl : regions_within l1 l2)
    (hvis : ∀ reg ∈ l2, reg.1 ≠ curr → ∀ n b, visited_find st2.visited ⟨⟨reg.1, n⟩, b⟩ = false)
    (h1 : merge_and_queue_regions DA P prods orc curr l1 st1 = Except.ok r1)
    (h2 : merge_and_queue_regions DA P prods orc curr l2 st2 = Except.ok r2) :
    state_subset r1 r2 := by
  obtain ⟨hext, _⟩ := merge_and_queue_regions_extensive DA P hm prods orc curr l2 st2 r2 h2
  have hholds := merge_and_queue_regions_holds DA P hm prods orc curr st2.visited l2 st2 r2 rfl h2
  obtain ⟨g1, g2, _⟩ := merge_and_queue_regions_inv DA P prods orc curr
    (fun r => regions_subset r r2.regions) (fun q => queue_subset q r2.fs_bounds) st1.visited
    l1 st1 r1
    (by
      intro reg hreg hc r hr0
      obtain ⟨box, hbox, hle⟩ := hl reg hreg
      obtain ⟨b, hb, hle2⟩ := (hholds (reg.1, box) hbox).1 hc
      exact merge_region_below DA P hm r _ reg hr0 ⟨b, hb, box_subset_trans _ _ _ hle hle2⟩)
    (by
      intro reg hreg hne hp fn hfn hlen q n hn hq0
      obtain ⟨box, hbox, hle⟩ := hl reg hreg
      obtain ⟨hlen2, hheld⟩ := (hholds (reg.1, box) hbox).2 hne hp fn hfn
        (hvis (reg.1, box) hbox hne)
      obtain ⟨e, he, hle2⟩ := hheld n hn
      refine queue_stage_below DA P hm _ _ _ q _ n
        (hm.get_stage_bounds_keys _ _ (prod_pure_bounds_nodup DA _ _) n) hq0 ⟨e, he, ?_⟩
      refine bounds_subset_trans _ _ _ ?_ hle2
      exact hm.get_stage_bounds_mono _ _ _
        (prod_pure_bounds_mono DA reg.1 reg.2 box hle (by rw [hlen, hlen2])) n)
    rfl (regions_subset_trans _ _ _ hst.1 hext.1) (queue_subset_trans _ _ _ hst.2 hext.2) h1
  exact ⟨g1, g2⟩

/-! ### The work on a stage is monotone -/

theorem extern_argument_regions_mono {ε : Type} (DA : DependenceAnalysis ε) (P : Primitives)
    (hm : MonotonePrimitives DA P) (prods : List String) (orc : Bool) (rank : String → Nat)
    (hacyc : ranked_calls DA rank) (s : FStage) (sc1 sc2 : Scope) (hsc : scope_subset sc1 sc2)
    (st1 st2 r1 r2 : RegionState) (arg : ExternFuncArgument ε)
    (harg : arg ∈ DA.extern_arguments s.func) (hst : state_subset st1 st2)
    (hvr : visited_ranked rank (rank s.func) st2.visited)
    (h1 : extern_argument_regions DA P prods orc s sc1 st1 arg = Except.ok r1)
    (h2 : extern_argument_regions DA P prods orc s sc2 st2 arg = Except.ok r2) :
    state_subset r1 r2 := by
  have hk := extern_arguments_ranked DA rank hacyc s sc2 arg harg
  cases arg with
  | func p =>
    simp only [extern_argument_regions] at h1 h2
    simp only [] at hk
    split at h1
    · exact absurd h1 (by simp)
    · next f hf =>
      rw [hf] at h2
      simp only [] at h2
      refine merge_and_queue_regions_mono DA P hm prods orc s.func _ _ st1 st2 r1 r2 hst
        (regions_within_refl _) ?_ h1 h2
      intro reg hreg hne n b
      split at hreg
      · simp at hreg
      · simp only [List.mem_singleton] at hreg
        rw [hreg] at hne ⊢
        exact visited_find_ranked rank _ _ hvr p (hk hne) n b
  | expr e =>
    simp only [extern_argument_regions] at h1 h2
    simp only [] at hk
    refine merge_and_queue_regions_mono DA P hm prods orc s.func _ _ st1 st2 r1 r2 hst
      (regions_within_of_subset _ _ (hm.boxes_required_sorted _ _)
        (hm.boxes_required_mono _ sc1 sc2 hsc)) ?_ h1 h2
    intro reg hreg hne n b
    exact visited_find_ranked rank _ _ hvr reg.1 (hk reg hreg hne) n b
  | buffer b d =>
    simp only [extern_argument_regions, Except.ok.injEq] at h1 h2
    rw [← h1, ← h2]
    exact ⟨merge_regions_mono DA P hm _ _ _ _ hst.1 (regions_within_refl _), hst.2⟩
  | undefined =>
    simp only [extern_argument_regions, Except.ok.injEq] at h1 h2
    rw [← h1, ← h2]
    exact hst

theorem extern_regions_mono {ε : Type} (DA : DependenceAnalysis ε) (P : Primitives)
    (hm : MonotonePrimitives DA P) (prods : List String) (orc : Bool) (rank : String → Nat)
    (hacyc : ranked_calls DA rank) (s : FStage) (sc1 sc2 : Scope)
    (hsc : scope_subset sc1 sc2) :
    ∀ (args : List (ExternFuncArgument ε)) (st1 st2 r1 r2 : RegionState),
      (∀ arg ∈ args, arg ∈ DA.extern_arguments s.func) → state_subset st1 st2 →
      visited_ranked rank (rank s.func) st2.visited →
      extern_regions DA P prods orc s sc1 args st1 = Except.ok r1 →
      extern_regions DA P prods orc s sc2 args st2 = Except.ok r2 →
      state_subset r1 r2 := by
  intro args
  induction args with
  | nil =>
    intro st1 st2 r1 r2 _ hst _ h1 h2
    simp only [extern_regions, Except.ok.injEq] at h1 h2
    rw [← h1, ← h2]
    exact hst
  | cons arg rest ih =>
    intro st1 st2 r1 r2 hargs hst hvr h1 h2
    rw [extern_regions] at h1 h2
    cases hs1 : extern_argument_regions DA P prods orc s sc1 st1 arg with
    | error e => rw [hs1] at h1; exact absurd h1 (by simp)
    | ok m1 =>
      cases hs2 : extern_argument_regions DA P prods orc s sc2 st2 arg with
      | error e => rw [hs2] at h2; exact absurd h2 (by simp)
      | ok m2 =>
        rw [hs1] at h1
        rw [hs2] at h2
        have hv2 : m2.visited = st2.visited :=
          (extern_argument_regions_closed DA P prods orc s sc2 (fun _ => True) (fun _ => True)
            (fun _ => True) st2.visited st2 m2 arg (fun _ _ _ => trivial)
            (fun _ _ _ _ _ _ _ => trivial)
            (by cases arg <;> simp) rfl trivial trivial hs2).2.2
        exact ih m1 m2 r1 r2 (fun a ha => hargs a (by simp [ha]))
          (extern_argument_regions_mono DA P hm prods orc rank hacyc s sc1 sc2 hsc st1 st2 m1 m2
            arg (hargs arg (by simp)) hst hvr hs1 hs2)
          (by rw [hv2]; exact hvr) h1 h2

theorem values_regions_mono {ε : Type} (DA : DependenceAnalysis ε) (P : Primitives)
    (hm : MonotonePrimitives DA P) (prods : List String) (orc : Bool) (rank : String → Nat)
    (hacyc : ranked_calls DA rank) (s : FStage) (sc1 sc2 : Scope)
    (hsc : scope_subset sc1 sc2) :
    ∀ (vals : List ε) (st1 st2 r1 r2 : RegionState),
      (∀ val ∈ vals, val ∈ DA.values s) → state_subset st1 st2 →
      visited_ranked rank (rank s.func) st2.visited →
      values_regions DA P prods orc s sc1 vals st1 = Except.ok r1 →
      values_regions DA P prods orc s sc2 vals st2 = Except.ok r2 →
      state_subset r1 r2 := by
  intro vals
  induction vals with
  | nil =>
    intro st1 st2 r1 r2 _ hst _ h1 h2
    simp only [values_regions, Except.ok.injEq] at h1 h2
    rw [← h1, ← h2]
    exact hst
  | cons val rest ih =>
    intro st1 st2 r1 r2 hvals hst hvr h1 h2
    rw [values_regions] at h1 h2
    cases hs1 : merge_and_queue_regions DA P prods orc s.func (value_regions DA s sc1 val)
        st1 with
    | error e => rw [hs1] at h1; exact absurd h1 (by simp)
    | ok m1 =>
      cases hs2 : merge_and_queue_regions DA P prods orc s.func (value_regions DA s sc2 val)
          st2 with
      | error e => rw [hs2] at h2; exact absurd h2 (by simp)
      | ok m2 =>
        rw [hs1] at h1
        rw [hs2] at h2
        have hv2 : m2.visited = st2.visited :=
          (merge_and_queue_regions_extensive DA P hm prods orc s.func _ st2 m2 hs2).2
        refine ih m1 m2 r1 r2 (fun a ha => hvals a (by simp [ha])) ?_
          (by rw [hv2]; exact hvr) h1 h2
        refine merge_and_queue_regions_mono DA P hm prods orc s.func _ _ st1 st2 m1 m2 hst
          (value_regions_mono DA P hm s sc1 sc2 hsc val) ?_ hs1 hs2
        intro reg hreg hne n b
        exact visited_find_ranked rank _ _ hvr reg.1
          (value_regions_ranked DA rank hacyc s sc2 val (hvals val (by simp)) reg hreg hne) n b

theorem stage_scope_mono {ε : Type} (DA : DependenceAnalysis ε) (P : Primitives)
    (hm : MonotonePrimitives DA P) (cb1 cb2 : DimBounds) (hcb : bounds_subset cb1 cb2) :
    ∀ (dims : List Dim) (sc1 sc2 p1 p2 : Scope), scope_subset sc1 sc2 →
      stage_scope DA P cb1 dims sc1 = Except.ok p1 →
      stage_scope DA P cb2 dims sc2 = Except.ok p2 → scope_subset p1 p2 := by
  intro dims
  induction dims with
  | nil =>
    intro sc1 sc2 p1 p2 hsc h1 h2
    simp only [stage_scope, Except.ok.injEq] at h1 h2
    rw [← h1, ← h2]
    exact hsc
  | cons d rest ih =>
    intro sc1 sc2 p1 p2 hsc h1 h2
    rw [stage_scope] at h1 h2
    cases hb1 : map_find cb1 d.var with
    | none => rw [hb1] at h1; exact absurd h1 (by simp)
    | some b1 =>
      obtain ⟨b2, hb2, hle⟩ := hcb d.var b1 hb1
      rw [hb1] at h1
      rw [hb2] at h2
      simp only [] at h1 h2
      exact ih
        ((d.var, ⟨P.simplify (DA.substitute_var_estimates b1.min),
          P.simplify (DA.substitute_var_estimates b1.max)⟩) :: sc1)
        ((d.var, ⟨P.simplify (DA.substitute_var_estimates b2.min),
          P.simplify (DA.substitute_var_estimates b2.max)⟩) :: sc2) p1 p2
        (List.Forall₂.cons ⟨rfl, scope_interval_mono DA P hm b1 b2 hle⟩ hsc) h1 h2

theorem scope_subset_refl (sc : Scope) : scope_subset sc sc := by
  induction sc with
  | nil => exact List.Forall₂.nil
  | cons a rest ih => exact List.Forall₂.cons ⟨rfl, Interval_subset_refl _⟩ ih

/-- The work on a stage is monotone in the state and the bounds of the
stage, when the second run has visited no stage of a function below the
stage. -/
theorem process_stage_mono {ε : Type} (DA : DependenceAnalysis ε) (P : Primitives)
    (hm : MonotonePrimitives DA P) (prods : List String) (orc : Bool) (rank : String → Nat)
    (hacyc : ranked_calls DA rank) (f : Function) (s : FStage) (cb1 cb2 : DimBounds)
    (hcb : bounds_subset cb1 cb2) (st1 st2 r1 r2 : RegionState) (hst : state_subset st1 st2)
    (hvr : visited_ranked rank (rank s.func) st2.visited)
    (h1 : process_stage DA P prods orc f s cb1 st1 = Except.ok r1)
    (h2 : process_stage DA P prods orc f s cb2 st2 = Except.ok r2) :
    state_subset r1 r2 := by
  unfold process_stage at h1 h2
  cases hsc1 : stage_scope DA P cb1 (DA.dims s).dropLast [] with
  | error e => rw [hsc1] at h1; exact absurd h1 (by simp)
  | ok p1 =>
    cases hsc2 : stage_scope DA P cb2 (DA.dims s).dropLast [] with
    | error e => rw [hsc2] at h2; exact absurd h2 (by simp)
    | ok p2 =>
      rw [hsc1] at h1
      rw [hsc2] at h2
      simp only [] at h1 h2
      have hsc : scope_subset (p1 ++ DA.input_estimates) (p2 ++ DA.input_estimates) :=
        List.rel_append
          (stage_scope_mono DA P hm cb1 cb2 hcb _ [] [] p1 p2 List.Forall₂.nil hsc1 hsc2)
          (scope_subset_refl _)
      have hvr2 : visited_ranked rank (rank s.func)
          (set_insert StageBounds.lt ⟨s, cb2⟩ st2.visited) := by
        intro v hv
        rcases mem_of_mem_set_insert _ _ _ _ hv with h3 | h3
        · rw [h3]
        · exact hvr v h3
      have hext : ∀ m1 m2, (if f.has_extern_definition = true then
          extern_regions DA P prods orc s (p1 ++ DA.input_estimates)
            (DA.extern_arguments s.func)
            { st1 with visited := set_insert StageBounds.lt ⟨s, cb1⟩ st1.visited }
        else
          Except.ok { st1 with visited := set_insert StageBounds.lt ⟨s, cb1⟩ st1.visited })
          = Except.ok m1 →
        (if f.has_extern_definition = true then
          extern_regions DA P prods orc s (p2 ++ DA.input_estimates)
            (DA.extern_arguments s.func)
            { st2 with visited := set_insert StageBounds.lt ⟨s, cb2⟩ st2.visited }
        else
          Except.ok { st2 with visited := set_insert StageBounds.lt ⟨s, cb2⟩ st2.visited })
          = Except.ok m2 →
          state_subset m1 m2 ∧ visited_ranked rank (rank s.func) m2.visited := by
        intro m1 m2 g1 g2
        by_cases hx : f.has_extern_definition = true
        · rw [if_pos hx] at g1 g2
          refine ⟨extern_regions_mono DA P hm prods orc rank hacyc s _ _ hsc _
            { st1 with visited := set_insert StageBounds.lt ⟨s, cb1⟩ st1.visited }
            { st2 with visited := set_insert StageBounds.lt ⟨s, cb2⟩ st2.visited }
            m1 m2 (fun _ ha => ha) hst hvr2 g1 g2, ?_⟩
          have hv2 := (extern_regions_closed DA P prods orc s _ (fun _ => True) (fun _ => True)
            (fun _ => True) (set_insert StageBounds.lt ⟨s, cb2⟩ st2.visited)
            (fun _ _ _ => trivial) (fun _ _ _ _ _ _ _ => trivial) _
            { st2 with visited := set_insert StageBounds.lt ⟨s, cb2⟩ st2.visited } m2
            (fun arg _ => by cases arg <;> simp) rfl trivial trivial g2).2.2
          rw [hv2]
          exact hvr2
        · rw [if_neg hx] at g1 g2
          simp only [Except.ok.injEq] at g1 g2
          rw [← g1, ← g2]
          exact ⟨hst, hvr2⟩
      split at h1
      · exact absurd h1 (by simp)
      · next m1 g1 =>
        split at h2
        · exact absurd h2 (by simp)
        · next m2 g2 =>
          obtain ⟨hst2, hvr3⟩ := hext m1 m2 g1 g2
          split at h1
          · exact absurd h1 (by simp)
          · next n1 k1 =>
            split at h2
            · exact absurd h2 (by simp)
            · next n2 k2 =>
              simp only [Except.ok.injEq] at h1 h2
              rw [← h1, ← h2]
              obtain ⟨hr3, hq3⟩ := values_regions_mono DA P hm prods orc rank hacyc s _ _ hsc
                _ m1 m2 n1 n2 (fun _ ha => ha) hst2 hvr3 k1 k2
              exact ⟨hr3, map_le_erase_both _ _ _ s hq3⟩

/-! ### A pass over the functions is monotone -/

theorem process_stage_visited {ε : Type} (DA : DependenceAnalysis ε) (P : Primitives)
    (prods : List String) (orc : Bool) (rank : String → Nat) (hacyc : ranked_calls DA rank)
    (f : Function) (s : FStage) (cb : DimBounds) (st st1 : RegionState)
    (h : process_stage DA P prods orc f s cb st = Except.ok st1) :
    st1.visited = set_insert StageBounds.lt ⟨s, cb⟩ st.visited :=
  (process_stage_closed DA P prods orc rank hacyc (fun _ => True) (fun _ => True)
    (fun _ => True) f s cb st st1 (fun _ _ _ => trivial) (fun _ _ _ _ _ _ _ => trivial)
    (fun _ _ => trivial) trivial trivial h).2.2

theorem process_stage_visited_ranked {ε : Type} (DA : DependenceAnalysis ε) (P : Primitives)
    (prods : List String) (orc : Bool) (rank : String → Nat) (hacyc : ranked_calls DA rank)
    (f : Function) (s : FStage) (cb : DimBounds) (st st1 : RegionState) (r : Nat)
    (hr : r ≤ rank s.func) (hvr : visited_ranked rank r st.visited)
    (h : process_stage DA P prods orc f s cb st = Except.ok st1) :
    visited_ranked rank r st1.visited := by
  rw [process_stage_visited DA P prods orc rank hacyc f s cb st st1 h]
  intro v hv
  rcases mem_of_mem_set_insert _ _ _ _ hv with h3 | h3
  · rw [h3]; exact hr
  · exact hvr v h3

/-- The state after the work on a stage holds every state that the state
before holds and that has not queued the stage. -/
theorem process_stage_above {ε : Type} (DA : DependenceAnalysis ε) (P : Primitives)
    (hm : MonotonePrimitives DA P) (prods : List String) (orc : Bool) (rank : String → Nat)
    (hacyc : ranked_calls DA rank) (f : Function) (s : FStage) (cb : DimBounds)
    (st0 st st1 : RegionState) (hst : state_subset st0 st)
    (hnone : map_find st0.fs_bounds s = none)
    (h : process_stage DA P prods orc f s cb st = Except.ok st1) : state_subset st0 st1 := by
  obtain ⟨h1, h2, _⟩ := process_stage_closed DA P prods orc rank hacyc
    (fun r => regions_subset st0.regions r) (fun q => queue_subset st0.fs_bounds q)
    (fun q => queue_subset st0.fs_bounds q) f s cb st st1
    (fun reg r hr0 => regions_subset_trans _ _ _ hr0 (merge_region_extensive DA P hm r reg))
    (fun name region q n _ _ hq0 => queue_subset_trans _ _ _ hq0
      (queue_stage_extensive DA P hm _ _ _ q n
        (hm.get_stage_bounds_keys _ _ (prod_pure_bounds_nodup DA _ _) n)))
    (fun q hq0 => map_le_erase_right _ _ _ s hq0 hnone) hst.1 hst.2 h
  exact ⟨h1, h2⟩

theorem pass_stages_mono {ε : Type} (DA : DependenceAnalysis ε) (P : Primitives)
    (hm : MonotonePrimitives DA P) (prods : List String) (orc : Bool) (rank : String → Nat)
    (hacyc : ranked_calls DA rank) (f : Function) :
    ∀ (stages : List Nat) (st1 st2 r1 r2 : RegionState), state_subset st1 st2 →
      visited_ranked rank (rank f.name) st2.visited →
      pass_stages DA P prods orc f stages st1 = Except.ok r1 →
      pass_stages DA P prods orc f stages st2 = Except.ok r2 →
      state_subset r1 r2 ∧ visited_ranked rank (rank f.name) r2.visited := by
  intro stages
  induction stages with
  | nil =>
    intro st1 st2 r1 r2 hst hvr h1 h2
    simp only [pass_stages, Except.ok.injEq] at h1 h2
    rw [← h1, ← h2]
    exact ⟨hst, hvr⟩
  | cons n rest ih =>
    intro st1 st2 r1 r2 hst hvr h1 h2
    rw [pass_stages] at h1 h2
    cases hq2 : map_find st2.fs_bounds ⟨f.name, n⟩ with
    | none =>
      cases hq1 : map_find st1.fs_bounds ⟨f.name, n⟩ with
      | none =>
        rw [hq1] at h1
        rw [hq2] at h2
        exact ih st1 st2 r1 r2 hst hvr h1 h2
      | some cb1 =>
        obtain ⟨cb2, hcb2, _⟩ := hst.2 _ cb1 hq1
        rw [hq2] at hcb2
        exact absurd hcb2 (by simp)
    | some cb2 =>
      rw [hq2] at h2
      simp only [] at h2
      cases hp2 : process_stage DA P prods orc f ⟨f.name, n⟩ cb2 st2 with
      | error e => rw [hp2] at h2; exact absurd h2 (by simp)
      | ok m2 =>
        rw [hp2] at h2
        have hvr2 : visited_ranked rank (rank f.name) m2.visited :=
          process_stage_visited_ranked DA P prods orc rank hacyc f _ cb2 st2 m2 _
            (le_refl _) hvr hp2
        cases hq1 : map_find st1.fs_bounds ⟨f.name, n⟩ with
        | none =>
          rw [hq1] at h1
          exact ih st1 m2 r1 r2
            (process_stage_above DA P hm prods orc rank hacyc f _ cb2 st1 st2 m2 hst hq1 hp2)
            hvr2 h1 h2
        | some cb1 =>
          rw [hq1] at h1
          simp only [] at h1
          cases hp1 : process_stage DA P prods orc f ⟨f.name, n⟩ cb1 st1 with
          | error e => rw [hp1] at h1; exact absurd h1 (by simp)
          | ok m1 =>
            rw [hp1] at h1
            obtain ⟨cb3, hcb3, hle⟩ := hst.2 _ cb1 hq1
            rw [hq2] at hcb3
            simp only [Option.some.injEq] at hcb3
            subst hcb3
            exact ih m1 m2 r1 r2
              (process_stage_mono DA P hm prods orc rank hacyc f _ cb1 cb2 hle st1 st2 m1 m2
                hst hvr hp1 hp2)
              hvr2 h1 h2

/-- A pass over functions in the order of a ranking is monotone in the
state, when the second run has visited no stage of a function below the
functions of the pass. -/
theorem pass_functions_mono {ε : Type} (DA : DependenceAnalysis ε) (P : Primitives)
    (hm : MonotonePrimitives DA P) (prods : List String) (orc : Bool) (rank : String → Nat)
    (hacyc : ranked_calls DA rank) :
    ∀ (names : List String) (st1 st2 r1 r2 : RegionState),
      names.Pairwise (fun a b => rank b ≤ rank a) →
      (∀ n ∈ names, visited_ranked rank (rank n) st2.visited) → state_subset st1 st2 →
      pass_functions DA P prods orc names st1 = Except.ok r1 →
      pass_functions DA P prods orc names st2 = Except.ok r2 →
      state_subset r1 r2 := by
  intro names
  induction names with
  | nil =>
    intro st1 st2 r1 r2 _ _ hst h1 h2
    simp only [pass_functions, Except.ok.injEq] at h1 h2
    rw [← h1, ← h2]
    exact hst
  | cons name rest ih =>
    intro st1 st2 r1 r2 hpw hvr hst h1 h2
    rw [pass_functions] at h1 h2
    cases he : env_get DA.env name with
    | error e => rw [he] at h1; exact absurd h1 (by simp)
    | ok fn =>
      rw [he] at h1 h2
      simp only [] at h1 h2
      have hname : fn.name = name := env_find_name _ _ _ ((env_get_ok _ _ _).mp he)
      cases hp1 : pass_stages DA P prods orc fn (List.range (fn.updates + 1)) st1 with
      | error e => rw [hp1] at h1; exact absurd h1 (by simp)
      | ok m1 =>
        cases hp2 : pass_stages DA P prods orc fn (List.range (fn.updates + 1)) st2 with
        | error e => rw [hp2] at h2; exact absurd h2 (by simp)
        | ok m2 =>
          rw [hp1] at h1
          rw [hp2] at h2
          obtain ⟨hst2, hvr2⟩ := pass_stages_mono DA P hm prods orc rank hacyc fn _ st1 st2 m1 m2
            hst (by rw [hname]; exact hvr name (by simp)) hp1 hp2
          rw [List.pairwise_cons] at hpw
          refine ih m1 m2 r1 r2 hpw.2 ?_ hst2 h1 h2
          intro n hn v hv
          have h3 := hvr2 v hv
          have h4 := hpw.1 n hn
          rw [hname] at h3
          omega

/-! ### The traversal ends after one pass -/

/-- The work on a stage leaves a stage of a function of at least its rank out
of the queue, when the stage is the one worked on or is not queued. -/
theorem process_stage_none {ε : Type} (DA : DependenceAnalysis ε) (P : Primitives)
    (prods : List String) (orc : Bool) (rank : String → Nat) (hacyc : ranked_calls DA rank)
    (f : Function) (s : FStage) (cb : DimBounds) (st st1 : RegionState) (key : FStage)
    (hrank : rank s.func ≤ rank key.func)
    (hkey : key ≠ s → map_find st.fs_bounds key = none)
    (h : process_stage DA P prods orc f s cb st = Except.ok st1) :
    map_find st1.fs_bounds key = none := by
  refine (process_stage_closed DA P prods orc rank hacyc (fun _ => True)
    (fun q => key ≠ s → map_find q key = none) (fun q => map_find q key = none)
    f s cb st st1 (fun _ _ _ => trivial) ?_ ?_ trivial hkey h).2.1
  · intro name region q n hname _ hq0 hne
    have hk : (⟨name, n⟩ : FStage) ≠ key := by
      intro heq
      rw [← heq] at hrank
      simp only at hrank
      omega
    unfold queue_stage
    split
    · exact hq0 hne
    · split
      · rw [map_find_emplace_ne FStage.lt _ _ _ hk]
        exact hq0 hne
      · rw [map_find_assign_ne FStage.lt FStage_lt_trichotomy _ _ _ (Ne.symm hk)]
        exact hq0 hne
  · intro q hq0
    by_cases hks : key = s
    · rw [hks]
      exact map_find_erase_self s q
    · rw [map_find_erase_ne key s hks]
      exact hq0 hks

theorem pass_stages_none {ε : Type} (DA : DependenceAnalysis ε) (P : Primitives)
    (prods : List String) (orc : Bool) (rank : String → Nat) (hacyc : ranked_calls DA rank)
    (f : Function) (key : FStage) (hrank : rank f.name ≤ rank key.func) :
    ∀ (stages : List Nat) (st st1 : RegionState),
      (map_find st.fs_bounds key = none ∨ (key.func = f.name ∧ key.stage_num ∈ stages)) →
      pass_stages DA P prods orc f stages st = Except.ok st1 →
      map_find st1.fs_bounds key = none := by
  intro stages
  induction stages with
  | nil =>
    intro st st1 hk h
    simp only [pass_stages, Except.ok.injEq] at h
    rw [← h]
    rcases hk with hk | hk
    · exact hk
    · simp at hk
  | cons n rest ih =>
    intro st st1 hk h
    rw [pass_stages] at h
    cases hq : map_find st.fs_bounds ⟨f.name, n⟩ with
    | none =>
      rw [hq] at h
      refine ih st st1 ?_ h
      by_cases hkn : key = ⟨f.name, n⟩
      · left
        rw [hkn]
        exact hq
      · rcases hk with hk | hk
        · exact Or.inl hk
        · right
          refine ⟨hk.1, ?_⟩
          rcases List.mem_cons.mp hk.2 with h1 | h1
          · exfalso
            apply hkn
            cases key
            simp only [FStage.mk.injEq]
            exact ⟨hk.1, h1⟩
          · exact h1
    | some cb =>
      rw [hq] at h
      simp only [] at h
      cases hp : process_stage DA P prods orc f ⟨f.name, n⟩ cb st with
      | error e => rw [hp] at h; exact absurd h (by simp)
      | ok m =>
        rw [hp] at h
        refine ih m st1 ?_ h
        by_cases hkn : key = ⟨f.name, n⟩
        · left
          exact process_stage_none DA P prods orc rank hacyc f _ cb st m key hrank
            (fun hne => absurd hkn hne) hp
        · rcases hk with hk | hk
          · left
            exact process_stage_none DA P prods orc rank hacyc f _ cb st m key hrank
              (fun _ => hk) hp
          · right
            refine ⟨hk.1, ?_⟩
            rcases List.mem_cons.mp hk.2 with h1 | h1
            · exfalso
              apply hkn
              cases key
              simp only [FStage.mk.injEq]
              exact ⟨hk.1, h1⟩
            · exact h1

theorem pass_functions_keeps_none {ε : Type} (DA : DependenceAnalysis ε) (P : Primitives)
    (prods : List String) (orc : Bool) (rank : String → Nat) (hacyc : ranked_calls DA rank)
    (key : FStage) :
    ∀ (names : List String) (st st1 : RegionState),
      (∀ n ∈ names, rank n ≤ rank key.func) → map_find st.fs_bounds key = none →
      pass_functions DA P prods orc names st = Except.ok st1 →
      map_find st1.fs_bounds key = none := by
  intro names
  induction names with
  | nil =>
    intro st st1 _ hk h
    simp only [pass_functions, Except.ok.injEq] at h
    rw [← h]
    exact hk
  | cons name rest ih =>
    intro st st1 hr hk h
    rw [pass_functions] at h
    cases he : env_get DA.env name with
    | error e => rw [he] at h; exact absurd h (by simp)
    | ok fn =>
      rw [he] at h
      simp only [] at h
      have hname : fn.name = name := env_find_name _ _ _ ((env_get_ok _ _ _).mp he)
      cases hp : pass_stages DA P prods orc fn (List.range (fn.updates + 1)) st with
      | error e => rw [hp] at h; exact absurd h (by simp)
      | ok m =>
        rw [hp] at h
        exact ih m st1 (fun n hn => hr n (by simp [hn]))
          (pass_stages_none DA P prods orc rank hacyc fn key
            (by rw [hname]; exact hr name (by simp)) _ st m (Or.inl hk) hp) h

/-- After a pass in the order of a ranking no stage of a function of the
pass is queued. -/
theorem pass_functions_clears {ε : Type} (DA : DependenceAnalysis ε) (P : Primitives)
    (prods : List String) (orc : Bool) (rank : String → Nat) (hacyc : ranked_calls DA rank) :
    ∀ (names : List String) (st st1 : RegionState),
      names.Pairwise (fun a b => rank b ≤ rank a) →
      pass_functions DA P prods orc names st = Except.ok st1 →
      ∀ name ∈ names, ∀ fn, env_get DA.env name = Except.ok fn →
        ∀ n, n < fn.updates + 1 → map_find st1.fs_bounds ⟨fn.name, n⟩ = none := by
  intro names
  induction names with
  | nil => intro st st1 _ _ name hname; simp at hname
  | cons a rest ih =>
    intro st st1 hpw h name hmem fn hfn n hn
    rw [List.pairwise_cons] at hpw
    by_cases hin : name ∈ rest
    · rw [pass_functions] at h
      cases he : env_get DA.env a with
      | error e => rw [he] at h; exact absurd h (by simp)
      | ok fa =>
        rw [he] at h
        simp only [] at h
        cases hp : pass_stages DA P prods orc fa (List.range (fa.updates + 1)) st with
        | error e => rw [hp] at h; exact absurd h (by simp)
        | ok m =>
          rw [hp] at h
          exact ih m st1 hpw.2 h name hin fn hfn n hn
    · have hna : name = a := by
        rcases List.mem_cons.mp hmem with h1 | h1
        · exact h1
        · exact absurd h1 hin
      subst hna
      rw [pass_functions, hfn] at h
      simp only [] at h
      have hname : fn.name = name := env_find_name _ _ _ ((env_get_ok _ _ _).mp hfn)
      cases hp : pass_stages DA P prods orc fn (List.range (fn.updates + 1)) st with
      | error e => rw [hp] at h; exact absurd h (by simp)
      | ok m =>
        rw [hp] at h
        refine pass_functions_keeps_none DA P prods orc rank hacyc ⟨fn.name, n⟩ rest m st1
          (fun k hk => by simp only; rw [hname]; exact hpw.1 k hk) ?_ h
        exact pass_stages_none DA P prods orc rank hacyc fn ⟨fn.name, n⟩ (le_refl _) _ st m
          (Or.inr ⟨rfl, List.mem_range.mpr hn⟩) hp

theorem pass_stages_idle {ε : Type} (DA : DependenceAnalysis ε) (P : Primitives)
    (prods : List String) (orc : Bool) (f : Function) (st : RegionState) :
    ∀ (stages : List Nat), (∀ n ∈ stages, map_find st.fs_bounds ⟨f.name, n⟩ = none) →
      pass_stages DA P prods orc f stages st = Except.ok st := by
  intro stages
  induction stages with
  | nil => intro _; rfl
  | cons n rest ih =>
    intro hk
    rw [pass_stages, hk n (by simp)]
    exact ih (fun k hk0 => hk k (by simp [hk0]))

/-- A pass over a state in which no stage of a function of the pass is queued
changes nothing. -/
theorem pass_functions_idle {ε : Type} (DA : DependenceAnalysis ε) (P : Primitives)
    (prods : List String) (orc : Bool) (st : RegionState) :
    ∀ (names : List String) (st1 : RegionState),
      (∀ name ∈ names, ∀ fn, env_get DA.env name = Except.ok fn →
        ∀ n, n < fn.updates + 1 → map_find st.fs_bounds ⟨fn.name, n⟩ = none) →
      pass_functions DA P prods orc names st = Except.ok st1 → st1 = st := by
  intro names
  induction names with
  | nil =>
    intro st1 _ h
    simp only [pass_functions, Except.ok.injEq] at h
    exact h.symm
  | cons name rest ih =>
    intro st1 hk h
    rw [pass_functions] at h
    cases he : env_get DA.env name with
    | error e => rw [he] at h; exact absurd h (by simp)
    | ok fn =>
      rw [he] at h
      simp only [] at h
      rw [pass_stages_idle DA P prods orc fn st _
        (fun n hn => hk name (by simp) fn he n (List.mem_range.mp hn))] at h
      exact ih st1 (fun k hk0 => hk k (by simp [hk0])) h

theorem drain_queue_idle {ε : Type} (DA : DependenceAnalysis ε) (P : Primitives)
    (prods : List String) (orc : Bool) (st : RegionState)
    (hk : ∀ name ∈ DA.order.reverse, ∀ fn, env_get DA.env name = Except.ok fn →
      ∀ n, n < fn.updates + 1 → map_find st.fs_bounds ⟨fn.name, n⟩ = none) :
    ∀ (fuel : Nat) (st1 : RegionState),
      drain_queue DA P prods orc fuel st = Except.ok st1 → st1 = st := by
  intro fuel
  induction fuel with
  | zero => intro st1 h; simp [drain_queue] at h
  | succ n ih =>
    intro st1 h
    rw [drain_queue] at h
    split at h
    · simp only [Except.ok.injEq] at h
      exact h.symm
    · cases hp : pass_functions DA P prods orc DA.order.reverse st with
      | error e => rw [hp] at h; exact absurd h (by simp)
      | ok m =>
        rw [hp] at h
        simp only [] at h
        have hm := pass_functions_idle DA P prods orc st _ m hk hp
        rw [hm] at h
        exact ih st1 h

/-- A traversal in the order of a ranking that returns has made one pass over
the functions, or none when nothing was queued. -/
theorem drain_queue_one_pass {ε : Type} (DA : DependenceAnalysis ε) (P : Primitives)
    (prods : List String) (orc : Bool) (rank : String → Nat) (hacyc : ranked_calls DA rank)
    (hord : order_ranked DA rank) (fuel : Nat) (st st1 : RegionState)
    (hne : st.fs_bounds ≠ [])
    (h : drain_queue DA P prods orc fuel st = Except.ok st1) :
    pass_functions DA P prods orc DA.order.reverse st = Except.ok st1 := by
  cases fuel with
  | zero => simp [drain_queue] at h
  | succ n =>
    rw [drain_queue] at h
    have hempty : st.fs_bounds.isEmpty = false := by
      cases hq : st.fs_bounds with
      | nil => exact absurd hq hne
      | cons a rest => rfl
    simp only [hempty, Bool.false_eq_true, if_false] at h
    cases hp : pass_functions DA P prods orc DA.order.reverse st with
    | error e => rw [hp] at h; exact absurd h (by simp)
    | ok m =>
      rw [hp] at h
      simp only [] at h
      have hk := pass_functions_clears DA P prods orc rank hacyc _ st m hord hp
      rw [drain_queue_idle DA P prods orc m hk n st1 h]

/-! ### The regions made concrete -/

theorem concrete_interval_of_concrete {ε : Type} (DA : DependenceAnalysis ε) (name : String)
    (i : Nat) (bounds : Interval)
    (h : (env_find DA.env name).isSome = true →
      (as_const_int bounds.min).isSome = true ∧ (as_const_int bounds.max).isSome = true) :
    concrete_interval DA name i bounds = Except.ok bounds := by
  unfold concrete_interval
  cases he : (env_find DA.env name).isSome with
  | false => simp
  | true =>
    obtain ⟨h1, h2⟩ := h he
    have g1 : (as_const_int bounds.min).isNone = false := by
      cases hc : as_const_int bounds.min with
      | none => rw [hc] at h1; simp at h1
      | some v => rfl
    have g2 : (as_const_int bounds.max).isNone = false := by
      cases hc : as_const_int bounds.max with
      | none => rw [hc] at h2; simp at h2
      | some v => rfl
    simp [g1, g2]

theorem concrete_box_of_concrete {ε : Type} (DA : DependenceAnalysis ε) (name : String) :
    ∀ (box : Box) (i : Nat),
      ((env_find DA.env name).isSome = true → ∀ b ∈ box,
        (as_const_int b.min).isSome = true ∧ (as_const_int b.max).isSome = true) →
      concrete_box DA name i box = Except.ok box := by
  intro box
  induction box with
  | nil => intro i _; rfl
  | cons b rest ih =>
    intro i h
    rw [concrete_box, concrete_interval_of_concrete DA name i b (fun he => h he b (by simp))]
    simp only []
    rw [ih (i + 1) (fun he c hc => h he c (by simp [hc]))]

theorem concrete_regions_of_concrete {ε : Type} (DA : DependenceAnalysis ε) (P : Primitives) :
    ∀ (regs acc : List (String × Box)), regions_concrete DA P regs →
      concrete_regions DA P regs acc =
        Except.ok (regs.foldl (fun a e => map_assign string_lt e.1 (simplify_box P e.2) a) acc) := by
  intro regs
  induction regs with
  | nil => intro acc _; rfl
  | cons reg rest ih =>
    intro acc h
    rw [concrete_regions, concrete_box_of_concrete DA reg.1 (simplify_box P reg.2) 0]
    · simp only [List.foldl_cons]
      exact ih _ (fun e he => h e (by simp [he]))
    · intro he b hb
      unfold simplify_box at hb
      obtain ⟨i, hi, hib⟩ := List.mem_map.mp hb
      rw [← hib]
      exact h reg (by simp) he i hi

theorem simplified_regions_find (P : Primitives) :
    ∀ (regs acc : List (String × Box)), (regs.map Prod.fst).Nodup → ∀ k : String,
      map_find (regs.foldl (fun a e => map_assign string_lt e.1 (simplify_box P e.2) a) acc) k =
        match map_find regs k with
        | some b => some (simplify_box P b)
        | none => map_find acc k := by
  intro regs
  induction regs with
  | nil => intro acc _ k; rfl
  | cons reg rest ih =>
    intro acc hnd k
    obtain ⟨k1, b1⟩ := reg
    simp only [List.map_cons, List.nodup_cons] at hnd
    rw [List.foldl_cons, ih _ hnd.2 k]
    by_cases hk : k1 = k
    · subst hk
      have hnone : map_find rest k1 = none := by
        rw [map_find_eq_none_iff]
        intro e he heq
        exact hnd.1 (List.mem_map.mpr ⟨e, he, heq⟩)
      rw [hnone]
      simp only [map_find, if_true]
      exact map_find_assign_self string_lt string_lt_irrefl string_lt_trichotomy _ _ _
    · simp only [map_find, hk, if_false]
      cases map_find rest k with
      | none =>
        simp only []
        exact map_find_assign_ne string_lt string_lt_trichotomy k1 k _ (Ne.symm hk) acc
      | some b => rfl

theorem simplify_box_mono {ε : Type} (DA : DependenceAnalysis ε) (P : Primitives)
    (hm : MonotonePrimitives DA P) (b1 b2 : Box) (h : box_subset b1 b2) :
    box_subset (simplify_box P b1) (simplify_box P b2) := by
  intro i x hx
  unfold simplify_box at hx ⊢
  rw [List.getElem?_map] at hx ⊢
  cases h1 : b1[i]? with
  | none => rw [h1] at hx; simp at hx
  | some y1 =>
    rw [h1] at hx
    simp only [Option.map_some', Option.some.injEq] at hx
    obtain ⟨y2, hy2, hle⟩ := h i y1 h1
    rw [hy2]
    refine ⟨_, rfl, ?_⟩
    rw [← hx]
    exact simplify_interval_mono DA P hm y1 y2 hle

/-- The regions that are made concrete without an estimate are monotone in
the regions found. -/
theorem concrete_regions_mono {ε : Type} (DA : DependenceAnalysis ε) (P : Primitives)
    (hm : MonotonePrimitives DA P) (regs1 regs2 r1 r2 : List (String × Box))
    (hs1 : regs1.Pairwise (fun a b => string_lt a.1 b.1 = true))
    (hs2 : regs2.Pairwise (fun a b => string_lt a.1 b.1 = true))
    (hc1 : regions_concrete DA P regs1) (hc2 : regions_concrete DA P regs2)
    (hle : regions_subset regs1 regs2)
    (h1 : concrete_regions DA P regs1 [] = Except.ok r1)
    (h2 : concrete_regions DA P regs2 [] = Except.ok r2) : regions_subset r1 r2 := by
  rw [concrete_regions_of_concrete DA P regs1 [] hc1] at h1
  rw [concrete_regions_of_concrete DA P regs2 [] hc2] at h2
  simp only [Except.ok.injEq] at h1 h2
  intro k v1 hv1
  rw [← h1, simplified_regions_find P regs1 [] (sorted_regions_nodup _ hs1) k] at hv1
  rw [← h2, simplified_regions_find P regs2 [] (sorted_regions_nodup _ hs2) k]
  cases hf1 : map_find regs1 k with
  | none => rw [hf1] at hv1; simp [map_find] at hv1
  | some b1 =>
    rw [hf1] at hv1
    simp only [Option.some.injEq] at hv1
    obtain ⟨b2, hb2, hb⟩ := hle k b1 hf1
    rw [hb2]
    refine ⟨_, rfl, ?_⟩
    rw [← hv1]
    exact simplify_box_mono DA P hm b1 b2 hb

/-! ### The regions found are sorted -/

theorem pass_stages_regions_closed {ε : Type} (DA : DependenceAnalysis ε) (P : Primitives)
    (prods : List String) (orc : Bool) (rank : String → Nat) (hacyc : ranked_calls DA rank)
    (IR : List (String × Box) → Prop)
    (hr : ∀ reg r, IR r → IR (merge_region DA.merge_boxes r reg)) (f : Function) :
    ∀ (stages : List Nat) (st st1 : RegionState), IR st.regions →
      pass_stages DA P prods orc f stages st = Except.ok st1 → IR st1.regions := by
  intro stages
  induction stages with
  | nil =>
    intro st st1 h0 h
    simp only [pass_stages, Except.ok.injEq] at h
    rw [← h]
    exact h0
  | cons n rest ih =>
    intro st st1 h0 h
    rw [pass_stages] at h
    cases hq : map_find st.fs_bounds ⟨f.name, n⟩ with
    | none =>
      rw [hq] at h
      exact ih st st1 h0 h
    | some cb =>
      rw [hq] at h
      simp only [] at h
      cases hp : process_stage DA P prods orc f ⟨f.name, n⟩ cb st with
      | error e => rw [hp] at h; exact absurd h (by simp)
      | ok m =>
        rw [hp] at h
        exact ih m st1
          (process_stage_closed DA P prods orc rank hacyc IR (fun _ => True) (fun _ => True)
            f _ cb st m hr (fun _ _ _ _ _ _ _ => trivial) (fun _ _ => trivial) h0 trivial hp).1
          h

theorem pass_functions_regions_closed {ε : Type} (DA : DependenceAnalysis ε) (P : Primitives)
    (prods : List String) (orc : Bool) (rank : String → Nat) (hacyc : ranked_calls DA rank)
    (IR : List (String × Box) → Prop)
    (hr : ∀ reg r, IR r → IR (merge_region DA.merge_boxes r reg)) :
    ∀ (names : List String) (st st1 : RegionState), IR st.regions →
      pass_functions DA P prods orc names st = Except.ok st1 → IR st1.regions := by
  intro names
  induction names with
  | nil =>
    intro st st1 h0 h
    simp only [pass_functions, Except.ok.injEq] at h
    rw [← h]
    exact h0
  | cons name rest ih =>
    intro st st1 h0 h
    rw [pass_functions] at h
    cases he : env_get DA.env name with
    | error e => rw [he] at h; exact absurd h (by simp)
    | ok fn =>
      rw [he] at h
      simp only [] at h
      cases hp : pass_stages DA P prods orc fn (List.range (fn.updates + 1)) st with
      | error e => rw [hp] at h; exact absurd h (by simp)
      | ok m =>
        rw [hp] at h
        exact ih m st1
          (pass_stages_regions_closed DA P prods orc rank hacyc IR hr fn _ st m h0 hp) h

/-- What a call of `regions_required` that returns has computed, under a
ranking of the calls and of the order of the traversal and on a cache of
computed answers: one pass over the functions has left the state whose
regions, which are sorted by function, are made concrete to the result. -/
theorem regions_required_one_pass {ε : Type} (DA : DependenceAnalysis ε) (P : Primitives)
    (rank : String → Nat) (hacyc : ranked_calls DA rank) (hord : order_ranked DA rank)
    (cache : RegionsCache) (hcons : cache_consistent DA P cache) (fuel : Nat) (f : String)
    (s : Nat) (bounds : DimBounds) (prods : List String) (orc : Bool)
    (r : List (String × Box)) (c : RegionsCache)
    (h : DA.regions_required P fuel cache f s bounds prods orc = Except.ok (r, c)) :
    ∃ st, pass_functions DA P prods orc DA.order.reverse ⟨[(⟨f, s⟩, bounds)], [], []⟩ =
        Except.ok st ∧
      st.regions.Pairwise (fun a b => string_lt a.1 b.1 = true) ∧
      concrete_regions DA P st.regions [] = Except.ok r := by
  obtain ⟨fuel0, h0⟩ := regions_required_computed DA P cache hcons fuel f s bounds prods orc r c h
  unfold DependenceAnalysis.compute_regions at h0
  cases hd : drain_queue DA P prods orc fuel0 ⟨[(⟨f, s⟩, bounds)], [], []⟩ with
  | error e => rw [hd] at h0; exact absurd h0 (by simp)
  | ok st =>
    rw [hd] at h0
    have hp := drain_queue_one_pass DA P prods orc rank hacyc hord fuel0 _ st (by simp) hd
    refine ⟨st, hp, ?_, h0⟩
    exact pass_functions_regions_closed DA P prods orc rank hacyc
      (fun r => r.Pairwise (fun a b => string_lt a.1 b.1 = true))
      (fun reg r hr0 => merge_region_sorted _ r reg hr0) _ _ st List.Pairwise.nil hp

theorem initial_state_subset (f : String) (s : Nat) (b1 b2 : DimBounds)
    (hb : bounds_subset b1 b2) :
    state_subset ⟨[(⟨f, s⟩, b1)], [], []⟩ ⟨[(⟨f, s⟩, b2)], [], []⟩ := by
  constructor
  · exact regions_subset_refl []
  · intro k v hv
    simp only [map_find] at hv ⊢
    split at hv
    · next hk =>
      simp only [Option.some.injEq] at hv
      rw [if_pos hk, ← hv]
      exact ⟨b2, rfl, hb⟩
    · exact absurd hv (by simp)

/-! ### The worked query is monotone -/

theorem bound_value_finite (env : String → Int) (e : Expr) (h1 : e ≠ Interval.neg_inf)
    (h2 : e ≠ Interval.pos_inf) :
    e.bound_value env = (((e.eval env : Int) : WithTop Int) : WithBot (WithTop Int)) := by
  simp [Expr.bound_value, h1, h2]

theorem bound_value_int (env : String → Int) (v : Int) :
    (Expr.IntImm v).bound_value env = ((v : WithTop Int) : WithBot (WithTop Int)) :=
  bound_value_finite env _ (fun h => by cases h) (fun h => by cases h)

theorem example_make_min_value (a b : Expr) (env : String → Int) :
    (example_make_min a b).bound_value env = min (a.bound_value env) (b.bound_value env) := by
  unfold example_make_min
  by_cases h1 : a = Interval.pos_inf
  · rw [if_pos h1, h1, bound_value_pos_inf]
    exact (min_eq_right le_top).symm
  · rw [if_neg h1]
    by_cases h2 : b = Interval.pos_inf
    · rw [if_pos h2, h2, bound_value_pos_inf]
      exact (min_eq_left le_top).symm
    · rw [if_neg h2]
      by_cases h3 : a = Interval.neg_inf
      · rw [if_pos (Or.inl h3), h3, bound_value_neg_inf]
        exact (min_eq_left bot_le).symm
      · by_cases h4 : b = Interval.neg_inf
        · rw [if_pos (Or.inr h4), h4, bound_value_neg_inf]
          exact (min_eq_right bot_le).symm
        · rw [if_neg (fun h => h.elim h3 h4), bound_value_finite env a h3 h1,
            bound_value_finite env b h4 h2]
          split
          · rw [bound_value_int]
            simp [Expr.eval]
          · rw [bound_value_finite env _ (fun h => by cases h) (fun h => by cases h)]
            simp [Expr.eval]

theorem example_make_max_value (a b : Expr) (env : String → Int) :
    (example_make_max a b).bound_value env = max (a.bound_value env) (b.bound_value env) := by
  unfold example_make_max
  by_cases h1 : a = Interval.neg_inf
  · rw [if_pos h1, h1, bound_value_neg_inf]
    exact (max_eq_right bot_le).symm
  · rw [if_neg h1]
    by_cases h2 : b = Interval.neg_inf
    · rw [if_pos h2, h2, bound_value_neg_inf]
      exact (max_eq_left bot_le).symm
    · rw [if_neg h2]
      by_cases h3 : a = Interval.pos_inf
      · rw [if_pos (Or.inl h3), h3, bound_value_pos_inf]
        exact (max_eq_left le_top).symm
      · by_cases h4 : b = Interval.pos_inf
        · rw [if_pos (Or.inr h4), h4, bound_value_pos_inf]
          exact (max_eq_right le_top).symm
        · rw [if_neg (fun h => h.elim h3 h4), bound_value_finite env a h1 h3,
            bound_value_finite env b h2 h4]
          split
          · rw [bound_value_int]
            simp [Expr.eval]
          · rw [bound_value_finite env _ (fun h => by cases h) (fun h => by cases h)]
            simp [Expr.eval]

theorem box_subset_nil (c : Box) : box_subset [] c := by
  intro i x hx
  simp at hx

theorem box_subset_cons (x y : Interval) (as bs : Box) :
    box_subset (x :: as) (y :: bs) ↔ x.subset y ∧ box_subset as bs := by
  constructor
  · intro h
    constructor
    · obtain ⟨y1, hy1, hxy⟩ := h 0 x (by simp)
      simp only [List.getElem?_cons_zero, Option.some.injEq] at hy1
      rw [hy1]
      exact hxy
    · intro i z hz
      have := h (i + 1) z (by simpa using hz)
      simpa using this
  · rintro ⟨h1, h2⟩ i z hz
    cases i with
    | zero =>
      simp only [List.getElem?_cons_zero, Option.some.injEq] at hz
      rw [← hz]
      exact ⟨y, by simp, h1⟩
    | succ n =>
      simp only [List.getElem?_cons_succ] at hz ⊢
      exact h2 n z hz

theorem box_subset_cons_nil (x : Interval) (as : Box) : ¬ box_subset (x :: as) [] := by
  intro h
  obtain ⟨y, hy, _⟩ := h 0 x (by simp)
  simp at hy

theorem example_merge_boxes_left : ∀ a b : Box, box_subset a (example_merge_boxes a b) := by
  intro a
  induction a with
  | nil => intro b; exact box_subset_nil _
  | cons x as ih =>
    intro b
    cases b with
    | nil => exact box_subset_refl _
    | cons y bs =>
      rw [example_merge_boxes, box_subset_cons]
      refine ⟨?_, ih bs⟩
      intro env
      simp only [example_make_min_value, example_make_max_value]
      exact ⟨min_le_left _ _, le_max_left _ _⟩

theorem example_merge_boxes_right : ∀ a b : Box, box_subset b (example_merge_boxes a b) := by
  intro a
  induction a with
  | nil =>
    intro b
    cases b with
    | nil => exact box_subset_refl _
    | cons y bs => exact box_subset_refl _
  | cons x as ih =>
    intro b
    cases b with
    | nil => exact box_subset_nil _
    | cons y bs =>
      rw [example_merge_boxes, box_subset_cons]
      refine ⟨?_, ih bs⟩
      intro env
      simp only [example_make_min_value, example_make_max_value]
      exact ⟨min_le_right _ _, le_max_right _ _⟩

theorem example_merge_boxes_least :
    ∀ a b c : Box, box_subset a c → box_subset b c → box_subset (example_merge_boxes a b) c := by
  intro a
  induction a with
  | nil =>
    intro b c _ hb
    cases b with
    | nil => exact box_subset_nil _
    | cons y bs => exact hb
  | cons x as ih =>
    intro b c ha hb
    cases b with
    | nil => exact ha
    | cons y bs =>
      cases c with
      | nil => exact absurd ha (box_subset_cons_nil x as)
      | cons z cs =>
        rw [box_subset_cons] at ha hb
        rw [example_merge_boxes, box_subset_cons]
        refine ⟨?_, ih bs cs ha.2 hb.2⟩
        intro env
        simp only [example_make_min_value, example_make_max_value]
        exact ⟨le_min (ha.1 env).1 (hb.1 env).1, max_le (ha.1 env).2 (hb.1 env).2⟩

theorem example_scope_bounds_mono (v : String) :
    ∀ (s1 s2 : Scope), scope_subset s1 s2 →
      (example_scope_bounds s1 v).subset (example_scope_bounds s2 v) := by
  intro s1
  induction s1 with
  | nil =>
    intro s2 h
    cases h
    exact Interval_subset_refl _
  | cons a rest ih =>
    intro s2 h
    cases h with
    | cons hab htl =>
      rename_i b rest2
      obtain ⟨k1, i1⟩ := a
      obtain ⟨k2, i2⟩ := b
      simp only at hab
      obtain ⟨hk, hi⟩ := hab
      subst hk
      have ih2 := ih rest2 htl
      unfold example_scope_bounds at ih2 ⊢
      simp only [map_find]
      by_cases hk : k1 = v
      · simp only [hk, if_true]
        exact hi
      · simp only [hk, if_false]
        exact ih2

theorem regions_subset_singleton (k : String) (b1 b2 : Box) (h : box_subset b1 b2) :
    regions_subset [(k, b1)] [(k, b2)] := by
  intro k2 v hv
  simp only [map_find] at hv ⊢
  split at hv
  · next hk =>
    simp only [Option.some.injEq] at hv
    rw [if_pos hk, ← hv]
    exact ⟨b2, rfl, h⟩
  · exact absurd hv (by simp)

theorem bounds_subset_singleton (k : String) (i1 i2 : Interval) (h : i1.subset i2) :
    bounds_subset [(k, i1)] [(k, i2)] := by
  intro k2 v hv
  simp only [map_find] at hv ⊢
  split at hv
  · next hk =>
    simp only [Option.some.injEq] at hv
    rw [if_pos hk, ← hv]
    exact ⟨i2, rfl, h⟩
  · exact absurd hv (by simp)

theorem example_interval_subset (lo1 hi1 lo2 hi2 : Int) (h1 : lo2 ≤ lo1) (h2 : hi1 ≤ hi2) :
    (example_interval lo1 hi1).subset (example_interval lo2 hi2) := by
  intro env
  unfold example_interval
  simp only
  simp only [bound_value_int, WithBot.coe_le_coe, WithTop.coe_le_coe]
  exact ⟨h1, h2⟩

/-- The primitives of the worked query are monotone. -/
theorem example_monotone_primitives :
    MonotonePrimitives example_monotone_dependence example_identity_primitives where
  simplify_value := fun _ _ => rfl
  substitute_mono := fun _ _ h env => h env
  make_min_value := fun a b env _ _ => example_make_min_value a b env
  make_max_value := fun a b env _ _ => example_make_max_value a b env
  boxes_required_sorted := by
    intro e scope
    show (if e = "g(x)" then [("g", [example_scope_bounds scope "x"])]
      else if e = "g(r) + 1" then [("g", [example_scope_bounds scope "r"])]
      else ([] : List (String × Box))).Pairwise (fun a b => string_lt a.1 b.1 = true)
    split
    · simp
    · split <;> simp
  boxes_required_mono := by
    intro e s1 s2 h
    show regions_subset
      (if e = "g(x)" then [("g", [example_scope_bounds s1 "x"])]
        else if e = "g(r) + 1" then [("g", [example_scope_bounds s1 "r"])] else [])
      (if e = "g(x)" then [("g", [example_scope_bounds s2 "x"])]
        else if e = "g(r) + 1" then [("g", [example_scope_bounds s2 "r"])] else [])
    split
    · exact regions_subset_singleton _ _ _
        ((box_subset_cons _ _ _ _).mpr ⟨example_scope_bounds_mono _ s1 s2 h, box_subset_nil _⟩)
    · split
      · exact regions_subset_singleton _ _ _
          ((box_subset_cons _ _ _ _).mpr ⟨example_scope_bounds_mono _ s1 s2 h, box_subset_nil _⟩)
      · exact regions_subset_refl _
  bounds_of_expr_mono := fun e s1 s2 h => example_scope_bounds_mono e s1 s2 h
  merge_boxes_left := example_merge_boxes_left
  merge_boxes_right := example_merge_boxes_right
  merge_boxes_least := example_merge_boxes_least
  get_stage_bounds_keys := by
    intro name p hp s
    show (((if name = "g" then [p, [("r", example_interval 0 255)]] else [p]).getD s []).map
      Prod.fst).Nodup
    split
    · cases s with
      | zero => simpa using hp
      | succ n =>
        cases n with
        | zero => simp
        | succ m => simp
    · cases s with
      | zero => simpa using hp
      | succ n => simp
  get_stage_bounds_mono := by
    intro name p1 p2 hp s
    show bounds_subset
      ((if name = "g" then [p1, [("r", example_interval 0 255)]] else [p1]).getD s [])
      ((if name = "g" then [p2, [("r", example_interval 0 255)]] else [p2]).getD s [])
    split
    · cases s with
      | zero => simpa using hp
      | succ n =>
        cases n with
        | zero => simpa using bounds_subset_refl _
        | succ m => simpa using bounds_subset_refl []
    · cases s with
      | zero => simpa using hp
      | succ n => simpa using bounds_subset_refl []

theorem example_monotone_ranked : ranked_calls example_monotone_dependence example_rank :=
  example_dependence_ranked

theorem example_monotone_order : order_ranked example_monotone_dependence example_rank := by
  show List.Pairwise (fun a b => example_rank b ≤ example_rank a) ["f", "g"]
  simp only [List.pairwise_cons, List.mem_singleton, forall_eq, List.not_mem_nil,
    false_implies, implies_true, List.Pairwise.nil, and_true]
  decide

/-- C32, as amended.  Under monotone primitives, a ranking of the calls and
an order of the traversal that follows it, two calls of `regions_required`
that return for the same stage, producers and flag, for bounds `b1` within
`b2` and on caches of computed answers, have each made one pass over the
functions; the regions that the pass for `b1` finds lie within those that the
pass for `b2` finds, function by function and interval by interval; and the
results, the regions found made concrete, lie within each other as well when
no bound of the regions found is replaced by an estimate. -/
theorem region_solver_monotone {ε : Type} (DA : DependenceAnalysis ε) (P : Primitives)
    (hm : MonotonePrimitives DA P) (rank : String → Nat) (hacyc : ranked_calls DA rank)
    (hord : order_ranked DA rank) (f : String) (s : Nat) (prods : List String) (orc : Bool)
    (b1 b2 : DimBounds) (hb : bounds_subset b1 b2) (cache1 cache2 : RegionsCache)
    (hc1 : cache_consistent DA P cache1) (hc2 : cache_consistent DA P cache2)
    (fuel1 fuel2 : Nat) (r1 r2 : List (String × Box)) (c1 c2 : RegionsCache)
    (h1 : DA.regions_required P fuel1 cache1 f s b1 prods orc = Except.ok (r1, c1))
    (h2 : DA.regions_required P fuel2 cache2 f s b2 prods orc = Except.ok (r2, c2)) :
    ∃ st1 st2,
      pass_functions DA P prods orc DA.order.reverse ⟨[(⟨f, s⟩, b1)], [], []⟩ = Except.ok st1 ∧
      pass_functions DA P prods orc DA.order.reverse ⟨[(⟨f, s⟩, b2)], [], []⟩ = Except.ok st2 ∧
      concrete_regions DA P st1.regions [] = Except.ok r1 ∧
      concrete_regions DA P st2.regions [] = Except.ok r2 ∧
      regions_subset st1.regions st2.regions ∧
      (regions_concrete DA P st1.regions → regions_concrete DA P st2.regions →
        regions_subset r1 r2) := by
  obtain ⟨st1, hp1, hs1, hr1⟩ := regions_required_one_pass DA P rank hacyc hord cache1 hc1
    fuel1 f s b1 prods orc r1 c1 h1
  obtain ⟨st2, hp2, hs2, hr2⟩ := regions_required_one_pass DA P rank hacyc hord cache2 hc2
    fuel2 f s b2 prods orc r2 c2 h2
  have hle := pass_functions_mono DA P hm prods orc rank hacyc DA.order.reverse _ _ st1 st2
    hord (fun n _ v hv => by simp at hv) (initial_state_subset f s b1 b2 hb) hp1 hp2
  exact ⟨st1, st2, hp1, hp2, hr1, hr2, hle.1,
    fun hk1 hk2 => concrete_regions_mono DA P hm _ _ r1 r2 hs1 hs2 hk1 hk2 hle.1 hr1 hr2⟩

theorem region_solver_monotone_witness :
    bounds_subset [("x", example_interval 2 8)] [("x", example_interval 0 10)] ∧
    ∃ st1 st2,
      pass_functions example_monotone_dependence example_identity_primitives ["g"] false
        example_monotone_dependence.order.reverse
        ⟨[(⟨"f", 0⟩, [("x", example_interval 2 8)])], [], []⟩ = Except.ok st1 ∧
      pass_functions example_monotone_dependence example_identity_primitives ["g"] false
        example_monotone_dependence.order.reverse
        ⟨[(⟨"f", 0⟩, [("x", example_interval 0 10)])], [], []⟩ = Except.ok st2 ∧
      concrete_regions example_monotone_dependence example_identity_primitives st1.regions [] =
        Except.ok [("f", [example_interval 2 8]), ("g", [example_interval 0 255])] ∧
      concrete_regions example_monotone_dependence example_identity_primitives st2.regions [] =
        Except.ok [("f", [example_interval 0 10]), ("g", [example_interval 0 255])] ∧
      regions_subset st1.regions st2.regions ∧
      (regions_concrete example_monotone_dependence example_identity_primitives st1.regions →
        regions_concrete example_monotone_dependence example_identity_primitives st2.regions →
        regions_subset [("f", [example_interval 2 8]), ("g", [example_interval 0 255])]
          [("f", [example_interval 0 10]), ("g", [example_interval 0 255])]) :=
  ⟨bounds_subset_singleton "x" _ _ (example_interval_subset 2 8 0 10 (by decide) (by decide)),
    region_solver_monotone example_monotone_dependence example_identity_primitives
      example_monotone_primitives example_rank example_monotone_ranked example_monotone_order
      "f" 0 ["g"] false [("x", example_interval 2 8)] [("x", example_interval 0 10)]
      (bounds_subset_singleton "x" _ _ (example_interval_subset 2 8 0 10 (by decide) (by decide)))
      [] []
      (cache_consistent_nil example_monotone_dependence example_identity_primitives)
      (cache_consistent_nil example_monotone_dependence example_identity_primitives) 2 2
      [("f", [example_interval 2 8]), ("g", [example_interval 0 255])]
      [("f", [example_interval 0 10]), ("g", [example_interval 0 255])]
      [(⟨"f", 0, ["g"], false⟩,
        [⟨[("x", example_interval 2 8)],
          [("f", [example_interval 2 8]), ("g", [example_interval 0 255])]⟩])]
      [(⟨"f", 0, ["g"], false⟩,
        [⟨[("x", example_interval 0 10)],
          [("f", [example_interval 0 10]), ("g", [example_interval 0 255])]⟩])]
      (by decide) (by decide)⟩

/-- The worked query against C32 as stated: with the estimate `x` from 5 for
the producer `g` and monotone primitives, the bounds `x` in `[0, 10]` lie
within the bounds with `x` up to 10 and no lower bound, and the region of `g`
is `[0, 10]` for the former and `[5, 10]`, with the lower bound taken from
the estimate, for the latter. -/
theorem region_solver_monotone_counterexample :
    MonotonePrimitives example_monotone_dependence example_identity_primitives ∧
    bounds_subset [("x", example_interval 0 10)]
      [("x", ⟨Interval.neg_inf, Expr.IntImm 10⟩)] ∧
    (example_monotone_dependence.regions_required example_identity_primitives 2 [] "f" 0
      [("x", example_interval 0 10)] ["g"] true).toOption.map Prod.fst =
      some [("g", [example_interval 0 10])] ∧
    (example_monotone_dependence.regions_required example_identity_primitives 2 [] "f" 0
      [("x", ⟨Interval.neg_inf, Expr.IntImm 10⟩)] ["g"] true).toOption.map Prod.fst =
      some [("g", [example_interval 5 10])] ∧
    ¬ regions_subset [("g", [example_interval 0 10])] [("g", [example_interval 5 10])] := by
  refine ⟨example_monotone_primitives, ?_, by decide, by decide, ?_⟩
  · refine bounds_subset_singleton "x" _ _ ?_
    intro env
    unfold example_interval
    simp only [bound_value_neg_inf, bot_le, le_refl, and_self]
  · intro h
    obtain ⟨b, hb, hle⟩ := h "g" [example_interval 0 10] (by decide)
    simp only [map_find, if_true, Option.some.injEq] at hb
    rw [← hb, box_subset_cons] at hle
    have h0 := (hle.1 (fun _ => 0)).1
    unfold example_interval at h0
    simp only at h0
    simp only [bound_value_int, WithBot.coe_le_coe, WithTop.coe_le_coe] at h0
    exact absurd h0 (by decide)

/-! ### The consumer sets are never empty -/

theorem children_insert_nonempty (children : List (FStage × List FStage))
    (prod_stage cons_stage : FStage) (hch : ∀ e ∈ children, e.2 ≠ []) :
    ∀ e ∈ children_insert children prod_stage cons_stage, e.2 ≠ [] := by
  intro e he
  unfold children_insert at he
  rcases mem_map_assign FStage.lt FStage_lt_trichotomy _ _ _ e he with h | h
  · exact hch e h
  · rw [h]
    exact set_insert_ne_nil _ _ _

theorem add_stage_children_nonempty (env : List Function) (D : StageDefinitions) (f : String)
    (s : Nat) (children : List (FStage × List FStage)) (hch : ∀ e ∈ children, e.2 ≠ []) :
    ∀ e ∈ add_stage_children env D f s children, e.2 ≠ [] := by
  unfold add_stage_children
  simp only []
  have h1 := foldl_invariant
    (fun ch : List (FStage × List FStage) => ∀ e ∈ ch, e.2 ≠ [])
    (fun (ch : List (FStage × List FStage)) (c : String) =>
      match env_find env c with
      | some prod_func =>
        if c ≠ f then children_insert ch ⟨prod_func.name, prod_func.updates⟩ ⟨f, s⟩ else ch
      | none => ch)
    (D.parents ⟨f, s⟩) children hch
    (by
      intro ch c _ hc
      simp only []
      split
      · split
        · exact children_insert_nonempty _ _ _ hc
        · exact hc
      · exact hc)
  split
  · exact children_insert_nonempty _ _ _ h1
  · exact h1

theorem initial_children_nonempty (env : List Function) (D : StageDefinitions) :
    ∀ e ∈ initial_children env D, e.2 ≠ [] := by
  unfold initial_children
  refine foldl_invariant (fun ch : List (FStage × List FStage) => ∀ e ∈ ch, e.2 ≠ [])
    _ env [] (by intro e he; simp at he) ?_
  intro ch f _ hc
  exact foldl_invariant (fun ch : List (FStage × List FStage) => ∀ e ∈ ch, e.2 ≠ [])
    (fun ch1 s => add_stage_children env D f.name s ch1) _ ch hc
    (fun ch1 s _ hc1 => add_stage_children_nonempty env D f.name s ch1 hc1)

theorem nested_children_nonempty (env : List Function) (D : StageDefinitions)
    (groups : List (FStage × Group)) : ∀ e ∈ nested_children env D groups, e.2 ≠ [] := by
  unfold nested_children
  exact foldl_invariant (fun ch : List (FStage × List FStage) => ∀ e ∈ ch, e.2 ≠ [])
    (fun ch (g : FStage × Group) => add_stage_children env D g.1.func g.1.stage_num ch)
    groups [] (by intro e he; simp at he)
    (fun ch g _ hc => add_stage_children_nonempty env D g.1.func g.1.stage_num ch hc)

theorem initialize_groups_children (P : Primitives) (an : AnalyzeGroup) (D : StageDefinitions)
    (part part1 : Partitioner) (h : part.initialize_groups P an D = Except.ok part1) :
    part1.children = part.children := by
  unfold Partitioner.initialize_groups at h
  split at h
  · exact absurd h (by simp)
  · simp only [Except.ok.injEq] at h
    rw [← h]

/-- In every state of a partitioner the consumer sets of `children` are
non-empty: the constructor and the nested partitioner create an entry only by
inserting a consumer, `initialize_groups` leaves `children` as it is, and a
merge replaces a consumer by the non-empty set of the consumers of the merged
producer. -/
theorem reachable_children_nonempty (D : StageDefinitions) (part : Partitioner)
    (h : Partitioner.reachable D part) : ∀ e ∈ part.children, e.2 ≠ [] := by
  induction h with
  | construct arch_params env outputs unbounded part hc =>
    rw [(construct_children arch_params env D outputs unbounded part hc).1]
    exact initial_children_nonempty env D
  | nested part group _ _ => exact nested_children_nonempty _ _ _
  | init_groups P an part part1 _ hi ih =>
    rw [initialize_groups_children P an D part part1 hi]
    exact ih
  | turn P EV level tile_bounds part part1 fixpoint _ ht ih =>
    exact group_iteration_children_nonempty P EV level tile_bounds part part1 fixpoint ih ht
  | turn_recurse P EVR part part1 fixpoint _ ht ih =>
    exact group_recurse_iteration_children_nonempty P EVR part part1 fixpoint ih ht

/-- C10: at `Inline` level every emitted candidate has a producer that is a
pure function, without update definition, whose final stage has an entry in
`children`, with a non-empty consumer set; the consumer name of the
candidate is empty.  This holds in every state of a partitioner: the state
that the constructor returns, the first state of a nested partitioner, and
every state that `initialize_groups` and the turns of the loops of `group`
and `group_recurse` make of these, in all of which the sets stored in
`children` are non-empty. -/
theorem inline_pure_producers (D : StageDefinitions) (part : Partitioner)
    (hreach : Partitioner.reachable D part) (groups : List (FStage × Group))
    (outputs : List Function) (cand : List (String × String))
    (h : part.get_grouping_candidate groups outputs Level.Inline = Except.ok cand) :
    (∀ e ∈ part.children, e.2 ≠ []) ∧
    ∀ pc ∈ cand, ∃ prod_f cs, env_find part.env pc.1 = some prod_f ∧
      prod_f.is_pure = true ∧ prod_f.has_update_definition = false ∧ prod_f.updates = 0 ∧
      (⟨pc.1, prod_f.updates⟩ : FStage) ∈ groups.map Prod.fst ∧
      map_find part.children (⟨pc.1, prod_f.updates⟩ : FStage) = some cs ∧ cs ≠ [] ∧
      pc.2 = "" := by
  have hch := reachable_children_nonempty D part hreach
  refine ⟨hch, ?_⟩
  intro pc hpc
  obtain ⟨e, he, hc⟩ :=
    (get_grouping_candidate_mem part outputs Level.Inline groups cand h pc).mp hpc
  obtain ⟨prod_f, cs, hf, _, hfin, hcs, hcase⟩ :=
    (grouping_candidate_of_spec part outputs Level.Inline e.1 pc).mp hc
  rcases hcase with ⟨hl, _⟩ | ⟨_, hpure, hpcv⟩
  · exact absurd hl (by simp)
  · have hname := env_find_name _ _ _ hf
    have hkey : (⟨pc.1, prod_f.updates⟩ : FStage) = e.1 :=
      FStage_eq _ _ (by rw [hpcv]; exact hname) hfin.symm
    have hupd : prod_f.has_update_definition = false := by
      simp only [Function.is_pure, Bool.and_eq_true, Bool.not_eq_true'] at hpure
      exact hpure.1.2
    have hzero : prod_f.updates = 0 := by
      simp only [Function.has_update_definition, decide_eq_false_iff_not] at hupd
      omega
    refine ⟨prod_f, cs, ?_, hpure, hupd, hzero, ?_, ?_, ?_, ?_⟩
    · rw [hpcv]
      simp only []
      rw [hname]
      exact hf
    · rw [hkey]
      exact List.mem_map.mpr ⟨e, he, rfl⟩
    · rw [hkey]
      exact hcs
    · exact hch (e.1, cs) (map_find_mem _ _ _ hcs)
    · rw [hpcv]

/-- An instance of C10 on the chain `r`, `p`, `g` as the constructor leaves
it: the candidates at `Inline` level are `p` and `r`. -/
theorem inline_pure_producers_witness :
    Partitioner.construct MachineParams.generic
      [example_function "g", example_function "p", example_function "r"] example_definitions
      [example_function "g"] [] = Except.ok example_chain_constructed ∧
    example_chain_constructed.get_grouping_candidate example_chain_constructed.groups
      example_chain_constructed.outputs Level.Inline = Except.ok [("p", ""), ("r", "")] ∧
    (∀ e ∈ example_chain_constructed.children, e.2 ≠ []) ∧
    ∀ pc ∈ [(("p", "") : String × String), ("r", "")], ∃ prod_f cs,
      env_find example_chain_constructed.env pc.1 = some prod_f ∧
      prod_f.is_pure = true ∧ prod_f.has_update_definition = false ∧ prod_f.updates = 0 ∧
      (⟨pc.1, prod_f.updates⟩ : FStage) ∈ example_chain_constructed.groups.map Prod.fst ∧
      map_find example_chain_constructed.children (⟨pc.1, prod_f.updates⟩ : FStage) =
        some cs ∧ cs ≠ [] ∧
      pc.2 = "" :=
  ⟨by rfl, by decide,
    inline_pure_producers example_definitions example_chain_constructed
      (Partitioner.reachable.construct MachineParams.generic
        [example_function "g", example_function "p", example_function "r"]
        [example_function "g"] [] example_chain_constructed (by rfl))
      example_chain_constructed.groups example_chain_constructed.outputs
      [("p", ""), ("r", "")] (by decide)⟩

/-! ### What `merge_dim_bounds` computes -/

end Halide
